import Mathlib

/-!
# Storage and concurrency core of the teaching database: embedding and properties

The definitions below follow the C++ sources function by function.

* A page of the buffer pool is identified by its page id; the page store of the
  tree is a map from page ids to page contents, and a page guard is modelled by
  the id of the page it protects (the guarded page is mutated in place).
* The slots `array_[0 .. size-1]` of a tree page are a list; `GetSize` is its
  length.  A read of a slot outside `0 .. size-1` has no specified value and is
  modelled by `none`.
* Page ids, keys and record ids are integers; keys are compared by `comparator`.
* Loops whose number of iterations is not bounded by their arguments take a
  `fuel` argument; running out of fuel gives `none`.
* A call of the lock manager is followed as far as the calling thread runs on its
  own: a wait predicate that is false at its first evaluation ends the call with
  the result `waiting`.
* The frame array of the buffer pool is a map from frame ids to page objects; a
  call of the buffer pool that does not return (an exception of the replacer, an
  index outside the frame array, a failed assertion) gives `none`.
* A call of the replacer that can throw ends in one of three ways (`Throws`); the
  order of `frame_set_` is the priority order of the spec, kept as a sorted list.
* The page guard classes hold the frame of the page object they point to; a guard
  call returns the guard, the pool and the calls it has made (`GuardEvent`).
-/

namespace bustub

/-- The invalid page id. Page ids (`page_id_t`), keys (`KeyType`, with its default value 0) and
record ids (`ValueType`) are integers. -/
def INVALID_PAGE_ID : Int := -1

/-- Three-way key comparison (`GenericComparator`): negative, zero or positive. -/
def comparator (a b : Int) : Int :=
  if a < b then -1 else if b < a then 1 else 0

/-- Insertion of `x` before position `i` of a list (at the end when `i` is past it). -/
def insertAt {α : Type} : Nat → α → List α → List α
  | 0, x, l => x :: l
  | _ + 1, x, [] => [x]
  | i + 1, x, y :: l => y :: insertAt i x l

/-- Contents of the slots `0 .. newSize-1` after the entries `xs` were written to the
slots `start, start+1, ..` of an array holding `arr`; a slot never written holds `dflt`
(the memory of a fresh page is zeroed). -/
def storeSlots {α : Type} (arr : List α) (start : Nat) (xs : List α) (newSize : Nat)
    (dflt : α) : List α :=
  (List.range newSize).map fun i =>
    if start ≤ i ∧ i < start + xs.length then xs.getD (i - start) dflt else arr.getD i dflt

/-- The binary search loop shared by the two `Lookup` functions: `l`, `r`, `ans` are the
loop variables, `keyAt mid` reads `array_[mid].first`. -/
def lookupLoop (keyAt : Int → Int) (key : Int) : Nat → Int → Int → Int → Int
  | 0, _, _, ans => ans
  | fuel + 1, l, r, ans =>
    if l ≤ r then
      let mid := (l + r) / 2
      if comparator (keyAt mid) key ≥ 0 then lookupLoop keyAt key fuel l (mid - 1) mid
      else lookupLoop keyAt key fuel (mid + 1) r ans
    else ans

/-! ## Leaf page (`b_plus_tree_leaf_page.cpp`) -/

structure LeafPage where
  max_size_ : Int
  next_page_id_ : Int
  array_ : List (Int × Int)
deriving DecidableEq

namespace LeafPage

def GetSize (p : LeafPage) : Int := p.array_.length

def GetMaxSize (p : LeafPage) : Int := p.max_size_

/-- Modelled from the spec: `GetMinSize` lives in `b_plus_tree_page.cpp`, which is not
among the sources; the spec gives leaf `min_size = ⌈(max_size − 1)/2⌉`. -/
def GetMinSize (p : LeafPage) : Int := (p.max_size_ - 1 + 1) / 2

def GetNextPageId (p : LeafPage) : Int := p.next_page_id_

def SetNextPageId (p : LeafPage) (next_page_id : Int) : LeafPage :=
  { p with next_page_id_ := next_page_id }

/-- Raw read of `array_[index].first` for the search loop (which stays inside the entries). -/
def rawKey (p : LeafPage) (index : Int) : Int := (p.array_.getD index.toNat (0, 0)).1

def KeyAt (p : LeafPage) (index : Int) : Option Int :=
  if 0 ≤ index then (p.array_.get? index.toNat).map Prod.fst else none

def ValueAt (p : LeafPage) (index : Int) : Option Int :=
  if 0 ≤ index then (p.array_.get? index.toNat).map Prod.snd else none

def GetObjAt (p : LeafPage) (index : Int) : Option (Int × Int) :=
  if 0 ≤ index then p.array_.get? index.toNat else none

/-- The first index whose key is `≥ key`, by binary search. -/
def Lookup (p : LeafPage) (key : Int) : Int :=
  lookupLoop p.rawKey key (p.array_.length + 1) 0 (p.GetSize - 1) (p.GetSize - 1 + 1)

/-- The entries shift down over `index`; the size drops by one in every case. -/
def RemoveAt (p : LeafPage) (index : Int) : LeafPage :=
  if 0 ≤ index ∧ index < p.GetSize then { p with array_ := p.array_.eraseIdx index.toNat }
  else { p with array_ := p.array_.dropLast }

def RemoveKeyAt (p : LeafPage) (key : Int) : LeafPage × Bool :=
  let index := p.Lookup key
  let n := p.GetSize
  if index ≥ 0 ∧ index < n ∧ comparator key (p.rawKey index) = 0 then (p.RemoveAt index, true)
  else (p, false)

/-- Result `(this, recipient)`. -/
def MoveFirstToEndOf (p recipient : LeafPage) : LeafPage × LeafPage :=
  match p.array_ with
  | [] => (p, recipient)
  | tmp :: rest => ({ p with array_ := rest }, { recipient with array_ := recipient.array_ ++ [tmp] })

/-- Result `(this, recipient)`; `none` when the assertion fails. -/
def MoveAllTo (p recipient : LeafPage) : Option (LeafPage × LeafPage) :=
  let n := p.GetSize
  let rn := recipient.GetSize
  if n + rn < p.GetMaxSize then
    some ({ p with array_ := [] }, { recipient with array_ := recipient.array_ ++ p.array_ })
  else none

/-- Result `(this, recipient)`; `none` when the assertion fails. -/
def MoveHalfTo (p recipient : LeafPage) : Option (LeafPage × LeafPage) :=
  let n := p.array_.length
  let rn := recipient.array_.length
  if (rn : Int) + (n : Int) / 2 < recipient.GetMaxSize then
    let moved := p.array_.drop (n / 2)
    let ri := moved.length
    some ({ p with array_ := p.array_.take (n - ri) },
          { recipient with array_ := storeSlots recipient.array_ 0 moved (rn + ri) (0, 0) })
  else none

/-- Result: the page and the returned integer (new size, or -1 when the page is full). -/
def Insert (p : LeafPage) (key : Int) (value : Int) : LeafPage × Int :=
  if p.GetSize ≠ p.GetMaxSize then
    let index := p.Lookup key
    let q := { p with array_ := insertAt index.toNat (key, value) p.array_ }
    (q, q.GetSize)
  else (p, -1)

end LeafPage

/-! ## Internal page (`b_plus_tree_internal_page.cpp`) -/

structure InternalPage where
  max_size_ : Int
  array_ : List (Int × Int)
deriving DecidableEq

namespace InternalPage

def GetSize (p : InternalPage) : Int := p.array_.length

def GetMaxSize (p : InternalPage) : Int := p.max_size_

/-- Modelled from the spec: `GetMinSize` lives in `b_plus_tree_page.cpp`, which is not
among the sources; the spec gives internal `min_size = ⌈max_size/2⌉`. -/
def GetMinSize (p : InternalPage) : Int := (p.max_size_ + 1) / 2

def rawKey (p : InternalPage) (index : Int) : Int := (p.array_.getD index.toNat (0, 0)).1

def KeyAt (p : InternalPage) (index : Int) : Option Int :=
  if 0 ≤ index then (p.array_.get? index.toNat).map Prod.fst else none

def ValueAt (p : InternalPage) (index : Int) : Option Int :=
  if 0 ≤ index then (p.array_.get? index.toNat).map Prod.snd else none

def GetValue (p : InternalPage) (index : Int) : Option Int := p.ValueAt index

/-- The first index in `1 .. size-1` whose key is `≥ key`, by binary search. -/
def Lookup (p : InternalPage) (key : Int) : Int :=
  lookupLoop p.rawKey key (p.array_.length + 1) 1 (p.GetSize - 1) (p.GetSize - 1 + 1)

def Insert (p : InternalPage) (key : Int) (value : Int) : InternalPage × Int :=
  let index := p.Lookup key
  let q := { p with array_ := insertAt index.toNat (key, value) p.array_ }
  (q, q.GetSize)

/-- Result `(this, recipient)`: the entries from `n/2` on go to the slots `1, 2, ..` of the
recipient, whose size grows by their number plus one. -/
def MoveHalfTo (p recipient : InternalPage) : InternalPage × InternalPage :=
  let n := p.array_.length
  let moved := p.array_.drop (n / 2)
  let j := 1 + moved.length
  ({ p with array_ := p.array_.take (n - (j - 1)) },
   { recipient with array_ := storeSlots recipient.array_ 1 moved (recipient.array_.length + j) (0, 0) })

def EraseAt (p : InternalPage) (index : Int) : InternalPage :=
  if 0 ≤ index ∧ index < p.GetSize then { p with array_ := p.array_.eraseIdx index.toNat }
  else { p with array_ := p.array_.dropLast }

/-- Result `(this, recipient)`; `none` when the assertion fails or the page has no slot 0. -/
def MoveAllTo (p recipient : InternalPage) : Option (InternalPage × InternalPage) :=
  let n := p.GetSize
  let rn := recipient.GetSize
  if n + rn - 2 < p.GetMaxSize ∧ 1 ≤ n then
    some ({ p with array_ := p.array_.take 1 },
          { recipient with array_ := recipient.array_ ++ p.array_.drop 1 })
  else none

def SetValueAt (p : InternalPage) (index : Int) (value : Int) : InternalPage :=
  if 0 ≤ index then
    { p with array_ := p.array_.modify (fun e => (e.1, value)) index.toNat }
  else p

def SetKeyAt (p : InternalPage) (index : Int) (key : Int) : InternalPage :=
  if 0 ≤ index then
    { p with array_ := p.array_.modify (fun e => (key, e.2)) index.toNat }
  else p

/-- The new slot 0 holds the default key `KeyType()` and the given child. -/
def InsertFirstOf (p : InternalPage) (value : Int) : InternalPage :=
  { p with array_ := (0, value) :: p.array_ }

def RemoveKeyAt (p : InternalPage) (key : Int) : InternalPage × Bool :=
  let index := p.Lookup key
  let n := p.GetSize
  if index ≥ 0 ∧ index < n then (p.EraseAt index, true) else (p, false)

end InternalPage

/-! ## Tree pages, page store and descent context (`b_plus_tree.cpp`) -/

inductive BPlusTreePage where
  | leaf (p : LeafPage)
  | internal (p : InternalPage)
deriving DecidableEq

namespace BPlusTreePage

def IsLeafPage : BPlusTreePage → Bool
  | leaf _ => true
  | internal _ => false

def GetSize : BPlusTreePage → Int
  | leaf p => p.GetSize
  | internal p => p.GetSize

def GetMaxSize : BPlusTreePage → Int
  | leaf p => p.GetMaxSize
  | internal p => p.GetMaxSize

def GetMinSize : BPlusTreePage → Int
  | leaf p => p.GetMinSize
  | internal p => p.GetMinSize

/-- The page read through a leaf-page pointer; `none` when it is not a leaf. -/
def asLeaf : BPlusTreePage → Option LeafPage
  | leaf p => some p
  | internal _ => none

/-- The page read through an internal-page pointer; `none` when it is a leaf. -/
def asInternal : BPlusTreePage → Option InternalPage
  | leaf _ => none
  | internal p => some p

end BPlusTreePage

/-- The tree object together with the pages it reaches through the buffer pool:
`root_page_id_` is the content of the header page, `pages` the content of every allocated
page, `next_page_id_` the allocation counter of the buffer pool, `deleted` the page ids
handed to `DeletePage` so far. -/
structure BPlusTree where
  leaf_max_size_ : Int
  internal_max_size_ : Int
  header_page_id_ : Int
  root_page_id_ : Int
  pages : Int → Option BPlusTreePage
  next_page_id_ : Int
  deleted : List Int

/-- The descent context.  A guard is the id of the page it holds; `write_set_` and
`read_set_` list their guards from the back of the deque to its front, `access_set_` from
front to back; `header_page_` tells whether the write guard of the header page is held. -/
structure Context where
  root_page_id_ : Int
  header_page_ : Bool
  write_set_ : List Int
  read_set_ : List Int
  access_set_ : List Int

/-- A fresh context. -/
def Context.new : Context :=
  { root_page_id_ := INVALID_PAGE_ID, header_page_ := false, write_set_ := [], read_set_ := [],
    access_set_ := [] }

/-- Removal of `write_set_.back()`: the guard and the remaining context. -/
def Context.popWrite (ctx : Context) : Option (Int × Context) :=
  match ctx.write_set_ with
  | [] => none
  | g :: rest => some (g, { ctx with write_set_ := rest })

namespace BPlusTree

/-- The tree right after its constructor: the header page holds no root. -/
def empty (leaf_max_size internal_max_size : Int) : BPlusTree :=
  { leaf_max_size_ := leaf_max_size, internal_max_size_ := internal_max_size,
    header_page_id_ := 0, root_page_id_ := INVALID_PAGE_ID, pages := fun _ => none,
    next_page_id_ := 1, deleted := [] }

/-- Allocation of a page by the buffer pool (`AllocatePage` returns `next_page_id_++`). -/
def NewPage (t : BPlusTree) : Int × BPlusTree :=
  (t.next_page_id_, { t with next_page_id_ := t.next_page_id_ + 1 })

/-- In-place mutation of the page behind a guard. -/
def setPage (t : BPlusTree) (id : Int) (p : BPlusTreePage) : BPlusTree :=
  { t with pages := fun i => if i = id then some p else t.pages i }

/-- The call `bpm_->DeletePage(id)`: page ids are never reused, the call is recorded. -/
def DeletePage (t : BPlusTree) (id : Int) : BPlusTree :=
  { t with deleted := id :: t.deleted }

def leafAt (t : BPlusTree) (id : Int) : Option LeafPage :=
  (t.pages id).bind BPlusTreePage.asLeaf

def internalAt (t : BPlusTree) (id : Int) : Option InternalPage :=
  (t.pages id).bind BPlusTreePage.asInternal

def GetRootPageId (t : BPlusTree) : Int := t.root_page_id_

def IsEmpty (t : BPlusTree) : Bool := t.root_page_id_ == INVALID_PAGE_ID

/-- The header page is written through the guard kept in the context; `none` without it. -/
def SetRootPageId (t : BPlusTree) (page_id : Int) (ctx : Context) :
    Option (BPlusTree × Context) :=
  if ctx.header_page_ then
    some ({ t with root_page_id_ := page_id }, { ctx with root_page_id_ := page_id })
  else none

def SetTreeEmpty (t : BPlusTree) (ctx : Context) : Option (BPlusTree × Context) :=
  if ctx.header_page_ then some ({ t with root_page_id_ := INVALID_PAGE_ID }, ctx) else none

/-- The child an internal page sends `key` to: `GetValue(i)` when the key at the looked-up
index `i` equals `key`, `GetValue(i - 1)` otherwise. -/
def childFor (p : InternalPage) (key : Int) : Option Int :=
  let i := p.Lookup key
  if i ≠ p.GetSize ∧ comparator key (p.rawKey i) = 0 then p.GetValue i else p.GetValue (i - 1)

/-- The `while (!root_page->IsLeafPage())` loop of `GetKeyAt`: `root_page_id` is the current
page, whose read guard is at the back of `read_set_`. -/
def GetKeyAtLoop (t : BPlusTree) (key : Int) :
    Nat → Int → Context → Option (Context × Int)
  | 0, _, _ => none
  | fuel + 1, root_page_id, ctx =>
    match t.pages root_page_id with
    | none => none
    | some (BPlusTreePage.leaf _) => some (ctx, root_page_id)
    | some (BPlusTreePage.internal root_page) =>
      match childFor root_page key with
      | none => none
      | some child =>
        GetKeyAtLoop t key fuel child
          { ctx with read_set_ := child :: ctx.read_set_.tail,
                     access_set_ := ctx.access_set_ ++ [child] }

def GetKeyAt (fuel : Nat) (t : BPlusTree) (key : Int) (ctx : Context) :
    Option (Context × Int) :=
  let root_page_id := t.root_page_id_
  let ctx := { ctx with root_page_id_ := root_page_id,
                        read_set_ := t.header_page_id_ :: ctx.read_set_ }
  if root_page_id = INVALID_PAGE_ID then some (ctx, INVALID_PAGE_ID)
  else
    GetKeyAtLoop t key fuel root_page_id
      { ctx with access_set_ := ctx.access_set_ ++ [root_page_id],
                 read_set_ := root_page_id :: ctx.read_set_ }

/-- Result: the returned flag and the `result` vector (empty before the call). -/
def GetValue (fuel : Nat) (t : BPlusTree) (key : Int) : Option (Bool × List Int) :=
  match GetKeyAt fuel t key Context.new with
  | none => none
  | some (ctx, leaf_page_id) =>
    if leaf_page_id = INVALID_PAGE_ID then some (false, [])
    else
      match ctx.read_set_ with
      | [] => none
      | leaf_page_guard :: _ =>
        match t.leafAt leaf_page_guard with
        | none => none
        | some leaf_page =>
          let i := leaf_page.Lookup key
          if i ≥ 0 ∧ i < leaf_page.GetSize ∧ comparator (leaf_page.rawKey i) key = 0 then
            some (true, [(leaf_page.array_.getD i.toNat (0, 0)).2])
          else some (false, [])

/-- The loop of `InsertGetKeyAt`: a child with `size + 1 < max_size` releases the header
guard and every guard of `write_set_` before its own guard is pushed. -/
def InsertGetKeyAtLoop (t : BPlusTree) (key : Int) :
    Nat → Int → Context → Option (Context × Int)
  | 0, _, _ => none
  | fuel + 1, root_page_id, ctx =>
    match t.pages root_page_id with
    | none => none
    | some (BPlusTreePage.leaf _) => some (ctx, root_page_id)
    | some (BPlusTreePage.internal root_page) =>
      match childFor root_page key with
      | none => none
      | some child =>
        match t.pages child with
        | none => none
        | some child_page =>
          let ctx :=
            if child_page.GetSize + 1 < child_page.GetMaxSize then
              { ctx with header_page_ := false, write_set_ := [] }
            else ctx
          InsertGetKeyAtLoop t key fuel child
            { ctx with write_set_ := child :: ctx.write_set_,
                       access_set_ := ctx.access_set_ ++ [child] }

def InsertGetKeyAt (fuel : Nat) (t : BPlusTree) (key : Int) (ctx : Context) :
    Option (BPlusTree × Context × Int) :=
  let ctx := { ctx with header_page_ := true }
  let root_page_id := t.root_page_id_
  if root_page_id = INVALID_PAGE_ID then
    let (root_page_id, t) := t.NewPage
    let p_leaf_page : LeafPage :=
      { max_size_ := t.leaf_max_size_, next_page_id_ := INVALID_PAGE_ID, array_ := [] }
    let t := t.setPage root_page_id (BPlusTreePage.leaf p_leaf_page)
    match SetRootPageId t root_page_id ctx with
    | none => none
    | some (t, ctx) =>
      some (t, { ctx with write_set_ := root_page_id :: ctx.write_set_,
                          access_set_ := ctx.access_set_ ++ [root_page_id],
                          root_page_id_ := root_page_id }, root_page_id)
  else
    let ctx := { ctx with root_page_id_ := root_page_id }
    match t.pages root_page_id with
    | none => none
    | some _ =>
      match InsertGetKeyAtLoop t key fuel root_page_id
          { ctx with access_set_ := ctx.access_set_ ++ [root_page_id],
                     write_set_ := root_page_id :: ctx.write_set_ } with
      | none => none
      | some (ctx, leaf_page_id) => some (t, ctx, leaf_page_id)

/-- The scan of `access_set_` for the page visited right before `child`; `none` when the
scan runs off the end. -/
def GetParentPageIdFrom (child : Int) : List Int → Int → Option Int
  | [], _ => none
  | x :: rest, parent_id => if x = child then some parent_id else GetParentPageIdFrom child rest x

def GetParentPageId (child : Int) (ctx : Context) : Option Int :=
  GetParentPageIdFrom child ctx.access_set_ INVALID_PAGE_ID

/-- The function `InsertInParent`; every recursive call has popped one guard of `write_set_`,
which bounds the recursion (`fuel`). -/
def InsertInParentAux :
    Nat → BPlusTree → Int → Int → Int → Context → Option BPlusTree
  | 0, _, _, _, _, _ => none
  | fuel + 1, t, leaf_page_left_id, key, leaf_page_right_id, ctx =>
    let root_page_id := ctx.root_page_id_
    if root_page_id = leaf_page_left_id then
      let (root_page_new_id, t) := t.NewPage
      let root_page_new : InternalPage := { max_size_ := t.internal_max_size_, array_ := [] }
      let root_page_new := root_page_new.InsertFirstOf leaf_page_left_id
      let root_page_new := (root_page_new.Insert key leaf_page_right_id).1
      let t := t.setPage root_page_new_id (BPlusTreePage.internal root_page_new)
      (SetRootPageId t root_page_new_id ctx).map Prod.fst
    else
      match GetParentPageId leaf_page_left_id ctx, ctx.popWrite with
      | some parent_page_id, some (parent_page_guard, ctx) =>
        match t.internalAt parent_page_guard with
        | none => none
        | some parent_page =>
          if parent_page.GetSize < parent_page.GetMaxSize then
            some (t.setPage parent_page_guard
              (BPlusTreePage.internal (parent_page.Insert key leaf_page_right_id).1))
          else
            let index := parent_page.Lookup key
            let (parent_page_new_id, t) := t.NewPage
            let parent_page_new : InternalPage :=
              { max_size_ := t.internal_max_size_, array_ := [] }
            let (parent_page, parent_page_new) := parent_page.MoveHalfTo parent_page_new
            let (parent_page, parent_page_new) :=
              if index > parent_page.GetMaxSize / 2 then
                (parent_page, (parent_page_new.Insert key leaf_page_right_id).1)
              else ((parent_page.Insert key leaf_page_right_id).1, parent_page_new)
            match parent_page_new.KeyAt 1, parent_page_new.ValueAt 1 with
            | some mid_key, some mid_page_id =>
              let parent_page_new := parent_page_new.EraseAt 1
              let parent_page_new := parent_page_new.EraseAt 0
              let parent_page_new := parent_page_new.InsertFirstOf mid_page_id
              let t := t.setPage parent_page_guard (BPlusTreePage.internal parent_page)
              let t := t.setPage parent_page_new_id (BPlusTreePage.internal parent_page_new)
              InsertInParentAux fuel t parent_page_id mid_key parent_page_new_id ctx
            | _, _ => none
      | _, _ => none

def InsertInParent (t : BPlusTree) (leaf_page_left_id : Int) (key : Int)
    (leaf_page_right_id : Int) (ctx : Context) : Option BPlusTree :=
  InsertInParentAux (ctx.write_set_.length + 1) t leaf_page_left_id key leaf_page_right_id ctx

/-- The part of `Insert` after the descent `InsertGetKeyAt`, on the context and the leaf page
id the descent returned.  Result: the tree after the call and the returned flag. -/
def InsertIntoLeaf (t : BPlusTree) (key : Int) (value : Int) (ctx : Context)
    (leaf_page_id : Int) : Option (BPlusTree × Bool) :=
  match ctx.popWrite with
  | none => none
  | some (leaf_page_guard, ctx) =>
    match t.leafAt leaf_page_guard with
    | none => none
    | some leaf_page =>
      let index := leaf_page.Lookup key
      if index > 0 ∧ index < leaf_page.GetSize ∧ comparator (leaf_page.rawKey index) key = 0 then
        some (t, false)
      else if leaf_page.GetSize + 1 < leaf_page.GetMaxSize then
        some (t.setPage leaf_page_guard (BPlusTreePage.leaf (leaf_page.Insert key value).1), true)
      else
        let (leaf_page_id_new, t) := t.NewPage
        let leaf_page_new : LeafPage :=
          { max_size_ := t.leaf_max_size_, next_page_id_ := leaf_page.GetNextPageId,
            array_ := [] }
        match leaf_page.MoveHalfTo leaf_page_new with
        | none => none
        | some (leaf_page, leaf_page_new) =>
          let leaf_page := leaf_page.SetNextPageId leaf_page_id_new
          let (leaf_page, leaf_page_new) :=
            if index ≤ (leaf_page.GetMaxSize - 1) / 2 then
              ((leaf_page.Insert key value).1, leaf_page_new)
            else (leaf_page, (leaf_page_new.Insert key value).1)
          match leaf_page_new.KeyAt 0 with
          | none => none
          | some mid_key =>
            let t := t.setPage leaf_page_guard (BPlusTreePage.leaf leaf_page)
            let t := t.setPage leaf_page_id_new (BPlusTreePage.leaf leaf_page_new)
            (InsertInParent t leaf_page_id mid_key leaf_page_id_new ctx).map fun t => (t, true)

/-- Result: the tree after the call and the returned flag. -/
def Insert (fuel : Nat) (t : BPlusTree) (key : Int) (value : Int) :
    Option (BPlusTree × Bool) :=
  match InsertGetKeyAt fuel t key Context.new with
  | none => none
  | some (t, ctx, leaf_page_id) => InsertIntoLeaf t key value ctx leaf_page_id

/-- The loop of `DeleteGetKeyAt`: a child with `size - 1 ≥ min_size` releases the header
guard and every guard of `write_set_` before its own guard is pushed. -/
def DeleteGetKeyAtLoop (t : BPlusTree) (key : Int) :
    Nat → Int → Context → Option (Context × Int)
  | 0, _, _ => none
  | fuel + 1, root_page_id, ctx =>
    match t.pages root_page_id with
    | none => none
    | some (BPlusTreePage.leaf _) => some (ctx, root_page_id)
    | some (BPlusTreePage.internal root_page) =>
      match childFor root_page key with
      | none => none
      | some child =>
        match t.pages child with
        | none => none
        | some child_page =>
          let ctx :=
            if child_page.GetSize - 1 ≥ child_page.GetMinSize then
              { ctx with header_page_ := false, write_set_ := [] }
            else ctx
          DeleteGetKeyAtLoop t key fuel child
            { ctx with write_set_ := child :: ctx.write_set_,
                       access_set_ := ctx.access_set_ ++ [child] }

def DeleteGetKeyAt (fuel : Nat) (t : BPlusTree) (key : Int) (ctx : Context) :
    Option (Context × Int) :=
  let ctx := { ctx with header_page_ := true }
  let root_page_id := t.root_page_id_
  let ctx := { ctx with root_page_id_ := root_page_id }
  if ctx.root_page_id_ = INVALID_PAGE_ID then some (ctx, INVALID_PAGE_ID)
  else
    match t.pages root_page_id with
    | none => none
    | some _ =>
      DeleteGetKeyAtLoop t key fuel root_page_id
        { ctx with access_set_ := ctx.access_set_ ++ [root_page_id],
                   write_set_ := root_page_id :: ctx.write_set_ }

/-- Result: the sibling page id and the key of the parent between the two pages. -/
def GetSiblingPageId (parent_page : InternalPage) (key : Int) : Option (Int × Int) :=
  let index := parent_page.Lookup key
  let n := parent_page.GetSize
  if index = n then
    match parent_page.ValueAt (index - 2), parent_page.KeyAt (index - 1) with
    | some sibling_page_id, some parent_key => some (sibling_page_id, parent_key)
    | _, _ => none
  else if index > 1 ∧ index ≤ n - 1 then
    match parent_page.KeyAt index with
    | none => none
    | some k =>
      if comparator key k = 0 then
        match parent_page.ValueAt (index - 1), parent_page.KeyAt index with
        | some sibling_page_id, some parent_key => some (sibling_page_id, parent_key)
        | _, _ => none
      else
        match parent_page.ValueAt (index - 2), parent_page.KeyAt (index - 1) with
        | some sibling_page_id, some parent_key => some (sibling_page_id, parent_key)
        | _, _ => none
  else
    match parent_page.KeyAt index with
    | none => none
    | some k =>
      if comparator key k = 0 then
        match parent_page.ValueAt (index - 1), parent_page.KeyAt index with
        | some sibling_page_id, some parent_key => some (sibling_page_id, parent_key)
        | _, _ => none
      else
        match parent_page.ValueAt index, parent_page.KeyAt index with
        | some sibling_page_id, some parent_key => some (sibling_page_id, parent_key)
        | _, _ => none

/-- Result `none` when the assertion fails. -/
def ReplaceKeyAt (page : InternalPage) (src dst : Int) : Option InternalPage :=
  let index := page.Lookup src
  if ¬ (index < 0 ∨ index ≥ page.GetSize) then some (page.SetKeyAt index dst) else none

/-- The test `index == 1 && comparator_(key, parent_page->KeyAt(1)) < 0` of `RemoveEntry`:
the sibling is to the right of the page. -/
def siblingOnRight (parent_page : InternalPage) (key : Int) : Option Bool :=
  let index := parent_page.Lookup key
  if index = 1 then (parent_page.KeyAt 1).map fun k => decide (comparator key k < 0)
  else some false

/-- The merge branch of `RemoveEntry` on two pages of one kind: `basic` moves into `sibling`
(for internal pages after the parent key `mid_key` and the first child of `basic`). -/
def mergeInto (basic_page sibling_page : BPlusTreePage) (mid_key : Int) :
    Option (BPlusTreePage × BPlusTreePage) :=
  match basic_page, sibling_page with
  | BPlusTreePage.internal basic_internal_page, BPlusTreePage.internal sibling_internal_page =>
    match basic_internal_page.ValueAt 0 with
    | none => none
    | some mid_key_page_id =>
      let sibling_internal_page := (sibling_internal_page.Insert mid_key mid_key_page_id).1
      (basic_internal_page.MoveAllTo sibling_internal_page).map fun r =>
        (BPlusTreePage.internal r.1, BPlusTreePage.internal r.2)
  | BPlusTreePage.leaf basic_leaf_page, BPlusTreePage.leaf sibling_leaf_page =>
    (basic_leaf_page.MoveAllTo sibling_leaf_page).map fun r =>
      (BPlusTreePage.leaf r.1,
       BPlusTreePage.leaf (r.2.SetNextPageId r.1.GetNextPageId))
  | _, _ => none

/-- The borrow branch of `RemoveEntry` when the sibling is to the right.
Result `(basic, sibling, parent)`. -/
def borrowFromRight (basic_page sibling_page : BPlusTreePage) (parent_page : InternalPage)
    (mid_key : Int) : Option (BPlusTreePage × BPlusTreePage × InternalPage) :=
  match basic_page, sibling_page with
  | BPlusTreePage.internal basic_internal_page, BPlusTreePage.internal sibling_internal_page =>
    let m : Int := 0
    match sibling_internal_page.ValueAt m, sibling_internal_page.KeyAt (m + 1) with
    | some first_page_id, some first_key =>
      let basic_internal_page := (basic_internal_page.Insert mid_key first_page_id).1
      let sibling_internal_page := sibling_internal_page.EraseAt 0
      let sibling_internal_page := sibling_internal_page.SetKeyAt 0 0
      (ReplaceKeyAt parent_page mid_key first_key).map fun parent_page =>
        (BPlusTreePage.internal basic_internal_page,
         BPlusTreePage.internal sibling_internal_page, parent_page)
    | _, _ => none
  | BPlusTreePage.leaf basic_leaf_page, BPlusTreePage.leaf sibling_leaf_page =>
    let (sibling_leaf_page, basic_leaf_page) := sibling_leaf_page.MoveFirstToEndOf basic_leaf_page
    match sibling_leaf_page.KeyAt 0 with
    | none => none
    | some second_key =>
      (ReplaceKeyAt parent_page mid_key second_key).map fun parent_page =>
        (BPlusTreePage.leaf basic_leaf_page, BPlusTreePage.leaf sibling_leaf_page, parent_page)
  | _, _ => none

/-- The borrow branch of `RemoveEntry` when the sibling is to the left.
Result `(basic, sibling, parent)`. -/
def borrowFromLeft (basic_page sibling_page : BPlusTreePage) (parent_page : InternalPage)
    (mid_key : Int) : Option (BPlusTreePage × BPlusTreePage × InternalPage) :=
  match basic_page, sibling_page with
  | BPlusTreePage.internal basic_internal_page, BPlusTreePage.internal sibling_internal_page =>
    let m := sibling_internal_page.GetSize - 1
    match sibling_internal_page.ValueAt m, sibling_internal_page.KeyAt m,
        basic_internal_page.ValueAt 0 with
    | some last_page_id, some last_key, some basic_pointer_page_id =>
      let sibling_internal_page := sibling_internal_page.EraseAt m
      let basic_internal_page := basic_internal_page.SetValueAt 0 last_page_id
      let basic_internal_page := (basic_internal_page.Insert mid_key basic_pointer_page_id).1
      (ReplaceKeyAt parent_page mid_key last_key).map fun parent_page =>
        (BPlusTreePage.internal basic_internal_page,
         BPlusTreePage.internal sibling_internal_page, parent_page)
    | _, _, _ => none
  | BPlusTreePage.leaf basic_leaf_page, BPlusTreePage.leaf sibling_leaf_page =>
    let m := sibling_leaf_page.GetSize - 1
    match sibling_leaf_page.ValueAt m, sibling_leaf_page.KeyAt m with
    | some last_value, some last_key =>
      let sibling_leaf_page := sibling_leaf_page.RemoveAt m
      let basic_leaf_page := (basic_leaf_page.Insert last_key last_value).1
      (ReplaceKeyAt parent_page mid_key last_key).map fun parent_page =>
        (BPlusTreePage.leaf basic_leaf_page, BPlusTreePage.leaf sibling_leaf_page, parent_page)
    | _, _ => none
  | _, _ => none

/-- The removal of `key` from a page through its leaf or internal `RemoveKeyAt`. -/
def removeKeyFromPage (basic_page : BPlusTreePage) (key : Int) : BPlusTreePage × Bool :=
  match basic_page with
  | BPlusTreePage.leaf leaf_page =>
    ((BPlusTreePage.leaf (leaf_page.RemoveKeyAt key).1), (leaf_page.RemoveKeyAt key).2)
  | BPlusTreePage.internal internal_page =>
    ((BPlusTreePage.internal (internal_page.RemoveKeyAt key).1), (internal_page.RemoveKeyAt key).2)

/-- The function `RemoveEntry`; every recursive call runs on a `write_set_` one guard
shorter, which bounds the recursion (`fuel`). -/
def RemoveEntryAux : Nat → BPlusTree → Int → Int → Context → Option BPlusTree
  | 0, _, _, _, _ => none
  | fuel + 1, t, basic_page_id, key, ctx =>
    match ctx.popWrite with
    | none => none
    | some (basic_page_guard, ctx) =>
      match t.pages basic_page_guard with
      | none => none
      | some basic_page0 =>
        let (basic_page, is_success) := removeKeyFromPage basic_page0 key
        let t := t.setPage basic_page_guard basic_page
        if ¬ is_success then some t
        else
          let root_page_id := ctx.root_page_id_
          if basic_page_id = root_page_id ∧ basic_page.GetSize = 0 then
            (SetTreeEmpty t ctx).map fun r => r.1.DeletePage root_page_id
          else if basic_page_id = root_page_id ∧ basic_page.GetSize = 1 ∧ ¬ basic_page.IsLeafPage then
            match basic_page.asInternal.bind fun root_page => root_page.ValueAt 0 with
            | none => none
            | some child => (SetRootPageId t child ctx).map fun r => r.1.DeletePage root_page_id
          else if basic_page.GetSize ≥ basic_page.GetMinSize then some t
          else if basic_page_id ≠ root_page_id ∧ basic_page.GetSize < basic_page.GetMinSize then
            match GetParentPageId basic_page_id ctx with
            | none => none
            | some parent_page_id =>
              if parent_page_id = INVALID_PAGE_ID then none
              else
                match ctx.popWrite with
                | none => none
                | some (parent_page_guard, ctx) =>
                  match t.internalAt parent_page_guard with
                  | none => none
                  | some parent_page =>
                    match GetSiblingPageId parent_page key with
                    | none => none
                    | some (sibling_id, mid_key) =>
                      match t.pages sibling_id, siblingOnRight parent_page key with
                      | some sibling_page, some on_right =>
                        if sibling_page.GetSize - 1 < sibling_page.GetMinSize then
                          let (basic_page, basic_page_guard, basic_page_id, sibling_page,
                               sibling_page_guard) :=
                            if on_right then
                              (sibling_page, sibling_id, sibling_id, basic_page, basic_page_guard)
                            else (basic_page, basic_page_guard, basic_page_id, sibling_page, sibling_id)
                          match mergeInto basic_page sibling_page mid_key with
                          | none => none
                          | some (basic_page, sibling_page) =>
                            let t := t.setPage sibling_page_guard sibling_page
                            let t := t.setPage basic_page_guard basic_page
                            let ctx := { ctx with write_set_ := parent_page_guard :: ctx.write_set_ }
                            (RemoveEntryAux fuel t parent_page_id mid_key ctx).map fun t =>
                              t.DeletePage basic_page_id
                        else
                          match (if on_right then borrowFromRight basic_page sibling_page parent_page mid_key
                                 else borrowFromLeft basic_page sibling_page parent_page mid_key) with
                          | none => none
                          | some (basic_page, sibling_page, parent_page) =>
                            let t := t.setPage parent_page_guard (BPlusTreePage.internal parent_page)
                            let t := t.setPage sibling_id sibling_page
                            some (t.setPage basic_page_guard basic_page)
                      | _, _ => none
          else some t

def RemoveEntry (t : BPlusTree) (basic_page_id : Int) (key : Int) (ctx : Context) :
    Option BPlusTree :=
  RemoveEntryAux (ctx.write_set_.length + 1) t basic_page_id key ctx

def Remove (fuel : Nat) (t : BPlusTree) (key : Int) : Option BPlusTree :=
  match DeleteGetKeyAt fuel t key Context.new with
  | none => none
  | some (ctx, leaf_page_id) =>
    if ctx.root_page_id_ = INVALID_PAGE_ID then some t
    else RemoveEntry t leaf_page_id key ctx

end BPlusTree

/-! ## Index iterator (`index_iterator.cpp`) -/

/-- The iterator: `bpm_` tells whether the buffer-pool pointer is set, `page_` is the leaf
page pointed to (`none` for the null pointer), `index_` the position in it. -/
structure IndexIterator where
  bpm_ : Bool
  page_ : Option Int
  index_ : Int
deriving DecidableEq

namespace IndexIterator

def IsEnd (it : IndexIterator) : Bool :=
  it.page_.isNone && !it.bpm_ && it.index_ == -1

/-- The entry under the iterator (`operator*`). -/
def deref (t : BPlusTree) (it : IndexIterator) : Option (Int × Int) :=
  match it.page_ with
  | none => none
  | some id => (t.leafAt id).bind fun page => page.GetObjAt it.index_

/-- The step of the iterator (`operator++`). -/
def next (t : BPlusTree) (it : IndexIterator) : Option IndexIterator :=
  match it.page_ with
  | none => none
  | some id =>
    match t.leafAt id with
    | none => none
    | some page =>
      if it.index_ + 1 ≥ page.GetSize then
        let next_page_id := page.GetNextPageId
        if next_page_id ≠ INVALID_PAGE_ID then
          some { it with page_ := some next_page_id, index_ := 0 }
        else some { page_ := none, index_ := -1, bpm_ := false }
      else some { it with index_ := it.index_ + 1 }

end IndexIterator

namespace BPlusTree

/-- The iterator `INDEXITERATOR_TYPE(nullptr, nullptr, -1, BasicPageGuard())`. -/
def End : IndexIterator := { bpm_ := false, page_ := none, index_ := -1 }

/-- Modelled from the spec: the default constructor `IndexIterator()` takes its member
initialisers from `index_iterator.h`, which is not among the sources; the spec calls the
iterator without a page the terminal iterator with null pointers. -/
def defaultIterator : IndexIterator := { bpm_ := false, page_ := none, index_ := -1 }

/-- The loop of `Begin()`: down the first child until a leaf. -/
def BeginLoop (t : BPlusTree) : Nat → Int → Option Int
  | 0, _ => none
  | fuel + 1, root_page_guard =>
    match t.pages root_page_guard with
    | none => none
    | some (BPlusTreePage.leaf _) => some root_page_guard
    | some (BPlusTreePage.internal root_page) =>
      match root_page.ValueAt 0 with
      | none => none
      | some root_page_id =>
        if root_page_id ≠ INVALID_PAGE_ID then BeginLoop t fuel root_page_id
        else BeginLoop t fuel root_page_guard

def Begin (fuel : Nat) (t : BPlusTree) : Option IndexIterator :=
  let root_page_id := t.GetRootPageId
  if root_page_id = INVALID_PAGE_ID then some defaultIterator
  else
    (BeginLoop t fuel root_page_id).map fun leaf =>
      { bpm_ := true, page_ := some leaf, index_ := 0 }

/-- The keys met by the loop `for (it = Begin(); !it.IsEnd(); ++it)` from the iterator
`it` on, and the iterator the loop ends with. -/
def traverse (t : BPlusTree) : Nat → IndexIterator → Option (List Int × IndexIterator)
  | 0, _ => none
  | fuel + 1, it =>
    if it.IsEnd then some ([], it)
    else
      match IndexIterator.deref t it, IndexIterator.next t it with
      | some e, some it' => (traverse t fuel it').map fun r => (e.1 :: r.1, r.2)
      | _, _ => none

/-- The tree after the calls `Insert(k, v)` for the pairs of a list, in order. -/
def insertAll (fuel : Nat) : BPlusTree → List (Int × Int) → Option BPlusTree
  | t, [] => some t
  | t, (k, v) :: rest =>
    match Insert fuel t k v with
    | none => none
    | some (t', _) => insertAll fuel t' rest

end BPlusTree

/-! ## Well-formed trees -/

namespace BPlusTree

/-- The number of leading keys smaller than `key`: on ascending keys, the first index whose
key is `≥ key`. -/
def lowerBound : List Int → Int → Nat
  | [], _ => 0
  | x :: xs, key => if x < key then lowerBound xs key + 1 else 0

/-- Strictly ascending keys. -/
def Ascending (l : List Int) : Prop := l.Pairwise fun a b => a < b

/-- The lower bound `lo` of a key range, which may be absent, is `≤ k`. -/
def loLe (lo : Option Int) (k : Int) : Prop := ∀ l, lo = some l → l ≤ k

/-- The lower bound `lo`, which may be absent, is `< k`. -/
def loLt (lo : Option Int) (k : Int) : Prop := ∀ l, lo = some l → l < k

/-- The key `k` is below the upper bound `hi`, which may be absent. -/
def ltHi (k : Int) (hi : Option Int) : Prop := ∀ h, hi = some h → k < h

/-- The bounds of a key range, as far as present, are in strict order. -/
def loLtHi (lo hi : Option Int) : Prop := ∀ l h, lo = some l → hi = some h → l < h

/-- The value a list of leaf entries holds for a key: that of the first entry with the key. -/
def leafFind : List (Int × Int) → Int → Option Int
  | [], _ => none
  | e :: rest, key => if e.1 = key then some e.2 else leafFind rest key

/-- The map `M` with the value of `key` replaced by `a` (`none`: no value). -/
def setAt (M : Int → Option Int) (key : Int) (a : Option Int) : Int → Option Int :=
  fun k => if k = key then a else M k

/-- A well-formed leaf for the key range `lo .. hi` that holds the part of the map `M` in
that range: the size is below `max_size`, the keys ascend strictly and lie in the range. -/
structure LeafOK (leafMax : Int) (M : Int → Option Int) (p : LeafPage) (lo hi : Option Int) :
    Prop where
  max : p.max_size_ = leafMax
  size : (p.array_.length : Int) < leafMax
  asc : Ascending (p.array_.map Prod.fst)
  lo_le : ∀ e ∈ p.array_, loLe lo e.1
  lt_hi : ∀ e ∈ p.array_, ltHi e.1 hi
  map : ∀ k, loLe lo k → ltHi k hi → leafFind p.array_ k = M k

/-- The entries of an internal page as a chain of subtrees: the child of the first entry
covers the keys from `lo` up to the key of the second entry, and so on, the child of the last
entry covers the keys up to `hi`; the separator keys are in strict order between `lo` and `hi`;
`P c lo hi S` says that the child `c` is a subtree for the range `lo .. hi` with its pages in
`S`, and the page sets of different children are disjoint parts of `S`. -/
def Children (P : Int → Option Int → Option Int → Set Int → Prop) :
    Option Int → List (Int × Int) → Option Int → Set Int → Prop
  | _, [], _, _ => False
  | lo, [e], hi, S => P e.2 lo hi S ∧ loLtHi lo hi
  | lo, e :: e' :: rest, hi, S =>
    ∃ S1 S2, P e.2 lo (some e'.1) S1 ∧ loLt lo e'.1 ∧
      Children P (some e'.1) (e' :: rest) hi S2 ∧
      (∀ x, x ∈ S1 → x ∉ S2) ∧ S1 ⊆ S ∧ S2 ⊆ S

/-- The page `pid` is the root of a well-formed subtree of height `h` (0: a leaf) for the key
range `lo .. hi`, whose pages all lie in `S`, and which holds the part of the map `M` in
that range.  The page sizes are bounded by `leafMax` and `internalMax`, every internal page
has at least `minChildren` children. -/
def Sub (pages : Int → Option BPlusTreePage) (leafMax internalMax : Int) (minChildren : Nat)
    (M : Int → Option Int) : Nat → Int → Option Int → Option Int → Set Int → Prop
  | 0, pid, lo, hi, S =>
    ∃ p, pages pid = some (BPlusTreePage.leaf p) ∧ LeafOK leafMax M p lo hi ∧ pid ∈ S
  | h + 1, pid, lo, hi, S =>
    ∃ p S', pages pid = some (BPlusTreePage.internal p) ∧ p.max_size_ = internalMax ∧
      (p.array_.length : Int) ≤ internalMax ∧ minChildren ≤ p.array_.length ∧
      Children (Sub pages leafMax internalMax minChildren M h) lo p.array_ hi S' ∧
      pid ∉ S' ∧ pid ∈ S ∧ S' ⊆ S

/-- A part of the chain of an internal page that may be empty: the empty part covers no keys
(`lo = hi`). -/
def Seg (P : Int → Option Int → Option Int → Set Int → Prop) (lo : Option Int)
    (l : List (Int × Int)) (hi : Option Int) (S : Set Int) : Prop :=
  match l with
  | [] => lo = hi
  | e :: rest => Children P lo (e :: rest) hi S

/-- The key of the first entry of a list of entries, `dflt` for the empty list. -/
def headKey (l : List (Int × Int)) (dflt : Option Int) : Option Int :=
  match l with
  | [] => dflt
  | e :: _ => some e.1

/-- The lower bound of the child of `e` in the chain `l1 ++ e :: l2` that starts at `lo`. -/
def lowKey (l1 : List (Int × Int)) (e : Int × Int) (lo : Option Int) : Option Int :=
  match l1 with
  | [] => lo
  | _ :: _ => some e.1

/-- The range `lo' .. hi'` lies in the range `lo .. hi`. -/
def RangeIn (lo' hi' lo hi : Option Int) : Prop :=
  ∀ k, loLe lo' k → ltHi k hi' → loLe lo k ∧ ltHi k hi

/-- The answer of `GetValue` for a key that the map sends to `o`: the flag and the `result`
vector. -/
def answer (o : Option Int) : Bool × List Int :=
  match o with
  | some v => (true, [v])
  | none => (false, [])

/-- The tree is well formed, of height `h`, and holds the map `M`: the leaf max_size is at
least 3 and the internal max_size at least 2, and either the header page holds no root and
`M` is empty, or the root page is a well-formed subtree (see `Sub`) for all keys whose pages
were all allocated by the buffer pool before (their ids are from 0 up to `next_page_id_`,
that one excluded). -/
structure WellFormed (t : BPlusTree) (minChildren : Nat) (h : Nat) (M : Int → Option Int) :
    Prop where
  leaf_max : 3 ≤ t.leaf_max_size_
  internal_max : 2 ≤ t.internal_max_size_
  next_nonneg : 0 ≤ t.next_page_id_
  tree : (t.root_page_id_ = INVALID_PAGE_ID ∧ ∀ k, M k = none) ∨
    (t.root_page_id_ ≠ INVALID_PAGE_ID ∧
      Sub t.pages t.leaf_max_size_ t.internal_max_size_ minChildren M h t.root_page_id_
        none none {q | 0 ≤ q ∧ q < t.next_page_id_})

/-- A tree of one full leaf page (leaf max_size 3) with the keys 10 and 20. -/
def fullLeafTree : BPlusTree :=
  { leaf_max_size_ := 3, internal_max_size_ := 3, header_page_id_ := 0, root_page_id_ := 1,
    pages := fun i =>
      if i = 1 then
        some (BPlusTreePage.leaf
          { max_size_ := 3, next_page_id_ := INVALID_PAGE_ID, array_ := [(10, 100), (20, 200)] })
      else none,
    next_page_id_ := 2, deleted := [] }

/-- A tree of two leaf pages under an internal root page (max_size 3 and 3): the keys 10,
20 and 30, the key 20 in the root. -/
def twoLeafTree : BPlusTree :=
  { leaf_max_size_ := 3, internal_max_size_ := 3, header_page_id_ := 0, root_page_id_ := 3,
    pages := fun i =>
      if i = 1 then
        some (BPlusTreePage.leaf { max_size_ := 3, next_page_id_ := 2, array_ := [(10, 100)] })
      else if i = 2 then
        some (BPlusTreePage.leaf
          { max_size_ := 3, next_page_id_ := INVALID_PAGE_ID, array_ := [(20, 200), (30, 300)] })
      else if i = 3 then
        some (BPlusTreePage.internal { max_size_ := 3, array_ := [(0, 1), (20, 2)] })
      else none,
    next_page_id_ := 4, deleted := [] }

/-- The map that `twoLeafTree` holds. -/
def twoLeafMap : Int → Option Int :=
  fun k => if k < 20 then leafFind [(10, 100)] k else leafFind [(20, 200), (30, 300)] k

/-- The pages the buffer pool allocated between the states `t` and `t'`. -/
def fresh (t t' : BPlusTree) : Set Int := {q | t.next_page_id_ ≤ q ∧ q < t'.next_page_id_}

/-- What a step that works on the pages of `S` leaves alone: the sizes, the header page, and
every page of `t` outside of `S`; pages may have been allocated. -/
structure Frame (t t' : BPlusTree) (S : Set Int) : Prop where
  leaf_max : t'.leaf_max_size_ = t.leaf_max_size_
  internal_max : t'.internal_max_size_ = t.internal_max_size_
  header : t'.header_page_id_ = t.header_page_id_
  root : t'.root_page_id_ = t.root_page_id_
  next : t.next_page_id_ ≤ t'.next_page_id_
  pages : ∀ q, q ∉ S → q < t.next_page_id_ → t'.pages q = t.pages q

/-- The subtree of `pid` has taken the new entry in without a change of its root page id and
key range: in `t'` it is a subtree for the map `M'`, on its former pages and new ones. -/
def Absorbed (t t' : BPlusTree) (M' : Int → Option Int) (h : Nat) (pid : Int)
    (lo hi : Option Int) (S : Set Int) : Prop :=
  Frame t t' S ∧
    Sub t'.pages t.leaf_max_size_ t.internal_max_size_ 1 M' h pid lo hi (S ∪ fresh t t')

/-- The root page `pid` of the subtree was split: in `t'` the pages `pid` and `new` are
subtrees for the map `M'` on the two sides of the key `mid`, on disjoint page sets. -/
def SplitInTwo (t t' : BPlusTree) (M' : Int → Option Int) (h : Nat) (pid mid new : Int)
    (lo hi : Option Int) (S : Set Int) : Prop :=
  Frame t t' S ∧ ∃ S1 S2,
    Sub t'.pages t.leaf_max_size_ t.internal_max_size_ 1 M' h pid lo (some mid) S1 ∧
    Sub t'.pages t.leaf_max_size_ t.internal_max_size_ 1 M' h new (some mid) hi S2 ∧
    (∀ x ∈ S1, x ∉ S2) ∧ S1 ⊆ S ∪ fresh t t' ∧ S2 ⊆ S ∪ fresh t t' ∧
    loLt lo mid ∧ ltHi mid hi

/-- The function changes nothing of a tree but the log of deleted pages. -/
def OnlyDeleted (f : BPlusTree → BPlusTree) : Prop :=
  ∀ t, ∃ dl, f t = { t with deleted := dl }

/-- The removal below the page `pid` is done: in `t'` the page is the root of a subtree for
the map `M'` on the same range; only pages of `S` changed and no page was allocated. -/
def Removed (t t' : BPlusTree) (M' : Int → Option Int) (h : Nat) (pid : Int)
    (lo hi : Option Int) (S : Set Int) : Prop :=
  Frame t t' S ∧ t'.next_page_id_ = t.next_page_id_ ∧
    Sub t'.pages t.leaf_max_size_ t.internal_max_size_ 1 M' h pid lo hi S

/-- The state in which `RemoveEntry` is called for the page `pid` and the key `key'`: the
page holds the key, and with its entry erased the page is the root of a subtree for the map
`M'`, with one entry less than the page has in `t`. -/
def PendingErase (t tp : BPlusTree) (M' : Int → Option Int) (h : Nat) (pid key' : Int)
    (lo hi : Option Int) (S : Set Int) : Prop :=
  Frame t tp S ∧ tp.next_page_id_ = t.next_page_id_ ∧ loLe lo key' ∧ ltHi key' hi ∧
    ∃ page0 page1 pageOrig, tp.pages pid = some page0 ∧ t.pages pid = some pageOrig ∧
      removeKeyFromPage page0 key' = (page1, true) ∧
      page1.GetSize = pageOrig.GetSize - 1 ∧ page1.GetMinSize = pageOrig.GetMinSize ∧
      Sub (tp.setPage pid page1).pages t.leaf_max_size_ t.internal_max_size_ 1 M' h pid
        lo hi S

end BPlusTree

/-! ## Lock manager (`lock_manager.cpp`) -/

abbrev txn_id_t := Int
abbrev table_oid_t := Int
abbrev RID := Int

def INVALID_TXN_ID : txn_id_t := -1

inductive LockMode where
  | SHARED
  | EXCLUSIVE
  | INTENTION_SHARED
  | INTENTION_EXCLUSIVE
  | SHARED_INTENTION_EXCLUSIVE
deriving DecidableEq

inductive TransactionState where
  | GROWING
  | SHRINKING
  | COMMITTED
  | ABORTED
deriving DecidableEq

inductive IsolationLevel where
  | READ_UNCOMMITTED
  | REPEATABLE_READ
  | READ_COMMITTED
deriving DecidableEq

inductive AbortReason where
  | LOCK_ON_SHRINKING
  | UPGRADE_CONFLICT
  | LOCK_SHARED_ON_READ_UNCOMMITTED
  | TABLE_LOCK_NOT_PRESENT
  | ATTEMPTED_INTENTION_LOCK_ON_ROW
  | TABLE_UNLOCKED_BEFORE_UNLOCKING_ROWS
  | INCOMPATIBLE_UPGRADE
  | ATTEMPTED_UNLOCK_BUT_NO_LOCK_HELD
deriving DecidableEq

/-- The transaction handle: id, isolation level, state, the five table lock sets and the
two row lock maps (table oid to the set of locked rows). -/
structure Transaction where
  txn_id_ : txn_id_t
  isolation_level_ : IsolationLevel
  state_ : TransactionState
  s_table_lock_set_ : List table_oid_t
  x_table_lock_set_ : List table_oid_t
  is_table_lock_set_ : List table_oid_t
  ix_table_lock_set_ : List table_oid_t
  six_table_lock_set_ : List table_oid_t
  s_row_lock_set_ : List (table_oid_t × List RID)
  x_row_lock_set_ : List (table_oid_t × List RID)
deriving DecidableEq

structure LockRequest where
  txn_id_ : txn_id_t
  lock_mode_ : LockMode
  oid_ : table_oid_t
  rid_ : Option RID
  granted_ : Bool
deriving DecidableEq

structure LockRequestQueue where
  request_queue_ : List LockRequest
  upgrading_ : txn_id_t
deriving DecidableEq

/-- What a lock manager call ends with: a value, or an abort exception thrown after the
transaction was given a new state. -/
inductive Outcome (α : Type) where
  | ok (a : α)
  | abort (txn : Transaction) (reason : AbortReason)

namespace LockManager

open LockMode in
def AreLocksCompatible (l1 l2 : LockMode) : Bool :=
  if l1 = INTENTION_SHARED ∧ l2 = EXCLUSIVE then false
  else if l1 = INTENTION_EXCLUSIVE ∧ l2 ≠ INTENTION_SHARED ∧ l2 ≠ INTENTION_EXCLUSIVE then false
  else if l1 = SHARED ∧ l2 ≠ INTENTION_SHARED ∧ l2 ≠ SHARED then false
  else if l1 = SHARED_INTENTION_EXCLUSIVE ∧ l2 ≠ INTENTION_SHARED then false
  else if l1 = EXCLUSIVE then false
  else true

open LockMode in
def CanLockUpgrade (curr_lock_mode requested_lock_mode : LockMode) : Bool :=
  if curr_lock_mode = INTENTION_SHARED ∧ requested_lock_mode ≠ INTENTION_SHARED then true
  else if curr_lock_mode = SHARED ∧
      (requested_lock_mode = EXCLUSIVE ∨ requested_lock_mode = SHARED_INTENTION_EXCLUSIVE) then true
  else if curr_lock_mode = INTENTION_EXCLUSIVE ∧
      (requested_lock_mode = EXCLUSIVE ∨ requested_lock_mode = SHARED_INTENTION_EXCLUSIVE) then true
  else if curr_lock_mode = SHARED_INTENTION_EXCLUSIVE ∧ requested_lock_mode = EXCLUSIVE then true
  else false

/-- The call `insert` of an `unordered_set`, kept as a list without repetition. -/
def setInsert {α : Type} [DecidableEq α] (x : α) (s : List α) : List α :=
  if x ∈ s then s else x :: s

/-- The table version of `EraseLockModeOfIdFromTxn`. -/
def EraseLockModeOfIdFromTxn (txn : Transaction) (lock_mode : LockMode) (oid : table_oid_t) :
    Transaction :=
  match lock_mode with
  | LockMode.SHARED => { txn with s_table_lock_set_ := txn.s_table_lock_set_.erase oid }
  | LockMode.EXCLUSIVE => { txn with x_table_lock_set_ := txn.x_table_lock_set_.erase oid }
  | LockMode.INTENTION_SHARED => { txn with is_table_lock_set_ := txn.is_table_lock_set_.erase oid }
  | LockMode.INTENTION_EXCLUSIVE =>
    { txn with ix_table_lock_set_ := txn.ix_table_lock_set_.erase oid }
  | LockMode.SHARED_INTENTION_EXCLUSIVE =>
    { txn with six_table_lock_set_ := txn.six_table_lock_set_.erase oid }

/-- The table version of `InsertLockModeOfIdFromTxn`. -/
def InsertLockModeOfIdFromTxn (txn : Transaction) (lock_mode : LockMode) (oid : table_oid_t) :
    Transaction :=
  match lock_mode with
  | LockMode.SHARED => { txn with s_table_lock_set_ := setInsert oid txn.s_table_lock_set_ }
  | LockMode.EXCLUSIVE => { txn with x_table_lock_set_ := setInsert oid txn.x_table_lock_set_ }
  | LockMode.INTENTION_SHARED =>
    { txn with is_table_lock_set_ := setInsert oid txn.is_table_lock_set_ }
  | LockMode.INTENTION_EXCLUSIVE =>
    { txn with ix_table_lock_set_ := setInsert oid txn.ix_table_lock_set_ }
  | LockMode.SHARED_INTENTION_EXCLUSIVE =>
    { txn with six_table_lock_set_ := setInsert oid txn.six_table_lock_set_ }

/-- The rows of table `oid` in a row lock map without `rid`; an entry left empty is erased. -/
def eraseRow (mp : List (table_oid_t × List RID)) (oid : table_oid_t) (rid : RID) :
    List (table_oid_t × List RID) :=
  (mp.map fun e => if e.1 = oid then (e.1, e.2.erase rid) else e).filter
    fun e => ¬ (e.1 = oid ∧ e.2 = [])

/-- The row version of `EraseLockModeOfIdFromTxn`. -/
def EraseLockModeOfIdFromTxnRow (txn : Transaction) (lockMode : LockMode) (oid : table_oid_t)
    (rid : RID) : Transaction :=
  match lockMode with
  | LockMode.EXCLUSIVE => { txn with x_row_lock_set_ := eraseRow txn.x_row_lock_set_ oid rid }
  | LockMode.SHARED => { txn with s_row_lock_set_ := eraseRow txn.s_row_lock_set_ oid rid }
  | _ => txn

/-- The request the scan of `CheckLockUpdateTable` stops at: the first request of the
transaction among the granted requests at the front of the queue. -/
def heldRequest (txn_id : txn_id_t) : List LockRequest → Option LockRequest
  | [] => none
  | item :: rest =>
    if ¬ item.granted_ then none
    else if item.txn_id_ = txn_id then some item
    else heldRequest txn_id rest

/-- The queue without the request `heldRequest` finds. -/
def eraseHeld (txn_id : txn_id_t) : List LockRequest → List LockRequest
  | [] => []
  | item :: rest =>
    if ¬ item.granted_ then item :: rest
    else if item.txn_id_ = txn_id then rest
    else item :: eraseHeld txn_id rest

/-- Result: the flag `upgrade`, the queue and the transaction after the call. -/
def CheckLockUpdateTable (txn : Transaction) (queue : LockRequestQueue) (lock_mode : LockMode)
    (request : LockRequest) : Outcome (Bool × LockRequestQueue × Transaction) :=
  match heldRequest txn.txn_id_ queue.request_queue_ with
  | none => Outcome.ok (false, queue, txn)
  | some item =>
    if CanLockUpgrade item.lock_mode_ lock_mode then
      if queue.upgrading_ ≠ INVALID_TXN_ID then
        Outcome.abort { txn with state_ := TransactionState.ABORTED } AbortReason.UPGRADE_CONFLICT
      else
        Outcome.ok (true,
          { upgrading_ := txn.txn_id_,
            request_queue_ := eraseHeld txn.txn_id_ queue.request_queue_ ++ [request] },
          EraseLockModeOfIdFromTxn txn item.lock_mode_ item.oid_)
    else
      Outcome.abort { txn with state_ := TransactionState.ABORTED } AbortReason.INCOMPATIBLE_UPGRADE

/-- Result: the flag, the queue and the transaction after the call. -/
def CheckLockUpdateRow (txn : Transaction) (queue : LockRequestQueue) (lock_mode : LockMode)
    (request : LockRequest) : Outcome (Bool × LockRequestQueue × Transaction) :=
  match heldRequest txn.txn_id_ queue.request_queue_ with
  | none => Outcome.ok (false, queue, txn)
  | some item =>
    if CanLockUpgrade item.lock_mode_ lock_mode then
      if queue.upgrading_ ≠ INVALID_TXN_ID then
        Outcome.abort { txn with state_ := TransactionState.ABORTED } AbortReason.UPGRADE_CONFLICT
      else
        Outcome.ok (true,
          { upgrading_ := txn.txn_id_,
            request_queue_ := eraseHeld txn.txn_id_ queue.request_queue_ ++ [request] },
          match item.rid_ with
          | some rid => EraseLockModeOfIdFromTxnRow txn item.lock_mode_ item.oid_ rid
          | none => txn)
    else
      Outcome.abort { txn with state_ := TransactionState.ABORTED } AbortReason.INCOMPATIBLE_UPGRADE

/-- The loop of `GrantNewLocksIfPossible` over the rest of the queue; `lock_mode_set` holds
the modes met so far. -/
def grantLoop : List LockRequest → List LockMode → List LockRequest
  | [], _ => []
  | item :: rest, lock_mode_set =>
    if lock_mode_set.isEmpty then item :: grantLoop rest (setInsert item.lock_mode_ lock_mode_set)
    else if lock_mode_set.all fun lock_mode => AreLocksCompatible lock_mode item.lock_mode_ then
      { item with granted_ := true } :: grantLoop rest (setInsert item.lock_mode_ lock_mode_set)
    else item :: rest

def GrantNewLocksIfPossible (lock_request_queue : LockRequestQueue) : LockRequestQueue :=
  let request_queue :=
    match lock_request_queue.request_queue_ with
    | [] => []
    | front :: rest => { front with granted_ := true } :: rest
  { lock_request_queue with request_queue_ := grantLoop request_queue [] }

/-- The scan of `EraseRequestFromQueue`: the queue without the first granted request of the
transaction, `none` when there is no such request (the function returns false). -/
def eraseGranted (txn_id : txn_id_t) : List LockRequest → Option (List LockRequest)
  | [] => none
  | item :: rest =>
    if item.granted_ ∧ item.txn_id_ = txn_id then some rest
    else (eraseGranted txn_id rest).map fun r => item :: r

/-- Result: the queue after the call and the returned flag. -/
def EraseRequestFromQueue (txn : Transaction) (lock_request_queue : LockRequestQueue) :
    LockRequestQueue × Bool :=
  match eraseGranted txn.txn_id_ lock_request_queue.request_queue_ with
  | some r => ({ lock_request_queue with request_queue_ := r }, true)
  | none => (lock_request_queue, false)

/-- The checks of `LockTable` before the queue is looked up: `none` when the call returns
false at once, an abort reason when it throws, `some none` when every check passes. -/
def tableLockChecks (txn : Transaction) (lock_mode : LockMode) : Option (Option AbortReason) :=
  if txn.state_ = TransactionState.ABORTED then none
  else if txn.isolation_level_ = IsolationLevel.READ_UNCOMMITTED ∧
      (lock_mode = LockMode.INTENTION_SHARED ∨ lock_mode = LockMode.SHARED ∨
        lock_mode = LockMode.SHARED_INTENTION_EXCLUSIVE) then
    some (some AbortReason.LOCK_SHARED_ON_READ_UNCOMMITTED)
  else if txn.isolation_level_ = IsolationLevel.READ_UNCOMMITTED ∧
      txn.state_ = TransactionState.SHRINKING then
    some (some AbortReason.LOCK_ON_SHRINKING)
  else if txn.isolation_level_ = IsolationLevel.READ_COMMITTED ∧
      txn.state_ = TransactionState.SHRINKING ∧
      (lock_mode ≠ LockMode.SHARED ∧ lock_mode ≠ LockMode.INTENTION_SHARED) then
    some (some AbortReason.LOCK_ON_SHRINKING)
  else if txn.isolation_level_ = IsolationLevel.REPEATABLE_READ ∧
      txn.state_ = TransactionState.SHRINKING then
    some (some AbortReason.LOCK_ON_SHRINKING)
  else some none

open LockMode in
/-- The compatibility matrix of the spec: the compatible pairs (held, requested). -/
def compatibilityMatrix : List (LockMode × LockMode) :=
  [(INTENTION_SHARED, INTENTION_SHARED), (INTENTION_SHARED, INTENTION_EXCLUSIVE),
   (INTENTION_SHARED, SHARED), (INTENTION_SHARED, SHARED_INTENTION_EXCLUSIVE),
   (INTENTION_EXCLUSIVE, INTENTION_SHARED), (INTENTION_EXCLUSIVE, INTENTION_EXCLUSIVE),
   (SHARED, INTENTION_SHARED), (SHARED, SHARED),
   (SHARED_INTENTION_EXCLUSIVE, INTENTION_SHARED)]

open LockMode in
/-- The upgrade lattice of the spec: the allowed pairs (held, requested). -/
def upgradeLattice : List (LockMode × LockMode) :=
  [(INTENTION_SHARED, SHARED), (INTENTION_SHARED, INTENTION_EXCLUSIVE),
   (INTENTION_SHARED, SHARED_INTENTION_EXCLUSIVE), (INTENTION_SHARED, EXCLUSIVE),
   (SHARED, EXCLUSIVE), (SHARED, SHARED_INTENTION_EXCLUSIVE),
   (INTENTION_EXCLUSIVE, EXCLUSIVE), (INTENTION_EXCLUSIVE, SHARED_INTENTION_EXCLUSIVE),
   (SHARED_INTENTION_EXCLUSIVE, EXCLUSIVE)]

/-- The granted requests of a queue are at its front: no request is granted behind a
waiting one. -/
def GrantedAtFront (l : List LockRequest) : Prop :=
  l.Pairwise fun a b => b.granted_ = true → a.granted_ = true

/-- Any two requests of the list have compatible modes. -/
def PairwiseCompatible (l : List LockRequest) : Prop :=
  l.Pairwise fun a b => AreLocksCompatible a.lock_mode_ b.lock_mode_ = true

/-- The request with its flag `granted_` set. -/
def granted (r : LockRequest) : LockRequest := { r with granted_ := true }

/-- The number of leading requests of a list that are each compatible with every mode of
`pre` and with every request before them. -/
def compatCount : List LockMode → List LockRequest → Nat
  | _, [] => 0
  | pre, x :: xs =>
    if pre.all (fun m => AreLocksCompatible m x.lock_mode_) then
      compatCount (pre ++ [x.lock_mode_]) xs + 1
    else 0

/-- A request for a table lock as `LockTable` creates it, with the given flag `granted_`. -/
def tableRequest (txn_id : txn_id_t) (lock_mode : LockMode) (oid : table_oid_t)
    (granted_ : Bool) : LockRequest :=
  { txn_id_ := txn_id, lock_mode_ := lock_mode, oid_ := oid, rid_ := none, granted_ := granted_ }

end LockManager

/-- A transaction right after `Begin`: state GROWING, no locks. -/
def Transaction.start (txn_id : txn_id_t) (isolation_level : IsolationLevel) : Transaction :=
  { txn_id_ := txn_id, isolation_level_ := isolation_level, state_ := TransactionState.GROWING,
    s_table_lock_set_ := [], x_table_lock_set_ := [], is_table_lock_set_ := [],
    ix_table_lock_set_ := [], six_table_lock_set_ := [], s_row_lock_set_ := [],
    x_row_lock_set_ := [] }

/-! ## Lock manager calls (`lock_manager.cpp`) -/

/-- The lock manager: the request queue of every table and row that has one, and the
waits-for graph (`waits_for_`: a transaction and the transactions it waits for). -/
structure LockManager where
  table_lock_map_ : table_oid_t → Option LockRequestQueue
  row_lock_map_ : RID → Option LockRequestQueue
  waits_for_ : List (txn_id_t × List txn_id_t)

/-- How a call of the lock manager ends for the calling thread: it returns a value, throws a
`TransactionAbortException`, sleeps in `cv_.wait` because the wait predicate is false, or
runs into undefined behaviour. -/
inductive CallResult where
  | returned (value : Bool)
  | thrown (reason : AbortReason)
  | waiting
  | undefined
deriving DecidableEq

/-- Modelled from the spec: the queue `std::make_shared<LockRequestQueue>()` creates. The
member initialisers are in `lock_manager.h`, which is not among the sources; a new queue holds
no request and no upgrading transaction. -/
def LockRequestQueue.empty : LockRequestQueue :=
  { request_queue_ := [], upgrading_ := INVALID_TXN_ID }

namespace LockManager

/-- A lock manager without queues and without edges. -/
def init : LockManager :=
  { table_lock_map_ := fun _ => none, row_lock_map_ := fun _ => none, waits_for_ := [] }

/-- The lock manager with the queue object of table `oid` in the state `queue`. -/
def setTable (lm : LockManager) (oid : table_oid_t) (queue : LockRequestQueue) : LockManager :=
  { lm with table_lock_map_ := fun o => if o = oid then some queue else lm.table_lock_map_ o }

/-- The lock manager with the queue object of row `rid` in the state `queue`. -/
def setRow (lm : LockManager) (rid : RID) (queue : LockRequestQueue) : LockManager :=
  { lm with row_lock_map_ := fun r => if r = rid then some queue else lm.row_lock_map_ r }

/-- The part of `LockTable` from `cv_.wait` on, for the request at `request_index` of the queue: one
evaluation of the wait predicate (`GrantNewLocksIfPossible`, then `request->granted_`) and,
when it is true, the rest of the function. When it is false the thread sleeps until another
thread notifies the queue. -/
def LockTableWait (lm : LockManager) (txn : Transaction) (lock_mode : LockMode)
    (oid : table_oid_t) (request_queue : LockRequestQueue) (request_index : Nat) :
    CallResult × LockManager × Transaction :=
  let request_queue := GrantNewLocksIfPossible request_queue
  if (request_queue.request_queue_.get? request_index).map (fun r => r.granted_) ≠ some true then
    (CallResult.waiting, lm.setTable oid request_queue, txn)
  else if txn.state_ = TransactionState.ABORTED then
    (CallResult.returned false, lm.setTable oid (EraseRequestFromQueue txn request_queue).1,
      EraseLockModeOfIdFromTxn txn lock_mode oid)
  else
    let request_queue :=
      if request_queue.upgrading_ ≠ INVALID_TXN_ID then
        { request_queue with upgrading_ := INVALID_TXN_ID }
      else request_queue
    (CallResult.returned true, lm.setTable oid request_queue,
      InsertLockModeOfIdFromTxn txn lock_mode oid)

/-- The call `LockTable(txn, lock_mode, oid)` as far as the calling thread runs on its own:
the result, the lock manager and the transaction after it. -/
def LockTable (lm : LockManager) (txn : Transaction) (lock_mode : LockMode) (oid : table_oid_t) :
    CallResult × LockManager × Transaction :=
  match tableLockChecks txn lock_mode with
  | none => (CallResult.returned false, lm, txn)
  | some (some reason) =>
    (CallResult.thrown reason, lm, { txn with state_ := TransactionState.ABORTED })
  | some none =>
    let request_queue := (lm.table_lock_map_ oid).getD LockRequestQueue.empty
    let lm := lm.setTable oid request_queue
    let request := tableRequest txn.txn_id_ lock_mode oid false
    match CheckLockUpdateTable txn request_queue lock_mode request with
    | Outcome.abort txn reason => (CallResult.thrown reason, lm, txn)
    | Outcome.ok (upgrade, request_queue, txn) =>
      let request_queue :=
        if ¬ upgrade then
          { request_queue with request_queue_ := request_queue.request_queue_ ++ [request] }
        else request_queue
      LockTableWait lm txn lock_mode oid request_queue (request_queue.request_queue_.length - 1)

/-- The request `GetTxnHoldLockOfTable` returns: a copy of the first granted request of the
transaction in the queue of the table, with `txn_id_ = INVALID_TXN_ID` when there is none. -/
def GetTxnHoldLockOfTable (lm : LockManager) (txn : Transaction) (oid : table_oid_t) :
    LockRequest :=
  let lock_request := tableRequest INVALID_TXN_ID LockMode.INTENTION_SHARED oid false
  match lm.table_lock_map_ oid with
  | none => lock_request
  | some lock_request_queue =>
    match lock_request_queue.request_queue_.find?
        fun request => request.granted_ ∧ request.txn_id_ = txn.txn_id_ with
    | some request =>
      { lock_mode_ := request.lock_mode_, txn_id_ := request.txn_id_, oid_ := request.oid_,
        rid_ := request.rid_, granted_ := true }
    | none => lock_request

/-- The test `it != end() && !it->second.empty()` on a row lock map. -/
def holdsRows (mp : List (table_oid_t × List RID)) (oid : table_oid_t) : Bool :=
  match mp.find? fun e => e.1 = oid with
  | some e => ! e.2.isEmpty
  | none => false

/-- The call `UnlockTable(txn, oid)`: the result, the lock manager and the transaction after
it. -/
def UnlockTable (lm : LockManager) (txn : Transaction) (oid : table_oid_t) :
    CallResult × LockManager × Transaction :=
  let request := GetTxnHoldLockOfTable lm txn oid
  if request.txn_id_ = INVALID_TXN_ID then
    (CallResult.thrown AbortReason.ATTEMPTED_UNLOCK_BUT_NO_LOCK_HELD, lm,
      { txn with state_ := TransactionState.ABORTED })
  else
    let txn :=
      if (txn.isolation_level_ = IsolationLevel.REPEATABLE_READ ∧
            (request.lock_mode_ = LockMode.EXCLUSIVE ∨ request.lock_mode_ = LockMode.SHARED)) ∨
          (txn.isolation_level_ = IsolationLevel.READ_COMMITTED ∧
            request.lock_mode_ = LockMode.EXCLUSIVE) ∨
          (txn.isolation_level_ = IsolationLevel.READ_UNCOMMITTED ∧
            request.lock_mode_ = LockMode.EXCLUSIVE) then
        { txn with state_ := TransactionState.SHRINKING }
      else txn
    if holdsRows txn.s_row_lock_set_ oid ∨ holdsRows txn.x_row_lock_set_ oid then
      (CallResult.thrown AbortReason.TABLE_UNLOCKED_BEFORE_UNLOCKING_ROWS, lm,
        { txn with state_ := TransactionState.ABORTED })
    else
      match lm.table_lock_map_ oid with
      | none => (CallResult.undefined, lm, txn)
      | some lock_request_queue =>
        match EraseRequestFromQueue txn lock_request_queue with
        | (_, false) =>
          (CallResult.thrown AbortReason.ATTEMPTED_UNLOCK_BUT_NO_LOCK_HELD, lm,
            { txn with state_ := TransactionState.ABORTED })
        | (lock_request_queue, true) =>
          (CallResult.returned true, lm.setTable oid lock_request_queue,
            EraseLockModeOfIdFromTxn txn request.lock_mode_ oid)

/-- The checks of `LockRow` on the mode, the isolation level and the state: `none` when the
call returns false at once, an abort reason when it throws, `some none` when they pass. -/
def rowLockChecks (txn : Transaction) (lock_mode : LockMode) : Option (Option AbortReason) :=
  if txn.state_ = TransactionState.ABORTED then none
  else if lock_mode = LockMode.INTENTION_SHARED ∨
      lock_mode = LockMode.SHARED_INTENTION_EXCLUSIVE ∨
      lock_mode = LockMode.INTENTION_EXCLUSIVE then
    some (some AbortReason.ATTEMPTED_INTENTION_LOCK_ON_ROW)
  else if txn.isolation_level_ = IsolationLevel.READ_UNCOMMITTED ∧
      lock_mode = LockMode.SHARED then
    some (some AbortReason.LOCK_SHARED_ON_READ_UNCOMMITTED)
  else if (txn.isolation_level_ = IsolationLevel.READ_COMMITTED ∧
        txn.state_ = TransactionState.SHRINKING ∧ lock_mode ≠ LockMode.SHARED) ∨
      (txn.isolation_level_ = IsolationLevel.READ_UNCOMMITTED ∧
        txn.state_ = TransactionState.SHRINKING) then
    some (some AbortReason.LOCK_ON_SHRINKING)
  else if txn.isolation_level_ = IsolationLevel.REPEATABLE_READ ∧
      txn.state_ = TransactionState.SHRINKING then
    some (some AbortReason.LOCK_ON_SHRINKING)
  else some none

def CheckAppropriateLockOnTable (txn : Transaction) (oid : table_oid_t)
    (row_lock_mode : LockMode) : Bool :=
  let flag := false
  if row_lock_mode = LockMode.SHARED then
    let flag := flag || decide (oid ∈ txn.s_table_lock_set_)
    let flag := flag || decide (oid ∈ txn.x_table_lock_set_)
    let flag := flag || decide (oid ∈ txn.is_table_lock_set_)
    let flag := flag || decide (oid ∈ txn.ix_table_lock_set_)
    flag || decide (oid ∈ txn.six_table_lock_set_)
  else if row_lock_mode = LockMode.EXCLUSIVE then
    let flag := flag || decide (oid ∈ txn.x_table_lock_set_)
    let flag := flag || decide (oid ∈ txn.ix_table_lock_set_)
    flag || decide (oid ∈ txn.six_table_lock_set_)
  else flag

/-- The row lock map with `rid` among the rows of table `oid`. -/
def insertRow (mp : List (table_oid_t × List RID)) (oid : table_oid_t) (rid : RID) :
    List (table_oid_t × List RID) :=
  if (mp.find? fun e => e.1 = oid).isSome then
    mp.map fun e => if e.1 = oid then (e.1, setInsert rid e.2) else e
  else mp ++ [(oid, [rid])]

/-- The row version of `InsertLockModeOfIdFromTxn`. -/
def InsertLockModeOfIdFromTxnRow (txn : Transaction) (lock_mode : LockMode) (oid : table_oid_t)
    (rid : RID) : Transaction :=
  match lock_mode with
  | LockMode.SHARED => { txn with s_row_lock_set_ := insertRow txn.s_row_lock_set_ oid rid }
  | LockMode.EXCLUSIVE => { txn with x_row_lock_set_ := insertRow txn.x_row_lock_set_ oid rid }
  | _ => txn

/-- The part of `LockRow` from `cv_.wait` on, for the request at `request_index` of the row queue: one
evaluation of the wait predicate and, when it is true, the rest of the function. -/
def LockRowWait (lm : LockManager) (txn : Transaction) (lock_mode : LockMode)
    (oid : table_oid_t) (rid : RID) (row_queue : LockRequestQueue) (request_index : Nat) :
    CallResult × LockManager × Transaction :=
  let row_queue := GrantNewLocksIfPossible row_queue
  if (row_queue.request_queue_.get? request_index).map (fun r => r.granted_) ≠ some true then
    (CallResult.waiting, lm.setRow rid row_queue, txn)
  else if txn.state_ = TransactionState.ABORTED then
    (CallResult.returned false, lm.setRow rid (EraseRequestFromQueue txn row_queue).1,
      EraseLockModeOfIdFromTxnRow txn lock_mode oid rid)
  else
    let row_queue :=
      if row_queue.upgrading_ ≠ INVALID_TXN_ID then
        { row_queue with upgrading_ := INVALID_TXN_ID }
      else row_queue
    (CallResult.returned true, lm.setRow rid row_queue,
      InsertLockModeOfIdFromTxnRow txn lock_mode oid rid)

/-- The call `LockRow(txn, lock_mode, oid, rid)` as far as the calling thread runs on its
own: the result, the lock manager and the transaction after it. -/
def LockRow (lm : LockManager) (txn : Transaction) (lock_mode : LockMode) (oid : table_oid_t)
    (rid : RID) : CallResult × LockManager × Transaction :=
  match rowLockChecks txn lock_mode with
  | none => (CallResult.returned false, lm, txn)
  | some (some reason) =>
    (CallResult.thrown reason, lm, { txn with state_ := TransactionState.ABORTED })
  | some none =>
    if ¬ CheckAppropriateLockOnTable txn oid lock_mode then
      (CallResult.thrown AbortReason.TABLE_LOCK_NOT_PRESENT, lm,
        { txn with state_ := TransactionState.ABORTED })
    else
      let row_queue := (lm.row_lock_map_ rid).getD LockRequestQueue.empty
      let lm := lm.setRow rid row_queue
      let request : LockRequest :=
        { txn_id_ := txn.txn_id_, lock_mode_ := lock_mode, oid_ := oid, rid_ := some rid,
          granted_ := false }
      match CheckLockUpdateRow txn row_queue lock_mode request with
      | Outcome.abort txn reason => (CallResult.thrown reason, lm, txn)
      | Outcome.ok (upgrade, row_queue, txn) =>
        let row_queue :=
          if ¬ upgrade then
            { row_queue with request_queue_ := row_queue.request_queue_ ++ [request] }
          else row_queue
        LockRowWait lm txn lock_mode oid rid row_queue (row_queue.request_queue_.length - 1)

/-- The vector `waits_for_[tid]`; a transaction without entry has no edge. (`operator[]` also
enters the empty vector for it, which adds no edge.) -/
def waitsFor (lm : LockManager) (tid : txn_id_t) : List txn_id_t :=
  match lm.waits_for_.find? fun e => e.1 = tid with
  | some e => e.2
  | none => []

/-- The loop of `Dfs` over the children of a transaction; `dfs` is the recursive call. -/
def DfsLoop (dfs : txn_id_t → List txn_id_t → List txn_id_t →
      Option (Bool × List txn_id_t × List txn_id_t)) :
    List txn_id_t → List txn_id_t → List txn_id_t → Option (Bool × List txn_id_t × List txn_id_t)
  | [], path, is_vis => some (false, path, is_vis)
  | child :: rest, path, is_vis =>
    match dfs child path is_vis with
    | none => none
    | some (true, path, is_vis) => some (true, path, is_vis)
    | some (false, path, is_vis) => DfsLoop dfs rest path is_vis

/-- Result: the returned flag, `path` and the transactions marked in `is_vis` after the call;
`none` when the fuel for the depth of the recursion runs out. -/
def Dfs (lm : LockManager) :
    Nat → txn_id_t → List txn_id_t → List txn_id_t → Option (Bool × List txn_id_t × List txn_id_t)
  | 0, _, _, _ => none
  | fuel + 1, tid, path, is_vis =>
    if tid ∈ is_vis then some (true, path, is_vis)
    else
      match DfsLoop (Dfs lm fuel) (lm.waitsFor tid) (path ++ [tid]) (tid :: is_vis) with
      | none => none
      | some (true, path, is_vis) => some (true, path, is_vis)
      | some (false, path, is_vis) => some (false, path.dropLast, is_vis)

/-- The loop of `HasCycle` over the sorted vector `v`: the value of `*txn_id` after it. -/
def HasCycleLoop (lm : LockManager) (fuel : Nat) :
    List txn_id_t → List txn_id_t → List txn_id_t → Option txn_id_t
  | [], _, _ => some INVALID_TXN_ID
  | s :: rest, path, is_vis =>
    if s ∈ is_vis then HasCycleLoop lm fuel rest path is_vis
    else
      match Dfs lm fuel s path is_vis with
      | none => none
      | some (true, path, _) =>
        some (path.foldl (fun txn_id path_txn_id =>
          if txn_id < path_txn_id then path_txn_id else txn_id) INVALID_TXN_ID)
      | some (false, path, is_vis) => HasCycleLoop lm fuel rest path is_vis

/-- Result: the returned flag and the value written to `*txn_id`. The vector `v` starts as
`waits_for_.size()` zeros, gets the keys of `waits_for_` pushed behind them and is sorted. The
recursion of `Dfs` is never deeper than the number of transactions in the graph plus one. -/
def HasCycle (lm : LockManager) : Option (Bool × txn_id_t) :=
  let v := List.replicate lm.waits_for_.length (0 : txn_id_t) ++ lm.waits_for_.map fun pair => pair.1
  let v := v.insertionSort fun a b => a ≤ b
  let fuel := (lm.waits_for_.map fun pair => pair.2.length + 1).sum + 3
  (HasCycleLoop lm fuel v [] []).map fun txn_id => (decide (txn_id ≠ INVALID_TXN_ID), txn_id)

/-- The edge `t1 → t2` of the waits-for graph. -/
def Edge (lm : LockManager) (t1 t2 : txn_id_t) : Prop := t2 ∈ lm.waitsFor t1

/-- The transaction lies on a directed cycle of the waits-for graph. -/
def OnCycle (lm : LockManager) (t : txn_id_t) : Prop := Relation.TransGen lm.Edge t t

/-- A waits-for graph with the chain 1 → 9 → 2 into the cycle 2 → 3 → 2. -/
def chainIntoCycle : LockManager :=
  { init with waits_for_ := [(1, [9]), (9, [2]), (2, [3]), (3, [2])] }

/-- A waits-for graph without cycle: the transactions 1 and 2 both wait for transaction 3. -/
def twoWaiters : LockManager :=
  { init with waits_for_ := [(1, [3]), (2, [3])] }

/-- Transaction 1 (REPEATABLE_READ, GROWING) with table 7 in its INTENTION_SHARED lock set,
as after the first `Init` of a sequential scan of table 7. -/
def scanHolder : Transaction :=
  { Transaction.start 1 IsolationLevel.REPEATABLE_READ with is_table_lock_set_ := [7] }

/-- The lock manager in which the only request for table 7 is the granted INTENTION_SHARED
request of transaction 1. -/
def scanHeld : LockManager :=
  init.setTable 7
    { request_queue_ := [tableRequest 1 LockMode.INTENTION_SHARED 7 true],
      upgrading_ := INVALID_TXN_ID }

/-- Transaction 1 (REPEATABLE_READ, GROWING) with table 7 in its SHARED lock set. -/
def sharedHolder : Transaction :=
  { Transaction.start 1 IsolationLevel.REPEATABLE_READ with s_table_lock_set_ := [7] }

/-- The lock manager in which the only request for table 7 is the granted SHARED request of
transaction 1. -/
def sharedHeld : LockManager :=
  init.setTable 7
    { request_queue_ := [tableRequest 1 LockMode.SHARED 7 true], upgrading_ := INVALID_TXN_ID }

/-- The lock manager in which transaction 1 holds the granted SHARED request for table 7 and
the EXCLUSIVE request of transaction 2 waits behind it. -/
def sharedHeldWithWaiter : LockManager :=
  init.setTable 7
    { request_queue_ := [tableRequest 1 LockMode.SHARED 7 true,
        tableRequest 2 LockMode.EXCLUSIVE 7 false],
      upgrading_ := INVALID_TXN_ID }

/-- Transaction 1 (READ_UNCOMMITTED, GROWING) with table 7 in its INTENTION_EXCLUSIVE lock
set. -/
def intentionHolder : Transaction :=
  { Transaction.start 1 IsolationLevel.READ_UNCOMMITTED with ix_table_lock_set_ := [7] }

/-- The lock manager in which the only request for table 7 is the granted
INTENTION_EXCLUSIVE request of transaction 1. -/
def intentionHeld : LockManager :=
  init.setTable 7
    { request_queue_ := [tableRequest 1 LockMode.INTENTION_EXCLUSIVE 7 true],
      upgrading_ := INVALID_TXN_ID }

/-- Transaction 1 (READ_UNCOMMITTED, GROWING) with table 7 in its EXCLUSIVE lock set. -/
def exclusiveHolder : Transaction :=
  { Transaction.start 1 IsolationLevel.READ_UNCOMMITTED with x_table_lock_set_ := [7] }

/-- The lock manager in which the only request for table 7 is the granted EXCLUSIVE request
of transaction 1. -/
def exclusiveHeld : LockManager :=
  init.setTable 7
    { request_queue_ := [tableRequest 1 LockMode.EXCLUSIVE 7 true],
      upgrading_ := INVALID_TXN_ID }

/-- The table lock set of the transaction for a mode. -/
def tableLockSet (txn : Transaction) : LockMode → List table_oid_t
  | LockMode.SHARED => txn.s_table_lock_set_
  | LockMode.EXCLUSIVE => txn.x_table_lock_set_
  | LockMode.INTENTION_SHARED => txn.is_table_lock_set_
  | LockMode.INTENTION_EXCLUSIVE => txn.ix_table_lock_set_
  | LockMode.SHARED_INTENTION_EXCLUSIVE => txn.six_table_lock_set_

end LockManager

/-! ## LRU-K replacer (`lru_k_replacer.cpp`) -/

/-- The entry of `key` in an `unordered_map`, kept as a list of pairs with distinct keys. -/
def mapFind {K V : Type} [DecidableEq K] : List (K × V) → K → Option V
  | [], _ => none
  | e :: rest, key => if e.1 = key then some e.2 else mapFind rest key

/-- The map without the entry of `key`. -/
def mapErase {K V : Type} [DecidableEq K] (m : List (K × V)) (key : K) : List (K × V) :=
  m.filter fun e => e.1 ≠ key

/-- The map after `m[key] = value`. -/
def mapSet {K V : Type} [DecidableEq K] (m : List (K × V)) (key : K) (value : V) :
    List (K × V) :=
  (key, value) :: mapErase m key

/-- How a call that can throw ends: normally, with an exception (thrown in the given state),
or in undefined behaviour. -/
inductive Throws (σ : Type) where
  | ok (s : σ)
  | exception (s : σ)
  | undefined

/-- Modelled from the spec: the node of a frame. The class `LRUKNode` is declared in
`lru_k_replacer.h`, which is not among the sources; the spec gives a node a bounded history of
the last at most K access timestamps (least recent first here) and an evictable flag. Frame ids
(`frame_id_t`) are integers. -/
structure LRUKNode where
  history_ : List Nat
  k_ : Nat
  fid_ : Int
  is_evictable_ : Bool
deriving DecidableEq

namespace LRUKNode

/-- Modelled from the spec: the node `LRUKNode(frame_id, k)`, without history and not
evictable. -/
def new (fid : Int) (k : Nat) : LRUKNode :=
  { history_ := [], k_ := k, fid_ := fid, is_evictable_ := false }

/-- Modelled from the spec: the node `LRUKNode()` that `node_store_[frame_id]` enters for a
frame without node; its members are taken as zero, empty and false. -/
def default : LRUKNode := { history_ := [], k_ := 0, fid_ := 0, is_evictable_ := false }

/-- Modelled from the spec: `AddHistory` appends the timestamp and trims the history to the
last K entries. -/
def AddHistory (node : LRUKNode) (timestamp : Nat) : LRUKNode :=
  { node with
    history_ := (node.history_ ++ [timestamp]).drop ((node.history_ ++ [timestamp]).length - node.k_) }

/-- Modelled from the spec: the order of `frame_set_`, `a` is evicted before `b`. A node with
fewer than K accesses comes before every node with K accesses; among nodes with fewer than K
accesses the earliest first access comes first, among nodes with K accesses the oldest K-th
most recent access. -/
def before (a b : LRUKNode) : Bool :=
  if a.history_.length < a.k_ then
    if b.history_.length < b.k_ then decide (a.history_.headD 0 < b.history_.headD 0) else true
  else if b.history_.length < b.k_ then false
  else decide (a.history_.headD 0 < b.history_.headD 0)

end LRUKNode

/-- Modelled from the spec: `frame_set_.insert(node)` on the ordered set, kept as a list in
eviction order. -/
def frameSetInsert (node : LRUKNode) : List LRUKNode → List LRUKNode
  | [] => [node]
  | e :: rest => if node.before e then node :: e :: rest else e :: frameSetInsert node rest

/-- Modelled from the spec: `frame_set_.find(node) != frame_set_.end()`; the set holds at most
one node per frame and the node of a frame is found by its frame id. -/
def frameSetFind (node : LRUKNode) (frame_set : List LRUKNode) : Bool :=
  frame_set.any fun e => e.fid_ = node.fid_

/-- Modelled from the spec: `frame_set_.erase(frame_set_.find(node))` for a node that is
found. -/
def frameSetErase (node : LRUKNode) (frame_set : List LRUKNode) : List LRUKNode :=
  frame_set.filter fun e => e.fid_ ≠ node.fid_

/-- The replacer: `node_store_` maps a tracked frame to its node, `frame_set_` holds the
evictable nodes in eviction order. -/
structure LRUKReplacer where
  node_store_ : List (Int × LRUKNode)
  frame_set_ : List LRUKNode
  current_timestamp_ : Nat
  replacer_size_ : Nat
  k_ : Nat
deriving DecidableEq

namespace LRUKReplacer

/-- The constructor `LRUKReplacer(num_frames, k)`; the timestamp starts at 0. -/
def new (num_frames k : Nat) : LRUKReplacer :=
  { node_store_ := [], frame_set_ := [], current_timestamp_ := 0, replacer_size_ := num_frames,
    k_ := k }

/-- Result: the replacer after the call and the frame written to `*frame_id`, `none` when the
call returns false. -/
def Evict (r : LRUKReplacer) : LRUKReplacer × Option Int :=
  match r.frame_set_ with
  | [] => (r, none)
  | it :: rest =>
    ({ r with node_store_ := mapErase r.node_store_ it.fid_, frame_set_ := rest }, some it.fid_)

/-- The call `RecordAccess(frame_id)`. It throws when the frame has no node and `node_store_`
is at capacity; the erase of `frame_set_.end()` is undefined behaviour. -/
def RecordAccess (r : LRUKReplacer) (frame_id : Int) : Throws LRUKReplacer :=
  let r := { r with current_timestamp_ := r.current_timestamp_ + 1 }
  match mapFind r.node_store_ frame_id with
  | none =>
    if r.node_store_.length = r.replacer_size_ then Throws.exception r
    else
      let node := (LRUKNode.new frame_id r.k_).AddHistory r.current_timestamp_
      Throws.ok { r with node_store_ := mapSet r.node_store_ frame_id node }
  | some node =>
    if node.is_evictable_ then
      if frameSetFind node r.frame_set_ then
        let frame_set := frameSetErase node r.frame_set_
        let node := node.AddHistory r.current_timestamp_
        Throws.ok { r with
          node_store_ := mapSet r.node_store_ frame_id node,
          frame_set_ := frameSetInsert node frame_set }
      else Throws.undefined
    else
      Throws.ok { r with
        node_store_ := mapSet r.node_store_ frame_id (node.AddHistory r.current_timestamp_) }

/-- The call `SetEvictable(frame_id, set_evictable)`; `node_store_[frame_id]` enters the
default node for a frame without node. -/
def SetEvictable (r : LRUKReplacer) (frame_id : Int) (set_evictable : Bool) : LRUKReplacer :=
  let r :=
    match mapFind r.node_store_ frame_id with
    | some _ => r
    | none => { r with node_store_ := mapSet r.node_store_ frame_id LRUKNode.default }
  let node := (mapFind r.node_store_ frame_id).getD LRUKNode.default
  if node.is_evictable_ = set_evictable then r
  else if set_evictable then
    { r with
      frame_set_ :=
        if frameSetFind node r.frame_set_ then r.frame_set_ else frameSetInsert node r.frame_set_,
      node_store_ := mapSet r.node_store_ frame_id { node with is_evictable_ := set_evictable } }
  else
    let node := { node with is_evictable_ := set_evictable }
    { r with
      node_store_ := mapSet r.node_store_ frame_id node,
      frame_set_ :=
        if frameSetFind node r.frame_set_ then frameSetErase node r.frame_set_
        else r.frame_set_ }

/-- The call `Remove(frame_id)`. For a node that is not evictable the function locks its
mutex a second time before it throws, and the erase of `frame_set_.end()` is undefined
behaviour. -/
def Remove (r : LRUKReplacer) (frame_id : Int) : Throws LRUKReplacer :=
  match mapFind r.node_store_ frame_id with
  | some node =>
    if ¬ node.is_evictable_ then Throws.undefined
    else if frameSetFind node r.frame_set_ then
      Throws.ok { r with
        node_store_ := mapErase r.node_store_ frame_id,
        frame_set_ := frameSetErase node r.frame_set_ }
    else Throws.undefined
  | none => Throws.ok r

def Size (r : LRUKReplacer) : Nat := r.frame_set_.length

/-- The evictable flag of the node of a frame; a frame without node is not evictable. -/
def evictable (r : LRUKReplacer) (frame_id : Int) : Bool :=
  match mapFind r.node_store_ frame_id with
  | some node => node.is_evictable_
  | none => false

end LRUKReplacer

/-! ## Buffer pool manager (`buffer_pool_manager.cpp`) -/

def BUSTUB_PAGE_SIZE : Nat := 4096

/-- The page object of a frame: the bytes and the metadata. -/
structure Page where
  data_ : List Nat
  page_id_ : Int
  pin_count_ : Int
  is_dirty_ : Bool
deriving DecidableEq

namespace Page

/-- Modelled from the spec: the page object `new Page[pool_size_]` creates (`page.h` is not
among the sources): zeroed bytes, page id INVALID, pin count 0, not dirty. -/
def new : Page :=
  { data_ := List.replicate BUSTUB_PAGE_SIZE 0, page_id_ := INVALID_PAGE_ID, pin_count_ := 0,
    is_dirty_ := false }

/-- Modelled from the spec: `ResetMemory` zeroes the bytes. -/
def ResetMemory (page : Page) : Page := { page with data_ := List.replicate BUSTUB_PAGE_SIZE 0 }

end Page

/-- Modelled from the spec: the disk manager, an external collaborator. The disk is a map from
page ids to bytes; `writes_` and `deallocated_` list the page ids of the `WritePage` and
`DeallocatePage` calls so far, the latest first. -/
structure DiskManager where
  data_ : Int → List Nat
  writes_ : List Int
  deallocated_ : List Int

namespace DiskManager

/-- A disk of zeroed pages, never written. -/
def blank : DiskManager :=
  { data_ := fun _ => List.replicate BUSTUB_PAGE_SIZE 0, writes_ := [], deallocated_ := [] }

/-- Modelled from the spec: `WritePage(page_id, data)`. -/
def WritePage (disk : DiskManager) (page_id : Int) (data : List Nat) : DiskManager :=
  { disk with
    data_ := fun p => if p = page_id then data else disk.data_ p,
    writes_ := page_id :: disk.writes_ }

/-- Modelled from the spec: the bytes `ReadPage(page_id, data)` writes to `data`. -/
def ReadPage (disk : DiskManager) (page_id : Int) : List Nat := disk.data_ page_id

/-- Modelled from the spec: `DeallocatePage(page_id)` notifies the disk manager. -/
def DeallocatePage (disk : DiskManager) (page_id : Int) : DiskManager :=
  { disk with deallocated_ := page_id :: disk.deallocated_ }

end DiskManager

/-- The buffer pool: `pages_` is the frame array (indexed by the frame ids `0 ..
pool_size_ - 1`), `page_table_` maps the resident page ids to their frames. -/
structure BufferPoolManager where
  pool_size_ : Nat
  pages_ : Int → Page
  replacer_ : LRUKReplacer
  free_list_ : List Int
  page_table_ : List (Int × Int)
  next_page_id_ : Int
  disk_manager_ : DiskManager

namespace BufferPoolManager

/-- The constructor: every frame is in the free list; the page id counter starts at 0. -/
def new (pool_size replacer_k : Nat) (disk_manager : DiskManager) : BufferPoolManager :=
  { pool_size_ := pool_size,
    pages_ := fun _ => Page.new,
    replacer_ := LRUKReplacer.new pool_size replacer_k,
    free_list_ := (List.range pool_size).map Int.ofNat,
    page_table_ := [],
    next_page_id_ := 0,
    disk_manager_ := disk_manager }

/-- The pool with `page` as the page object of frame `frame_id`. -/
def setPage (bpm : BufferPoolManager) (frame_id : Int) (page : Page) : BufferPoolManager :=
  { bpm with pages_ := fun f => if f = frame_id then page else bpm.pages_ f }

/-- The frame acquisition that `NewPage` and `FetchPage` (on a miss) both spell out: the front
of the free list, else the victim of the replacer, written back when dirty and erased from the
page table. Result: the pool and the frame, `none` for the frame when nothing can be evicted;
an index outside `pages_` gives `none` for the call. -/
def acquireFrame (bpm : BufferPoolManager) : Option (BufferPoolManager × Option Int) :=
  match bpm.free_list_ with
  | [] =>
    match bpm.replacer_.Evict with
    | (replacer, none) => some ({ bpm with replacer_ := replacer }, none)
    | (replacer, some frame_id) =>
      if 0 ≤ frame_id ∧ frame_id < bpm.pool_size_ then
        some ({ bpm with
          replacer_ := replacer,
          disk_manager_ :=
            if (bpm.pages_ frame_id).is_dirty_ then
              bpm.disk_manager_.WritePage (bpm.pages_ frame_id).page_id_
                (bpm.pages_ frame_id).data_
            else bpm.disk_manager_,
          page_table_ := mapErase bpm.page_table_ (bpm.pages_ frame_id).page_id_ },
          some frame_id)
      else none
  | front :: rest => some ({ bpm with free_list_ := rest }, some front)

/-- The two replacer calls `RecordAccess(frame_id); SetEvictable(frame_id, false)`; `none`
when `RecordAccess` does not return. -/
def recordAccess (bpm : BufferPoolManager) (frame_id : Int) : Option BufferPoolManager :=
  match bpm.replacer_.RecordAccess frame_id with
  | Throws.ok replacer => some { bpm with replacer_ := replacer.SetEvictable frame_id false }
  | _ => none

/-- Result: the pool after the call, and the new page id with the frame of the returned page,
or `none` for the null pointer. The call itself is `none` when it does not return (an
exception of the replacer, an index outside `pages_`). -/
def NewPage (bpm : BufferPoolManager) : Option (BufferPoolManager × Option (Int × Int)) :=
  match bpm.acquireFrame with
  | none => none
  | some (bpm, none) => some (bpm, none)
  | some (bpm, some res_frame_id) =>
    if 0 ≤ res_frame_id ∧ res_frame_id < bpm.pool_size_ then
      let page_id := bpm.next_page_id_
      let bpm := { bpm with next_page_id_ := bpm.next_page_id_ + 1 }
      let bpm := { bpm with page_table_ := mapSet bpm.page_table_ page_id res_frame_id }
      let bpm := bpm.setPage res_frame_id
        { (bpm.pages_ res_frame_id).ResetMemory with
          pin_count_ := 1, is_dirty_ := false, page_id_ := page_id }
      (bpm.recordAccess res_frame_id).map fun bpm => (bpm, some (page_id, res_frame_id))
    else none

/-- Result: the pool after the call and the frame of the returned page, or `none` for the
null pointer. The call itself is `none` when it does not return (the assertion on the page
id, an exception of the replacer, an index outside `pages_`). -/
def FetchPage (bpm : BufferPoolManager) (page_id : Int) :
    Option (BufferPoolManager × Option Int) :=
  if page_id = -1 then none
  else
    match mapFind bpm.page_table_ page_id with
    | none =>
      match bpm.acquireFrame with
      | none => none
      | some (bpm, none) => some (bpm, none)
      | some (bpm, some res_frame_id) =>
        if 0 ≤ res_frame_id ∧ res_frame_id < bpm.pool_size_ then
          let bpm := { bpm with page_table_ := mapSet bpm.page_table_ page_id res_frame_id }
          let bpm := bpm.setPage res_frame_id
            { data_ := bpm.disk_manager_.ReadPage page_id, page_id_ := page_id, pin_count_ := 1,
              is_dirty_ := false }
          (bpm.recordAccess res_frame_id).map fun bpm => (bpm, some res_frame_id)
        else none
    | some res_frame_id =>
      if 0 ≤ res_frame_id ∧ res_frame_id < bpm.pool_size_ then
        let bpm := bpm.setPage res_frame_id
          { bpm.pages_ res_frame_id with
            pin_count_ := (bpm.pages_ res_frame_id).pin_count_ + 1 }
        (bpm.recordAccess res_frame_id).map fun bpm => (bpm, some res_frame_id)
      else none

/-- Result: the pool after the call and the returned flag; `none` for an index outside
`pages_`. -/
def UnpinPage (bpm : BufferPoolManager) (page_id : Int) (is_dirty : Bool) :
    Option (BufferPoolManager × Bool) :=
  match mapFind bpm.page_table_ page_id with
  | some frame_id =>
    if 0 ≤ frame_id ∧ frame_id < bpm.pool_size_ then
      if (bpm.pages_ frame_id).pin_count_ = 0 then some (bpm, false)
      else
        let bpm := bpm.setPage frame_id
          { bpm.pages_ frame_id with
            is_dirty_ := (bpm.pages_ frame_id).is_dirty_ || is_dirty,
            pin_count_ := (bpm.pages_ frame_id).pin_count_ - 1 }
        if (bpm.pages_ frame_id).pin_count_ = 0 then
          some ({ bpm with replacer_ := bpm.replacer_.SetEvictable frame_id true }, true)
        else some (bpm, true)
    else none
  | none => some (bpm, false)

/-- Result: the pool after the call and the returned flag; `none` for an index outside
`pages_`. -/
def FlushPage (bpm : BufferPoolManager) (page_id : Int) : Option (BufferPoolManager × Bool) :=
  match mapFind bpm.page_table_ page_id with
  | some frame_id =>
    if 0 ≤ frame_id ∧ frame_id < bpm.pool_size_ then
      let bpm := { bpm with
        disk_manager_ :=
          bpm.disk_manager_.WritePage (bpm.pages_ frame_id).page_id_ (bpm.pages_ frame_id).data_ }
      some (bpm.setPage frame_id { bpm.pages_ frame_id with is_dirty_ := false }, true)
    else none
  | none => some (bpm, false)

/-- Result: the pool after the call and the returned flag; `none` when the call does not
return (`Remove` of the replacer, an index outside `pages_`). -/
def DeletePage (bpm : BufferPoolManager) (page_id : Int) : Option (BufferPoolManager × Bool) :=
  match mapFind bpm.page_table_ page_id with
  | some frame_id =>
    if 0 ≤ frame_id ∧ frame_id < bpm.pool_size_ then
      if (bpm.pages_ frame_id).pin_count_ ≠ 0 then some (bpm, false)
      else
        match bpm.replacer_.Remove frame_id with
        | Throws.ok replacer =>
          let bpm := { bpm with
            page_table_ := mapErase bpm.page_table_ page_id,
            replacer_ := replacer,
            free_list_ := bpm.free_list_ ++ [frame_id] }
          let bpm := bpm.setPage frame_id
            { (bpm.pages_ frame_id).ResetMemory with
              is_dirty_ := false, pin_count_ := 0, page_id_ := -1 }
          some ({ bpm with disk_manager_ := bpm.disk_manager_.DeallocatePage page_id }, true)
        | _ => none
    else none
  | none => some (bpm, true)

/-- A call of the buffer pool manager. -/
inductive Call where
  | NewPage
  | FetchPage (page_id : Int)
  | UnpinPage (page_id : Int) (is_dirty : Bool)
  | FlushPage (page_id : Int)
  | DeletePage (page_id : Int)
deriving DecidableEq

/-- The pool after a call; `none` when the call does not return. -/
def step (bpm : BufferPoolManager) : Call → Option BufferPoolManager
  | Call.NewPage => bpm.NewPage.map fun r => r.1
  | Call.FetchPage page_id => (bpm.FetchPage page_id).map fun r => r.1
  | Call.UnpinPage page_id is_dirty => (bpm.UnpinPage page_id is_dirty).map fun r => r.1
  | Call.FlushPage page_id => (bpm.FlushPage page_id).map fun r => r.1
  | Call.DeletePage page_id => (bpm.DeletePage page_id).map fun r => r.1

/-- The pool after a sequence of calls. -/
def run : BufferPoolManager → List Call → Option BufferPoolManager
  | bpm, [] => some bpm
  | bpm, c :: rest =>
    match bpm.step c with
    | none => none
    | some bpm => run bpm rest

/-- The pool of `pool_size` frames (K = 2, a blank disk) after the given calls; the new pool
when one of them does not return. -/
def poolAfter (pool_size : Nat) (calls : List Call) : BufferPoolManager :=
  (run (new pool_size 2 DiskManager.blank) calls).getD (new pool_size 2 DiskManager.blank)

/-- The pool states reachable from construction through the five calls. -/
inductive Reachable : BufferPoolManager → Prop where
  | init (pool_size replacer_k : Nat) (disk_manager : DiskManager) :
      Reachable (new pool_size replacer_k disk_manager)
  | step (bpm bpm' : BufferPoolManager) (c : Call) (hr : Reachable bpm)
      (hs : bpm.step c = some bpm') : Reachable bpm'

/-- The call fetches only a page id that `NewPage` has handed out before. -/
def allocated (bpm : BufferPoolManager) : Call → Prop
  | Call.FetchPage page_id => 0 ≤ page_id ∧ page_id < bpm.next_page_id_
  | _ => True

/-- The pool states reachable from construction through the five calls when `FetchPage` is
only called with page ids that `NewPage` has handed out before. -/
inductive ReachableAllocated : BufferPoolManager → Prop where
  | init (pool_size replacer_k : Nat) (disk_manager : DiskManager) :
      ReachableAllocated (new pool_size replacer_k disk_manager)
  | step (bpm bpm' : BufferPoolManager) (c : Call) (hr : ReachableAllocated bpm)
      (hc : bpm.allocated c) (hs : bpm.step c = some bpm') : ReachableAllocated bpm'

/-- The frame holds a resident page: it is the image of a page-table entry. -/
def resident (bpm : BufferPoolManager) (frame_id : Int) : Prop :=
  ∃ page_id, mapFind bpm.page_table_ page_id = some frame_id

/-- Every frame id in `0 .. pool_size_ - 1` is either in the free list or the image of exactly
one page-table entry, never both and never neither. -/
def FramePartition (bpm : BufferPoolManager) : Prop :=
  ∀ frame_id : Int, 0 ≤ frame_id → frame_id < bpm.pool_size_ →
    (frame_id ∈ bpm.free_list_ ∧ ¬ bpm.resident frame_id) ∨
    (frame_id ∉ bpm.free_list_ ∧ ∃! page_id, mapFind bpm.page_table_ page_id = some frame_id)

/-- A frame is evictable in the replacer exactly when it holds a resident page whose pin count
is 0. -/
def EvictableIffUnpinned (bpm : BufferPoolManager) : Prop :=
  ∀ frame_id : Int, bpm.replacer_.evictable frame_id = true ↔
    (bpm.resident frame_id ∧ (bpm.pages_ frame_id).pin_count_ = 0)

/-- The invariant of the pool; `hole` is a frame that has just been acquired and is not bound
to a page yet. -/
structure PoolInv (bpm : BufferPoolManager) (hole : Option Int) : Prop where
  free_nodup : bpm.free_list_.Nodup
  free_valid : ∀ f ∈ bpm.free_list_, 0 ≤ f ∧ f < bpm.pool_size_
  keys_nodup : (bpm.page_table_.map Prod.fst).Nodup
  bound : ∀ p f, mapFind bpm.page_table_ p = some f →
    (0 ≤ f ∧ f < bpm.pool_size_) ∧ f ∉ bpm.free_list_ ∧ some f ≠ hole ∧
    (bpm.pages_ f).page_id_ = p ∧ p < bpm.next_page_id_ ∧ 0 ≤ (bpm.pages_ f).pin_count_
  cover : ∀ f : Int, 0 ≤ f → f < bpm.pool_size_ → f ∉ bpm.free_list_ → some f ≠ hole →
    mapFind bpm.page_table_ (bpm.pages_ f).page_id_ = some f
  hole_ok : ∀ f, hole = some f →
    (0 ≤ f ∧ f < bpm.pool_size_) ∧ f ∉ bpm.free_list_ ∧ mapFind bpm.replacer_.node_store_ f = none
  count : bpm.page_table_.length + bpm.free_list_.length + (if hole.isSome then 1 else 0) =
    bpm.pool_size_
  store_nodup : (bpm.replacer_.node_store_.map Prod.fst).Nodup
  store_count : bpm.replacer_.node_store_.length = bpm.page_table_.length
  capacity : bpm.replacer_.replacer_size_ = bpm.pool_size_
  tracked : ∀ f node, mapFind bpm.replacer_.node_store_ f = some node →
    node.fid_ = f ∧ bpm.resident f ∧
    (node.is_evictable_ = true ↔ (bpm.pages_ f).pin_count_ = 0) ∧
    (node.is_evictable_ = true ↔ ∃ e ∈ bpm.replacer_.frame_set_, e.fid_ = f)
  tracked_all : ∀ p f, mapFind bpm.page_table_ p = some f →
    (mapFind bpm.replacer_.node_store_ f).isSome
  set_nodup : (bpm.replacer_.frame_set_.map fun e => e.fid_).Nodup
  set_tracked : ∀ e ∈ bpm.replacer_.frame_set_,
    ∃ node, mapFind bpm.replacer_.node_store_ e.fid_ = some node ∧ node.is_evictable_ = true

end BufferPoolManager

/-! ## Calls and invariant of the replacer -/

namespace LRUKReplacer

/-- A call of the replacer. -/
inductive Op where
  | RecordAccess (frame_id : Int)
  | SetEvictable (frame_id : Int) (set_evictable : Bool)
  | Evict
  | Remove (frame_id : Int)
deriving DecidableEq

/-- The frame has a node in `node_store_`. -/
def tracked (r : LRUKReplacer) (frame_id : Int) : Bool :=
  (mapFind r.node_store_ frame_id).isSome

/-- The replacer after a call: the state the call returns in or throws its exception in;
`none` for undefined behaviour. -/
def step (r : LRUKReplacer) : Op → Option LRUKReplacer
  | Op.RecordAccess frame_id =>
    match r.RecordAccess frame_id with
    | Throws.ok s => some s
    | Throws.exception s => some s
    | Throws.undefined => none
  | Op.SetEvictable frame_id set_evictable => some (r.SetEvictable frame_id set_evictable)
  | Op.Evict => some r.Evict.1
  | Op.Remove frame_id =>
    match r.Remove frame_id with
    | Throws.ok s => some s
    | Throws.exception s => some s
    | Throws.undefined => none

/-- The call is `SetEvictable` on a tracked frame, or one of the other calls. -/
def onTracked (r : LRUKReplacer) : Op → Prop
  | Op.SetEvictable frame_id _ => r.tracked frame_id = true
  | _ => True

/-- The replacer states reachable from construction through `RecordAccess`, `Evict`, `Remove`
and `SetEvictable` on tracked frames. -/
inductive Reachable : LRUKReplacer → Prop where
  | init (num_frames k : Nat) : Reachable (LRUKReplacer.new num_frames k)
  | step (r s : LRUKReplacer) (c : Op) (hr : Reachable r) (hc : r.onTracked c)
      (hs : r.step c = some s) : Reachable s

/-- The replacer of `num_frames` frames and the given K after the given calls; the new
replacer when one of them is undefined. -/
def after (num_frames k : Nat) (calls : List Op) : LRUKReplacer :=
  (calls.foldl (fun (s : Option LRUKReplacer) c => s.bind fun r => r.step c)
    (some (LRUKReplacer.new num_frames k))).getD (LRUKReplacer.new num_frames k)

/-- The invariant of the replacer: the nodes sit under their own frame ids, there are at most
`replacer_size_` of them, `frame_set_` holds one entry for each evictable node, with the
history of that node, in eviction order. -/
structure Inv (r : LRUKReplacer) : Prop where
  store_nodup : (r.node_store_.map Prod.fst).Nodup
  capacity : r.node_store_.length ≤ r.replacer_size_
  node_ok : ∀ f node, mapFind r.node_store_ f = some node →
    node.fid_ = f ∧ node.k_ = r.k_ ∧
    (node.is_evictable_ = true → ∃ e ∈ r.frame_set_, e.fid_ = f)
  set_ok : ∀ e ∈ r.frame_set_, ∃ node, mapFind r.node_store_ e.fid_ = some node ∧
    node.is_evictable_ = true ∧ e.history_ = node.history_ ∧ e.k_ = node.k_
  set_nodup : (r.frame_set_.map fun e => e.fid_).Nodup
  sorted : r.frame_set_.Pairwise fun a b => b.before a = false

end LRUKReplacer

/-! ## Pages kept across eviction -/

namespace BufferPoolManager

/-- The caller writes the bytes `data` through the pointer to the page object in frame
`frame_id`. -/
def writeData (bpm : BufferPoolManager) (frame_id : Int) (data : List Nat) :
    BufferPoolManager :=
  bpm.setPage frame_id { bpm.pages_ frame_id with data_ := data }

/-- A call on another page than `page_id`: `NewPage`, or `FetchPage` or `UnpinPage` of
another page id. -/
def foreign (page_id : Int) : Call → Prop
  | Call.NewPage => True
  | Call.FetchPage q => q ≠ page_id
  | Call.UnpinPage q _ => q ≠ page_id
  | Call.FlushPage _ => False
  | Call.DeletePage _ => False

/-- Every `FetchPage` of the sequence asks for a page id that `NewPage` has handed out by
then. -/
def allocatedRun : BufferPoolManager → List Call → Prop
  | _, [] => True
  | bpm, c :: rest => bpm.allocated c ∧ ∀ bpm', bpm.step c = some bpm' → allocatedRun bpm' rest

/-- The bytes `B` of page `page_id` are kept: the page id has been handed out, a frame that
carries it is the frame of its page-table entry, holds `B` and is dirty unless the disk holds
`B` too, and the disk holds `B` when the page is not resident. `hole` is a frame that has just
been acquired and is not bound to a page yet; what it carries does not count. -/
structure Keeps (bpm : BufferPoolManager) (page_id : Int) (B : List Nat) (hole : Option Int) :
    Prop where
  handed_out : page_id ≠ -1 ∧ page_id < bpm.next_page_id_
  carrier : ∀ g : Int, 0 ≤ g → g < bpm.pool_size_ → some g ≠ hole →
    (bpm.pages_ g).page_id_ = page_id →
    mapFind bpm.page_table_ page_id = some g ∧ (bpm.pages_ g).data_ = B ∧
    ((bpm.pages_ g).is_dirty_ = true ∨ bpm.disk_manager_.data_ page_id = B)
  entry : ∀ g : Int, mapFind bpm.page_table_ page_id = some g →
    (0 ≤ g ∧ g < bpm.pool_size_) ∧ g ∉ bpm.free_list_ ∧ some g ≠ hole ∧
    (bpm.pages_ g).page_id_ = page_id
  on_disk : mapFind bpm.page_table_ page_id = none → bpm.disk_manager_.data_ page_id = B

end BufferPoolManager

/-! ## Page guards (`page_guard.cpp`) -/

/-- Modelled from the spec: the members of `BasicPageGuard` (`page_guard.h` is not among the
sources). `bpm_` tells whether the pool pointer is set, `page_` is the frame of the page
object the guard points to (`none` for the null pointer), `is_dirty_` the accumulated dirty
flag. -/
structure BasicPageGuard where
  bpm_ : Bool
  page_ : Option Int
  is_dirty_ : Bool
deriving DecidableEq

/-- Modelled from the spec: a read guard wraps a basic guard. -/
structure ReadPageGuard where
  guard_ : BasicPageGuard
deriving DecidableEq

/-- Modelled from the spec: a write guard wraps a basic guard. -/
structure WritePageGuard where
  guard_ : BasicPageGuard
deriving DecidableEq

/-- What a guard call does outside the guard: the release of the latch of the page object in
a frame (the latches themselves are not modelled) and the calls of the pool. -/
inductive GuardEvent where
  | RUnlatch (frame_id : Int)
  | WUnlatch (frame_id : Int)
  | UnpinPage (page_id : Int) (is_dirty : Bool)
deriving DecidableEq

namespace BasicPageGuard

/-- Modelled from the spec: the guard of the default member initialisers, which holds
nothing. -/
def empty : BasicPageGuard := { bpm_ := false, page_ := none, is_dirty_ := false }

/-- The unpin that the three `Drop` functions share: `UnpinPage(page_->GetPageId(),
is_dirty_)` when both pointers are set. Result: the pool and the events; `none` when
`UnpinPage` does not return. -/
def unpin (g : BasicPageGuard) (bpm : BufferPoolManager) :
    Option (BufferPoolManager × List GuardEvent) :=
  match g.bpm_, g.page_ with
  | true, some frame_id =>
    (bpm.UnpinPage (bpm.pages_ frame_id).page_id_ g.is_dirty_).map fun r =>
      (r.1, [GuardEvent.UnpinPage (bpm.pages_ frame_id).page_id_ g.is_dirty_])
  | _, _ => some (bpm, [])

/-- Result: the guard, the pool and the events of the call. -/
def Drop (g : BasicPageGuard) (bpm : BufferPoolManager) :
    Option (BasicPageGuard × BufferPoolManager × List GuardEvent) :=
  (g.unpin bpm).map fun r =>
    ({ g with page_ := none, bpm_ := false, is_dirty_ := false }, r.1, r.2)

/-- The move constructor. Result: the new guard and `that` after the call. -/
def move (that : BasicPageGuard) : BasicPageGuard × BasicPageGuard :=
  ({ page_ := that.page_, bpm_ := that.bpm_, is_dirty_ := that.is_dirty_ },
    { that with page_ := none, bpm_ := false, is_dirty_ := false })

/-- The move assignment `this = std::move(that)`. Result: `this`, `that`, the pool and the
events. -/
def assign (g that : BasicPageGuard) (bpm : BufferPoolManager) :
    Option (BasicPageGuard × BasicPageGuard × BufferPoolManager × List GuardEvent) :=
  (g.Drop bpm).map fun r =>
    ({ r.1 with page_ := that.page_, bpm_ := that.bpm_, is_dirty_ := that.is_dirty_ },
      { that with page_ := none, bpm_ := false, is_dirty_ := false }, r.2.1, r.2.2)

/-- The destructor calls `Drop`. Result: the pool and the events. -/
def destroy (g : BasicPageGuard) (bpm : BufferPoolManager) :
    Option (BufferPoolManager × List GuardEvent) :=
  (g.Drop bpm).map fun r => r.2

end BasicPageGuard

namespace ReadPageGuard

/-- Result: the guard, the pool and the events of the call. -/
def Drop (g : ReadPageGuard) (bpm : BufferPoolManager) :
    Option (ReadPageGuard × BufferPoolManager × List GuardEvent) :=
  let latch : List GuardEvent :=
    match g.guard_.page_ with
    | some frame_id => [GuardEvent.RUnlatch frame_id]
    | none => []
  (g.guard_.unpin bpm).map fun r =>
    ({ guard_ := { g.guard_ with page_ := none, bpm_ := false, is_dirty_ := false } }, r.1,
      latch ++ r.2)

/-- The move constructor assigns `that.guard_` to the member `guard_`, which holds nothing
yet. Result: the new guard, `that`, the pool and the events. -/
def move (that : ReadPageGuard) (bpm : BufferPoolManager) :
    Option (ReadPageGuard × ReadPageGuard × BufferPoolManager × List GuardEvent) :=
  (BasicPageGuard.empty.assign that.guard_ bpm).map fun r =>
    ({ guard_ := r.1 }, { guard_ := r.2.1 }, r.2.2.1, r.2.2.2)

/-- The move assignment: `Drop`, then the assignment of the member. -/
def assign (g that : ReadPageGuard) (bpm : BufferPoolManager) :
    Option (ReadPageGuard × ReadPageGuard × BufferPoolManager × List GuardEvent) :=
  (g.Drop bpm).bind fun d =>
    (d.1.guard_.assign that.guard_ d.2.1).map fun r =>
      ({ guard_ := r.1 }, { guard_ := r.2.1 }, r.2.2.1, d.2.2 ++ r.2.2.2)

/-- The destructor calls `Drop`; the destructor of the member `guard_` follows. -/
def destroy (g : ReadPageGuard) (bpm : BufferPoolManager) :
    Option (BufferPoolManager × List GuardEvent) :=
  (g.Drop bpm).bind fun d =>
    (d.1.guard_.destroy d.2.1).map fun r => (r.1, d.2.2 ++ r.2)

end ReadPageGuard

namespace WritePageGuard

/-- Result: the guard, the pool and the events of the call. -/
def Drop (g : WritePageGuard) (bpm : BufferPoolManager) :
    Option (WritePageGuard × BufferPoolManager × List GuardEvent) :=
  let latch : List GuardEvent :=
    match g.guard_.page_ with
    | some frame_id => [GuardEvent.WUnlatch frame_id]
    | none => []
  (g.guard_.unpin bpm).map fun r =>
    ({ guard_ := { g.guard_ with page_ := none, bpm_ := false, is_dirty_ := false } }, r.1,
      latch ++ r.2)

/-- The move constructor assigns `that.guard_` to the member `guard_`, which holds nothing
yet. Result: the new guard, `that`, the pool and the events. -/
def move (that : WritePageGuard) (bpm : BufferPoolManager) :
    Option (WritePageGuard × WritePageGuard × BufferPoolManager × List GuardEvent) :=
  (BasicPageGuard.empty.assign that.guard_ bpm).map fun r =>
    ({ guard_ := r.1 }, { guard_ := r.2.1 }, r.2.2.1, r.2.2.2)

/-- The move assignment: `Drop`, then the assignment of the member. -/
def assign (g that : WritePageGuard) (bpm : BufferPoolManager) :
    Option (WritePageGuard × WritePageGuard × BufferPoolManager × List GuardEvent) :=
  (g.Drop bpm).bind fun d =>
    (d.1.guard_.assign that.guard_ d.2.1).map fun r =>
      ({ guard_ := r.1 }, { guard_ := r.2.1 }, r.2.2.1, d.2.2 ++ r.2.2.2)

/-- The destructor calls `Drop`; the destructor of the member `guard_` follows. -/
def destroy (g : WritePageGuard) (bpm : BufferPoolManager) :
    Option (BufferPoolManager × List GuardEvent) :=
  (g.Drop bpm).bind fun d =>
    (d.1.guard_.destroy d.2.1).map fun r => (r.1, d.2.2 ++ r.2)

end WritePageGuard

/-- The number of `UnpinPage` calls among the events. -/
def unpinCount (events : List GuardEvent) : Nat :=
  (events.filter fun e =>
    match e with
    | GuardEvent.UnpinPage _ _ => true
    | _ => false).length

/-! ## Row unlock and the wait of an aborted or overtaken transaction -/

namespace LockManager

/-- The request `GetTxnHoldLockOfRow` returns: a copy of the first granted request of the row
queue whose table is `oid` (the loop does not look at the transaction of the request, and its
third test compares the row of the local request with `rid`), with `txn_id_ =
INVALID_TXN_ID` when there is none or the row has no queue. -/
def GetTxnHoldLockOfRow (lm : LockManager) (_txn : Transaction) (oid : table_oid_t) (rid : RID) :
    LockRequest :=
  let lock_request : LockRequest :=
    { txn_id_ := INVALID_TXN_ID, lock_mode_ := LockMode.INTENTION_SHARED, oid_ := oid,
      rid_ := some rid, granted_ := false }
  match lm.row_lock_map_ rid with
  | none => lock_request
  | some lock_request_queue =>
    match lock_request_queue.request_queue_.find?
        fun request => request.granted_ ∧ request.oid_ = oid ∧ lock_request.rid_ = some rid with
    | some request =>
      { lock_mode_ := request.lock_mode_, txn_id_ := request.txn_id_, oid_ := request.oid_,
        rid_ := request.rid_, granted_ := true }
    | none => lock_request

/-- The call `UnlockRow(txn, oid, rid, force)`: the result, the lock manager and the
transaction after it. -/
def UnlockRow (lm : LockManager) (txn : Transaction) (oid : table_oid_t) (rid : RID)
    (force : Bool) : CallResult × LockManager × Transaction :=
  let request := GetTxnHoldLockOfRow lm txn oid rid
  if request.txn_id_ = INVALID_TXN_ID then
    (CallResult.thrown AbortReason.ATTEMPTED_UNLOCK_BUT_NO_LOCK_HELD, lm,
      { txn with state_ := TransactionState.ABORTED })
  else
    let txn :=
      if ¬ force then
        if (txn.isolation_level_ = IsolationLevel.REPEATABLE_READ ∧
              (request.lock_mode_ = LockMode.EXCLUSIVE ∨ request.lock_mode_ = LockMode.SHARED)) ∨
            (txn.isolation_level_ = IsolationLevel.READ_COMMITTED ∧
              request.lock_mode_ = LockMode.EXCLUSIVE) ∨
            (txn.isolation_level_ = IsolationLevel.READ_UNCOMMITTED ∧
              request.lock_mode_ = LockMode.EXCLUSIVE) then
          { txn with state_ := TransactionState.SHRINKING }
        else txn
      else txn
    match lm.row_lock_map_ rid with
    | none => (CallResult.undefined, lm, txn)
    | some lock_request_queue =>
      match EraseRequestFromQueue txn lock_request_queue with
      | (_, false) =>
        (CallResult.thrown AbortReason.ATTEMPTED_UNLOCK_BUT_NO_LOCK_HELD, lm,
          { txn with state_ := TransactionState.ABORTED })
      | (lock_request_queue, true) =>
        (CallResult.returned true, lm.setRow rid lock_request_queue,
          EraseLockModeOfIdFromTxnRow txn request.lock_mode_ oid rid)

/-- A row request as `LockRow` creates it, with the given flag `granted_`. -/
def rowRequest (txn_id : txn_id_t) (lock_mode : LockMode) (oid : table_oid_t) (rid : RID)
    (granted_ : Bool) : LockRequest :=
  { txn_id_ := txn_id, lock_mode_ := lock_mode, oid_ := oid, rid_ := some rid,
    granted_ := granted_ }

/-- The calls that lead to a pending upgrade with a request in front of it, on table 7, by
the REPEATABLE_READ transactions 1, 2, 3: transaction 3 locks INTENTION_EXCLUSIVE,
transaction 2 locks INTENTION_SHARED, transaction 1 asks for SHARED and sleeps, transaction 2
asks for the upgrade to EXCLUSIVE and sleeps, transaction 3 unlocks. Result: the lock manager
and the transactions 1 and 2 as they sleep. -/
def upgradePending : LockManager × Transaction × Transaction :=
  let c3 := LockTable init (Transaction.start 3 IsolationLevel.REPEATABLE_READ)
    LockMode.INTENTION_EXCLUSIVE 7
  let c2 := LockTable c3.2.1 (Transaction.start 2 IsolationLevel.REPEATABLE_READ)
    LockMode.INTENTION_SHARED 7
  let c1 := LockTable c2.2.1 (Transaction.start 1 IsolationLevel.REPEATABLE_READ)
    LockMode.SHARED 7
  let u2 := LockTable c1.2.1 c2.2.2 LockMode.EXCLUSIVE 7
  let r3 := UnlockTable u2.2.1 c3.2.2 7
  (r3.2.1, c1.2.2, u2.2.2)

/-- The queue of a table in a lock manager; the empty queue when the table has none. -/
def queueOf (lm : LockManager) (oid : table_oid_t) : LockRequestQueue :=
  (lm.table_lock_map_ oid).getD LockRequestQueue.empty

/-- The row queue with waiting EXCLUSIVE requests of the transactions 1 and 2 for row 4 of
table 7, in this order, and the upgrade of transaction 2 pending. -/
def rowUpgradePending : LockRequestQueue :=
  { request_queue_ := [rowRequest 1 LockMode.EXCLUSIVE 7 4 false,
      rowRequest 2 LockMode.EXCLUSIVE 7 4 false],
    upgrading_ := 2 }

/-- The calls that lead to a waiting transaction that is aborted: transaction 1 locks table 7
EXCLUSIVE, transaction 2 asks for EXCLUSIVE and sleeps; then the state of transaction 2 is
set to ABORTED (what the deadlock detection does through the transaction manager). Result:
the lock manager and transaction 2. -/
def abortedWaiter : LockManager × Transaction :=
  let c1 := LockTable init (Transaction.start 1 IsolationLevel.REPEATABLE_READ)
    LockMode.EXCLUSIVE 7
  let c2 := LockTable c1.2.1 (Transaction.start 2 IsolationLevel.REPEATABLE_READ)
    LockMode.EXCLUSIVE 7
  (c2.2.1, { c2.2.2 with state_ := TransactionState.ABORTED })

/-- The row queue in which transaction 1 holds row 4 of table 7 EXCLUSIVE and the EXCLUSIVE
request of transaction 2 waits. -/
def rowHeldWithWaiter : LockRequestQueue :=
  { request_queue_ := [rowRequest 1 LockMode.EXCLUSIVE 7 4 true,
      rowRequest 2 LockMode.EXCLUSIVE 7 4 false],
    upgrading_ := INVALID_TXN_ID }

/-- Transaction 2 (REPEATABLE_READ) in state ABORTED, with table 7 in its
INTENTION_EXCLUSIVE lock set. -/
def abortedRowWaiter : Transaction :=
  { Transaction.start 2 IsolationLevel.REPEATABLE_READ with
    state_ := TransactionState.ABORTED, ix_table_lock_set_ := [7] }

/-- Transaction 1 (REPEATABLE_READ) in the given state, with table 7 in its SHARED lock
set. -/
def finishedHolder (state : TransactionState) : Transaction :=
  { Transaction.start 1 IsolationLevel.REPEATABLE_READ with
    state_ := state, s_table_lock_set_ := [7] }

/-- Transaction 1 (REPEATABLE_READ) in the given state, which holds table 7
INTENTION_EXCLUSIVE and row 4 of it EXCLUSIVE. -/
def finishedRowHolder (state : TransactionState) : Transaction :=
  { Transaction.start 1 IsolationLevel.REPEATABLE_READ with
    state_ := state, ix_table_lock_set_ := [7], x_row_lock_set_ := [(7, [4])] }

/-- The lock manager in which the only request for row 4 is the granted EXCLUSIVE request of
transaction 1, for table 7. -/
def rowHeld : LockManager :=
  init.setRow 4
    { request_queue_ := [rowRequest 1 LockMode.EXCLUSIVE 7 4 true],
      upgrading_ := INVALID_TXN_ID }

/-- The test of `UnlockTable` and `UnlockRow` before `SetState(SHRINKING)`, on the isolation
level of the transaction and the mode of the request found. -/
def unlockShrinks (isolation_level : IsolationLevel) (lock_mode : LockMode) : Bool :=
  decide ((isolation_level = IsolationLevel.REPEATABLE_READ ∧
        (lock_mode = LockMode.EXCLUSIVE ∨ lock_mode = LockMode.SHARED)) ∨
      (isolation_level = IsolationLevel.READ_COMMITTED ∧ lock_mode = LockMode.EXCLUSIVE) ∨
      (isolation_level = IsolationLevel.READ_UNCOMMITTED ∧ lock_mode = LockMode.EXCLUSIVE))

end LockManager

/-! ## The buffer pool calls of a removal from the tree -/

namespace BPlusTree

/-- A tree of one leaf page (max_size 4) with the key 5 alone: header page 0, root page 1. -/
def singleKeyTree : BPlusTree :=
  { leaf_max_size_ := 4, internal_max_size_ := 4, header_page_id_ := 0, root_page_id_ := 1,
    pages := fun i =>
      if i = 1 then
        some (BPlusTreePage.leaf
          { max_size_ := 4, next_page_id_ := INVALID_PAGE_ID, array_ := [(5, 50)] })
      else none,
    next_page_id_ := 2, deleted := [] }

end BPlusTree

namespace BufferPoolManager

/-- The buffer pool calls of `BPlusTree::Remove(key)` on a tree whose root page is a leaf
that holds `key` alone, in program order: `DeleteGetKeyAt` fetches the header page and the
root page through `FetchPageWrite` (the guards stay in the context), `RemoveEntry` moves the
guard of the root page into its local `basic_page_guard`, removes the key and calls
`bpm_->DeletePage(root_page_id)`; the local guard is dropped when `RemoveEntry` returns and
the guard of the header page when `Remove` returns (both pages were written, the guards are
dirty). -/
def removeLastKeyCalls (header_page_id root_page_id : Int) : List Call :=
  [Call.FetchPage header_page_id, Call.FetchPage root_page_id, Call.DeletePage root_page_id,
    Call.UnpinPage root_page_id true, Call.UnpinPage header_page_id true]

/-- The calls that leave the header page 0 and the root page 1 of a tree in a pool, both
unpinned. -/
def treePagesCalls : List Call :=
  [Call.NewPage, Call.UnpinPage 0 true, Call.NewPage, Call.UnpinPage 1 true]

end BufferPoolManager

/-! ## Copy-on-write trie (`primer/trie.cpp`) -/

/-- Modelled from the spec: the node classes of the trie. `TrieNode` and
`TrieNodeWithValue<T>` are declared in `primer/trie.h`, which is not among the sources; the
functions of `trie.cpp` use the members `children_` (a map from a character to the shared
pointer of a child) and `is_value_node_`, and the member `value_` of a node with a value. A
shared pointer is the address of a node in the heap; `value_` is `none` for a plain
`TrieNode` and holds the type `T` of a `TrieNodeWithValue<T>` (a number that names it) and
the value otherwise. -/
structure TrieNode where
  children_ : List (Char × Nat)
  is_value_node_ : Bool
  value_ : Option (Nat × Nat)
deriving DecidableEq

namespace TrieNode

/-- Modelled from the spec: the node `TrieNode()`, without children and without value. -/
def empty : TrieNode := { children_ := [], is_value_node_ := false, value_ := none }

/-- Modelled from the spec: the node `TrieNodeWithValue<T>(children, value)`; the
constructor marks it as a value node. -/
def withValue (children : List (Char × Nat)) (type value : Nat) : TrieNode :=
  { children_ := children, is_value_node_ := true, value_ := some (type, value) }

/-- Modelled from the spec: `Clone` builds a node of the same class from the children (and
the value) of this one: `TrieNode(children_)` for a plain node,
`TrieNodeWithValue<T>(children_, value_)` for a node with a value. -/
def Clone (node : TrieNode) : TrieNode :=
  match node.value_ with
  | none => { children_ := node.children_, is_value_node_ := false, value_ := none }
  | some (type, value) => withValue node.children_ type value

end TrieNode

/-- The trie object: the shared pointer `root_`, `none` for the null pointer. -/
structure Trie where
  root_ : Option Nat
deriving DecidableEq

namespace Trie

/-- The nodes allocated so far; the address of a node is its index. -/
abbrev Heap := List TrieNode

/-- The call `std::make_shared` (or the `shared_ptr` made from `Clone`): the node gets a new
address. -/
def alloc (heap : Heap) (node : TrieNode) : Heap × Nat := (heap ++ [node], heap.length)

/-- The assignment `ptr->children_[c] = child`; `none` when `ptr` is no node. -/
def setChild (heap : Heap) (ptr : Nat) (c : Char) (child : Nat) : Option Heap :=
  match heap.get? ptr with
  | none => none
  | some node => some (heap.set ptr { node with children_ := mapSet node.children_ c child })

/-- The loop of `Get` from the node `ptr` over the rest of the key: the node reached,
`some none` when a child is missing (the function returns `nullptr`), `none` when a pointer
is no node. -/
def walk (heap : Heap) : Nat → List Char → Option (Option Nat)
  | ptr, [] => some (some ptr)
  | ptr, c :: rest =>
    match heap.get? ptr with
    | none => none
    | some node =>
      match mapFind node.children_ c with
      | none => some none
      | some temp => walk heap temp rest

/-- The end of `Get<T>` at the node the walk reached: `nullptr` (`none`) when the node is not
marked as a value node, and when the `dynamic_cast` fails, which it does for a plain node and
for a value of another type. -/
def valueOf (node : TrieNode) (type : Nat) : Option Nat :=
  if ¬ node.is_value_node_ then none
  else
    match node.value_ with
    | none => none
    | some (type', value) => if type' = type then some value else none

/-- The function `Get<T>` from the node `ptr` on: the value found (`some none` for
`nullptr`), `none` when a pointer is no node. -/
def getFrom (heap : Heap) (ptr : Nat) (key : List Char) (type : Nat) : Option (Option Nat) :=
  match walk heap ptr key with
  | none => none
  | some none => some none
  | some (some ptr) =>
    match heap.get? ptr with
    | none => none
    | some node => some (valueOf node type)

/-- The function `Get<T>` from a node that is given by its content: the walk starts at the
children of `node`. -/
def getVia (heap : Heap) (node : TrieNode) (key : List Char) (type : Nat) :
    Option (Option Nat) :=
  match key with
  | [] => some (valueOf node type)
  | c :: rest =>
    match mapFind node.children_ c with
    | none => some none
    | some temp => getFrom heap temp rest type

/-- The call `Get<T>(key)`: the value found, `some none` for `nullptr`. -/
def Get (heap : Heap) (t : Trie) (key : List Char) (type : Nat) : Option (Option Nat) :=
  match t.root_ with
  | none => some none
  | some root => getFrom heap root key type

/-- The loop of `Put` and the statements after it, for the key `c :: rest` below the node
`ptr`: every character but the last one gets a new node (an empty one, or the clone of the
child there is), the last one a new node with the value (and the children of the child there
is). -/
def putLoop (type value : Nat) : Heap → Nat → Char → List Char → Option Heap
  | heap, ptr, c, [] =>
    match heap.get? ptr with
    | none => none
    | some node =>
      match mapFind node.children_ c with
      | none =>
        let (heap, value_node) := alloc heap (TrieNode.withValue [] type value)
        setChild heap ptr c value_node
      | some old =>
        match heap.get? old with
        | none => none
        | some old_node =>
          let (heap, value_node) :=
            alloc heap (TrieNode.withValue old_node.children_ type value)
          setChild heap ptr c value_node
  | heap, ptr, c, c' :: rest =>
    match heap.get? ptr with
    | none => none
    | some node =>
      match mapFind node.children_ c with
      | none =>
        let (heap, new_node) := alloc heap TrieNode.empty
        (setChild heap ptr c new_node).bind fun heap => putLoop type value heap new_node c' rest
      | some old =>
        match heap.get? old with
        | none => none
        | some old_node =>
          let (heap, child) := alloc heap old_node.Clone
          (setChild heap ptr c child).bind fun heap => putLoop type value heap child c' rest

/-- The function `Put` on a trie with the root `root`: the heap and the new trie. -/
def putRooted (heap : Heap) (root : Nat) (key : List Char) (type value : Nat) :
    Option (Heap × Trie) :=
  match heap.get? root with
  | none => none
  | some root_node =>
    let (heap, ptr) := alloc heap root_node.Clone
    match key with
    | [] =>
      let (heap, ptr) := alloc heap (TrieNode.withValue root_node.Clone.children_ type value)
      some (heap, { root_ := some ptr })
    | c :: rest => (putLoop type value heap ptr c rest).map fun heap => (heap, { root_ := some ptr })

/-- The call `Put<T>(key, value)`: the heap after it and the trie returned. A trie without
root makes an empty root node and calls `Put` on the trie of that node. -/
def Put (heap : Heap) (t : Trie) (key : List Char) (type value : Nat) : Option (Heap × Trie) :=
  match t.root_ with
  | none =>
    let (heap, root) := alloc heap TrieNode.empty
    putRooted heap root key type value
  | some root => putRooted heap root key type value

/-- The heap holds well-formed nodes: the children of every node are nodes of the heap, and
a node is marked as a value node exactly when it is a node with a value (as the constructors
leave it). -/
def HeapOK (heap : Heap) : Prop :=
  ∀ node ∈ heap, (∀ e ∈ node.children_, e.2 < heap.length) ∧
    node.is_value_node_ = node.value_.isSome

/-- The trie lives in the heap: its root, when there is one, is a node of the heap. -/
def inHeap (t : Trie) (heap : Heap) : Prop :=
  ∀ root, t.root_ = some root → root < heap.length

end Trie

/-! ## The guards held above a page that is split, merged or refilled -/

/-- How a run that looks at its guards ends: `released` when it reaches for a guard that is
not held (`write_set_.back()` on an empty `write_set_`, the header page without its guard, a
last guard that is not the parent of the page), else `ran r` with the result `r` of the
function itself (`none` for undefined behaviour of another kind or for a descent out of
fuel). -/
inductive Guarded (α : Type) where
  | released : Guarded α
  | ran (result : Option α) : Guarded α

/-- The result of the run under a function. -/
def Guarded.map {α β : Type} (f : α → β) : Guarded α → Guarded β
  | Guarded.released => Guarded.released
  | Guarded.ran result => Guarded.ran (result.map f)

namespace BPlusTree

/-- The condition on the guards when a page that is not the root is split, merged or
refilled from a sibling: `write_set_` is not empty, its last guard holds the page that
`GetParentPageId` names, and that page is an internal page with `page_id` among its
children. -/
def parentHeld (t : BPlusTree) (page_id : Int) (ctx : Context) : Bool :=
  match GetParentPageId page_id ctx, ctx.write_set_ with
  | some parent_page_id, guard :: _ =>
    decide (guard = parent_page_id) &&
      match t.internalAt guard with
      | some parent_page => decide (page_id ∈ parent_page.array_.map Prod.snd)
      | none => false
  | _, _ => false

/-- The function `InsertInParent` with the guards looked at: `released` when the root page id
is to be changed without the header guard, and when a page that is not the root hands its new
sibling to its parent while `parentHeld` fails; everything else as in `InsertInParentAux`. -/
def InsertInParentChecked :
    Nat → BPlusTree → Int → Int → Int → Context → Guarded BPlusTree
  | 0, _, _, _, _, _ => Guarded.ran none
  | fuel + 1, t, leaf_page_left_id, key, leaf_page_right_id, ctx =>
    let root_page_id := ctx.root_page_id_
    if root_page_id = leaf_page_left_id then
      if ¬ ctx.header_page_ then Guarded.released
      else
        let (root_page_new_id, t) := t.NewPage
        let root_page_new : InternalPage := { max_size_ := t.internal_max_size_, array_ := [] }
        let root_page_new := root_page_new.InsertFirstOf leaf_page_left_id
        let root_page_new := (root_page_new.Insert key leaf_page_right_id).1
        let t := t.setPage root_page_new_id (BPlusTreePage.internal root_page_new)
        Guarded.ran ((SetRootPageId t root_page_new_id ctx).map Prod.fst)
    else if ¬ parentHeld t leaf_page_left_id ctx then Guarded.released
    else
      match GetParentPageId leaf_page_left_id ctx, ctx.popWrite with
      | some parent_page_id, some (parent_page_guard, ctx) =>
        match t.internalAt parent_page_guard with
        | none => Guarded.ran none
        | some parent_page =>
          if parent_page.GetSize < parent_page.GetMaxSize then
            Guarded.ran (some (t.setPage parent_page_guard
              (BPlusTreePage.internal (parent_page.Insert key leaf_page_right_id).1)))
          else
            let index := parent_page.Lookup key
            let (parent_page_new_id, t) := t.NewPage
            let parent_page_new : InternalPage :=
              { max_size_ := t.internal_max_size_, array_ := [] }
            let (parent_page, parent_page_new) := parent_page.MoveHalfTo parent_page_new
            let (parent_page, parent_page_new) :=
              if index > parent_page.GetMaxSize / 2 then
                (parent_page, (parent_page_new.Insert key leaf_page_right_id).1)
              else ((parent_page.Insert key leaf_page_right_id).1, parent_page_new)
            match parent_page_new.KeyAt 1, parent_page_new.ValueAt 1 with
            | some mid_key, some mid_page_id =>
              let parent_page_new := parent_page_new.EraseAt 1
              let parent_page_new := parent_page_new.EraseAt 0
              let parent_page_new := parent_page_new.InsertFirstOf mid_page_id
              let t := t.setPage parent_page_guard (BPlusTreePage.internal parent_page)
              let t := t.setPage parent_page_new_id (BPlusTreePage.internal parent_page_new)
              InsertInParentChecked fuel t parent_page_id mid_key parent_page_new_id ctx
            | _, _ => Guarded.ran none
      | _, _ => Guarded.released

/-- The part of `Insert` after the descent with the guards looked at: `released` when the
guard of the leaf page is taken off an empty `write_set_`, and `InsertInParentChecked` for
`InsertInParent`; everything else as in `InsertIntoLeaf`. -/
def InsertIntoLeafChecked (t : BPlusTree) (key : Int) (value : Int) (ctx : Context)
    (leaf_page_id : Int) : Guarded (BPlusTree × Bool) :=
  match ctx.popWrite with
  | none => Guarded.released
  | some (leaf_page_guard, ctx) =>
    match t.leafAt leaf_page_guard with
    | none => Guarded.ran none
    | some leaf_page =>
      let index := leaf_page.Lookup key
      if index > 0 ∧ index < leaf_page.GetSize ∧ comparator (leaf_page.rawKey index) key = 0 then
        Guarded.ran (some (t, false))
      else if leaf_page.GetSize + 1 < leaf_page.GetMaxSize then
        Guarded.ran (some
          (t.setPage leaf_page_guard (BPlusTreePage.leaf (leaf_page.Insert key value).1), true))
      else
        let (leaf_page_id_new, t) := t.NewPage
        let leaf_page_new : LeafPage :=
          { max_size_ := t.leaf_max_size_, next_page_id_ := leaf_page.GetNextPageId,
            array_ := [] }
        match leaf_page.MoveHalfTo leaf_page_new with
        | none => Guarded.ran none
        | some (leaf_page, leaf_page_new) =>
          let leaf_page := leaf_page.SetNextPageId leaf_page_id_new
          let (leaf_page, leaf_page_new) :=
            if index ≤ (leaf_page.GetMaxSize - 1) / 2 then
              ((leaf_page.Insert key value).1, leaf_page_new)
            else (leaf_page, (leaf_page_new.Insert key value).1)
          match leaf_page_new.KeyAt 0 with
          | none => Guarded.ran none
          | some mid_key =>
            let t := t.setPage leaf_page_guard (BPlusTreePage.leaf leaf_page)
            let t := t.setPage leaf_page_id_new (BPlusTreePage.leaf leaf_page_new)
            (InsertInParentChecked (ctx.write_set_.length + 1) t leaf_page_id mid_key
              leaf_page_id_new ctx).map fun t => (t, true)

/-- The descent `InsertGetKeyAt` with the guards looked at: `released` when the root page id
of an empty tree is set without the header guard; everything else as in `InsertGetKeyAt`. -/
def InsertGetKeyAtChecked (fuel : Nat) (t : BPlusTree) (key : Int) (ctx : Context) :
    Guarded (BPlusTree × Context × Int) :=
  let ctx := { ctx with header_page_ := true }
  let root_page_id := t.root_page_id_
  if root_page_id = INVALID_PAGE_ID then
    if ¬ ctx.header_page_ then Guarded.released
    else
      let (root_page_id, t) := t.NewPage
      let p_leaf_page : LeafPage :=
        { max_size_ := t.leaf_max_size_, next_page_id_ := INVALID_PAGE_ID, array_ := [] }
      let t := t.setPage root_page_id (BPlusTreePage.leaf p_leaf_page)
      match SetRootPageId t root_page_id ctx with
      | none => Guarded.ran none
      | some (t, ctx) =>
        Guarded.ran (some
          (t, { ctx with write_set_ := root_page_id :: ctx.write_set_,
                         access_set_ := ctx.access_set_ ++ [root_page_id],
                         root_page_id_ := root_page_id }, root_page_id))
  else
    let ctx := { ctx with root_page_id_ := root_page_id }
    match t.pages root_page_id with
    | none => Guarded.ran none
    | some _ =>
      match InsertGetKeyAtLoop t key fuel root_page_id
          { ctx with access_set_ := ctx.access_set_ ++ [root_page_id],
                     write_set_ := root_page_id :: ctx.write_set_ } with
      | none => Guarded.ran none
      | some (ctx, leaf_page_id) => Guarded.ran (some (t, ctx, leaf_page_id))

/-- The function `Insert` with the guards looked at. -/
def InsertChecked (fuel : Nat) (t : BPlusTree) (key : Int) (value : Int) :
    Guarded (BPlusTree × Bool) :=
  match InsertGetKeyAtChecked fuel t key Context.new with
  | Guarded.released => Guarded.released
  | Guarded.ran none => Guarded.ran none
  | Guarded.ran (some (t, ctx, leaf_page_id)) =>
    InsertIntoLeafChecked t key value ctx leaf_page_id

/-- The function `RemoveEntry` with the guards looked at: `released` when the guard of the
page is taken off an empty `write_set_`, when the root page id is to be changed without the
header guard, and when a page that is not the root and fell below its minimal size turns to
its parent and its sibling while `parentHeld` fails; everything else as in
`RemoveEntryAux`. -/
def RemoveEntryChecked : Nat → BPlusTree → Int → Int → Context → Guarded BPlusTree
  | 0, _, _, _, _ => Guarded.ran none
  | fuel + 1, t, basic_page_id, key, ctx =>
    match ctx.popWrite with
    | none => Guarded.released
    | some (basic_page_guard, ctx) =>
      match t.pages basic_page_guard with
      | none => Guarded.ran none
      | some basic_page0 =>
        let (basic_page, is_success) := removeKeyFromPage basic_page0 key
        let t := t.setPage basic_page_guard basic_page
        if ¬ is_success then Guarded.ran (some t)
        else
          let root_page_id := ctx.root_page_id_
          if basic_page_id = root_page_id ∧ basic_page.GetSize = 0 then
            if ¬ ctx.header_page_ then Guarded.released
            else Guarded.ran ((SetTreeEmpty t ctx).map fun r => r.1.DeletePage root_page_id)
          else if basic_page_id = root_page_id ∧ basic_page.GetSize = 1 ∧ ¬ basic_page.IsLeafPage then
            match basic_page.asInternal.bind fun root_page => root_page.ValueAt 0 with
            | none => Guarded.ran none
            | some child =>
              if ¬ ctx.header_page_ then Guarded.released
              else
                Guarded.ran ((SetRootPageId t child ctx).map fun r => r.1.DeletePage root_page_id)
          else if basic_page.GetSize ≥ basic_page.GetMinSize then Guarded.ran (some t)
          else if basic_page_id ≠ root_page_id ∧ basic_page.GetSize < basic_page.GetMinSize then
            if ¬ parentHeld t basic_page_id ctx then Guarded.released
            else
            match GetParentPageId basic_page_id ctx with
            | none => Guarded.released
            | some parent_page_id =>
              if parent_page_id = INVALID_PAGE_ID then Guarded.released
              else
                match ctx.popWrite with
                | none => Guarded.released
                | some (parent_page_guard, ctx) =>
                  match t.internalAt parent_page_guard with
                  | none => Guarded.ran none
                  | some parent_page =>
                    match GetSiblingPageId parent_page key with
                    | none => Guarded.ran none
                    | some (sibling_id, mid_key) =>
                      match t.pages sibling_id, siblingOnRight parent_page key with
                      | some sibling_page, some on_right =>
                        if sibling_page.GetSize - 1 < sibling_page.GetMinSize then
                          let (basic_page, basic_page_guard, basic_page_id, sibling_page,
                               sibling_page_guard) :=
                            if on_right then
                              (sibling_page, sibling_id, sibling_id, basic_page, basic_page_guard)
                            else (basic_page, basic_page_guard, basic_page_id, sibling_page, sibling_id)
                          match mergeInto basic_page sibling_page mid_key with
                          | none => Guarded.ran none
                          | some (basic_page, sibling_page) =>
                            let t := t.setPage sibling_page_guard sibling_page
                            let t := t.setPage basic_page_guard basic_page
                            let ctx := { ctx with write_set_ := parent_page_guard :: ctx.write_set_ }
                            (RemoveEntryChecked fuel t parent_page_id mid_key ctx).map fun t =>
                              t.DeletePage basic_page_id
                        else
                          match (if on_right then borrowFromRight basic_page sibling_page parent_page mid_key
                                 else borrowFromLeft basic_page sibling_page parent_page mid_key) with
                          | none => Guarded.ran none
                          | some (basic_page, sibling_page, parent_page) =>
                            let t := t.setPage parent_page_guard (BPlusTreePage.internal parent_page)
                            let t := t.setPage sibling_id sibling_page
                            Guarded.ran (some (t.setPage basic_page_guard basic_page))
                      | _, _ => Guarded.ran none
          else Guarded.ran (some t)

/-- The function `Remove` with the guards looked at. -/
def RemoveChecked (fuel : Nat) (t : BPlusTree) (key : Int) : Guarded BPlusTree :=
  match DeleteGetKeyAt fuel t key Context.new with
  | none => Guarded.ran none
  | some (ctx, leaf_page_id) =>
    if ctx.root_page_id_ = INVALID_PAGE_ID then Guarded.ran (some t)
    else RemoveEntryChecked (ctx.write_set_.length + 1) t leaf_page_id key ctx

/-- The pages below `page_id` form a tree of height `h`: the page ids were handed out by the
buffer pool (they are from 0 up to `next`, that one excluded), the pages `h` levels below
`page_id` are leaf pages and all pages above them internal pages, and no page lies below
itself (`above` lists the pages on the path from the root to the parent of `page_id`).
Nothing is asked of the keys and of the sizes. -/
def shape (pages : Int → Option BPlusTreePage) (next : Int) : Nat → Int → List Int → Bool
  | 0, page_id, above =>
    decide (0 ≤ page_id ∧ page_id < next ∧ page_id ∉ above) &&
      match pages page_id with
      | some (BPlusTreePage.leaf _) => true
      | _ => false
  | h + 1, page_id, above =>
    decide (0 ≤ page_id ∧ page_id < next ∧ page_id ∉ above) &&
      match pages page_id with
      | some (BPlusTreePage.internal p) =>
        p.array_.all fun e => shape pages next h e.2 (page_id :: above)
      | _ => false

/-- The tree is empty, or its pages form a tree of height `h` below the root page (see
`shape`). -/
def Shaped (t : BPlusTree) (h : Nat) : Prop :=
  t.root_page_id_ = INVALID_PAGE_ID ∨
    shape t.pages t.next_page_id_ h t.root_page_id_ [] = true

/-- The tree after the calls `Insert(k, v)` for the pairs of a list on the empty tree with
the given max sizes; the empty tree when a call does not return. -/
def treeAfter (leaf_max_size internal_max_size : Int) (pairs : List (Int × Int)) : BPlusTree :=
  (insertAll (pairs.length + 1) (empty leaf_max_size internal_max_size) pairs).getD
    (empty leaf_max_size internal_max_size)

/-- The guards that `Insert` needs above the page `left` when the page is split, for the
stack `write_set_` of the guards above it (last guard first): the header guard for the root
page; for another page its parent at the back of the stack, where the parent is the page
`GetParentPageId` finds, an internal page with `left` among its children, allocated before
the call (its id is below `bound`) and not once more in the stack; and when the parent is
full, so that it is split in turn, the same for the parent. -/
def InsertChain (pages : Int → Option BPlusTreePage) (root : Int) (header : Bool)
    (access : List Int) (bound : Int) : Int → List Int → Prop
  | left, [] => left = root ∧ header = true
  | left, g :: rest =>
    (left = root ∧ header = true) ∨
    (left ≠ root ∧ left ∉ g :: rest ∧ g < bound ∧
      GetParentPageIdFrom left access INVALID_PAGE_ID = some g ∧
      ∃ p, pages g = some (BPlusTreePage.internal p) ∧ left ∈ p.array_.map Prod.snd ∧
        (¬ (p.GetSize < p.GetMaxSize) →
          InsertChain pages root header access bound g rest))

/-- The guards that `Remove` needs above the page `basic` when `RemoveEntry` is called for
it, for the stack `write_set_` of the guards above it (last guard first): the header guard
when the page is the root; for another page that falls below its minimal size with one entry
less, its parent at the back of the stack, where the parent is the page `GetParentPageId`
finds, an internal page with `basic` among its children, none of which is in the stack, and
the same for the parent. -/
def RemoveChain (pages : Int → Option BPlusTreePage) (root : Int) (header : Bool)
    (access : List Int) : Int → List Int → Prop
  | basic, [] =>
    (basic = root → header = true) ∧
    (basic ≠ root → ∀ pg, pages basic = some pg → ¬ (pg.GetSize - 1 < pg.GetMinSize))
  | basic, g :: rest =>
    (basic = root → header = true) ∧
    (basic ≠ root → ∀ pg, pages basic = some pg → pg.GetSize - 1 < pg.GetMinSize →
      g ≠ INVALID_PAGE_ID ∧ GetParentPageIdFrom basic access INVALID_PAGE_ID = some g ∧
      ∃ p, pages g = some (BPlusTreePage.internal p) ∧ basic ∈ p.array_.map Prod.snd ∧
        (∀ c ∈ p.array_.map Prod.snd, c ∉ g :: rest) ∧
        RemoveChain pages root header access g rest)

end BPlusTree

end bustub

/-! # Properties of the B+tree -/

namespace bustub

namespace BPlusTree

/-- C1 (the code at the failing input): with leaf max_size 4, `Insert(5, 1)` into the empty
tree returns true; the key 5 is then stored at index 0 of the root leaf, and `Insert(5, 2)`
returns true again and leaves two entries with key 5 in that leaf. -/
theorem C1_duplicate_at_index_zero_inserted :
    ((Insert 1 (empty 4 4) 5 1).bind fun r =>
      (Insert 1 r.1 5 2).map fun r' =>
        (r.2, (r.1.leafAt 1).map fun p => p.array_, r'.2,
          (r'.1.leafAt 1).map fun p => p.array_)) =
    some (true, some [(5, 1)], true, some [(5, 2), (5, 1)]) := by
  rfl

/-- C4 (the code at the failing input): after `Insert(5, 1)` and `Insert(5, 2)` on the empty
tree (leaf max_size 4) the iteration from `Begin()` to the terminal iterator visits the key 5
twice. -/
theorem C4_iteration_visits_key_twice :
    ((Insert 1 (empty 4 4) 5 1).bind fun r =>
      (Insert 1 r.1 5 2).bind fun r' =>
        (Begin 1 r'.1).bind fun it => traverse r'.1 3 it) =
    some ([5, 5], End) := by
  rfl

/-- C5 (the code at the failing input): with leaf max_size 4, after the inserts 10, 20, 5, 15
the root is the internal page 3 and its first child, the leaf page 1, holds one entry, fewer
than the leaf min_size `⌈(4 − 1)/2⌉ = 2`. -/
theorem C5_leaf_below_min_size_after_split :
    ((insertAll 2 (empty 4 4) [(10, 10), (20, 20), (5, 5), (15, 15)]).map fun t =>
      (t.root_page_id_, (t.internalAt 3).map fun p => p.array_,
        (t.leafAt 1).map fun p => (p.GetSize, p.GetMinSize, p.GetMaxSize))) =
    some (3, some [(0, 1), (10, 2)], some (1, 2, 4)) := by
  rfl

/-- C6 (counterexample): with leaf max_size 4 the inserts 10, 20, 5, 15 do not leave a root
leaf holding 5, 10, 15, 20: the fourth insert finds the leaf with `size + 1 = max_size` and
splits it. -/
theorem C6_fourth_insert_splits_at_max_size_four :
    ¬ ∃ t p, insertAll 2 (empty 4 4) [(10, 10), (20, 20), (5, 5), (15, 15)] = some t ∧
      t.pages t.root_page_id_ = some (BPlusTreePage.leaf p) ∧
      p.array_.map Prod.fst = [5, 10, 15, 20] := by
  have h : ((insertAll 2 (empty 4 4) [(10, 10), (20, 20), (5, 5), (15, 15)]).bind fun t =>
      t.pages t.root_page_id_) =
      some (BPlusTreePage.internal { max_size_ := 4, array_ := [(0, 1), (10, 2)] }) := by
    rfl
  rintro ⟨t, p, ht, hp, _⟩
  rw [ht] at h
  change t.pages t.root_page_id_ = _ at h
  rw [hp] at h
  cases h

/-- C6 (amended): with leaf max_size 5 the inserts 10, 20, 5, 15 leave the single root leaf
`[5, 10, 15, 20]`, and the insert of 25 splits it into the leaves `[5, 10]` and `[15, 20, 25]`
(linked in this order) under a new internal root whose only separator key is 15. -/
theorem C6_split_scenario_at_max_size_five :
    ((insertAll 2 (empty 5 4) [(10, 10), (20, 20), (5, 5), (15, 15)]).map fun t =>
      (t.root_page_id_, (t.leafAt 1).map fun p => (p.array_.map Prod.fst, p.next_page_id_))) =
      some (1, some ([5, 10, 15, 20], INVALID_PAGE_ID)) ∧
    ((insertAll 2 (empty 5 4) [(10, 10), (20, 20), (5, 5), (15, 15), (25, 25)]).map fun t =>
      (t.root_page_id_, (t.internalAt 3).map fun p => p.array_,
        (t.leafAt 1).map fun p => (p.array_.map Prod.fst, p.next_page_id_),
        (t.leafAt 2).map fun p => (p.array_.map Prod.fst, p.next_page_id_))) =
      some (3, some [(0, 1), (15, 2)], some ([5, 10], 2), some ([15, 20, 25], INVALID_PAGE_ID)) := by
  constructor <;> rfl

theorem comparator_ge (a b : Int) : comparator a b ≥ 0 ↔ b ≤ a := by
  unfold comparator
  split_ifs with h1 h2 <;> simp <;> omega
theorem comparator_eq (a b : Int) : comparator a b = 0 ↔ a = b := by
  unfold comparator
  split_ifs with h1 h2 <;> simp <;> omega
theorem comparator_lt (a b : Int) : comparator a b < 0 ↔ a < b := by
  unfold comparator
  split_ifs with h1 h2 <;> simp <;> omega

/-- The search loop on keys that ascend over `L .. R`: the result is the first index in
`l .. r + 1` whose key is `≥ key`. -/
theorem lookupLoop_spec (keyAt : Int → Int) (key : Int) (L R : Int)
    (hmono : ∀ i j, L ≤ i → i ≤ j → j ≤ R → keyAt i ≤ keyAt j) :
    ∀ (fuel : Nat) (l r : Int), L ≤ l → r ≤ R → l ≤ r + 1 → r + 1 - l ≤ fuel →
      (∀ i, L ≤ i → i < l → keyAt i < key) →
      (∀ i, r < i → i ≤ R → key ≤ keyAt i) →
      l ≤ lookupLoop keyAt key fuel l r (r + 1) ∧
      lookupLoop keyAt key fuel l r (r + 1) ≤ r + 1 ∧
      (∀ i, L ≤ i → i < lookupLoop keyAt key fuel l r (r + 1) → keyAt i < key) ∧
      (∀ i, lookupLoop keyAt key fuel l r (r + 1) ≤ i → i ≤ R → key ≤ keyAt i) := by
  intro fuel
  induction fuel with
  | zero =>
    intro l r hl hr hlr hf hlo hhi
    have : l = r + 1 := by omega
    simp only [lookupLoop]
    subst this
    exact ⟨le_refl _, le_refl _, hlo, fun i hi hR => hhi i (by omega) hR⟩
  | succ n ih =>
    intro l r hl hr hlr hf hlo hhi
    unfold lookupLoop
    by_cases hle : l ≤ r
    · simp only [hle, if_true]
      have hmid1 : l ≤ (l + r) / 2 := by omega
      have hmid2 : (l + r) / 2 ≤ r := by omega
      by_cases hc : comparator (keyAt ((l + r) / 2)) key ≥ 0
      · simp only [hc, if_true]
        have hk : key ≤ keyAt ((l + r) / 2) := (comparator_ge _ _).mp hc
        have hf1 : (l + r) / 2 - 1 + 1 - l ≤ (n : Int) := by push_cast at hf; omega
        have := ih l ((l + r) / 2 - 1) hl (by omega) (by omega) hf1 hlo
          (by
            intro i hi hR
            by_cases hir : r < i
            · exact hhi i hir hR
            · exact le_trans hk (hmono _ _ (by omega) (by omega) (by omega)))
        simp only [sub_add_cancel] at this
        exact ⟨this.1, by omega, this.2.2.1, this.2.2.2⟩
      · simp only [hc, if_false]
        have hk : keyAt ((l + r) / 2) < key := by
          by_contra hcon
          exact hc ((comparator_ge _ _).mpr (by omega))
        have hf1 : r + 1 - ((l + r) / 2 + 1) ≤ (n : Int) := by push_cast at hf; omega
        have := ih ((l + r) / 2 + 1) r (by omega) hr (by omega) hf1
          (by
            intro i hi hlt
            exact lt_of_le_of_lt (hmono _ _ hi (by omega) (by omega)) hk)
          hhi
        exact ⟨by omega, this.2.1, this.2.2.1, this.2.2.2⟩
    · simp only [hle, if_false]
      have : l = r + 1 := by omega
      subst this
      exact ⟨le_refl _, le_refl _, hlo, fun i hi hR => hhi i (by omega) hR⟩

theorem lowerBound_le (keys : List Int) (key : Int) : lowerBound keys key ≤ keys.length := by
  induction keys with
  | nil => simp [lowerBound]
  | cons x xs ih =>
    unfold lowerBound
    split
    · simp; exact ih
    · simp

theorem lowerBound_unique (keys : List Int) (key : Int) :
    ∀ n : Nat, n ≤ keys.length →
      (∀ i : Nat, i < n → keys.getD i 0 < key) →
      (∀ i : Nat, n ≤ i → i < keys.length → key ≤ keys.getD i 0) →
      lowerBound keys key = n := by
  induction keys with
  | nil => intro n hn _ _; simp at hn; simp [lowerBound, hn]
  | cons x xs ih =>
    intro n hn hlt hge
    unfold lowerBound
    cases n with
    | zero =>
      have := hge 0 (le_refl _) (by simp)
      simp at this
      simp; omega
    | succ m =>
      have h0 := hlt 0 (by omega)
      simp at h0
      simp only [h0, if_true]
      congr 1
      apply ih m (by simpa using hn)
      · intro i hi
        have := hlt (i + 1) (by omega)
        simpa using this
      · intro i hi hil
        have := hge (i + 1) (by omega) (by simpa using hil)
        simpa using this

theorem lowerBound_lt (keys : List Int) (key : Int) :
    ∀ i : Nat, i < lowerBound keys key → keys.getD i 0 < key := by
  induction keys with
  | nil => intro i hi; simp [lowerBound] at hi
  | cons x xs ih =>
    intro i hi
    unfold lowerBound at hi
    split at hi
    · cases i with
      | zero => simpa
      | succ j => simpa using ih j (by omega)
    · omega

theorem lowerBound_ge (keys : List Int) (key : Int) (hasc : Ascending keys) :
    ∀ i : Nat, lowerBound keys key ≤ i → i < keys.length → key ≤ keys.getD i 0 := by
  induction keys with
  | nil => intro i _ hi; simp at hi
  | cons x xs ih =>
    intro i hi hil
    unfold Ascending at hasc
    rw [List.pairwise_cons] at hasc
    unfold lowerBound at hi
    split at hi
    · cases i with
      | zero => omega
      | succ j => simpa using ih hasc.2 j (by omega) (by simpa using hil)
    · cases i with
      | zero => simp; omega
      | succ j =>
        have hx : x < xs.getD j 0 := by
          apply hasc.1
          simp at hil
          rw [List.getD_eq_getElem _ _ hil]
          exact List.getElem_mem _
        rw [List.getD_cons_succ]; omega

theorem ascending_getD_le (keys : List Int) (hasc : Ascending keys) :
    ∀ i j : Nat, i ≤ j → j < keys.length → keys.getD i 0 ≤ keys.getD j 0 := by
  intro i j hij hj
  rcases Nat.eq_or_lt_of_le hij with h | h
  · subst h; exact le_refl _
  · have hi : i < keys.length := by omega
    rw [List.getD_eq_getElem _ _ hi, List.getD_eq_getElem _ _ hj]
    exact le_of_lt (List.pairwise_iff_getElem.mp hasc i j hi hj h)

theorem leaf_rawKey (p : LeafPage) (i : Int) :
    p.rawKey i = (p.array_.map Prod.fst).getD i.toNat 0 := by
  unfold LeafPage.rawKey
  simp only [List.getD_eq_getElem?_getD, List.getElem?_map]
  cases p.array_[i.toNat]? <;> rfl

theorem internal_rawKey (p : InternalPage) (i : Int) :
    p.rawKey i = (p.array_.map Prod.fst).getD i.toNat 0 := by
  unfold InternalPage.rawKey
  simp only [List.getD_eq_getElem?_getD, List.getElem?_map]
  cases p.array_[i.toNat]? <;> rfl

/-- On a leaf with ascending keys `Lookup` is the first index whose key is `≥ key`. -/
theorem leaf_Lookup_eq (p : LeafPage) (key : Int)
    (hasc : Ascending (p.array_.map Prod.fst)) :
    p.Lookup key = lowerBound (p.array_.map Prod.fst) key := by
  unfold LeafPage.Lookup LeafPage.GetSize
  have hmono : ∀ i j : Int, 0 ≤ i → i ≤ j → j ≤ (p.array_.length : Int) - 1 →
      p.rawKey i ≤ p.rawKey j := by
    intro i j hi hij hj
    rw [leaf_rawKey, leaf_rawKey]
    apply ascending_getD_le _ hasc
    · omega
    · simp; omega
  have h := lookupLoop_spec p.rawKey key 0 ((p.array_.length : Int) - 1) hmono
    (p.array_.length + 1) 0 ((p.array_.length : Int) - 1) (le_refl _) (le_refl _) (by omega)
    (by push_cast; omega) (by intro i h1 h2; omega) (by intro i h1 h2; omega)
  obtain ⟨h1, h2, h3, h4⟩ := h
  generalize lookupLoop p.rawKey key (p.array_.length + 1) 0 ((p.array_.length : Int) - 1)
    ((p.array_.length : Int) - 1 + 1) = res at *
  have hres : res = (res.toNat : Int) := by omega
  rw [hres]
  congr 1
  symm
  apply lowerBound_unique
  · simp; omega
  · intro i hi
    have := h3 i (by omega) (by omega)
    rw [leaf_rawKey] at this
    simpa using this
  · intro i hi hil
    have := h4 i (by omega) (by simp at hil; omega)
    rw [leaf_rawKey] at this
    simpa using this

/-- On a non-empty internal page whose keys from slot 1 on ascend, `Lookup` is one more than
the first index among them whose key is `≥ key`. -/
theorem internal_Lookup_eq (p : InternalPage) (key : Int) (e : Int × Int)
    (rest : List (Int × Int)) (harr : p.array_ = e :: rest)
    (hasc : Ascending (rest.map Prod.fst)) :
    p.Lookup key = lowerBound (rest.map Prod.fst) key + 1 := by
  unfold InternalPage.Lookup InternalPage.GetSize
  have hlen : p.array_.length = rest.length + 1 := by rw [harr]; simp
  have hraw : ∀ i : Int, 1 ≤ i → p.rawKey i = (rest.map Prod.fst).getD (i - 1).toNat 0 := by
    intro i hi
    rw [internal_rawKey, harr]
    have : i.toNat = (i - 1).toNat + 1 := by omega
    rw [this]
    simp
  have hmono : ∀ i j : Int, 1 ≤ i → i ≤ j → j ≤ (p.array_.length : Int) - 1 →
      p.rawKey i ≤ p.rawKey j := by
    intro i j hi hij hj
    rw [hraw i hi, hraw j (by omega)]
    apply ascending_getD_le _ hasc
    · omega
    · simp; omega
  have h := lookupLoop_spec p.rawKey key 1 ((p.array_.length : Int) - 1) hmono
    (p.array_.length + 1) 1 ((p.array_.length : Int) - 1) (le_refl _) (le_refl _) (by omega)
    (by push_cast; omega) (by intro i h1 h2; omega) (by intro i h1 h2; omega)
  obtain ⟨h1, h2, h3, h4⟩ := h
  generalize lookupLoop p.rawKey key (p.array_.length + 1) 1 ((p.array_.length : Int) - 1)
    ((p.array_.length : Int) - 1 + 1) = res at *
  have hres : res = (((res - 1).toNat + 1 : Nat) : Int) := by omega
  rw [hres]
  congr 2
  symm
  apply lowerBound_unique
  · simp; omega
  · intro i hi
    have := h3 (i + 1) (by omega) (by omega)
    rw [hraw _ (by omega)] at this
    simpa using this
  · intro i hi hil
    have := h4 (i + 1) (by omega) (by simp at hil; omega)
    rw [hraw _ (by omega)] at this
    simpa using this

theorem Children_lo_lt_hi (P : Int → Option Int → Option Int → Set Int → Prop)
    (l : List (Int × Int)) : ∀ (lo hi : Option Int) (S : Set Int),
      Children P lo l hi S → loLtHi lo hi := by
  induction l with
  | nil => intro lo hi S h; simp [Children] at h
  | cons e rest ih =>
    intro lo hi S h
    cases rest with
    | nil => exact h.2
    | cons e' rest' =>
      obtain ⟨S1, S2, _, hlt, hc, _⟩ := h
      have := ih (some e'.1) hi S2 hc
      intro l h1 hl hh
      exact lt_trans (hlt l hl) (this e'.1 h1 rfl hh)

theorem Children_mono (P : Int → Option Int → Option Int → Set Int → Prop)
    (hP : ∀ c lo hi S T, S ⊆ T → P c lo hi S → P c lo hi T)
    (l : List (Int × Int)) : ∀ (lo hi : Option Int) (S T : Set Int), S ⊆ T →
      Children P lo l hi S → Children P lo l hi T := by
  intro lo hi S T hST h
  cases l with
  | nil => simp [Children] at h
  | cons e rest =>
    cases rest with
    | nil => exact ⟨hP _ _ _ _ _ hST h.1, h.2⟩
    | cons e' rest' =>
      obtain ⟨S1, S2, h1, hlt, hc, hd, hs1, hs2⟩ := h
      exact ⟨S1, S2, h1, hlt, hc, hd, hs1.trans hST, hs2.trans hST⟩

theorem Children_imp (P P' : Int → Option Int → Option Int → Set Int → Prop)
    (l : List (Int × Int)) : ∀ (lo hi : Option Int) (S : Set Int),
      (∀ c lo' hi' S0, S0 ⊆ S → RangeIn lo' hi' lo hi → P c lo' hi' S0 → P' c lo' hi' S0) →
      Children P lo l hi S → Children P' lo l hi S := by
  induction l with
  | nil => intro lo hi S _ h; simp [Children] at h
  | cons e rest ih =>
    intro lo hi S himp h
    cases rest with
    | nil => exact ⟨himp _ _ _ _ (le_refl _) (fun k h1 h2 => ⟨h1, h2⟩) h.1, h.2⟩
    | cons e' rest' =>
      obtain ⟨S1, S2, h1, hlt, hc, hd, hs1, hs2⟩ := h
      have hlh := Children_lo_lt_hi P _ _ _ _ hc
      refine ⟨S1, S2, himp _ _ _ _ hs1 ?_ h1, hlt, ih _ _ _ ?_ hc, hd, hs1, hs2⟩
      · intro k hk1 hk2
        refine ⟨hk1, ?_⟩
        intro h hh
        exact lt_trans (hk2 _ rfl) (hlh _ _ rfl hh)
      · intro c lo' hi' S0 hS0 hr hp
        apply himp c lo' hi' S0 (hS0.trans hs2) _ hp
        intro k hk1 hk2
        obtain ⟨h3, h4⟩ := hr k hk1 hk2
        refine ⟨?_, h4⟩
        intro l hl
        exact le_of_lt (lt_of_lt_of_le (hlt l hl) (h3 _ rfl))

theorem Sub_mono (pages : Int → Option BPlusTreePage) (leafMax internalMax : Int)
    (minChildren : Nat) (M : Int → Option Int) (h : Nat) (pid : Int) (lo hi : Option Int)
    (S T : Set Int) (hST : S ⊆ T)
    (hs : Sub pages leafMax internalMax minChildren M h pid lo hi S) :
    Sub pages leafMax internalMax minChildren M h pid lo hi T := by
  cases h with
  | zero =>
    obtain ⟨p, hp, hok, hmem⟩ := hs
    exact ⟨p, hp, hok, hST hmem⟩
  | succ n =>
    obtain ⟨p, S', hp, hmax, hsize, hmin, hch, hnot, hmem, hsub⟩ := hs
    exact ⟨p, S', hp, hmax, hsize, hmin, hch, hnot, hST hmem, hsub.trans hST⟩

theorem Sub_mem (pages : Int → Option BPlusTreePage) (leafMax internalMax : Int)
    (minChildren : Nat) (M : Int → Option Int) (h : Nat) (pid : Int) (lo hi : Option Int)
    (S : Set Int) (hs : Sub pages leafMax internalMax minChildren M h pid lo hi S) : pid ∈ S := by
  cases h with
  | zero => obtain ⟨p, _, _, hmem⟩ := hs; exact hmem
  | succ n => obtain ⟨p, S', _, _, _, _, _, _, hmem, _⟩ := hs; exact hmem

/-- A subtree stays one when the pages of `S` and the map on the key range stay the same. -/
theorem Sub_transfer (pages pages' : Int → Option BPlusTreePage) (leafMax internalMax : Int)
    (minChildren : Nat) (M M' : Int → Option Int) (h : Nat) :
    ∀ (pid : Int) (lo hi : Option Int) (S : Set Int),
      (∀ q ∈ S, pages' q = pages q) →
      (∀ k, loLe lo k → ltHi k hi → M' k = M k) →
      Sub pages leafMax internalMax minChildren M h pid lo hi S →
      Sub pages' leafMax internalMax minChildren M' h pid lo hi S := by
  induction h with
  | zero =>
    intro pid lo hi S hpg hM hs
    obtain ⟨p, hp, hok, hmem⟩ := hs
    refine ⟨p, by rw [hpg pid hmem]; exact hp, ?_, hmem⟩
    exact { max := hok.max, size := hok.size, asc := hok.asc, lo_le := hok.lo_le,
            lt_hi := hok.lt_hi, map := fun k h1 h2 => by rw [hM k h1 h2]; exact hok.map k h1 h2 }
  | succ n ih =>
    intro pid lo hi S hpg hM hs
    obtain ⟨p, S', hp, hmax, hsize, hmin, hch, hnot, hmem, hsub⟩ := hs
    refine ⟨p, S', by rw [hpg pid hmem]; exact hp, hmax, hsize, hmin, ?_, hnot, hmem, hsub⟩
    apply Children_imp _ _ _ _ _ _ _ hch
    intro c lo' hi' S0 hS0 hr hc
    apply ih c lo' hi' S0 _ _ hc
    · intro q hq; exact hpg q (hsub (hS0 hq))
    · intro k h1 h2
      exact hM k (hr k h1 h2).1 (hr k h1 h2).2

theorem Children_append (P : Int → Option Int → Option Int → Set Int → Prop)
    (l1 : List (Int × Int)) : ∀ (a e : Int × Int) (l2 : List (Int × Int))
      (lo hi : Option Int) (S : Set Int),
      Children P lo (a :: l1 ++ e :: l2) hi S ↔
        ∃ S1 S2, Children P lo (a :: l1) (some e.1) S1 ∧
          Children P (some e.1) (e :: l2) hi S2 ∧
          (∀ x, x ∈ S1 → x ∉ S2) ∧ S1 ⊆ S ∧ S2 ⊆ S := by
  induction l1 with
  | nil =>
    intro a e l2 lo hi S
    constructor
    · rintro ⟨S1, S2, h1, hlt, hc, hd, hs1, hs2⟩
      exact ⟨S1, S2, ⟨h1, fun l h hl hh => by cases hh; exact hlt l hl⟩, hc, hd, hs1, hs2⟩
    · rintro ⟨S1, S2, ⟨h1, hlt⟩, hc, hd, hs1, hs2⟩
      exact ⟨S1, S2, h1, fun l hl => hlt l _ hl rfl, hc, hd, hs1, hs2⟩
  | cons b l1' ih =>
    intro a e l2 lo hi S
    constructor
    · rintro ⟨Sa, Sr, h1, hlt, hc, hd, hs1, hs2⟩
      obtain ⟨S1', S2, hc1, hc2, hd', hs1', hs2'⟩ := (ih b e l2 (some b.1) hi Sr).mp hc
      refine ⟨Sa ∪ S1', S2, ⟨Sa, S1', h1, hlt, hc1, ?_, Set.subset_union_left,
        Set.subset_union_right⟩, hc2, ?_, ?_, hs2'.trans hs2⟩
      · intro x hx hx'; exact hd x hx (hs1' hx')
      · intro x hx hx2
        rcases hx with hx | hx
        · exact hd x hx (hs2' hx2)
        · exact hd' x hx hx2
      · intro x hx
        rcases hx with hx | hx
        · exact hs1 hx
        · exact hs2 (hs1' hx)
    · rintro ⟨S1, S2, ⟨Sa, Sb, h1, hlt, hc1, hd, hsa, hsb⟩, hc2, hd', hs1, hs2⟩
      have hc := (ih b e l2 (some b.1) hi (Sb ∪ S2)).mpr
        ⟨Sb, S2, hc1, hc2, fun x hx hx2 => hd' x (hsb hx) hx2, Set.subset_union_left,
          Set.subset_union_right⟩
      refine ⟨Sa, Sb ∪ S2, h1, hlt, hc, ?_, hsa.trans hs1, ?_⟩
      · intro x hx hx'
        rcases hx' with hx' | hx'
        · exact hd x hx hx'
        · exact hd' x (hsa hx) hx'
      · intro x hx
        rcases hx with hx | hx
        · exact hs1 (hsb hx)
        · exact hs2 hx

/-- The chain of an internal page around one entry `e`: the part before it, the child of `e`
with its key range, the part behind it, with disjoint page sets. -/
theorem Children_focus (P : Int → Option Int → Option Int → Set Int → Prop)
    (l1 : List (Int × Int)) (e : Int × Int) (l2 : List (Int × Int))
    (lo hi : Option Int) (S : Set Int)
    (h : Children P lo (l1 ++ e :: l2) hi S) :
    ∃ S1 Sc S2, Seg P lo l1 (lowKey l1 e lo) S1 ∧
      P e.2 (lowKey l1 e lo) (headKey l2 hi) Sc ∧
      Seg P (headKey l2 hi) l2 hi S2 ∧
      loLtHi (lowKey l1 e lo) (headKey l2 hi) ∧
      (∀ x, x ∈ S1 → x ∉ Sc) ∧ (∀ x, x ∈ S1 → x ∉ S2) ∧ (∀ x, x ∈ Sc → x ∉ S2) ∧
      S1 ⊆ S ∧ Sc ⊆ S ∧ S2 ⊆ S := by
  cases l1 with
  | nil =>
    cases l2 with
    | nil =>
      obtain ⟨h1, h2⟩ := h
      exact ⟨∅, S, ∅, rfl, h1, rfl, h2, by simp, by simp, by simp, by simp, le_refl _, by simp⟩
    | cons e' l2' =>
      obtain ⟨S1, S2, h1, hlt, hc, hd, hs1, hs2⟩ := h
      exact ⟨∅, S1, S2, rfl, h1, hc, fun l h hl hh => by cases hh; exact hlt l hl,
        by simp, by simp, hd, by simp, hs1, hs2⟩
  | cons a l1' =>
    obtain ⟨S1, S2, hc1, hc2, hd, hs1, hs2⟩ := (Children_append P l1' a e l2 lo hi S).mp h
    cases l2 with
    | nil =>
      obtain ⟨h1, h2⟩ := hc2
      exact ⟨S1, S2, ∅, hc1, h1, rfl, h2, hd, by simp, by simp, hs1, hs2, by simp⟩
    | cons e' l2' =>
      obtain ⟨Sc, Sr, h1, hlt, hc, hd', hsc, hsr⟩ := hc2
      exact ⟨S1, Sc, Sr, hc1, h1, hc, fun l h hl hh => by cases hl; cases hh; exact hlt _ rfl,
        fun x hx hx' => hd x hx (hsc hx'), fun x hx hx' => hd x hx (hsr hx'), hd',
        hs1, hsc.trans hs2, hsr.trans hs2⟩

/-- The converse of `Children_focus`: a chain built from the part before an entry, the child
of the entry and the part behind it. -/
theorem Children_unfocus (P : Int → Option Int → Option Int → Set Int → Prop)
    (hP : ∀ c lo hi S T, S ⊆ T → P c lo hi S → P c lo hi T)
    (l1 : List (Int × Int)) (e : Int × Int) (l2 : List (Int × Int))
    (lo hi : Option Int) (S S1 Sc S2 : Set Int)
    (h1 : Seg P lo l1 (lowKey l1 e lo) S1)
    (hc : P e.2 (lowKey l1 e lo) (headKey l2 hi) Sc)
    (h2 : Seg P (headKey l2 hi) l2 hi S2)
    (hlt : loLtHi (lowKey l1 e lo) (headKey l2 hi))
    (hd1 : ∀ x, x ∈ S1 → x ∉ Sc) (hd2 : ∀ x, x ∈ S1 → x ∉ S2) (hd3 : ∀ x, x ∈ Sc → x ∉ S2)
    (hs1 : S1 ⊆ S) (hsc : Sc ⊆ S) (hs2 : S2 ⊆ S) :
    Children P lo (l1 ++ e :: l2) hi S := by
  cases l1 with
  | nil =>
    cases l2 with
    | nil => exact ⟨hP _ _ _ _ _ hsc hc, hlt⟩
    | cons e' l2' =>
      exact ⟨Sc, S2, hc, fun l hl => hlt l _ hl rfl, h2, hd3, hsc, hs2⟩
  | cons a l1' =>
    apply (Children_append P l1' a e l2 lo hi S).mpr
    cases l2 with
    | nil =>
      exact ⟨S1, Sc, h1, ⟨hc, hlt⟩, hd1, hs1, hsc⟩
    | cons e' l2' =>
      refine ⟨S1, Sc ∪ S2, h1, ⟨Sc, S2, hc, fun l hl => hlt l _ hl rfl, h2, hd3,
        Set.subset_union_left, Set.subset_union_right⟩, ?_, hs1, ?_⟩
      · intro x hx hx'
        rcases hx' with hx' | hx'
        · exact hd1 x hx hx'
        · exact hd2 x hx hx'
      · intro x hx
        rcases hx with hx | hx
        · exact hsc hx
        · exact hs2 hx
theorem Seg_imp (P P' : Int → Option Int → Option Int → Set Int → Prop)
    (l : List (Int × Int)) (lo hi : Option Int) (S : Set Int)
    (himp : ∀ c lo' hi' S0, S0 ⊆ S → RangeIn lo' hi' lo hi → P c lo' hi' S0 → P' c lo' hi' S0)
    (h : Seg P lo l hi S) : Seg P' lo l hi S := by
  cases l with
  | nil => exact h
  | cons e rest => exact Children_imp P P' _ lo hi S himp h

/-- The separator keys of a chain (the keys of all entries but the first) ascend strictly
and lie strictly between the bounds of the chain. -/
theorem Children_keys (P : Int → Option Int → Option Int → Set Int → Prop)
    (l : List (Int × Int)) : ∀ (e : Int × Int) (lo hi : Option Int) (S : Set Int),
      Children P lo (e :: l) hi S →
      Ascending (l.map Prod.fst) ∧ (∀ x ∈ l, loLt lo x.1) ∧ (∀ x ∈ l, ltHi x.1 hi) := by
  induction l with
  | nil => intro e lo hi S _; simp [Ascending]
  | cons e' rest ih =>
    intro e lo hi S h
    obtain ⟨S1, S2, _, hlt, hc, _⟩ := h
    obtain ⟨hasc, hlo, hhi⟩ := ih e' (some e'.1) hi S2 hc
    have hlh := Children_lo_lt_hi P _ _ _ _ hc
    refine ⟨?_, ?_, ?_⟩
    · unfold Ascending
      rw [List.map_cons, List.pairwise_cons]
      refine ⟨?_, hasc⟩
      intro k hk
      rw [List.mem_map] at hk
      obtain ⟨x, hx, rfl⟩ := hk
      exact hlo x hx _ rfl
    · intro x hx l hl
      rcases List.mem_cons.mp hx with h | h
      · subst h; exact hlt l hl
      · exact lt_trans (hlt l hl) (hlo x h _ rfl)
    · intro x hx
      rcases List.mem_cons.mp hx with h | h
      · subst h; intro h hh; exact hlh _ _ rfl hh
      · exact hhi x h

theorem lowerBound_succ (keys : List Int) (key : Int) (hasc : Ascending keys) :
    lowerBound keys (key + 1) =
      if keys.get? (lowerBound keys key) = some key then lowerBound keys key + 1
      else lowerBound keys key := by
  have hle := lowerBound_le keys key
  split
  · rename_i heq
    have hlt : lowerBound keys key < keys.length := by
      by_contra hcon
      rw [List.get?_eq_none.mpr (by omega)] at heq
      cases heq
    have hkey : keys.getD (lowerBound keys key) 0 = key := by
      rw [List.getD_eq_getElem?_getD, ← List.get?_eq_getElem?, heq]; rfl
    apply lowerBound_unique
    · omega
    · intro i hi
      rcases Nat.lt_succ_iff_lt_or_eq.mp hi with h | h
      · have := lowerBound_lt keys key i h; omega
      · subst h; omega
    · intro i hi hil
      have h1 := ascending_getD_le keys hasc (lowerBound keys key + 1) i hi hil
      have h2 : keys.getD (lowerBound keys key) 0 < keys.getD (lowerBound keys key + 1) 0 := by
        rw [List.getD_eq_getElem _ _ hlt, List.getD_eq_getElem _ _ (by omega)]
        exact List.pairwise_iff_getElem.mp hasc _ _ hlt (by omega) (by omega)
      omega
  · rename_i hne
    apply lowerBound_unique
    · exact hle
    · intro i hi
      have := lowerBound_lt keys key i hi; omega
    · intro i hi hil
      have h1 := lowerBound_ge keys key hasc i hi hil
      rcases Nat.eq_or_lt_of_le hi with h | h
      · subst h
        have hne' : keys.getD (lowerBound keys key) 0 ≠ key := by
          intro hcon
          apply hne
          rw [List.get?_eq_getElem?, List.getElem?_eq_getElem hil]
          rw [List.getD_eq_getElem _ _ hil] at hcon
          rw [hcon]
        omega
      · have h2 := lowerBound_ge keys key hasc (lowerBound keys key) (le_refl _) (by omega)
        have h3 : keys.getD (lowerBound keys key) 0 < keys.getD i 0 := by
          rw [List.getD_eq_getElem _ _ (by omega), List.getD_eq_getElem _ _ hil]
          exact List.pairwise_iff_getElem.mp hasc _ _ (by omega) hil h
        omega

/-- The child an internal page with ascending separator keys sends `key` to is the child
of the entry whose index is the number of separator keys `≤ key`. -/
theorem childFor_eq (p : InternalPage) (key : Int) (e : Int × Int) (rest : List (Int × Int))
    (harr : p.array_ = e :: rest) (hasc : Ascending (rest.map Prod.fst)) :
    childFor p key =
      (p.array_.get? (lowerBound (rest.map Prod.fst) (key + 1))).map Prod.snd := by
  unfold childFor
  have hL := internal_Lookup_eq p key e rest harr hasc
  have hle := lowerBound_le (rest.map Prod.fst) key
  simp only [List.length_map] at hle
  rw [lowerBound_succ _ _ hasc]
  simp only [hL, InternalPage.GetSize, InternalPage.GetValue, InternalPage.ValueAt]
  have hraw : p.rawKey ((lowerBound (rest.map Prod.fst) key : Nat) + 1 : Int) =
      (rest.map Prod.fst).getD (lowerBound (rest.map Prod.fst) key) 0 := by
    rw [internal_rawKey, harr]
    have : ((lowerBound (rest.map Prod.fst) key : Nat) + 1 : Int).toNat =
        lowerBound (rest.map Prod.fst) key + 1 := by omega
    rw [this]; simp
  rw [hraw]
  simp only [comparator_eq, harr]
  generalize hn : lowerBound (rest.map Prod.fst) key = n at *
  have h0 : (0 : Int) ≤ (n : Int) + 1 := by omega
  have h0' : (0 : Int) ≤ (n : Int) + 1 - 1 := by omega
  have ht : ((n : Int) + 1).toNat = n + 1 := by omega
  have ht' : ((n : Int) + 1 - 1).toNat = n := by omega
  rw [if_pos h0, if_pos h0', ht, ht']
  by_cases hlt : n < rest.length
  · have hget : (rest.map Prod.fst).get? n = some ((rest.map Prod.fst).getD n 0) := by
      rw [List.getD_eq_getElem _ _ (by simpa using hlt), List.get?_eq_getElem?,
        List.getElem?_eq_getElem (by simpa using hlt)]
    by_cases heq : key = (rest.map Prod.fst).getD n 0
    · have h1 : ((n : Nat) + 1 : Int) ≠ ((e :: rest).length : Int) := by
        simp only [List.length_cons]; push_cast; omega
      have hC : (rest.map Prod.fst).get? n = some key := by rw [hget, ← heq]
      rw [if_pos ⟨h1, heq⟩, if_pos hC]
    · have hC : ¬ (rest.map Prod.fst).get? n = some key := by
        rw [hget]; intro h; exact heq (Option.some.inj h).symm
      rw [if_neg (fun h => heq h.2), if_neg hC]
  · have h1 : ((n : Nat) + 1 : Int) = ((e :: rest).length : Int) := by
      simp only [List.length_cons]; push_cast; omega
    have hC : ¬ (rest.map Prod.fst).get? n = some key := by
      rw [List.get?_eq_none.mpr (by simp only [List.length_map]; omega)]; simp
    rw [if_neg (fun h => h.1 h1), if_neg hC]
/-- The entry of a chain that `childFor` selects for a key of the range of the chain, with
the entries before and behind it; the key lies in the range of the selected child. -/
theorem childFor_focus (P : Int → Option Int → Option Int → Set Int → Prop)
    (p : InternalPage) (key : Int) (lo hi : Option Int) (S : Set Int)
    (hch : Children P lo p.array_ hi S) (hlo : loLe lo key) (hhi : ltHi key hi) :
    ∃ l1 e l2, p.array_ = l1 ++ e :: l2 ∧ childFor p key = some e.2 ∧
      loLe (lowKey l1 e lo) key ∧ ltHi key (headKey l2 hi) ∧
      l1.length = lowerBound (p.array_.tail.map Prod.fst) (key + 1) := by
  cases harr : p.array_ with
  | nil => rw [harr] at hch; simp [Children] at hch
  | cons e0 rest =>
    rw [harr] at hch
    obtain ⟨hasc, hklo, hkhi⟩ := Children_keys P rest e0 lo hi S hch
    have hcf := childFor_eq p key e0 rest harr hasc
    have hle := lowerBound_le (rest.map Prod.fst) (key + 1)
    simp only [List.length_map] at hle
    generalize hj : lowerBound (rest.map Prod.fst) (key + 1) = j at *
    have hjlt : j < (e0 :: rest).length := by simp; omega
    refine ⟨(e0 :: rest).take j, (e0 :: rest)[j], (e0 :: rest).drop (j + 1), ?_, ?_, ?_, ?_, ?_⟩
    · rw [← List.drop_eq_getElem_cons hjlt, List.take_append_drop]
    · rw [hcf, harr, List.get?_eq_getElem?, List.getElem?_eq_getElem hjlt]; rfl
    · cases j with
      | zero => simpa [lowKey] using hlo
      | succ i =>
        simp only [List.take_succ_cons, lowKey, List.getElem_cons_succ]
        intro l hl
        cases hl
        have := lowerBound_lt (rest.map Prod.fst) (key + 1) i (by omega)
        rw [List.getD_eq_getElem _ _ (by simp; omega)] at this
        simp at this
        omega
    · simp only [List.drop_succ_cons]
      by_cases hjr : j < rest.length
      · rw [List.drop_eq_getElem_cons hjr]
        simp only [headKey]
        intro h hh
        cases hh
        have := lowerBound_ge (rest.map Prod.fst) (key + 1) hasc j (by omega) (by simpa using hjr)
        rw [List.getD_eq_getElem _ _ (by simpa using hjr)] at this
        simp at this
        omega
      · rw [List.drop_of_length_le (by omega)]
        simpa [headKey] using hhi
    · simp; omega

theorem leafFind_none (arr : List (Int × Int)) (key : Int) (h : ∀ e ∈ arr, e.1 ≠ key) :
    leafFind arr key = none := by
  induction arr with
  | nil => rfl
  | cons e rest ih =>
    unfold leafFind
    rw [if_neg (h e (List.mem_cons_self _ _))]
    exact ih (fun x hx => h x (List.mem_cons_of_mem _ hx))

/-- On ascending keys `leafFind` is the entry at the first index whose key is `≥ key`, when
that entry has the key. -/
theorem leafFind_eq (arr : List (Int × Int)) (key : Int)
    (hasc : Ascending (arr.map Prod.fst)) :
    leafFind arr key =
      match arr.get? (lowerBound (arr.map Prod.fst) key) with
      | some e => if e.1 = key then some e.2 else none
      | none => none := by
  induction arr with
  | nil => rfl
  | cons e rest ih =>
    unfold Ascending at hasc
    rw [List.map_cons, List.pairwise_cons] at hasc
    simp only [List.map_cons, lowerBound, leafFind]
    by_cases hlt : e.1 < key
    · rw [if_pos hlt, if_neg (by omega)]
      simpa using ih hasc.2
    · rw [if_neg hlt]
      simp only [List.get?_cons_zero]
      by_cases heq : e.1 = key
      · rw [if_pos heq, if_pos heq]
      · rw [if_neg heq, if_neg heq]
        apply leafFind_none
        intro x hx
        have := hasc.1 x.1 (List.mem_map_of_mem _ hx)
        omega

/-- The answer of `GetValue` on a leaf with ascending keys. -/
theorem leaf_get_eq (p : LeafPage) (key : Int) (hasc : Ascending (p.array_.map Prod.fst)) :
    (if p.Lookup key ≥ 0 ∧ p.Lookup key < p.GetSize ∧
        comparator (p.rawKey (p.Lookup key)) key = 0 then
      some (true, [(p.array_.getD (p.Lookup key).toNat (0, 0)).2])
    else some (false, [])) =
    some (match leafFind p.array_ key with
      | some v => (true, [v])
      | none => (false, [])) := by
  rw [leafFind_eq _ _ hasc, leaf_Lookup_eq p key hasc]
  have hle := lowerBound_le (p.array_.map Prod.fst) key
  simp only [List.length_map] at hle
  generalize lowerBound (p.array_.map Prod.fst) key = n at *
  simp only [LeafPage.GetSize, leaf_rawKey, comparator_eq, Int.toNat_ofNat]
  by_cases hlt : n < p.array_.length
  · have hg : p.array_.get? n = some p.array_[n] := by
      rw [List.get?_eq_getElem?, List.getElem?_eq_getElem hlt]
    have hk : (p.array_.map Prod.fst).getD n 0 = p.array_[n].1 := by
      rw [List.getD_eq_getElem _ _ (by simpa using hlt)]; simp
    have hv : p.array_.getD n (0, 0) = p.array_[n] := List.getD_eq_getElem _ _ hlt
    rw [hg, hk, hv]
    by_cases heq : p.array_[n].1 = key
    · rw [if_pos ⟨by omega, by omega, heq⟩]
      simp [heq]
    · rw [if_neg (fun h => heq h.2.2)]
      simp [heq]
  · rw [List.get?_eq_none.mpr (by omega), if_neg (fun h => hlt (by omega))]
/-- The descent of `GetKeyAt` from the root of a subtree ends at a leaf of the subtree that
holds the value of the map for the key. -/
theorem GetKeyAtLoop_spec (t : BPlusTree) (lm im : Int) (mc : Nat) (M : Int → Option Int)
    (key : Int) : ∀ (h : Nat) (pid : Int) (lo hi : Option Int) (S : Set Int) (ctx : Context)
      (rs : List Int) (fuel : Nat),
      Sub t.pages lm im mc M h pid lo hi S → loLe lo key → ltHi key hi → h < fuel →
      ctx.read_set_ = pid :: rs →
      ∃ ctx' leaf p, GetKeyAtLoop t key fuel pid ctx = some (ctx', leaf) ∧
        ctx'.read_set_ = leaf :: rs ∧ t.pages leaf = some (BPlusTreePage.leaf p) ∧
        Ascending (p.array_.map Prod.fst) ∧ leafFind p.array_ key = M key ∧ leaf ∈ S := by
  intro h
  induction h with
  | zero =>
    intro pid lo hi S ctx rs fuel hs hlo hhi hf hrs
    obtain ⟨p, hp, hok, hmem⟩ := hs
    cases fuel with
    | zero => omega
    | succ n =>
      refine ⟨ctx, pid, p, ?_, hrs, hp, hok.asc, hok.map key hlo hhi, hmem⟩
      simp [GetKeyAtLoop, hp]
  | succ n ih =>
    intro pid lo hi S ctx rs fuel hs hlo hhi hf hrs
    obtain ⟨p, S', hp, _, _, _, hch, _, _, hS'⟩ := hs
    obtain ⟨l1, e, l2, harr, hcf, hclo, hchi, _⟩ := childFor_focus _ p key lo hi S' hch hlo hhi
    rw [harr] at hch
    obtain ⟨S1, Sc, S2, _, hsub, _, _, _, _, _, _, hSc, _⟩ := Children_focus _ l1 e l2 lo hi S' hch
    cases fuel with
    | zero => omega
    | succ m =>
      obtain ⟨ctx', leaf, q, hrun, hrs', hq, hasc, hfind, hmem⟩ :=
        ih e.2 _ _ Sc
          { ctx with read_set_ := e.2 :: ctx.read_set_.tail,
                     access_set_ := ctx.access_set_ ++ [e.2] }
          rs m hsub hclo hchi (by omega) (by simp [hrs])
      refine ⟨ctx', leaf, q, ?_, hrs', hq, hasc, hfind, hS' (hSc hmem)⟩
      simp only [GetKeyAtLoop, hp, hcf]
      exact hrun

/-- On a well-formed tree `GetValue` returns the value of the map for the key, when the
fuel exceeds the height. -/
theorem GetValue_spec (t : BPlusTree) (mc h : Nat) (M : Int → Option Int)
    (hwf : WellFormed t mc h M) (key : Int) (fuel : Nat) (hf : h < fuel) :
    GetValue fuel t key = some (answer (M key)) := by
  unfold GetValue GetKeyAt
  rcases hwf.tree with ⟨hroot, hM⟩ | ⟨hroot, hsub⟩
  · simp [hroot, hM key, answer]
  · simp only [hroot, if_false]
    obtain ⟨ctx', leaf, p, hrun, hrs, hp, hasc, hfind, hmem⟩ :=
      GetKeyAtLoop_spec t _ _ mc M key h t.root_page_id_ none none _
        { root_page_id_ := t.root_page_id_, header_page_ := Context.new.header_page_,
          write_set_ := Context.new.write_set_,
          read_set_ := t.root_page_id_ :: t.header_page_id_ :: Context.new.read_set_,
          access_set_ := Context.new.access_set_ ++ [t.root_page_id_] }
        (t.header_page_id_ :: Context.new.read_set_) fuel hsub
        (by intro l hl; cases hl) (by intro l hl; cases hl) hf rfl
    rw [hrun]
    have hleaf : leaf ≠ INVALID_PAGE_ID := by
      intro hcon
      rw [hcon] at hmem
      simp [INVALID_PAGE_ID] at hmem
    simp only [hleaf, if_false, hrs, BPlusTree.leafAt, hp, Option.bind, BPlusTreePage.asLeaf]
    rw [leaf_get_eq p key hasc, hfind]
    rfl
theorem insertAt_eq {α : Type} (x : α) : ∀ (i : Nat) (l : List α),
    insertAt i x l = l.take i ++ x :: l.drop i := by
  intro i
  induction i with
  | zero => intro l; cases l <;> rfl
  | succ n ih =>
    intro l
    cases l with
    | nil => rfl
    | cons y ys => simp [insertAt, ih ys]

theorem leafFind_append (a b : List (Int × Int)) (k : Int) :
    leafFind (a ++ b) k = match leafFind a k with
      | some v => some v
      | none => leafFind b k := by
  induction a with
  | nil => rfl
  | cons e rest ih =>
    simp only [List.cons_append, leafFind]
    split
    · rfl
    · exact ih

theorem leafFind_ne (arr : List (Int × Int)) (k : Int) (h : leafFind arr k = none) :
    ∀ e ∈ arr, e.1 ≠ k := by
  induction arr with
  | nil => intro e he; simp at he
  | cons x rest ih =>
    intro e he
    unfold leafFind at h
    split at h
    · cases h
    · rcases List.mem_cons.mp he with h1 | h1
      · subst h1; assumption
      · exact ih h e h1

theorem lowerBound_take_lt (keys : List Int) (key : Int) :
    ∀ k ∈ keys.take (lowerBound keys key), k < key := by
  induction keys with
  | nil => intro k hk; simp at hk
  | cons x xs ih =>
    intro k hk
    unfold lowerBound at hk
    split at hk
    · simp only [List.take_succ_cons] at hk
      rcases List.mem_cons.mp hk with h | h
      · subst h; assumption
      · exact ih k h
    · simp at hk

theorem lowerBound_drop_ge (keys : List Int) (key : Int) (hasc : Ascending keys) :
    ∀ k ∈ keys.drop (lowerBound keys key), key ≤ k := by
  induction keys with
  | nil => intro k hk; simp at hk
  | cons x xs ih =>
    intro k hk
    unfold Ascending at hasc
    rw [List.pairwise_cons] at hasc
    unfold lowerBound at hk
    split at hk
    · simp only [List.drop_succ_cons] at hk
      exact ih hasc.2 k hk
    · simp only [List.drop_zero] at hk
      rcases List.mem_cons.mp hk with h | h
      · subst h; omega
      · have := hasc.1 k h; omega

/-- Insertion of an absent key of the range into a leaf with room keeps the leaf well formed;
the map gets the new value. -/
theorem LeafOK_insert (lm : Int) (M : Int → Option Int) (p : LeafPage) (lo hi : Option Int)
    (key value : Int) (hok : LeafOK lm M p lo hi) (hlo : loLe lo key) (hhi : ltHi key hi)
    (hM : M key = none) (hroom : (p.array_.length : Int) + 1 < lm) :
    LeafOK lm (setAt M key (some value)) (p.Insert key value).1 lo hi := by
  have hne : ∀ e ∈ p.array_, e.1 ≠ key := by
    apply leafFind_ne
    rw [hok.map key hlo hhi, hM]
  have hsz : p.GetSize ≠ p.GetMaxSize := by
    unfold LeafPage.GetSize LeafPage.GetMaxSize
    rw [hok.max]; omega
  unfold LeafPage.Insert
  rw [if_pos hsz]
  simp only [leaf_Lookup_eq p key hok.asc, Int.toNat_ofNat, insertAt_eq]
  have hlt := lowerBound_take_lt (p.array_.map Prod.fst) key
  have hge := lowerBound_drop_ge (p.array_.map Prod.fst) key hok.asc
  generalize lowerBound (p.array_.map Prod.fst) key = n at *
  rw [← List.map_take] at hlt
  rw [← List.map_drop] at hge
  have hgt : ∀ e ∈ p.array_.drop n, key < e.1 := by
    intro e he
    have h1 := hge e.1 (List.mem_map_of_mem _ he)
    have h2 := hne e (List.mem_of_mem_drop he)
    omega
  have hlt' : ∀ e ∈ p.array_.take n, e.1 < key := fun e he => hlt e.1 (List.mem_map_of_mem _ he)
  refine { max := hok.max, size := ?_, asc := ?_, lo_le := ?_, lt_hi := ?_, map := ?_ }
  · simp only [List.length_append, List.length_cons, List.length_take, List.length_drop]
    push_cast
    omega
  · have hasc := hok.asc
    unfold Ascending at hasc ⊢
    rw [← List.take_append_drop n p.array_, List.map_append, List.pairwise_append] at hasc
    simp only [List.map_append, List.map_cons]
    rw [List.pairwise_append]
    refine ⟨hasc.1, ?_, ?_⟩
    · rw [List.pairwise_cons]
      refine ⟨?_, hasc.2.1⟩
      intro k hk
      rw [List.mem_map] at hk
      obtain ⟨e, he, rfl⟩ := hk
      exact hgt e he
    · intro a ha b hb
      rw [List.mem_map] at ha
      obtain ⟨ea, hea, rfl⟩ := ha
      rcases List.mem_cons.mp hb with hb | hb
      · subst hb; exact hlt' ea hea
      · rw [List.mem_map] at hb
        obtain ⟨eb, heb, rfl⟩ := hb
        have := hlt' ea hea
        have := hgt eb heb
        omega
  · intro e he
    rcases List.mem_append.mp he with h | h
    · exact hok.lo_le e (List.mem_of_mem_take h)
    · rcases List.mem_cons.mp h with h | h
      · subst h; exact hlo
      · exact hok.lo_le e (List.mem_of_mem_drop h)
  · intro e he
    rcases List.mem_append.mp he with h | h
    · exact hok.lt_hi e (List.mem_of_mem_take h)
    · rcases List.mem_cons.mp h with h | h
      · subst h; exact hhi
      · exact hok.lt_hi e (List.mem_of_mem_drop h)
  · intro k hk1 hk2
    have hmap := hok.map k hk1 hk2
    rw [← List.take_append_drop n p.array_, leafFind_append] at hmap
    rw [leafFind_append]
    unfold setAt
    by_cases hk : k = key
    · subst hk
      rw [leafFind_none _ _ (fun e he => by have := hlt' e he; omega)]
      simp [leafFind]
    · rw [if_neg hk, ← hmap]
      cases leafFind (p.array_.take n) k with
      | some v => rfl
      | none => simp [leafFind, Ne.symm hk]
theorem storeSlots_nil_zero {α : Type} (xs : List α) (d : α) :
    storeSlots [] 0 xs (0 + xs.length) d = xs := by
  unfold storeSlots
  apply List.ext_getElem
  · simp
  · intro i h1 h2
    simp only [List.getElem_map, List.getElem_range]
    rw [if_pos ⟨Nat.zero_le _, by omega⟩]
    simp only [Nat.sub_zero]
    exact List.getD_eq_getElem _ _ h2

theorem storeSlots_nil_one {α : Type} (xs : List α) (d : α) :
    storeSlots [] 1 xs (0 + (1 + xs.length)) d = d :: xs := by
  unfold storeSlots
  apply List.ext_getElem
  · simp; omega
  · intro i h1 h2
    simp only [List.getElem_map, List.getElem_range]
    cases i with
    | zero => simp
    | succ j =>
      simp only [List.length_cons] at h2
      rw [if_pos ⟨by omega, by omega⟩]
      simp only [Nat.add_sub_cancel, List.getElem_cons_succ]
      exact List.getD_eq_getElem _ _ (show j < xs.length by omega)

theorem lowerBound_le_iff (keys : List Int) (key : Int) (hasc : Ascending keys) (m : Nat)
    (hm : m < keys.length) : lowerBound keys key ≤ m ↔ key ≤ keys.getD m 0 := by
  constructor
  · intro h; exact lowerBound_ge keys key hasc m h hm
  · intro h
    by_contra hcon
    have := lowerBound_lt keys key m (by omega)
    omega

theorem LeafOK_congr (lm : Int) (M : Int → Option Int) (p q : LeafPage) (lo hi : Option Int)
    (hmax : q.max_size_ = p.max_size_) (harr : q.array_ = p.array_)
    (hok : LeafOK lm M p lo hi) : LeafOK lm M q lo hi := by
  exact { max := by rw [hmax]; exact hok.max, size := by rw [harr]; exact hok.size,
          asc := by rw [harr]; exact hok.asc, lo_le := by rw [harr]; exact hok.lo_le,
          lt_hi := by rw [harr]; exact hok.lt_hi, map := by rw [harr]; exact hok.map }

theorem LeafOK_setAt (lm : Int) (M : Int → Option Int) (p : LeafPage) (lo hi : Option Int)
    (key : Int) (a : Option Int) (hout : ¬ (loLe lo key ∧ ltHi key hi))
    (hok : LeafOK lm M p lo hi) : LeafOK lm (setAt M key a) p lo hi := by
  exact { max := hok.max, size := hok.size, asc := hok.asc, lo_le := hok.lo_le,
          lt_hi := hok.lt_hi,
          map := fun k h1 h2 => by
            unfold setAt
            rw [if_neg (by intro h; subst h; exact hout ⟨h1, h2⟩)]
            exact hok.map k h1 h2 }

/-- The two halves of a well-formed leaf cut at the index `m` are well-formed leaves for the
ranges below and from the key at `m`. -/
theorem LeafOK_split (lm : Int) (M : Int → Option Int) (p : LeafPage) (lo hi : Option Int)
    (hok : LeafOK lm M p lo hi) (m : Nat) (hm1 : 1 ≤ m) (hm2 : m < p.array_.length)
    (l r : LeafPage) (hl : l.max_size_ = lm) (hla : l.array_ = p.array_.take m)
    (hr : r.max_size_ = lm) (hra : r.array_ = p.array_.drop m) :
    LeafOK lm M l lo (some (p.array_[m]).1) ∧ LeafOK lm M r (some (p.array_[m]).1) hi ∧
      loLt lo (p.array_[m]).1 ∧ ltHi (p.array_[m]).1 hi := by
  have hasc := hok.asc
  unfold Ascending at hasc
  rw [List.pairwise_map] at hasc
  have hsplit := List.take_append_drop m p.array_
  have hdrop : p.array_.drop m = p.array_[m] :: p.array_.drop (m + 1) :=
    List.drop_eq_getElem_cons hm2
  have hpw := hasc
  rw [← hsplit, List.pairwise_append, hdrop, List.pairwise_cons] at hpw
  obtain ⟨hpw1, ⟨hpw2, hpw3⟩, hpw4⟩ := hpw
  have hmem : p.array_[m] ∈ p.array_ := List.getElem_mem _
  have hltmid : ∀ e ∈ p.array_.take m, e.1 < (p.array_[m]).1 :=
    fun e he => hpw4 e he _ (List.mem_cons_self _ _)
  have hgemid : ∀ e ∈ p.array_.drop m, (p.array_[m]).1 ≤ e.1 := by
    intro e he
    rw [hdrop] at he
    rcases List.mem_cons.mp he with h | h
    · subst h; exact le_refl _
    · exact le_of_lt (hpw2 e h)
  refine ⟨?_, ?_, ?_, hok.lt_hi _ hmem⟩
  · refine { max := hl, size := ?_, asc := ?_, lo_le := ?_, lt_hi := ?_, map := ?_ }
    · rw [hla, List.length_take]; have := hok.size; omega
    · rw [hla]; unfold Ascending; rw [List.pairwise_map]; exact hpw1
    · intro e he; rw [hla] at he; exact hok.lo_le e (List.mem_of_mem_take he)
    · intro e he h hh; rw [hla] at he; cases hh; exact hltmid e he
    · intro k hk1 hk2
      rw [← hok.map k hk1 (fun h hh => lt_trans (hk2 _ rfl) (hok.lt_hi _ hmem h hh))]
      rw [hla]
      conv_rhs => rw [← hsplit, leafFind_append]
      rw [leafFind_none (p.array_.drop m) k (fun e he => by
        have := hgemid e he; have := hk2 _ rfl; omega)]
      cases leafFind (p.array_.take m) k <;> rfl
  · refine { max := hr, size := ?_, asc := ?_, lo_le := ?_, lt_hi := ?_, map := ?_ }
    · rw [hra, List.length_drop]; have := hok.size; omega
    · rw [hra]; unfold Ascending; rw [List.pairwise_map, hdrop, List.pairwise_cons]
      exact ⟨hpw2, hpw3⟩
    · intro e he l hl; rw [hra] at he; cases hl; exact hgemid e he
    · intro e he; rw [hra] at he; exact hok.lt_hi e (List.mem_of_mem_drop he)
    · intro k hk1 hk2
      have hlok : loLe lo k := by
        intro l hl
        have h1 := hok.lo_le _ hmem l hl
        have h2 := hk1 _ rfl
        omega
      rw [← hok.map k hlok hk2, hra]
      conv_rhs => rw [← hsplit, leafFind_append]
      rw [leafFind_none (p.array_.take m) k (fun e he => by
        have := hltmid e he; have := hk1 _ rfl; omega)]
  · intro l hl
    have h0 : 0 < p.array_.length := by omega
    have hmem0 : p.array_[0] ∈ p.array_.take m := by
      rw [List.mem_take_iff_getElem]
      exact ⟨0, by omega, rfl⟩
    have h1 := hok.lo_le _ (List.mem_of_mem_take hmem0) l hl
    have h2 := hltmid _ hmem0
    omega
theorem Children_head (P : Int → Option Int → Option Int → Set Int → Prop)
    (k k' c : Int) (rest : List (Int × Int)) (lo hi : Option Int) (S : Set Int)
    (h : Children P lo ((k, c) :: rest) hi S) : Children P lo ((k', c) :: rest) hi S := by
  cases rest with
  | nil => exact h
  | cons e' rest' => exact h

theorem Sub_setAt_out (pages : Int → Option BPlusTreePage) (lm im : Int) (mc : Nat)
    (M : Int → Option Int) (h : Nat) (pid : Int) (lo hi : Option Int) (S : Set Int)
    (key : Int) (a : Option Int) (hout : ¬ (loLe lo key ∧ ltHi key hi))
    (hs : Sub pages lm im mc M h pid lo hi S) :
    Sub pages lm im mc (setAt M key a) h pid lo hi S := by
  apply Sub_transfer pages pages lm im mc M _ h pid lo hi S (fun _ _ => rfl) _ hs
  intro k h1 h2
  unfold setAt
  rw [if_neg]
  intro hk
  subst hk
  exact hout ⟨h1, h2⟩

/-- The siblings of the child a key belongs to stay subtrees when pages outside of them change
and the map changes at that key only. -/
theorem Seg_frame (pages pages' : Int → Option BPlusTreePage) (lm im : Int) (mc : Nat)
    (M : Int → Option Int) (h : Nat) (l : List (Int × Int)) (lo hi : Option Int) (S : Set Int)
    (key : Int) (a : Option Int)
    (hpg : ∀ q ∈ S, pages' q = pages q)
    (hout : l ≠ [] → ∀ k, loLe lo k → ltHi k hi → k ≠ key)
    (hseg : Seg (Sub pages lm im mc M h) lo l hi S) :
    Seg (Sub pages' lm im mc (setAt M key a) h) lo l hi S := by
  cases l with
  | nil => exact hseg
  | cons e0 rest =>
    apply Seg_imp _ _ (e0 :: rest) lo hi S _ hseg
    intro c lo' hi' S0 hS0 hr hc
    apply Sub_transfer pages pages' lm im mc M _ h c lo' hi' S0 _ _ hc
    · intro q hq; exact hpg q (hS0 hq)
    · intro k h1 h2
      unfold setAt
      rw [if_neg (hout (by simp) k (hr k h1 h2).1 (hr k h1 h2).2)]

/-- The chain of an internal page around the child a key belongs to: the child is a subtree
with pages in some part `Sc` of `S`, and the chain can be built again after the pages of `Sc`
and pages outside `S` changed, with the child replaced by a new subtree or by two. -/
theorem Children_zoom (pages : Int → Option BPlusTreePage) (lm im : Int) (mc : Nat)
    (M : Int → Option Int) (h : Nat) (l1 : List (Int × Int)) (e : Int × Int)
    (l2 : List (Int × Int)) (lo hi : Option Int) (S : Set Int)
    (hch : Children (Sub pages lm im mc M h) lo (l1 ++ e :: l2) hi S) (key : Int)
    (hlo : loLe (lowKey l1 e lo) key) (hhi : ltHi key (headKey l2 hi)) :
    ∃ Sc, Sc ⊆ S ∧ Sub pages lm im mc M h e.2 (lowKey l1 e lo) (headKey l2 hi) Sc ∧
      (∀ (pages' : Int → Option BPlusTreePage) (a : Option Int) (T Sc' : Set Int),
        (∀ q ∈ S, q ∉ Sc → pages' q = pages q) →
        Sub pages' lm im mc (setAt M key a) h e.2 (lowKey l1 e lo) (headKey l2 hi) Sc' →
        (∀ x ∈ Sc', x ∈ Sc ∨ x ∉ S) → S ⊆ T → Sc' ⊆ T →
        Children (Sub pages' lm im mc (setAt M key a) h) lo (l1 ++ e :: l2) hi T) ∧
      (∀ (pages' : Int → Option BPlusTreePage) (a : Option Int) (T : Set Int)
        (mid new : Int) (Sa Sb : Set Int),
        (∀ q ∈ S, q ∉ Sc → pages' q = pages q) →
        Sub pages' lm im mc (setAt M key a) h e.2 (lowKey l1 e lo) (some mid) Sa →
        Sub pages' lm im mc (setAt M key a) h new (some mid) (headKey l2 hi) Sb →
        loLt (lowKey l1 e lo) mid → ltHi mid (headKey l2 hi) →
        (∀ x ∈ Sa, x ∉ Sb) →
        (∀ x ∈ Sa, x ∈ Sc ∨ x ∉ S) → (∀ x ∈ Sb, x ∈ Sc ∨ x ∉ S) →
        S ⊆ T → Sa ⊆ T → Sb ⊆ T →
        Children (Sub pages' lm im mc (setAt M key a) h) lo (l1 ++ e :: (mid, new) :: l2) hi T) := by
  obtain ⟨S1, Sc, S2, hs1, hsc, hs2, hlt, hd1, hd2, hd3, hS1, hSc, hS2⟩ :=
    Children_focus _ l1 e l2 lo hi S hch
  have hmono : ∀ (pages' : Int → Option BPlusTreePage) (M' : Int → Option Int) c lo hi S T,
      S ⊆ T → Sub pages' lm im mc M' h c lo hi S → Sub pages' lm im mc M' h c lo hi T :=
    fun pages' M' c lo hi S T hST hs => Sub_mono pages' lm im mc M' h c lo hi S T hST hs
  have hleft : l1 ≠ [] → ∀ k, loLe lo k → ltHi k (lowKey l1 e lo) → k ≠ key := by
    intro hne k _ h2 hk
    subst hk
    cases l1 with
    | nil => exact hne rfl
    | cons a l1' =>
      have h3 := h2 e.1 rfl
      have h4 := hlo e.1 rfl
      omega
  have hright : l2 ≠ [] → ∀ k, loLe (headKey l2 hi) k → ltHi k hi → k ≠ key := by
    intro hne k h1 _ hk
    subst hk
    cases l2 with
    | nil => exact hne rfl
    | cons e' l2' =>
      have h3 := h1 e'.1 rfl
      have h4 := hhi e'.1 rfl
      omega
  refine ⟨Sc, hSc, hsc, ?_, ?_⟩
  · intro pages' a T Sc' hpg hnew hfresh hST hScT
    have hs1' := Seg_frame pages pages' lm im mc M h l1 lo _ S1 key a
      (fun q hq => hpg q (hS1 hq) (fun hc => hd1 q hq hc)) hleft hs1
    have hs2' := Seg_frame pages pages' lm im mc M h l2 _ hi S2 key a
      (fun q hq => hpg q (hS2 hq) (fun hc => hd3 q hc hq)) hright hs2
    apply Children_unfocus _ (hmono pages' _) l1 e l2 lo hi T S1 Sc' S2 hs1' hnew hs2' hlt
    · intro x hx hx'
      rcases hfresh x hx' with h | h
      · exact hd1 x hx h
      · exact h (hS1 hx)
    · exact hd2
    · intro x hx hx'
      rcases hfresh x hx with h | h
      · exact hd3 x h hx'
      · exact h (hS2 hx')
    · exact hS1.trans hST
    · exact hScT
    · exact hS2.trans hST
  · intro pages' a T mid new Sa Sb hpg hnewa hnewb hlomid hmidhi hdab hfa hfb hST hSaT hSbT
    have hs1' := Seg_frame pages pages' lm im mc M h l1 lo _ S1 key a
      (fun q hq => hpg q (hS1 hq) (fun hc => hd1 q hq hc)) hleft hs1
    have hs2' := Seg_frame pages pages' lm im mc M h l2 _ hi S2 key a
      (fun q hq => hpg q (hS2 hq) (fun hc => hd3 q hc hq)) hright hs2
    have hright' : Children (Sub pages' lm im mc (setAt M key a) h) (some mid)
        ((mid, new) :: l2) hi (Sb ∪ S2) := by
      apply Children_unfocus _ (hmono pages' _) [] (mid, new) l2 (some mid) hi (Sb ∪ S2) ∅ Sb S2
        rfl hnewb hs2'
      · intro l h hl hh; cases hl; exact hmidhi h hh
      · simp
      · simp
      · intro x hx hx'
        rcases hfb x hx with h | h
        · exact hd3 x h hx'
        · exact h (hS2 hx')
      · simp
      · exact Set.subset_union_left
      · exact Set.subset_union_right
    apply Children_unfocus _ (hmono pages' _) l1 e ((mid, new) :: l2) lo hi T S1 Sa (Sb ∪ S2)
      hs1' hnewa hright'
    · intro l h hl hh; cases hh; exact hlomid l hl
    · intro x hx hx'
      rcases hfa x hx' with h | h
      · exact hd1 x hx h
      · exact h (hS1 hx)
    · intro x hx hx'
      rcases hx' with hx' | hx'
      · rcases hfb x hx' with h | h
        · exact hd1 x hx h
        · exact h (hS1 hx)
      · exact hd2 x hx hx'
    · intro x hx hx'
      rcases hx' with hx' | hx'
      · exact hdab x hx hx'
      · rcases hfa x hx with h | h
        · exact hd3 x h hx'
        · exact h (hS2 hx')
    · exact hS1.trans hST
    · exact hSaT
    · intro x hx
      rcases hx with hx | hx
      · exact hSbT hx
      · exact hST (hS2 hx)
theorem lowerBound_append (ks1 ks2 : List Int) (key : Int) (h1 : ∀ k ∈ ks1, k < key)
    (h2 : ∀ k ∈ ks2.head?, key ≤ k) : lowerBound (ks1 ++ ks2) key = ks1.length := by
  induction ks1 with
  | nil =>
    cases ks2 with
    | nil => rfl
    | cons x xs =>
      have := h2 x (by simp)
      simp only [List.nil_append, lowerBound, List.length_nil]
      rw [if_neg (by omega)]
  | cons x xs ih =>
    have hx := h1 x (List.mem_cons_self _ _)
    have := ih (fun k hk => h1 k (List.mem_cons_of_mem _ hk))
    rw [List.cons_append, show lowerBound (x :: (xs ++ ks2)) key =
      (if x < key then lowerBound (xs ++ ks2) key + 1 else 0) from rfl, if_pos hx, this,
      List.length_cons]

/-- The position of a new separator key `mid` that lies in the range of the child of `e`:
right behind `e`. -/
theorem sep_position (l1 : List (Int × Int)) (e : Int × Int) (l2 : List (Int × Int))
    (mid : Int) (hasc : Ascending ((l1 ++ e :: l2).tail.map Prod.fst))
    (hlo : l1 ≠ [] → e.1 < mid) (hhi : ∀ e' ∈ l2.head?, mid < e'.1) :
    lowerBound ((l1 ++ e :: l2).tail.map Prod.fst) mid = l1.length := by
  cases l1 with
  | nil =>
    simp only [List.nil_append, List.tail_cons, List.length_nil]
    have := lowerBound_append [] (l2.map Prod.fst) mid (by simp) (by
      intro k hk
      cases l2 with
      | nil => simp at hk
      | cons e' l2' =>
        simp at hk
        have := hhi e' (by simp)
        omega)
    simpa using this
  | cons a l1' =>
    simp only [List.cons_append, List.tail_cons, List.length_cons] at hasc ⊢
    have hsplit : (l1' ++ e :: l2).map Prod.fst =
        (l1' ++ [e]).map Prod.fst ++ l2.map Prod.fst := by simp
    rw [hsplit] at hasc ⊢
    unfold Ascending at hasc
    rw [List.pairwise_append] at hasc
    have hemid := hlo (by simp)
    rw [lowerBound_append]
    · simp
    · intro k hk
      simp only [List.map_append, List.map_cons, List.map_nil, List.mem_append,
        List.mem_singleton] at hk
      rcases hk with hk | hk
      · have h1 := hasc.1
        simp only [List.map_append, List.map_cons, List.map_nil] at h1
        rw [List.pairwise_append] at h1
        have := h1.2.2 k hk e.1 (by simp)
        omega
      · omega
    · intro k hk
      cases l2 with
      | nil => simp at hk
      | cons e' l2' =>
        simp at hk
        have := hhi e' (by simp)
        omega

/-- The entries of an internal page after `Insert(mid, new)`, for a separator key in the
range of the child of `e`: the new entry stands right behind `e`. -/
theorem internal_Insert_eq (p : InternalPage) (l1 : List (Int × Int)) (e : Int × Int)
    (l2 : List (Int × Int)) (mid new : Int) (harr : p.array_ = l1 ++ e :: l2)
    (hasc : Ascending ((l1 ++ e :: l2).tail.map Prod.fst))
    (hlo : l1 ≠ [] → e.1 < mid) (hhi : ∀ e' ∈ l2.head?, mid < e'.1) :
    (p.Insert mid new).1.array_ = l1 ++ e :: (mid, new) :: l2 ∧
      (p.Insert mid new).1.max_size_ = p.max_size_ ∧
      p.Lookup mid = (l1.length : Int) + 1 := by
  have hne : ∃ e0 rest, l1 ++ e :: l2 = e0 :: rest := by
    cases l1 with
    | nil => exact ⟨e, l2, rfl⟩
    | cons a l1' => exact ⟨a, l1' ++ e :: l2, rfl⟩
  obtain ⟨e0, rest, hcons⟩ := hne
  have htail : rest = (l1 ++ e :: l2).tail := by rw [hcons]; rfl
  have hL := internal_Lookup_eq p mid e0 rest (by rw [harr, hcons]) (by rw [htail]; exact hasc)
  rw [htail, sep_position l1 e l2 mid hasc hlo hhi] at hL
  refine ⟨?_, rfl, hL⟩
  unfold InternalPage.Insert
  simp only [hL, insertAt_eq, harr]
  have : ((l1.length : Int) + 1).toNat = l1.length + 1 := by omega
  rw [this]
  simp [List.take_append, List.drop_append]
theorem internal_MoveHalfTo_fresh (p : InternalPage) (im : Int) :
    (p.MoveHalfTo { max_size_ := im, array_ := [] }).1.array_ =
        p.array_.take (p.array_.length / 2) ∧
      (p.MoveHalfTo { max_size_ := im, array_ := [] }).1.max_size_ = p.max_size_ ∧
      (p.MoveHalfTo { max_size_ := im, array_ := [] }).2.array_ =
        (0, 0) :: p.array_.drop (p.array_.length / 2) ∧
      (p.MoveHalfTo { max_size_ := im, array_ := [] }).2.max_size_ = im := by
  unfold InternalPage.MoveHalfTo
  refine ⟨?_, rfl, ?_, rfl⟩
  · simp only [List.length_drop]
    congr 1
    omega
  · simp only [List.length_nil]
    exact storeSlots_nil_one _ _

/-- The promotion of the middle entry out of the new page of an internal split: the page that
holds a junk slot and then the entries from `m` on loses the junk slot, and the entry at `m`
gives the promoted key and its child becomes the first child. -/
theorem internal_promote (q : InternalPage) (arr : List (Int × Int)) (m : Nat)
    (hm : m < arr.length) (hq : q.array_ = (0, 0) :: arr.drop m) (c : Int) :
    q.KeyAt 1 = some (arr[m]).1 ∧ q.ValueAt 1 = some (arr[m]).2 ∧
      (((q.EraseAt 1).EraseAt 0).InsertFirstOf c).array_ = (0, c) :: arr.drop (m + 1) ∧
      (((q.EraseAt 1).EraseAt 0).InsertFirstOf c).max_size_ = q.max_size_ := by
  have hd : arr.drop m = arr[m] :: arr.drop (m + 1) := List.drop_eq_getElem_cons hm
  rw [hd] at hq
  have e1a : (q.EraseAt 1).array_ = (0, 0) :: arr.drop (m + 1) := by
    unfold InternalPage.EraseAt
    rw [if_pos ⟨by omega, by
      unfold InternalPage.GetSize; rw [hq]; simp only [List.length_cons]; push_cast; omega⟩]
    simp only [hq]
    rfl
  have e1m : (q.EraseAt 1).max_size_ = q.max_size_ := by
    unfold InternalPage.EraseAt
    split <;> rfl
  generalize q.EraseAt 1 = q' at e1a e1m
  have e0a : (q'.EraseAt 0).array_ = arr.drop (m + 1) := by
    unfold InternalPage.EraseAt
    rw [if_pos ⟨by omega, by
      unfold InternalPage.GetSize; rw [e1a]; simp only [List.length_cons]; push_cast; omega⟩]
    simp only [e1a]
    rfl
  have e0m : (q'.EraseAt 0).max_size_ = q'.max_size_ := by
    unfold InternalPage.EraseAt
    split <;> rfl
  refine ⟨?_, ?_, ?_, ?_⟩
  · unfold InternalPage.KeyAt
    rw [if_pos (by omega), hq]
    rfl
  · unfold InternalPage.ValueAt
    rw [if_pos (by omega), hq]
    rfl
  · unfold InternalPage.InsertFirstOf
    simp only [e0a]
  · unfold InternalPage.InsertFirstOf
    simp only [e0m, e1m]

/-- The split of a full internal page on the insertion of `(mid, new)` behind the entry `e`:
with `arr'` the entries with the new one in place, the old page keeps the first `m'` entries
of `arr'` and the new page holds a junk slot and the entries of `arr'` from `m'` on. -/
theorem internal_split_eq (p : InternalPage) (im : Int) (l1 : List (Int × Int))
    (e : Int × Int) (l2 : List (Int × Int)) (mid new : Int)
    (harr : p.array_ = l1 ++ e :: l2) (hmax : p.max_size_ = im)
    (hfull : (p.array_.length : Int) = im) (hn : 2 ≤ p.array_.length)
    (hasc : Ascending ((l1 ++ e :: l2).tail.map Prod.fst))
    (hlo : l1 ≠ [] → e.1 < mid) (hhi : ∀ e' ∈ l2.head?, mid < e'.1) :
    ∃ m', 1 ≤ m' ∧ m' < (l1 ++ e :: (mid, new) :: l2).length ∧
      m' ≤ p.array_.length / 2 + 1 ∧
      (if p.Lookup mid > (p.MoveHalfTo { max_size_ := im, array_ := [] }).1.GetMaxSize / 2 then
          ((p.MoveHalfTo { max_size_ := im, array_ := [] }).1,
            ((p.MoveHalfTo { max_size_ := im, array_ := [] }).2.Insert mid new).1)
        else (((p.MoveHalfTo { max_size_ := im, array_ := [] }).1.Insert mid new).1,
            (p.MoveHalfTo { max_size_ := im, array_ := [] }).2)).1.array_ =
        (l1 ++ e :: (mid, new) :: l2).take m' ∧
      (if p.Lookup mid > (p.MoveHalfTo { max_size_ := im, array_ := [] }).1.GetMaxSize / 2 then
          ((p.MoveHalfTo { max_size_ := im, array_ := [] }).1,
            ((p.MoveHalfTo { max_size_ := im, array_ := [] }).2.Insert mid new).1)
        else (((p.MoveHalfTo { max_size_ := im, array_ := [] }).1.Insert mid new).1,
            (p.MoveHalfTo { max_size_ := im, array_ := [] }).2)).1.max_size_ = im ∧
      (if p.Lookup mid > (p.MoveHalfTo { max_size_ := im, array_ := [] }).1.GetMaxSize / 2 then
          ((p.MoveHalfTo { max_size_ := im, array_ := [] }).1,
            ((p.MoveHalfTo { max_size_ := im, array_ := [] }).2.Insert mid new).1)
        else (((p.MoveHalfTo { max_size_ := im, array_ := [] }).1.Insert mid new).1,
            (p.MoveHalfTo { max_size_ := im, array_ := [] }).2)).2.array_ =
        (0, 0) :: (l1 ++ e :: (mid, new) :: l2).drop m' ∧
      (if p.Lookup mid > (p.MoveHalfTo { max_size_ := im, array_ := [] }).1.GetMaxSize / 2 then
          ((p.MoveHalfTo { max_size_ := im, array_ := [] }).1,
            ((p.MoveHalfTo { max_size_ := im, array_ := [] }).2.Insert mid new).1)
        else (((p.MoveHalfTo { max_size_ := im, array_ := [] }).1.Insert mid new).1,
            (p.MoveHalfTo { max_size_ := im, array_ := [] }).2)).2.max_size_ = im := by
  obtain ⟨h1a, h1m, h2a, h2m⟩ := internal_MoveHalfTo_fresh p im
  generalize p.MoveHalfTo { max_size_ := im, array_ := [] } = q0 at *
  obtain ⟨q1, q2⟩ := q0
  simp only at h1a h1m h2a h2m
  have hL := (internal_Insert_eq p l1 e l2 mid new harr hasc hlo hhi).2.2
  have hlen : p.array_.length = l1.length + l2.length + 1 := by rw [harr]; simp; omega
  have hasc' : ((l1 ++ e :: l2).tail.map Prod.fst).Pairwise (fun a b => a < b) := hasc
  generalize hm : p.array_.length / 2 = m at *
  have hm1 : 1 ≤ m := by omega
  have hmn : m < p.array_.length := by omega
  have hmax1 : q1.GetMaxSize / 2 = (m : Int) := by
    unfold InternalPage.GetMaxSize
    rw [h1m, hmax, ← hfull, ← hm]
    omega
  rw [hL, hmax1]
  by_cases hA : ((l1.length : Int) + 1 > (m : Int))
  · -- the new entry goes to the new page
    rw [if_pos hA]
    have hml : m ≤ l1.length := by omega
    have hl1ne : l1 ≠ [] := by intro h; rw [h] at hml; simp at hml; omega
    have hq2 : q2.array_ = ((0, 0) :: l1.drop m) ++ e :: l2 := by
      rw [h2a, harr, List.drop_append_of_le_length hml]; rfl
    have hasc2 : Ascending ((((0, 0) :: l1.drop m) ++ e :: l2).tail.map Prod.fst) := by
      simp only [List.cons_append, List.tail_cons]
      have hsub : (l1.drop m ++ e :: l2).Sublist (l1 ++ e :: l2).tail := by
        have h1 : l1.drop m ++ e :: l2 = (l1 ++ e :: l2).drop m := by
          rw [List.drop_append_of_le_length hml]
        rw [h1]
        have h2 : (l1 ++ e :: l2).drop m = ((l1 ++ e :: l2).tail).drop (m - 1) := by
          cases l1 with
          | nil => exact absurd rfl hl1ne
          | cons a l1' =>
            simp only [List.cons_append, List.tail_cons]
            have : m = (m - 1) + 1 := by omega
            rw [this, List.drop_succ_cons]
            simp
        rw [h2]
        exact List.drop_sublist _ _
      exact List.Pairwise.sublist (List.Sublist.map _ hsub) hasc'
    obtain ⟨hins, hinsm, _⟩ := internal_Insert_eq q2 ((0, 0) :: l1.drop m) e l2 mid new hq2 hasc2
      (fun _ => hlo hl1ne) hhi
    refine ⟨m, hm1, by simp only [List.length_append, List.length_cons]; omega,
      by omega, ?_, ?_, ?_, ?_⟩
    · simp only
      rw [h1a, harr, List.take_append_of_le_length hml, List.take_append_of_le_length hml]
    · simp only; rw [h1m, hmax]
    · simp only
      rw [hins, List.drop_append_of_le_length hml]; rfl
    · simp only; rw [hinsm, h2m]
  · -- the new entry goes to the old page
    rw [if_neg hA]
    have hlm : l1.length + 1 ≤ m := by omega
    have htake : (l1 ++ e :: l2).take m = l1 ++ e :: l2.take (m - (l1.length + 1)) := by
      rw [List.take_append_eq_append_take,
        List.take_of_length_le (show l1.length ≤ m by omega)]
      have : m - l1.length = (m - (l1.length + 1)) + 1 := by omega
      rw [this, List.take_succ_cons]
    have hq1 : q1.array_ = l1 ++ e :: l2.take (m - (l1.length + 1)) := by
      rw [h1a, harr, htake]
    have hasc1 : Ascending ((l1 ++ e :: l2.take (m - (l1.length + 1))).tail.map Prod.fst) := by
      have hsub : (l1 ++ e :: l2.take (m - (l1.length + 1))).tail.Sublist
          (l1 ++ e :: l2).tail := by
        apply List.Sublist.tail
        rw [← htake]
        exact List.take_sublist _ _
      exact List.Pairwise.sublist (List.Sublist.map _ hsub) hasc'
    have hhi1 : ∀ e' ∈ (l2.take (m - (l1.length + 1))).head?, mid < e'.1 := by
      intro e' he'
      apply hhi
      cases hk : m - (l1.length + 1) with
      | zero => rw [hk] at he'; simp at he'
      | succ k =>
        rw [hk] at he'
        cases l2 with
        | nil => simp at he'
        | cons x xs => simpa using he'
    obtain ⟨hins, hinsm, _⟩ := internal_Insert_eq q1 l1 e (l2.take (m - (l1.length + 1))) mid new
      hq1 hasc1 hlo hhi1
    refine ⟨m + 1, by omega, by simp only [List.length_append, List.length_cons]; omega,
      by omega, ?_, ?_, ?_, ?_⟩
    · simp only
      rw [hins, List.take_append_eq_append_take,
        List.take_of_length_le (show l1.length ≤ m + 1 by omega)]
      have : m + 1 - l1.length = (m - (l1.length + 1)) + 1 + 1 := by omega
      rw [this, List.take_succ_cons, List.take_succ_cons]
    · simp only; rw [hinsm, h1m, hmax]
    · simp only
      rw [h2a, harr, List.drop_append_eq_append_drop, List.drop_append_eq_append_drop,
        List.drop_of_length_le (show l1.length ≤ m by omega),
        List.drop_of_length_le (show l1.length ≤ m + 1 by omega)]
      have h1 : m - l1.length = (m - (l1.length + 1)) + 1 := by omega
      have h2 : m + 1 - l1.length = (m - (l1.length + 1)) + 1 + 1 := by omega
      rw [h1, h2, List.drop_succ_cons, List.drop_succ_cons, List.drop_succ_cons]
    · simp only; rw [h2m]
theorem LeafOK_first_key (lm : Int) (M : Int → Option Int) (p : LeafPage) (mid : Int)
    (hi : Option Int) (hok : LeafOK lm M p (some mid) hi)
    (hmem : mid ∈ p.array_.map Prod.fst) : p.KeyAt 0 = some mid := by
  unfold LeafPage.KeyAt
  rw [if_pos (le_refl _)]
  cases harr : p.array_ with
  | nil => rw [harr] at hmem; simp at hmem
  | cons e rest =>
    have hasc := hok.asc
    rw [harr] at hasc hmem
    unfold Ascending at hasc
    rw [List.map_cons, List.pairwise_cons] at hasc
    have hge := hok.lo_le e (by rw [harr]; exact List.mem_cons_self _ _) mid rfl
    rw [List.map_cons] at hmem
    rcases List.mem_cons.mp hmem with h | h
    · simp [h]
    · have := hasc.1 mid h
      omega

theorem leaf_Insert_mem (p : LeafPage) (key value : Int) (e : Int × Int) (he : e ∈ p.array_) :
    e ∈ (p.Insert key value).1.array_ := by
  unfold LeafPage.Insert
  split
  · simp only [insertAt_eq, List.mem_append, List.mem_cons]
    rw [← List.take_append_drop (p.Lookup key).toNat p.array_, List.mem_append] at he
    rcases he with h | h
    · exact Or.inl h
    · exact Or.inr (Or.inr h)
  · exact he

/-- The step of `Insert` at the leaf the descent ended at, for an absent key of the range of
the leaf: with room the key is inserted in place; without, the leaf is split around a new
page and `InsertInParent` is called with the first key of the new page. -/
theorem InsertIntoLeaf_spec (t : BPlusTree) (M : Int → Option Int) (pid : Int) (p : LeafPage)
    (lo hi : Option Int) (key value : Int) (ctx : Context) (ws0 : List Int)
    (hlm : 3 ≤ t.leaf_max_size_)
    (hp : t.pages pid = some (BPlusTreePage.leaf p))
    (hok : LeafOK t.leaf_max_size_ M p lo hi) (hlo : loLe lo key) (hhi : ltHi key hi)
    (hM : M key = none) (hws : ctx.write_set_ = pid :: ws0) :
    ((p.array_.length : Int) + 1 < t.leaf_max_size_ ∧
      InsertIntoLeaf t key value ctx pid =
        some (t.setPage pid (BPlusTreePage.leaf (p.Insert key value).1), true) ∧
      LeafOK t.leaf_max_size_ (setAt M key (some value)) (p.Insert key value).1 lo hi) ∨
    (¬ (p.array_.length : Int) + 1 < t.leaf_max_size_ ∧
      ∃ L R mid, InsertIntoLeaf t key value ctx pid =
          (InsertInParentAux (ws0.length + 1)
            ((({ t with next_page_id_ := t.next_page_id_ + 1 } : BPlusTree).setPage pid
              (BPlusTreePage.leaf L)).setPage t.next_page_id_ (BPlusTreePage.leaf R))
            pid mid t.next_page_id_ { ctx with write_set_ := ws0 }).map (fun t' => (t', true)) ∧
        LeafOK t.leaf_max_size_ (setAt M key (some value)) L lo (some mid) ∧
        LeafOK t.leaf_max_size_ (setAt M key (some value)) R (some mid) hi ∧
        loLt lo mid ∧ ltHi mid hi) := by
  have hne : ∀ e ∈ p.array_, e.1 ≠ key := by
    apply leafFind_ne
    rw [hok.map key hlo hhi, hM]
  have hpop : ctx.popWrite = some (pid, { ctx with write_set_ := ws0 }) := by
    unfold Context.popWrite
    rw [hws]
  have hleaf : t.leafAt pid = some p := by
    unfold BPlusTree.leafAt
    rw [hp]; rfl
  have hL := leaf_Lookup_eq p key hok.asc
  have hlb := lowerBound_le (p.array_.map Prod.fst) key
  simp only [List.length_map] at hlb
  have hdup : ¬ (p.Lookup key > 0 ∧ p.Lookup key < p.GetSize ∧
      comparator (p.rawKey (p.Lookup key)) key = 0) := by
    rintro ⟨_, h2, h3⟩
    rw [comparator_eq, leaf_rawKey, hL] at h3
    rw [hL] at h2
    unfold LeafPage.GetSize at h2
    have hlt : lowerBound (p.array_.map Prod.fst) key < p.array_.length := by omega
    simp only [Int.toNat_ofNat] at h3
    rw [List.getD_eq_getElem _ _ (by simpa using hlt)] at h3
    simp only [List.getElem_map] at h3
    exact hne _ (List.getElem_mem _) h3
  unfold InsertIntoLeaf
  simp only [hpop, hleaf, hdup, if_false]
  by_cases hroom : (p.array_.length : Int) + 1 < t.leaf_max_size_
  · left
    refine ⟨hroom, ?_, LeafOK_insert _ M p lo hi key value hok hlo hhi hM hroom⟩
    have : p.GetSize + 1 < p.GetMaxSize := by
      unfold LeafPage.GetSize LeafPage.GetMaxSize; rw [hok.max]; exact hroom
    rw [if_pos this]
  · right
    refine ⟨hroom, ?_⟩
    have hnr : ¬ (p.GetSize + 1 < p.GetMaxSize) := by
      unfold LeafPage.GetSize LeafPage.GetMaxSize; rw [hok.max]; exact hroom
    rw [if_neg hnr]
    have hsize := hok.size
    have hn : (p.array_.length : Int) = t.leaf_max_size_ - 1 := by omega
    have hn2 : 2 ≤ p.array_.length := by omega
    -- the move of the upper half
    have hmove : p.MoveHalfTo
        { max_size_ := t.leaf_max_size_, next_page_id_ := p.GetNextPageId, array_ := [] } =
        some ({ p with array_ := p.array_.take (p.array_.length / 2) },
          { max_size_ := t.leaf_max_size_, next_page_id_ := p.GetNextPageId,
            array_ := p.array_.drop (p.array_.length / 2) }) := by
      unfold LeafPage.MoveHalfTo
      simp only [List.length_nil, LeafPage.GetMaxSize]
      rw [if_pos (by push_cast; omega)]
      rw [storeSlots_nil_zero]
      simp only [List.length_drop]
      have h1 : p.array_.length - (p.array_.length - p.array_.length / 2) =
          p.array_.length / 2 := by omega
      rw [h1]
    simp only [BPlusTree.NewPage, hmove]
    generalize hm : p.array_.length / 2 = m at *
    have hm1 : 1 ≤ m := by omega
    have hm2 : m < p.array_.length := by omega
    obtain ⟨hokL, hokR, hlomid, hmidhi⟩ := LeafOK_split _ M p lo hi hok m hm1 hm2
      (({ p with array_ := p.array_.take m } : LeafPage).SetNextPageId t.next_page_id_)
      { max_size_ := t.leaf_max_size_, next_page_id_ := p.GetNextPageId,
        array_ := p.array_.drop m } hok.max rfl rfl rfl
    have hkeym : key ≠ (p.array_[m]).1 := fun h => hne _ (List.getElem_mem _) h.symm
    have hmd : p.array_[m] ∈ p.array_.drop m := by
      rw [List.drop_eq_getElem_cons hm2]; exact List.mem_cons_self _ _
    have hmidmem : (p.array_[m]).1 ∈ (p.array_.drop m).map Prod.fst :=
      List.mem_map_of_mem Prod.fst hmd
    have hcond : (p.Lookup key ≤
        ((({ p with array_ := p.array_.take m } : LeafPage).SetNextPageId
          t.next_page_id_).GetMaxSize - 1) / 2) ↔ key < (p.array_[m]).1 := by
      have h1 : ((({ p with array_ := p.array_.take m } : LeafPage).SetNextPageId
          t.next_page_id_).GetMaxSize - 1) / 2 = (m : Int) := by
        unfold LeafPage.GetMaxSize LeafPage.SetNextPageId
        simp only [hok.max]
        omega
      rw [h1, hL]
      have h2 := lowerBound_le_iff (p.array_.map Prod.fst) key hok.asc m (by simpa using hm2)
      rw [List.getD_eq_getElem _ _ (by simpa using hm2)] at h2
      simp only [List.getElem_map] at h2
      constructor
      · intro h; have := h2.mp (by omega); omega
      · intro h; have := h2.mpr (by omega); omega
    by_cases hk : key < (p.array_[m]).1
    · rw [if_pos (hcond.mpr hk)]
      have hokL' := LeafOK_insert _ M _ lo (some (p.array_[m]).1) key value hokL hlo
        (fun h hh => by cases hh; exact hk) hM (by
          simp only [LeafPage.SetNextPageId, List.length_take]
          omega)
      have hokR' := LeafOK_setAt _ M _ (some (p.array_[m]).1) hi key (some value)
        (fun h => by have := h.1 _ rfl; omega) hokR
      have hkey0 := LeafOK_first_key _ _ _ _ hi hokR' hmidmem
      simp only [hkey0]
      exact ⟨_, _, _, rfl, hokL', hokR', hlomid, hmidhi⟩
    · rw [if_neg (fun h => hk (hcond.mp h))]
      have hokL' := LeafOK_setAt _ M _ lo (some (p.array_[m]).1) key (some value)
        (fun h => hk (h.2 _ rfl)) hokL
      have hokR' := LeafOK_insert _ M _ (some (p.array_[m]).1) hi key value hokR
        (fun l hl => by cases hl; omega) hhi hM (by
          simp only [List.length_drop]
          omega)
      have hkey0 := LeafOK_first_key _ _ _ _ hi hokR'
        (List.mem_map_of_mem Prod.fst (leaf_Insert_mem _ key value _ hmd))
      simp only [hkey0]
      exact ⟨_, _, _, rfl, hokL', hokR', hlomid, hmidhi⟩
theorem GetParentPageIdFrom_eq (c : Int) (rest : List Int) :
    ∀ (l : List Int) (x : Int), c ∉ l →
      GetParentPageIdFrom c (l ++ c :: rest) x = some (l.getLast?.getD x) := by
  intro l
  induction l with
  | nil =>
    intro x _
    simp [GetParentPageIdFrom]
  | cons a l ih =>
    intro x hc
    have hac : a ≠ c := fun h => hc (by rw [h]; exact List.mem_cons_self _ _)
    have hcl : c ∉ l := fun h => hc (List.mem_cons_of_mem _ h)
    rw [List.cons_append]
    unfold GetParentPageIdFrom
    rw [if_neg hac, ih a hcl]
    cases l with
    | nil => rfl
    | cons b l => simp [List.getLast?_cons_cons, List.getLast?_eq_getLast _ (List.cons_ne_nil b l)]

theorem GetParentPageId_eq (c pid : Int) (acc0 rest : List Int) (ctx : Context)
    (hacc : ctx.access_set_ = acc0 ++ [pid] ++ c :: rest) (hc : c ∉ acc0 ++ [pid]) :
    GetParentPageId c ctx = some pid := by
  unfold GetParentPageId
  rw [hacc, GetParentPageIdFrom_eq c rest _ _ hc]
  simp

/-- `InsertInParent` at a parent page with room: the entry is inserted in place. -/
theorem InsertInParentAux_room (fuel : Nat) (t : BPlusTree) (left key right : Int)
    (ctx : Context) (pid : Int) (ws0 : List Int) (p : InternalPage)
    (hroot : ctx.root_page_id_ ≠ left) (hpar : GetParentPageId left ctx = some pid)
    (hws : ctx.write_set_ = pid :: ws0)
    (hp : t.pages pid = some (BPlusTreePage.internal p))
    (hroom : (p.array_.length : Int) < p.max_size_) :
    InsertInParentAux (fuel + 1) t left key right ctx =
      some (t.setPage pid (BPlusTreePage.internal (p.Insert key right).1)) := by
  have hpop : ctx.popWrite = some (pid, { ctx with write_set_ := ws0 }) := by
    unfold Context.popWrite
    rw [hws]
  have hint : t.internalAt pid = some p := by
    unfold BPlusTree.internalAt
    rw [hp]; rfl
  unfold InsertInParentAux
  simp only [if_neg hroot, hpar, hpop, hint]
  rw [if_pos (by unfold InternalPage.GetSize InternalPage.GetMaxSize; exact hroom)]

/-- `InsertInParent` at a full parent page: the page is split around a new page, the entry
at the split point is promoted, and the call recurs one level up. -/
theorem InsertInParentAux_split (fuel : Nat) (t : BPlusTree) (left key right : Int)
    (ctx : Context) (pid : Int) (ws0 : List Int) (p : InternalPage)
    (l1 : List (Int × Int)) (e : Int × Int) (l2 : List (Int × Int))
    (hroot : ctx.root_page_id_ ≠ left) (hpar : GetParentPageId left ctx = some pid)
    (hws : ctx.write_set_ = pid :: ws0)
    (hp : t.pages pid = some (BPlusTreePage.internal p))
    (harr : p.array_ = l1 ++ e :: l2) (hmax : p.max_size_ = t.internal_max_size_)
    (hfull : (p.array_.length : Int) = t.internal_max_size_) (hn : 2 ≤ p.array_.length)
    (hasc : Ascending ((l1 ++ e :: l2).tail.map Prod.fst))
    (hlo : l1 ≠ [] → e.1 < key) (hhi : ∀ e' ∈ l2.head?, key < e'.1) :
    ∃ (m' : Nat) (L R : InternalPage) (_ : m' < (l1 ++ e :: (key, right) :: l2).length),
      1 ≤ m' ∧ m' ≤ p.array_.length / 2 + 1 ∧
      L.array_ = (l1 ++ e :: (key, right) :: l2).take m' ∧
      L.max_size_ = t.internal_max_size_ ∧
      R.array_ = (0, ((l1 ++ e :: (key, right) :: l2)[m']).2) ::
        (l1 ++ e :: (key, right) :: l2).drop (m' + 1) ∧
      R.max_size_ = t.internal_max_size_ ∧
      InsertInParentAux (fuel + 1) t left key right ctx =
        InsertInParentAux fuel
          ((({ t with next_page_id_ := t.next_page_id_ + 1 } : BPlusTree).setPage pid
            (BPlusTreePage.internal L)).setPage t.next_page_id_ (BPlusTreePage.internal R))
          pid ((l1 ++ e :: (key, right) :: l2)[m']).1 t.next_page_id_
          { ctx with write_set_ := ws0 } := by
  have hpop : ctx.popWrite = some (pid, { ctx with write_set_ := ws0 }) := by
    unfold Context.popWrite
    rw [hws]
  have hint : t.internalAt pid = some p := by
    unfold BPlusTree.internalAt
    rw [hp]; rfl
  obtain ⟨m', hm1, hm2, hm3, hLa, hLm, hRa, hRm⟩ :=
    internal_split_eq p t.internal_max_size_ l1 e l2 key right harr hmax hfull hn hasc hlo hhi
  obtain ⟨hk, hv, hRa', hRm'⟩ := internal_promote _ _ m' hm2 hRa
    ((l1 ++ e :: (key, right) :: l2)[m']).2
  refine ⟨m', _, _, hm2, hm1, hm3, hLa, hLm, hRa', hRm'.trans hRm, ?_⟩
  conv_lhs => unfold InsertInParentAux
  simp only [if_neg hroot, hpar, hpop, hint]
  rw [if_neg (by unfold InternalPage.GetSize InternalPage.GetMaxSize; omega)]
  simp only [BPlusTree.NewPage, hk, hv]
theorem Children_tail_asc (P : Int → Option Int → Option Int → Set Int → Prop)
    (l : List (Int × Int)) (lo hi : Option Int) (S : Set Int) (h : Children P lo l hi S) :
    Ascending (l.tail.map Prod.fst) := by
  cases l with
  | nil => exact List.Pairwise.nil
  | cons a rest => exact (Children_keys P rest a lo hi S h).1

/-- The two halves of a chain of subtrees, stored in two pages, are two subtrees on the two
sides of the key at the split point. -/
theorem Sub_split_pages (pages : Int → Option BPlusTreePage) (lm im : Int)
    (M : Int → Option Int) (h : Nat) (arr : List (Int × Int)) (lo hi : Option Int)
    (T : Set Int) (hch : Children (Sub pages lm im 1 M h) lo arr hi T)
    (m : Nat) (hm1 : 1 ≤ m) (hm2 : m < arr.length) (pid new : Int) (L R : InternalPage)
    (hL : pages pid = some (BPlusTreePage.internal L))
    (hR : pages new = some (BPlusTreePage.internal R))
    (hLa : L.array_ = arr.take m) (hLm : L.max_size_ = im)
    (hRa : R.array_ = (0, (arr[m]).2) :: arr.drop (m + 1)) (hRm : R.max_size_ = im)
    (hmim : (m : Int) ≤ im) (hrim : (arr.length : Int) - m ≤ im)
    (hpT : pid ∉ T) (hnT : new ∉ T) (hpn : pid ≠ new) :
    ∃ S1 S2, Sub pages lm im 1 M (h + 1) pid lo (some (arr[m]).1) S1 ∧
      Sub pages lm im 1 M (h + 1) new (some (arr[m]).1) hi S2 ∧
      (∀ x ∈ S1, x ∉ S2) ∧ S1 ⊆ T ∪ {pid} ∧ S2 ⊆ T ∪ {new} ∧
      loLt lo (arr[m]).1 ∧ ltHi (arr[m]).1 hi := by
  have hdrop : arr.drop m = arr[m] :: arr.drop (m + 1) := List.drop_eq_getElem_cons hm2
  obtain ⟨a, l1, htake⟩ : ∃ a l1, arr.take m = a :: l1 := by
    cases ht : arr.take m with
    | nil =>
      have := congrArg List.length ht
      simp only [List.length_take, List.length_nil] at this
      omega
    | cons a l1 => exact ⟨a, l1, rfl⟩
  generalize hem : arr[m] = em at *
  have hsplit : arr = a :: l1 ++ em :: arr.drop (m + 1) := by
    rw [← htake, ← hdrop, List.take_append_drop]
  have hch2 : Children (Sub pages lm im 1 M h) lo (a :: l1 ++ em :: arr.drop (m + 1)) hi T := by
    rw [← hsplit]; exact hch
  obtain ⟨Sa, Sb, hca, hcb, hd, hSa, hSb⟩ := (Children_append _ l1 a em _ lo hi T).mp hch2
  have hlt1 := Children_lo_lt_hi _ _ _ _ _ hca
  have hlt2 := Children_lo_lt_hi _ _ _ _ _ hcb
  have hcb' : Children (Sub pages lm im 1 M h) (some em.1) ((0, em.2) :: arr.drop (m + 1))
      hi Sb := Children_head _ em.1 0 em.2 _ _ _ _ hcb
  have hlenL : (arr.take m).length = m := by
    rw [List.length_take]; omega
  refine ⟨Sa ∪ {pid}, Sb ∪ {new}, ?_, ?_, ?_, ?_, ?_, fun l hl => hlt1 l _ hl rfl,
    fun x hx => hlt2 _ x rfl hx⟩
  · refine ⟨L, Sa, hL, hLm, ?_, ?_, ?_, fun hx => hpT (hSa hx), Or.inr rfl,
      Set.subset_union_left⟩
    · rw [hLa, hlenL]; exact hmim
    · rw [hLa, hlenL]; exact hm1
    · rw [hLa, htake]; exact hca
  · refine ⟨R, Sb, hR, hRm, ?_, ?_, ?_, fun hx => hnT (hSb hx), Or.inr rfl,
      Set.subset_union_left⟩
    · rw [hRa, List.length_cons, List.length_drop]
      push_cast
      omega
    · rw [hRa, List.length_cons]; omega
    · rw [hRa]; exact hcb'
  · rintro x (hx | hx) (hx' | hx')
    · exact hd x hx hx'
    · have h1 : x = new := hx'
      exact hnT (h1 ▸ hSa hx)
    · have h1 : x = pid := hx
      exact hpT (h1 ▸ hSb hx')
    · have h1 : x = pid := hx
      have h2 : x = new := hx'
      exact hpn (h1.symm.trans h2)
  · rintro x (hx | hx)
    · exact Or.inl (hSa hx)
    · exact Or.inr hx
  · rintro x (hx | hx)
    · exact Or.inl (hSb hx)
    · exact Or.inr hx
theorem fresh_not_lt (t t' : BPlusTree) (q : Int) (hq : q < t.next_page_id_) :
    q ∉ fresh t t' := by
  intro h
  have := h.1
  omega

/-- The subtree of a child took the entry in: so did the subtree of its parent page. -/
theorem Insert_absorb_step (t t' : BPlusTree) (M : Int → Option Int) (key : Int)
    (a : Option Int) (h : Nat) (pid : Int) (p : InternalPage) (S S' Sc : Set Int)
    (l1 : List (Int × Int)) (e : Int × Int) (l2 : List (Int × Int)) (lo hi : Option Int)
    (hp : t.pages pid = some (BPlusTreePage.internal p))
    (hpmax : p.max_size_ = t.internal_max_size_)
    (hplen : (p.array_.length : Int) ≤ t.internal_max_size_) (hpmin : 1 ≤ p.array_.length)
    (harr : p.array_ = l1 ++ e :: l2)
    (hpidS' : pid ∉ S') (hpid : pid ∈ S) (hS'S : S' ⊆ S) (hScS' : Sc ⊆ S')
    (hSlt : ∀ q ∈ S, q < t.next_page_id_)
    (hrep : ∀ (pages' : Int → Option BPlusTreePage) (T Sc' : Set Int),
      (∀ q ∈ S', q ∉ Sc → pages' q = t.pages q) →
      Sub pages' t.leaf_max_size_ t.internal_max_size_ 1 (setAt M key a) h e.2
        (lowKey l1 e lo) (headKey l2 hi) Sc' →
      (∀ x ∈ Sc', x ∈ Sc ∨ x ∉ S') → S' ⊆ T → Sc' ⊆ T →
      Children (Sub pages' t.leaf_max_size_ t.internal_max_size_ 1 (setAt M key a) h) lo
        (l1 ++ e :: l2) hi T)
    (habs : Absorbed t t' (setAt M key a) h e.2 (lowKey l1 e lo) (headKey l2 hi) Sc) :
    Absorbed t t' (setAt M key a) (h + 1) pid lo hi S := by
  obtain ⟨hF, hsub⟩ := habs
  have hpidlt := hSlt pid hpid
  refine ⟨?_, ?_⟩
  · exact { leaf_max := hF.leaf_max, internal_max := hF.internal_max, header := hF.header,
            root := hF.root, next := hF.next,
            pages := fun q hq hlt => hF.pages q (fun hx => hq (hS'S (hScS' hx))) hlt }
  · refine ⟨p, S' ∪ fresh t t', ?_, hpmax, hplen, hpmin, ?_, ?_, Or.inl hpid, ?_⟩
    · rw [hF.pages pid (fun hx => hpidS' (hScS' hx)) hpidlt, hp]
    · rw [harr]
      refine hrep t'.pages _ _ (fun q hq hn => hF.pages q hn (hSlt q (hS'S hq))) hsub ?_
        Set.subset_union_left ?_
      · rintro x (hx | hx)
        · exact Or.inl hx
        · exact Or.inr (fun hxS => fresh_not_lt t t' x (hSlt x (hS'S hxS)) hx)
      · rintro x (hx | hx)
        · exact Or.inl (hScS' hx)
        · exact Or.inr hx
    · rintro (hx | hx)
      · exact hpidS' hx
      · exact fresh_not_lt t t' pid hpidlt hx
    · rintro x (hx | hx)
      · exact Or.inl (hS'S hx)
      · exact Or.inr hx

/-- A child page was split: `InsertInParent` puts the new entry into the parent page `pid`
when this one has room, and splits it and recurs otherwise. -/
theorem Insert_split_step (t t2 : BPlusTree) (M : Int → Option Int) (key : Int)
    (a : Option Int) (h : Nat) (pid : Int) (p : InternalPage) (S S' Sc : Set Int)
    (l1 : List (Int × Int)) (e : Int × Int) (l2 : List (Int × Int)) (lo hi : Option Int)
    (mid new : Int) (ctx : Context) (ws0 : List Int) (fuel : Nat)
    (him : 2 ≤ t.internal_max_size_)
    (hp : t.pages pid = some (BPlusTreePage.internal p))
    (hpmax : p.max_size_ = t.internal_max_size_)
    (hplen : (p.array_.length : Int) ≤ t.internal_max_size_)
    (harr : p.array_ = l1 ++ e :: l2)
    (hasc : Ascending ((l1 ++ e :: l2).tail.map Prod.fst))
    (hpidS' : pid ∉ S') (hpid : pid ∈ S) (hS'S : S' ⊆ S) (hScS' : Sc ⊆ S')
    (hSlt : ∀ q ∈ S, q < t.next_page_id_)
    (hins : ∀ (pages' : Int → Option BPlusTreePage) (T : Set Int) (mid new : Int)
      (Sa Sb : Set Int),
      (∀ q ∈ S', q ∉ Sc → pages' q = t.pages q) →
      Sub pages' t.leaf_max_size_ t.internal_max_size_ 1 (setAt M key a) h e.2
        (lowKey l1 e lo) (some mid) Sa →
      Sub pages' t.leaf_max_size_ t.internal_max_size_ 1 (setAt M key a) h new (some mid)
        (headKey l2 hi) Sb →
      loLt (lowKey l1 e lo) mid → ltHi mid (headKey l2 hi) →
      (∀ x ∈ Sa, x ∉ Sb) →
      (∀ x ∈ Sa, x ∈ Sc ∨ x ∉ S') → (∀ x ∈ Sb, x ∈ Sc ∨ x ∉ S') →
      S' ⊆ T → Sa ⊆ T → Sb ⊆ T →
      Children (Sub pages' t.leaf_max_size_ t.internal_max_size_ 1 (setAt M key a) h) lo
        (l1 ++ e :: (mid, new) :: l2) hi T)
    (hsplit : SplitInTwo t t2 (setAt M key a) h e.2 mid new (lowKey l1 e lo) (headKey l2 hi) Sc)
    (hroot : ctx.root_page_id_ ≠ e.2) (hpar : GetParentPageId e.2 ctx = some pid)
    (hws : ctx.write_set_ = pid :: ws0) :
    (∃ t3, InsertInParentAux (fuel + 1) t2 e.2 mid new ctx = some t3 ∧
        Absorbed t t3 (setAt M key a) (h + 1) pid lo hi S) ∨
      (¬ (p.GetSize + 1 < p.GetMaxSize) ∧ ∃ t3 mid' new',
        InsertInParentAux (fuel + 1) t2 e.2 mid new ctx =
          InsertInParentAux fuel t3 pid mid' new' { ctx with write_set_ := ws0 } ∧
        SplitInTwo t t3 (setAt M key a) (h + 1) pid mid' new' lo hi S) := by
  obtain ⟨hF, S1, S2, hs1, hs2, hd, hS1, hS2, hlomid, hmidhi⟩ := hsplit
  have hpidlt := hSlt pid hpid
  have hpidSc : pid ∉ Sc := fun hx => hpidS' (hScS' hx)
  have hp2 : t2.pages pid = some (BPlusTreePage.internal p) := by
    rw [hF.pages pid hpidSc hpidlt, hp]
  have hlo2 : l1 ≠ [] → e.1 < mid := by
    intro hne
    cases l1 with
    | nil => exact absurd rfl hne
    | cons x xs => exact hlomid _ rfl
  have hhi2 : ∀ e' ∈ l2.head?, mid < e'.1 := by
    intro e' he'
    cases l2 with
    | nil => simp at he'
    | cons y ys =>
      simp only [List.head?_cons, Option.mem_def, Option.some.injEq] at he'
      subst he'
      exact hmidhi _ rfl
  have hfr : ∀ x, x ∈ fresh t t2 → x ∉ S' := fun x hx hxS =>
    fresh_not_lt t t2 x (hSlt x (hS'S hxS)) hx
  have hS1' : ∀ x ∈ S1, x ∈ Sc ∨ x ∉ S' := by
    intro x hx
    rcases hS1 hx with h1 | h1
    · exact Or.inl h1
    · exact Or.inr (hfr x h1)
  have hS2' : ∀ x ∈ S2, x ∈ Sc ∨ x ∉ S' := by
    intro x hx
    rcases hS2 hx with h1 | h1
    · exact Or.inl h1
    · exact Or.inr (hfr x h1)
  have hST : ∀ U : Set Int, U ⊆ Sc ∪ fresh t t2 → U ⊆ S' ∪ fresh t t2 := by
    intro U hU x hx
    rcases hU hx with h1 | h1
    · exact Or.inl (hScS' h1)
    · exact Or.inr h1
  have hlt2 : ∀ x, x ∈ S' ∪ fresh t t2 → x < t2.next_page_id_ := by
    rintro x (hx | hx)
    · have := hSlt x (hS'S hx); have := hF.next; omega
    · exact hx.2
  have hpidT : pid ∉ S' ∪ fresh t t2 := by
    rintro (hx | hx)
    · exact hpidS' hx
    · exact fresh_not_lt t t2 pid hpidlt hx
  -- the chain of the parent page with the new entry, over pages that agree with `t2` below
  have hkids : ∀ pages' : Int → Option BPlusTreePage,
      (∀ q, q ≠ pid → q < t2.next_page_id_ → pages' q = t2.pages q) →
      Children (Sub pages' t.leaf_max_size_ t.internal_max_size_ 1 (setAt M key a) h) lo
        (l1 ++ e :: (mid, new) :: l2) hi (S' ∪ fresh t t2) := by
    intro pages' hpg
    have htr : ∀ (c : Int) (lo' hi' : Option Int) (U : Set Int), U ⊆ Sc ∪ fresh t t2 →
        Sub t2.pages t.leaf_max_size_ t.internal_max_size_ 1 (setAt M key a) h c lo' hi' U →
        Sub pages' t.leaf_max_size_ t.internal_max_size_ 1 (setAt M key a) h c lo' hi' U := by
      intro c lo' hi' U hU hs
      refine Sub_transfer t2.pages pages' _ _ 1 _ _ h c lo' hi' U ?_ (fun _ _ _ => rfl) hs
      intro q hq
      exact hpg q (fun hqp => hpidT (hqp ▸ hST U hU hq)) (hlt2 q (hST U hU hq))
    refine hins pages' _ mid new S1 S2 ?_ (htr _ _ _ _ hS1 hs1) (htr _ _ _ _ hS2 hs2)
      hlomid hmidhi hd hS1' hS2' Set.subset_union_left (hST _ hS1) (hST _ hS2)
    intro q hq hqc
    have hqlt := hSlt q (hS'S hq)
    rw [hpg q (fun hqp => hpidS' (hqp ▸ hq)) (by have := hF.next; omega),
      hF.pages q hqc hqlt]
  by_cases hroom : (p.array_.length : Int) < p.max_size_
  · left
    refine ⟨_, InsertInParentAux_room fuel t2 e.2 mid new ctx pid ws0 p hroot hpar hws hp2
      hroom, ?_, ?_⟩
    · exact { leaf_max := hF.leaf_max, internal_max := hF.internal_max, header := hF.header,
              root := hF.root, next := hF.next,
              pages := fun q hq hlt => by
                show (if q = pid then _ else _) = _
                rw [if_neg (fun (hqp : q = pid) => hq (hqp ▸ hpid))]
                exact hF.pages q (fun hx => hq (hS'S (hScS' hx))) hlt }
    · obtain ⟨hia, him', _⟩ := internal_Insert_eq p l1 e l2 mid new harr hasc hlo2 hhi2
      refine ⟨(p.Insert mid new).1, S' ∪ fresh t t2, ?_, him'.trans hpmax, ?_, ?_, ?_,
        hpidT, Or.inl hpid, ?_⟩
      · show (if pid = pid then _ else _) = _
        rw [if_pos rfl]
      · rw [hia]
        rw [harr] at hroom
        simp only [List.length_append, List.length_cons] at hroom ⊢
        push_cast at hroom ⊢
        omega
      · rw [hia]
        simp only [List.length_append, List.length_cons]
        omega
      · rw [hia]
        apply hkids
        intro q hq _
        show (if q = pid then _ else _) = _
        rw [if_neg hq]
      · rintro x (hx | hx)
        · exact Or.inl (hS'S hx)
        · exact Or.inr hx
  · right
    have hfull : (p.array_.length : Int) = t2.internal_max_size_ := by
      rw [hF.internal_max]; omega
    have hn : 2 ≤ p.array_.length := by omega
    obtain ⟨m', L, R, hm2, hm1, hm3, hLa, hLm, hRa, hRm, heq⟩ :=
      InsertInParentAux_split fuel t2 e.2 mid new ctx pid ws0 p l1 e l2 hroot hpar hws hp2
        harr (hpmax.trans hF.internal_max.symm) hfull hn hasc hlo2 hhi2
    refine ⟨?_, _, _, _, heq, ?_, ?_⟩
    · unfold InternalPage.GetSize InternalPage.GetMaxSize
      omega
    · exact { leaf_max := hF.leaf_max, internal_max := hF.internal_max, header := hF.header,
              root := hF.root,
              next := by
                show t.next_page_id_ ≤ t2.next_page_id_ + 1
                have := hF.next; omega,
              pages := fun q hq hlt => by
                show (if q = t2.next_page_id_ then _ else (if q = pid then _ else _)) = _
                rw [if_neg (by have := hF.next; omega),
                  if_neg (fun (hqp : q = pid) => hq (hqp ▸ hpid))]
                exact hF.pages q (fun hx => hq (hS'S (hScS' hx))) hlt }
    · have hlen' : (l1 ++ e :: (mid, new) :: l2).length = p.array_.length + 1 := by
        rw [harr]; simp only [List.length_append, List.length_cons]; omega
      have hpn : pid ≠ t2.next_page_id_ := by have := hF.next; omega
      obtain ⟨Sa, Sb, hsa, hsb, hdab, hSa, hSb, hlo3, hhi3⟩ :=
        Sub_split_pages
          ((({ t2 with next_page_id_ := t2.next_page_id_ + 1 } : BPlusTree).setPage pid
            (BPlusTreePage.internal L)).setPage t2.next_page_id_
            (BPlusTreePage.internal R)).pages
          t.leaf_max_size_ t.internal_max_size_ (setAt M key a) h _ lo hi (S' ∪ fresh t t2)
          (hkids _ (fun q hq hlt => by
            show (if q = t2.next_page_id_ then _ else (if q = pid then _ else _)) = _
            rw [if_neg (by omega), if_neg hq]))
          m' hm1 hm2 pid t2.next_page_id_ L R
          (by
            show (if pid = t2.next_page_id_ then _ else (if pid = pid then _ else _)) = _
            rw [if_neg hpn, if_pos rfl])
          (by
            show (if t2.next_page_id_ = t2.next_page_id_ then _ else _) = _
            rw [if_pos rfl])
          hLa (hLm.trans hF.internal_max) hRa (hRm.trans hF.internal_max)
          (by omega) (by rw [hlen']; push_cast; omega) hpidT
          (fun hx => by have := hlt2 _ hx; omega) hpn
      refine ⟨Sa, Sb, hsa, hsb, hdab, ?_, ?_, hlo3, hhi3⟩
      · intro x hx
        rcases hSa hx with (h1 | h1) | h1
        · exact Or.inl (hS'S h1)
        · exact Or.inr ⟨h1.1, by show x < t2.next_page_id_ + 1; have := h1.2; omega⟩
        · have h2 : x = pid := h1
          exact Or.inl (h2 ▸ hpid)
      · intro x hx
        rcases hSb hx with (h1 | h1) | h1
        · exact Or.inl (hS'S h1)
        · exact Or.inr ⟨h1.1, by show x < t2.next_page_id_ + 1; have := h1.2; omega⟩
        · have h2 : x = t2.next_page_id_ := h1
          exact Or.inr ⟨by rw [h2]; exact hF.next, by
            show x < t2.next_page_id_ + 1
            omega⟩
/-- The descent of `Insert` below the page `pid` followed by the work at the leaf, for a key
that is absent: either the subtree of `pid` takes the entry in, or the page `pid` was not
safe and is split, and `InsertInParent` is called for it with the guards that were held
above it. -/
theorem Insert_descend (key value : Int) (M : Int → Option Int) (t : BPlusTree)
    (hlm : 3 ≤ t.leaf_max_size_) (him : 2 ≤ t.internal_max_size_) (hM : M key = none) :
    ∀ (h : Nat) (pid : Int) (lo hi : Option Int) (S : Set Int) (ctx : Context)
      (ws0 acc0 : List Int) (fuel : Nat),
      Sub t.pages t.leaf_max_size_ t.internal_max_size_ 1 M h pid lo hi S →
      loLe lo key → ltHi key hi → (∀ q ∈ S, q < t.next_page_id_) →
      ctx.write_set_ = pid :: ws0 → ctx.access_set_ = acc0 ++ [pid] →
      (∀ q ∈ S, q ∉ acc0) → ctx.root_page_id_ ∈ acc0 ++ [pid] → h < fuel →
      ∃ ctx1 leaf, InsertGetKeyAtLoop t key fuel pid ctx = some (ctx1, leaf) ∧
        ((∃ t', InsertIntoLeaf t key value ctx1 leaf = some (t', true) ∧
            Absorbed t t' (setAt M key (some value)) h pid lo hi S) ∨
          (∃ pg t' mid new below, t.pages pid = some pg ∧
            ¬ (pg.GetSize + 1 < pg.GetMaxSize) ∧
            InsertIntoLeaf t key value ctx1 leaf =
              (InsertInParentAux (ws0.length + 1) t' pid mid new
                { ctx with write_set_ := ws0, access_set_ := acc0 ++ [pid] ++ below }).map
                (fun t'' => (t'', true)) ∧
            SplitInTwo t t' (setAt M key (some value)) h pid mid new lo hi S)) := by
  intro h
  induction h with
  | zero =>
    intro pid lo hi S ctx ws0 acc0 fuel hsub hlo hhi hSlt hws hacc hdisj hroot hfuel
    obtain ⟨p, hp, hok, hpid⟩ := hsub
    obtain ⟨fuel, rfl⟩ : ∃ f, fuel = f + 1 := ⟨fuel - 1, by omega⟩
    refine ⟨ctx, pid, ?_, ?_⟩
    · unfold InsertGetKeyAtLoop
      rw [hp]
    have hpidlt := hSlt pid hpid
    rcases InsertIntoLeaf_spec t M pid p lo hi key value ctx ws0 hlm hp hok hlo hhi hM hws with
      ⟨_, heq, hok'⟩ | ⟨hnr, L, R, mid, heq, hokL, hokR, hlomid, hmidhi⟩
    · left
      refine ⟨_, heq, ?_, ?_⟩
      · exact { leaf_max := rfl, internal_max := rfl, header := rfl, root := rfl,
                next := le_refl _,
                pages := fun q hq _ => by
                  show (if q = pid then _ else _) = _
                  rw [if_neg (fun (h : q = pid) => hq (h ▸ hpid))] }
      · refine ⟨_, ?_, hok', Or.inl hpid⟩
        show (if pid = pid then _ else _) = _
        rw [if_pos rfl]
    · right
      refine ⟨_, (({ t with next_page_id_ := t.next_page_id_ + 1 } : BPlusTree).setPage pid
        (BPlusTreePage.leaf L)).setPage t.next_page_id_ (BPlusTreePage.leaf R),
        mid, t.next_page_id_, [], hp, ?_, ?_, ?_, ?_⟩
      · show ¬ (p.GetSize + 1 < p.GetMaxSize)
        unfold LeafPage.GetSize LeafPage.GetMaxSize
        rw [hok.max]; exact hnr
      · rw [heq, List.append_nil, ← hacc]
      · exact { leaf_max := rfl, internal_max := rfl, header := rfl, root := rfl,
                next := by show t.next_page_id_ ≤ t.next_page_id_ + 1; omega,
                pages := fun q hq hlt => by
                  show (if q = t.next_page_id_ then _ else (if q = pid then _ else _)) = _
                  rw [if_neg (by omega), if_neg (fun (h : q = pid) => hq (h ▸ hpid))] }
      · refine ⟨{pid}, {t.next_page_id_}, ⟨L, ?_, hokL, rfl⟩, ⟨R, ?_, hokR, rfl⟩, ?_, ?_, ?_,
          hlomid, hmidhi⟩
        · show (if pid = t.next_page_id_ then _ else (if pid = pid then _ else _)) = _
          rw [if_neg (by omega), if_pos rfl]
        · show (if t.next_page_id_ = t.next_page_id_ then _ else _) = _
          rw [if_pos rfl]
        · intro x hx hx'
          have h1 : x = pid := hx
          have h2 : x = t.next_page_id_ := hx'
          omega
        · intro x hx
          have h1 : x = pid := hx
          exact Or.inl (h1 ▸ hpid)
        · intro x hx
          have h1 : x = t.next_page_id_ := hx
          refine Or.inr ⟨by rw [h1], ?_⟩
          show x < t.next_page_id_ + 1
          omega
  | succ h ih =>
    intro pid lo hi S ctx ws0 acc0 fuel hsub hlo hhi hSlt hws hacc hdisj hroot hfuel
    obtain ⟨p, S', hp, hpmax, hplen, hpmin, hch, hpidS', hpid, hS'S⟩ := hsub
    obtain ⟨fuel, rfl⟩ : ∃ f, fuel = f + 1 := ⟨fuel - 1, by omega⟩
    obtain ⟨l1, e, l2, harr, hcf, hlo', hhi', _⟩ :=
      childFor_focus _ p key lo hi S' hch hlo hhi
    have hasc := Children_tail_asc _ _ _ _ _ hch
    rw [harr] at hch hasc
    obtain ⟨Sc, hScS', hsubc, hrep, hins⟩ :=
      Children_zoom t.pages _ _ 1 M h l1 e l2 lo hi S' hch key hlo' hhi'
    have hcSc : e.2 ∈ Sc := Sub_mem _ _ _ _ _ _ _ _ _ _ hsubc
    have hcS' : e.2 ∈ S' := hScS' hcSc
    have hSclt : ∀ q ∈ Sc, q < t.next_page_id_ := fun q hq => hSlt q (hS'S (hScS' hq))
    obtain ⟨cp, hcp⟩ : ∃ cp, t.pages e.2 = some cp := by
      cases h with
      | zero => obtain ⟨q, hq, _⟩ := hsubc; exact ⟨_, hq⟩
      | succ h => obtain ⟨q, _, hq, _⟩ := hsubc; exact ⟨_, hq⟩
    have hcacc : e.2 ∉ acc0 ++ [pid] := by
      intro hx
      rcases List.mem_append.mp hx with h1 | h1
      · exact hdisj _ (hS'S hcS') h1
      · rw [List.mem_singleton] at h1
        exact hpidS' (h1 ▸ hcS')
    have hdisjc : ∀ q ∈ Sc, q ∉ acc0 ++ [pid] := by
      intro q hq hx
      rcases List.mem_append.mp hx with h1 | h1
      · exact hdisj _ (hS'S (hScS' hq)) h1
      · rw [List.mem_singleton] at h1
        exact hpidS' (h1 ▸ hScS' hq)
    have habs : ∀ t', Absorbed t t' (setAt M key (some value)) h e.2 (lowKey l1 e lo)
        (headKey l2 hi) Sc → Absorbed t t' (setAt M key (some value)) (h + 1) pid lo hi S :=
      fun t' ha => Insert_absorb_step t t' M key (some value) h pid p S S' Sc l1 e l2 lo hi hp
        hpmax hplen hpmin harr hpidS' hpid hS'S hScS' hSlt
        (fun pages' T Sc' => hrep pages' (some value) T Sc') ha
    by_cases hsafe : cp.GetSize + 1 < cp.GetMaxSize
    · obtain ⟨ctx1, leaf, hloop, hout⟩ := ih e.2 (lowKey l1 e lo) (headKey l2 hi) Sc
        { ctx with header_page_ := false, write_set_ := [e.2],
                   access_set_ := ctx.access_set_ ++ [e.2] }
        [] (acc0 ++ [pid]) fuel hsubc hlo' hhi' hSclt rfl
        (by show ctx.access_set_ ++ [e.2] = _; rw [hacc]) hdisjc
        (List.mem_append_left _ hroot) (by omega)
      refine ⟨ctx1, leaf, ?_, ?_⟩
      · rw [← hloop]
        conv_lhs => unfold InsertGetKeyAtLoop
        simp only [hp, hcf, hcp, if_pos hsafe]
      · rcases hout with ⟨t', heq, ha⟩ | ⟨pg, _, _, _, _, hpg, hns, _⟩
        · exact Or.inl ⟨t', heq, habs t' ha⟩
        · rw [hcp] at hpg
          cases hpg
          exact absurd hsafe hns
    · obtain ⟨ctx1, leaf, hloop, hout⟩ := ih e.2 (lowKey l1 e lo) (headKey l2 hi) Sc
        { ctx with write_set_ := e.2 :: ctx.write_set_,
                   access_set_ := ctx.access_set_ ++ [e.2] }
        (pid :: ws0) (acc0 ++ [pid]) fuel hsubc hlo' hhi' hSclt
        (by show e.2 :: ctx.write_set_ = _; rw [hws])
        (by show ctx.access_set_ ++ [e.2] = _; rw [hacc]) hdisjc
        (List.mem_append_left _ hroot) (by omega)
      refine ⟨ctx1, leaf, ?_, ?_⟩
      · rw [← hloop]
        conv_lhs => unfold InsertGetKeyAtLoop
        simp only [hp, hcf, hcp, if_neg hsafe]
      · rcases hout with ⟨t', heq, ha⟩ | ⟨pg, t2, mid, new, below, hpg, hns, heq, hsp⟩
        · exact Or.inl ⟨t', heq, habs t' ha⟩
        · rcases Insert_split_step t t2 M key (some value) h pid p S S' Sc l1 e l2 lo hi mid new
            { ctx with write_set_ := pid :: ws0,
                       access_set_ := acc0 ++ [pid] ++ [e.2] ++ below }
            ws0 (ws0.length + 1) him hp hpmax hplen harr hasc hpidS' hpid hS'S hScS' hSlt
            (fun pages' T mid new Sa Sb => hins pages' (some value) T mid new Sa Sb) hsp
            (fun (hx : ctx.root_page_id_ = e.2) => hcacc (hx ▸ hroot))
            (GetParentPageId_eq e.2 pid acc0 below _
              (by show acc0 ++ [pid] ++ [e.2] ++ below = _; simp) hcacc) rfl with
            ⟨t3, heq3, ha3⟩ | ⟨hns3, t3, mid3, new3, heq3, hsp3⟩
          · left
            refine ⟨t3, ?_, ha3⟩
            rw [heq]
            show Option.map _ (InsertInParentAux (ws0.length + 1 + 1) _ _ _ _ _) = _
            rw [heq3]; rfl
          · right
            refine ⟨_, t3, mid3, new3, [e.2] ++ below, hp, hns3, ?_, hsp3⟩
            rw [heq]
            show Option.map _ (InsertInParentAux (ws0.length + 1 + 1) _ _ _ _ _) = _
            rw [heq3, ← List.append_assoc (acc0 ++ [pid]) [e.2] below]
/-- `InsertInParent` for a split root page: a new root page with the two halves as its
children is created and published in the header page. -/
theorem InsertInParentAux_root (fuel : Nat) (t : BPlusTree) (left key right : Int)
    (ctx : Context) (hroot : ctx.root_page_id_ = left) (hh : ctx.header_page_ = true) :
    InsertInParentAux (fuel + 1) t left key right ctx =
      some { (({ t with next_page_id_ := t.next_page_id_ + 1 } : BPlusTree).setPage
        t.next_page_id_ (BPlusTreePage.internal
          { max_size_ := t.internal_max_size_, array_ := [(0, left), (key, right)] })) with
        root_page_id_ := t.next_page_id_ } := by
  obtain ⟨ha, hm, _⟩ := internal_Insert_eq
    (({ max_size_ := t.internal_max_size_, array_ := [] } : InternalPage).InsertFirstOf left)
    [] (0, left) [] key right rfl List.Pairwise.nil (fun hne => absurd rfl hne)
    (fun e' he' => by simp at he')
  have hpage : ((({ max_size_ := t.internal_max_size_, array_ := [] } :
      InternalPage).InsertFirstOf left).Insert key right).1 =
      { max_size_ := t.internal_max_size_, array_ := [(0, left), (key, right)] } := by
    generalize ((({ max_size_ := t.internal_max_size_, array_ := [] } :
      InternalPage).InsertFirstOf left).Insert key right).1 = P at ha hm
    cases P
    simp only at ha hm
    rw [ha, hm]
    rfl
  unfold InsertInParentAux
  simp only [if_pos hroot, BPlusTree.NewPage, SetRootPageId, hh, if_true, hpage]
  rfl

/-- Insertion of an absent key into a well-formed tree returns true and leaves a
well-formed tree that holds the former map with the new entry; the height grows by at most
one (when the root page is split). -/
theorem Insert_wf (t : BPlusTree) (h : Nat) (M : Int → Option Int) (key value : Int)
    (fuel : Nat) (hwf : WellFormed t 1 h M) (hM : M key = none) (hf : h < fuel) :
    ∃ t' h', Insert fuel t key value = some (t', true) ∧ h' ≤ h + 1 ∧
      WellFormed t' 1 h' (setAt M key (some value)) := by
  have hlm := hwf.leaf_max
  have him := hwf.internal_max
  have hnn := hwf.next_nonneg
  rcases hwf.tree with ⟨hroot, hMe⟩ | ⟨hroot, hsub⟩
  · -- the empty tree: a new root leaf takes the entry
    have hleaf : LeafOK t.leaf_max_size_ M
        { max_size_ := t.leaf_max_size_, next_page_id_ := INVALID_PAGE_ID, array_ := [] }
        none none :=
      { max := rfl, size := by show ((0 : Nat) : Int) < _; omega, asc := List.Pairwise.nil,
        lo_le := fun e he => absurd he (List.not_mem_nil e),
        lt_hi := fun e he => absurd he (List.not_mem_nil e),
        map := fun k _ _ => (hMe k).symm }
    have hI : Insert fuel t key value = InsertIntoLeaf
        ({ ({ t with next_page_id_ := t.next_page_id_ + 1 } : BPlusTree).setPage
            t.next_page_id_ (BPlusTreePage.leaf
              { max_size_ := t.leaf_max_size_, next_page_id_ := INVALID_PAGE_ID,
                array_ := [] }) with root_page_id_ := t.next_page_id_ })
        key value
        { root_page_id_ := t.next_page_id_, header_page_ := true,
          write_set_ := [t.next_page_id_], read_set_ := [],
          access_set_ := [] ++ [t.next_page_id_] } t.next_page_id_ := by
      unfold Insert InsertGetKeyAt
      simp only [hroot, if_true, BPlusTree.NewPage, SetRootPageId, Context.new]
    rw [hI]
    rcases InsertIntoLeaf_spec
        ({ ({ t with next_page_id_ := t.next_page_id_ + 1 } : BPlusTree).setPage
            t.next_page_id_ (BPlusTreePage.leaf
              { max_size_ := t.leaf_max_size_, next_page_id_ := INVALID_PAGE_ID,
                array_ := [] }) with root_page_id_ := t.next_page_id_ })
        M t.next_page_id_ _ none none key value
        { root_page_id_ := t.next_page_id_, header_page_ := true,
          write_set_ := [t.next_page_id_], read_set_ := [],
          access_set_ := [] ++ [t.next_page_id_] } [] hlm
        (by show (if t.next_page_id_ = t.next_page_id_ then _ else _) = _; rw [if_pos rfl])
        hleaf (fun _ hl => by cases hl) (fun _ hl => by cases hl) hM rfl with
      ⟨_, heq, hok'⟩ | ⟨hnr, _⟩
    · refine ⟨_, 0, heq, by omega, ?_⟩
      · refine { leaf_max := hlm, internal_max := him,
                 next_nonneg := by show 0 ≤ t.next_page_id_ + 1; omega,
                 tree := Or.inr ⟨?_, ?_⟩ }
        · show t.next_page_id_ ≠ INVALID_PAGE_ID
          unfold INVALID_PAGE_ID; omega
        · refine ⟨_, ?_, hok', ?_⟩
          · show (if t.next_page_id_ = t.next_page_id_ then _ else _) = _
            rw [if_pos rfl]
          · exact ⟨hnn, by show t.next_page_id_ < t.next_page_id_ + 1; omega⟩
    · exfalso
      apply hnr
      show ((0 : Nat) : Int) + 1 < t.leaf_max_size_
      omega
  · obtain ⟨pg0, hpg0⟩ : ∃ pg, t.pages t.root_page_id_ = some pg := by
      cases h with
      | zero => obtain ⟨q, hq, _⟩ := hsub; exact ⟨_, hq⟩
      | succ h => obtain ⟨q, _, hq, _⟩ := hsub; exact ⟨_, hq⟩
    obtain ⟨ctx1, leaf, hloop, hout⟩ := Insert_descend key value M t hlm him hM h
      t.root_page_id_ none none _
      { root_page_id_ := t.root_page_id_, header_page_ := true,
        write_set_ := [t.root_page_id_], read_set_ := [],
        access_set_ := [] ++ [t.root_page_id_] } [] [] fuel hsub
      (fun _ hl => by cases hl) (fun _ hl => by cases hl) (fun q hq => hq.2) rfl rfl
      (fun _ _ hx => absurd hx (List.not_mem_nil _)) (List.mem_singleton.mpr rfl) hf
    have hI : Insert fuel t key value = InsertIntoLeaf t key value ctx1 leaf := by
      unfold Insert InsertGetKeyAt
      simp only [hroot, if_false, hpg0, Context.new, hloop]
    rw [hI]
    have hSnn : ∀ U : Set Int, ∀ t2 : BPlusTree,
        U ⊆ {q | 0 ≤ q ∧ q < t.next_page_id_} ∪ fresh t t2 →
        t.next_page_id_ ≤ t2.next_page_id_ →
        ∀ q ∈ U, 0 ≤ q ∧ q < t2.next_page_id_ := by
      intro U t2 hU hle q hq
      rcases hU hq with h1 | h1
      · exact ⟨h1.1, by have := h1.2; omega⟩
      · exact ⟨by have := h1.1; omega, h1.2⟩
    rcases hout with ⟨t', heq, hF, hs⟩ |
      ⟨pg, t2, mid, new, below, hpg, hns, heq, hF, S1, S2, hs1, hs2, hd, hS1, hS2, hlomid,
        hmidhi⟩
    · refine ⟨t', h, heq, by omega, ?_⟩
      refine { leaf_max := by rw [hF.leaf_max]; exact hlm,
               internal_max := by rw [hF.internal_max]; exact him,
               next_nonneg := by have := hF.next; omega,
               tree := Or.inr ⟨by rw [hF.root]; exact hroot, ?_⟩ }
      rw [hF.leaf_max, hF.internal_max, hF.root]
      exact Sub_mono _ _ _ _ _ _ _ _ _ _ _ (hSnn _ t' (fun x hx => hx) hF.next) hs
    · rw [heq, InsertInParentAux_root _ t2 t.root_page_id_ mid new _ rfl rfl]
      refine ⟨_, h + 1, rfl, by omega, ?_⟩
      have hpg5 : ∀ U : Set Int, U ⊆ {q | 0 ≤ q ∧ q < t.next_page_id_} ∪ fresh t t2 →
          ∀ (c : Int) (lo hi : Option Int),
          Sub t2.pages t.leaf_max_size_ t.internal_max_size_ 1 (setAt M key (some value)) h
            c lo hi U →
          Sub (fun i => if i = t2.next_page_id_ then
              some (BPlusTreePage.internal
                { max_size_ := t.internal_max_size_,
                  array_ := [(0, t.root_page_id_), (mid, new)] })
            else t2.pages i) t.leaf_max_size_ t.internal_max_size_ 1
            (setAt M key (some value)) h c lo hi U := by
        intro U hU c lo hi hsU
        refine Sub_transfer _ _ _ _ 1 _ _ h c lo hi U ?_ (fun _ _ _ => rfl) hsU
        intro q hq
        have := (hSnn U t2 hU hF.next q hq).2
        show (if q = t2.next_page_id_ then _ else _) = _
        rw [if_neg (by omega)]
      refine { leaf_max := by show 3 ≤ t2.leaf_max_size_; rw [hF.leaf_max]; exact hlm,
               internal_max := by
                 show 2 ≤ t2.internal_max_size_; rw [hF.internal_max]; exact him,
               next_nonneg := by
                 show 0 ≤ t2.next_page_id_ + 1
                 have := hF.next; omega,
               tree := Or.inr ⟨?_, ?_⟩ }
      · show t2.next_page_id_ ≠ INVALID_PAGE_ID
        have := hF.next
        unfold INVALID_PAGE_ID; omega
      · show Sub _ t2.leaf_max_size_ t2.internal_max_size_ 1 _ (h + 1) t2.next_page_id_
          none none {q | 0 ≤ q ∧ q < t2.next_page_id_ + 1}
        rw [hF.leaf_max, hF.internal_max]
        refine ⟨{ max_size_ := t.internal_max_size_,
                  array_ := [(0, t.root_page_id_), (mid, new)] }, S1 ∪ S2, ?_,
          rfl, ?_, by show 1 ≤ 2; omega, ?_, ?_, ?_, ?_⟩
        · show (if t2.next_page_id_ = t2.next_page_id_ then _ else _) = _
          rw [if_pos rfl]
        · show ((2 : Nat) : Int) ≤ _
          omega
        · exact ⟨S1, S2, hpg5 S1 hS1 _ _ _ hs1, fun _ hl => (by cases hl),
            ⟨hpg5 S2 hS2 _ _ _ hs2, fun _ _ _ hh => (by cases hh)⟩, hd,
            Set.subset_union_left, Set.subset_union_right⟩
        · rintro (hx | hx)
          · have := (hSnn S1 t2 hS1 hF.next _ hx).2; omega
          · have := (hSnn S2 t2 hS2 hF.next _ hx).2; omega
        · exact ⟨by have := hF.next; omega, by omega⟩
        · rintro x (hx | hx)
          · have := hSnn S1 t2 hS1 hF.next _ hx
            exact ⟨this.1, by have := this.2; omega⟩
          · have := hSnn S2 t2 hS2 hF.next _ hx
            exact ⟨this.1, by have := this.2; omega⟩
/-- With leaf max_size at least 3 and internal max_size at least 2: on a well-formed tree (of
height `h`, holding the map `M`) and for a key that `GetValue` does not find, `Insert` run
with fuel above the height returns true, whether it splits pages or not; afterwards
`GetValue` of the key returns true with the result `[value]`, `GetValue` of every other key
returns what it returned before the call, and the tree is well formed again. -/
theorem Insert_of_absent_key (t : BPlusTree) (h : Nat) (M : Int → Option Int)
    (key value : Int) (fuel : Nat) (hwf : WellFormed t 1 h M) (hf : h < fuel)
    (habsent : GetValue fuel t key = some (false, [])) :
    ∃ t', Insert fuel t key value = some (t', true) ∧
      GetValue (fuel + 1) t' key = some (true, [value]) ∧
      (∀ k', k' ≠ key → GetValue (fuel + 1) t' k' = GetValue fuel t k') ∧
      ∃ h', WellFormed t' 1 h' (setAt M key (some value)) := by
  have hM : M key = none := by
    rw [GetValue_spec t 1 h M hwf key fuel hf] at habsent
    cases hk : M key with
    | none => rfl
    | some v =>
      rw [hk] at habsent
      simp [answer] at habsent
  obtain ⟨t', h', hI, hh', hwf'⟩ := Insert_wf t h M key value fuel hwf hM hf
  refine ⟨t', hI, ?_, ?_, h', hwf'⟩
  · rw [GetValue_spec t' 1 h' _ hwf' key (fuel + 1) (by omega)]
    simp [setAt, answer]
  · intro k' hk'
    rw [GetValue_spec t' 1 h' _ hwf' k' (fuel + 1) (by omega),
      GetValue_spec t 1 h M hwf k' fuel hf]
    simp [setAt, hk']

theorem Insert_of_absent_key_example :
    WellFormed fullLeafTree 1 0 (leafFind [(10, 100), (20, 200)]) ∧
      GetValue 1 fullLeafTree 15 = some (false, []) ∧
      ∃ t', Insert 1 fullLeafTree 15 150 = some (t', true) ∧
        GetValue 2 t' 15 = some (true, [150]) ∧
        (∀ k', k' ≠ 15 → GetValue 2 t' k' = GetValue 1 fullLeafTree k') ∧
        ∃ h', WellFormed t' 1 h' (setAt (leafFind [(10, 100), (20, 200)]) 15 (some 150)) := by
  have hwf : WellFormed fullLeafTree 1 0 (leafFind [(10, 100), (20, 200)]) :=
    { leaf_max := by decide, internal_max := by decide, next_nonneg := by decide,
      tree := Or.inr ⟨by decide,
        ⟨{ max_size_ := 3, next_page_id_ := INVALID_PAGE_ID, array_ := [(10, 100), (20, 200)] },
          rfl,
          { max := rfl, size := by decide, asc := by unfold Ascending; decide,
            lo_le := fun _ _ _ hl => (by cases hl),
            lt_hi := fun _ _ _ hl => (by cases hl),
            map := fun _ _ _ => rfl },
          ⟨by decide, by decide⟩⟩⟩ }
  exact ⟨hwf, rfl, Insert_of_absent_key fullLeafTree 0 _ 15 150 1 hwf (by decide) rfl⟩

/-- C2 (the code at the failing input): with leaf max_size 2 and internal max_size 3 the
inserts 2 and 1 build the root page `[(_, 1), (2, 2)]` over the leaf pages `[1]` and `[2]`,
and `GetValue(3)` returns false. `Insert(3, 30)` returns true, and afterwards `GetValue(3)`
returns false again: the split has moved the only entry of leaf page 2 to the new page 4,
which holds the keys 2 and 3, and the root page is `[(_, 1), (2, 4), (2, 2)]`, with the empty
page 2 behind the new page. -/
theorem C2_inserted_key_not_found :
    ((insertAll 2 (empty 2 3) [(2, 20), (1, 10)]).bind fun t =>
      (GetValue 2 t 3).bind fun before =>
        (Insert 2 t 3 30).map fun r =>
          (((t.internalAt 3).map fun p => p.array_, (t.leafAt 1).map fun p => p.array_,
              (t.leafAt 2).map fun p => p.array_, before),
            r.2, GetValue 2 r.1 3, (r.1.internalAt 3).map fun p => p.array_,
            (r.1.leafAt 2).map fun p => p.array_, (r.1.leafAt 4).map fun p => p.array_)) =
    some ((some [(0, 1), (2, 2)], some [(1, 10)], some [(2, 20)], (false, [])),
      true, some (false, []), some [(0, 1), (2, 4), (2, 2)], some [],
      some [(2, 20), (3, 30)]) := by
  rfl
theorem Sub_weaken (pages : Int → Option BPlusTreePage) (lm im : Int) (mc mc' : Nat)
    (hle : mc' ≤ mc) (M : Int → Option Int) (h : Nat) :
    ∀ (pid : Int) (lo hi : Option Int) (S : Set Int),
      Sub pages lm im mc M h pid lo hi S → Sub pages lm im mc' M h pid lo hi S := by
  induction h with
  | zero => intro pid lo hi S hs; exact hs
  | succ h ih =>
    intro pid lo hi S hs
    obtain ⟨p, S', hp, hmax, hlen, hmin, hch, h1, h2, h3⟩ := hs
    exact ⟨p, S', hp, hmax, hlen, le_trans hle hmin,
      Children_imp _ _ _ _ _ _ (fun c lo' hi' S0 _ _ hc => ih c lo' hi' S0 hc) hch, h1, h2, h3⟩

/-- The siblings of the children a key belongs to stay subtrees, also for a smaller minimal
number of children, when pages outside of them change and the map changes at that key. -/
theorem Seg_frame_le (pages pages' : Int → Option BPlusTreePage) (lm im : Int) (mc mc' : Nat)
    (hle : mc' ≤ mc)
    (M : Int → Option Int) (h : Nat) (l : List (Int × Int)) (lo hi : Option Int) (S : Set Int)
    (key : Int) (a : Option Int)
    (hpg : ∀ q ∈ S, pages' q = pages q)
    (hout : l ≠ [] → ∀ k, loLe lo k → ltHi k hi → k ≠ key)
    (hseg : Seg (Sub pages lm im mc M h) lo l hi S) :
    Seg (Sub pages' lm im mc' (setAt M key a) h) lo l hi S := by
  have h1 := Seg_frame pages pages' lm im mc M h l lo hi S key a hpg hout hseg
  exact Seg_imp _ _ l lo hi S
    (fun c lo' hi' S0 _ _ hc => Sub_weaken pages' lm im mc mc' hle _ h c lo' hi' S0 hc) h1

/-- The chain of an internal page around two neighbour children `x` and `y`, one of which a
key belongs to: both are subtrees on disjoint page sets, and the chain can be built again
after pages of the two changed, with the key between the two replaced, or with the two
merged into the page of `x`. -/
theorem Children_zoom_pair (pages : Int → Option BPlusTreePage) (lm im : Int) (mc mc' : Nat)
    (hle : mc' ≤ mc) (M : Int → Option Int) (h : Nat) (m1 : List (Int × Int))
    (x y : Int × Int) (m2 : List (Int × Int)) (lo hi : Option Int) (S : Set Int)
    (hch : Children (Sub pages lm im mc M h) lo (m1 ++ x :: y :: m2) hi S) (key : Int)
    (hlo : loLe (lowKey m1 x lo) key) (hhi : ltHi key (headKey m2 hi)) :
    ∃ Sx Sy, Sx ⊆ S ∧ Sy ⊆ S ∧ (∀ q ∈ Sx, q ∉ Sy) ∧
      Sub pages lm im mc M h x.2 (lowKey m1 x lo) (some y.1) Sx ∧
      Sub pages lm im mc M h y.2 (some y.1) (headKey m2 hi) Sy ∧
      loLt (lowKey m1 x lo) y.1 ∧ ltHi y.1 (headKey m2 hi) ∧
      (∀ (pages' : Int → Option BPlusTreePage) (a : Option Int) (k' : Int)
        (Sx' Sy' : Set Int),
        (∀ q ∈ S, q ∉ Sx → q ∉ Sy → pages' q = pages q) →
        Sub pages' lm im mc' (setAt M key a) h x.2 (lowKey m1 x lo) (some k') Sx' →
        Sub pages' lm im mc' (setAt M key a) h y.2 (some k') (headKey m2 hi) Sy' →
        (∀ q ∈ Sx', q ∉ Sy') → Sx' ⊆ Sx ∪ Sy → Sy' ⊆ Sx ∪ Sy →
        loLt (lowKey m1 x lo) k' → ltHi k' (headKey m2 hi) →
        Children (Sub pages' lm im mc' (setAt M key a) h) lo (m1 ++ x :: (k', y.2) :: m2)
          hi S) ∧
      (∀ (pages' : Int → Option BPlusTreePage) (a : Option Int) (Sx' : Set Int),
        (∀ q ∈ S, q ∉ Sx → q ∉ Sy → pages' q = pages q) →
        Sub pages' lm im mc' (setAt M key a) h x.2 (lowKey m1 x lo) (headKey m2 hi) Sx' →
        Sx' ⊆ Sx ∪ Sy →
        Children (Sub pages' lm im mc' (setAt M key a) h) lo (m1 ++ x :: m2) hi S) := by
  obtain ⟨S1, Sx, S2', hs1, hsx, hs2', hlt, hd1, hd2, hd3, hS1, hSx, hS2'⟩ :=
    Children_focus _ m1 x (y :: m2) lo hi S hch
  obtain ⟨_, Sy, S2, _, hsy, hs2, hlt', _, _, hd3', _, hSy, hS2⟩ :=
    Children_focus _ [] y m2 (some y.1) hi S2' hs2'
  have hmono : ∀ (pages' : Int → Option BPlusTreePage) (M' : Int → Option Int) c lo hi S T,
      S ⊆ T → Sub pages' lm im mc' M' h c lo hi S → Sub pages' lm im mc' M' h c lo hi T :=
    fun pages' M' c lo hi S T hST hs => Sub_mono pages' lm im mc' M' h c lo hi S T hST hs
  have hleft : m1 ≠ [] → ∀ k, loLe lo k → ltHi k (lowKey m1 x lo) → k ≠ key := by
    intro hne k _ h2 hk
    subst hk
    cases m1 with
    | nil => exact hne rfl
    | cons a l1' =>
      have h3 := h2 x.1 rfl
      have h4 := hlo x.1 rfl
      omega
  have hright : m2 ≠ [] → ∀ k, loLe (headKey m2 hi) k → ltHi k hi → k ≠ key := by
    intro hne k h1 _ hk
    subst hk
    cases m2 with
    | nil => exact hne rfl
    | cons e' l2' =>
      have h3 := h1 e'.1 rfl
      have h4 := hhi e'.1 rfl
      omega
  have hlomid : loLt (lowKey m1 x lo) y.1 := fun l hl => hlt l y.1 hl rfl
  have hmidhi : ltHi y.1 (headKey m2 hi) := fun u hu => hlt' y.1 u rfl hu
  have hxy : ∀ q ∈ Sx, q ∉ Sy := fun q hq hq' => hd3 q hq (hSy hq')
  have hsegs : ∀ (pages' : Int → Option BPlusTreePage) (a : Option Int),
      (∀ q ∈ S, q ∉ Sx → q ∉ Sy → pages' q = pages q) →
      Seg (Sub pages' lm im mc' (setAt M key a) h) lo m1 (lowKey m1 x lo) S1 ∧
      Seg (Sub pages' lm im mc' (setAt M key a) h) (headKey m2 hi) m2 hi S2 := by
    intro pages' a hpg
    constructor
    · exact Seg_frame_le pages pages' lm im mc mc' hle M h m1 lo _ S1 key a
        (fun q hq => hpg q (hS1 hq) (fun hc => hd1 q hq hc)
          (fun hc => hd2 q hq (hSy hc))) hleft hs1
    · exact Seg_frame_le pages pages' lm im mc mc' hle M h m2 _ hi S2 key a
        (fun q hq => hpg q (hS2' (hS2 hq)) (fun hc => hd3 q hc (hS2 hq))
          (fun hc => hd3' q hc hq)) hright hs2
  have hin : ∀ (U : Set Int), U ⊆ Sx ∪ Sy → ∀ q ∈ U, q ∉ S1 ∧ q ∉ S2 := by
    intro U hU q hq
    rcases hU hq with h1 | h1
    · exact ⟨fun hc => hd1 q hc h1, fun hc => hd3 q h1 (hS2 hc)⟩
    · exact ⟨fun hc => hd2 q hc (hSy h1), fun hc => hd3' q h1 hc⟩
  have hsub : ∀ (U : Set Int), U ⊆ Sx ∪ Sy → U ⊆ S := by
    intro U hU q hq
    rcases hU hq with h1 | h1
    · exact hSx h1
    · exact hS2' (hSy h1)
  refine ⟨Sx, Sy, hSx, fun q hq => hS2' (hSy hq), hxy, hsx, hsy, hlomid, hmidhi, ?_, ?_⟩
  · intro pages' a k' Sx' Sy' hpg hnx hny hdxy hSx' hSy' hlok hkhi
    obtain ⟨hs1', hs2n⟩ := hsegs pages' a hpg
    have hright' : Children (Sub pages' lm im mc' (setAt M key a) h) (some k')
        ((k', y.2) :: m2) hi (Sy' ∪ S2) := by
      apply Children_unfocus _ (hmono pages' _) [] (k', y.2) m2 (some k') hi (Sy' ∪ S2) ∅ Sy' S2
        rfl hny hs2n
      · intro l u hl hu; cases hl; exact hkhi u hu
      · simp
      · simp
      · intro q hq hq'; exact (hin Sy' hSy' q hq).2 hq'
      · simp
      · exact Set.subset_union_left
      · exact Set.subset_union_right
    apply Children_unfocus _ (hmono pages' _) m1 x ((k', y.2) :: m2) lo hi S S1 Sx' (Sy' ∪ S2)
      hs1' hnx hright'
    · intro l u hl hu; cases hu; exact hlok l hl
    · intro q hq hq'; exact (hin Sx' hSx' q hq').1 hq
    · intro q hq hq'
      rcases hq' with hq' | hq'
      · exact (hin Sy' hSy' q hq').1 hq
      · exact hd2 q hq (hS2 hq')
    · intro q hq hq'
      rcases hq' with hq' | hq'
      · exact hdxy q hq hq'
      · exact (hin Sx' hSx' q hq).2 hq'
    · exact hS1
    · exact hsub Sx' hSx'
    · intro q hq
      rcases hq with hq | hq
      · exact hsub Sy' hSy' hq
      · exact hS2' (hS2 hq)
  · intro pages' a Sx' hpg hnx hSx'
    obtain ⟨hs1', hs2n⟩ := hsegs pages' a hpg
    apply Children_unfocus _ (hmono pages' _) m1 x m2 lo hi S S1 Sx' S2 hs1' hnx hs2n
    · intro l u hl hu
      have h1 := hlomid l hl
      have h2 := hmidhi u hu
      omega
    · intro q hq hq'; exact (hin Sx' hSx' q hq').1 hq
    · intro q hq hq'; exact hd2 q hq (hS2 hq')
    · intro q hq hq'; exact (hin Sx' hSx' q hq).2 hq'
    · exact hS1
    · exact hsub Sx' hSx'
    · exact fun q hq => hS2' (hS2 hq)
theorem internal_KeyAt_nat (p : InternalPage) (i : Nat) :
    p.KeyAt (i : Int) = (p.array_.get? i).map Prod.fst := by
  unfold InternalPage.KeyAt
  rw [if_pos (Int.ofNat_nonneg i), Int.toNat_ofNat]

theorem internal_ValueAt_nat (p : InternalPage) (i : Nat) :
    p.ValueAt (i : Int) = (p.array_.get? i).map Prod.snd := by
  unfold InternalPage.ValueAt
  rw [if_pos (Int.ofNat_nonneg i), Int.toNat_ofNat]

theorem get?_append_at {α : Type} (l1 : List α) (x : α) (l2 : List α) :
    (l1 ++ x :: l2).get? l1.length = some x := by
  rw [List.get?_eq_getElem?, List.getElem?_append_right (le_refl _)]
  simp

theorem get?_append_succ {α : Type} (l1 : List α) (x y : α) (l2 : List α) :
    (l1 ++ x :: y :: l2).get? (l1.length + 1) = some y := by
  have := get?_append_at (l1 ++ [x]) y l2
  simpa using this

theorem get?_append_succ2 {α : Type} (l1 : List α) (x y z : α) (l2 : List α) :
    (l1 ++ x :: y :: z :: l2).get? (l1.length + 2) = some z := by
  have := get?_append_at (l1 ++ [x, y]) z l2
  simpa using this

theorem modify_append_at {α : Type} (f : α → α) (y : α) (l2 : List α) :
    ∀ l1 : List α, (l1 ++ y :: l2).modify f l1.length = l1 ++ f y :: l2 := by
  intro l1
  induction l1 with
  | nil => rfl
  | cons a l1 ih =>
    simp only [List.cons_append, List.length_cons, List.modify_succ_cons, ih]

/-- The keys of a chain `l1 ++ y :: l2` from slot 1 on that are smaller than the key of
`y`, and `y` itself, are those of `l1`. -/
theorem Lookup_at_key (p : InternalPage) (m1 : List (Int × Int)) (x y : Int × Int)
    (m2 : List (Int × Int)) (harr : p.array_ = m1 ++ x :: y :: m2)
    (hasc : Ascending ((m1 ++ x :: y :: m2).tail.map Prod.fst)) :
    p.Lookup y.1 = ((m1.length + 1 : Nat) : Int) := by
  cases m1 with
  | nil =>
    rw [internal_Lookup_eq p y.1 x (y :: m2) harr hasc]
    have := lowerBound_append [] ((y :: m2).map Prod.fst) y.1 (by simp) (by simp)
    simp only [List.nil_append, List.length_nil] at this
    rw [this]; rfl
  | cons a m1 =>
    rw [internal_Lookup_eq p y.1 a (m1 ++ x :: y :: m2) harr hasc]
    have hasc' : Ascending ((m1 ++ [x]).map Prod.fst ++ (y :: m2).map Prod.fst) := by
      have : (a :: m1 ++ x :: y :: m2).tail.map Prod.fst =
          (m1 ++ [x]).map Prod.fst ++ (y :: m2).map Prod.fst := by simp
      rw [this] at hasc; exact hasc
    have h1 : ∀ k ∈ (m1 ++ [x]).map Prod.fst, k < y.1 := by
      intro k hk
      unfold Ascending at hasc'
      rw [List.pairwise_append] at hasc'
      exact hasc'.2.2 k hk y.1 (by simp)
    have := lowerBound_append ((m1 ++ [x]).map Prod.fst) ((y :: m2).map Prod.fst) y.1 h1
      (by simp)
    have h2 : (m1 ++ x :: y :: m2).map Prod.fst =
        (m1 ++ [x]).map Prod.fst ++ (y :: m2).map Prod.fst := by simp
    rw [h2, this]
    simp

theorem Lookup_above_key (p : InternalPage) (m1 : List (Int × Int)) (x y : Int × Int)
    (m2 : List (Int × Int)) (harr : p.array_ = m1 ++ x :: y :: m2)
    (hasc : Ascending ((m1 ++ x :: y :: m2).tail.map Prod.fst)) (key : Int)
    (hk : y.1 < key) (hhi : ∀ e' ∈ m2.head?, key < e'.1) :
    p.Lookup key = ((m1.length + 2 : Nat) : Int) := by
  have hm2 : ∀ k ∈ (m2.map Prod.fst).head?, key ≤ k := by
    intro k hk'
    cases m2 with
    | nil => simp at hk'
    | cons z m2 =>
      simp only [List.map_cons, List.head?_cons, Option.mem_def, Option.some.injEq] at hk'
      have := hhi z (by simp)
      omega
  cases m1 with
  | nil =>
    rw [internal_Lookup_eq p key x (y :: m2) harr hasc]
    have := lowerBound_append [y.1] (m2.map Prod.fst) key (by simpa using hk) hm2
    simp only [List.singleton_append, List.length_singleton] at this
    rw [List.map_cons, this]; rfl
  | cons a m1 =>
    rw [internal_Lookup_eq p key a (m1 ++ x :: y :: m2) harr hasc]
    have hasc' : Ascending ((m1 ++ [x]).map Prod.fst ++ (y :: m2).map Prod.fst) := by
      have : (a :: m1 ++ x :: y :: m2).tail.map Prod.fst =
          (m1 ++ [x]).map Prod.fst ++ (y :: m2).map Prod.fst := by simp
      rw [this] at hasc; exact hasc
    have h1 : ∀ k ∈ (m1 ++ [x, y]).map Prod.fst, k < key := by
      intro k hk'
      unfold Ascending at hasc'
      rw [List.pairwise_append] at hasc'
      have hk2 : k ∈ (m1 ++ [x]).map Prod.fst ∨ k = y.1 := by
        simp only [List.map_append, List.map_cons, List.map_nil, List.mem_append,
          List.mem_cons, List.mem_singleton, List.not_mem_nil, or_false] at hk' ⊢
        rcases hk' with h | h | h
        · exact Or.inl (Or.inl h)
        · exact Or.inl (Or.inr h)
        · exact Or.inr h
      rcases hk2 with h | h
      · have := hasc'.2.2 k h y.1 (by simp); omega
      · omega
    have := lowerBound_append ((m1 ++ [x, y]).map Prod.fst) (m2.map Prod.fst) key h1 hm2
    have h2 : (m1 ++ x :: y :: m2).map Prod.fst =
        (m1 ++ [x, y]).map Prod.fst ++ m2.map Prod.fst := by simp
    rw [h2, this]
    simp
    omega

theorem Lookup_first (p : InternalPage) (x y : Int × Int)
    (m2 : List (Int × Int)) (harr : p.array_ = x :: y :: m2)
    (hasc : Ascending ((y :: m2).map Prod.fst)) (key : Int) (hk : key < y.1) :
    p.Lookup key = 1 := by
  rw [internal_Lookup_eq p key x (y :: m2) harr hasc]
  have := lowerBound_append [] ((y :: m2).map Prod.fst) key (by simp)
    (by simp; omega)
  simp only [List.nil_append, List.length_nil] at this
  rw [this]; rfl

/-- The sibling of the first child is the second child, to its right. -/
theorem GetSiblingPageId_first (p : InternalPage) (x y : Int × Int)
    (m2 : List (Int × Int)) (harr : p.array_ = x :: y :: m2)
    (hasc : Ascending ((y :: m2).map Prod.fst)) (key : Int) (hk : key < y.1) :
    GetSiblingPageId p key = some (y.2, y.1) ∧ siblingOnRight p key = some true := by
  have hL := Lookup_first p x y m2 harr hasc key hk
  have hK1 : p.KeyAt 1 = some y.1 := by
    have := internal_KeyAt_nat p 1
    rw [harr] at this
    exact this
  have hV1 : p.ValueAt 1 = some y.2 := by
    have := internal_ValueAt_nat p 1
    rw [harr] at this
    exact this
  have hne : ¬ comparator key y.1 = 0 := by
    rw [comparator_eq]; omega
  have hn : p.GetSize = ((2 + m2.length : Nat) : Int) := by
    unfold InternalPage.GetSize
    rw [harr]
    simp only [List.length_cons]
    push_cast
    omega
  have hne1 : ¬ ((1 : Int) = p.GetSize) := by
    rw [hn]; push_cast; omega
  have hne2 : ¬ ((1 : Int) > 1 ∧ (1 : Int) ≤ p.GetSize - 1) := by omega
  constructor
  · unfold GetSiblingPageId
    simp only [hL]
    rw [if_neg hne1, if_neg hne2]
    simp only [hK1, hV1, if_neg hne]
  · unfold siblingOnRight
    simp only [hL]
    rw [if_pos trivial, hK1]
    simp [comparator_lt, hk]

/-- The sibling of a child that is not the first one is the child to its left. -/
theorem GetSiblingPageId_later (p : InternalPage) (m1 : List (Int × Int)) (x y : Int × Int)
    (m2 : List (Int × Int)) (harr : p.array_ = m1 ++ x :: y :: m2)
    (hasc : Ascending ((m1 ++ x :: y :: m2).tail.map Prod.fst)) (key : Int)
    (hk : y.1 ≤ key) (hhi : ∀ e' ∈ m2.head?, key < e'.1) :
    GetSiblingPageId p key = some (x.2, y.1) ∧ siblingOnRight p key = some false := by
  have hVx : p.ValueAt ((m1.length : Nat) : Int) = some x.2 := by
    rw [internal_ValueAt_nat, harr, get?_append_at]; rfl
  have hKy : p.KeyAt ((m1.length + 1 : Nat) : Int) = some y.1 := by
    rw [internal_KeyAt_nat, harr, get?_append_succ]; rfl
  have hn : p.GetSize = ((m1.length + 2 + m2.length : Nat) : Int) := by
    unfold InternalPage.GetSize
    rw [harr]
    simp only [List.length_append, List.length_cons]
    push_cast
    omega
  by_cases heq : key = y.1
  · subst heq
    have hL := Lookup_at_key p m1 x y m2 harr hasc
    have hc0 : comparator y.1 y.1 = 0 := by rw [comparator_eq]
    have hsub : ((m1.length + 1 : Nat) : Int) - 1 = ((m1.length : Nat) : Int) := by
      push_cast; omega
    constructor
    · unfold GetSiblingPageId
      simp only [hL, hn]
      rw [if_neg (by push_cast; omega)]
      by_cases h1 : m1.length = 0
      · rw [if_neg (by push_cast; omega)]
        simp only [hKy, hc0, if_true, hsub, hVx]
      · rw [if_pos (by push_cast; omega)]
        simp only [hKy, hc0, if_true, hsub, hVx]
    · unfold siblingOnRight
      simp only [hL]
      by_cases h1 : m1.length = 0
      · rw [if_pos (by rw [h1]; rfl)]
        have h2 : p.KeyAt 1 = some y.1 := by
          have := hKy
          rw [h1] at this
          exact this
        rw [h2]
        simp [comparator_lt]
      · rw [if_neg (by push_cast; omega)]
  · have hlt : y.1 < key := by omega
    have hL := Lookup_above_key p m1 x y m2 harr hasc key hlt hhi
    have hsub2 : ((m1.length + 2 : Nat) : Int) - 2 = ((m1.length : Nat) : Int) := by
      push_cast; omega
    have hsub1 : ((m1.length + 2 : Nat) : Int) - 1 = ((m1.length + 1 : Nat) : Int) := by
      push_cast; omega
    constructor
    · unfold GetSiblingPageId
      simp only [hL, hn]
      cases m2 with
      | nil =>
        rw [if_pos (by simp)]
        simp only [hsub2, hsub1, hVx, hKy]
      | cons z m2 =>
        rw [if_neg (by simp only [List.length_cons]; push_cast; omega),
          if_pos (by simp only [List.length_cons]; push_cast; omega)]
        have hKz : p.KeyAt ((m1.length + 2 : Nat) : Int) = some z.1 := by
          rw [internal_KeyAt_nat, harr, get?_append_succ2]; rfl
        have hnz : ¬ comparator key z.1 = 0 := by
          rw [comparator_eq]
          have := hhi z (by simp)
          omega
        simp only [hKz, if_neg hnz, hsub2, hsub1, hVx, hKy]
    · unfold siblingOnRight
      simp only [hL]
      rw [if_neg (by push_cast; omega)]

/-- The entry with the key of `y` is erased from the parent page. -/
theorem internal_RemoveKeyAt_eq (p : InternalPage) (m1 : List (Int × Int)) (x y : Int × Int)
    (m2 : List (Int × Int)) (harr : p.array_ = m1 ++ x :: y :: m2)
    (hasc : Ascending ((m1 ++ x :: y :: m2).tail.map Prod.fst)) :
    (p.RemoveKeyAt y.1).2 = true ∧ (p.RemoveKeyAt y.1).1.array_ = m1 ++ x :: m2 ∧
      (p.RemoveKeyAt y.1).1.max_size_ = p.max_size_ := by
  have hL := Lookup_at_key p m1 x y m2 harr hasc
  have hn : p.GetSize = ((m1.length + 2 + m2.length : Nat) : Int) := by
    unfold InternalPage.GetSize
    rw [harr]
    simp only [List.length_append, List.length_cons]
    push_cast
    omega
  have hcond : p.Lookup y.1 ≥ 0 ∧ p.Lookup y.1 < p.GetSize := by
    rw [hL, hn]; push_cast; omega
  unfold InternalPage.RemoveKeyAt
  simp only [if_pos hcond]
  unfold InternalPage.EraseAt
  rw [if_pos ⟨hcond.1, hcond.2⟩]
  refine ⟨trivial, ?_, rfl⟩
  simp only [hL, Int.toNat_ofNat, harr]
  have : m1 ++ x :: y :: m2 = (m1 ++ [x]) ++ y :: m2 := by simp
  rw [this, List.eraseIdx_append_of_length_le (by simp)]
  simp

/-- The key of `y` in the parent page is replaced. -/
theorem ReplaceKeyAt_eq (p : InternalPage) (m1 : List (Int × Int)) (x y : Int × Int)
    (m2 : List (Int × Int)) (harr : p.array_ = m1 ++ x :: y :: m2)
    (hasc : Ascending ((m1 ++ x :: y :: m2).tail.map Prod.fst)) (dst : Int) :
    ReplaceKeyAt p y.1 dst =
      some { max_size_ := p.max_size_, array_ := m1 ++ x :: (dst, y.2) :: m2 } := by
  have hL := Lookup_at_key p m1 x y m2 harr hasc
  have hn : p.GetSize = ((m1.length + 2 + m2.length : Nat) : Int) := by
    unfold InternalPage.GetSize
    rw [harr]
    simp only [List.length_append, List.length_cons]
    push_cast
    omega
  unfold ReplaceKeyAt
  simp only [hL, hn]
  rw [if_pos (by push_cast; omega)]
  unfold InternalPage.SetKeyAt
  rw [if_pos (Int.ofNat_nonneg _)]
  simp only [Int.toNat_ofNat, harr]
  congr 2
  have : m1 ++ x :: y :: m2 = (m1 ++ [x]) ++ y :: m2 := by simp
  rw [this]
  have hlen : m1.length + 1 = (m1 ++ [x]).length := by simp
  rw [hlen, modify_append_at]
  simp
theorem LeafOK_resize (lm lm' : Int) (M : Int → Option Int) (p q : LeafPage)
    (lo hi : Option Int) (hok : LeafOK lm M p lo hi) (harr : q.array_ = p.array_)
    (hmax : q.max_size_ = lm') (hsize : (q.array_.length : Int) < lm') :
    LeafOK lm' M q lo hi := by
  exact { max := hmax, size := hsize,
          asc := by rw [harr]; exact hok.asc, lo_le := by rw [harr]; exact hok.lo_le,
          lt_hi := by rw [harr]; exact hok.lt_hi, map := by rw [harr]; exact hok.map }

/-- Two well-formed leaves for neighbour ranges, put into one page that has room for
both, make a well-formed leaf for the union of the ranges. -/
theorem LeafOK_merge (lm lm' : Int) (M : Int → Option Int) (x y z : LeafPage)
    (lox hiy : Option Int) (k : Int) (hx : LeafOK lm M x lox (some k))
    (hy : LeafOK lm M y (some k) hiy) (hlok : loLt lox k) (hkhi : ltHi k hiy)
    (hz : z.array_ = x.array_ ++ y.array_) (hzm : z.max_size_ = lm')
    (hsz : (x.array_.length : Int) + y.array_.length < lm') : LeafOK lm' M z lox hiy := by
  have hxk : ∀ e ∈ x.array_, e.1 < k := fun e he => hx.lt_hi e he k rfl
  have hyk : ∀ e ∈ y.array_, k ≤ e.1 := fun e he => hy.lo_le e he k rfl
  refine { max := hzm, size := ?_, asc := ?_, lo_le := ?_, lt_hi := ?_, map := ?_ }
  · rw [hz, List.length_append]; push_cast; exact hsz
  · rw [hz, List.map_append]
    unfold Ascending
    rw [List.pairwise_append]
    refine ⟨hx.asc, hy.asc, ?_⟩
    intro a ha b hb
    obtain ⟨ea, hea, rfl⟩ := List.mem_map.mp ha
    obtain ⟨eb, heb, rfl⟩ := List.mem_map.mp hb
    have := hxk ea hea
    have := hyk eb heb
    omega
  · intro e he
    rw [hz] at he
    rcases List.mem_append.mp he with h | h
    · exact hx.lo_le e h
    · intro l hl
      have := hlok l hl
      have := hyk e h
      omega
  · intro e he
    rw [hz] at he
    rcases List.mem_append.mp he with h | h
    · intro u hu
      have := hkhi u hu
      have := hxk e h
      omega
    · exact hy.lt_hi e h
  · intro kk hlo hhi
    rw [hz, leafFind_append]
    by_cases hkk : kk < k
    · have h1 := hx.map kk hlo (fun u hu => by cases hu; exact hkk)
      have h2 : leafFind y.array_ kk = none :=
        leafFind_none _ _ (fun e he => by have := hyk e he; omega)
      rw [h1, h2]
      cases M kk <;> rfl
    · have h1 : leafFind x.array_ kk = none :=
        leafFind_none _ _ (fun e he => by have := hxk e he; omega)
      rw [h1]
      exact hy.map kk (fun l hl => by cases hl; omega) hhi

theorem leafFind_cons_ne (e : Int × Int) (rest : List (Int × Int)) (k : Int)
    (h : e.1 ≠ k) : leafFind (e :: rest) k = leafFind rest k := by
  show (if e.1 = k then _ else _) = _
  rw [if_neg h]

/-- The lookup in a leaf after the entry at the index `i` was erased. -/
theorem leafFind_eraseIdx (arr : List (Int × Int)) (hasc : Ascending (arr.map Prod.fst))
    (i : Nat) (hi : i < arr.length) (k : Int) :
    leafFind (arr.eraseIdx i) k = if k = (arr[i]).1 then none else leafFind arr k := by
  have hsplit : arr = arr.take i ++ arr[i] :: arr.drop (i + 1) := by
    rw [← List.drop_eq_getElem_cons hi, List.take_append_drop]
  have herase : arr.eraseIdx i = arr.take i ++ arr.drop (i + 1) := by
    rw [List.eraseIdx_eq_take_drop_succ]
  have hasc' := hasc
  unfold Ascending at hasc'
  rw [hsplit, List.map_append, List.map_cons, List.pairwise_append, List.pairwise_cons]
    at hasc'
  obtain ⟨_, ⟨hgt, _⟩, hlt⟩ := hasc'
  rw [herase, leafFind_append]
  by_cases hk : k = (arr[i]).1
  · rw [if_pos hk]
    have h1 : leafFind (arr.take i) k = none :=
      leafFind_none _ _ (fun e he => by
        have := hlt e.1 (List.mem_map_of_mem _ he) (arr[i]).1 (by simp)
        omega)
    have h2 : leafFind (arr.drop (i + 1)) k = none :=
      leafFind_none _ _ (fun e he => by
        have := hgt e.1 (List.mem_map_of_mem _ he)
        omega)
    rw [h1, h2]
  · rw [if_neg hk]
    conv_rhs => rw [hsplit, leafFind_append]
    rw [leafFind_cons_ne _ _ _ (fun h => hk h.symm)]

/-- The call `RemoveKeyAt` on a well-formed leaf for a key of its range: an absent key is
reported, a present one is erased. -/
theorem leaf_RemoveKeyAt_spec (lm : Int) (M : Int → Option Int) (p : LeafPage)
    (lo hi : Option Int) (key : Int) (hok : LeafOK lm M p lo hi) (hlo : loLe lo key)
    (hhi : ltHi key hi) :
    ((p.RemoveKeyAt key).2 = false ∧ M key = none ∧ (p.RemoveKeyAt key).1 = p) ∨
    ((p.RemoveKeyAt key).2 = true ∧
      LeafOK lm (setAt M key none) (p.RemoveKeyAt key).1 lo hi ∧
      ((p.RemoveKeyAt key).1.array_.length : Int) = p.array_.length - 1 ∧
      (p.RemoveKeyAt key).1.max_size_ = p.max_size_) := by
  have hL := leaf_Lookup_eq p key hok.asc
  have hlb := lowerBound_le (p.array_.map Prod.fst) key
  simp only [List.length_map] at hlb
  have hfind := leafFind_eq p.array_ key hok.asc
  rw [hok.map key hlo hhi] at hfind
  by_cases hc : lowerBound (p.array_.map Prod.fst) key < p.array_.length ∧
      (p.array_[lowerBound (p.array_.map Prod.fst) key]?.map Prod.fst) = some key
  · right
    obtain ⟨hlt, hkey⟩ := hc
    rw [List.getElem?_eq_getElem hlt] at hkey
    simp only [Option.map_some', Option.some.injEq] at hkey
    have hcond : p.Lookup key ≥ 0 ∧ p.Lookup key < p.GetSize ∧
        comparator key (p.rawKey (p.Lookup key)) = 0 := by
      refine ⟨by rw [hL]; omega, by rw [hL]; unfold LeafPage.GetSize; omega, ?_⟩
      rw [comparator_eq, leaf_rawKey, hL, Int.toNat_ofNat,
        List.getD_eq_getElem _ _ (by simpa using hlt)]
      simp only [List.getElem_map]
      exact hkey.symm
    have hres : p.RemoveKeyAt key =
        ({ p with array_ := p.array_.eraseIdx (lowerBound (p.array_.map Prod.fst) key) },
          true) := by
      unfold LeafPage.RemoveKeyAt
      simp only [if_pos hcond]
      unfold LeafPage.RemoveAt
      rw [if_pos ⟨hcond.1, hcond.2.1⟩, hL, Int.toNat_ofNat]
    rw [hres]
    have hsub := List.eraseIdx_sublist p.array_ (lowerBound (p.array_.map Prod.fst) key)
    refine ⟨rfl, ?_, ?_, rfl⟩
    · refine { max := hok.max, size := ?_, asc := ?_, lo_le := ?_, lt_hi := ?_, map := ?_ }
      · have := hok.size
        have := List.length_eraseIdx_le p.array_ (lowerBound (p.array_.map Prod.fst) key)
        show ((List.eraseIdx _ _).length : Int) < lm
        omega
      · exact List.Pairwise.sublist (List.Sublist.map _ hsub) hok.asc
      · exact fun e he => hok.lo_le e (hsub.subset he)
      · exact fun e he => hok.lt_hi e (hsub.subset he)
      · intro k h1 h2
        show leafFind (List.eraseIdx _ _) k = _
        rw [leafFind_eraseIdx p.array_ hok.asc _ hlt k, hkey]
        unfold setAt
        by_cases hk : k = key
        · rw [if_pos hk, if_pos hk]
        · rw [if_neg hk, if_neg hk]
          exact hok.map k h1 h2
    · show ((List.eraseIdx _ _).length : Int) = _
      rw [List.length_eraseIdx, if_pos hlt]
      omega
  · left
    have hncond : ¬ (p.Lookup key ≥ 0 ∧ p.Lookup key < p.GetSize ∧
        comparator key (p.rawKey (p.Lookup key)) = 0) := by
      rintro ⟨_, h2, h3⟩
      apply hc
      rw [hL] at h2
      unfold LeafPage.GetSize at h2
      have hlt : lowerBound (p.array_.map Prod.fst) key < p.array_.length := by omega
      refine ⟨hlt, ?_⟩
      rw [comparator_eq, leaf_rawKey, hL, Int.toNat_ofNat,
        List.getD_eq_getElem _ _ (by simpa using hlt)] at h3
      simp only [List.getElem_map] at h3
      rw [List.getElem?_eq_getElem hlt]
      simp only [Option.map_some', Option.some.injEq]
      exact h3.symm
    have hres : p.RemoveKeyAt key = (p, false) := by
      unfold LeafPage.RemoveKeyAt
      simp only [if_neg hncond]
    rw [hres]
    refine ⟨rfl, ?_, rfl⟩
    rw [hfind]
    rw [List.get?_eq_getElem?]
    cases hg : p.array_[lowerBound (p.array_.map Prod.fst) key]? with
    | none => rfl
    | some e =>
      simp only
      have hlt : lowerBound (p.array_.map Prod.fst) key < p.array_.length := by
        by_contra hcon
        rw [List.getElem?_eq_none (by omega)] at hg
        cases hg
      rw [if_neg]
      intro he
      apply hc
      refine ⟨hlt, ?_⟩
      rw [hg]
      simp [he]

/-- The merge branch of `RemoveEntry` on two neighbour leaves that fit into one page. -/
theorem leaf_merge_spec (lm : Int) (M : Int → Option Int) (x y : LeafPage)
    (lox hiy : Option Int) (k : Int) (hx : LeafOK lm M x lox (some k))
    (hy : LeafOK lm M y (some k) hiy) (hlok : loLt lox k) (hkhi : ltHi k hiy)
    (hsz : (x.array_.length : Int) + y.array_.length < lm) :
    ∃ y' x', mergeInto (BPlusTreePage.leaf y) (BPlusTreePage.leaf x) k =
        some (BPlusTreePage.leaf y', BPlusTreePage.leaf x') ∧
      LeafOK lm M x' lox hiy := by
  have hcond : y.GetSize + x.GetSize < y.GetMaxSize := by
    unfold LeafPage.GetSize LeafPage.GetMaxSize
    rw [hy.max]; omega
  refine ⟨{ y with array_ := [] },
    ({ x with array_ := x.array_ ++ y.array_ } : LeafPage).SetNextPageId
      ({ y with array_ := [] } : LeafPage).GetNextPageId, ?_, ?_⟩
  · unfold mergeInto LeafPage.MoveAllTo
    simp only [if_pos hcond, Option.map_some']
  · exact LeafOK_merge lm lm M x y _ lox hiy k hx hy hlok hkhi rfl hx.max hsz

/-- The borrow branch of `RemoveEntry` on leaves, sibling to the right: the first entry of
the sibling moves to the end of the page, the key of the next one goes to the parent. -/
theorem leaf_borrowRight_spec (lm : Int) (M : Int → Option Int) (x y : LeafPage)
    (lox hiy : Option Int) (k : Int) (hx : LeafOK lm M x lox (some k))
    (hy : LeafOK lm M y (some k) hiy) (hlok : loLt lox k) (hkhi : ltHi k hiy)
    (hy2 : 2 ≤ y.array_.length) (hroom : (x.array_.length : Int) + 1 < lm)
    (parent : InternalPage) :
    ∃ k' x' y', borrowFromRight (BPlusTreePage.leaf x) (BPlusTreePage.leaf y) parent k =
        (ReplaceKeyAt parent k k').map
          (fun pp => (BPlusTreePage.leaf x', BPlusTreePage.leaf y', pp)) ∧
      LeafOK lm M x' lox (some k') ∧ LeafOK lm M y' (some k') hiy ∧
      loLt lox k' ∧ ltHi k' hiy := by
  obtain ⟨y0, y1, rest, hyarr⟩ : ∃ y0 y1 rest, y.array_ = y0 :: y1 :: rest := by
    cases hya : y.array_ with
    | nil => rw [hya] at hy2; simp at hy2
    | cons y0 r =>
      cases r with
      | nil => rw [hya] at hy2; simp at hy2
      | cons y1 rest => exact ⟨y0, y1, rest, rfl⟩
  have hz := LeafOK_merge lm ((x.array_.length : Int) + y.array_.length + 1) M x y
    { max_size_ := (x.array_.length : Int) + y.array_.length + 1, next_page_id_ := 0,
      array_ := x.array_ ++ y.array_ } lox hiy k hx hy hlok hkhi rfl rfl (by omega)
  have hm2 : x.array_.length + 1 < (x.array_ ++ y.array_).length := by
    rw [List.length_append]; omega
  have hzm : (x.array_ ++ y.array_)[x.array_.length + 1] = y1 := by
    rw [List.getElem_append_right (by omega)]
    simp [hyarr]
  have htake : (x.array_ ++ y.array_).take (x.array_.length + 1) = x.array_ ++ [y0] := by
    rw [List.take_append_eq_append_take]
    simp [hyarr]
  have hdrop : (x.array_ ++ y.array_).drop (x.array_.length + 1) = y1 :: rest := by
    rw [List.drop_append_eq_append_drop]
    simp [hyarr]
  obtain ⟨hl, hr, h1, h2⟩ := LeafOK_split _ M _ lox hiy hz (x.array_.length + 1) (by omega)
    hm2 { x with array_ := x.array_ ++ [y0],
                 max_size_ := (x.array_.length : Int) + y.array_.length + 1 }
    { y with array_ := y1 :: rest,
             max_size_ := (x.array_.length : Int) + y.array_.length + 1 }
    rfl htake.symm rfl hdrop.symm
  have hzm' : ((x.array_ ++ y.array_)[x.array_.length + 1]).1 = y1.1 := by rw [hzm]
  simp only [hzm'] at hl hr h1 h2
  refine ⟨y1.1, { x with array_ := x.array_ ++ [y0] }, { y with array_ := y1 :: rest }, ?_,
    LeafOK_resize _ lm M _ _ lox _ hl rfl hx.max ?_,
    LeafOK_resize _ lm M _ _ _ hiy hr rfl hy.max ?_, h1, h2⟩
  · unfold borrowFromRight LeafPage.MoveFirstToEndOf
    simp only [hyarr]
    have hk0 : ({ y with array_ := y1 :: rest } : LeafPage).KeyAt 0 = some y1.1 := rfl
    simp only [hk0]
  · show ((x.array_ ++ [y0]).length : Int) < lm
    rw [List.length_append]
    simp only [List.length_singleton]
    push_cast
    omega
  · show ((y1 :: rest).length : Int) < lm
    have := hy.size
    rw [hyarr] at this
    simp only [List.length_cons] at this ⊢
    push_cast at this ⊢
    omega

/-- The borrow branch of `RemoveEntry` on leaves, sibling to the left: the last entry of
the sibling moves to the front of the page, its key goes to the parent. -/
theorem leaf_borrowLeft_spec (lm : Int) (M : Int → Option Int) (x y : LeafPage)
    (lox hiy : Option Int) (k : Int) (hx : LeafOK lm M x lox (some k))
    (hy : LeafOK lm M y (some k) hiy) (hlok : loLt lox k) (hkhi : ltHi k hiy)
    (hx2 : 2 ≤ x.array_.length) (hroom : (y.array_.length : Int) + 1 < lm)
    (parent : InternalPage) :
    ∃ k' y' x', borrowFromLeft (BPlusTreePage.leaf y) (BPlusTreePage.leaf x) parent k =
        (ReplaceKeyAt parent k k').map
          (fun pp => (BPlusTreePage.leaf y', BPlusTreePage.leaf x', pp)) ∧
      LeafOK lm M x' lox (some k') ∧ LeafOK lm M y' (some k') hiy ∧
      loLt lox k' ∧ ltHi k' hiy := by
  have hne : x.array_ ≠ [] := by
    intro h; rw [h] at hx2; simp at hx2
  have hlast : x.array_.length - 1 < x.array_.length := by omega
  have hz := LeafOK_merge lm ((x.array_.length : Int) + y.array_.length + 1) M x y
    { max_size_ := (x.array_.length : Int) + y.array_.length + 1, next_page_id_ := 0,
      array_ := x.array_ ++ y.array_ } lox hiy k hx hy hlok hkhi rfl rfl (by omega)
  have hm2 : x.array_.length - 1 < (x.array_ ++ y.array_).length := by
    rw [List.length_append]; omega
  have hzm : (x.array_ ++ y.array_)[x.array_.length - 1] = x.array_[x.array_.length - 1] := by
    rw [List.getElem_append_left hlast]
  have htake : (x.array_ ++ y.array_).take (x.array_.length - 1) = x.array_.dropLast := by
    rw [List.take_append_of_le_length (by omega), List.dropLast_eq_take]
  have hdrop : (x.array_ ++ y.array_).drop (x.array_.length - 1) =
      x.array_[x.array_.length - 1] :: y.array_ := by
    rw [List.drop_append_of_le_length (by omega), List.drop_eq_getElem_cons hlast]
    have : x.array_.length - 1 + 1 = x.array_.length := by omega
    rw [this, List.drop_length]
    rfl
  obtain ⟨hl, hr, h1, h2⟩ := LeafOK_split _ M _ lox hiy hz (x.array_.length - 1) (by omega)
    hm2 { x with array_ := x.array_.dropLast,
                 max_size_ := (x.array_.length : Int) + y.array_.length + 1 }
    { y with array_ := x.array_[x.array_.length - 1] :: y.array_,
             max_size_ := (x.array_.length : Int) + y.array_.length + 1 }
    rfl htake.symm rfl hdrop.symm
  have hzm' : ((x.array_ ++ y.array_)[x.array_.length - 1]).1 =
      (x.array_[x.array_.length - 1]).1 := by rw [hzm]
  simp only [hzm'] at hl hr h1 h2
  have hm : x.GetSize - 1 = ((x.array_.length - 1 : Nat) : Int) := by
    unfold LeafPage.GetSize; omega
  have hV : x.ValueAt (x.GetSize - 1) = some (x.array_[x.array_.length - 1]).2 := by
    unfold LeafPage.ValueAt
    rw [hm, if_pos (Int.ofNat_nonneg _), Int.toNat_ofNat, List.get?_eq_getElem?,
      List.getElem?_eq_getElem hlast]
    rfl
  have hK : x.KeyAt (x.GetSize - 1) = some (x.array_[x.array_.length - 1]).1 := by
    unfold LeafPage.KeyAt
    rw [hm, if_pos (Int.ofNat_nonneg _), Int.toNat_ofNat, List.get?_eq_getElem?,
      List.getElem?_eq_getElem hlast]
    rfl
  have hR : x.RemoveAt (x.GetSize - 1) = { x with array_ := x.array_.dropLast } := by
    unfold LeafPage.RemoveAt
    rw [if_pos (by rw [hm]; unfold LeafPage.GetSize; omega), hm, Int.toNat_ofNat,
      List.eraseIdx_eq_take_drop_succ, List.dropLast_eq_take]
    have : x.array_.length - 1 + 1 = x.array_.length := by omega
    rw [this, List.drop_length, List.append_nil]
  have hI : (y.Insert (x.array_[x.array_.length - 1]).1 (x.array_[x.array_.length - 1]).2).1 =
      { y with array_ := x.array_[x.array_.length - 1] :: y.array_ } := by
    unfold LeafPage.Insert
    rw [if_pos (by
      unfold LeafPage.GetSize LeafPage.GetMaxSize
      rw [hy.max]; omega)]
    have hL := leaf_Lookup_eq y (x.array_[x.array_.length - 1]).1 hy.asc
    have h0 : lowerBound (y.array_.map Prod.fst) (x.array_[x.array_.length - 1]).1 = 0 := by
      have := lowerBound_append [] (y.array_.map Prod.fst) (x.array_[x.array_.length - 1]).1
        (by simp) (by
          intro kk hkk
          have hmem : kk ∈ y.array_.map Prod.fst := List.mem_of_mem_head? hkk
          obtain ⟨e, he, rfl⟩ := List.mem_map.mp hmem
          have := hy.lo_le e he k rfl
          have := hx.lt_hi _ (List.getElem_mem hlast) k rfl
          omega)
      simpa using this
    simp only [hL, h0]
    rfl
  refine ⟨(x.array_[x.array_.length - 1]).1,
    { y with array_ := x.array_[x.array_.length - 1] :: y.array_ },
    { x with array_ := x.array_.dropLast }, ?_,
    LeafOK_resize _ lm M _ _ lox _ hl rfl hx.max ?_,
    LeafOK_resize _ lm M _ _ _ hiy hr rfl hy.max ?_, h1, h2⟩
  · unfold borrowFromLeft
    simp only [hV, hK, hR, hI]
  · show ((x.array_.dropLast).length : Int) < lm
    have := hx.size
    rw [List.length_dropLast]
    omega
  · show ((x.array_[x.array_.length - 1] :: y.array_).length : Int) < lm
    simp only [List.length_cons]
    push_cast
    omega
theorem exists_init_last {α : Type} (l : List α) (h : l ≠ []) : ∃ l1 e, l = l1 ++ [e] :=
  ⟨l.dropLast, l.getLast h, (List.dropLast_append_getLast h).symm⟩

/-- An entry with a key above all keys of the page is inserted at the end. -/
theorem internal_Insert_end (p : InternalPage) (lo : Option Int) (S : Set Int)
    (P : Int → Option Int → Option Int → Set Int → Prop) (k c : Int)
    (hch : Children P lo p.array_ (some k) S) :
    (p.Insert k c).1.array_ = p.array_ ++ [(k, c)] ∧
      (p.Insert k c).1.max_size_ = p.max_size_ := by
  have hne : p.array_ ≠ [] := by
    intro h; rw [h] at hch; exact hch
  obtain ⟨l1, e, harr⟩ := exists_init_last p.array_ hne
  have hasc := Children_tail_asc _ _ _ _ _ hch
  rw [harr] at hasc
  have hlo : l1 ≠ [] → e.1 < k := by
    intro hl1
    cases l1 with
    | nil => exact absurd rfl hl1
    | cons a l1 =>
      rw [harr] at hch
      have := (Children_keys P (l1 ++ [e]) a lo (some k) S hch).2.2 e (by simp)
      exact this k rfl
  obtain ⟨h1, h2, _⟩ := internal_Insert_eq p l1 e [] k c harr hasc hlo (by simp)
  rw [h1, h2, harr]
  simp

/-- The merge branch of `RemoveEntry` on two neighbour internal pages that fit into one
page: the page of `x` gets the parent key with the first child of `y`, then the other
entries of `y`. -/
theorem internal_merge_spec (pages : Int → Option BPlusTreePage) (lm im : Int)
    (M : Int → Option Int) (h : Nat) (xi yi : Int) (lox hiy : Option Int) (k : Int)
    (Sx Sy : Set Int) (X Y : InternalPage)
    (hsx : Sub pages lm im 1 M (h + 1) xi lox (some k) Sx)
    (hsy : Sub pages lm im 1 M (h + 1) yi (some k) hiy Sy)
    (hd : ∀ q ∈ Sx, q ∉ Sy)
    (hpx : pages xi = some (BPlusTreePage.internal X))
    (hpy : pages yi = some (BPlusTreePage.internal Y))
    (hsz : (X.array_.length : Int) + Y.array_.length ≤ im) :
    ∃ Y' X', mergeInto (BPlusTreePage.internal Y) (BPlusTreePage.internal X) k =
        some (BPlusTreePage.internal Y', BPlusTreePage.internal X') ∧
      ∀ pages' : Int → Option BPlusTreePage,
        pages' xi = some (BPlusTreePage.internal X') →
        (∀ q ∈ Sx ∪ Sy, q ≠ xi → q ≠ yi → pages' q = pages q) →
        Sub pages' lm im 1 M (h + 1) xi lox hiy (Sx ∪ Sy) := by
  obtain ⟨X0, SxC, hpx0, hXmax, hXlen, hXmin, hXch, hxiC, hxi, hSxC⟩ := hsx
  obtain ⟨Y0, SyC, hpy0, hYmax, hYlen, hYmin, hYch, hyiC, hyi, hSyC⟩ := hsy
  rw [hpx] at hpx0
  rw [hpy] at hpy0
  cases hpx0
  cases hpy0
  obtain ⟨y0, ytail, hyarr⟩ : ∃ y0 ytail, Y.array_ = y0 :: ytail := by
    cases hya : Y.array_ with
    | nil => rw [hya] at hYch; exact absurd hYch (by intro h; exact h)
    | cons y0 ytail => exact ⟨y0, ytail, rfl⟩
  obtain ⟨hIa, hIm⟩ := internal_Insert_end X lox SxC _ k y0.2 hXch
  have hV0 : Y.ValueAt 0 = some y0.2 := by
    have := internal_ValueAt_nat Y 0
    rw [hyarr] at this
    exact this
  have hcond : Y.GetSize + (X.Insert k y0.2).1.GetSize - 2 < Y.GetMaxSize ∧ 1 ≤ Y.GetSize := by
    unfold InternalPage.GetSize InternalPage.GetMaxSize
    rw [hIa, hYmax, List.length_append]
    simp only [List.length_singleton]
    push_cast
    omega
  refine ⟨{ Y with array_ := Y.array_.take 1 },
    { (X.Insert k y0.2).1 with array_ := (X.Insert k y0.2).1.array_ ++ Y.array_.drop 1 },
    ?_, ?_⟩
  · unfold mergeInto InternalPage.MoveAllTo
    simp only [hV0, if_pos hcond, Option.map_some']
  · intro pages' hpx' hframe
    have htr : ∀ (c : Int) (lo' hi' : Option Int) (U : Set Int), U ⊆ SxC ∪ SyC →
        Sub pages lm im 1 M h c lo' hi' U → Sub pages' lm im 1 M h c lo' hi' U := by
      intro c lo' hi' U hU hs
      refine Sub_transfer pages pages' _ _ 1 _ _ h c lo' hi' U ?_ (fun _ _ _ => rfl) hs
      intro q hq
      rcases hU hq with h1 | h1
      · exact hframe q (Or.inl (hSxC h1)) (fun e => hxiC (e ▸ h1))
          (fun e => hd q (hSxC h1) (e ▸ hyi))
      · exact hframe q (Or.inr (hSyC h1)) (fun e => hd xi hxi (e ▸ hSyC h1))
          (fun e => hyiC (e ▸ h1))
    obtain ⟨a, l1, hxarr⟩ : ∃ a l1, X.array_ = a :: l1 := by
      cases hxa : X.array_ with
      | nil => rw [hxa] at hXch; exact absurd hXch (by intro h; exact h)
      | cons a l1 => exact ⟨a, l1, rfl⟩
    have hXch' := Children_imp _ (Sub pages' lm im 1 M h) _ _ _ _
      (fun c lo' hi' S0 hS0 _ hc => htr c lo' hi' S0
        (fun q hq => Or.inl (hS0 hq)) hc) hXch
    have hYch' := Children_imp _ (Sub pages' lm im 1 M h) _ _ _ _
      (fun c lo' hi' S0 hS0 _ hc => htr c lo' hi' S0
        (fun q hq => Or.inr (hS0 hq)) hc) hYch
    rw [hyarr] at hYch'
    have hYch2 := Children_head _ y0.1 k y0.2 ytail _ _ _ hYch'
    rw [hxarr] at hXch'
    have hall : Children (Sub pages' lm im 1 M h) lox (a :: l1 ++ (k, y0.2) :: ytail) hiy
        (SxC ∪ SyC) :=
      (Children_append _ l1 a (k, y0.2) ytail lox hiy (SxC ∪ SyC)).mpr
        ⟨SxC, SyC, hXch', hYch2, fun q hq hq' => hd q (hSxC hq) (hSyC hq'),
          Set.subset_union_left, Set.subset_union_right⟩
    refine ⟨_, SxC ∪ SyC, hpx', ?_, ?_, ?_, ?_, ?_, Or.inl hxi, ?_⟩
    · show (X.Insert k y0.2).1.max_size_ = im
      rw [hIm]; exact hXmax
    · show (((X.Insert k y0.2).1.array_ ++ Y.array_.drop 1).length : Int) ≤ im
      rw [hIa, hyarr]
      simp only [List.length_append, List.length_singleton, List.drop_succ_cons,
        List.drop_zero]
      rw [hyarr] at hsz
      simp only [List.length_cons] at hsz
      push_cast at hsz ⊢
      omega
    · show 1 ≤ ((X.Insert k y0.2).1.array_ ++ Y.array_.drop 1).length
      rw [hIa]
      simp only [List.length_append, List.length_singleton]
      omega
    · show Children _ lox ((X.Insert k y0.2).1.array_ ++ Y.array_.drop 1) hiy _
      rw [hIa, hyarr, hxarr]
      simp only [List.drop_succ_cons, List.drop_zero, List.append_assoc,
        List.singleton_append]
      exact hall
    · rintro (hq | hq)
      · exact hxiC hq
      · exact hd xi hxi (hSyC hq)
    · rintro q (hq | hq)
      · exact Or.inl (hSxC hq)
      · exact Or.inr (hSyC hq)

/-- The borrow branch of `RemoveEntry` on internal pages, sibling `y` to the right: the
first child of the sibling moves to the end of the page `x` under the parent key, the key
of the next entry of the sibling goes to the parent. -/
theorem internal_borrowRight_spec (pages : Int → Option BPlusTreePage) (lm im : Int)
    (M : Int → Option Int) (h : Nat) (xi yi : Int) (lox hiy : Option Int) (k : Int)
    (Sx Sy : Set Int) (X Y : InternalPage)
    (hsx : Sub pages lm im 1 M (h + 1) xi lox (some k) Sx)
    (hsy : Sub pages lm im 1 M (h + 1) yi (some k) hiy Sy)
    (hd : ∀ q ∈ Sx, q ∉ Sy) (hlok : loLt lox k)
    (hpx : pages xi = some (BPlusTreePage.internal X))
    (hpy : pages yi = some (BPlusTreePage.internal Y))
    (hy2 : 2 ≤ Y.array_.length) (hroom : (X.array_.length : Int) + 1 ≤ im)
    (parent : InternalPage) :
    ∃ k' X' Y', borrowFromRight (BPlusTreePage.internal X) (BPlusTreePage.internal Y) parent k =
        (ReplaceKeyAt parent k k').map
          (fun pp => (BPlusTreePage.internal X', BPlusTreePage.internal Y', pp)) ∧
      loLt lox k' ∧ ltHi k' hiy ∧
      ∀ pages' : Int → Option BPlusTreePage,
        pages' xi = some (BPlusTreePage.internal X') →
        pages' yi = some (BPlusTreePage.internal Y') →
        (∀ q ∈ Sx ∪ Sy, q ≠ xi → q ≠ yi → pages' q = pages q) →
        ∃ Sx' Sy', Sub pages' lm im 1 M (h + 1) xi lox (some k') Sx' ∧
          Sub pages' lm im 1 M (h + 1) yi (some k') hiy Sy' ∧
          (∀ q ∈ Sx', q ∉ Sy') ∧ Sx' ⊆ Sx ∪ Sy ∧ Sy' ⊆ Sx ∪ Sy := by
  obtain ⟨X0, SxC, hpx0, hXmax, hXlen, hXmin, hXch, hxiC, hxi, hSxC⟩ := hsx
  obtain ⟨Y0, SyC, hpy0, hYmax, hYlen, hYmin, hYch, hyiC, hyi, hSyC⟩ := hsy
  rw [hpx] at hpx0
  rw [hpy] at hpy0
  cases hpx0
  cases hpy0
  obtain ⟨y0, y1, rest, hyarr⟩ : ∃ y0 y1 rest, Y.array_ = y0 :: y1 :: rest := by
    cases hya : Y.array_ with
    | nil => rw [hya] at hy2; simp at hy2
    | cons y0 r =>
      cases r with
      | nil => rw [hya] at hy2; simp at hy2
      | cons y1 rest => exact ⟨y0, y1, rest, rfl⟩
  obtain ⟨hIa, hIm⟩ := internal_Insert_end X lox SxC _ k y0.2 hXch
  rw [hyarr] at hYch
  obtain ⟨S1, S2, hc0, hk1, hcrest, hd12, hS1, hS2⟩ := hYch
  have hV0 : Y.ValueAt (0 : Int) = some y0.2 := by
    have := internal_ValueAt_nat Y 0
    rw [hyarr] at this
    exact this
  have hK1 : Y.KeyAt ((0 : Int) + 1) = some y1.1 := by
    have := internal_KeyAt_nat Y 1
    rw [hyarr] at this
    exact this
  have hY' : (Y.EraseAt 0).SetKeyAt 0 0 = { Y with array_ := (0, y1.2) :: rest } := by
    unfold InternalPage.EraseAt
    rw [if_pos (by unfold InternalPage.GetSize; omega)]
    unfold InternalPage.SetKeyAt
    rw [if_pos (le_refl _)]
    simp only [hyarr]
    rfl
  refine ⟨y1.1, (X.Insert k y0.2).1, { Y with array_ := (0, y1.2) :: rest }, ?_,
    fun l hl => ?_, fun u hu => ?_, ?_⟩
  · unfold borrowFromRight
    simp only [hV0, hK1, hY']
  · have := hlok l hl
    have := hk1 k rfl
    omega
  · exact Children_lo_lt_hi _ _ _ _ _ hcrest y1.1 u rfl hu
  · intro pages' hpx' hpy' hframe
    have htr : ∀ (c : Int) (lo' hi' : Option Int) (U : Set Int), U ⊆ SxC ∪ SyC →
        Sub pages lm im 1 M h c lo' hi' U → Sub pages' lm im 1 M h c lo' hi' U := by
      intro c lo' hi' U hU hs
      refine Sub_transfer pages pages' _ _ 1 _ _ h c lo' hi' U ?_ (fun _ _ _ => rfl) hs
      intro q hq
      rcases hU hq with h1 | h1
      · exact hframe q (Or.inl (hSxC h1)) (fun e => hxiC (e ▸ h1))
          (fun e => hd q (hSxC h1) (e ▸ hyi))
      · exact hframe q (Or.inr (hSyC h1)) (fun e => hd xi hxi (e ▸ hSyC h1))
          (fun e => hyiC (e ▸ h1))
    obtain ⟨a, l1, hxarr⟩ : ∃ a l1, X.array_ = a :: l1 := by
      cases hxa : X.array_ with
      | nil => rw [hxa] at hXch; exact absurd hXch (by intro h; exact h)
      | cons a l1 => exact ⟨a, l1, rfl⟩
    have hXch' := Children_imp _ (Sub pages' lm im 1 M h) _ _ _ _
      (fun c lo' hi' S0 hS0 _ hc => htr c lo' hi' S0
        (fun q hq => Or.inl (hS0 hq)) hc) hXch
    rw [hxarr] at hXch'
    have hc0' := htr _ _ _ S1 (fun q hq => Or.inr (hS1 hq)) hc0
    have hcrest' := Children_imp _ (Sub pages' lm im 1 M h) _ _ _ _
      (fun c lo' hi' S0 hS0 _ hc => htr c lo' hi' S0
        (fun q hq => Or.inr (hS2 (hS0 hq))) hc) hcrest
    have hleft : Children (Sub pages' lm im 1 M h) lox (a :: l1 ++ (k, y0.2) :: [])
        (some y1.1) (SxC ∪ S1) :=
      (Children_append _ l1 a (k, y0.2) [] lox (some y1.1) (SxC ∪ S1)).mpr
        ⟨SxC, S1, hXch', ⟨hc0', fun l u hl hu => by cases hl; cases hu; exact hk1 _ rfl⟩,
          fun q hq hq' => hd q (hSxC hq) (hSyC (hS1 hq')),
          Set.subset_union_left, Set.subset_union_right⟩
    have hright := Children_head _ y1.1 0 y1.2 rest _ _ _ hcrest'
    refine ⟨SxC ∪ S1 ∪ {xi}, S2 ∪ {yi}, ?_, ?_, ?_, ?_, ?_⟩
    · refine ⟨_, SxC ∪ S1, hpx', by rw [hIm]; exact hXmax, ?_, ?_, ?_, ?_, Or.inr rfl,
        Set.subset_union_left⟩
      · rw [hIa, List.length_append]
        simp only [List.length_singleton]
        push_cast
        omega
      · rw [hIa, List.length_append]
        simp only [List.length_singleton]
        omega
      · rw [hIa, hxarr]
        exact hleft
      · rintro (hq | hq)
        · exact hxiC hq
        · exact hd xi hxi (hSyC (hS1 hq))
    · refine ⟨_, S2, hpy', hYmax, ?_, ?_, hright, ?_, Or.inr rfl, Set.subset_union_left⟩
      · show (((0, y1.2) :: rest).length : Int) ≤ im
        rw [hyarr] at hYlen
        simp only [List.length_cons] at hYlen ⊢
        push_cast at hYlen ⊢
        omega
      · show 1 ≤ ((0, y1.2) :: rest).length
        simp only [List.length_cons]
        omega
      · exact fun hq => hyiC (hS2 hq)
    · rintro q ((hq | hq) | hq) (hq' | hq')
      · exact hd q (hSxC hq) (hSyC (hS2 hq'))
      · have e : q = yi := hq'
        exact hd q (hSxC hq) (e ▸ hyi)
      · exact hd12 q hq hq'
      · have e : q = yi := hq'
        exact hyiC (e ▸ hS1 hq)
      · have e : q = xi := hq
        exact hd xi hxi (hSyC (hS2 (e ▸ hq')))
      · have e : q = xi := hq
        have e' : q = yi := hq'
        exact hd xi hxi ((e.symm.trans e') ▸ hyi)
    · rintro q ((hq | hq) | hq)
      · exact Or.inl (hSxC hq)
      · exact Or.inr (hSyC (hS1 hq))
      · have e : q = xi := hq
        exact Or.inl (e ▸ hxi)
    · rintro q (hq | hq)
      · exact Or.inr (hSyC (hS2 hq))
      · have e : q = yi := hq
        exact Or.inr (e ▸ hyi)

/-- The borrow branch of `RemoveEntry` on internal pages, sibling `x` to the left: the last
child of the sibling becomes the first child of the page `y`, whose former first child
gets the parent key; the key of the moved entry goes to the parent. -/
theorem internal_borrowLeft_spec (pages : Int → Option BPlusTreePage) (lm im : Int)
    (M : Int → Option Int) (h : Nat) (xi yi : Int) (lox hiy : Option Int) (k : Int)
    (Sx Sy : Set Int) (X Y : InternalPage)
    (hsx : Sub pages lm im 1 M (h + 1) xi lox (some k) Sx)
    (hsy : Sub pages lm im 1 M (h + 1) yi (some k) hiy Sy)
    (hd : ∀ q ∈ Sx, q ∉ Sy) (hkhi : ltHi k hiy)
    (hpx : pages xi = some (BPlusTreePage.internal X))
    (hpy : pages yi = some (BPlusTreePage.internal Y))
    (hx2 : 2 ≤ X.array_.length) (hroom : (Y.array_.length : Int) + 1 ≤ im)
    (parent : InternalPage) :
    ∃ k' Y' X', borrowFromLeft (BPlusTreePage.internal Y) (BPlusTreePage.internal X) parent k =
        (ReplaceKeyAt parent k k').map
          (fun pp => (BPlusTreePage.internal Y', BPlusTreePage.internal X', pp)) ∧
      loLt lox k' ∧ ltHi k' hiy ∧
      ∀ pages' : Int → Option BPlusTreePage,
        pages' xi = some (BPlusTreePage.internal X') →
        pages' yi = some (BPlusTreePage.internal Y') →
        (∀ q ∈ Sx ∪ Sy, q ≠ xi → q ≠ yi → pages' q = pages q) →
        ∃ Sx' Sy', Sub pages' lm im 1 M (h + 1) xi lox (some k') Sx' ∧
          Sub pages' lm im 1 M (h + 1) yi (some k') hiy Sy' ∧
          (∀ q ∈ Sx', q ∉ Sy') ∧ Sx' ⊆ Sx ∪ Sy ∧ Sy' ⊆ Sx ∪ Sy := by
  obtain ⟨X0, SxC, hpx0, hXmax, hXlen, hXmin, hXch, hxiC, hxi, hSxC⟩ := hsx
  obtain ⟨Y0, SyC, hpy0, hYmax, hYlen, hYmin, hYch, hyiC, hyi, hSyC⟩ := hsy
  rw [hpx] at hpx0
  rw [hpy] at hpy0
  cases hpx0
  cases hpy0
  obtain ⟨y0, ytail, hyarr⟩ : ∃ y0 ytail, Y.array_ = y0 :: ytail := by
    cases hya : Y.array_ with
    | nil => rw [hya] at hYch; exact absurd hYch (by intro h; exact h)
    | cons y0 ytail => exact ⟨y0, ytail, rfl⟩
  obtain ⟨init, last, hxarr⟩ := exists_init_last X.array_ (by
    intro h; rw [h] at hx2; simp at hx2)
  obtain ⟨a, l1, hinit⟩ : ∃ a l1, init = a :: l1 := by
    cases hi : init with
    | nil => rw [hxarr, hi] at hx2; simp at hx2
    | cons a l1 => exact ⟨a, l1, rfl⟩
  have hXch0 := hXch
  rw [hxarr, hinit] at hXch
  obtain ⟨S1, S2, hcinit, hclast, hd12, hS1, hS2⟩ :=
    (Children_append _ l1 a last [] lox (some k) SxC).mp hXch
  obtain ⟨hlastsub, hlastk⟩ := hclast
  have hYkeys := Children_keys _ ytail y0 (some k) hiy SyC (by rw [← hyarr]; exact hYch)
  have hlen : X.array_.length = init.length + 1 := by rw [hxarr]; simp
  have hm : X.GetSize - 1 = ((init.length : Nat) : Int) := by
    unfold InternalPage.GetSize; rw [hlen]; push_cast; omega
  have hV : X.ValueAt (X.GetSize - 1) = some last.2 := by
    rw [hm, internal_ValueAt_nat, hxarr, get?_append_at]; rfl
  have hK : X.KeyAt (X.GetSize - 1) = some last.1 := by
    rw [hm, internal_KeyAt_nat, hxarr, get?_append_at]; rfl
  have hV0 : Y.ValueAt 0 = some y0.2 := by
    have := internal_ValueAt_nat Y 0
    rw [hyarr] at this
    exact this
  have hE : X.EraseAt (X.GetSize - 1) = { X with array_ := init } := by
    unfold InternalPage.EraseAt
    rw [if_pos (by rw [hm]; unfold InternalPage.GetSize; rw [hlen]; push_cast; omega), hm,
      Int.toNat_ofNat, hxarr, List.eraseIdx_append_of_length_le (le_refl _)]
    simp
  have hS : (Y.SetValueAt 0 last.2).array_ = (y0.1, last.2) :: ytail := by
    unfold InternalPage.SetValueAt
    rw [if_pos (le_refl _)]
    simp only [hyarr]
    rfl
  obtain ⟨hIa, hIm, _⟩ := internal_Insert_eq (Y.SetValueAt 0 last.2) [] (y0.1, last.2) ytail
    k y0.2 hS hYkeys.1 (fun hne => absurd rfl hne) (by
      intro e' he'
      have hmem : e' ∈ ytail := List.mem_of_mem_head? he'
      exact hYkeys.2.1 e' hmem k rfl)
  have hSm : (Y.SetValueAt 0 last.2).max_size_ = Y.max_size_ := by
    unfold InternalPage.SetValueAt
    rw [if_pos (le_refl _)]
  refine ⟨last.1, ((Y.SetValueAt 0 last.2).Insert k y0.2).1, { X with array_ := init }, ?_,
    ?_, fun u hu => ?_, ?_⟩
  · unfold borrowFromLeft
    simp only [hV, hK, hV0, hE]
  · rw [hinit] at *
    exact fun l hl => Children_lo_lt_hi _ _ _ _ _ hcinit l last.1 hl rfl
  · have := hlastk last.1 k rfl rfl
    have := hkhi u hu
    omega
  · intro pages' hpx' hpy' hframe
    have htr : ∀ (c : Int) (lo' hi' : Option Int) (U : Set Int), U ⊆ SxC ∪ SyC →
        Sub pages lm im 1 M h c lo' hi' U → Sub pages' lm im 1 M h c lo' hi' U := by
      intro c lo' hi' U hU hs
      refine Sub_transfer pages pages' _ _ 1 _ _ h c lo' hi' U ?_ (fun _ _ _ => rfl) hs
      intro q hq
      rcases hU hq with h1 | h1
      · exact hframe q (Or.inl (hSxC h1)) (fun e => hxiC (e ▸ h1))
          (fun e => hd q (hSxC h1) (e ▸ hyi))
      · exact hframe q (Or.inr (hSyC h1)) (fun e => hd xi hxi (e ▸ hSyC h1))
          (fun e => hyiC (e ▸ h1))
    have hcinit' := Children_imp _ (Sub pages' lm im 1 M h) _ _ _ _
      (fun c lo' hi' S0 hS0 _ hc => htr c lo' hi' S0
        (fun q hq => Or.inl (hS1 (hS0 hq))) hc) hcinit
    have hlast' := htr _ _ _ S2 (fun q hq => Or.inl (hS2 hq)) hlastsub
    rw [hyarr] at hYch
    have hYch' := Children_imp _ (Sub pages' lm im 1 M h) _ _ _ _
      (fun c lo' hi' S0 hS0 _ hc => htr c lo' hi' S0
        (fun q hq => Or.inr (hS0 hq)) hc) hYch
    have hYch2 := Children_head _ y0.1 k y0.2 ytail _ _ _ hYch'
    refine ⟨S1 ∪ {xi}, S2 ∪ SyC ∪ {yi}, ?_, ?_, ?_, ?_, ?_⟩
    · refine ⟨_, S1, hpx', hXmax, ?_, ?_, ?_, fun hq => hxiC (hS1 hq), Or.inr rfl,
        Set.subset_union_left⟩
      · show ((init.length : Nat) : Int) ≤ im
        rw [hlen] at hXlen
        push_cast at hXlen
        omega
      · show 1 ≤ init.length
        rw [hinit]; simp
      · show Children _ lox init (some last.1) S1
        rw [hinit]; exact hcinit'
    · refine ⟨_, S2 ∪ SyC, hpy', by rw [hIm, hSm]; exact hYmax, ?_, ?_, ?_, ?_, Or.inr rfl,
        Set.subset_union_left⟩
      · rw [hIa]
        rw [hyarr] at hroom
        simp only [List.nil_append, List.length_cons] at hroom ⊢
        push_cast at hroom ⊢
        omega
      · rw [hIa]
        simp
      · rw [hIa]
        exact ⟨S2, SyC, hlast', fun l hl => by cases hl; exact hlastk _ _ rfl rfl, hYch2,
          fun q hq hq' => hd q (hSxC (hS2 hq)) (hSyC hq'),
          Set.subset_union_left, Set.subset_union_right⟩
      · rintro (hq | hq)
        · exact hd yi (hSxC (hS2 hq)) hyi
        · exact hyiC hq
    · rintro q (hq | hq) ((hq' | hq') | hq')
      · exact hd12 q hq hq'
      · exact hd q (hSxC (hS1 hq)) (hSyC hq')
      · have e : q = yi := hq'
        exact hd q (hSxC (hS1 hq)) (e ▸ hyi)
      · have e : q = xi := hq
        exact hxiC (e ▸ hS2 hq')
      · have e : q = xi := hq
        exact hd xi hxi (hSyC (e ▸ hq'))
      · have e : q = xi := hq
        have e' : q = yi := hq'
        exact hd xi hxi ((e.symm.trans e') ▸ hyi)
    · rintro q (hq | hq)
      · exact Or.inl (hSxC (hS1 hq))
      · have e : q = xi := hq
        exact Or.inl (e ▸ hxi)
    · rintro q ((hq | hq) | hq)
      · exact Or.inl (hSxC (hS2 hq))
      · exact Or.inr (hSyC hq)
      · have e : q = yi := hq
        exact Or.inr (e ▸ hyi)
/-- The merge branch of `RemoveEntry` on two neighbour subtrees whose root pages fit into
one page: afterwards the page of `x` is the root of a subtree for both ranges. -/
theorem merge_spec (pages : Int → Option BPlusTreePage) (lm im : Int)
    (M : Int → Option Int) (h : Nat) (xi yi : Int) (lox hiy : Option Int) (k : Int)
    (Sx Sy : Set Int) (px py : BPlusTreePage)
    (hsx : Sub pages lm im 1 M h xi lox (some k) Sx)
    (hsy : Sub pages lm im 1 M h yi (some k) hiy Sy)
    (hd : ∀ q ∈ Sx, q ∉ Sy) (hlok : loLt lox k) (hkhi : ltHi k hiy)
    (hpx : pages xi = some px) (hpy : pages yi = some py)
    (hsz : px.GetSize + py.GetSize ≤ 2 * px.GetMinSize - 1) :
    ∃ py' px', mergeInto py px k = some (py', px') ∧
      ∀ pages' : Int → Option BPlusTreePage, pages' xi = some px' →
        (∀ q ∈ Sx ∪ Sy, q ≠ xi → q ≠ yi → pages' q = pages q) →
        Sub pages' lm im 1 M h xi lox hiy (Sx ∪ Sy) := by
  cases h with
  | zero =>
    obtain ⟨X, hpX, hokX, hxi⟩ := hsx
    obtain ⟨Y, hpY, hokY, hyi⟩ := hsy
    rw [hpx] at hpX
    rw [hpy] at hpY
    cases hpX
    cases hpY
    have hsz' : (X.array_.length : Int) + Y.array_.length < lm := by
      have h1 : (BPlusTreePage.leaf X).GetSize = X.array_.length := rfl
      have h2 : (BPlusTreePage.leaf Y).GetSize = Y.array_.length := rfl
      have h3 : (BPlusTreePage.leaf X).GetMinSize = (X.max_size_ - 1 + 1) / 2 := rfl
      rw [h1, h2, h3, hokX.max] at hsz
      omega
    obtain ⟨y', x', hm, hok⟩ := leaf_merge_spec lm M X Y lox hiy k hokX hokY hlok hkhi hsz'
    exact ⟨_, _, hm, fun pages' hpx' _ => ⟨x', hpx', hok, Or.inl hxi⟩⟩
  | succ h =>
    have hsx0 := hsx
    have hsy0 := hsy
    obtain ⟨X, _, hpX, hXmax, _⟩ := hsx
    obtain ⟨Y, _, hpY, _⟩ := hsy
    rw [hpx] at hpX
    rw [hpy] at hpY
    cases hpX
    cases hpY
    have hsz' : (X.array_.length : Int) + Y.array_.length ≤ im := by
      have h1 : (BPlusTreePage.internal X).GetSize = X.array_.length := rfl
      have h2 : (BPlusTreePage.internal Y).GetSize = Y.array_.length := rfl
      have h3 : (BPlusTreePage.internal X).GetMinSize = (X.max_size_ + 1) / 2 := rfl
      rw [h1, h2, h3, hXmax] at hsz
      omega
    obtain ⟨Y', X', hm, hres⟩ := internal_merge_spec pages lm im M h xi yi lox hiy k Sx Sy
      X Y hsx0 hsy0 hd hpx hpy hsz'
    exact ⟨_, _, hm, hres⟩

/-- The borrow branch of `RemoveEntry` for a page `x` below its minimal size and a sibling
`y` to the right that stays at its minimal size: afterwards both pages are roots of
subtrees on the two sides of a new parent key. -/
theorem borrowRight_spec (pages : Int → Option BPlusTreePage) (lm im : Int)
    (M : Int → Option Int) (h : Nat) (xi yi : Int) (lox hiy : Option Int) (k : Int)
    (Sx Sy : Set Int) (px py : BPlusTreePage)
    (hsx : Sub pages lm im 1 M h xi lox (some k) Sx)
    (hsy : Sub pages lm im 1 M h yi (some k) hiy Sy)
    (hd : ∀ q ∈ Sx, q ∉ Sy) (hlok : loLt lox k) (hkhi : ltHi k hiy)
    (hpx : pages xi = some px) (hpy : pages yi = some py)
    (hsib : py.GetSize - 1 ≥ py.GetMinSize) (hbasic : px.GetSize < px.GetMinSize)
    (parent : InternalPage) :
    ∃ k' px' py', borrowFromRight px py parent k =
        (ReplaceKeyAt parent k k').map (fun pp => (px', py', pp)) ∧
      loLt lox k' ∧ ltHi k' hiy ∧
      ∀ pages' : Int → Option BPlusTreePage, pages' xi = some px' → pages' yi = some py' →
        (∀ q ∈ Sx ∪ Sy, q ≠ xi → q ≠ yi → pages' q = pages q) →
        ∃ Sx' Sy', Sub pages' lm im 1 M h xi lox (some k') Sx' ∧
          Sub pages' lm im 1 M h yi (some k') hiy Sy' ∧
          (∀ q ∈ Sx', q ∉ Sy') ∧ Sx' ⊆ Sx ∪ Sy ∧ Sy' ⊆ Sx ∪ Sy := by
  cases h with
  | zero =>
    obtain ⟨X, hpX, hokX, hxi⟩ := hsx
    obtain ⟨Y, hpY, hokY, hyi⟩ := hsy
    rw [hpx] at hpX
    rw [hpy] at hpY
    cases hpX
    cases hpY
    have h1 : (BPlusTreePage.leaf X).GetSize = X.array_.length := rfl
    have h2 : (BPlusTreePage.leaf Y).GetSize = Y.array_.length := rfl
    have h3 : (BPlusTreePage.leaf X).GetMinSize = (X.max_size_ - 1 + 1) / 2 := rfl
    have h4 : (BPlusTreePage.leaf Y).GetMinSize = (Y.max_size_ - 1 + 1) / 2 := rfl
    rw [h1, h3, hokX.max] at hbasic
    rw [h2, h4, hokY.max] at hsib
    obtain ⟨k', x', y', hb, hokx, hoky, hlo', hhi'⟩ :=
      leaf_borrowRight_spec lm M X Y lox hiy k hokX hokY hlok hkhi (by omega) (by omega)
        parent
    exact ⟨k', _, _, hb, hlo', hhi', fun pages' hpx' hpy' _ =>
      ⟨Sx, Sy, ⟨x', hpx', hokx, hxi⟩, ⟨y', hpy', hoky, hyi⟩, hd,
        Set.subset_union_left, Set.subset_union_right⟩⟩
  | succ h =>
    have hsx0 := hsx
    have hsy0 := hsy
    obtain ⟨X, _, hpX, hXmax, _⟩ := hsx
    obtain ⟨Y, _, hpY, hYmax, _⟩ := hsy
    rw [hpx] at hpX
    rw [hpy] at hpY
    cases hpX
    cases hpY
    have h1 : (BPlusTreePage.internal X).GetSize = X.array_.length := rfl
    have h2 : (BPlusTreePage.internal Y).GetSize = Y.array_.length := rfl
    have h3 : (BPlusTreePage.internal X).GetMinSize = (X.max_size_ + 1) / 2 := rfl
    have h4 : (BPlusTreePage.internal Y).GetMinSize = (Y.max_size_ + 1) / 2 := rfl
    rw [h1, h3, hXmax] at hbasic
    rw [h2, h4, hYmax] at hsib
    obtain ⟨k', X', Y', hb, hlo', hhi', hres⟩ :=
      internal_borrowRight_spec pages lm im M h xi yi lox hiy k Sx Sy X Y hsx0 hsy0 hd hlok
        hpx hpy (by omega) (by omega) parent
    exact ⟨k', _, _, hb, hlo', hhi', hres⟩

/-- The borrow branch of `RemoveEntry` for a page `y` below its minimal size and a sibling
`x` to the left that stays at its minimal size. -/
theorem borrowLeft_spec (pages : Int → Option BPlusTreePage) (lm im : Int)
    (M : Int → Option Int) (h : Nat) (xi yi : Int) (lox hiy : Option Int) (k : Int)
    (Sx Sy : Set Int) (px py : BPlusTreePage) (hlm : 3 ≤ lm)
    (hsx : Sub pages lm im 1 M h xi lox (some k) Sx)
    (hsy : Sub pages lm im 1 M h yi (some k) hiy Sy)
    (hd : ∀ q ∈ Sx, q ∉ Sy) (hlok : loLt lox k) (hkhi : ltHi k hiy)
    (hpx : pages xi = some px) (hpy : pages yi = some py)
    (hsib : px.GetSize - 1 ≥ px.GetMinSize) (hbasic : py.GetSize < py.GetMinSize)
    (parent : InternalPage) :
    ∃ k' py' px', borrowFromLeft py px parent k =
        (ReplaceKeyAt parent k k').map (fun pp => (py', px', pp)) ∧
      loLt lox k' ∧ ltHi k' hiy ∧
      ∀ pages' : Int → Option BPlusTreePage, pages' xi = some px' → pages' yi = some py' →
        (∀ q ∈ Sx ∪ Sy, q ≠ xi → q ≠ yi → pages' q = pages q) →
        ∃ Sx' Sy', Sub pages' lm im 1 M h xi lox (some k') Sx' ∧
          Sub pages' lm im 1 M h yi (some k') hiy Sy' ∧
          (∀ q ∈ Sx', q ∉ Sy') ∧ Sx' ⊆ Sx ∪ Sy ∧ Sy' ⊆ Sx ∪ Sy := by
  cases h with
  | zero =>
    obtain ⟨X, hpX, hokX, hxi⟩ := hsx
    obtain ⟨Y, hpY, hokY, hyi⟩ := hsy
    rw [hpx] at hpX
    rw [hpy] at hpY
    cases hpX
    cases hpY
    have h1 : (BPlusTreePage.leaf X).GetSize = X.array_.length := rfl
    have h2 : (BPlusTreePage.leaf Y).GetSize = Y.array_.length := rfl
    have h3 : (BPlusTreePage.leaf X).GetMinSize = (X.max_size_ - 1 + 1) / 2 := rfl
    have h4 : (BPlusTreePage.leaf Y).GetMinSize = (Y.max_size_ - 1 + 1) / 2 := rfl
    rw [h2, h4, hokY.max] at hbasic
    rw [h1, h3, hokX.max] at hsib
    obtain ⟨k', y', x', hb, hokx, hoky, hlo', hhi'⟩ :=
      leaf_borrowLeft_spec lm M X Y lox hiy k hokX hokY hlok hkhi (by omega) (by omega)
        parent
    exact ⟨k', _, _, hb, hlo', hhi', fun pages' hpx' hpy' _ =>
      ⟨Sx, Sy, ⟨x', hpx', hokx, hxi⟩, ⟨y', hpy', hoky, hyi⟩, hd,
        Set.subset_union_left, Set.subset_union_right⟩⟩
  | succ h =>
    have hsx0 := hsx
    have hsy0 := hsy
    obtain ⟨X, _, hpX, hXmax, _⟩ := hsx
    obtain ⟨Y, _, hpY, hYmax, _⟩ := hsy
    rw [hpx] at hpX
    rw [hpy] at hpY
    cases hpX
    cases hpY
    have h1 : (BPlusTreePage.internal X).GetSize = X.array_.length := rfl
    have h2 : (BPlusTreePage.internal Y).GetSize = Y.array_.length := rfl
    have h3 : (BPlusTreePage.internal X).GetMinSize = (X.max_size_ + 1) / 2 := rfl
    have h4 : (BPlusTreePage.internal Y).GetMinSize = (Y.max_size_ + 1) / 2 := rfl
    rw [h2, h4, hYmax] at hbasic
    rw [h1, h3, hXmax] at hsib
    obtain ⟨k', Y', X', hb, hlo', hhi', hres⟩ :=
      internal_borrowLeft_spec pages lm im M h xi yi lox hiy k Sx Sy X Y hsx0 hsy0 hd hkhi
        hpx hpy (by omega) (by omega) parent
    exact ⟨k', _, _, hb, hlo', hhi', hres⟩
/-- `RemoveEntry` on a page that holds the key and is not the root page and keeps its
minimal size: the entry is erased, nothing else happens. -/
theorem RemoveEntryAux_done (fuel : Nat) (t : BPlusTree) (c key : Int) (ctx : Context)
    (ws : List Int) (page0 page1 : BPlusTreePage)
    (hws : ctx.write_set_ = c :: ws) (hp : t.pages c = some page0)
    (hrm : removeKeyFromPage page0 key = (page1, true))
    (hroot : c ≠ ctx.root_page_id_) (hsize : page1.GetSize ≥ page1.GetMinSize) :
    RemoveEntryAux (fuel + 1) t c key ctx = some (t.setPage c page1) := by
  have hpop : ctx.popWrite = some (c, { ctx with write_set_ := ws }) := by
    unfold Context.popWrite
    rw [hws]
  unfold RemoveEntryAux
  simp only [hpop, hp, hrm]
  rw [if_neg (by simp), if_neg (fun h => hroot h.1), if_neg (fun h => hroot h.1), if_pos hsize]

/-- `RemoveEntry` on a page that holds the key, is not the root page and falls below its
minimal size, when the sibling found in the parent page cannot lend an entry: the two pages
are merged and the call recurs on the parent page with the key between the two. -/
theorem RemoveEntryAux_merge (fuel : Nat) (t : BPlusTree) (c key : Int) (ctx : Context)
    (ws0 : List Int) (page0 page1 : BPlusTreePage) (P : Int) (p : InternalPage)
    (sib mid : Int) (psib : BPlusTreePage) (on_right : Bool)
    (basic_page sibling_page : BPlusTreePage)
    (hws : ctx.write_set_ = c :: P :: ws0) (hp : t.pages c = some page0)
    (hrm : removeKeyFromPage page0 key = (page1, true))
    (hroot : c ≠ ctx.root_page_id_) (hsize : page1.GetSize < page1.GetMinSize)
    (hpar : GetParentPageId c { ctx with write_set_ := P :: ws0 } = some P)
    (hP : P ≠ INVALID_PAGE_ID)
    (hpp : (t.setPage c page1).pages P = some (BPlusTreePage.internal p))
    (hsibid : GetSiblingPageId p key = some (sib, mid))
    (hsib : (t.setPage c page1).pages sib = some psib)
    (hright : siblingOnRight p key = some on_right)
    (hcond : psib.GetSize - 1 < psib.GetMinSize)
    (hmerge : mergeInto (if on_right then psib else page1)
      (if on_right then page1 else psib) mid = some (basic_page, sibling_page)) :
    RemoveEntryAux (fuel + 1) t c key ctx =
      (RemoveEntryAux fuel
        (((t.setPage c page1).setPage (if on_right then c else sib) sibling_page).setPage
          (if on_right then sib else c) basic_page)
        P mid { ctx with write_set_ := P :: ws0 }).map
        fun t' => t'.DeletePage (if on_right then sib else c) := by
  have hpop : ctx.popWrite = some (c, { ctx with write_set_ := P :: ws0 }) := by
    unfold Context.popWrite
    rw [hws]
  have hpop2 : ({ ctx with write_set_ := P :: ws0 } : Context).popWrite =
      some (P, { ctx with write_set_ := ws0 }) := rfl
  have hint : (t.setPage c page1).internalAt P = some p := by
    unfold BPlusTree.internalAt
    rw [hpp]; rfl
  conv_lhs => unfold RemoveEntryAux
  simp only [hpop, hp, hrm]
  rw [if_neg (by simp), if_neg (fun h => hroot h.1), if_neg (fun h => hroot h.1),
    if_neg (by omega), if_pos ⟨hroot, hsize⟩]
  simp only [hpar, if_neg hP, hpop2, hint, hsibid, hsib, hright, if_pos hcond]
  cases on_right
  · simp only [Bool.false_eq_true, if_false] at hmerge ⊢
    simp only [hmerge]
  · simp only [if_true] at hmerge ⊢
    simp only [hmerge]

/-- `RemoveEntry` on a page that holds the key, is not the root page and falls below its
minimal size, when the sibling found in the parent page can lend an entry. -/
theorem RemoveEntryAux_borrow (fuel : Nat) (t : BPlusTree) (c key : Int) (ctx : Context)
    (ws0 : List Int) (page0 page1 : BPlusTreePage) (P : Int) (p : InternalPage)
    (sib mid : Int) (psib : BPlusTreePage) (on_right : Bool)
    (basic_page sibling_page : BPlusTreePage) (parent_page : InternalPage)
    (hws : ctx.write_set_ = c :: P :: ws0) (hp : t.pages c = some page0)
    (hrm : removeKeyFromPage page0 key = (page1, true))
    (hroot : c ≠ ctx.root_page_id_) (hsize : page1.GetSize < page1.GetMinSize)
    (hpar : GetParentPageId c { ctx with write_set_ := P :: ws0 } = some P)
    (hP : P ≠ INVALID_PAGE_ID)
    (hpp : (t.setPage c page1).pages P = some (BPlusTreePage.internal p))
    (hsibid : GetSiblingPageId p key = some (sib, mid))
    (hsib : (t.setPage c page1).pages sib = some psib)
    (hright : siblingOnRight p key = some on_right)
    (hcond : ¬ psib.GetSize - 1 < psib.GetMinSize)
    (hborrow : (if on_right then borrowFromRight page1 psib p mid
      else borrowFromLeft page1 psib p mid) = some (basic_page, sibling_page, parent_page)) :
    RemoveEntryAux (fuel + 1) t c key ctx =
      some ((((t.setPage c page1).setPage P (BPlusTreePage.internal parent_page)).setPage
        sib sibling_page).setPage c basic_page) := by
  have hpop : ctx.popWrite = some (c, { ctx with write_set_ := P :: ws0 }) := by
    unfold Context.popWrite
    rw [hws]
  have hpop2 : ({ ctx with write_set_ := P :: ws0 } : Context).popWrite =
      some (P, { ctx with write_set_ := ws0 }) := rfl
  have hint : (t.setPage c page1).internalAt P = some p := by
    unfold BPlusTree.internalAt
    rw [hpp]; rfl
  conv_lhs => unfold RemoveEntryAux
  simp only [hpop, hp, hrm]
  rw [if_neg (by simp), if_neg (fun h => hroot h.1), if_neg (fun h => hroot h.1),
    if_neg (by omega), if_pos ⟨hroot, hsize⟩]
  simp only [hpar, if_neg hP, hpop2, hint, hsibid, hsib, hright, if_neg hcond]
  simp only [hborrow]

/-- `RemoveEntry` erases the last entry of the root page: the tree becomes empty. -/
theorem RemoveEntryAux_root_empty (fuel : Nat) (t : BPlusTree) (c key : Int) (ctx : Context)
    (ws : List Int) (page0 page1 : BPlusTreePage)
    (hws : ctx.write_set_ = c :: ws) (hp : t.pages c = some page0)
    (hrm : removeKeyFromPage page0 key = (page1, true))
    (hroot : c = ctx.root_page_id_) (hh : ctx.header_page_ = true)
    (hsize : page1.GetSize = 0) :
    RemoveEntryAux (fuel + 1) t c key ctx =
      some (({ (t.setPage c page1) with root_page_id_ := INVALID_PAGE_ID } :
        BPlusTree).DeletePage c) := by
  have hpop : ctx.popWrite = some (c, { ctx with write_set_ := ws }) := by
    unfold Context.popWrite
    rw [hws]
  unfold RemoveEntryAux
  simp only [hpop, hp, hrm]
  rw [if_neg (by simp), if_pos ⟨hroot, hsize⟩]
  simp only [SetTreeEmpty, hh, if_true, Option.map_some', ← hroot]

/-- `RemoveEntry` leaves one child in the internal root page: the child becomes the
root. -/
theorem RemoveEntryAux_root_collapse (fuel : Nat) (t : BPlusTree) (c key : Int)
    (ctx : Context) (ws : List Int) (page0 : BPlusTreePage) (q : InternalPage) (child : Int)
    (hws : ctx.write_set_ = c :: ws) (hp : t.pages c = some page0)
    (hrm : removeKeyFromPage page0 key = (BPlusTreePage.internal q, true))
    (hroot : c = ctx.root_page_id_) (hh : ctx.header_page_ = true)
    (hsize : (q.array_.length : Int) = 1) (hchild : q.ValueAt 0 = some child) :
    RemoveEntryAux (fuel + 1) t c key ctx =
      some (({ (t.setPage c (BPlusTreePage.internal q)) with root_page_id_ := child } :
        BPlusTree).DeletePage c) := by
  have hpop : ctx.popWrite = some (c, { ctx with write_set_ := ws }) := by
    unfold Context.popWrite
    rw [hws]
  have hsz : (BPlusTreePage.internal q).GetSize = 1 := hsize
  unfold RemoveEntryAux
  simp only [hpop, hp, hrm]
  rw [if_neg (by simp), if_neg (fun h => by rw [hsz] at h; omega),
    if_pos ⟨hroot, hsz, by simp [BPlusTreePage.IsLeafPage]⟩]
  simp only [BPlusTreePage.asInternal, Option.bind, hchild, SetRootPageId, hh, if_true,
    Option.map_some', ← hroot]

/-- `RemoveEntry` on the root page in the other cases: the entry is erased, nothing else
happens. -/
theorem RemoveEntryAux_root_stay (fuel : Nat) (t : BPlusTree) (c key : Int) (ctx : Context)
    (ws : List Int) (page0 page1 : BPlusTreePage)
    (hws : ctx.write_set_ = c :: ws) (hp : t.pages c = some page0)
    (hrm : removeKeyFromPage page0 key = (page1, true))
    (hroot : c = ctx.root_page_id_) (hsize : page1.GetSize ≠ 0)
    (hsize1 : ¬ (page1.GetSize = 1 ∧ ¬ page1.IsLeafPage)) :
    RemoveEntryAux (fuel + 1) t c key ctx = some (t.setPage c page1) := by
  have hpop : ctx.popWrite = some (c, { ctx with write_set_ := ws }) := by
    unfold Context.popWrite
    rw [hws]
  unfold RemoveEntryAux
  simp only [hpop, hp, hrm]
  rw [if_neg (by simp), if_neg (fun h => hsize h.2),
    if_neg (fun h => hsize1 ⟨h.2.1, h.2.2⟩)]
  by_cases h1 : page1.GetSize ≥ page1.GetMinSize
  · rw [if_pos h1]
  · rw [if_neg h1, if_neg (fun h => h.1 hroot)]

/-- `RemoveEntry` on a page that does not hold the key: nothing happens. -/
theorem RemoveEntryAux_absent (fuel : Nat) (t : BPlusTree) (c key : Int) (ctx : Context)
    (ws : List Int) (page0 page1 : BPlusTreePage)
    (hws : ctx.write_set_ = c :: ws) (hp : t.pages c = some page0)
    (hrm : removeKeyFromPage page0 key = (page1, false)) :
    RemoveEntryAux (fuel + 1) t c key ctx = some (t.setPage c page1) := by
  have hpop : ctx.popWrite = some (c, { ctx with write_set_ := ws }) := by
    unfold Context.popWrite
    rw [hws]
  unfold RemoveEntryAux
  simp only [hpop, hp, hrm]
  rw [if_pos (by simp)]
/-- The two neighbour children `x` and `y` of the page `P` are subtrees again, on the two
sides of the key `k'` that the page now holds for `y`: the removal below `P` is done. -/
theorem Remove_pair_done (t t4 : BPlusTree) (M : Int → Option Int) (key : Int) (a : Option Int)
    (h : Nat) (P : Int) (p p' : InternalPage) (S S' Sx Sy Sx' Sy' : Set Int)
    (m1 : List (Int × Int)) (x y : Int × Int) (m2 : List (Int × Int)) (lo hi : Option Int)
    (k' : Int)
    (hpmax : p.max_size_ = t.internal_max_size_)
    (hplen : (p.array_.length : Int) ≤ t.internal_max_size_)
    (harr : p.array_ = m1 ++ x :: y :: m2)
    (hPS' : P ∉ S') (hPS : P ∈ S) (hS'S : S' ⊆ S) (hSxS' : Sx ⊆ S') (hSyS' : Sy ⊆ S')
    (hSlt : ∀ q ∈ S, q < t.next_page_id_)
    (hrekey : ∀ (pages' : Int → Option BPlusTreePage) (k' : Int) (Sx' Sy' : Set Int),
      (∀ q ∈ S', q ∉ Sx → q ∉ Sy → pages' q = t.pages q) →
      Sub pages' t.leaf_max_size_ t.internal_max_size_ 1 (setAt M key a) h x.2
        (lowKey m1 x lo) (some k') Sx' →
      Sub pages' t.leaf_max_size_ t.internal_max_size_ 1 (setAt M key a) h y.2 (some k')
        (headKey m2 hi) Sy' →
      (∀ q ∈ Sx', q ∉ Sy') → Sx' ⊆ Sx ∪ Sy → Sy' ⊆ Sx ∪ Sy →
      loLt (lowKey m1 x lo) k' → ltHi k' (headKey m2 hi) →
      Children (Sub pages' t.leaf_max_size_ t.internal_max_size_ 1 (setAt M key a) h) lo
        (m1 ++ x :: (k', y.2) :: m2) hi S')
    (hF : Frame t t4 (Sx ∪ Sy ∪ {P})) (hn : t4.next_page_id_ = t.next_page_id_)
    (hp4 : t4.pages P = some (BPlusTreePage.internal p'))
    (hp'arr : p'.array_ = m1 ++ x :: (k', y.2) :: m2) (hp'max : p'.max_size_ = p.max_size_)
    (hx4 : Sub t4.pages t.leaf_max_size_ t.internal_max_size_ 1 (setAt M key a) h x.2
      (lowKey m1 x lo) (some k') Sx')
    (hy4 : Sub t4.pages t.leaf_max_size_ t.internal_max_size_ 1 (setAt M key a) h y.2
      (some k') (headKey m2 hi) Sy')
    (hd' : ∀ q ∈ Sx', q ∉ Sy') (hSx' : Sx' ⊆ Sx ∪ Sy) (hSy' : Sy' ⊆ Sx ∪ Sy)
    (hlok' : loLt (lowKey m1 x lo) k') (hk'hi : ltHi k' (headKey m2 hi)) :
    Removed t t4 (setAt M key a) (h + 1) P lo hi S := by
  have hsub3 : Sx ∪ Sy ∪ {P} ⊆ S := by
    rintro q ((hq | hq) | hq)
    · exact hS'S (hSxS' hq)
    · exact hS'S (hSyS' hq)
    · have e : q = P := hq
      exact e ▸ hPS
  refine ⟨?_, hn, ?_⟩
  · exact { leaf_max := hF.leaf_max, internal_max := hF.internal_max, header := hF.header,
            root := hF.root, next := hF.next,
            pages := fun q hq hlt => hF.pages q (fun hx => hq (hsub3 hx)) hlt }
  · refine ⟨p', S', hp4, hp'max.trans hpmax, ?_, ?_, ?_, hPS', hPS, hS'S⟩
    · rw [hp'arr]
      rw [harr] at hplen
      simp only [List.length_append, List.length_cons] at hplen ⊢
      exact hplen
    · rw [hp'arr]
      simp only [List.length_append, List.length_cons]
      omega
    · rw [hp'arr]
      refine hrekey t4.pages k' Sx' Sy' ?_ hx4 hy4 hd' hSx' hSy' hlok' hk'hi
      intro q hq hqx hqy
      refine hF.pages q ?_ (hSlt q (hS'S hq))
      rintro ((hx | hx) | hx)
      · exact hqx hx
      · exact hqy hx
      · have e : q = P := hx
        exact hPS' (e ▸ hq)

/-- The two neighbour children `x` and `y` of the page `P` were merged into the page of
`x`: `RemoveEntry` is called for `P` with the key of `y`, in a state from which the removal
of that entry makes `P` the root of a subtree again. -/
theorem Remove_pair_merge (t t1 : BPlusTree) (M : Int → Option Int) (key : Int)
    (a : Option Int) (h : Nat) (P : Int) (p : InternalPage) (S S' Sx Sy : Set Int)
    (m1 : List (Int × Int)) (x y : Int × Int) (m2 : List (Int × Int)) (lo hi : Option Int)
    (px' py' : BPlusTreePage)
    (hp : t.pages P = some (BPlusTreePage.internal p))
    (hpmax : p.max_size_ = t.internal_max_size_)
    (hplen : (p.array_.length : Int) ≤ t.internal_max_size_)
    (harr : p.array_ = m1 ++ x :: y :: m2)
    (hasc : Ascending ((m1 ++ x :: y :: m2).tail.map Prod.fst))
    (hPS' : P ∉ S') (hPS : P ∈ S) (hS'S : S' ⊆ S) (hSxS' : Sx ⊆ S') (hSyS' : Sy ⊆ S')
    (hxin : x.2 ∈ Sx) (hyin : y.2 ∈ Sy) (hdxy : ∀ q ∈ Sx, q ∉ Sy)
    (hSlt : ∀ q ∈ S, q < t.next_page_id_)
    (hloy : loLe lo y.1) (hyhi : ltHi y.1 hi)
    (hmergec : ∀ (pages' : Int → Option BPlusTreePage) (Sx' : Set Int),
      (∀ q ∈ S', q ∉ Sx → q ∉ Sy → pages' q = t.pages q) →
      Sub pages' t.leaf_max_size_ t.internal_max_size_ 1 (setAt M key a) h x.2
        (lowKey m1 x lo) (headKey m2 hi) Sx' →
      Sx' ⊆ Sx ∪ Sy →
      Children (Sub pages' t.leaf_max_size_ t.internal_max_size_ 1 (setAt M key a) h) lo
        (m1 ++ x :: m2) hi S')
    (hF : Frame t t1 (Sx ∪ Sy)) (hn : t1.next_page_id_ = t.next_page_id_)
    (hres : ∀ pages' : Int → Option BPlusTreePage, pages' x.2 = some px' →
      (∀ q ∈ Sx ∪ Sy, q ≠ x.2 → q ≠ y.2 → pages' q = t1.pages q) →
      Sub pages' t.leaf_max_size_ t.internal_max_size_ 1 (setAt M key a) h x.2
        (lowKey m1 x lo) (headKey m2 hi) (Sx ∪ Sy)) :
    PendingErase t ((t1.setPage x.2 px').setPage y.2 py') (setAt M key a) (h + 1) P y.1
      lo hi S := by
  have hxS : x.2 ∈ S' := hSxS' hxin
  have hyS : y.2 ∈ S' := hSyS' hyin
  have hPx : P ≠ x.2 := fun e => hPS' (e ▸ hxS)
  have hPy : P ≠ y.2 := fun e => hPS' (e ▸ hyS)
  have hPxy : P ∉ Sx ∪ Sy := by
    rintro (hq | hq)
    · exact hPS' (hSxS' hq)
    · exact hPS' (hSyS' hq)
  obtain ⟨hr1, hr2, hr3⟩ := internal_RemoveKeyAt_eq p m1 x y m2 harr hasc
  refine ⟨?_, hn, hloy, hyhi, BPlusTreePage.internal p, BPlusTreePage.internal
    (p.RemoveKeyAt y.1).1, BPlusTreePage.internal p, ?_, hp, ?_, ?_, ?_, ?_⟩
  · exact { leaf_max := hF.leaf_max, internal_max := hF.internal_max, header := hF.header,
            root := hF.root, next := hF.next,
            pages := fun q hq hlt => by
              show (if q = y.2 then _ else (if q = x.2 then _ else _)) = _
              rw [if_neg (fun (e : q = y.2) => hq (e ▸ hS'S hyS)),
                if_neg (fun (e : q = x.2) => hq (e ▸ hS'S hxS))]
              refine hF.pages q ?_ hlt
              rintro (hx | hx)
              · exact hq (hS'S (hSxS' hx))
              · exact hq (hS'S (hSyS' hx)) }
  · show (if P = y.2 then _ else (if P = x.2 then _ else _)) = _
    rw [if_neg hPy, if_neg hPx, hF.pages P hPxy (hSlt P hPS), hp]
  · unfold removeKeyFromPage
    simp only [hr1]
  · show ((p.RemoveKeyAt y.1).1.array_.length : Int) = (p.array_.length : Int) - 1
    rw [hr2, harr]
    simp only [List.length_append, List.length_cons]
    push_cast
    omega
  · show ((p.RemoveKeyAt y.1).1.max_size_ + 1) / 2 = (p.max_size_ + 1) / 2
    rw [hr3]
  · have hpg : ∀ q, q ≠ P → q ≠ x.2 → q ≠ y.2 →
        (((t1.setPage x.2 px').setPage y.2 py').setPage P
          (BPlusTreePage.internal (p.RemoveKeyAt y.1).1)).pages q = t1.pages q := by
      intro q h1 h2 h3
      show (if q = P then _ else (if q = y.2 then _ else (if q = x.2 then _ else _))) = _
      rw [if_neg h1, if_neg h3, if_neg h2]
    refine ⟨(p.RemoveKeyAt y.1).1, S', ?_, hr3.trans hpmax, ?_, ?_, ?_, hPS', hPS, hS'S⟩
    · show (if P = P then _ else _) = _
      rw [if_pos rfl]
    · rw [hr2]
      rw [harr] at hplen
      simp only [List.length_append, List.length_cons] at hplen ⊢
      push_cast at hplen ⊢
      omega
    · rw [hr2]
      simp only [List.length_append, List.length_cons]
      omega
    · rw [hr2]
      refine hmergec _ (Sx ∪ Sy) ?_ (hres _ ?_ ?_) (fun q hq => hq)
      · intro q hq hqx hqy
        rw [hpg q (fun e => hPS' (e ▸ hq)) (fun e => hqx (e ▸ hxin))
          (fun e => hqy (e ▸ hyin))]
        refine hF.pages q ?_ (hSlt q (hS'S hq))
        rintro (hx | hx)
        · exact hqx hx
        · exact hqy hx
      · show (if x.2 = P then _ else (if x.2 = y.2 then _ else (if x.2 = x.2 then _ else _)))
          = _
        rw [if_neg (fun e => hPx e.symm),
          if_neg (fun (e : x.2 = y.2) => hdxy x.2 hxin (e ▸ hyin)),
          if_pos rfl]
      · intro q hq h2 h3
        exact hpg q (fun e => hPxy (e ▸ hq)) h2 h3
theorem Sub_minsize_eq (pages pages' : Int → Option BPlusTreePage) (lm im : Int)
    (mc mc' : Nat) (M M' : Int → Option Int) (h : Nat) (c c' : Int)
    (lo hi lo' hi' : Option Int) (S S' : Set Int) (pg pg' : BPlusTreePage)
    (hs : Sub pages lm im mc M h c lo hi S) (hs' : Sub pages' lm im mc' M' h c' lo' hi' S')
    (hp : pages c = some pg) (hp' : pages' c' = some pg') :
    pg.GetMinSize = pg'.GetMinSize := by
  cases h with
  | zero =>
    obtain ⟨X, hX, hokX, _⟩ := hs
    obtain ⟨Y, hY, hokY, _⟩ := hs'
    rw [hp] at hX
    rw [hp'] at hY
    cases hX
    cases hY
    show (X.max_size_ - 1 + 1) / 2 = (Y.max_size_ - 1 + 1) / 2
    rw [hokX.max, hokY.max]
  | succ h =>
    obtain ⟨X, _, hX, hXm, _⟩ := hs
    obtain ⟨Y, _, hY, hYm, _⟩ := hs'
    rw [hp] at hX
    rw [hp'] at hY
    cases hX
    cases hY
    show (X.max_size_ + 1) / 2 = (Y.max_size_ + 1) / 2
    rw [hXm, hYm]

/-- The rebalancing of two neighbour children `x` and `y` of the page `P`, one of which
fell below its minimal size, by the merge branch or by one of the borrow branches of
`RemoveEntry`. -/
theorem Remove_rebalance_core (t t1 : BPlusTree) (M : Int → Option Int) (key : Int)
    (a : Option Int) (h : Nat) (P : Int) (p : InternalPage) (S S' Sx Sy : Set Int)
    (m1 : List (Int × Int)) (x y : Int × Int) (m2 : List (Int × Int)) (lo hi : Option Int)
    (px py : BPlusTreePage) (hlm : 3 ≤ t.leaf_max_size_)
    (hp : t.pages P = some (BPlusTreePage.internal p))
    (hpmax : p.max_size_ = t.internal_max_size_)
    (hplen : (p.array_.length : Int) ≤ t.internal_max_size_)
    (harr : p.array_ = m1 ++ x :: y :: m2)
    (hasc : Ascending ((m1 ++ x :: y :: m2).tail.map Prod.fst))
    (hPS' : P ∉ S') (hPS : P ∈ S) (hS'S : S' ⊆ S) (hSxS' : Sx ⊆ S') (hSyS' : Sy ⊆ S')
    (hdxy : ∀ q ∈ Sx, q ∉ Sy)
    (hSlt : ∀ q ∈ S, q < t.next_page_id_)
    (hlomid : loLt (lowKey m1 x lo) y.1) (hmidhi : ltHi y.1 (headKey m2 hi))
    (hloy : loLe lo y.1) (hyhi : ltHi y.1 hi)
    (hrekey : ∀ (pages' : Int → Option BPlusTreePage) (k' : Int) (Sx' Sy' : Set Int),
      (∀ q ∈ S', q ∉ Sx → q ∉ Sy → pages' q = t.pages q) →
      Sub pages' t.leaf_max_size_ t.internal_max_size_ 1 (setAt M key a) h x.2
        (lowKey m1 x lo) (some k') Sx' →
      Sub pages' t.leaf_max_size_ t.internal_max_size_ 1 (setAt M key a) h y.2 (some k')
        (headKey m2 hi) Sy' →
      (∀ q ∈ Sx', q ∉ Sy') → Sx' ⊆ Sx ∪ Sy → Sy' ⊆ Sx ∪ Sy →
      loLt (lowKey m1 x lo) k' → ltHi k' (headKey m2 hi) →
      Children (Sub pages' t.leaf_max_size_ t.internal_max_size_ 1 (setAt M key a) h) lo
        (m1 ++ x :: (k', y.2) :: m2) hi S')
    (hmergec : ∀ (pages' : Int → Option BPlusTreePage) (Sx' : Set Int),
      (∀ q ∈ S', q ∉ Sx → q ∉ Sy → pages' q = t.pages q) →
      Sub pages' t.leaf_max_size_ t.internal_max_size_ 1 (setAt M key a) h x.2
        (lowKey m1 x lo) (headKey m2 hi) Sx' →
      Sx' ⊆ Sx ∪ Sy →
      Children (Sub pages' t.leaf_max_size_ t.internal_max_size_ 1 (setAt M key a) h) lo
        (m1 ++ x :: m2) hi S')
    (hF : Frame t t1 (Sx ∪ Sy)) (hn : t1.next_page_id_ = t.next_page_id_)
    (hx1 : Sub t1.pages t.leaf_max_size_ t.internal_max_size_ 1 (setAt M key a) h x.2
      (lowKey m1 x lo) (some y.1) Sx)
    (hy1 : Sub t1.pages t.leaf_max_size_ t.internal_max_size_ 1 (setAt M key a) h y.2
      (some y.1) (headKey m2 hi) Sy)
    (hpx : t1.pages x.2 = some px) (hpy : t1.pages y.2 = some py) :
    (px.GetSize + py.GetSize ≤ 2 * px.GetMinSize - 1 →
      ∃ py' px', mergeInto py px y.1 = some (py', px') ∧
        PendingErase t ((t1.setPage x.2 px').setPage y.2 py') (setAt M key a) (h + 1) P y.1
          lo hi S) ∧
    (py.GetSize - 1 ≥ py.GetMinSize → px.GetSize < px.GetMinSize →
      ∃ bx by' pp, borrowFromRight px py p y.1 = some (bx, by', pp) ∧
        Removed t
          (((t1.setPage P (BPlusTreePage.internal pp)).setPage y.2 by').setPage x.2 bx)
          (setAt M key a) (h + 1) P lo hi S) ∧
    (px.GetSize - 1 ≥ px.GetMinSize → py.GetSize < py.GetMinSize →
      ∃ bx by' pp, borrowFromLeft py px p y.1 = some (by', bx, pp) ∧
        Removed t
          (((t1.setPage P (BPlusTreePage.internal pp)).setPage x.2 bx).setPage y.2 by')
          (setAt M key a) (h + 1) P lo hi S) := by
  have hxin : x.2 ∈ Sx := Sub_mem _ _ _ _ _ _ _ _ _ _ hx1
  have hyin : y.2 ∈ Sy := Sub_mem _ _ _ _ _ _ _ _ _ _ hy1
  have hxS : x.2 ∈ S' := hSxS' hxin
  have hyS : y.2 ∈ S' := hSyS' hyin
  have hPx : P ≠ x.2 := fun e => hPS' (e ▸ hxS)
  have hPy : P ≠ y.2 := fun e => hPS' (e ▸ hyS)
  have hxy : x.2 ≠ y.2 := fun e => hdxy x.2 hxin (e ▸ hyin)
  have hPxy : P ∉ Sx ∪ Sy := by
    rintro (hq | hq)
    · exact hPS' (hSxS' hq)
    · exact hPS' (hSyS' hq)
  have hlok : loLt (lowKey m1 x lo) y.1 := hlomid
  -- the frame of a tree that differs from `t1` in the pages of `x`, `y` and `P`
  have hF4 : ∀ t4 : BPlusTree, t4.leaf_max_size_ = t1.leaf_max_size_ →
      t4.internal_max_size_ = t1.internal_max_size_ →
      t4.header_page_id_ = t1.header_page_id_ → t4.root_page_id_ = t1.root_page_id_ →
      t4.next_page_id_ = t1.next_page_id_ →
      (∀ q, q ≠ P → q ≠ x.2 → q ≠ y.2 → t4.pages q = t1.pages q) →
      Frame t t4 (Sx ∪ Sy ∪ {P}) := by
    intro t4 h1 h2 h3 h4 h5 h6
    exact { leaf_max := h1.trans hF.leaf_max, internal_max := h2.trans hF.internal_max,
            header := h3.trans hF.header, root := h4.trans hF.root,
            next := by rw [h5]; exact hF.next,
            pages := fun q hq hlt => by
              rw [h6 q (fun e => hq (Or.inr e)) (fun e => hq (Or.inl (Or.inl (e ▸ hxin))))
                (fun e => hq (Or.inl (Or.inr (e ▸ hyin))))]
              exact hF.pages q (fun hx => hq (Or.inl hx)) hlt }
  have hpp0 : ∀ k', ReplaceKeyAt p y.1 k' =
      some { max_size_ := p.max_size_, array_ := m1 ++ x :: (k', y.2) :: m2 } :=
    fun k' => ReplaceKeyAt_eq p m1 x y m2 harr hasc k'
  refine ⟨?_, ?_, ?_⟩
  · intro hsz
    obtain ⟨py', px', hm, hres⟩ := merge_spec t1.pages _ _ _ h x.2 y.2 _ _ y.1 Sx Sy px py
      hx1 hy1 hdxy hlomid hmidhi hpx hpy hsz
    exact ⟨py', px', hm, Remove_pair_merge t t1 M key a h P p S S' Sx Sy m1 x y m2 lo hi
      px' py' hp hpmax hplen harr hasc hPS' hPS hS'S hSxS' hSyS' hxin hyin hdxy hSlt hloy
      hyhi hmergec hF hn hres⟩
  · intro hsib hbasic
    obtain ⟨k', bx, by', hb, hlok', hk'hi, hres⟩ := borrowRight_spec t1.pages _ _ _ h x.2 y.2
      _ _ y.1 Sx Sy px py hx1 hy1 hdxy hlomid hmidhi hpx hpy hsib hbasic p
    rw [hpp0 k', Option.map_some'] at hb
    refine ⟨bx, by', _, hb, ?_⟩
    have hpg : ∀ q, q ≠ P → q ≠ x.2 → q ≠ y.2 →
        (((t1.setPage P (BPlusTreePage.internal
          { max_size_ := p.max_size_, array_ := m1 ++ x :: (k', y.2) :: m2 })).setPage y.2
          by').setPage x.2 bx).pages q = t1.pages q := by
      intro q h1 h2 h3
      show (if q = x.2 then _ else (if q = y.2 then _ else (if q = P then _ else _))) = _
      rw [if_neg h2, if_neg h3, if_neg h1]
    obtain ⟨Sx', Sy', hx4, hy4, hd', hSx', hSy'⟩ := hres
      (((t1.setPage P (BPlusTreePage.internal
          { max_size_ := p.max_size_, array_ := m1 ++ x :: (k', y.2) :: m2 })).setPage y.2
          by').setPage x.2 bx).pages
      (by
        show (if x.2 = x.2 then _ else _) = _
        rw [if_pos rfl])
      (by
        show (if y.2 = x.2 then _ else (if y.2 = y.2 then _ else _)) = _
        rw [if_neg (fun e => hxy e.symm), if_pos rfl])
      (fun q hq h2 h3 => hpg q (fun e => hPxy (e ▸ hq)) h2 h3)
    exact Remove_pair_done t _ M key a h P p
      { max_size_ := p.max_size_, array_ := m1 ++ x :: (k', y.2) :: m2 }
      S S' Sx Sy Sx' Sy' m1 x y m2 lo hi k' hpmax
      hplen harr hPS' hPS hS'S hSxS' hSyS' hSlt hrekey
      (hF4 _ rfl rfl rfl rfl rfl hpg) hn
      (by
        show (if P = x.2 then _ else (if P = y.2 then _ else (if P = P then _ else _))) = _
        rw [if_neg hPx, if_neg hPy, if_pos rfl])
      rfl rfl hx4 hy4 hd' hSx' hSy' hlok' hk'hi
  · intro hsib hbasic
    obtain ⟨k', by', bx, hb, hlok', hk'hi, hres⟩ := borrowLeft_spec t1.pages _ _ _ h x.2 y.2
      _ _ y.1 Sx Sy px py hlm hx1 hy1 hdxy hlomid hmidhi hpx hpy hsib hbasic p
    rw [hpp0 k', Option.map_some'] at hb
    refine ⟨bx, by', _, hb, ?_⟩
    have hpg : ∀ q, q ≠ P → q ≠ x.2 → q ≠ y.2 →
        (((t1.setPage P (BPlusTreePage.internal
          { max_size_ := p.max_size_, array_ := m1 ++ x :: (k', y.2) :: m2 })).setPage x.2
          bx).setPage y.2 by').pages q = t1.pages q := by
      intro q h1 h2 h3
      show (if q = y.2 then _ else (if q = x.2 then _ else (if q = P then _ else _))) = _
      rw [if_neg h3, if_neg h2, if_neg h1]
    obtain ⟨Sx', Sy', hx4, hy4, hd', hSx', hSy'⟩ := hres
      (((t1.setPage P (BPlusTreePage.internal
          { max_size_ := p.max_size_, array_ := m1 ++ x :: (k', y.2) :: m2 })).setPage x.2
          bx).setPage y.2 by').pages
      (by
        show (if x.2 = y.2 then _ else (if x.2 = x.2 then _ else _)) = _
        rw [if_neg hxy, if_pos rfl])
      (by
        show (if y.2 = y.2 then _ else _) = _
        rw [if_pos rfl])
      (fun q hq h2 h3 => hpg q (fun e => hPxy (e ▸ hq)) h2 h3)
    exact Remove_pair_done t _ M key a h P p
      { max_size_ := p.max_size_, array_ := m1 ++ x :: (k', y.2) :: m2 }
      S S' Sx Sy Sx' Sy' m1 x y m2 lo hi k' hpmax
      hplen harr hPS' hPS hS'S hSxS' hSyS' hSlt hrekey
      (hF4 _ rfl rfl rfl rfl rfl hpg) hn
      (by
        show (if P = y.2 then _ else (if P = x.2 then _ else (if P = P then _ else _))) = _
        rw [if_neg hPy, if_neg hPx, if_pos rfl])
      rfl rfl hx4 hy4 hd' hSx' hSy' hlok' hk'hi
theorem OnlyDeleted_DeletePage (id : Int) : OnlyDeleted (fun t => t.DeletePage id) :=
  fun t => ⟨id :: t.deleted, rfl⟩

theorem OnlyDeleted_comp (f g : BPlusTree → BPlusTree) (hf : OnlyDeleted f)
    (hg : OnlyDeleted g) : OnlyDeleted (fun t => f (g t)) := by
  intro t
  obtain ⟨d1, h1⟩ := hg t
  obtain ⟨d2, h2⟩ := hf (g t)
  exact ⟨d2, by show f (g t) = _; rw [h2, h1]⟩

theorem Sub_page (pages : Int → Option BPlusTreePage) (lm im : Int) (mc : Nat)
    (M : Int → Option Int) (h : Nat) (c : Int) (lo hi : Option Int) (S : Set Int)
    (hs : Sub pages lm im mc M h c lo hi S) : ∃ pg, pages c = some pg := by
  cases h with
  | zero => obtain ⟨q, hq, _⟩ := hs; exact ⟨_, hq⟩
  | succ h => obtain ⟨q, _, hq, _⟩ := hs; exact ⟨_, hq⟩

/-- The sibling of the child a key belongs to is a subtree also after pages outside of
it changed and the map changed at the key. -/
theorem Sub_sibling (pages pages' : Int → Option BPlusTreePage) (lm im : Int)
    (M : Int → Option Int) (h : Nat) (s : Int) (lo hi : Option Int) (S : Set Int)
    (key : Int) (a : Option Int) (hpg : ∀ q ∈ S, pages' q = pages q)
    (hout : ¬ (loLe lo key ∧ ltHi key hi))
    (hs : Sub pages lm im 2 M h s lo hi S) :
    Sub pages' lm im 1 (setAt M key a) h s lo hi S := by
  apply Sub_weaken pages' lm im 2 1 (by decide)
  apply Sub_transfer pages pages' lm im 2 M _ h s lo hi S hpg _ hs
  intro k h1 h2
  unfold setAt
  rw [if_neg]
  intro hk
  subst hk
  exact hout ⟨h1, h2⟩

/-- `RemoveEntry` for the first child `x` of the page `P`, fallen below its minimal size:
with the sibling `y` to its right it is merged, and `RemoveEntry` is called for `P`, or it
borrows an entry, and the removal below `P` is done. -/
theorem Remove_step_first (t tp : BPlusTree) (M : Int → Option Int) (key key' : Int)
    (h : Nat) (P : Int) (p : InternalPage) (S S' Sx Sy : Set Int)
    (x y : Int × Int) (m2 : List (Int × Int)) (lo hi : Option Int)
    (cp : BPlusTreePage) (ctx : Context) (ws0 : List Int) (fuel : Nat)
    (hlm : 3 ≤ t.leaf_max_size_)
    (hp : t.pages P = some (BPlusTreePage.internal p))
    (hpmax : p.max_size_ = t.internal_max_size_)
    (hplen : (p.array_.length : Int) ≤ t.internal_max_size_)
    (harr : p.array_ = [] ++ x :: y :: m2)
    (hasc : Ascending (([] ++ x :: y :: m2).tail.map Prod.fst))
    (hPS' : P ∉ S') (hPS : P ∈ S) (hS'S : S' ⊆ S) (hSxS' : Sx ⊆ S') (hSyS' : Sy ⊆ S')
    (hdxy : ∀ q ∈ Sx, q ∉ Sy)
    (hSlt : ∀ q ∈ S, q < t.next_page_id_) (hSnn : ∀ q ∈ S, 0 ≤ q)
    (hlomid : loLt (lowKey [] x lo) y.1) (hmidhi : ltHi y.1 (headKey m2 hi))
    (hloy : loLe lo y.1) (hyhi : ltHi y.1 hi)
    (hrekey : ∀ (pages' : Int → Option BPlusTreePage) (k' : Int) (Sx' Sy' : Set Int),
      (∀ q ∈ S', q ∉ Sx → q ∉ Sy → pages' q = t.pages q) →
      Sub pages' t.leaf_max_size_ t.internal_max_size_ 1 (setAt M key none) h x.2
        (lowKey [] x lo) (some k') Sx' →
      Sub pages' t.leaf_max_size_ t.internal_max_size_ 1 (setAt M key none) h y.2 (some k')
        (headKey m2 hi) Sy' →
      (∀ q ∈ Sx', q ∉ Sy') → Sx' ⊆ Sx ∪ Sy → Sy' ⊆ Sx ∪ Sy →
      loLt (lowKey [] x lo) k' → ltHi k' (headKey m2 hi) →
      Children (Sub pages' t.leaf_max_size_ t.internal_max_size_ 1 (setAt M key none) h) lo
        ([] ++ x :: (k', y.2) :: m2) hi S')
    (hmergec : ∀ (pages' : Int → Option BPlusTreePage) (Sx' : Set Int),
      (∀ q ∈ S', q ∉ Sx → q ∉ Sy → pages' q = t.pages q) →
      Sub pages' t.leaf_max_size_ t.internal_max_size_ 1 (setAt M key none) h x.2
        (lowKey [] x lo) (headKey m2 hi) Sx' →
      Sx' ⊆ Sx ∪ Sy →
      Children (Sub pages' t.leaf_max_size_ t.internal_max_size_ 1 (setAt M key none) h) lo
        ([] ++ x :: m2) hi S')
    (hsuby : Sub t.pages t.leaf_max_size_ t.internal_max_size_ 2 M h y.2 (some y.1)
      (headKey m2 hi) Sy)
    (hkey : key < y.1)
    (hpend : PendingErase t tp (setAt M key none) h x.2 key' (lowKey [] x lo) (some y.1) Sx)
    (hcp : t.pages x.2 = some cp) (hnotsafe : ¬ (cp.GetSize - 1 ≥ cp.GetMinSize))
    (hws : ctx.write_set_ = x.2 :: P :: ws0) (hroot : x.2 ≠ ctx.root_page_id_)
    (hpar : GetParentPageId x.2 { ctx with write_set_ := P :: ws0 } = some P) :
    (∃ t', RemoveEntryAux (fuel + 1) tp x.2 key' ctx = some t' ∧
        Removed t t' (setAt M key none) (h + 1) P lo hi S) ∨
      (∃ f t3, OnlyDeleted f ∧
        RemoveEntryAux (fuel + 1) tp x.2 key' ctx =
          (RemoveEntryAux fuel t3 P y.1 { ctx with write_set_ := P :: ws0 }).map f ∧
        PendingErase t t3 (setAt M key none) (h + 1) P y.1 lo hi S) := by
  obtain ⟨hF, hn, hlo', hhi', page0, page1, pageOrig, hp0, hporig, hrm, hsz, hmin, hsub1⟩ :=
    hpend
  rw [hcp] at hporig
  cases hporig
  have hxin : x.2 ∈ Sx := Sub_mem _ _ _ _ _ _ _ _ _ _ hsub1
  have hyin : y.2 ∈ Sy := Sub_mem _ _ _ _ _ _ _ _ _ _ hsuby
  have hxy : x.2 ≠ y.2 := fun e => hdxy x.2 hxin (e ▸ hyin)
  have hPx : P ≠ x.2 := fun e => hPS' (e ▸ hSxS' hxin)
  have hPSx : P ∉ Sx := fun hq => hPS' (hSxS' hq)
  have hF1 : Frame t (tp.setPage x.2 page1) (Sx ∪ Sy) :=
    { leaf_max := hF.leaf_max, internal_max := hF.internal_max, header := hF.header,
      root := hF.root, next := hF.next,
      pages := fun q hq hlt => by
        show (if q = x.2 then _ else _) = _
        rw [if_neg (fun (e : q = x.2) => hq (Or.inl (e ▸ hxin)))]
        exact hF.pages q (fun hx => hq (Or.inl hx)) hlt }
  have hpgy : ∀ q ∈ Sy, (tp.setPage x.2 page1).pages q = t.pages q := by
    intro q hq
    show (if q = x.2 then _ else _) = _
    rw [if_neg (fun (e : q = x.2) => hdxy x.2 hxin (e ▸ hq))]
    exact hF.pages q (fun hx => hdxy q hx hq) (hSlt q (hS'S (hSyS' hq)))
  have hy1 := Sub_sibling t.pages (tp.setPage x.2 page1).pages _ _ M h y.2 _ _ Sy key none
    hpgy (fun hh => by have := hh.1 y.1 rfl; omega) hsuby
  obtain ⟨psib, hpsib⟩ := Sub_page _ _ _ _ _ _ _ _ _ _ hy1
  have hpx1 : (tp.setPage x.2 page1).pages x.2 = some page1 := by
    show (if x.2 = x.2 then _ else _) = _
    rw [if_pos rfl]
  have hpp : (tp.setPage x.2 page1).pages P = some (BPlusTreePage.internal p) := by
    show (if P = x.2 then _ else _) = _
    rw [if_neg hPx, hF.pages P hPSx (hSlt P hPS), hp]
  have hmineq := Sub_minsize_eq _ _ _ _ _ _ _ _ h _ _ _ _ _ _ _ _ _ _ hsub1 hy1 hpx1 hpsib
  have hsize : page1.GetSize < page1.GetMinSize := by omega
  have hP : P ≠ INVALID_PAGE_ID := by
    have := hSnn P hPS
    unfold INVALID_PAGE_ID; omega
  obtain ⟨hsibid, hright⟩ := GetSiblingPageId_first p x y m2 harr hasc key' (hhi' y.1 rfl)
  obtain ⟨hcm, hcbr, _⟩ := Remove_rebalance_core t (tp.setPage x.2 page1) M key none h P p S S'
    Sx Sy [] x y m2 lo hi page1 psib hlm hp hpmax hplen harr hasc hPS' hPS hS'S hSxS' hSyS'
    hdxy hSlt hlomid hmidhi hloy hyhi hrekey hmergec hF1 hn hsub1 hy1 hpx1 hpsib
  by_cases hcond : psib.GetSize - 1 < psib.GetMinSize
  · right
    obtain ⟨py', px', hm, hpend3⟩ := hcm (by omega)
    exact ⟨_, _, OnlyDeleted_DeletePage _,
      RemoveEntryAux_merge fuel tp x.2 key' ctx ws0 page0 page1 P p y.2 y.1 psib true py' px'
        hws hp0 hrm hroot hsize hpar hP hpp hsibid hpsib hright hcond hm, hpend3⟩
  · left
    obtain ⟨bx, by', pp, hb, hrem⟩ := hcbr (by omega) hsize
    exact ⟨_, RemoveEntryAux_borrow fuel tp x.2 key' ctx ws0 page0 page1 P p y.2 y.1 psib true
      bx by' pp hws hp0 hrm hroot hsize hpar hP hpp hsibid hpsib hright hcond hb, hrem⟩

theorem ltHi_headKey_head (k : Int) (m2 : List (Int × Int)) (hi : Option Int)
    (h : ltHi k (headKey m2 hi)) : ∀ e' ∈ m2.head?, k < e'.1 := by
  intro e' he'
  cases m2 with
  | nil => simp at he'
  | cons z m2 =>
    simp only [List.head?_cons, Option.mem_def, Option.some.injEq] at he'
    subst he'
    exact h _ rfl

/-- `RemoveEntry` for a child `y` of the page `P` that is not the first one, fallen below
its minimal size: with the sibling `x` to its left it is merged, and `RemoveEntry` is called
for `P`, or it borrows an entry, and the removal below `P` is done. -/
theorem Remove_step_later (t tp : BPlusTree) (M : Int → Option Int) (key key' : Int)
    (h : Nat) (P : Int) (p : InternalPage) (S S' Sx Sy : Set Int) (m1 : List (Int × Int))
    (x y : Int × Int) (m2 : List (Int × Int)) (lo hi : Option Int)
    (cp : BPlusTreePage) (ctx : Context) (ws0 : List Int) (fuel : Nat)
    (hlm : 3 ≤ t.leaf_max_size_)
    (hp : t.pages P = some (BPlusTreePage.internal p))
    (hpmax : p.max_size_ = t.internal_max_size_)
    (hplen : (p.array_.length : Int) ≤ t.internal_max_size_)
    (harr : p.array_ = m1 ++ x :: y :: m2)
    (hasc : Ascending ((m1 ++ x :: y :: m2).tail.map Prod.fst))
    (hPS' : P ∉ S') (hPS : P ∈ S) (hS'S : S' ⊆ S) (hSxS' : Sx ⊆ S') (hSyS' : Sy ⊆ S')
    (hdxy : ∀ q ∈ Sx, q ∉ Sy)
    (hSlt : ∀ q ∈ S, q < t.next_page_id_) (hSnn : ∀ q ∈ S, 0 ≤ q)
    (hlomid : loLt (lowKey m1 x lo) y.1) (hmidhi : ltHi y.1 (headKey m2 hi))
    (hloy : loLe lo y.1) (hyhi : ltHi y.1 hi)
    (hrekey : ∀ (pages' : Int → Option BPlusTreePage) (k' : Int) (Sx' Sy' : Set Int),
      (∀ q ∈ S', q ∉ Sx → q ∉ Sy → pages' q = t.pages q) →
      Sub pages' t.leaf_max_size_ t.internal_max_size_ 1 (setAt M key none) h x.2
        (lowKey m1 x lo) (some k') Sx' →
      Sub pages' t.leaf_max_size_ t.internal_max_size_ 1 (setAt M key none) h y.2 (some k')
        (headKey m2 hi) Sy' →
      (∀ q ∈ Sx', q ∉ Sy') → Sx' ⊆ Sx ∪ Sy → Sy' ⊆ Sx ∪ Sy →
      loLt (lowKey m1 x lo) k' → ltHi k' (headKey m2 hi) →
      Children (Sub pages' t.leaf_max_size_ t.internal_max_size_ 1 (setAt M key none) h) lo
        (m1 ++ x :: (k', y.2) :: m2) hi S')
    (hmergec : ∀ (pages' : Int → Option BPlusTreePage) (Sx' : Set Int),
      (∀ q ∈ S', q ∉ Sx → q ∉ Sy → pages' q = t.pages q) →
      Sub pages' t.leaf_max_size_ t.internal_max_size_ 1 (setAt M key none) h x.2
        (lowKey m1 x lo) (headKey m2 hi) Sx' →
      Sx' ⊆ Sx ∪ Sy →
      Children (Sub pages' t.leaf_max_size_ t.internal_max_size_ 1 (setAt M key none) h) lo
        (m1 ++ x :: m2) hi S')
    (hsubx : Sub t.pages t.leaf_max_size_ t.internal_max_size_ 2 M h x.2 (lowKey m1 x lo)
      (some y.1) Sx)
    (hkey : y.1 ≤ key)
    (hpend : PendingErase t tp (setAt M key none) h y.2 key' (some y.1) (headKey m2 hi) Sy)
    (hcp : t.pages y.2 = some cp) (hnotsafe : ¬ (cp.GetSize - 1 ≥ cp.GetMinSize))
    (hws : ctx.write_set_ = y.2 :: P :: ws0) (hroot : y.2 ≠ ctx.root_page_id_)
    (hpar : GetParentPageId y.2 { ctx with write_set_ := P :: ws0 } = some P) :
    (∃ t', RemoveEntryAux (fuel + 1) tp y.2 key' ctx = some t' ∧
        Removed t t' (setAt M key none) (h + 1) P lo hi S) ∨
      (∃ f t3, OnlyDeleted f ∧
        RemoveEntryAux (fuel + 1) tp y.2 key' ctx =
          (RemoveEntryAux fuel t3 P y.1 { ctx with write_set_ := P :: ws0 }).map f ∧
        PendingErase t t3 (setAt M key none) (h + 1) P y.1 lo hi S) := by
  obtain ⟨hF, hn, hlo', hhi', page0, page1, pageOrig, hp0, hporig, hrm, hsz, hmin, hsub1⟩ :=
    hpend
  rw [hcp] at hporig
  cases hporig
  have hyin : y.2 ∈ Sy := Sub_mem _ _ _ _ _ _ _ _ _ _ hsub1
  have hxin : x.2 ∈ Sx := Sub_mem _ _ _ _ _ _ _ _ _ _ hsubx
  have hxy : x.2 ≠ y.2 := fun e => hdxy x.2 hxin (e ▸ hyin)
  have hPy : P ≠ y.2 := fun e => hPS' (e ▸ hSyS' hyin)
  have hPSy : P ∉ Sy := fun hq => hPS' (hSyS' hq)
  have hF1 : Frame t (tp.setPage y.2 page1) (Sx ∪ Sy) :=
    { leaf_max := hF.leaf_max, internal_max := hF.internal_max, header := hF.header,
      root := hF.root, next := hF.next,
      pages := fun q hq hlt => by
        show (if q = y.2 then _ else _) = _
        rw [if_neg (fun (e : q = y.2) => hq (Or.inr (e ▸ hyin)))]
        exact hF.pages q (fun hx => hq (Or.inr hx)) hlt }
  have hpgx : ∀ q ∈ Sx, (tp.setPage y.2 page1).pages q = t.pages q := by
    intro q hq
    show (if q = y.2 then _ else _) = _
    rw [if_neg (fun (e : q = y.2) => hdxy q hq (e ▸ hyin))]
    exact hF.pages q (fun hx => hdxy q hq hx) (hSlt q (hS'S (hSxS' hq)))
  have hx1 := Sub_sibling t.pages (tp.setPage y.2 page1).pages _ _ M h x.2 _ _ Sx key none
    hpgx (fun hh => by have := hh.2 y.1 rfl; omega) hsubx
  obtain ⟨psib, hpsib⟩ := Sub_page _ _ _ _ _ _ _ _ _ _ hx1
  have hpy1 : (tp.setPage y.2 page1).pages y.2 = some page1 := by
    show (if y.2 = y.2 then _ else _) = _
    rw [if_pos rfl]
  have hpp : (tp.setPage y.2 page1).pages P = some (BPlusTreePage.internal p) := by
    show (if P = y.2 then _ else _) = _
    rw [if_neg hPy, hF.pages P hPSy (hSlt P hPS), hp]
  have hmineq := Sub_minsize_eq _ _ _ _ _ _ _ _ h _ _ _ _ _ _ _ _ _ _ hsub1 hx1 hpy1 hpsib
  have hsize : page1.GetSize < page1.GetMinSize := by omega
  have hP : P ≠ INVALID_PAGE_ID := by
    have := hSnn P hPS
    unfold INVALID_PAGE_ID; omega
  obtain ⟨hsibid, hright⟩ := GetSiblingPageId_later p m1 x y m2 harr hasc key'
    (hlo' y.1 rfl) (ltHi_headKey_head key' m2 hi hhi')
  obtain ⟨hcm, _, hcbl⟩ := Remove_rebalance_core t (tp.setPage y.2 page1) M key none h P p S S'
    Sx Sy m1 x y m2 lo hi psib page1 hlm hp hpmax hplen harr hasc hPS' hPS hS'S hSxS' hSyS'
    hdxy hSlt hlomid hmidhi hloy hyhi hrekey hmergec hF1 hn hx1 hsub1 hpsib hpy1
  by_cases hcond : psib.GetSize - 1 < psib.GetMinSize
  · right
    obtain ⟨py', px', hm, hpend3⟩ := hcm (by omega)
    exact ⟨_, _, OnlyDeleted_DeletePage _,
      RemoveEntryAux_merge fuel tp y.2 key' ctx ws0 page0 page1 P p x.2 y.1 psib false py' px'
        hws hp0 hrm hroot hsize hpar hP hpp hsibid hpsib hright hcond hm, hpend3⟩
  · left
    obtain ⟨bx, by', pp, hb, hrem⟩ := hcbl (by omega) hsize
    exact ⟨_, RemoveEntryAux_borrow fuel tp y.2 key' ctx ws0 page0 page1 P p x.2 y.1 psib false
      by' bx pp hws hp0 hrm hroot hsize hpar hP hpp hsibid hpsib hright hcond hb, hrem⟩
theorem Frame_onlyDeleted (t t1 : BPlusTree) (S : Set Int) (f : BPlusTree → BPlusTree)
    (hf : OnlyDeleted f) (hF : Frame t t1 S) : Frame t (f t1) S := by
  obtain ⟨dl, hdl⟩ := hf t1
  rw [hdl]
  exact { leaf_max := hF.leaf_max, internal_max := hF.internal_max, header := hF.header,
          root := hF.root, next := hF.next, pages := hF.pages }

theorem Removed_onlyDeleted (t t1 : BPlusTree) (M' : Int → Option Int) (h : Nat) (pid : Int)
    (lo hi : Option Int) (S : Set Int) (f : BPlusTree → BPlusTree) (hf : OnlyDeleted f)
    (hr : Removed t t1 M' h pid lo hi S) : Removed t (f t1) M' h pid lo hi S := by
  obtain ⟨hF, hn, hs⟩ := hr
  have hF' := Frame_onlyDeleted t t1 S f hf hF
  obtain ⟨dl, hdl⟩ := hf t1
  refine ⟨hF', ?_, ?_⟩
  · rw [hdl]; exact hn
  · rw [hdl]; exact hs

theorem LeafOK_map_congr (lm : Int) (M M' : Int → Option Int) (p : LeafPage)
    (lo hi : Option Int) (hM : ∀ k, M' k = M k) (hok : LeafOK lm M p lo hi) :
    LeafOK lm M' p lo hi :=
  { max := hok.max, size := hok.size, asc := hok.asc, lo_le := hok.lo_le,
    lt_hi := hok.lt_hi, map := fun k h1 h2 => by rw [hM k]; exact hok.map k h1 h2 }

/-- The key of the second of two neighbour entries of a chain lies inside the range of the
chain, above the lower bound of the first child and below the upper bound of the second. -/
theorem Children_pair_keys (P : Int → Option Int → Option Int → Set Int → Prop)
    (m1 : List (Int × Int)) (x y : Int × Int) (m2 : List (Int × Int)) (lo hi : Option Int)
    (S : Set Int) (hch : Children P lo (m1 ++ x :: y :: m2) hi S) :
    loLt (lowKey m1 x lo) y.1 ∧ ltHi y.1 (headKey m2 hi) ∧ loLe lo y.1 ∧ ltHi y.1 hi := by
  obtain ⟨S1, Sx, S2', hs1, hsx, hs2', hlt, _⟩ := Children_focus _ m1 x (y :: m2) lo hi S hch
  obtain ⟨_, Sy, S2, _, hsy, hs2, hlt', _⟩ := Children_focus _ [] y m2 (some y.1) hi S2' hs2'
  have hk : loLt lo y.1 ∧ ltHi y.1 hi := by
    cases m1 with
    | nil =>
      have := Children_keys P (y :: m2) x lo hi S hch
      exact ⟨this.2.1 y (by simp), this.2.2 y (by simp)⟩
    | cons a m1 =>
      have := Children_keys P (m1 ++ x :: y :: m2) a lo hi S hch
      exact ⟨this.2.1 y (by simp), this.2.2 y (by simp)⟩
  exact ⟨fun l hl => hlt l y.1 hl rfl, fun u hu => hlt' y.1 u rfl hu,
    fun l hl => le_of_lt (hk.1 l hl), hk.2⟩

theorem lowKey_concat (m1 : List (Int × Int)) (a e : Int × Int) (lo : Option Int) :
    lowKey (m1 ++ [a]) e lo = some e.1 := by
  cases m1 <;> rfl

theorem Frame_mono (t t1 : BPlusTree) (S T : Set Int) (hST : S ⊆ T) (hF : Frame t t1 S) :
    Frame t t1 T :=
  { leaf_max := hF.leaf_max, internal_max := hF.internal_max, header := hF.header,
    root := hF.root, next := hF.next,
    pages := fun q hq hlt => hF.pages q (fun hx => hq (hST hx)) hlt }

/-- The child `e` of the page `pid` that a key belongs to, with the neighbour that
`RemoveEntry` takes for its sibling: the removal below the child makes the removal below
`pid` done, and `RemoveEntry` for the child fallen below its minimal size either makes it
done, too, or ends in the call of `RemoveEntry` for `pid`. -/
theorem Remove_pair_choice (t : BPlusTree) (M : Int → Option Int) (key : Int) (h : Nat)
    (pid : Int) (p : InternalPage) (S S' : Set Int) (l1 : List (Int × Int)) (e : Int × Int)
    (l2 : List (Int × Int)) (lo hi : Option Int) (hlm : 3 ≤ t.leaf_max_size_)
    (hp : t.pages pid = some (BPlusTreePage.internal p))
    (hpmax : p.max_size_ = t.internal_max_size_)
    (hplen : (p.array_.length : Int) ≤ t.internal_max_size_) (hpmin : 2 ≤ p.array_.length)
    (hch : Children (Sub t.pages t.leaf_max_size_ t.internal_max_size_ 2 M h) lo p.array_
      hi S')
    (hPS' : pid ∉ S') (hPS : pid ∈ S) (hS'S : S' ⊆ S)
    (hSlt : ∀ q ∈ S, q < t.next_page_id_) (hSnn : ∀ q ∈ S, 0 ≤ q)
    (harr0 : p.array_ = l1 ++ e :: l2)
    (hlo' : loLe (lowKey l1 e lo) key) (hhi' : ltHi key (headKey l2 hi)) :
    ∃ Sc, Sc ⊆ S' ∧
      Sub t.pages t.leaf_max_size_ t.internal_max_size_ 2 M h e.2 (lowKey l1 e lo)
        (headKey l2 hi) Sc ∧
      (∀ t1 : BPlusTree, Frame t t1 Sc → t1.next_page_id_ = t.next_page_id_ →
        Sub t1.pages t.leaf_max_size_ t.internal_max_size_ 1 (setAt M key none) h e.2
          (lowKey l1 e lo) (headKey l2 hi) Sc →
        Removed t t1 (setAt M key none) (h + 1) pid lo hi S) ∧
      (∀ (tp : BPlusTree) (key' : Int) (cp : BPlusTreePage) (ctxQ : Context)
        (ws0' : List Int) (fuel' : Nat),
        PendingErase t tp (setAt M key none) h e.2 key' (lowKey l1 e lo) (headKey l2 hi) Sc →
        t.pages e.2 = some cp → ¬ (cp.GetSize - 1 ≥ cp.GetMinSize) →
        ctxQ.write_set_ = e.2 :: pid :: ws0' → e.2 ≠ ctxQ.root_page_id_ →
        GetParentPageId e.2 { ctxQ with write_set_ := pid :: ws0' } = some pid →
        (∃ t', RemoveEntryAux (fuel' + 1) tp e.2 key' ctxQ = some t' ∧
          Removed t t' (setAt M key none) (h + 1) pid lo hi S) ∨
        (∃ f t3 mid, OnlyDeleted f ∧
          RemoveEntryAux (fuel' + 1) tp e.2 key' ctxQ =
            (RemoveEntryAux fuel' t3 pid mid { ctxQ with write_set_ := pid :: ws0' }).map f ∧
          PendingErase t t3 (setAt M key none) (h + 1) pid mid lo hi S)) := by
  have hasc := Children_tail_asc _ _ _ _ _ hch
  cases l1 with
  | nil =>
    obtain ⟨y, m2, hl2⟩ : ∃ y m2, l2 = y :: m2 := by
      cases l2 with
      | nil => rw [harr0] at hpmin; simp at hpmin
      | cons y m2 => exact ⟨y, m2, rfl⟩
    subst hl2
    rw [harr0] at hch hasc
    obtain ⟨hlomid, hmidhi, hloy, hyhi⟩ := Children_pair_keys _ [] e y m2 lo hi S' hch
    have hky : key < y.1 := hhi' y.1 rfl
    obtain ⟨Sx, Sy, hSxS', hSyS', hdxy, hsubx, hsuby, _, _, hrekey, hmergec⟩ :=
      Children_zoom_pair t.pages _ _ 2 1 (by decide) M h [] e y m2 lo hi S' hch key hlo'
        (fun u hu => by have := hmidhi u hu; omega)
    have hxin : e.2 ∈ Sx := Sub_mem _ _ _ _ _ _ _ _ _ _ hsubx
    refine ⟨Sx, hSxS', hsubx, ?_, ?_⟩
    · intro t1 hF1 hn hs1
      have hy1 := Sub_sibling t.pages t1.pages _ _ M h y.2 _ _ Sy key none
        (fun q hq => hF1.pages q (fun hx => hdxy q hx hq) (hSlt q (hS'S (hSyS' hq))))
        (fun hh => by have := hh.1 y.1 rfl; omega) hsuby
      exact Remove_pair_done t t1 M key none h pid p p S S' Sx Sy Sx Sy [] e y m2 lo hi y.1
        hpmax hplen harr0 hPS' hPS hS'S hSxS' hSyS' hSlt
        (fun pages' k' Sx' Sy' => hrekey pages' none k' Sx' Sy')
        (Frame_mono t t1 _ _ (fun q hq => Or.inl (Or.inl hq)) hF1) hn
        (by rw [hF1.pages pid (fun hx => hPS' (hSxS' hx)) (hSlt pid hPS), hp])
        harr0 rfl hs1 hy1 hdxy Set.subset_union_left Set.subset_union_right hlomid hmidhi
    · intro tp key' cp ctxQ ws0' fuel' hpend hcp hnotsafe hwsQ hrootQ hparQ
      rcases Remove_step_first t tp M key key' h pid p S S' Sx Sy e y m2 lo hi cp ctxQ ws0'
        fuel' hlm hp hpmax hplen harr0 hasc hPS' hPS hS'S hSxS' hSyS' hdxy hSlt hSnn hlomid
        hmidhi hloy hyhi (fun pages' k' Sx' Sy' => hrekey pages' none k' Sx' Sy')
        (fun pages' Sx' => hmergec pages' none Sx') hsuby hky hpend hcp hnotsafe hwsQ hrootQ
        hparQ with h1 | ⟨f, t3, h1, h2, h3⟩
      · exact Or.inl h1
      · exact Or.inr ⟨f, t3, y.1, h1, h2, h3⟩
  | cons a0 l1' =>
    obtain ⟨m1, x, hl1⟩ := exists_init_last (a0 :: l1') (by simp)
    rw [hl1] at harr0 hlo' ⊢
    have harr : p.array_ = m1 ++ x :: e :: l2 := by
      rw [harr0]; simp
    rw [lowKey_concat] at hlo' ⊢
    rw [harr] at hch hasc
    obtain ⟨hlomid, hmidhi, hloy, hyhi⟩ := Children_pair_keys _ m1 x e l2 lo hi S' hch
    have hky : e.1 ≤ key := hlo' e.1 rfl
    obtain ⟨Sx, Sy, hSxS', hSyS', hdxy, hsubx, hsuby, _, _, hrekey, hmergec⟩ :=
      Children_zoom_pair t.pages _ _ 2 1 (by decide) M h m1 x e l2 lo hi S' hch key
        (fun l hl => by have := hlomid l hl; omega) hhi'
    have hyin : e.2 ∈ Sy := Sub_mem _ _ _ _ _ _ _ _ _ _ hsuby
    refine ⟨Sy, hSyS', hsuby, ?_, ?_⟩
    · intro t1 hF1 hn hs1
      have hx1 := Sub_sibling t.pages t1.pages _ _ M h x.2 _ _ Sx key none
        (fun q hq => hF1.pages q (fun hx => hdxy q hq hx) (hSlt q (hS'S (hSxS' hq))))
        (fun hh => by have := hh.2 e.1 rfl; omega) hsubx
      exact Remove_pair_done t t1 M key none h pid p p S S' Sx Sy Sx Sy m1 x e l2 lo hi e.1
        hpmax hplen harr hPS' hPS hS'S hSxS' hSyS' hSlt
        (fun pages' k' Sx' Sy' => hrekey pages' none k' Sx' Sy')
        (Frame_mono t t1 _ _ (fun q hq => Or.inl (Or.inr hq)) hF1) hn
        (by rw [hF1.pages pid (fun hx => hPS' (hSyS' hx)) (hSlt pid hPS), hp])
        harr rfl hx1 hs1 hdxy Set.subset_union_left Set.subset_union_right hlomid hmidhi
    · intro tp key' cp ctxQ ws0' fuel' hpend hcp hnotsafe hwsQ hrootQ hparQ
      rcases Remove_step_later t tp M key key' h pid p S S' Sx Sy m1 x e l2 lo hi cp ctxQ ws0'
        fuel' hlm hp hpmax hplen harr hasc hPS' hPS hS'S hSxS' hSyS' hdxy hSlt hSnn hlomid
        hmidhi hloy hyhi (fun pages' k' Sx' Sy' => hrekey pages' none k' Sx' Sy')
        (fun pages' Sx' => hmergec pages' none Sx') hsubx hky hpend hcp hnotsafe hwsQ hrootQ
        hparQ with h1 | ⟨f, t3, h1, h2, h3⟩
      · exact Or.inl h1
      · exact Or.inr ⟨f, t3, e.1, h1, h2, h3⟩

/-- The descent of `Remove` below the page `pid` followed by `RemoveEntry` at the leaf:
either the removal below `pid` is done, or all is done below `pid` and `RemoveEntry` is
called for `pid` itself, with the guards that were held above it. -/
theorem Remove_descend (key : Int) (M : Int → Option Int) (t : BPlusTree)
    (hlm : 3 ≤ t.leaf_max_size_) :
    ∀ (h : Nat) (pid : Int) (lo hi : Option Int) (S : Set Int) (ctx : Context)
      (ws0 acc0 : List Int) (fuel : Nat),
      Sub t.pages t.leaf_max_size_ t.internal_max_size_ 2 M h pid lo hi S →
      loLe lo key → ltHi key hi → (∀ q ∈ S, q < t.next_page_id_) → (∀ q ∈ S, 0 ≤ q) →
      ctx.write_set_ = pid :: ws0 → ctx.access_set_ = acc0 ++ [pid] →
      (∀ q ∈ S, q ∉ acc0) → ctx.root_page_id_ ∈ acc0 ++ [pid] → h < fuel →
      ∃ ctx1 leaf, DeleteGetKeyAtLoop t key fuel pid ctx = some (ctx1, leaf) ∧
        ((∃ t', RemoveEntry t leaf key ctx1 = some t' ∧
            Removed t t' (setAt M key none) h pid lo hi S) ∨
          (∃ f tp key' below, OnlyDeleted f ∧
            RemoveEntry t leaf key ctx1 =
              (RemoveEntryAux (ws0.length + 2) tp pid key'
                { ctx with write_set_ := pid :: ws0,
                           access_set_ := acc0 ++ [pid] ++ below }).map f ∧
            PendingErase t tp (setAt M key none) h pid key' lo hi S)) := by
  intro h
  induction h with
  | zero =>
    intro pid lo hi S ctx ws0 acc0 fuel hsub hlo hhi hSlt hSnn hws hacc hdisj hroot hfuel
    obtain ⟨p, hp, hok, hpid⟩ := hsub
    obtain ⟨fuel, rfl⟩ : ∃ f, fuel = f + 1 := ⟨fuel - 1, by omega⟩
    refine ⟨ctx, pid, ?_, ?_⟩
    · unfold DeleteGetKeyAtLoop
      rw [hp]
    have hRE : RemoveEntry t pid key ctx = RemoveEntryAux (ws0.length + 2) t pid key ctx := by
      unfold RemoveEntry
      rw [hws]
      rfl
    have hfr : Frame t (t.setPage pid (BPlusTreePage.leaf (p.RemoveKeyAt key).1)) S :=
      { leaf_max := rfl, internal_max := rfl, header := rfl, root := rfl, next := le_refl _,
        pages := fun q hq _ => by
          show (if q = pid then _ else _) = _
          rw [if_neg (fun (e : q = pid) => hq (e ▸ hpid))] }
    have hrk : removeKeyFromPage (BPlusTreePage.leaf p) key =
        (BPlusTreePage.leaf (p.RemoveKeyAt key).1, (p.RemoveKeyAt key).2) := rfl
    rcases leaf_RemoveKeyAt_spec _ M p lo hi key hok hlo hhi with
      ⟨h2, hMk, hpe⟩ | ⟨h2, hok', hlen, hmax⟩
    · left
      rw [h2] at hrk
      refine ⟨_, by rw [hRE]; exact RemoveEntryAux_absent _ t pid key ctx ws0 _ _ hws hp hrk,
        hfr, rfl, ?_⟩
      refine ⟨_, ?_, LeafOK_map_congr _ M _ _ lo hi ?_ (hpe ▸ hok), hpid⟩
      · show (if pid = pid then _ else _) = _
        rw [if_pos rfl]
      · intro k
        unfold setAt
        split
        · next hk => rw [hk, hMk]
        · rfl
    · right
      rw [h2] at hrk
      refine ⟨id, t, key, [], fun t' => ⟨t'.deleted, rfl⟩, ?_, ?_⟩
      · rw [hRE, Option.map_id, List.append_nil, ← hacc, ← hws]
        rfl
      · refine ⟨?_, rfl, hlo, hhi, _, _, _, hp, hp, hrk, ?_, ?_, ?_⟩
        · exact { leaf_max := rfl, internal_max := rfl, header := rfl, root := rfl,
                  next := le_refl _, pages := fun _ _ _ => rfl }
        · exact hlen
        · show ((p.RemoveKeyAt key).1.max_size_ - 1 + 1) / 2 = (p.max_size_ - 1 + 1) / 2
          rw [hmax]
        · refine ⟨_, ?_, hok', hpid⟩
          show (if pid = pid then _ else _) = _
          rw [if_pos rfl]
  | succ h ih =>
    intro pid lo hi S ctx ws0 acc0 fuel hsub hlo hhi hSlt hSnn hws hacc hdisj hroot hfuel
    obtain ⟨p, S', hp, hpmax, hplen, hpmin, hch, hPS', hPS, hS'S⟩ := hsub
    obtain ⟨fuel, rfl⟩ : ∃ f, fuel = f + 1 := ⟨fuel - 1, by omega⟩
    obtain ⟨l1, e, l2, harr0, hcf, hlo', hhi', _⟩ :=
      childFor_focus _ p key lo hi S' hch hlo hhi
    obtain ⟨Sc, hScS', hsubc, hdone, hstep⟩ := Remove_pair_choice t M key h pid p S S' l1 e l2
      lo hi hlm hp hpmax hplen hpmin hch hPS' hPS hS'S hSlt hSnn harr0 hlo' hhi'
    have hcSc : e.2 ∈ Sc := Sub_mem _ _ _ _ _ _ _ _ _ _ hsubc
    have hcS' : e.2 ∈ S' := hScS' hcSc
    obtain ⟨cp, hcp⟩ := Sub_page _ _ _ _ _ _ _ _ _ _ hsubc
    have hSclt : ∀ q ∈ Sc, q < t.next_page_id_ := fun q hq => hSlt q (hS'S (hScS' hq))
    have hScnn : ∀ q ∈ Sc, 0 ≤ q := fun q hq => hSnn q (hS'S (hScS' hq))
    have hcacc : e.2 ∉ acc0 ++ [pid] := by
      intro hx
      rcases List.mem_append.mp hx with h1 | h1
      · exact hdisj _ (hS'S hcS') h1
      · rw [List.mem_singleton] at h1
        exact hPS' (h1 ▸ hcS')
    have hdisjc : ∀ q ∈ Sc, q ∉ acc0 ++ [pid] := by
      intro q hq hx
      rcases List.mem_append.mp hx with h1 | h1
      · exact hdisj _ (hS'S (hScS' hq)) h1
      · rw [List.mem_singleton] at h1
        exact hPS' (h1 ▸ hScS' hq)
    have hrootc : e.2 ≠ ctx.root_page_id_ := fun hx => hcacc (hx ▸ hroot)
    by_cases hsafe : cp.GetSize - 1 ≥ cp.GetMinSize
    · obtain ⟨ctx1, leaf, hloop, hout⟩ := ih e.2 (lowKey l1 e lo) (headKey l2 hi) Sc
        { ctx with header_page_ := false, write_set_ := [e.2],
                   access_set_ := ctx.access_set_ ++ [e.2] }
        [] (acc0 ++ [pid]) fuel hsubc hlo' hhi' hSclt hScnn rfl
        (by show ctx.access_set_ ++ [e.2] = _; rw [hacc]) hdisjc
        (List.mem_append_left _ hroot) (by omega)
      refine ⟨ctx1, leaf, ?_, Or.inl ?_⟩
      · rw [← hloop]
        conv_lhs => unfold DeleteGetKeyAtLoop
        simp only [hp, hcf, hcp, if_pos hsafe]
      · rcases hout with ⟨t', heq, hF, hn, hs⟩ | ⟨f, tp, key', below, hf, heq, hpend⟩
        · exact ⟨t', heq, hdone t' hF hn hs⟩
        · obtain ⟨hF, hn, hlo2, hhi2, page0, page1, pageOrig, hp0, hporig, hrm, hsz, hmin,
            hsub1⟩ := hpend
          rw [hcp] at hporig
          cases hporig
          have hd := RemoveEntryAux_done 1 tp e.2 key'
            { root_page_id_ := ctx.root_page_id_, header_page_ := false,
              write_set_ := [e.2], read_set_ := ctx.read_set_,
              access_set_ := acc0 ++ [pid] ++ [e.2] ++ below } [] page0 page1 rfl hp0 hrm
            hrootc (by omega)
          have hF1 : Frame t (tp.setPage e.2 page1) Sc :=
            { leaf_max := hF.leaf_max, internal_max := hF.internal_max, header := hF.header,
              root := hF.root, next := hF.next,
              pages := fun q hq hlt => by
                show (if q = e.2 then _ else _) = _
                rw [if_neg (fun (e' : q = e.2) => hq (e' ▸ hcSc))]
                exact hF.pages q hq hlt }
          refine ⟨f (tp.setPage e.2 page1), ?_,
            Removed_onlyDeleted _ _ _ _ _ _ _ _ f hf (hdone _ hF1 hn hsub1)⟩
          rw [heq]
          show Option.map f (RemoveEntryAux (1 + 1) _ _ _ _) = _
          rw [hd]
          rfl
    · obtain ⟨ctx1, leaf, hloop, hout⟩ := ih e.2 (lowKey l1 e lo) (headKey l2 hi) Sc
        { ctx with write_set_ := e.2 :: ctx.write_set_,
                   access_set_ := ctx.access_set_ ++ [e.2] }
        (pid :: ws0) (acc0 ++ [pid]) fuel hsubc hlo' hhi' hSclt hScnn
        (by show e.2 :: ctx.write_set_ = _; rw [hws])
        (by show ctx.access_set_ ++ [e.2] = _; rw [hacc]) hdisjc
        (List.mem_append_left _ hroot) (by omega)
      refine ⟨ctx1, leaf, ?_, ?_⟩
      · rw [← hloop]
        conv_lhs => unfold DeleteGetKeyAtLoop
        simp only [hp, hcf, hcp, if_neg hsafe]
      · rcases hout with ⟨t', heq, hF, hn, hs⟩ | ⟨f, tp, key', below, hf, heq, hpend⟩
        · exact Or.inl ⟨t', heq, hdone t' hF hn hs⟩
        · rcases hstep tp key' cp
            { root_page_id_ := ctx.root_page_id_, header_page_ := ctx.header_page_,
              write_set_ := e.2 :: pid :: ws0, read_set_ := ctx.read_set_,
              access_set_ := acc0 ++ [pid] ++ [e.2] ++ below }
            ws0 (ws0.length + 2) hpend hcp hsafe rfl hrootc
            (GetParentPageId_eq e.2 pid acc0 below _
              (by show acc0 ++ [pid] ++ [e.2] ++ below = _; simp) hcacc) with
            ⟨t', h1, h2⟩ | ⟨g, t3, mid, hg, h1, h2⟩
          · left
            refine ⟨f t', ?_, Removed_onlyDeleted _ _ _ _ _ _ _ _ f hf h2⟩
            rw [heq]
            show Option.map f (RemoveEntryAux (ws0.length + 2 + 1) _ _ _ _) = _
            rw [h1]
            rfl
          · right
            refine ⟨fun t' => f (g t'), t3, mid, [e.2] ++ below, OnlyDeleted_comp f g hf hg,
              ?_, h2⟩
            rw [heq]
            show Option.map f (RemoveEntryAux (ws0.length + 2 + 1) _ _ _ _) = _
            rw [h1, Option.map_map, ← List.append_assoc (acc0 ++ [pid]) [e.2] below]
            rfl
theorem DeleteGetKeyAtLoop_root (t : BPlusTree) (key : Int) :
    ∀ (fuel : Nat) (pid : Int) (ctx ctx1 : Context) (leaf : Int),
      DeleteGetKeyAtLoop t key fuel pid ctx = some (ctx1, leaf) →
      ctx1.root_page_id_ = ctx.root_page_id_ := by
  intro fuel
  induction fuel with
  | zero =>
    intro pid ctx ctx1 leaf hrun
    simp [DeleteGetKeyAtLoop] at hrun
  | succ n ih =>
    intro pid ctx ctx1 leaf hrun
    unfold DeleteGetKeyAtLoop at hrun
    cases hp : t.pages pid with
    | none => rw [hp] at hrun; simp at hrun
    | some pg =>
      rw [hp] at hrun
      cases pg with
      | leaf p =>
        simp only [Option.some.injEq, Prod.mk.injEq] at hrun
        rw [← hrun.1]
      | internal p =>
        simp only at hrun
        cases hc : childFor p key with
        | none => rw [hc] at hrun; simp at hrun
        | some c =>
          rw [hc] at hrun
          simp only at hrun
          cases hcp : t.pages c with
          | none => rw [hcp] at hrun; simp at hrun
          | some cpg =>
            rw [hcp] at hrun
            simp only at hrun
            have := ih _ _ _ _ hrun
            rw [this]
            split <;> rfl

theorem WellFormed_onlyDeleted (t : BPlusTree) (mc h : Nat) (M : Int → Option Int)
    (f : BPlusTree → BPlusTree) (hf : OnlyDeleted f) (hwf : WellFormed t mc h M) :
    WellFormed (f t) mc h M := by
  obtain ⟨dl, hdl⟩ := hf t
  rw [hdl]
  exact { leaf_max := hwf.leaf_max, internal_max := hwf.internal_max,
          next_nonneg := hwf.next_nonneg, tree := hwf.tree }

/-- `Remove` on a well-formed tree whose internal pages have at least two children returns
and leaves a well-formed tree that holds the former map without the key; the height does
not grow. -/
theorem Remove_wf (t : BPlusTree) (h : Nat) (M : Int → Option Int) (key : Int) (fuel : Nat)
    (hwf : WellFormed t 2 h M) (hf : h < fuel) :
    ∃ t' h', Remove fuel t key = some t' ∧ h' ≤ h ∧
      WellFormed t' 1 h' (setAt M key none) := by
  have hlm := hwf.leaf_max
  have him := hwf.internal_max
  have hnn := hwf.next_nonneg
  rcases hwf.tree with ⟨hroot, hMe⟩ | ⟨hroot, hsub⟩
  · refine ⟨t, h, ?_, le_refl _, ?_⟩
    · unfold Remove DeleteGetKeyAt
      simp only [hroot, Context.new, if_true]
    · exact { leaf_max := hlm, internal_max := him, next_nonneg := hnn,
              tree := Or.inl ⟨hroot, fun k => by
                unfold setAt
                split
                · rfl
                · exact hMe k⟩ }
  · obtain ⟨pg0, hpg0⟩ := Sub_page _ _ _ _ _ _ _ _ _ _ hsub
    obtain ⟨ctx1, leaf, hloop, hout⟩ := Remove_descend key M t hlm h t.root_page_id_ none none
      _
      { root_page_id_ := t.root_page_id_, header_page_ := true,
        write_set_ := [t.root_page_id_], read_set_ := [],
        access_set_ := [] ++ [t.root_page_id_] } [] [] fuel hsub
      (fun _ hl => (by cases hl)) (fun _ hl => (by cases hl)) (fun q hq => hq.2)
      (fun q hq => hq.1) rfl rfl
      (fun _ _ hx => absurd hx (List.not_mem_nil _)) (List.mem_singleton.mpr rfl) hf
    have hr1 := DeleteGetKeyAtLoop_root t key fuel _ _ _ _ hloop
    have hR : Remove fuel t key = RemoveEntry t leaf key ctx1 := by
      unfold Remove DeleteGetKeyAt
      simp only [hroot, if_false, hpg0, Context.new, hloop]
      rw [if_neg (by rw [hr1]; exact hroot)]
    rw [hR]
    rcases hout with ⟨t', heq, hF, hn, hs⟩ | ⟨f, tp, key', below, hf', heq, hpend⟩
    · refine ⟨t', h, heq, le_refl _, ?_⟩
      exact { leaf_max := by rw [hF.leaf_max]; exact hlm,
              internal_max := by rw [hF.internal_max]; exact him,
              next_nonneg := by rw [hn]; exact hnn,
              tree := Or.inr ⟨by rw [hF.root]; exact hroot, by
                rw [hF.leaf_max, hF.internal_max, hF.root, hn]; exact hs⟩ }
    · obtain ⟨hF, hn, _, _, page0, page1, pageOrig, hp0, hporig, hrm, hsz, hmin, hsub1⟩ :=
        hpend
      rw [heq]
      have hpage1 : (tp.setPage t.root_page_id_ page1).pages t.root_page_id_ = some page1 := by
        show (if t.root_page_id_ = t.root_page_id_ then _ else _) = _
        rw [if_pos rfl]
      by_cases h0 : page1.GetSize = 0
      · have hd := RemoveEntryAux_root_empty 1 tp t.root_page_id_ key'
          { root_page_id_ := t.root_page_id_, header_page_ := true,
            write_set_ := [t.root_page_id_], read_set_ := [],
            access_set_ := [] ++ [t.root_page_id_] ++ below } [] page0 page1 rfl hp0 hrm rfl
          rfl h0
        have hempty : ∀ k, setAt M key none k = none := by
          intro k
          cases h with
          | zero =>
            obtain ⟨q, hq, hok, _⟩ := hsub1
            rw [hpage1] at hq
            cases hq
            have hlen : q.array_ = [] := by
              have : (q.array_.length : Int) = 0 := h0
              exact List.eq_nil_of_length_eq_zero (by omega)
            have := hok.map k (fun _ hl => (by cases hl)) (fun _ hl => (by cases hl))
            rw [hlen] at this
            exact this.symm
          | succ h =>
            obtain ⟨q, _, hq, _, _, hmin1, _⟩ := hsub1
            rw [hpage1] at hq
            cases hq
            have : (q.array_.length : Int) = 0 := h0
            omega
        refine ⟨_, h, by
          show Option.map f (RemoveEntryAux (1 + 1) _ _ _ _) = _
          rw [hd]
          rfl, le_refl _, WellFormed_onlyDeleted _ _ _ _ f hf' ?_⟩
        exact { leaf_max := by
                  show 3 ≤ tp.leaf_max_size_
                  rw [hF.leaf_max]; exact hlm,
                internal_max := by
                  show 2 ≤ tp.internal_max_size_
                  rw [hF.internal_max]; exact him,
                next_nonneg := by
                  show 0 ≤ tp.next_page_id_
                  rw [hn]; exact hnn,
                tree := Or.inl ⟨rfl, hempty⟩ }
      · by_cases h1 : page1.GetSize = 1 ∧ ¬ page1.IsLeafPage
        · cases h with
          | zero =>
            obtain ⟨q, hq, _⟩ := hsub1
            rw [hpage1] at hq
            cases hq
            exact absurd rfl h1.2
          | succ h =>
            obtain ⟨q, S', hq, hqmax, hqlen, hqmin, hqch, hrS', hrS, hS'S⟩ := hsub1
            rw [hpage1] at hq
            cases hq
            have hlen1 : (q.array_.length : Int) = 1 := h1.1
            obtain ⟨e, hqarr⟩ : ∃ e, q.array_ = [e] := by
              cases hqa : q.array_ with
              | nil => rw [hqa] at hlen1; simp at hlen1
              | cons e rest =>
                cases rest with
                | nil => exact ⟨e, rfl⟩
                | cons e2 rest =>
                  rw [hqa] at hlen1
                  simp only [List.length_cons] at hlen1
                  push_cast at hlen1
                  omega
            rw [hqarr] at hqch
            obtain ⟨hsube, _⟩ := hqch
            have heS' : e.2 ∈ S' := Sub_mem _ _ _ _ _ _ _ _ _ _ hsube
            have hchild : q.ValueAt 0 = some e.2 := by
              have := internal_ValueAt_nat q 0
              rw [hqarr] at this
              exact this
            have hd := RemoveEntryAux_root_collapse 1 tp t.root_page_id_ key'
              { root_page_id_ := t.root_page_id_, header_page_ := true,
                write_set_ := [t.root_page_id_], read_set_ := [],
                access_set_ := [] ++ [t.root_page_id_] ++ below } [] page0 q e.2 rfl hp0
              hrm rfl rfl hlen1 hchild
            refine ⟨_, h, by
              show Option.map f (RemoveEntryAux (1 + 1) _ _ _ _) = _
              rw [hd]
              rfl, by omega, WellFormed_onlyDeleted _ _ _ _ f hf' ?_⟩
            exact { leaf_max := by
                      show 3 ≤ tp.leaf_max_size_
                      rw [hF.leaf_max]; exact hlm,
                    internal_max := by
                      show 2 ≤ tp.internal_max_size_
                      rw [hF.internal_max]; exact him,
                    next_nonneg := by
                      show 0 ≤ tp.next_page_id_
                      rw [hn]; exact hnn,
                    tree := Or.inr ⟨by
                      show e.2 ≠ INVALID_PAGE_ID
                      have := (hS'S heS').1
                      unfold INVALID_PAGE_ID; omega, by
                      show Sub (tp.setPage t.root_page_id_ (BPlusTreePage.internal q)).pages
                        tp.leaf_max_size_ tp.internal_max_size_ 1 _ h e.2 none none
                        {x | 0 ≤ x ∧ x < tp.next_page_id_}
                      rw [hF.leaf_max, hF.internal_max, hn]
                      exact Sub_mono _ _ _ _ _ _ _ _ _ _ _ hS'S hsube⟩ }
        · have hd := RemoveEntryAux_root_stay 1 tp t.root_page_id_ key'
            { root_page_id_ := t.root_page_id_, header_page_ := true,
              write_set_ := [t.root_page_id_], read_set_ := [],
              access_set_ := [] ++ [t.root_page_id_] ++ below } [] page0 page1 rfl hp0 hrm
            rfl h0 h1
          refine ⟨_, h, by
            show Option.map f (RemoveEntryAux (1 + 1) _ _ _ _) = _
            rw [hd]
            rfl, le_refl _, WellFormed_onlyDeleted _ _ _ _ f hf' ?_⟩
          exact { leaf_max := by
                    show 3 ≤ tp.leaf_max_size_
                    rw [hF.leaf_max]; exact hlm,
                  internal_max := by
                    show 2 ≤ tp.internal_max_size_
                    rw [hF.internal_max]; exact him,
                  next_nonneg := by
                    show 0 ≤ tp.next_page_id_
                    rw [hn]; exact hnn,
                  tree := Or.inr ⟨by
                    show tp.root_page_id_ ≠ INVALID_PAGE_ID
                    rw [hF.root]; exact hroot, by
                    show Sub (tp.setPage t.root_page_id_ page1).pages
                      tp.leaf_max_size_ tp.internal_max_size_ 1 _ h tp.root_page_id_ none none
                      {x | 0 ≤ x ∧ x < tp.next_page_id_}
                    rw [hF.leaf_max, hF.internal_max, hF.root, hn]
                    exact hsub1⟩ }
/-- With leaf max_size at least 3 and internal max_size at least 2: on a well-formed tree
whose internal pages all have at least two children (of height `h`, holding the map `M`),
`Remove` run with fuel above the height returns, whether it
borrows from a sibling, merges pages or replaces the root; afterwards `GetValue` of the key
returns false with an empty result, `GetValue` of every other key returns what it returned
before the call, and the tree is well formed again (its internal pages have at least one
child). -/
theorem Remove_erases_only_the_key (t : BPlusTree) (h : Nat) (M : Int → Option Int)
    (key : Int) (fuel : Nat) (hwf : WellFormed t 2 h M) (hf : h < fuel) :
    ∃ t', Remove fuel t key = some t' ∧
      GetValue fuel t' key = some (false, []) ∧
      (∀ k', k' ≠ key → GetValue fuel t' k' = GetValue fuel t k') ∧
      ∃ h', WellFormed t' 1 h' (setAt M key none) := by
  obtain ⟨t', h', hR, hh', hwf'⟩ := Remove_wf t h M key fuel hwf hf
  refine ⟨t', hR, ?_, ?_, h', hwf'⟩
  · rw [GetValue_spec t' 1 h' _ hwf' key fuel (by omega)]
    simp [setAt, answer]
  · intro k' hk'
    rw [GetValue_spec t' 1 h' _ hwf' k' fuel (by omega),
      GetValue_spec t 2 h M hwf k' fuel hf]
    simp [setAt, hk']

theorem Remove_erases_only_the_key_example :
    WellFormed twoLeafTree 2 1 twoLeafMap ∧
      ∃ t', Remove 2 twoLeafTree 10 = some t' ∧
        GetValue 2 t' 10 = some (false, []) ∧
        (∀ k', k' ≠ 10 → GetValue 2 t' k' = GetValue 2 twoLeafTree k') ∧
        ∃ h', WellFormed t' 1 h' (setAt twoLeafMap 10 none) := by
  have hleaf1 : LeafOK 3 twoLeafMap
      { max_size_ := 3, next_page_id_ := 2, array_ := [(10, 100)] } none (some 20) :=
    { max := rfl, size := by decide, asc := by unfold Ascending; decide,
      lo_le := fun _ _ _ hl => (by cases hl),
      lt_hi := fun e he u hu => (by
        cases hu
        rw [List.mem_singleton] at he
        rw [he]
        decide),
      map := fun k _ hk => (by
        have := hk 20 rfl
        unfold twoLeafMap
        rw [if_pos this]) }
  have hleaf2 : LeafOK 3 twoLeafMap
      { max_size_ := 3, next_page_id_ := INVALID_PAGE_ID, array_ := [(20, 200), (30, 300)] }
      (some 20) none :=
    { max := rfl, size := by decide, asc := by unfold Ascending; decide,
      lo_le := fun e he l hl => (by
        cases hl
        simp only [List.mem_cons, List.mem_singleton, List.not_mem_nil, or_false] at he
        rcases he with rfl | rfl
        · decide
        · decide),
      lt_hi := fun _ _ _ hu => (by cases hu),
      map := fun k hk _ => (by
        have := hk 20 rfl
        unfold twoLeafMap
        rw [if_neg (by omega)]) }
  have hwf : WellFormed twoLeafTree 2 1 twoLeafMap :=
    { leaf_max := by decide, internal_max := by decide, next_nonneg := by decide,
      tree := Or.inr ⟨by decide,
        ⟨{ max_size_ := 3, array_ := [(0, 1), (20, 2)] }, {1, 2}, rfl, rfl, by decide,
          by decide,
          ⟨{1}, {2}, ⟨_, rfl, hleaf1, rfl⟩, fun _ hl => (by cases hl),
            ⟨⟨_, rfl, hleaf2, rfl⟩, fun _ _ _ hu => (by cases hu)⟩,
            fun q hq hq' => (by
              have h1 : q = 1 := hq
              have h2 : q = 2 := hq'
              omega),
            fun q hq => Or.inl hq, fun q hq => Or.inr hq⟩,
          fun hq => (by
            rcases hq with hq | hq
            · have h1 : (3 : Int) = 1 := hq
              omega
            · have h1 : (3 : Int) = 2 := hq
              omega),
          ⟨by decide, by decide⟩,
          fun q hq => (by
            rcases hq with hq | hq
            · have h1 : q = 1 := hq
              exact ⟨by omega, by rw [h1]; decide⟩
            · have h1 : q = 2 := hq
              exact ⟨by omega, by rw [h1]; decide⟩)⟩⟩ }
  exact ⟨hwf, Remove_erases_only_the_key twoLeafTree 1 twoLeafMap 10 2 hwf (by decide)⟩

/-- C3 (the code at the failing input): with max sizes 3 and 3 the inserts 1 to 5 build the
root page 7 over the internal pages 3 and 6, where page 3 has the single child 1, the leaf
page `[1]` (leaf min_size 1), and `GetValue(1)` returns true. `Remove(1)` empties the leaf
page and turns to the parent page 3 for a sibling: `Lookup(1)` is 1, the size of the page, so
`GetSiblingPageId` reads `ValueAt(-1)`, outside the page, and the call has no result. -/
theorem C3_remove_reads_outside_the_parent :
    ((insertAll 3 (empty 3 3) [(1, 1), (2, 2), (3, 3), (4, 4), (5, 5)]).map fun t =>
      (t.root_page_id_, (t.internalAt 7).map fun p => p.array_,
        (t.internalAt 3).map fun p =>
          (p.array_, p.Lookup 1, p.GetSize, p.ValueAt (p.Lookup 1 - 2), GetSiblingPageId p 1),
        (t.leafAt 1).map fun p => (p.array_, p.GetMinSize), GetValue 3 t 1,
        (Remove 3 t 1).isSome)) =
    some (7, some [(0, 3), (2, 6)], some ([(0, 1)], 1, 1, none, none), some ([(1, 1)], 1),
      some (true, [1]), false) := by
  rfl
/-- C30: on a leaf page whose keys are strictly ascending, `Lookup(key)` lies in
`[0, size]`, every index below it holds a key that the comparator puts strictly before `key`,
and when it is below `size` the key it points at is not before `key`: so `Lookup(key)` is the
smallest index `i` in `[0, size)` with `key ≤ keys[i]`, and it is `size` when no index has
such a key (0 on an empty page). -/
theorem C30_leaf_lookup_lower_bound (p : LeafPage) (key : Int)
    (hasc : Ascending (p.array_.map Prod.fst)) :
    0 ≤ p.Lookup key ∧ p.Lookup key ≤ p.GetSize ∧
    (∀ i : Int, 0 ≤ i → i < p.Lookup key →
      ∃ k, p.KeyAt i = some k ∧ comparator k key < 0) ∧
    (p.Lookup key < p.GetSize →
      ∃ k, p.KeyAt (p.Lookup key) = some k ∧ comparator k key ≥ 0) ∧
    ((∀ i : Int, 0 ≤ i → i < p.GetSize → ∀ k, p.KeyAt i = some k → comparator k key < 0) →
      p.Lookup key = p.GetSize) ∧
    (p.GetSize = 0 → p.Lookup key = 0) := by
  have hle := lowerBound_le (p.array_.map Prod.fst) key
  have hlen : (p.array_.map Prod.fst).length = p.array_.length := by simp
  have hkey : ∀ i : Int, 0 ≤ i → i < p.GetSize →
      p.KeyAt i = some ((p.array_.map Prod.fst).getD i.toNat 0) := by
    intro i h0 hi
    unfold LeafPage.GetSize at hi
    have hi' : i.toNat < p.array_.length := by omega
    simp [LeafPage.KeyAt, h0, List.getD_eq_getElem?_getD, List.getElem?_eq_getElem hi',
      List.get?_eq_getElem?]
  have hlow : 0 ≤ p.Lookup key ∧ p.Lookup key ≤ p.GetSize := by
    rw [leaf_Lookup_eq p key hasc]
    unfold LeafPage.GetSize
    omega
  have hbelow : ∀ i : Int, 0 ≤ i → i < p.Lookup key →
      ∃ k, p.KeyAt i = some k ∧ comparator k key < 0 := by
    intro i h0 hi
    refine ⟨_, hkey i h0 (by omega), ?_⟩
    rw [comparator_lt]
    apply lowerBound_lt
    rw [leaf_Lookup_eq p key hasc] at hi
    omega
  have hat : p.Lookup key < p.GetSize →
      ∃ k, p.KeyAt (p.Lookup key) = some k ∧ comparator k key ≥ 0 := by
    intro hlt
    refine ⟨_, hkey _ hlow.1 hlt, ?_⟩
    rw [comparator_ge]
    apply lowerBound_ge _ _ hasc
    · rw [leaf_Lookup_eq p key hasc]; simp
    · rw [hlen]; unfold LeafPage.GetSize at hlt; omega
  refine ⟨hlow.1, hlow.2, hbelow, hat, ?_, ?_⟩
  · intro hall
    by_contra hne
    have hlt : p.Lookup key < p.GetSize := by omega
    obtain ⟨k, hk, hge⟩ := hat hlt
    have := hall _ hlow.1 hlt k hk
    omega
  · intro h0
    omega

/-- C30 at a concrete input: on the leaf with keys 1, 3, 5 the lookup of 4 gives index 2,
the first index whose key is not before 4. -/
theorem C30_leaf_lookup_lower_bound_witness :
    Ascending ((⟨4, -1, [(1, 10), (3, 30), (5, 50)]⟩ : LeafPage).array_.map Prod.fst) ∧
    (⟨4, -1, [(1, 10), (3, 30), (5, 50)]⟩ : LeafPage).Lookup 4 = 2 ∧
    (∃ k, (⟨4, -1, [(1, 10), (3, 30), (5, 50)]⟩ : LeafPage).KeyAt
        ((⟨4, -1, [(1, 10), (3, 30), (5, 50)]⟩ : LeafPage).Lookup 4) = some k ∧
      comparator k 4 ≥ 0) :=
  ⟨by simp [Ascending], by decide,
    (C30_leaf_lookup_lower_bound ⟨4, -1, [(1, 10), (3, 30), (5, 50)]⟩ 4
      (by simp [Ascending])).2.2.2.1 (by decide)⟩
theorem internal_Lookup_nil (p : InternalPage) (key : Int) (harr : p.array_ = []) :
    p.Lookup key = 0 := by
  unfold InternalPage.Lookup InternalPage.GetSize
  rw [harr]
  simp [lookupLoop]

/-- C31: on an internal page whose keys at the indices `1 .. size-1` are strictly ascending,
`Lookup(key)` lies in `[1, size]` (it is `size` on a page without entries), every index of
`[1, size)` below it holds a key that the comparator puts strictly before `key`, and when it
is below `size` the key it points at is not before `key`: so `Lookup(key)` is the smallest
index `i` in `[1, size)` with `key ≤ keys[i]`, and it is `size` when no index has such a key.
The key at index 0 has no influence: the result is the same whatever key is stored there. -/
theorem C31_internal_lookup_lower_bound (p : InternalPage) (key : Int)
    (hasc : Ascending (p.array_.tail.map Prod.fst)) :
    (1 ≤ p.GetSize → 1 ≤ p.Lookup key) ∧ p.Lookup key ≤ p.GetSize ∧
    (∀ i : Int, 1 ≤ i → i < p.Lookup key →
      ∃ k, p.KeyAt i = some k ∧ comparator k key < 0) ∧
    (p.Lookup key < p.GetSize →
      1 ≤ p.Lookup key ∧ ∃ k, p.KeyAt (p.Lookup key) = some k ∧ comparator k key ≥ 0) ∧
    ((∀ i : Int, 1 ≤ i → i < p.GetSize → ∀ k, p.KeyAt i = some k → comparator k key < 0) →
      p.Lookup key = p.GetSize) ∧
    (∀ key0 : Int, (p.SetKeyAt 0 key0).Lookup key = p.Lookup key) := by
  cases harr : p.array_ with
  | nil =>
    have h0 := internal_Lookup_nil p key harr
    have hsz : p.GetSize = 0 := by simp [InternalPage.GetSize, harr]
    refine ⟨fun h => by omega, by omega, fun i h1 h2 => by omega, fun h => by omega,
      fun _ => by omega, ?_⟩
    intro key0
    rw [h0]
    apply internal_Lookup_nil
    simp [InternalPage.SetKeyAt, harr]
  | cons e rest =>
    rw [harr] at hasc
    simp only [List.tail_cons] at hasc
    have hL := internal_Lookup_eq p key e rest harr hasc
    have hle := lowerBound_le (rest.map Prod.fst) key
    simp only [List.length_map] at hle
    have hsz : p.GetSize = (rest.length : Int) + 1 := by simp [InternalPage.GetSize, harr]
    have hkey : ∀ i : Int, 1 ≤ i → i < p.GetSize →
        p.KeyAt i = some ((rest.map Prod.fst).getD (i - 1).toNat 0) := by
      intro i h1 hi
      have hi' : (i - 1).toNat < rest.length := by omega
      have hn : i.toNat = (i - 1).toNat + 1 := by omega
      have h0 : 0 ≤ i := by omega
      unfold InternalPage.KeyAt
      rw [if_pos h0, harr, hn]
      generalize (i - 1).toNat = j at hi'
      simp [List.getD_eq_getElem?_getD, List.getElem?_eq_getElem hi', List.get?_eq_getElem?]
    have hbelow : ∀ i : Int, 1 ≤ i → i < p.Lookup key →
        ∃ k, p.KeyAt i = some k ∧ comparator k key < 0 := by
      intro i h1 hi
      refine ⟨_, hkey i h1 (by omega), ?_⟩
      rw [comparator_lt]
      apply lowerBound_lt
      rw [hL] at hi
      omega
    have hat : p.Lookup key < p.GetSize →
        1 ≤ p.Lookup key ∧ ∃ k, p.KeyAt (p.Lookup key) = some k ∧ comparator k key ≥ 0 := by
      intro hlt
      refine ⟨by omega, _, hkey _ (by omega) hlt, ?_⟩
      rw [comparator_ge]
      apply lowerBound_ge _ _ hasc
      · rw [hL]; simp
      · rw [List.length_map]; omega
    refine ⟨fun _ => by omega, by omega, hbelow, hat, ?_, ?_⟩
    · intro hall
      by_contra hne
      have hlt : p.Lookup key < p.GetSize := by omega
      obtain ⟨h1, k, hk, hge⟩ := hat hlt
      have := hall _ h1 hlt k hk
      omega
    · intro key0
      rw [hL]
      exact internal_Lookup_eq (p.SetKeyAt 0 key0) key (key0, e.2) rest
        (by simp [InternalPage.SetKeyAt, harr]) hasc

/-- C31 at a concrete input: on the internal page with the keys 3, 5 at the indices 1, 2 the
lookup of 4 gives index 2, the first index whose key is not before 4, whatever key index 0
holds. -/
theorem C31_internal_lookup_lower_bound_witness :
    Ascending ((⟨4, [(0, 10), (3, 30), (5, 50)]⟩ : InternalPage).array_.tail.map Prod.fst) ∧
    (⟨4, [(0, 10), (3, 30), (5, 50)]⟩ : InternalPage).Lookup 4 = 2 ∧
    ((⟨4, [(0, 10), (3, 30), (5, 50)]⟩ : InternalPage).SetKeyAt 0 9).Lookup 4 =
      (⟨4, [(0, 10), (3, 30), (5, 50)]⟩ : InternalPage).Lookup 4 :=
  ⟨by simp [Ascending], by decide,
    (C31_internal_lookup_lower_bound ⟨4, [(0, 10), (3, 30), (5, 50)]⟩ 4
      (by simp [Ascending])).2.2.2.2.2 9⟩

/-- C32: on a leaf page with strictly ascending keys and a key that is not on the page: when
the page is not full (`GetSize() != GetMaxSize()`), `Insert(key, value)` returns the old size
plus one, and the page afterwards holds exactly the old entries plus `(key, value)` (its
array is a permutation of the old one with the new entry added, the other fields are kept)
in strictly ascending key order; when the page is full, `Insert` returns -1 and the page is
unchanged. -/
theorem C32_leaf_insert (p : LeafPage) (key value : Int)
    (hasc : Ascending (p.array_.map Prod.fst)) (hne : ∀ e ∈ p.array_, e.1 ≠ key) :
    (p.GetSize ≠ p.GetMaxSize →
      (p.Insert key value).2 = p.GetSize + 1 ∧
      (p.Insert key value).1.GetSize = p.GetSize + 1 ∧
      List.Perm (p.Insert key value).1.array_ ((key, value) :: p.array_) ∧
      Ascending ((p.Insert key value).1.array_.map Prod.fst) ∧
      (p.Insert key value).1.max_size_ = p.max_size_ ∧
      (p.Insert key value).1.next_page_id_ = p.next_page_id_) ∧
    (p.GetSize = p.GetMaxSize → p.Insert key value = (p, -1)) := by
  constructor
  · intro hsz
    unfold LeafPage.Insert
    rw [if_pos hsz]
    simp only [leaf_Lookup_eq p key hasc, Int.toNat_ofNat, insertAt_eq]
    have hlt := lowerBound_take_lt (p.array_.map Prod.fst) key
    have hge := lowerBound_drop_ge (p.array_.map Prod.fst) key hasc
    have hle := lowerBound_le (p.array_.map Prod.fst) key
    rw [List.length_map] at hle
    generalize lowerBound (p.array_.map Prod.fst) key = n at *
    rw [← List.map_take] at hlt
    rw [← List.map_drop] at hge
    have hgt : ∀ e ∈ p.array_.drop n, key < e.1 := by
      intro e he
      have h1 := hge e.1 (List.mem_map_of_mem _ he)
      have h2 := hne e (List.mem_of_mem_drop he)
      omega
    have hlt' : ∀ e ∈ p.array_.take n, e.1 < key :=
      fun e he => hlt e.1 (List.mem_map_of_mem _ he)
    have hlen : ((p.array_.take n ++ (key, value) :: p.array_.drop n).length : Int) =
        (p.array_.length : Int) + 1 := by
      simp only [List.length_append, List.length_cons, List.length_take, List.length_drop]
      push_cast
      omega
    refine ⟨hlen, hlen, ?_, ?_, trivial, trivial⟩
    · have h : List.Perm (p.array_.take n ++ (key, value) :: p.array_.drop n)
          ((key, value) :: (p.array_.take n ++ p.array_.drop n)) := List.perm_middle
      rw [List.take_append_drop] at h
      exact h
    · unfold Ascending at hasc ⊢
      rw [← List.take_append_drop n p.array_, List.map_append, List.pairwise_append] at hasc
      simp only [List.map_append, List.map_cons]
      rw [List.pairwise_append]
      refine ⟨hasc.1, ?_, ?_⟩
      · rw [List.pairwise_cons]
        refine ⟨?_, hasc.2.1⟩
        intro k hk
        rw [List.mem_map] at hk
        obtain ⟨e, he, rfl⟩ := hk
        exact hgt e he
      · intro a ha b hb
        rw [List.mem_map] at ha
        obtain ⟨ea, hea, rfl⟩ := ha
        rcases List.mem_cons.mp hb with hb | hb
        · subst hb; exact hlt' ea hea
        · rw [List.mem_map] at hb
          obtain ⟨eb, heb, rfl⟩ := hb
          have := hlt' ea hea
          have := hgt eb heb
          omega
  · intro hsz
    unfold LeafPage.Insert
    rw [if_neg (by simpa using hsz)]

/-- C32 at a concrete input: on the leaf with keys 1, 5 and room for four entries the
insertion of key 3 returns 3 and gives ascending keys. -/
theorem C32_leaf_insert_witness :
    ((⟨4, -1, [(1, 10), (5, 50)]⟩ : LeafPage).Insert 3 30).2 =
      (⟨4, -1, [(1, 10), (5, 50)]⟩ : LeafPage).GetSize + 1 ∧
    ((⟨4, -1, [(1, 10), (5, 50)]⟩ : LeafPage).Insert 3 30).1.array_ =
      [(1, 10), (3, 30), (5, 50)] :=
  ⟨((C32_leaf_insert ⟨4, -1, [(1, 10), (5, 50)]⟩ 3 30 (by simp [Ascending])
      (by decide)).1 (by decide)).1, by decide⟩

/-- C34: on a leaf page with the entries `e0 .. e(n-1)` and an empty recipient with room (the
assertion of `MoveHalfTo`, `recipient size + n/2 < recipient max size`, holds), `MoveHalfTo`
leaves `e0 .. e(n/2 - 1)` in the source and puts `e(n/2) .. e(n-1)` into the recipient in the
same order; the concatenation of source and recipient afterwards is the original entry list
and the sizes sum to `n`. -/
theorem C34_leaf_move_half_to (p recipient : LeafPage) (hempty : recipient.array_ = [])
    (hroom : (p.array_.length : Int) / 2 < recipient.GetMaxSize) :
    ∃ src rec, p.MoveHalfTo recipient = some (src, rec) ∧
      src.array_ = p.array_.take (p.array_.length / 2) ∧
      rec.array_ = p.array_.drop (p.array_.length / 2) ∧
      src.array_ ++ rec.array_ = p.array_ ∧
      src.GetSize + rec.GetSize = p.GetSize ∧
      src.max_size_ = p.max_size_ ∧ src.next_page_id_ = p.next_page_id_ ∧
      rec.max_size_ = recipient.max_size_ ∧ rec.next_page_id_ = recipient.next_page_id_ := by
  have hmoved : storeSlots recipient.array_ 0 (p.array_.drop (p.array_.length / 2))
      (recipient.array_.length + (p.array_.drop (p.array_.length / 2)).length) (0, 0) =
      p.array_.drop (p.array_.length / 2) := by
    rw [hempty]
    exact storeSlots_nil_zero _ _
  have htake : p.array_.length - (p.array_.drop (p.array_.length / 2)).length =
      p.array_.length / 2 := by
    rw [List.length_drop]
    omega
  refine ⟨{ p with array_ := p.array_.take (p.array_.length / 2) },
    { recipient with array_ := p.array_.drop (p.array_.length / 2) }, ?_, rfl, rfl,
    List.take_append_drop _ _, ?_, rfl, rfl, rfl, rfl⟩
  · unfold LeafPage.MoveHalfTo
    simp only [hmoved, htake]
    rw [if_pos]
    rw [hempty]
    simpa using hroom
  · simp only [LeafPage.GetSize, List.length_take, List.length_drop]
    omega

/-- C34 at a concrete input: a leaf with the five entries of the keys 1 .. 5 keeps the keys
1, 2 and hands 3, 4, 5 to the empty recipient. -/
theorem C34_leaf_move_half_to_witness :
    ∃ src rec, (⟨5, -1, [(1, 10), (2, 20), (3, 30), (4, 40), (5, 50)]⟩ : LeafPage).MoveHalfTo
        ⟨5, -1, []⟩ = some (src, rec) ∧
      src.array_ = [(1, 10), (2, 20)] ∧ rec.array_ = [(3, 30), (4, 40), (5, 50)] := by
  obtain ⟨src, rec, h, hs, hr, _⟩ := C34_leaf_move_half_to
    ⟨5, -1, [(1, 10), (2, 20), (3, 30), (4, 40), (5, 50)]⟩ ⟨5, -1, []⟩ rfl (by decide)
  exact ⟨src, rec, h, hs, hr⟩

theorem GetParentPageIdFrom_append (c : Int) (l' : List Int) :
    ∀ (l : List Int) (x r : Int), GetParentPageIdFrom c l x = some r →
      GetParentPageIdFrom c (l ++ l') x = some r := by
  intro l
  induction l with
  | nil => intro x r h; simp [GetParentPageIdFrom] at h
  | cons a l ih =>
    intro x r h
    rw [List.cons_append]
    unfold GetParentPageIdFrom at h ⊢
    by_cases hac : a = c
    · rw [if_pos hac] at h ⊢; exact h
    · rw [if_neg hac] at h ⊢; exact ih a r h

theorem InsertChain_congr (pages pages' : Int → Option BPlusTreePage) (root : Int)
    (header : Bool) (access : List Int) (bound : Int) :
    ∀ (stack : List Int) (left : Int), (∀ q ∈ stack, q < bound → pages' q = pages q) →
      InsertChain pages root header access bound left stack →
      InsertChain pages' root header access bound left stack := by
  intro stack
  induction stack with
  | nil => intro left _ h; exact h
  | cons g rest ih =>
    intro left hpg h
    rcases h with h | ⟨h1, h2, h3, h4, p, hp, hmem, hrec⟩
    · exact Or.inl h
    · refine Or.inr ⟨h1, h2, h3, h4, p, ?_, hmem, fun hfull => ?_⟩
      · rw [hpg g (List.mem_cons_self _ _) h3]; exact hp
      · exact ih g (fun q hq => hpg q (List.mem_cons_of_mem _ hq)) (hrec hfull)

/-- A chain of held guards above a page does not depend on the page itself nor on the pages
allocated after the bound. -/
theorem InsertChain_update (pages pages' : Int → Option BPlusTreePage) (root : Int)
    (header : Bool) (access : List Int) (bound : Int) (stack : List Int) (left : Int)
    (hpg : ∀ q ∈ stack, q ≠ left → q < bound → pages' q = pages q)
    (h : InsertChain pages root header access bound left stack) :
    InsertChain pages' root header access bound left stack := by
  cases stack with
  | nil => exact h
  | cons g rest =>
    rcases h with h | h
    · exact Or.inl h
    · have hnotin := h.2.1
      exact InsertChain_congr pages pages' root header access bound (g :: rest) left
        (fun q hq hlt => hpg q hq (fun hql => hnotin (hql ▸ hq)) hlt) (Or.inr h)

theorem InsertChain_access (pages : Int → Option BPlusTreePage) (root : Int)
    (header : Bool) (access more : List Int) (bound : Int) :
    ∀ (stack : List Int) (left : Int),
      InsertChain pages root header access bound left stack →
      InsertChain pages root header (access ++ more) bound left stack := by
  intro stack
  induction stack with
  | nil => intro left h; exact h
  | cons g rest ih =>
    intro left h
    rcases h with h | ⟨h1, h2, h3, h4, p, hp, hmem, hrec⟩
    · exact Or.inl h
    · exact Or.inr ⟨h1, h2, h3, GetParentPageIdFrom_append _ _ _ _ _ h4, p, hp, hmem,
        fun hfull => ih g (hrec hfull)⟩

theorem InsertChain_bound (pages : Int → Option BPlusTreePage) (root : Int)
    (header : Bool) (access : List Int) (bound bound' : Int) (hb : bound ≤ bound') :
    ∀ (stack : List Int) (left : Int),
      InsertChain pages root header access bound left stack →
      InsertChain pages root header access bound' left stack := by
  intro stack
  induction stack with
  | nil => intro left h; exact h
  | cons g rest ih =>
    intro left h
    rcases h with h | ⟨h1, h2, h3, h4, p, hp, hmem, hrec⟩
    · exact Or.inl h
    · exact Or.inr ⟨h1, h2, by omega, h4, p, hp, hmem, fun hfull => ih g (hrec hfull)⟩

theorem parentHeld_of (t : BPlusTree) (left : Int) (ctx : Context) (g : Int)
    (rest : List Int) (p : InternalPage) (hws : ctx.write_set_ = g :: rest)
    (hpar : GetParentPageIdFrom left ctx.access_set_ INVALID_PAGE_ID = some g)
    (hp : t.pages g = some (BPlusTreePage.internal p))
    (hmem : left ∈ p.array_.map Prod.snd) : parentHeld t left ctx = true := by
  have hint : t.internalAt g = some p := by
    unfold BPlusTree.internalAt
    rw [hp]; rfl
  unfold parentHeld GetParentPageId
  rw [hpar, hws]
  simp only [hint, decide_True, Bool.true_and, decide_eq_true_eq]
  exact hmem

/-- `InsertInParent` under a chain of held guards: no guard is missed, the run with the guards
looked at gives what `InsertInParent` gives. -/
theorem InsertInParent_checked :
    ∀ (stack : List Int) (fuel : Nat) (t : BPlusTree) (left key right : Int) (ctx : Context)
      (bound : Int),
      ctx.write_set_ = stack → bound ≤ t.next_page_id_ →
      InsertChain t.pages ctx.root_page_id_ ctx.header_page_ ctx.access_set_ bound left stack →
      InsertInParentChecked fuel t left key right ctx =
        Guarded.ran (InsertInParentAux fuel t left key right ctx) := by
  have hrootcase : ∀ (fuel : Nat) (t : BPlusTree) (left key right : Int) (ctx : Context),
      left = ctx.root_page_id_ → ctx.header_page_ = true →
      InsertInParentChecked (fuel + 1) t left key right ctx =
        Guarded.ran (InsertInParentAux (fuel + 1) t left key right ctx) := by
    intro fuel t left key right ctx hroot hh
    unfold InsertInParentChecked InsertInParentAux
    simp only [if_pos hroot.symm, hh, not_true_eq_false, if_false]
  intro stack
  induction stack with
  | nil =>
    intro fuel t left key right ctx bound hws hb hch
    cases fuel with
    | zero => rfl
    | succ fuel => exact hrootcase fuel t left key right ctx hch.1 hch.2
  | cons g rest ih =>
    intro fuel t left key right ctx bound hws hb hch
    cases fuel with
    | zero => rfl
    | succ fuel =>
      rcases hch with ⟨hroot, hh⟩ | ⟨hroot, hnotin, hgb, hpar, p, hp, hmem, hrec⟩
      · exact hrootcase fuel t left key right ctx hroot hh
      · have hheld := parentHeld_of t left ctx g rest p hws hpar hp hmem
        have hroot' : ¬ ctx.root_page_id_ = left := fun h => hroot h.symm
        have hpop : ctx.popWrite = some (g, { ctx with write_set_ := rest }) := by
          unfold Context.popWrite
          rw [hws]
        have hint : t.internalAt g = some p := by
          unfold BPlusTree.internalAt
          rw [hp]; rfl
        have hpar' : GetParentPageId left ctx = some g := hpar
        by_cases hroom : p.GetSize < p.GetMaxSize
        · unfold InsertInParentChecked InsertInParentAux
          simp only [if_neg hroot', hheld, hpar', hpop, hint, if_pos hroom, not_true_eq_false,
            if_false]
        · obtain ⟨pl, pn, hpair⟩ : ∃ pl pn : InternalPage,
              (if p.Lookup key > (p.MoveHalfTo
                  { max_size_ := t.internal_max_size_, array_ := [] }).1.GetMaxSize / 2 then
                ((p.MoveHalfTo { max_size_ := t.internal_max_size_, array_ := [] }).1,
                  ((p.MoveHalfTo { max_size_ := t.internal_max_size_, array_ := [] }).2.Insert
                    key right).1)
              else (((p.MoveHalfTo { max_size_ := t.internal_max_size_, array_ := [] }).1.Insert
                    key right).1,
                  (p.MoveHalfTo { max_size_ := t.internal_max_size_, array_ := [] }).2)) =
                (pl, pn) := ⟨_, _, Prod.mk.eta.symm⟩
          unfold InsertInParentChecked InsertInParentAux
          simp only [if_neg hroot', hheld, hpar', hpop, hint, if_neg hroom, not_true_eq_false,
            if_false, BPlusTree.NewPage, hpair]
          cases hk : pn.KeyAt 1 with
          | none => rfl
          | some mk =>
            cases hv : pn.ValueAt 1 with
            | none => rfl
            | some mv =>
              simp only
              apply ih fuel _ g mk t.next_page_id_ _ bound rfl
                (by show bound ≤ t.next_page_id_ + 1; omega)
              apply InsertChain_update t.pages _ _ _ _ _ _ _ _ (hrec hroom)
              intro q _ hqg hqb
              show (if q = t.next_page_id_ then _ else (if q = g then _ else _)) = _
              rw [if_neg (by omega), if_neg hqg]
theorem internal_ValueAt_mem (p : InternalPage) (i s : Int) (h : p.ValueAt i = some s) :
    s ∈ p.array_.map Prod.snd := by
  unfold InternalPage.ValueAt at h
  split at h
  · cases hg : p.array_.get? i.toNat with
    | none => rw [hg] at h; cases h
    | some e =>
      rw [hg] at h
      simp only [Option.map_some', Option.some.injEq] at h
      rw [← h]
      exact List.mem_map_of_mem _ (List.get?_mem hg)
  · cases h

theorem childFor_mem (p : InternalPage) (key c : Int) (h : childFor p key = some c) :
    c ∈ p.array_.map Prod.snd := by
  unfold childFor at h
  simp only at h
  split at h
  · exact internal_ValueAt_mem p _ _ h
  · exact internal_ValueAt_mem p _ _ h

theorem shape_zero (pages : Int → Option BPlusTreePage) (next page_id : Int)
    (above : List Int) :
    shape pages next 0 page_id above = true ↔
      (0 ≤ page_id ∧ page_id < next ∧ page_id ∉ above) ∧
        ∃ p, pages page_id = some (BPlusTreePage.leaf p) := by
  unfold shape
  rw [Bool.and_eq_true, decide_eq_true_eq]
  constructor
  · rintro ⟨h1, h2⟩
    refine ⟨h1, ?_⟩
    split at h2
    · exact ⟨_, by assumption⟩
    · cases h2
  · rintro ⟨h1, p, hp⟩
    exact ⟨h1, by rw [hp]⟩

theorem shape_succ (pages : Int → Option BPlusTreePage) (next : Int) (h : Nat)
    (page_id : Int) (above : List Int) :
    shape pages next (h + 1) page_id above = true ↔
      (0 ≤ page_id ∧ page_id < next ∧ page_id ∉ above) ∧
        ∃ p, pages page_id = some (BPlusTreePage.internal p) ∧
          ∀ c ∈ p.array_.map Prod.snd, shape pages next h c (page_id :: above) = true := by
  rw [shape]
  rw [Bool.and_eq_true, decide_eq_true_eq]
  constructor
  · rintro ⟨h1, h2⟩
    refine ⟨h1, ?_⟩
    split at h2
    · rename_i p hp
      refine ⟨p, hp, fun c hc => ?_⟩
      obtain ⟨e, he, rfl⟩ := List.mem_map.mp hc
      exact List.all_eq_true.mp h2 e he
    · cases h2
  · rintro ⟨h1, p, hp, hall⟩
    refine ⟨h1, ?_⟩
    rw [hp]
    exact List.all_eq_true.mpr fun e he => hall e.2 (List.mem_map_of_mem _ he)

theorem shape_page (pages : Int → Option BPlusTreePage) (next : Int) (h : Nat)
    (page_id : Int) (above : List Int) (hs : shape pages next h page_id above = true) :
    (0 ≤ page_id ∧ page_id < next ∧ page_id ∉ above) ∧ ∃ pg, pages page_id = some pg := by
  cases h with
  | zero =>
    obtain ⟨h1, p, hp⟩ := (shape_zero _ _ _ _).mp hs
    exact ⟨h1, _, hp⟩
  | succ h =>
    obtain ⟨h1, p, hp, _⟩ := (shape_succ _ _ _ _ _).mp hs
    exact ⟨h1, _, hp⟩

/-- The descent of `Insert` below the page `pid` of a tree, when the guards above `pid` are
held as far as a split of `pid` needs them: it ends at a page with its own guard at the back
of `write_set_` and the guards above it held as far as a split of that page needs them. -/
theorem InsertGetKeyAtLoop_chain (key : Int) (t : BPlusTree) :
    ∀ (h : Nat) (pid : Int) (above : List Int) (ctx : Context) (ws0 acc0 : List Int)
      (fuel : Nat) (ctx1 : Context) (leaf : Int),
      shape t.pages t.next_page_id_ h pid above = true →
      ctx.write_set_ = pid :: ws0 → ctx.access_set_ = acc0 ++ [pid] →
      (∀ q ∈ acc0, q ∈ above) → ctx.root_page_id_ ∈ acc0 ++ [pid] → (∀ q ∈ ws0, q ∈ acc0) →
      (∀ pg, t.pages pid = some pg → ¬ (pg.GetSize + 1 < pg.GetMaxSize) →
        InsertChain t.pages ctx.root_page_id_ ctx.header_page_ ctx.access_set_
          t.next_page_id_ pid ws0) →
      InsertGetKeyAtLoop t key fuel pid ctx = some (ctx1, leaf) →
      ∃ stack, ctx1.write_set_ = leaf :: stack ∧
        (∀ pg, t.pages leaf = some pg → ¬ (pg.GetSize + 1 < pg.GetMaxSize) →
          InsertChain t.pages ctx1.root_page_id_ ctx1.header_page_ ctx1.access_set_
            t.next_page_id_ leaf stack) := by
  intro h
  induction h with
  | zero =>
    intro pid above ctx ws0 acc0 fuel ctx1 leaf hs hws hacc habove hroot hwsacc hJ hrun
    obtain ⟨_, p, hp⟩ := (shape_zero _ _ _ _).mp hs
    cases fuel with
    | zero => simp [InsertGetKeyAtLoop] at hrun
    | succ fuel =>
      unfold InsertGetKeyAtLoop at hrun
      rw [hp] at hrun
      simp only [Option.some.injEq, Prod.mk.injEq] at hrun
      obtain ⟨h1, h2⟩ := hrun
      subst h1
      subst h2
      exact ⟨ws0, hws, hJ⟩
  | succ h ih =>
    intro pid above ctx ws0 acc0 fuel ctx1 leaf hs hws hacc habove hroot hwsacc hJ hrun
    obtain ⟨⟨_, hpidlt, hpidab⟩, p, hp, hall⟩ := (shape_succ _ _ _ _ _).mp hs
    cases fuel with
    | zero => simp [InsertGetKeyAtLoop] at hrun
    | succ fuel =>
      unfold InsertGetKeyAtLoop at hrun
      simp only [hp] at hrun
      cases hcf : childFor p key with
      | none => rw [hcf] at hrun; cases hrun
      | some c =>
        have hcmem := childFor_mem p key c hcf
        have hsc := hall c hcmem
        obtain ⟨⟨_, _, hcab⟩, cp, hcp⟩ := shape_page _ _ _ _ _ hsc
        have hcacc : c ∉ acc0 ++ [pid] := by
          intro hx
          rcases List.mem_append.mp hx with h1 | h1
          · exact hcab (List.mem_cons_of_mem _ (habove c h1))
          · rw [List.mem_singleton] at h1
            exact hcab (h1 ▸ List.mem_cons_self _ _)
        have habove' : ∀ q ∈ acc0 ++ [pid], q ∈ pid :: above := by
          intro q hq
          rcases List.mem_append.mp hq with h1 | h1
          · exact List.mem_cons_of_mem _ (habove q h1)
          · rw [List.mem_singleton] at h1
            rw [h1]
            exact List.mem_cons_self _ _
        simp only [hcf, hcp] at hrun
        by_cases hsafe : cp.GetSize + 1 < cp.GetMaxSize
        · rw [if_pos hsafe] at hrun
          exact ih c (pid :: above)
            { ctx with header_page_ := false, write_set_ := [c],
                       access_set_ := ctx.access_set_ ++ [c] }
            [] (acc0 ++ [pid]) fuel ctx1 leaf hsc rfl
            (by show ctx.access_set_ ++ [c] = _; rw [hacc]) habove'
            (List.mem_append_left _ hroot) (fun q hq => by cases hq)
            (fun pg hpg hns => by
              rw [hcp] at hpg
              cases hpg
              exact absurd hsafe hns)
            hrun
        · rw [if_neg hsafe] at hrun
          have hchain : InsertChain t.pages ctx.root_page_id_ ctx.header_page_
              (ctx.access_set_ ++ [c]) t.next_page_id_ c (pid :: ws0) := by
            refine Or.inr ⟨fun (hx : c = ctx.root_page_id_) => hcacc (hx ▸ hroot), ?_,
              hpidlt, ?_, p, hp, hcmem, fun hfull => ?_⟩
            · intro hx
              rcases List.mem_cons.mp hx with h1 | h1
              · exact hcacc (by rw [h1]; simp)
              · exact hcacc (List.mem_append_left _ (hwsacc _ h1))
            · exact GetParentPageId_eq c pid acc0 []
                { ctx with access_set_ := ctx.access_set_ ++ [c] }
                (by show ctx.access_set_ ++ [c] = _; rw [hacc]) hcacc
            · apply InsertChain_access
              apply hJ _ hp
              show ¬ (p.GetSize + 1 < p.GetMaxSize)
              omega
          exact ih c (pid :: above)
            { ctx with write_set_ := c :: ctx.write_set_,
                       access_set_ := ctx.access_set_ ++ [c] }
            (pid :: ws0) (acc0 ++ [pid]) fuel ctx1 leaf hsc
            (by show c :: ctx.write_set_ = _; rw [hws])
            (by show ctx.access_set_ ++ [c] = _; rw [hacc]) habove'
            (List.mem_append_left _ hroot)
            (fun q hq => by
              rcases List.mem_cons.mp hq with h1 | h1
              · rw [h1]; simp
              · exact List.mem_append_left _ (hwsacc _ h1))
            (fun _ _ _ => hchain) hrun

theorem leafAt_page (t : BPlusTree) (id : Int) (lp : LeafPage) (h : t.leafAt id = some lp) :
    t.pages id = some (BPlusTreePage.leaf lp) := by
  unfold BPlusTree.leafAt at h
  cases hp : t.pages id with
  | none => rw [hp] at h; cases h
  | some pg =>
    rw [hp] at h
    cases pg with
    | leaf p =>
      simp only [Option.some_bind, BPlusTreePage.asLeaf, Option.some.injEq] at h
      rw [h]
    | internal p => cases h

/-- The part of `Insert` after the descent, with the guard of the leaf page at the back of
`write_set_` and the guards above it held as far as a split needs them: no guard is missed,
the run with the guards looked at gives what `InsertIntoLeaf` gives. -/
theorem InsertIntoLeaf_checked (t : BPlusTree) (key value : Int) (ctx : Context)
    (leaf : Int) (stack : List Int) (hws : ctx.write_set_ = leaf :: stack)
    (hchain : ∀ pg, t.pages leaf = some pg → ¬ (pg.GetSize + 1 < pg.GetMaxSize) →
      InsertChain t.pages ctx.root_page_id_ ctx.header_page_ ctx.access_set_
        t.next_page_id_ leaf stack) :
    InsertIntoLeafChecked t key value ctx leaf =
      Guarded.ran (InsertIntoLeaf t key value ctx leaf) := by
  have hpop : ctx.popWrite = some (leaf, { ctx with write_set_ := stack }) := by
    unfold Context.popWrite
    rw [hws]
  cases hleaf : t.leafAt leaf with
  | none =>
    unfold InsertIntoLeafChecked InsertIntoLeaf
    simp only [hpop, hleaf]
  | some lp =>
    have hp := leafAt_page t leaf lp hleaf
    by_cases hfound : lp.Lookup key > 0 ∧ lp.Lookup key < lp.GetSize ∧
        comparator (lp.rawKey (lp.Lookup key)) key = 0
    · unfold InsertIntoLeafChecked InsertIntoLeaf
      simp only [hpop, hleaf, if_pos hfound]
    · by_cases hroom : lp.GetSize + 1 < lp.GetMaxSize
      · unfold InsertIntoLeafChecked InsertIntoLeaf
        simp only [hpop, hleaf, if_neg hfound, if_pos hroom]
      · cases hmove : lp.MoveHalfTo
            { max_size_ := t.leaf_max_size_, next_page_id_ := lp.GetNextPageId,
              array_ := [] } with
        | none =>
          unfold InsertIntoLeafChecked InsertIntoLeaf
          simp only [hpop, hleaf, if_neg hfound, if_neg hroom, BPlusTree.NewPage, hmove]
        | some AB =>
          obtain ⟨A, B⟩ := AB
          obtain ⟨L, R, hpair⟩ : ∃ L R : LeafPage,
              (if lp.Lookup key ≤ ((A.SetNextPageId t.next_page_id_).GetMaxSize - 1) / 2 then
                (((A.SetNextPageId t.next_page_id_).Insert key value).1, B)
              else (A.SetNextPageId t.next_page_id_, (B.Insert key value).1)) = (L, R) :=
            ⟨_, _, Prod.mk.eta.symm⟩
          unfold InsertIntoLeafChecked InsertIntoLeaf InsertInParent
          simp only [hpop, hleaf, if_neg hfound, if_neg hroom, BPlusTree.NewPage, hmove, hpair]
          cases hmid : R.KeyAt 0 with
          | none => rfl
          | some mid =>
            simp only
            rw [InsertInParent_checked stack (stack.length + 1) _ leaf mid t.next_page_id_ _
              t.next_page_id_ rfl (by show t.next_page_id_ ≤ t.next_page_id_ + 1; omega)
              (by
                apply InsertChain_update t.pages _ _ _ _ _ _ _ _ (hchain _ hp hroom)
                intro q _ hql hqb
                show (if q = t.next_page_id_ then _ else (if q = leaf then _ else _)) = _
                rw [if_neg (by omega), if_neg hql])]
            rfl

/-- `Insert` on a tree, for any key and any amount of fuel: no guard is missed, the run with
the guards looked at gives what `Insert` gives. At every split of a page that is not the root
the last guard of `write_set_` holds the parent of the page, and the header guard is held
when the root page id is changed. -/
theorem Insert_checked (t : BPlusTree) (h : Nat) (key value : Int) (fuel : Nat)
    (hs : Shaped t h) :
    InsertChecked fuel t key value = Guarded.ran (Insert fuel t key value) := by
  by_cases hroot : t.root_page_id_ = INVALID_PAGE_ID
  · unfold InsertChecked InsertGetKeyAtChecked Insert InsertGetKeyAt
    simp only [hroot, if_true, BPlusTree.NewPage, SetRootPageId, Context.new,
      not_true_eq_false, if_false]
    exact InsertIntoLeaf_checked _ key value _ t.next_page_id_ [] rfl
      (fun _ _ _ => ⟨rfl, rfl⟩)
  · have hshape : shape t.pages t.next_page_id_ h t.root_page_id_ [] = true :=
      hs.resolve_left hroot
    obtain ⟨_, rp, hrp⟩ := shape_page _ _ _ _ _ hshape
    unfold InsertChecked InsertGetKeyAtChecked Insert InsertGetKeyAt
    simp only [hroot, if_false, hrp, Context.new, List.nil_append]
    cases hloop : InsertGetKeyAtLoop t key fuel t.root_page_id_
        { root_page_id_ := t.root_page_id_, header_page_ := true,
          write_set_ := [t.root_page_id_], read_set_ := [],
          access_set_ := [t.root_page_id_] } with
    | none => rfl
    | some r =>
      obtain ⟨ctx1, leaf⟩ := r
      obtain ⟨stack, hws1, hchain⟩ := InsertGetKeyAtLoop_chain key t h t.root_page_id_ []
        _ [] [] fuel ctx1 leaf hshape rfl rfl (fun _ hq => by cases hq)
        (List.mem_singleton.mpr rfl) (fun _ hq => by cases hq) (fun _ _ _ => ⟨rfl, rfl⟩) hloop
      simp only
      exact InsertIntoLeaf_checked t key value ctx1 leaf stack hws1 hchain
theorem RemoveChain_congr (pages pages' : Int → Option BPlusTreePage) (root : Int)
    (header : Bool) (access : List Int) :
    ∀ (stack : List Int) (basic : Int), (∀ q ∈ basic :: stack, pages' q = pages q) →
      RemoveChain pages root header access basic stack →
      RemoveChain pages' root header access basic stack := by
  intro stack
  induction stack with
  | nil =>
    intro basic hpg h
    refine ⟨h.1, fun hne pg hp => h.2 hne pg ?_⟩
    rw [← hpg basic (List.mem_cons_self _ _)]; exact hp
  | cons g rest ih =>
    intro basic hpg h
    refine ⟨h.1, fun hne pg hp hlow => ?_⟩
    have hp' : pages basic = some pg := by
      rw [← hpg basic (List.mem_cons_self _ _)]; exact hp
    obtain ⟨h1, h2, p, hpp, hmem, hch, hrec⟩ := h.2 hne pg hp' hlow
    refine ⟨h1, h2, p, ?_, hmem, hch, ?_⟩
    · rw [hpg g (List.mem_cons_of_mem _ (List.mem_cons_self _ _))]; exact hpp
    · exact ih g (fun q hq => hpg q (List.mem_cons_of_mem _ hq)) hrec

theorem RemoveChain_access (pages : Int → Option BPlusTreePage) (root : Int)
    (header : Bool) (access more : List Int) :
    ∀ (stack : List Int) (basic : Int),
      RemoveChain pages root header access basic stack →
      RemoveChain pages root header (access ++ more) basic stack := by
  intro stack
  induction stack with
  | nil => intro basic h; exact h
  | cons g rest ih =>
    intro basic h
    refine ⟨h.1, fun hne pg hp hlow => ?_⟩
    obtain ⟨h1, h2, p, hpp, hmem, hch, hrec⟩ := h.2 hne pg hp hlow
    exact ⟨h1, GetParentPageIdFrom_append _ _ _ _ _ h2, p, hpp, hmem, hch, ih g hrec⟩

theorem removeKeyFromPage_size (pg pg' : BPlusTreePage) (key : Int)
    (h : removeKeyFromPage pg key = (pg', true)) :
    pg'.GetSize = pg.GetSize - 1 ∧ pg'.GetMinSize = pg.GetMinSize := by
  cases pg with
  | leaf p =>
    simp only [removeKeyFromPage, Prod.mk.injEq] at h
    obtain ⟨h1, h2⟩ := h
    subst h1
    simp only [LeafPage.RemoveKeyAt] at h2 ⊢
    by_cases hc : p.Lookup key ≥ 0 ∧ p.Lookup key < p.GetSize ∧
        comparator key (p.rawKey (p.Lookup key)) = 0
    · simp only [if_pos hc]
      unfold LeafPage.RemoveAt
      rw [if_pos ⟨hc.1, hc.2.1⟩]
      have hlt : (p.Lookup key).toNat < p.array_.length := by
        have := hc.2.1
        unfold LeafPage.GetSize at this
        omega
      constructor
      · show (((p.array_.eraseIdx (p.Lookup key).toNat).length : Nat) : Int) =
          (p.array_.length : Int) - 1
        rw [List.length_eraseIdx, if_pos hlt]
        omega
      · rfl
    · rw [if_neg hc] at h2
      cases h2
  | internal p =>
    simp only [removeKeyFromPage, Prod.mk.injEq] at h
    obtain ⟨h1, h2⟩ := h
    subst h1
    simp only [InternalPage.RemoveKeyAt] at h2 ⊢
    by_cases hc : p.Lookup key ≥ 0 ∧ p.Lookup key < p.GetSize
    · simp only [if_pos hc]
      unfold InternalPage.EraseAt
      rw [if_pos ⟨hc.1, hc.2⟩]
      have hlt : (p.Lookup key).toNat < p.array_.length := by
        have := hc.2
        unfold InternalPage.GetSize at this
        omega
      constructor
      · show (((p.array_.eraseIdx (p.Lookup key).toNat).length : Nat) : Int) =
          (p.array_.length : Int) - 1
        rw [List.length_eraseIdx, if_pos hlt]
        omega
      · rfl
    · rw [if_neg hc] at h2
      cases h2

theorem GetSiblingPageId_mem (p : InternalPage) (key s m : Int)
    (h : GetSiblingPageId p key = some (s, m)) : s ∈ p.array_.map Prod.snd := by
  unfold GetSiblingPageId at h
  simp only at h
  split at h
  · split at h
    · rename_i hv _
      simp only [Option.some.injEq, Prod.mk.injEq] at h
      rw [← h.1]
      exact internal_ValueAt_mem p _ _ hv
    · cases h
  · split at h
    · split at h
      · cases h
      · split at h
        · split at h
          · rename_i hv _
            simp only [Option.some.injEq, Prod.mk.injEq] at h
            rw [← h.1]
            exact internal_ValueAt_mem p _ _ hv
          · cases h
        · split at h
          · rename_i hv _
            simp only [Option.some.injEq, Prod.mk.injEq] at h
            rw [← h.1]
            exact internal_ValueAt_mem p _ _ hv
          · cases h
    · split at h
      · cases h
      · split at h
        · split at h
          · rename_i hv _
            simp only [Option.some.injEq, Prod.mk.injEq] at h
            rw [← h.1]
            exact internal_ValueAt_mem p _ _ hv
          · cases h
        · split at h
          · rename_i hv _
            simp only [Option.some.injEq, Prod.mk.injEq] at h
            rw [← h.1]
            exact internal_ValueAt_mem p _ _ hv
          · cases h

/-- `RemoveEntry` at a page that does not turn to its parent: the header guard is held when
the page is the root, so that no guard is missed. -/
theorem RemoveEntry_checked_here (fuel : Nat) (t : BPlusTree) (basic key : Int)
    (ctx : Context) (stack : List Int) (pg0 pg1 : BPlusTreePage)
    (hws : ctx.write_set_ = basic :: stack) (hpg : t.pages basic = some pg0)
    (hrm : removeKeyFromPage pg0 key = (pg1, true))
    (hroot : basic = ctx.root_page_id_ → ctx.header_page_ = true)
    (hlow : ¬ (basic ≠ ctx.root_page_id_ ∧ pg1.GetSize < pg1.GetMinSize)) :
    RemoveEntryChecked (fuel + 1) t basic key ctx =
      Guarded.ran (RemoveEntryAux (fuel + 1) t basic key ctx) := by
  have hpop : ctx.popWrite = some (basic, { ctx with write_set_ := stack }) := by
    unfold Context.popWrite
    rw [hws]
  unfold RemoveEntryChecked RemoveEntryAux
  simp only [hpop, hpg, hrm, if_neg hlow, not_true_eq_false, if_false]
  by_cases c1 : basic = ctx.root_page_id_ ∧ pg1.GetSize = 0
  · simp only [if_pos c1, hroot c1.1, not_true_eq_false, if_false]
  · by_cases c2 : basic = ctx.root_page_id_ ∧ pg1.GetSize = 1 ∧ ¬ pg1.IsLeafPage = true
    · simp only [if_neg c1, if_pos c2]
      cases hv : (pg1.asInternal.bind fun root_page => root_page.ValueAt 0) with
      | none => rfl
      | some child => simp only [hroot c2.1, not_true_eq_false, if_false]
    · by_cases c3 : pg1.GetSize ≥ pg1.GetMinSize
      · simp only [if_neg c1, if_neg c2, if_pos c3]
      · simp only [if_neg c1, if_neg c2, if_neg c3]

/-- `RemoveEntry` under a chain of held guards: no guard is missed, the run with the guards
looked at gives what `RemoveEntry` gives. -/
theorem RemoveEntry_checked :
    ∀ (stack : List Int) (fuel : Nat) (t : BPlusTree) (basic key : Int) (ctx : Context),
      ctx.write_set_ = basic :: stack →
      RemoveChain t.pages ctx.root_page_id_ ctx.header_page_ ctx.access_set_ basic stack →
      RemoveEntryChecked fuel t basic key ctx =
        Guarded.ran (RemoveEntryAux fuel t basic key ctx) := by
  intro stack
  induction stack with
  | nil =>
    intro fuel t basic key ctx hws hch
    cases fuel with
    | zero => rfl
    | succ fuel =>
      have hpop : ctx.popWrite = some (basic, { ctx with write_set_ := [] }) := by
        unfold Context.popWrite
        rw [hws]
      cases hpg : t.pages basic with
      | none =>
        unfold RemoveEntryChecked RemoveEntryAux
        simp only [hpop, hpg]
      | some pg0 =>
        rcases hrm : removeKeyFromPage pg0 key with ⟨pg1, ok⟩
        cases ok with
        | false =>
          unfold RemoveEntryChecked RemoveEntryAux
          simp only [hpop, hpg, hrm, Bool.false_eq_true, not_false_eq_true, if_true]
        | true =>
          obtain ⟨hsz, hmin⟩ := removeKeyFromPage_size pg0 pg1 key hrm
          by_cases hlow : basic ≠ ctx.root_page_id_ ∧ pg1.GetSize < pg1.GetMinSize
          · exfalso
            exact hch.2 hlow.1 pg0 hpg (by omega)
          · exact RemoveEntry_checked_here fuel t basic key ctx [] pg0 pg1 hws hpg hrm hch.1
              hlow
  | cons g rest ih =>
    intro fuel t basic key ctx hws hch
    cases fuel with
    | zero => rfl
    | succ fuel =>
      have hpop : ctx.popWrite = some (basic, { ctx with write_set_ := g :: rest }) := by
        unfold Context.popWrite
        rw [hws]
      cases hpg : t.pages basic with
      | none =>
        unfold RemoveEntryChecked RemoveEntryAux
        simp only [hpop, hpg]
      | some pg0 =>
        rcases hrm : removeKeyFromPage pg0 key with ⟨pg1, ok⟩
        cases ok with
        | false =>
          unfold RemoveEntryChecked RemoveEntryAux
          simp only [hpop, hpg, hrm, Bool.false_eq_true, not_false_eq_true, if_true]
        | true =>
          obtain ⟨hsz, hmin⟩ := removeKeyFromPage_size pg0 pg1 key hrm
          by_cases hlow : basic ≠ ctx.root_page_id_ ∧ pg1.GetSize < pg1.GetMinSize
          · obtain ⟨hgne, hpar, p, hp, hmem, hchild, hrec⟩ :=
              hch.2 hlow.1 pg0 hpg (by omega)
            have hbg : basic ≠ g := fun h =>
              hchild basic hmem (by rw [h]; exact List.mem_cons_self _ _)
            have hp1 : (t.setPage basic pg1).pages g = some (BPlusTreePage.internal p) := by
              show (if g = basic then _ else _) = _
              rw [if_neg (Ne.symm hbg)]; exact hp
            have hheld : parentHeld (t.setPage basic pg1) basic
                { ctx with write_set_ := g :: rest } = true :=
              parentHeld_of _ basic _ g rest p rfl hpar hp1 hmem
            have hint : (t.setPage basic pg1).internalAt g = some p := by
              unfold BPlusTree.internalAt
              rw [hp1]; rfl
            have hpar' : GetParentPageId basic { ctx with write_set_ := g :: rest } = some g :=
              hpar
            have hpop2 : ({ ctx with write_set_ := g :: rest } : Context).popWrite =
                some (g, { ctx with write_set_ := rest }) := rfl
            unfold RemoveEntryChecked RemoveEntryAux
            simp only [hpop, hpg, hrm, hheld, hpar', hpop2, hint, if_neg hgne,
              not_true_eq_false, if_false]
            have c1 : ¬ (basic = ctx.root_page_id_ ∧ pg1.GetSize = 0) := fun h => hlow.1 h.1
            have c2 : ¬ (basic = ctx.root_page_id_ ∧ pg1.GetSize = 1 ∧
                ¬ pg1.IsLeafPage = true) := fun h => hlow.1 h.1
            have c3 : ¬ (pg1.GetSize ≥ pg1.GetMinSize) := by omega
            simp only [if_neg c1, if_neg c2, if_neg c3, if_pos hlow]
            cases hsib : GetSiblingPageId p key with
            | none => rfl
            | some sm =>
              obtain ⟨sib, mid⟩ := sm
              have hsmem := GetSiblingPageId_mem p key sib mid hsib
              have hsg : ∀ q ∈ g :: rest, q ≠ sib := fun q hq h => hchild sib hsmem (h ▸ hq)
              have hbq : ∀ q ∈ g :: rest, q ≠ basic := fun q hq h => hchild basic hmem (h ▸ hq)
              simp only
              cases hsp : (t.setPage basic pg1).pages sib with
              | none => rfl
              | some sp =>
                cases hor : siblingOnRight p key with
                | none => rfl
                | some on_right =>
                  simp only
                  by_cases hsmall : sp.GetSize - 1 < sp.GetMinSize
                  · simp only [if_pos hsmall]
                    cases on_right with
                    | true =>
                      simp only [if_true]
                      cases hmerge : mergeInto sp pg1 mid with
                      | none => rfl
                      | some r =>
                        obtain ⟨bp, sp1⟩ := r
                        simp only
                        rw [ih fuel _ g mid _ rfl]
                        · rfl
                        apply RemoveChain_congr t.pages _ _ _ _ _ _ _ hrec
                        intro q hq
                        show (if q = sib then _ else (if q = basic then _ else
                          (if q = basic then _ else _))) = _
                        rw [if_neg (hsg q hq), if_neg (hbq q hq), if_neg (hbq q hq)]
                    | false =>
                      simp only [Bool.false_eq_true, if_false]
                      cases hmerge : mergeInto pg1 sp mid with
                      | none => rfl
                      | some r =>
                        obtain ⟨bp, sp1⟩ := r
                        simp only
                        rw [ih fuel _ g mid _ rfl]
                        · rfl
                        apply RemoveChain_congr t.pages _ _ _ _ _ _ _ hrec
                        intro q hq
                        show (if q = basic then _ else (if q = sib then _ else
                          (if q = basic then _ else _))) = _
                        rw [if_neg (hbq q hq), if_neg (hsg q hq), if_neg (hbq q hq)]
                  · simp only [if_neg hsmall]
                    cases on_right with
                    | true =>
                      simp only [if_true]
                      cases hb : borrowFromRight pg1 sp p mid with
                      | none => rfl
                      | some r => rfl
                    | false =>
                      simp only [Bool.false_eq_true, if_false]
                      cases hb : borrowFromLeft pg1 sp p mid with
                      | none => rfl
                      | some r => rfl
          · exact RemoveEntry_checked_here fuel t basic key ctx (g :: rest) pg0 pg1 hws hpg hrm
              hch.1 hlow

/-- The descent of `Remove` below the page `pid` of a tree, when the guards above `pid` are
held as far as `RemoveEntry` for `pid` needs them: it ends at a page with its own guard at
the back of `write_set_` and the guards above it held as far as `RemoveEntry` for that page
needs them. -/
theorem DeleteGetKeyAtLoop_chain (key : Int) (t : BPlusTree) :
    ∀ (h : Nat) (pid : Int) (above : List Int) (ctx : Context) (ws0 acc0 : List Int)
      (fuel : Nat) (ctx1 : Context) (leaf : Int),
      shape t.pages t.next_page_id_ h pid above = true →
      ctx.write_set_ = pid :: ws0 → ctx.access_set_ = acc0 ++ [pid] →
      (∀ q ∈ acc0, q ∈ above) → ctx.root_page_id_ ∈ acc0 ++ [pid] → (∀ q ∈ ws0, q ∈ acc0) →
      RemoveChain t.pages ctx.root_page_id_ ctx.header_page_ ctx.access_set_ pid ws0 →
      DeleteGetKeyAtLoop t key fuel pid ctx = some (ctx1, leaf) →
      ∃ stack, ctx1.write_set_ = leaf :: stack ∧
        RemoveChain t.pages ctx1.root_page_id_ ctx1.header_page_ ctx1.access_set_ leaf
          stack := by
  intro h
  induction h with
  | zero =>
    intro pid above ctx ws0 acc0 fuel ctx1 leaf hs hws hacc habove hroot hwsacc hJ hrun
    obtain ⟨_, p, hp⟩ := (shape_zero _ _ _ _).mp hs
    cases fuel with
    | zero => simp [DeleteGetKeyAtLoop] at hrun
    | succ fuel =>
      unfold DeleteGetKeyAtLoop at hrun
      rw [hp] at hrun
      simp only [Option.some.injEq, Prod.mk.injEq] at hrun
      obtain ⟨h1, h2⟩ := hrun
      subst h1
      subst h2
      exact ⟨ws0, hws, hJ⟩
  | succ h ih =>
    intro pid above ctx ws0 acc0 fuel ctx1 leaf hs hws hacc habove hroot hwsacc hJ hrun
    obtain ⟨⟨hpidnn, _, hpidab⟩, p, hp, hall⟩ := (shape_succ _ _ _ _ _).mp hs
    cases fuel with
    | zero => simp [DeleteGetKeyAtLoop] at hrun
    | succ fuel =>
      unfold DeleteGetKeyAtLoop at hrun
      simp only [hp] at hrun
      cases hcf : childFor p key with
      | none => rw [hcf] at hrun; cases hrun
      | some c =>
        have hcmem := childFor_mem p key c hcf
        have hsc := hall c hcmem
        obtain ⟨⟨_, _, hcab⟩, cp, hcp⟩ := shape_page _ _ _ _ _ hsc
        have hcacc : c ∉ acc0 ++ [pid] := by
          intro hx
          rcases List.mem_append.mp hx with h1 | h1
          · exact hcab (List.mem_cons_of_mem _ (habove c h1))
          · rw [List.mem_singleton] at h1
            exact hcab (h1 ▸ List.mem_cons_self _ _)
        have habove' : ∀ q ∈ acc0 ++ [pid], q ∈ pid :: above := by
          intro q hq
          rcases List.mem_append.mp hq with h1 | h1
          · exact List.mem_cons_of_mem _ (habove q h1)
          · rw [List.mem_singleton] at h1
            rw [h1]
            exact List.mem_cons_self _ _
        have hrootc : c ≠ ctx.root_page_id_ := fun hx => hcacc (hx ▸ hroot)
        simp only [hcf, hcp] at hrun
        by_cases hsafe : cp.GetSize - 1 ≥ cp.GetMinSize
        · rw [if_pos hsafe] at hrun
          exact ih c (pid :: above)
            { ctx with header_page_ := false, write_set_ := [c],
                       access_set_ := ctx.access_set_ ++ [c] }
            [] (acc0 ++ [pid]) fuel ctx1 leaf hsc rfl
            (by show ctx.access_set_ ++ [c] = _; rw [hacc]) habove'
            (List.mem_append_left _ hroot) (fun q hq => by cases hq)
            ⟨fun hx => absurd hx hrootc, fun _ pg hpg hlow => by
              rw [hcp] at hpg
              cases hpg
              omega⟩ hrun
        · rw [if_neg hsafe] at hrun
          have hchain : RemoveChain t.pages ctx.root_page_id_ ctx.header_page_
              (ctx.access_set_ ++ [c]) c (pid :: ws0) := by
            refine ⟨fun hx => absurd hx hrootc, fun _ pg _ _ => ⟨?_, ?_, p, hp, hcmem, ?_, ?_⟩⟩
            · unfold INVALID_PAGE_ID
              omega
            · exact GetParentPageId_eq c pid acc0 []
                { ctx with access_set_ := ctx.access_set_ ++ [c] }
                (by show ctx.access_set_ ++ [c] = _; rw [hacc]) hcacc
            · intro d hd hx
              obtain ⟨⟨_, _, hdab⟩, _⟩ := shape_page _ _ _ _ _ (hall d hd)
              rcases List.mem_cons.mp hx with h1 | h1
              · exact hdab (h1 ▸ List.mem_cons_self _ _)
              · exact hdab (List.mem_cons_of_mem _ (habove d (hwsacc d h1)))
            · exact RemoveChain_access _ _ _ _ _ _ _ hJ
          exact ih c (pid :: above)
            { ctx with write_set_ := c :: ctx.write_set_,
                       access_set_ := ctx.access_set_ ++ [c] }
            (pid :: ws0) (acc0 ++ [pid]) fuel ctx1 leaf hsc
            (by show c :: ctx.write_set_ = _; rw [hws])
            (by show ctx.access_set_ ++ [c] = _; rw [hacc]) habove'
            (List.mem_append_left _ hroot)
            (fun q hq => by
              rcases List.mem_cons.mp hq with h1 | h1
              · rw [h1]; simp
              · exact List.mem_append_left _ (hwsacc _ h1))
            hchain hrun

/-- `Remove` on a tree, for any key and any amount of fuel: no guard is missed, the run with
the guards looked at gives what `Remove` gives. At every merge and refill of a page that is
not the root the last guard of `write_set_` holds the parent of the page, and the header
guard is held when the root page id is changed. -/
theorem Remove_checked (t : BPlusTree) (h : Nat) (key : Int) (fuel : Nat)
    (hs : Shaped t h) :
    RemoveChecked fuel t key = Guarded.ran (Remove fuel t key) := by
  by_cases hroot : t.root_page_id_ = INVALID_PAGE_ID
  · unfold RemoveChecked Remove DeleteGetKeyAt
    simp only [hroot, Context.new, if_true]
  · have hshape : shape t.pages t.next_page_id_ h t.root_page_id_ [] = true :=
      hs.resolve_left hroot
    obtain ⟨_, pg0, hpg0⟩ := shape_page _ _ _ _ _ hshape
    unfold RemoveChecked Remove DeleteGetKeyAt
    simp only [hroot, if_false, hpg0, Context.new]
    cases hloop : DeleteGetKeyAtLoop t key fuel t.root_page_id_
        { root_page_id_ := t.root_page_id_, header_page_ := true,
          write_set_ := [t.root_page_id_], read_set_ := [],
          access_set_ := [] ++ [t.root_page_id_] } with
    | none => rfl
    | some r =>
      obtain ⟨ctx1, leaf⟩ := r
      obtain ⟨stack, hws1, hch1⟩ := DeleteGetKeyAtLoop_chain key t h t.root_page_id_ []
        _ [] [] fuel ctx1 leaf hshape rfl rfl (fun _ hq => by cases hq)
        (List.mem_singleton.mpr rfl) (fun _ hq => by cases hq)
        ⟨fun _ => rfl, fun hx => absurd rfl hx⟩ hloop
      simp only
      split
      · rfl
      · unfold RemoveEntry
        exact RemoveEntry_checked stack _ t leaf key ctx1 hws1 hch1
/-- A well-formed subtree has the shape of a tree: the keys and the sizes are left out. -/
theorem Sub_shape (pages : Int → Option BPlusTreePage) (lm im : Int) (mc : Nat)
    (M : Int → Option Int) (next : Int) :
    ∀ (h : Nat) (pid : Int) (lo hi : Option Int) (S : Set Int) (above : List Int),
      Sub pages lm im mc M h pid lo hi S → (∀ q ∈ S, 0 ≤ q ∧ q < next) →
      (∀ q ∈ S, q ∉ above) → shape pages next h pid above = true := by
  intro h
  induction h with
  | zero =>
    intro pid lo hi S above hsub hS hab
    obtain ⟨p, hp, _, hpid⟩ := hsub
    exact (shape_zero _ _ _ _).mpr ⟨⟨(hS pid hpid).1, (hS pid hpid).2, hab pid hpid⟩, p, hp⟩
  | succ h ih =>
    intro pid lo hi S above hsub hS hab
    obtain ⟨p, S', hp, _, _, _, hch, hpidS', hpid, hS'S⟩ := hsub
    refine (shape_succ _ _ _ _ _).mpr
      ⟨⟨(hS pid hpid).1, (hS pid hpid).2, hab pid hpid⟩, p, hp, fun c hc => ?_⟩
    obtain ⟨e, he, rfl⟩ := List.mem_map.mp hc
    obtain ⟨l1, l2, harr⟩ := List.append_of_mem he
    rw [harr] at hch
    obtain ⟨_, Sc, _, _, hsubc, _, _, _, _, _, _, hScS', _⟩ :=
      Children_focus _ l1 e l2 lo hi S' hch
    refine ih e.2 _ _ Sc (pid :: above) hsubc (fun q hq => hS q (hS'S (hScS' hq))) ?_
    intro q hq hx
    rcases List.mem_cons.mp hx with h1 | h1
    · exact hpidS' (h1 ▸ hScS' hq)
    · exact hab q (hS'S (hScS' hq)) h1

/-- A well-formed tree has the shape of a tree, whatever its max sizes and the least number
of children of its internal pages. -/
theorem WellFormed_shaped (t : BPlusTree) (mc h : Nat) (M : Int → Option Int)
    (hwf : WellFormed t mc h M) : Shaped t h := by
  rcases hwf.tree with ⟨hroot, _⟩ | ⟨_, hsub⟩
  · exact Or.inl hroot
  · exact Or.inr (Sub_shape _ _ _ _ _ _ h _ _ _ _ [] hsub (fun q hq => hq)
      (fun _ _ hx => absurd hx (List.not_mem_nil _)))

/-- The condition `parentHeld` fails on an empty `write_set_`, where `write_set_.back()`
would be read off an empty vector. -/
theorem parentHeld_empty (t : BPlusTree) (page_id : Int) (ctx : Context)
    (h : ctx.write_set_ = []) : parentHeld t page_id ctx = false := by
  unfold parentHeld
  rw [h]
  cases GetParentPageId page_id ctx <;> rfl

/-- The look at the guards is not idle: `InsertInParent` for a page that is not the root on
an empty `write_set_` ends `released`. -/
theorem InsertInParentChecked_empty (fuel : Nat) (t : BPlusTree) (left key right : Int)
    (ctx : Context) (hroot : ctx.root_page_id_ ≠ left) (h : ctx.write_set_ = []) :
    InsertInParentChecked (fuel + 1) t left key right ctx = Guarded.released := by
  unfold InsertInParentChecked
  simp only [if_neg hroot, parentHeld_empty t left ctx h, Bool.false_eq_true,
    not_false_eq_true, if_true]

/-- The trees that the inserts 2, 1, 3 build with leaf max_size 2 and the inserts 1 to 5 with
leaf max_size 3 (internal max_size 3 in both) have the shape of a tree, of height 1 and 2. -/
theorem treeAfter_shaped :
    Shaped (treeAfter 2 3 [(2, 20), (1, 10), (3, 30)]) 1 ∧
    Shaped (treeAfter 3 3 [(1, 1), (2, 2), (3, 3), (4, 4), (5, 5)]) 2 :=
  ⟨Or.inr (by rfl), Or.inr (by rfl)⟩

/-- C40: on every tree, for every key and every amount of descent fuel, `Insert` and `Remove`
never reach for a guard that is not held. The tree is empty or its pages form a tree below
the root page (`Shaped`: page ids handed out by the buffer pool, leaf pages at one depth, no
page below itself; nothing is asked of keys, sizes or max sizes, and every well-formed tree
is of this kind). `InsertChecked` and `RemoveChecked` are `Insert` and `Remove` with the
guards looked at: they end `released` when a guard is taken off an empty `write_set_`, when
the root page id is changed without the header guard, and when `InsertInParent` for a page
that is not the root (the page was split) or the merge or refill of a page that is not the
root finds `parentHeld` false (`write_set_` empty, or its last guard not the page that
`GetParentPageId` names, or that page not an internal page with the page among its
children). They never end so: they end with the result of `Insert` and `Remove`. -/
theorem C40_ancestor_guards_held (t : BPlusTree) (h : Nat) (key value : Int) (fuel : Nat)
    (hs : Shaped t h) :
    InsertChecked fuel t key value = Guarded.ran (Insert fuel t key value) ∧
    RemoveChecked fuel t key = Guarded.ran (Remove fuel t key) :=
  ⟨Insert_checked t h key value fuel hs, Remove_checked t h key fuel hs⟩

/-- C40 at concrete inputs: on the tree of two leaf pages under a root page the insert of 25
splits the second leaf page and the removal of 10 refills the first leaf page from the
second, and on the tree the inserts 1 to 4 build (max sizes 3) the removal of 1 merges the
first two leaf pages; the three runs return and miss no guard. -/
theorem C40_ancestor_guards_held_witness :
    Shaped twoLeafTree 1 ∧
    InsertChecked 2 twoLeafTree 25 250 = Guarded.ran (Insert 2 twoLeafTree 25 250) ∧
    RemoveChecked 2 twoLeafTree 10 = Guarded.ran (Remove 2 twoLeafTree 10) ∧
    ((Insert 2 twoLeafTree 25 250).map fun r =>
      (r.2, (r.1.internalAt 3).map fun p => p.array_)) =
      some (true, some [(0, 1), (20, 2), (30, 4)]) ∧
    ((Remove 2 twoLeafTree 10).map fun r =>
      ((r.internalAt 3).map fun p => p.array_, (r.leafAt 1).map fun p => p.array_)) =
      some (some [(0, 1), (30, 2)], some [(20, 200)]) ∧
    Shaped (treeAfter 3 3 [(1, 1), (2, 2), (3, 3), (4, 4)]) 1 ∧
    RemoveChecked 2 (treeAfter 3 3 [(1, 1), (2, 2), (3, 3), (4, 4)]) 1 =
      Guarded.ran (Remove 2 (treeAfter 3 3 [(1, 1), (2, 2), (3, 3), (4, 4)]) 1) ∧
    ((Remove 2 (treeAfter 3 3 [(1, 1), (2, 2), (3, 3), (4, 4)]) 1).map fun r =>
      ((r.internalAt 3).map fun p => p.array_, (r.leafAt 1).map fun p => p.array_,
        r.deleted)) =
      some (some [(0, 1), (3, 4)], some [(2, 2)], [2]) :=
  ⟨Or.inr (by rfl),
    (C40_ancestor_guards_held twoLeafTree 1 25 250 2 (Or.inr (by rfl))).1,
    (C40_ancestor_guards_held twoLeafTree 1 10 0 2 (Or.inr (by rfl))).2, by rfl, by rfl,
    Or.inr (by rfl),
    (C40_ancestor_guards_held (treeAfter 3 3 [(1, 1), (2, 2), (3, 3), (4, 4)]) 1 1 0 2
      (Or.inr (by rfl))).2, by rfl⟩

end BPlusTree

/-! # Properties of the lock manager -/

namespace LockManager

/-- C7: `AreLocksCompatible(l1, l2)` is true exactly for the pairs of the compatibility
matrix of the spec, and it is symmetric. -/
theorem C7_compatibility_matrix (l1 l2 : LockMode) :
    (AreLocksCompatible l1 l2 = true ↔ (l1, l2) ∈ compatibilityMatrix) ∧
    AreLocksCompatible l1 l2 = AreLocksCompatible l2 l1 := by
  cases l1 <;> cases l2 <;> decide

theorem mem_setInsert {α : Type} [DecidableEq α] (x y : α) (s : List α) :
    y ∈ setInsert x s ↔ y = x ∨ y ∈ s := by
  unfold setInsert
  split
  · constructor
    · intro h; exact Or.inr h
    · rintro (h | h)
      · subst h; assumption
      · exact h
  · simp

theorem grantLoop_eq (l : List LockRequest) :
    ∀ (pre set : List LockMode), pre ≠ [] → (∀ m, m ∈ set ↔ m ∈ pre) →
      grantLoop l set =
        (l.take (compatCount pre l)).map granted ++ l.drop (compatCount pre l) := by
  induction l with
  | nil => intro pre set _ _; simp [grantLoop, compatCount]
  | cons x xs ih =>
    intro pre set hne hset
    have hse : set.isEmpty = false := by
      cases set with
      | nil =>
        cases pre with
        | nil => exact absurd rfl hne
        | cons a as => exact absurd ((hset a).mpr (List.mem_cons_self a as)) (List.not_mem_nil a)
      | cons a as => rfl
    have hall : (set.all fun m => AreLocksCompatible m x.lock_mode_) =
        (pre.all fun m => AreLocksCompatible m x.lock_mode_) := by
      rw [Bool.eq_iff_iff, List.all_eq_true, List.all_eq_true]
      constructor
      · intro h m hm; exact h m ((hset m).mpr hm)
      · intro h m hm; exact h m ((hset m).mp hm)
    unfold grantLoop compatCount
    rw [hse, hall]
    by_cases hc : (pre.all fun m => AreLocksCompatible m x.lock_mode_) = true
    · have := ih (pre ++ [x.lock_mode_]) (setInsert x.lock_mode_ set) (by simp)
        (by intro m; rw [mem_setInsert, hset]; simp [or_comm])
      simp [hc, this, granted]
    · simp [hc]

theorem compatCount_le (l : List LockRequest) : ∀ pre, compatCount pre l ≤ l.length := by
  induction l with
  | nil => intro pre; simp [compatCount]
  | cons x xs ih =>
    intro pre
    unfold compatCount
    split
    · have := ih (pre ++ [x.lock_mode_]); simp; omega
    · simp

theorem compatCount_spec (l : List LockRequest) :
    ∀ pre : List LockMode, pre.Pairwise (fun a b => AreLocksCompatible a b = true) →
      (pre ++ (l.take (compatCount pre l)).map LockRequest.lock_mode_).Pairwise
          (fun a b => AreLocksCompatible a b = true) ∧
      (compatCount pre l < l.length →
        ¬ (pre ++ (l.take (compatCount pre l + 1)).map LockRequest.lock_mode_).Pairwise
          (fun a b => AreLocksCompatible a b = true)) := by
  induction l with
  | nil => intro pre hp; simp [compatCount, hp]
  | cons x xs ih =>
    intro pre hp
    unfold compatCount
    by_cases hc : (pre.all fun m => AreLocksCompatible m x.lock_mode_) = true
    · have hp' : (pre ++ [x.lock_mode_]).Pairwise (fun a b => AreLocksCompatible a b = true) := by
        rw [List.pairwise_append]
        refine ⟨hp, by simp, ?_⟩
        intro a ha b hb
        simp at hb; subst hb
        exact (List.all_eq_true.mp hc) a ha
      obtain ⟨h1, h2⟩ := ih (pre ++ [x.lock_mode_]) hp'
      simp only [hc, if_true]
      constructor
      · simpa [List.append_assoc] using h1
      · intro hlt
        have := h2 (by simpa using hlt)
        simpa [List.append_assoc] using this
    · simp only [hc]
      constructor
      · simpa using hp
      · intro _ hpw
        apply hc
        rw [List.all_eq_true]
        intro a ha
        simp [List.pairwise_append] at hpw
        exact hpw.2 a ha

theorem pairwiseCompatible_iff (l : List LockRequest) :
    PairwiseCompatible l ↔
      (l.map LockRequest.lock_mode_).Pairwise (fun a b => AreLocksCompatible a b = true) := by
  unfold PairwiseCompatible
  rw [List.pairwise_map]

/-- What `GrantNewLocksIfPossible` does to the request list, with the number of requests it
grants. -/
theorem grant_eq (q : LockRequestQueue) :
    ∃ n, n ≤ q.request_queue_.length ∧
      (q.request_queue_ ≠ [] → 0 < n) ∧
      PairwiseCompatible (q.request_queue_.take n) ∧
      (n < q.request_queue_.length → ¬ PairwiseCompatible (q.request_queue_.take (n + 1))) ∧
      (GrantNewLocksIfPossible q).request_queue_ =
        (q.request_queue_.take n).map granted ++ q.request_queue_.drop n := by
  obtain ⟨rq, up⟩ := q
  cases rq with
  | nil =>
    refine ⟨0, by simp, by simp, by simp [PairwiseCompatible], by simp, ?_⟩
    simp [GrantNewLocksIfPossible, grantLoop]
  | cons front rest =>
    have hspec := compatCount_spec rest [front.lock_mode_] (by simp)
    have hle := compatCount_le rest [front.lock_mode_]
    refine ⟨compatCount [front.lock_mode_] rest + 1, by simp; omega, by simp, ?_, ?_, ?_⟩
    · rw [pairwiseCompatible_iff]
      simpa using hspec.1
    · intro hlt
      rw [pairwiseCompatible_iff]
      have := hspec.2 (by simpa using hlt)
      simpa using this
    · simp only [GrantNewLocksIfPossible, grantLoop, List.isEmpty_nil, if_true]
      rw [grantLoop_eq rest [front.lock_mode_] _ (by simp)
        (by intro m; rw [mem_setInsert]; simp)]
      simp [granted]

theorem grantedAtFront_grant (l : List LockRequest) (n : Nat) (h : GrantedAtFront l) :
    GrantedAtFront ((l.take n).map granted ++ l.drop n) := by
  unfold GrantedAtFront at *
  rw [List.pairwise_append]
  refine ⟨?_, ?_, ?_⟩
  · rw [List.pairwise_map]
    exact List.Pairwise.imp (fun _ _ => rfl) (List.Pairwise.sublist (List.take_sublist n l) h)
  · exact List.Pairwise.sublist (List.drop_sublist n l) h
  · intro a ha b _ _
    rw [List.mem_map] at ha
    obtain ⟨c, _, rfl⟩ := ha
    rfl

/-- C10: on a queue whose granted requests are at its front, `GrantNewLocksIfPossible`
sets the flag `granted_` of exactly the first `n` requests, where they are the longest front
part of the queue with pairwise compatible modes (the first `n` are pairwise compatible, the
first `n + 1` are not), and leaves every request behind them as it was; `n ≥ 1` on a non-empty
queue (the head is always granted), and afterwards no request is granted behind a waiting
one. -/
theorem C10_grants_longest_compatible_front (q : LockRequestQueue)
    (hfront : GrantedAtFront q.request_queue_) :
    ∃ n, n ≤ q.request_queue_.length ∧
      PairwiseCompatible (q.request_queue_.take n) ∧
      (n < q.request_queue_.length → ¬ PairwiseCompatible (q.request_queue_.take (n + 1))) ∧
      (GrantNewLocksIfPossible q).request_queue_ =
        (q.request_queue_.take n).map granted ++ q.request_queue_.drop n ∧
      (GrantNewLocksIfPossible q).upgrading_ = q.upgrading_ ∧
      (q.request_queue_ ≠ [] → 0 < n) ∧
      GrantedAtFront (GrantNewLocksIfPossible q).request_queue_ := by
  obtain ⟨n, hle, hpos, hpc, hmax, heq⟩ := grant_eq q
  refine ⟨n, hle, hpc, hmax, heq, rfl, hpos, ?_⟩
  rw [heq]
  exact grantedAtFront_grant _ n hfront

/-- C10 at a concrete queue: a granted SHARED request, then waiting SHARED and EXCLUSIVE
requests. -/
theorem C10_grants_longest_compatible_front_witness :
    GrantedAtFront
        [tableRequest 1 LockMode.SHARED 7 true, tableRequest 2 LockMode.SHARED 7 false,
         tableRequest 3 LockMode.EXCLUSIVE 7 false] ∧
    ∃ n, n ≤ 3 ∧
      PairwiseCompatible
        (([tableRequest 1 LockMode.SHARED 7 true, tableRequest 2 LockMode.SHARED 7 false,
          tableRequest 3 LockMode.EXCLUSIVE 7 false]).take n) ∧
      (n < 3 → ¬ PairwiseCompatible
        (([tableRequest 1 LockMode.SHARED 7 true, tableRequest 2 LockMode.SHARED 7 false,
          tableRequest 3 LockMode.EXCLUSIVE 7 false]).take (n + 1))) ∧
      (GrantNewLocksIfPossible
        { request_queue_ := [tableRequest 1 LockMode.SHARED 7 true,
            tableRequest 2 LockMode.SHARED 7 false, tableRequest 3 LockMode.EXCLUSIVE 7 false],
          upgrading_ := INVALID_TXN_ID }).request_queue_ =
        (([tableRequest 1 LockMode.SHARED 7 true, tableRequest 2 LockMode.SHARED 7 false,
          tableRequest 3 LockMode.EXCLUSIVE 7 false]).take n).map granted ++
        ([tableRequest 1 LockMode.SHARED 7 true, tableRequest 2 LockMode.SHARED 7 false,
          tableRequest 3 LockMode.EXCLUSIVE 7 false]).drop n ∧
      (GrantNewLocksIfPossible
        { request_queue_ := [tableRequest 1 LockMode.SHARED 7 true,
            tableRequest 2 LockMode.SHARED 7 false, tableRequest 3 LockMode.EXCLUSIVE 7 false],
          upgrading_ := INVALID_TXN_ID }).upgrading_ = INVALID_TXN_ID ∧
      (([tableRequest 1 LockMode.SHARED 7 true, tableRequest 2 LockMode.SHARED 7 false,
          tableRequest 3 LockMode.EXCLUSIVE 7 false] : List LockRequest) ≠ [] → 0 < n) ∧
      GrantedAtFront (GrantNewLocksIfPossible
        { request_queue_ := [tableRequest 1 LockMode.SHARED 7 true,
            tableRequest 2 LockMode.SHARED 7 false, tableRequest 3 LockMode.EXCLUSIVE 7 false],
          upgrading_ := INVALID_TXN_ID }).request_queue_ :=
  ⟨by simp [GrantedAtFront, tableRequest],
   C10_grants_longest_compatible_front
    { request_queue_ := [tableRequest 1 LockMode.SHARED 7 true,
        tableRequest 2 LockMode.SHARED 7 false, tableRequest 3 LockMode.EXCLUSIVE 7 false],
      upgrading_ := INVALID_TXN_ID } (by simp [GrantedAtFront, tableRequest])⟩

theorem setTable_same (lm : LockManager) (oid : table_oid_t) (queue : LockRequestQueue)
    (hq : lm.table_lock_map_ oid = some queue) :
    (lm.setTable oid queue).table_lock_map_ = lm.table_lock_map_ := by
  funext o
  by_cases h : o = oid
  · subst h
    simp [setTable, hq]
  · simp [setTable, h]

theorem canLockUpgrade_same (m : LockMode) : CanLockUpgrade m m = false := by
  cases m <;> rfl

/-- C11 (the code): when the granted request of the transaction in the queue of table `oid`
has the mode `m` and the transaction passes the state and isolation checks for `m`, the call
`LockTable(txn, m, oid)` with the same mode does not return true: the upgrade check finds
`CanLockUpgrade(m, m)` false, the call throws INCOMPATIBLE_UPGRADE and sets the state ABORTED;
the queues and the lock sets of the transaction stay as they are. -/
theorem C11_same_mode_request_aborts (lm : LockManager) (txn : Transaction) (m : LockMode)
    (oid : table_oid_t) (queue : LockRequestQueue) (item : LockRequest)
    (hq : lm.table_lock_map_ oid = some queue)
    (hheld : heldRequest txn.txn_id_ queue.request_queue_ = some item)
    (hmode : item.lock_mode_ = m)
    (hallowed : tableLockChecks txn m = some none) :
    (LockTable lm txn m oid).1 = CallResult.thrown AbortReason.INCOMPATIBLE_UPGRADE ∧
    (LockTable lm txn m oid).2.1.table_lock_map_ = lm.table_lock_map_ ∧
    (LockTable lm txn m oid).2.2 = { txn with state_ := TransactionState.ABORTED } := by
  have hc : CanLockUpgrade item.lock_mode_ m = false := by
    rw [hmode]
    exact canLockUpgrade_same m
  have hcheck : CheckLockUpdateTable txn queue m (tableRequest txn.txn_id_ m oid false) =
      Outcome.abort { txn with state_ := TransactionState.ABORTED }
        AbortReason.INCOMPATIBLE_UPGRADE := by
    simp [CheckLockUpdateTable, hheld, hc]
  simp only [LockTable, hallowed, hq, Option.getD_some, hcheck]
  exact ⟨trivial, setTable_same lm oid queue hq, trivial⟩

/-- C11 at the failing input: transaction 1 holds the granted INTENTION_SHARED request of
table 7 and calls `LockTable` with INTENTION_SHARED again, as a sequential scan does when it
is initialised a second time. -/
theorem C11_same_mode_request_aborts_witness :
    (LockTable scanHeld scanHolder LockMode.INTENTION_SHARED 7).1 =
        CallResult.thrown AbortReason.INCOMPATIBLE_UPGRADE ∧
    (LockTable scanHeld scanHolder LockMode.INTENTION_SHARED 7).2.1.table_lock_map_ =
        scanHeld.table_lock_map_ ∧
    (LockTable scanHeld scanHolder LockMode.INTENTION_SHARED 7).2.2 =
        { scanHolder with state_ := TransactionState.ABORTED } :=
  C11_same_mode_request_aborts scanHeld scanHolder LockMode.INTENTION_SHARED 7
    { request_queue_ := [tableRequest 1 LockMode.INTENTION_SHARED 7 true],
      upgrading_ := INVALID_TXN_ID }
    (tableRequest 1 LockMode.INTENTION_SHARED 7 true) (by decide) (by decide) rfl (by decide)

theorem tableLockChecks_shrinking (txn : Transaction) (mode : LockMode)
    (hs : txn.state_ = TransactionState.SHRINKING) :
    (¬ (txn.isolation_level_ = IsolationLevel.READ_COMMITTED ∧
          (mode = LockMode.INTENTION_SHARED ∨ mode = LockMode.SHARED)) →
      ∃ reason, tableLockChecks txn mode = some (some reason)) ∧
    (txn.isolation_level_ = IsolationLevel.READ_COMMITTED ∧
          (mode = LockMode.INTENTION_SHARED ∨ mode = LockMode.SHARED) →
      tableLockChecks txn mode = some none) := by
  obtain ⟨id, iso, st, s1, s2, s3, s4, s5, r1, r2⟩ := txn
  simp only at hs
  subst hs
  cases iso <;> cases mode <;> simp [tableLockChecks]

theorem checkLockUpdateTable_none (txn : Transaction) (queue : LockRequestQueue)
    (lock_mode : LockMode) (request : LockRequest)
    (hheld : heldRequest txn.txn_id_ queue.request_queue_ = none) :
    CheckLockUpdateTable txn queue lock_mode request = Outcome.ok (false, queue, txn) := by
  simp [CheckLockUpdateTable, hheld]

/-- C12: for a transaction in state SHRINKING, `LockTable(txn, mode, oid)` throws an abort
exception with the transaction set ABORTED and the lock manager untouched, for every isolation
level and mode but READ_COMMITTED with INTENTION_SHARED or SHARED. In that case the checks on
state and isolation level pass, and a transaction without granted request in the queue of the
table gets its request pushed to that queue: the call returns true or waits, and the queue is
`GrantNewLocksIfPossible` of the old queue with the new request at its back. -/
theorem C12_lock_table_in_shrinking (lm : LockManager) (txn : Transaction) (mode : LockMode)
    (oid : table_oid_t) (hs : txn.state_ = TransactionState.SHRINKING) :
    (¬ (txn.isolation_level_ = IsolationLevel.READ_COMMITTED ∧
          (mode = LockMode.INTENTION_SHARED ∨ mode = LockMode.SHARED)) →
      ∃ reason, LockTable lm txn mode oid =
        (CallResult.thrown reason, lm, { txn with state_ := TransactionState.ABORTED })) ∧
    (txn.isolation_level_ = IsolationLevel.READ_COMMITTED ∧
          (mode = LockMode.INTENTION_SHARED ∨ mode = LockMode.SHARED) →
      tableLockChecks txn mode = some none ∧
      ∀ queue, queue = (lm.table_lock_map_ oid).getD LockRequestQueue.empty →
        heldRequest txn.txn_id_ queue.request_queue_ = none →
        ((LockTable lm txn mode oid).1 = CallResult.returned true ∨
          (LockTable lm txn mode oid).1 = CallResult.waiting) ∧
        ((LockTable lm txn mode oid).2.1.table_lock_map_ oid).map
            (fun q => q.request_queue_) =
          some (GrantNewLocksIfPossible { queue with
            request_queue_ :=
              queue.request_queue_ ++ [tableRequest txn.txn_id_ mode oid false] }).request_queue_) := by
  have hchecks := tableLockChecks_shrinking txn mode hs
  refine ⟨fun hnot => ?_, fun hrc => ⟨hchecks.2 hrc, ?_⟩⟩
  · obtain ⟨reason, hreason⟩ := hchecks.1 hnot
    exact ⟨reason, by simp [LockTable, hreason]⟩
  · intro queue hqueue hheld
    have hne : txn.state_ ≠ TransactionState.ABORTED := by
      rw [hs]
      decide
    simp only [LockTable, hchecks.2 hrc, ← hqueue,
      checkLockUpdateTable_none txn queue mode _ hheld, Bool.false_eq_true, not_false_eq_true,
      if_true, LockTableWait, if_neg hne]
    split
    · exact ⟨Or.inr rfl, by simp [setTable]⟩
    · refine ⟨Or.inl rfl, ?_⟩
      simp only [setTable, if_true, Option.map_some']
      split <;> rfl

/-- C12 at a concrete input: a READ_COMMITTED transaction in state SHRINKING asks for the
EXCLUSIVE lock of table 7 (refused), and for the SHARED lock (admitted to the queue). -/
theorem C12_lock_table_in_shrinking_witness :
    (∃ reason, LockTable init
        { Transaction.start 1 IsolationLevel.READ_COMMITTED with
          state_ := TransactionState.SHRINKING } LockMode.EXCLUSIVE 7 =
      (CallResult.thrown reason, init,
        { Transaction.start 1 IsolationLevel.READ_COMMITTED with
          state_ := TransactionState.ABORTED })) ∧
    tableLockChecks
        { Transaction.start 1 IsolationLevel.READ_COMMITTED with
          state_ := TransactionState.SHRINKING } LockMode.SHARED = some none :=
  ⟨(C12_lock_table_in_shrinking init
      { Transaction.start 1 IsolationLevel.READ_COMMITTED with
        state_ := TransactionState.SHRINKING } LockMode.EXCLUSIVE 7 rfl).1 (by decide),
    ((C12_lock_table_in_shrinking init
      { Transaction.start 1 IsolationLevel.READ_COMMITTED with
        state_ := TransactionState.SHRINKING } LockMode.SHARED 7 rfl).2
      ⟨rfl, Or.inr rfl⟩).1⟩
theorem checkLockUpdateRow_not_table_lock (txn txn' : Transaction) (queue : LockRequestQueue)
    (lock_mode : LockMode) (request : LockRequest) (reason : AbortReason)
    (h : CheckLockUpdateRow txn queue lock_mode request = Outcome.abort txn' reason) :
    reason ≠ AbortReason.TABLE_LOCK_NOT_PRESENT := by
  unfold CheckLockUpdateRow at h
  split at h
  · cases h
  · split at h
    · split at h
      · cases h
        decide
      · cases h
    · cases h
      decide

theorem lockRowWait_not_thrown (lm : LockManager) (txn : Transaction) (lock_mode : LockMode)
    (oid : table_oid_t) (rid : RID) (row_queue : LockRequestQueue) (request_index : Nat)
    (reason : AbortReason) :
    (LockRowWait lm txn lock_mode oid rid row_queue request_index).1 ≠
      CallResult.thrown reason := by
  unfold LockRowWait
  simp only
  split
  · simp
  · split <;> simp

/-- What `LockRow` does once the checks on mode, state and isolation level have passed: it
throws TABLE_LOCK_NOT_PRESENT exactly when `CheckAppropriateLockOnTable` is false, and then
the transaction is ABORTED and the lock manager untouched. -/
theorem lockRow_table_lock (lm : LockManager) (txn : Transaction) (lock_mode : LockMode)
    (oid : table_oid_t) (rid : RID) (hchecks : rowLockChecks txn lock_mode = some none) :
    ((LockRow lm txn lock_mode oid rid).1 =
        CallResult.thrown AbortReason.TABLE_LOCK_NOT_PRESENT ↔
      CheckAppropriateLockOnTable txn oid lock_mode = false) ∧
    (CheckAppropriateLockOnTable txn oid lock_mode = false →
      LockRow lm txn lock_mode oid rid =
        (CallResult.thrown AbortReason.TABLE_LOCK_NOT_PRESENT, lm,
          { txn with state_ := TransactionState.ABORTED })) := by
  cases hc : CheckAppropriateLockOnTable txn oid lock_mode
  · simp [LockRow, hchecks, hc]
  · simp only [LockRow, hchecks, hc, not_true_eq_false, if_false, Bool.true_eq_false,
      iff_false, false_implies, and_true]
    split
    · rename_i txn' reason hcheck
      intro h
      cases h
      exact checkLockUpdateRow_not_table_lock _ _ _ _ _ _ hcheck rfl
    · exact lockRowWait_not_thrown _ _ _ _ _ _ _ _

/-- C13: for a transaction that passes the checks of `LockRow` on mode, state and isolation
level, `LockRow(txn, SHARED, oid, rid)` throws TABLE_LOCK_NOT_PRESENT exactly when `oid` is in
none of the five table lock sets of the transaction, and `LockRow(txn, EXCLUSIVE, oid, rid)`
throws it exactly when `oid` is in none of the sets for INTENTION_EXCLUSIVE,
SHARED_INTENTION_EXCLUSIVE and EXCLUSIVE; when it is thrown, the transaction is ABORTED and
no queue has changed. -/
theorem C13_row_lock_needs_table_lock (lm : LockManager) (txn : Transaction)
    (oid : table_oid_t) (rid : RID) :
    (rowLockChecks txn LockMode.SHARED = some none →
      ((LockRow lm txn LockMode.SHARED oid rid).1 =
          CallResult.thrown AbortReason.TABLE_LOCK_NOT_PRESENT ↔
        oid ∉ txn.is_table_lock_set_ ∧ oid ∉ txn.ix_table_lock_set_ ∧
        oid ∉ txn.s_table_lock_set_ ∧ oid ∉ txn.six_table_lock_set_ ∧
        oid ∉ txn.x_table_lock_set_) ∧
      ((LockRow lm txn LockMode.SHARED oid rid).1 =
          CallResult.thrown AbortReason.TABLE_LOCK_NOT_PRESENT →
        (LockRow lm txn LockMode.SHARED oid rid).2 =
          (lm, { txn with state_ := TransactionState.ABORTED }))) ∧
    (rowLockChecks txn LockMode.EXCLUSIVE = some none →
      ((LockRow lm txn LockMode.EXCLUSIVE oid rid).1 =
          CallResult.thrown AbortReason.TABLE_LOCK_NOT_PRESENT ↔
        oid ∉ txn.ix_table_lock_set_ ∧ oid ∉ txn.six_table_lock_set_ ∧
        oid ∉ txn.x_table_lock_set_) ∧
      ((LockRow lm txn LockMode.EXCLUSIVE oid rid).1 =
          CallResult.thrown AbortReason.TABLE_LOCK_NOT_PRESENT →
        (LockRow lm txn LockMode.EXCLUSIVE oid rid).2 =
          (lm, { txn with state_ := TransactionState.ABORTED }))) := by
  constructor
  · intro hchecks
    have h := lockRow_table_lock lm txn LockMode.SHARED oid rid hchecks
    have hiff : CheckAppropriateLockOnTable txn oid LockMode.SHARED = false ↔
        oid ∉ txn.is_table_lock_set_ ∧ oid ∉ txn.ix_table_lock_set_ ∧
        oid ∉ txn.s_table_lock_set_ ∧ oid ∉ txn.six_table_lock_set_ ∧
        oid ∉ txn.x_table_lock_set_ := by
      simp [CheckAppropriateLockOnTable]
      tauto
    refine ⟨h.1.trans hiff, fun hthrown => ?_⟩
    rw [h.2 (h.1.mp hthrown)]
  · intro hchecks
    have h := lockRow_table_lock lm txn LockMode.EXCLUSIVE oid rid hchecks
    have hiff : CheckAppropriateLockOnTable txn oid LockMode.EXCLUSIVE = false ↔
        oid ∉ txn.ix_table_lock_set_ ∧ oid ∉ txn.six_table_lock_set_ ∧
        oid ∉ txn.x_table_lock_set_ := by
      simp [CheckAppropriateLockOnTable]
      tauto
    refine ⟨h.1.trans hiff, fun hthrown => ?_⟩
    rw [h.2 (h.1.mp hthrown)]

/-- C13 at a concrete input: a transaction without table lock asks for the SHARED lock of a
row of table 7. -/
theorem C13_row_lock_needs_table_lock_witness :
    (LockRow init (Transaction.start 1 IsolationLevel.REPEATABLE_READ) LockMode.SHARED 7 3).1 =
      CallResult.thrown AbortReason.TABLE_LOCK_NOT_PRESENT :=
  (((C13_row_lock_needs_table_lock init (Transaction.start 1 IsolationLevel.REPEATABLE_READ)
    7 3).1 (by decide)).1).mpr (by decide)
theorem find_first_granted (id : txn_id_t) (pre post : List LockRequest) (r : LockRequest)
    (hpre : ∀ a ∈ pre, ¬ (a.granted_ = true ∧ a.txn_id_ = id))
    (hr : r.granted_ = true ∧ r.txn_id_ = id) :
    (pre ++ r :: post).find? (fun request => request.granted_ ∧ request.txn_id_ = id) =
      some r := by
  induction pre with
  | nil => simp [List.find?, hr.1, hr.2]
  | cons a pre ih =>
    have ha := hpre a (List.mem_cons_self a pre)
    have hfalse : decide (a.granted_ = true ∧ a.txn_id_ = id) = false := by
      simpa using ha
    simp only [List.cons_append, List.find?, hfalse]
    exact ih fun b hb => hpre b (List.mem_cons_of_mem a hb)

theorem eraseGranted_first (id : txn_id_t) (pre post : List LockRequest) (r : LockRequest)
    (hpre : ∀ a ∈ pre, ¬ (a.granted_ = true ∧ a.txn_id_ = id))
    (hr : r.granted_ = true ∧ r.txn_id_ = id) :
    eraseGranted id (pre ++ r :: post) = some (pre ++ post) := by
  induction pre with
  | nil => simp [eraseGranted, hr.1, hr.2]
  | cons a pre ih =>
    have ha := hpre a (List.mem_cons_self a pre)
    have ih' := ih fun b hb => hpre b (List.mem_cons_of_mem a hb)
    show (if a.granted_ = true ∧ a.txn_id_ = id then some (pre ++ r :: post)
      else (eraseGranted id (pre ++ r :: post)).map fun r => a :: r) = _
    rw [if_neg ha, ih']
    rfl

theorem tableLockSet_erase (txn : Transaction) (m m' : LockMode) (oid : table_oid_t) :
    tableLockSet (EraseLockModeOfIdFromTxn txn m oid) m' =
      if m' = m then (tableLockSet txn m').erase oid else tableLockSet txn m' := by
  cases m <;> cases m' <;> rfl

theorem state_erase (txn : Transaction) (m : LockMode) (oid : table_oid_t) :
    (EraseLockModeOfIdFromTxn txn m oid).state_ = txn.state_ := by
  cases m <;> rfl

/-- C14: a GROWING transaction whose first granted request in the queue of table `oid` has
the mode `m`, and which holds no row lock under `oid`, gets true from `UnlockTable(txn, oid)`;
the request is gone from the queue (the other requests and the other queues stay), `oid` is
gone from the lock set of mode `m` (the other table lock sets stay), and the state is
SHRINKING exactly for REPEATABLE_READ with `m` SHARED or EXCLUSIVE and for READ_COMMITTED or
READ_UNCOMMITTED with `m` EXCLUSIVE; in every other case it is still GROWING. -/
theorem C14_unlock_table (lm : LockManager) (txn : Transaction) (oid : table_oid_t)
    (m : LockMode) (queue : LockRequestQueue) (pre post : List LockRequest) (r : LockRequest)
    (hid : txn.txn_id_ ≠ INVALID_TXN_ID)
    (hgrowing : txn.state_ = TransactionState.GROWING)
    (hq : lm.table_lock_map_ oid = some queue)
    (hqueue : queue.request_queue_ = pre ++ r :: post)
    (hpre : ∀ a ∈ pre, ¬ (a.granted_ = true ∧ a.txn_id_ = txn.txn_id_))
    (hr : r.granted_ = true ∧ r.txn_id_ = txn.txn_id_ ∧ r.lock_mode_ = m)
    (hset : (tableLockSet txn m).Nodup)
    (hrows : holdsRows txn.s_row_lock_set_ oid = false ∧
      holdsRows txn.x_row_lock_set_ oid = false) :
    ∃ lm' txn', UnlockTable lm txn oid = (CallResult.returned true, lm', txn') ∧
      lm'.table_lock_map_ oid = some { queue with request_queue_ := pre ++ post } ∧
      (∀ o, o ≠ oid → lm'.table_lock_map_ o = lm.table_lock_map_ o) ∧
      lm'.row_lock_map_ = lm.row_lock_map_ ∧
      oid ∉ tableLockSet txn' m ∧
      (∀ m', m' ≠ m → tableLockSet txn' m' = tableLockSet txn m') ∧
      (txn'.state_ = TransactionState.SHRINKING ↔
        (txn.isolation_level_ = IsolationLevel.REPEATABLE_READ ∧
          (m = LockMode.SHARED ∨ m = LockMode.EXCLUSIVE)) ∨
        (txn.isolation_level_ = IsolationLevel.READ_COMMITTED ∧ m = LockMode.EXCLUSIVE) ∨
        (txn.isolation_level_ = IsolationLevel.READ_UNCOMMITTED ∧ m = LockMode.EXCLUSIVE)) ∧
      (txn'.state_ ≠ TransactionState.SHRINKING → txn'.state_ = TransactionState.GROWING) := by
  obtain ⟨hr1, hr2, hr3⟩ := hr
  have hfind := find_first_granted txn.txn_id_ pre post r hpre ⟨hr1, hr2⟩
  have herase := eraseGranted_first txn.txn_id_ pre post r hpre ⟨hr1, hr2⟩
  have hget : GetTxnHoldLockOfTable lm txn oid =
      { lock_mode_ := m, txn_id_ := txn.txn_id_, oid_ := r.oid_, rid_ := r.rid_,
        granted_ := true } := by
    simp only [GetTxnHoldLockOfTable, hq, hqueue, hfind, hr2, hr3]
  obtain ⟨txn1, htxn1, hcall⟩ : ∃ txn1 : Transaction,
      (txn1 = { txn with state_ := TransactionState.SHRINKING } ∧
          ((txn.isolation_level_ = IsolationLevel.REPEATABLE_READ ∧
              (m = LockMode.EXCLUSIVE ∨ m = LockMode.SHARED)) ∨
            (txn.isolation_level_ = IsolationLevel.READ_COMMITTED ∧ m = LockMode.EXCLUSIVE) ∨
            (txn.isolation_level_ = IsolationLevel.READ_UNCOMMITTED ∧
              m = LockMode.EXCLUSIVE)) ∨
        txn1 = txn ∧
          ¬ ((txn.isolation_level_ = IsolationLevel.REPEATABLE_READ ∧
              (m = LockMode.EXCLUSIVE ∨ m = LockMode.SHARED)) ∨
            (txn.isolation_level_ = IsolationLevel.READ_COMMITTED ∧ m = LockMode.EXCLUSIVE) ∨
            (txn.isolation_level_ = IsolationLevel.READ_UNCOMMITTED ∧
              m = LockMode.EXCLUSIVE))) ∧
      UnlockTable lm txn oid =
        (CallResult.returned true,
          lm.setTable oid { queue with request_queue_ := pre ++ post },
          EraseLockModeOfIdFromTxn txn1 m oid) := by
    by_cases hc : (txn.isolation_level_ = IsolationLevel.REPEATABLE_READ ∧
              (m = LockMode.EXCLUSIVE ∨ m = LockMode.SHARED)) ∨
            (txn.isolation_level_ = IsolationLevel.READ_COMMITTED ∧ m = LockMode.EXCLUSIVE) ∨
            (txn.isolation_level_ = IsolationLevel.READ_UNCOMMITTED ∧ m = LockMode.EXCLUSIVE)
    · refine ⟨_, Or.inl ⟨rfl, hc⟩, ?_⟩
      simp only [UnlockTable, hget, if_neg hid, if_pos hc, hrows.1, hrows.2, hq,
        EraseRequestFromQueue, hqueue, herase]
      simp
    · refine ⟨_, Or.inr ⟨rfl, hc⟩, ?_⟩
      simp only [UnlockTable, hget, if_neg hid, if_neg hc, hrows.1, hrows.2, hq,
        EraseRequestFromQueue, hqueue, herase]
      simp
  have hsets : ∀ m', tableLockSet txn1 m' = tableLockSet txn m' := by
    intro m'
    rcases htxn1 with ⟨h, _⟩ | ⟨h, _⟩ <;> (subst h; cases m' <;> rfl)
  refine ⟨_, _, hcall, by simp [setTable], fun o ho => by simp [setTable, ho], rfl, ?_,
    fun m' hm' => ?_, ?_, ?_⟩
  · rw [tableLockSet_erase, if_pos rfl, hsets, List.Nodup.mem_erase_iff hset]
    simp
  · rw [tableLockSet_erase, if_neg hm', hsets]
  · rw [state_erase]
    rcases htxn1 with ⟨h, hc⟩ | ⟨h, hc⟩
    · rw [h]
      simp only [true_iff]
      tauto
    · rw [h, hgrowing]
      simp only [reduceCtorEq, false_iff]
      tauto
  · rw [state_erase]
    rcases htxn1 with ⟨h, _⟩ | ⟨h, _⟩
    · rw [h]
      simp
    · rw [h, hgrowing]
      simp

/-- C14 at a concrete input: transaction 1 (REPEATABLE_READ) holds the only request, a
granted SHARED request, of table 7 and unlocks the table. -/
theorem C14_unlock_table_witness :
    ∃ lm' txn', UnlockTable sharedHeld sharedHolder 7 = (CallResult.returned true, lm', txn') ∧
      lm'.table_lock_map_ 7 = some { request_queue_ := [], upgrading_ := INVALID_TXN_ID } ∧
      (7 : table_oid_t) ∉ tableLockSet txn' LockMode.SHARED ∧
      txn'.state_ = TransactionState.SHRINKING := by
  obtain ⟨lm', txn', h1, h2, _, _, h5, _, h7, _⟩ :=
    C14_unlock_table sharedHeld sharedHolder 7 LockMode.SHARED
      { request_queue_ := [tableRequest 1 LockMode.SHARED 7 true], upgrading_ := INVALID_TXN_ID }
      [] [] (tableRequest 1 LockMode.SHARED 7 true) (by decide) rfl (by decide) rfl
      (fun a ha => absurd ha (List.not_mem_nil a)) ⟨rfl, rfl, rfl⟩ (by decide)
      ⟨by decide, by decide⟩
  exact ⟨lm', txn', h1, h2, h5, h7.mpr (Or.inl ⟨rfl, Or.inl rfl⟩)⟩
theorem tableLockSet_insert (txn : Transaction) (m m' : LockMode) (oid : table_oid_t) :
    tableLockSet (InsertLockModeOfIdFromTxn txn m oid) m' =
      if m' = m then setInsert oid (tableLockSet txn m') else tableLockSet txn m' := by
  cases m <;> cases m' <;> rfl

theorem tableLockChecks_not_aborted (txn : Transaction) (lock_mode : LockMode)
    (h : tableLockChecks txn lock_mode = some none) :
    txn.state_ ≠ TransactionState.ABORTED := by
  intro ha
  simp [tableLockChecks, ha] at h

/-- C15 (counterexample): transaction 1 (READ_UNCOMMITTED, GROWING) holds the only granted
lock on table 7, with mode INTENTION_EXCLUSIVE, and the upgrade from INTENTION_EXCLUSIVE to
SHARED_INTENTION_EXCLUSIVE is allowed; `LockTable(T, SHARED_INTENTION_EXCLUSIVE, 7)` does not
return true: it sets the transaction ABORTED and throws LOCK_SHARED_ON_READ_UNCOMMITTED, and
the queue still holds the granted INTENTION_EXCLUSIVE request. -/
theorem C15_upgrade_refused_under_read_uncommitted :
    CanLockUpgrade LockMode.INTENTION_EXCLUSIVE LockMode.SHARED_INTENTION_EXCLUSIVE = true ∧
    (LockTable intentionHeld intentionHolder LockMode.SHARED_INTENTION_EXCLUSIVE 7).1 =
      CallResult.thrown AbortReason.LOCK_SHARED_ON_READ_UNCOMMITTED ∧
    (LockTable intentionHeld intentionHolder
        LockMode.SHARED_INTENTION_EXCLUSIVE 7).2.1.table_lock_map_ 7 =
      some { request_queue_ := [tableRequest 1 LockMode.INTENTION_EXCLUSIVE 7 true],
             upgrading_ := INVALID_TXN_ID } ∧
    (LockTable intentionHeld intentionHolder LockMode.SHARED_INTENTION_EXCLUSIVE 7).2.2.state_ =
      TransactionState.ABORTED := by
  decide

/-- An upgrade behind a waiting request: transaction 1 holds the only granted lock on table 7
(SHARED) and the EXCLUSIVE request of transaction 2 waits behind it. `LockTable(T1, EXCLUSIVE,
7)` erases the SHARED request and pushes the new request to the back; the wait predicate then
grants the request of transaction 2, and transaction 1 sleeps in `cv_.wait`. -/
theorem lockTable_upgrade_waits_behind_queued_request :
    (LockTable sharedHeldWithWaiter sharedHolder LockMode.EXCLUSIVE 7).1 = CallResult.waiting ∧
    (LockTable sharedHeldWithWaiter sharedHolder LockMode.EXCLUSIVE 7).2.1.table_lock_map_ 7 =
      some { request_queue_ := [tableRequest 2 LockMode.EXCLUSIVE 7 true,
               tableRequest 1 LockMode.EXCLUSIVE 7 false],
             upgrading_ := 1 } := by
  decide

/-- An upgrade while another upgrade is pending: transaction 1 holds the only request of
table 7, a granted SHARED request, and the field `upgrading_` of the queue holds transaction
3. `LockTable(T1, EXCLUSIVE, 7)` sets the transaction ABORTED and throws UPGRADE_CONFLICT; the
queue stays as it is. -/
theorem lockTable_upgrade_refused_while_upgrade_pending :
    (LockTable
        (init.setTable 7
          { request_queue_ := [tableRequest 1 LockMode.SHARED 7 true], upgrading_ := 3 })
        sharedHolder LockMode.EXCLUSIVE 7).1 = CallResult.thrown AbortReason.UPGRADE_CONFLICT ∧
    (LockTable
        (init.setTable 7
          { request_queue_ := [tableRequest 1 LockMode.SHARED 7 true], upgrading_ := 3 })
        sharedHolder LockMode.EXCLUSIVE 7).2.1.table_lock_map_ 7 =
      some { request_queue_ := [tableRequest 1 LockMode.SHARED 7 true], upgrading_ := 3 } ∧
    (LockTable
        (init.setTable 7
          { request_queue_ := [tableRequest 1 LockMode.SHARED 7 true], upgrading_ := 3 })
        sharedHolder LockMode.EXCLUSIVE 7).2.2.state_ = TransactionState.ABORTED := by
  decide

/-- C15 (amended): a transaction that passes the state and isolation checks of `LockTable`
for the mode `m'`, whose granted request of mode `m` is the only request in the queue of table
`oid`, with no upgrade pending on the queue and `m → m'` an allowed upgrade, gets true from
`LockTable(T, m', oid)`; afterwards the queue holds exactly one request, the granted request
of `T` with mode `m'`, the field `upgrading_` is INVALID_TXN_ID, `oid` is no longer in the
lock set of `T` for `m` and it is in the lock set for `m'`. -/
theorem C15_upgrade_of_sole_request (lm : LockManager) (txn : Transaction) (m m' : LockMode)
    (oid : table_oid_t) (queue : LockRequestQueue) (r : LockRequest)
    (hallowed : tableLockChecks txn m' = some none)
    (hq : lm.table_lock_map_ oid = some queue)
    (hqueue : queue.request_queue_ = [r])
    (hr : r.granted_ = true ∧ r.txn_id_ = txn.txn_id_ ∧ r.lock_mode_ = m ∧ r.oid_ = oid)
    (hupgrading : queue.upgrading_ = INVALID_TXN_ID)
    (hcan : CanLockUpgrade m m' = true)
    (hset : (tableLockSet txn m).Nodup) :
    ∃ lm' txn', LockTable lm txn m' oid = (CallResult.returned true, lm', txn') ∧
      lm'.table_lock_map_ oid =
        some { request_queue_ := [tableRequest txn.txn_id_ m' oid true],
               upgrading_ := INVALID_TXN_ID } ∧
      oid ∉ tableLockSet txn' m ∧ oid ∈ tableLockSet txn' m' := by
  obtain ⟨hr1, hr2, hr3, hr4⟩ := hr
  obtain ⟨rq, up⟩ := queue
  simp only at hqueue hupgrading
  subst hqueue hupgrading
  have hne : m' ≠ m := by
    intro h
    rw [h, canLockUpgrade_same] at hcan
    cases hcan
  have hheld : heldRequest txn.txn_id_ [r] = some r := by
    simp [heldRequest, hr1, hr2]
  have herase : eraseHeld txn.txn_id_ [r] = [] := by
    simp [eraseHeld, hr1, hr2]
  have hstate : (EraseLockModeOfIdFromTxn txn m oid).state_ ≠ TransactionState.ABORTED := by
    rw [state_erase]
    exact tableLockChecks_not_aborted txn m' hallowed
  have hcall : LockTable lm txn m' oid =
      (CallResult.returned true,
        (lm.setTable oid { request_queue_ := [r], upgrading_ := INVALID_TXN_ID }).setTable oid
          { request_queue_ := [tableRequest txn.txn_id_ m' oid true],
            upgrading_ := INVALID_TXN_ID },
        InsertLockModeOfIdFromTxn (EraseLockModeOfIdFromTxn txn m oid) m' oid) := by
    simp only [LockTable, hallowed, hq, Option.getD_some, CheckLockUpdateTable, hheld, hr3,
      hcan, if_true, ne_eq, not_true_eq_false, if_false, herase, List.nil_append, hr4,
      not_not, LockTableWait, GrantNewLocksIfPossible, grantLoop, List.isEmpty_nil,
      List.length_singleton, Nat.sub_self, List.get?_cons_zero, Option.map_some',
      if_neg hstate]
    by_cases hid : txn.txn_id_ = INVALID_TXN_ID
    · simp [hid, tableRequest]
    · simp [hid, tableRequest]
  refine ⟨_, _, hcall, by simp [setTable], ?_, ?_⟩
  · rw [tableLockSet_insert, if_neg (Ne.symm hne), tableLockSet_erase, if_pos rfl,
      List.Nodup.mem_erase_iff hset]
    simp
  · rw [tableLockSet_insert, if_pos rfl, mem_setInsert]
    exact Or.inl rfl

/-- C15 (amended) at a concrete input: transaction 1 (REPEATABLE_READ) holds the only
request, a granted SHARED request, of table 7 and asks for EXCLUSIVE. -/
theorem C15_upgrade_of_sole_request_witness :
    ∃ lm' txn', LockTable sharedHeld sharedHolder LockMode.EXCLUSIVE 7 =
        (CallResult.returned true, lm', txn') ∧
      lm'.table_lock_map_ 7 =
        some { request_queue_ := [tableRequest 1 LockMode.EXCLUSIVE 7 true],
               upgrading_ := INVALID_TXN_ID } ∧
      (7 : table_oid_t) ∉ tableLockSet txn' LockMode.SHARED ∧
      (7 : table_oid_t) ∈ tableLockSet txn' LockMode.EXCLUSIVE :=
  C15_upgrade_of_sole_request sharedHeld sharedHolder LockMode.SHARED LockMode.EXCLUSIVE 7
    { request_queue_ := [tableRequest 1 LockMode.SHARED 7 true], upgrading_ := INVALID_TXN_ID }
    (tableRequest 1 LockMode.SHARED 7 true) (by decide) (by decide) rfl ⟨rfl, rfl, rfl, rfl⟩ rfl
    (by decide) (by decide)
theorem chainIntoCycle_waitsFor (a : Int) :
    chainIntoCycle.waitsFor a =
      if a = 1 then [9] else if a = 9 then [2] else if a = 2 then [3]
      else if a = 3 then [2] else [] := by
  simp only [waitsFor, chainIntoCycle, init, List.find?]
  by_cases h1 : a = 1
  · subst h1
    rfl
  by_cases h9 : a = 9
  · subst h9
    rfl
  by_cases h2 : a = 2
  · subst h2
    rfl
  by_cases h3 : a = 3
  · subst h3
    rfl
  simp [h1, h9, h2, h3, Ne.symm h1, Ne.symm h9, Ne.symm h2, Ne.symm h3]

theorem chainIntoCycle_reach (b : Int)
    (h : Relation.TransGen chainIntoCycle.Edge 9 b) : b = 2 ∨ b = 3 := by
  induction h with
  | single hab =>
    unfold Edge at hab
    rw [chainIntoCycle_waitsFor] at hab
    simp at hab
    exact Or.inl hab
  | tail _ hbc ih =>
    unfold Edge at hbc
    rw [chainIntoCycle_waitsFor] at hbc
    rcases ih with h | h
    · subst h
      simp at hbc
      exact Or.inr hbc
    · subst h
      simp at hbc
      exact Or.inl hbc

/-- C16 (the code at the failing input): in the waits-for graph with the edges 1 → 9, 9 → 2,
2 → 3 and 3 → 2, `HasCycle` returns true and writes 9 to `*txn_id`, the largest id on the
path of the depth-first search from transaction 1; transaction 9 lies on no cycle of the
graph (the only cycle is 2 → 3 → 2). -/
theorem C16_victim_not_on_a_cycle :
    HasCycle chainIntoCycle = some (true, 9) ∧ ¬ chainIntoCycle.OnCycle 9 := by
  refine ⟨by decide, fun h => ?_⟩
  rcases chainIntoCycle_reach 9 h with h | h <;> omega

theorem twoWaiters_waitsFor (a : Int) :
    twoWaiters.waitsFor a = if a = 1 then [3] else if a = 2 then [3] else [] := by
  simp only [waitsFor, twoWaiters, init, List.find?]
  by_cases h1 : a = 1
  · subst h1
    rfl
  by_cases h2 : a = 2
  · subst h2
    rfl
  simp [h1, h2, Ne.symm h1, Ne.symm h2]

theorem twoWaiters_edge (a b : Int) (h : twoWaiters.Edge a b) : a ≠ 3 ∧ b = 3 := by
  unfold Edge at h
  rw [twoWaiters_waitsFor] at h
  split_ifs at h with h1 h2
  · simp at h
    exact ⟨by omega, h⟩
  · simp at h
    exact ⟨by omega, h⟩
  · simp at h

theorem twoWaiters_reach (a b : Int) (h : Relation.TransGen twoWaiters.Edge a b) :
    a ≠ 3 ∧ b = 3 := by
  induction h with
  | single hab => exact twoWaiters_edge _ _ hab
  | tail _ hbc ih => exact absurd ih.2 (twoWaiters_edge _ _ hbc).1

/-- C17 (the code at the failing input): in the waits-for graph in which the transactions 1
and 2 both wait for transaction 3, no transaction lies on a cycle, and `HasCycle` returns true
(with 2 written to `*txn_id`): the search from transaction 2 meets transaction 3, which the
search from transaction 1 has marked in `is_vis`. -/
theorem C17_cycle_reported_in_acyclic_graph :
    HasCycle twoWaiters = some (true, 2) ∧ ∀ t, ¬ twoWaiters.OnCycle t := by
  refine ⟨by decide, fun t h => ?_⟩
  have := twoWaiters_reach t t h
  exact this.1 this.2
/-- Whenever the part of `LockTable` after the wait returns true, the field `upgrading_` of
the queue is INVALID_TXN_ID afterwards, whichever transaction it named before. -/
theorem lockTableWait_resets_upgrading (lm : LockManager) (txn : Transaction)
    (lock_mode : LockMode) (oid : table_oid_t) (request_queue : LockRequestQueue)
    (request_index : Nat)
    (h : (LockTableWait lm txn lock_mode oid request_queue request_index).1 =
      CallResult.returned true) :
    ((LockTableWait lm txn lock_mode oid request_queue request_index).2.1.queueOf oid).upgrading_ =
      INVALID_TXN_ID := by
  unfold LockTableWait at h ⊢
  simp only at h ⊢
  split_ifs at h ⊢ with h1 h2 h3
  all_goals first
    | (simp at h; done)
    | simp [queueOf, setTable]
  simpa using h3

/-- Whenever the part of `LockRow` after the wait returns true, the field `upgrading_` of the
row queue is INVALID_TXN_ID afterwards, whichever transaction it named before. -/
theorem lockRowWait_resets_upgrading (lm : LockManager) (txn : Transaction)
    (lock_mode : LockMode) (oid : table_oid_t) (rid : RID) (row_queue : LockRequestQueue)
    (request_index : Nat)
    (h : (LockRowWait lm txn lock_mode oid rid row_queue request_index).1 =
      CallResult.returned true) :
    (((LockRowWait lm txn lock_mode oid rid row_queue request_index).2.1.row_lock_map_ rid).getD
      LockRequestQueue.empty).upgrading_ = INVALID_TXN_ID := by
  unfold LockRowWait at h ⊢
  simp only at h ⊢
  split_ifs at h ⊢ with h1 h2 h3
  all_goals first
    | (simp at h; done)
    | simp [setRow]
  simpa using h3

/-- C35 (the code at the failing input): after the calls of `upgradePending` the queue of
table 7 holds the waiting SHARED request of transaction 1 in front of the waiting EXCLUSIVE
request of transaction 2, whose upgrade is pending (`upgrading_ = 2`). The wait of
`LockTable(T1, SHARED, 7)` then ends: the call returns true and leaves `upgrading_ =
INVALID_TXN_ID`, although transaction 2 set the field and still waits. After that the upgrade
`LockTable(T1, EXCLUSIVE, 7)` is taken into the queue (the caller sleeps, `upgrading_ = 1`),
where the same call on the queue with the field still at 2 throws UPGRADE_CONFLICT. `LockRow`
does the same on a row queue. -/
theorem C35_upgrading_reset_by_other_transaction :
    upgradePending.1.queueOf 7 =
      { request_queue_ := [tableRequest 1 LockMode.SHARED 7 false,
          tableRequest 2 LockMode.EXCLUSIVE 7 false],
        upgrading_ := 2 } ∧
    (LockTableWait upgradePending.1 upgradePending.2.1 LockMode.SHARED 7
        (upgradePending.1.queueOf 7) 0).1 = CallResult.returned true ∧
    (LockTableWait upgradePending.1 upgradePending.2.1 LockMode.SHARED 7
        (upgradePending.1.queueOf 7) 0).2.1.queueOf 7 =
      { request_queue_ := [tableRequest 1 LockMode.SHARED 7 true,
          tableRequest 2 LockMode.EXCLUSIVE 7 false],
        upgrading_ := INVALID_TXN_ID } ∧
    (LockTable
        (LockTableWait upgradePending.1 upgradePending.2.1 LockMode.SHARED 7
          (upgradePending.1.queueOf 7) 0).2.1
        (LockTableWait upgradePending.1 upgradePending.2.1 LockMode.SHARED 7
          (upgradePending.1.queueOf 7) 0).2.2 LockMode.EXCLUSIVE 7).1 = CallResult.waiting ∧
    ((LockTable
        (LockTableWait upgradePending.1 upgradePending.2.1 LockMode.SHARED 7
          (upgradePending.1.queueOf 7) 0).2.1
        (LockTableWait upgradePending.1 upgradePending.2.1 LockMode.SHARED 7
          (upgradePending.1.queueOf 7) 0).2.2 LockMode.EXCLUSIVE 7).2.1.queueOf 7).upgrading_ =
      1 ∧
    (LockTable
        (init.setTable 7
          { request_queue_ := [tableRequest 1 LockMode.SHARED 7 true,
              tableRequest 2 LockMode.EXCLUSIVE 7 false],
            upgrading_ := 2 })
        (LockTableWait upgradePending.1 upgradePending.2.1 LockMode.SHARED 7
          (upgradePending.1.queueOf 7) 0).2.2 LockMode.EXCLUSIVE 7).1 =
      CallResult.thrown AbortReason.UPGRADE_CONFLICT ∧
    (LockRowWait init (Transaction.start 1 IsolationLevel.REPEATABLE_READ) LockMode.EXCLUSIVE 7 4
        rowUpgradePending 0).1 = CallResult.returned true ∧
    (LockRowWait init (Transaction.start 1 IsolationLevel.REPEATABLE_READ) LockMode.EXCLUSIVE 7 4
        rowUpgradePending 0).2.1.row_lock_map_ 4 =
      some { request_queue_ := [rowRequest 1 LockMode.EXCLUSIVE 7 4 true,
               rowRequest 2 LockMode.EXCLUSIVE 7 4 false],
             upgrading_ := INVALID_TXN_ID } := by
  decide

/-- An aborted transaction whose request is not granted by `GrantNewLocksIfPossible` stays
in `cv_.wait` of `LockTable`: the wait predicate is the flag `granted_` alone, and the queue
is left as `GrantNewLocksIfPossible` gives it, with the request still in it. -/
theorem lockTableWait_aborted_not_granted (lm : LockManager) (txn : Transaction)
    (lock_mode : LockMode) (oid : table_oid_t) (request_queue : LockRequestQueue)
    (request_index : Nat)
    (hgranted : ((GrantNewLocksIfPossible request_queue).request_queue_.get? request_index).map
      (fun r => r.granted_) ≠ some true) :
    LockTableWait lm txn lock_mode oid request_queue request_index =
      (CallResult.waiting, lm.setTable oid (GrantNewLocksIfPossible request_queue), txn) := by
  unfold LockTableWait
  simp only
  rw [if_pos hgranted]

/-- C36 (the code at the failing input): after the calls of `abortedWaiter` transaction 1
holds table 7 EXCLUSIVE, the EXCLUSIVE request of transaction 2 waits and transaction 2 is
ABORTED. An evaluation of the wait of `LockTable(T2, EXCLUSIVE, 7)` leaves the thread asleep:
the call does not return false, and the request of transaction 2 is still in the queue. The
wait of `LockRow` does the same on a row queue. -/
theorem C36_aborted_waiter_keeps_waiting :
    abortedWaiter.2.state_ = TransactionState.ABORTED ∧
    abortedWaiter.1.queueOf 7 =
      { request_queue_ := [tableRequest 1 LockMode.EXCLUSIVE 7 true,
          tableRequest 2 LockMode.EXCLUSIVE 7 false],
        upgrading_ := INVALID_TXN_ID } ∧
    (LockTableWait abortedWaiter.1 abortedWaiter.2 LockMode.EXCLUSIVE 7
        (abortedWaiter.1.queueOf 7) 1).1 = CallResult.waiting ∧
    (LockTableWait abortedWaiter.1 abortedWaiter.2 LockMode.EXCLUSIVE 7
        (abortedWaiter.1.queueOf 7) 1).2.1.queueOf 7 = abortedWaiter.1.queueOf 7 ∧
    tableRequest 2 LockMode.EXCLUSIVE 7 false ∈
      ((LockTableWait abortedWaiter.1 abortedWaiter.2 LockMode.EXCLUSIVE 7
        (abortedWaiter.1.queueOf 7) 1).2.1.queueOf 7).request_queue_ ∧
    abortedRowWaiter.state_ = TransactionState.ABORTED ∧
    (LockRowWait (init.setRow 4 rowHeldWithWaiter) abortedRowWaiter LockMode.EXCLUSIVE 7 4
        rowHeldWithWaiter 1).1 = CallResult.waiting ∧
    (LockRowWait (init.setRow 4 rowHeldWithWaiter) abortedRowWaiter LockMode.EXCLUSIVE 7 4
        rowHeldWithWaiter 1).2.1.row_lock_map_ 4 = some rowHeldWithWaiter := by
  decide

theorem state_eraseRow (txn : Transaction) (m : LockMode) (oid : table_oid_t) (rid : RID) :
    (EraseLockModeOfIdFromTxnRow txn m oid rid).state_ = txn.state_ := by
  cases m <;> rfl

theorem find_first_matching (p : LockRequest → Bool) (l : List LockRequest) (r : LockRequest)
    (hr : r ∈ l) (hp : p r = true) : ∃ g, l.find? p = some g ∧ g ∈ l ∧ p g = true := by
  cases h : l.find? p with
  | none =>
    rw [List.find?_eq_none] at h
    exact absurd hp (h r hr)
  | some g => exact ⟨g, rfl, List.mem_of_find?_eq_some h, List.find?_some h⟩

/-- The call `UnlockTable` on a transaction whose first granted request in the queue of the
table is `r`, and which holds no row lock under the table: the call returns true, the request
is erased, and the state is SHRINKING when the test on isolation level and mode holds and is
left as it was otherwise, whatever state the transaction was in. -/
theorem unlockTable_state (lm : LockManager) (txn : Transaction) (oid : table_oid_t)
    (queue : LockRequestQueue) (pre post : List LockRequest) (r : LockRequest)
    (hid : txn.txn_id_ ≠ INVALID_TXN_ID)
    (hq : lm.table_lock_map_ oid = some queue)
    (hqueue : queue.request_queue_ = pre ++ r :: post)
    (hpre : ∀ a ∈ pre, ¬ (a.granted_ = true ∧ a.txn_id_ = txn.txn_id_))
    (hr : r.granted_ = true ∧ r.txn_id_ = txn.txn_id_)
    (hrows : holdsRows txn.s_row_lock_set_ oid = false ∧
      holdsRows txn.x_row_lock_set_ oid = false) :
    ∃ lm' txn', UnlockTable lm txn oid = (CallResult.returned true, lm', txn') ∧
      lm'.table_lock_map_ oid = some { queue with request_queue_ := pre ++ post } ∧
      txn'.state_ = if unlockShrinks txn.isolation_level_ r.lock_mode_ = true
        then TransactionState.SHRINKING else txn.state_ := by
  have hfind := find_first_granted txn.txn_id_ pre post r hpre hr
  have herase := eraseGranted_first txn.txn_id_ pre post r hpre hr
  have hget : GetTxnHoldLockOfTable lm txn oid =
      { lock_mode_ := r.lock_mode_, txn_id_ := txn.txn_id_, oid_ := r.oid_, rid_ := r.rid_,
        granted_ := true } := by
    simp only [GetTxnHoldLockOfTable, hq, hqueue, hfind, hr.2]
  by_cases hc : (txn.isolation_level_ = IsolationLevel.REPEATABLE_READ ∧
            (r.lock_mode_ = LockMode.EXCLUSIVE ∨ r.lock_mode_ = LockMode.SHARED)) ∨
          (txn.isolation_level_ = IsolationLevel.READ_COMMITTED ∧
            r.lock_mode_ = LockMode.EXCLUSIVE) ∨
          (txn.isolation_level_ = IsolationLevel.READ_UNCOMMITTED ∧
            r.lock_mode_ = LockMode.EXCLUSIVE)
  · have hcall : UnlockTable lm txn oid =
        (CallResult.returned true,
          lm.setTable oid { queue with request_queue_ := pre ++ post },
          EraseLockModeOfIdFromTxn { txn with state_ := TransactionState.SHRINKING }
            r.lock_mode_ oid) := by
      simp only [UnlockTable, hget, if_neg hid, if_pos hc, hrows.1, hrows.2, hq,
        EraseRequestFromQueue, hqueue, herase]
      simp
    refine ⟨_, _, hcall, by simp [setTable], ?_⟩
    rw [state_erase]
    simp [unlockShrinks, hc]
  · have hcall : UnlockTable lm txn oid =
        (CallResult.returned true,
          lm.setTable oid { queue with request_queue_ := pre ++ post },
          EraseLockModeOfIdFromTxn txn r.lock_mode_ oid) := by
      simp only [UnlockTable, hget, if_neg hid, if_neg hc, hrows.1, hrows.2, hq,
        EraseRequestFromQueue, hqueue, herase]
      simp
    refine ⟨_, _, hcall, by simp [setTable], ?_⟩
    rw [state_erase]
    simp [unlockShrinks, hc]

/-- The call `UnlockRow` on a transaction whose first granted request in the queue of the row
is `r`, a request for the table `oid`, in a queue without request of INVALID_TXN_ID: the call
returns true, the request is erased, and the state is SHRINKING when `force` is false and the
test on isolation level and the mode of the request found holds, and is left as it was
otherwise, whatever state the transaction was in. -/
theorem unlockRow_state (lm : LockManager) (txn : Transaction) (oid : table_oid_t) (rid : RID)
    (force : Bool) (queue : LockRequestQueue) (pre post : List LockRequest) (r : LockRequest)
    (hq : lm.row_lock_map_ rid = some queue)
    (hqueue : queue.request_queue_ = pre ++ r :: post)
    (hids : ∀ a ∈ queue.request_queue_, a.txn_id_ ≠ INVALID_TXN_ID)
    (hpre : ∀ a ∈ pre, ¬ (a.granted_ = true ∧ a.txn_id_ = txn.txn_id_))
    (hr : r.granted_ = true ∧ r.txn_id_ = txn.txn_id_ ∧ r.oid_ = oid) :
    ∃ lm' txn', UnlockRow lm txn oid rid force = (CallResult.returned true, lm', txn') ∧
      lm'.row_lock_map_ rid = some { queue with request_queue_ := pre ++ post } ∧
      (txn'.state_ = if force = false ∧
          unlockShrinks txn.isolation_level_ (GetTxnHoldLockOfRow lm txn oid rid).lock_mode_ = true
        then TransactionState.SHRINKING else txn.state_) ∧
      ((∀ a ∈ pre, ¬ (a.granted_ = true ∧ a.oid_ = oid)) →
        (GetTxnHoldLockOfRow lm txn oid rid).lock_mode_ = r.lock_mode_) := by
  have herase := eraseGranted_first txn.txn_id_ pre post r hpre ⟨hr.1, hr.2.1⟩
  obtain ⟨g, hg, hgmem, _⟩ := find_first_matching
    (fun request => decide (request.granted_ = true ∧ request.oid_ = oid ∧ True))
    queue.request_queue_ r (by rw [hqueue]; simp) (by simp [hr.1, hr.2.2])
  have hget : GetTxnHoldLockOfRow lm txn oid rid =
      { lock_mode_ := g.lock_mode_, txn_id_ := g.txn_id_, oid_ := g.oid_, rid_ := g.rid_,
        granted_ := true } := by
    simp only [GetTxnHoldLockOfRow, hq, hg]
  have hgid : g.txn_id_ ≠ INVALID_TXN_ID := hids g hgmem
  have hmode : (∀ a ∈ pre, ¬ (a.granted_ = true ∧ a.oid_ = oid)) → g.lock_mode_ = r.lock_mode_ := by
    intro hfirst
    have hfind : queue.request_queue_.find? (fun request => decide (request.granted_ = true ∧
        request.oid_ = oid ∧ True)) = some r := by
      rw [hqueue, List.find?_append]
      have hnone : pre.find? (fun request => decide (request.granted_ = true ∧
          request.oid_ = oid ∧ True)) = none := by
        rw [List.find?_eq_none]
        intro a ha
        have := hfirst a ha
        simpa using this
      rw [hnone]
      simp [List.find?, hr.1, hr.2.2]
    rw [hfind] at hg
    cases hg
    rfl
  by_cases hc : force = false ∧
      unlockShrinks txn.isolation_level_ g.lock_mode_ = true
  · have hcall : UnlockRow lm txn oid rid force =
        (CallResult.returned true,
          lm.setRow rid { queue with request_queue_ := pre ++ post },
          EraseLockModeOfIdFromTxnRow { txn with state_ := TransactionState.SHRINKING }
            g.lock_mode_ oid rid) := by
      have hc2 := hc.2
      simp only [unlockShrinks, decide_eq_true_eq] at hc2
      simp only [UnlockRow, hget, if_neg hgid, hc.1, if_pos hc2, hq,
        EraseRequestFromQueue, hqueue, herase]
      simp [herase]
    refine ⟨_, _, hcall, by simp [setRow], ?_, ?_⟩
    · rw [state_eraseRow, hget]
      simp [hc.1, hc.2]
    · rw [hget]; exact hmode
  · have hcall : UnlockRow lm txn oid rid force =
        (CallResult.returned true,
          lm.setRow rid { queue with request_queue_ := pre ++ post },
          EraseLockModeOfIdFromTxnRow txn g.lock_mode_ oid rid) := by
      by_cases hf : force = true
      · simp only [UnlockRow, hget, if_neg hgid, hf, hq, EraseRequestFromQueue, hqueue, herase]
        simp [herase]
      · have hf' : force = false := by simpa using hf
        have hc2 : ¬ unlockShrinks txn.isolation_level_ g.lock_mode_ = true :=
          fun h => hc ⟨hf', h⟩
        simp only [unlockShrinks, decide_eq_true_eq] at hc2
        simp only [UnlockRow, hget, if_neg hgid, hf', if_neg hc2, hq,
          EraseRequestFromQueue, hqueue, herase]
        simp [herase]
    refine ⟨_, _, hcall, by simp [setRow], ?_, ?_⟩
    · rw [state_eraseRow, hget]
      simp only
      rw [if_neg hc]
    · rw [hget]; exact hmode

/-- C38 (counterexample): transaction 1 (REPEATABLE_READ) in state ABORTED holds the granted
SHARED lock on table 7; `UnlockTable(T1, 7)` returns true and leaves the transaction in state
SHRINKING. The same happens from COMMITTED, and in `UnlockRow(T1, 7, 4, false)` for the
granted EXCLUSIVE lock on row 4. -/
theorem C38_unlock_moves_finished_transaction_to_shrinking :
    (finishedHolder TransactionState.ABORTED).state_ = TransactionState.ABORTED ∧
    (UnlockTable sharedHeld (finishedHolder TransactionState.ABORTED) 7).1 =
      CallResult.returned true ∧
    (UnlockTable sharedHeld (finishedHolder TransactionState.ABORTED) 7).2.2.state_ =
      TransactionState.SHRINKING ∧
    (UnlockTable sharedHeld (finishedHolder TransactionState.COMMITTED) 7).1 =
      CallResult.returned true ∧
    (UnlockTable sharedHeld (finishedHolder TransactionState.COMMITTED) 7).2.2.state_ =
      TransactionState.SHRINKING ∧
    (UnlockRow rowHeld (finishedRowHolder TransactionState.ABORTED) 7 4 false).1 =
      CallResult.returned true ∧
    (UnlockRow rowHeld (finishedRowHolder TransactionState.ABORTED) 7 4 false).2.2.state_ =
      TransactionState.SHRINKING ∧
    (UnlockRow rowHeld (finishedRowHolder TransactionState.COMMITTED) 7 4 false).1 =
      CallResult.returned true ∧
    (UnlockRow rowHeld (finishedRowHolder TransactionState.COMMITTED) 7 4 false).2.2.state_ =
      TransactionState.SHRINKING := by
  decide

/-- C38 (amended): for a transaction in state ABORTED or COMMITTED that holds a granted lock
(its first granted request in the queue is `r`), `UnlockTable` (no row lock held under the
table) and `UnlockRow` (request for the table `oid`, no request of INVALID_TXN_ID in the
queue) return true and erase the request; the state is left unchanged unless the call makes
the two-phase transition, in which case it becomes SHRINKING: that is for REPEATABLE_READ with
the mode found SHARED or EXCLUSIVE and for READ_COMMITTED or READ_UNCOMMITTED with EXCLUSIVE,
and in `UnlockRow` only with `force` false. `LockTable` and `LockRow` on an ABORTED
transaction return false and change neither the lock manager nor the transaction. -/
theorem C38_unlock_state_of_finished_transaction (lm : LockManager) (txn : Transaction)
    (oid : table_oid_t) (rid : RID)
    (hid : txn.txn_id_ ≠ INVALID_TXN_ID)
    (hstate : txn.state_ = TransactionState.ABORTED ∨ txn.state_ = TransactionState.COMMITTED) :
    (∀ (queue : LockRequestQueue) (pre post : List LockRequest) (r : LockRequest),
      lm.table_lock_map_ oid = some queue → queue.request_queue_ = pre ++ r :: post →
      (∀ a ∈ pre, ¬ (a.granted_ = true ∧ a.txn_id_ = txn.txn_id_)) →
      r.granted_ = true ∧ r.txn_id_ = txn.txn_id_ →
      holdsRows txn.s_row_lock_set_ oid = false ∧ holdsRows txn.x_row_lock_set_ oid = false →
      ∃ lm' txn', UnlockTable lm txn oid = (CallResult.returned true, lm', txn') ∧
        lm'.table_lock_map_ oid = some { queue with request_queue_ := pre ++ post } ∧
        (unlockShrinks txn.isolation_level_ r.lock_mode_ = true →
          txn'.state_ = TransactionState.SHRINKING) ∧
        (unlockShrinks txn.isolation_level_ r.lock_mode_ = false →
          txn'.state_ = txn.state_)) ∧
    (∀ (force : Bool) (queue : LockRequestQueue) (pre post : List LockRequest)
        (r : LockRequest),
      lm.row_lock_map_ rid = some queue → queue.request_queue_ = pre ++ r :: post →
      (∀ a ∈ queue.request_queue_, a.txn_id_ ≠ INVALID_TXN_ID) →
      (∀ a ∈ pre, ¬ (a.granted_ = true ∧ a.txn_id_ = txn.txn_id_)) →
      r.granted_ = true ∧ r.txn_id_ = txn.txn_id_ ∧ r.oid_ = oid →
      ∃ lm' txn', UnlockRow lm txn oid rid force = (CallResult.returned true, lm', txn') ∧
        lm'.row_lock_map_ rid = some { queue with request_queue_ := pre ++ post } ∧
        (force = false ∧ unlockShrinks txn.isolation_level_
            (GetTxnHoldLockOfRow lm txn oid rid).lock_mode_ = true →
          txn'.state_ = TransactionState.SHRINKING) ∧
        (force = true ∨ unlockShrinks txn.isolation_level_
            (GetTxnHoldLockOfRow lm txn oid rid).lock_mode_ = false →
          txn'.state_ = txn.state_) ∧
        ((∀ a ∈ pre, ¬ (a.granted_ = true ∧ a.oid_ = oid)) →
          (GetTxnHoldLockOfRow lm txn oid rid).lock_mode_ = r.lock_mode_)) ∧
    (txn.state_ = TransactionState.ABORTED → ∀ lock_mode : LockMode,
      LockTable lm txn lock_mode oid = (CallResult.returned false, lm, txn) ∧
      LockRow lm txn lock_mode oid rid = (CallResult.returned false, lm, txn)) := by
  have _ := hstate
  refine ⟨?_, ?_, ?_⟩
  · intro queue pre post r hq hqueue hpre hr hrows
    obtain ⟨lm', txn', hcall, hmap, hst⟩ :=
      unlockTable_state lm txn oid queue pre post r hid hq hqueue hpre hr hrows
    refine ⟨lm', txn', hcall, hmap, fun h => ?_, fun h => ?_⟩
    · rw [hst, if_pos h]
    · rw [hst, if_neg (by simp [h])]
  · intro force queue pre post r hq hqueue hids hpre hr
    obtain ⟨lm', txn', hcall, hmap, hst, hmode⟩ :=
      unlockRow_state lm txn oid rid force queue pre post r hq hqueue hids hpre hr
    refine ⟨lm', txn', hcall, hmap, fun h => ?_, fun h => ?_, hmode⟩
    · rw [hst, if_pos h]
    · rw [hst, if_neg]
      rintro ⟨h1, h2⟩
      rcases h with h | h
      · rw [h1] at h; cases h
      · rw [h2] at h; cases h
  · intro habort lock_mode
    constructor
    · simp [LockTable, tableLockChecks, habort]
    · simp [LockRow, rowLockChecks, habort]

/-- C38 (amended) at a concrete input: transaction 1 (REPEATABLE_READ, COMMITTED) holds table
7 INTENTION_EXCLUSIVE and row 4 EXCLUSIVE; `UnlockRow(T1, 7, 4, true)` returns true and the
transaction is still COMMITTED. -/
theorem C38_unlock_state_of_finished_transaction_witness :
    ∃ lm' txn', UnlockRow rowHeld (finishedRowHolder TransactionState.COMMITTED) 7 4 true =
        (CallResult.returned true, lm', txn') ∧
      lm'.row_lock_map_ 4 = some { request_queue_ := [], upgrading_ := INVALID_TXN_ID } ∧
      txn'.state_ = TransactionState.COMMITTED := by
  obtain ⟨lm', txn', h1, h2, _, h4, _⟩ :=
    (C38_unlock_state_of_finished_transaction rowHeld
      (finishedRowHolder TransactionState.COMMITTED) 7 4 (by decide) (Or.inr rfl)).2.1 true
      { request_queue_ := [rowRequest 1 LockMode.EXCLUSIVE 7 4 true],
        upgrading_ := INVALID_TXN_ID }
      [] [] (rowRequest 1 LockMode.EXCLUSIVE 7 4 true) (by simp [rowHeld, setRow]) rfl
      (by decide) (fun a ha => absurd ha (List.not_mem_nil a)) ⟨rfl, rfl, rfl⟩
  exact ⟨lm', txn', h1, h2, h4 (Or.inl rfl)⟩

theorem setRow_same (lm : LockManager) (rid : RID) (queue : LockRequestQueue)
    (hq : lm.row_lock_map_ rid = some queue) :
    (lm.setRow rid queue).row_lock_map_ = lm.row_lock_map_ := by
  funext r
  by_cases h : r = rid
  · subst h
    simp [setRow, hq]
  · simp [setRow, h]

/-- C8 (counterexample): transaction 1 (READ_UNCOMMITTED, GROWING) holds the granted
EXCLUSIVE request of table 7 and asks for SHARED; the pair is not in the upgrade lattice and
the two modes differ, but `LockTable` does not raise INCOMPATIBLE_UPGRADE: the check on the
isolation level comes first, the call sets the transaction ABORTED and throws
LOCK_SHARED_ON_READ_UNCOMMITTED. -/
theorem C8_request_raises_other_reason :
    LockMode.EXCLUSIVE ≠ LockMode.SHARED ∧
    (LockMode.EXCLUSIVE, LockMode.SHARED) ∉ upgradeLattice ∧
    (exclusiveHeld.table_lock_map_ 7).map
        (fun queue => heldRequest exclusiveHolder.txn_id_ queue.request_queue_) =
      some (some (tableRequest 1 LockMode.EXCLUSIVE 7 true)) ∧
    (LockTable exclusiveHeld exclusiveHolder LockMode.SHARED 7).1 =
      CallResult.thrown AbortReason.LOCK_SHARED_ON_READ_UNCOMMITTED ∧
    (LockTable exclusiveHeld exclusiveHolder LockMode.SHARED 7).1 ≠
      CallResult.thrown AbortReason.INCOMPATIBLE_UPGRADE ∧
    (LockTable exclusiveHeld exclusiveHolder LockMode.SHARED 7).2.2.state_ =
      TransactionState.ABORTED := by
  decide

/-- C8 (amended): `CanLockUpgrade(held, requested)` is true exactly for the pairs of the
upgrade lattice of the spec; for every other pair with `held ≠ requested`, a lock request by
a transaction whose granted request on the resource has the mode `held`, and which passes the
checks that come before the upgrade check (for a table the checks on the state and the
isolation level, for a row those and the checks on the row lock mode and on the table lock),
sets the transaction ABORTED and throws INCOMPATIBLE_UPGRADE; the queues stay as they are. -/
theorem C8_upgrade_lattice (held requested : LockMode) :
    (CanLockUpgrade held requested = true ↔ (held, requested) ∈ upgradeLattice) ∧
    (held ≠ requested → (held, requested) ∉ upgradeLattice →
      (∀ (lm : LockManager) (txn : Transaction) (oid : table_oid_t)
          (queue : LockRequestQueue) (item : LockRequest),
        lm.table_lock_map_ oid = some queue →
        heldRequest txn.txn_id_ queue.request_queue_ = some item → item.lock_mode_ = held →
        tableLockChecks txn requested = some none →
        (LockTable lm txn requested oid).1 =
            CallResult.thrown AbortReason.INCOMPATIBLE_UPGRADE ∧
          (LockTable lm txn requested oid).2.1.table_lock_map_ = lm.table_lock_map_ ∧
          (LockTable lm txn requested oid).2.2 =
            { txn with state_ := TransactionState.ABORTED }) ∧
      (∀ (lm : LockManager) (txn : Transaction) (oid : table_oid_t) (rid : RID)
          (queue : LockRequestQueue) (item : LockRequest),
        lm.row_lock_map_ rid = some queue →
        heldRequest txn.txn_id_ queue.request_queue_ = some item → item.lock_mode_ = held →
        rowLockChecks txn requested = some none →
        CheckAppropriateLockOnTable txn oid requested = true →
        (LockRow lm txn requested oid rid).1 =
            CallResult.thrown AbortReason.INCOMPATIBLE_UPGRADE ∧
          (LockRow lm txn requested oid rid).2.1.row_lock_map_ = lm.row_lock_map_ ∧
          (LockRow lm txn requested oid rid).2.2 =
            { txn with state_ := TransactionState.ABORTED })) := by
  have h1 : (CanLockUpgrade held requested = true ↔ (held, requested) ∈ upgradeLattice) := by
    cases held <;> cases requested <;> decide
  refine ⟨h1, fun _ hnot => ⟨?_, ?_⟩⟩
  · intro lm txn oid queue item hq hheld hmode hallowed
    have hc : CanLockUpgrade item.lock_mode_ requested = false := by
      rw [hmode]
      cases h : CanLockUpgrade held requested
      · rfl
      · exact absurd (h1.mp h) hnot
    have hcheck : CheckLockUpdateTable txn queue requested
        (tableRequest txn.txn_id_ requested oid false) =
        Outcome.abort { txn with state_ := TransactionState.ABORTED }
          AbortReason.INCOMPATIBLE_UPGRADE := by
      simp [CheckLockUpdateTable, hheld, hc]
    simp only [LockTable, hallowed, hq, Option.getD_some, hcheck]
    exact ⟨trivial, setTable_same lm oid queue hq, trivial⟩
  · intro lm txn oid rid queue item hq hheld hmode hallowed htable
    have hc : CanLockUpgrade item.lock_mode_ requested = false := by
      rw [hmode]
      cases h : CanLockUpgrade held requested
      · rfl
      · exact absurd (h1.mp h) hnot
    have hcheck : CheckLockUpdateRow txn queue requested
        { txn_id_ := txn.txn_id_, lock_mode_ := requested, oid_ := oid, rid_ := some rid,
          granted_ := false } =
        Outcome.abort { txn with state_ := TransactionState.ABORTED }
          AbortReason.INCOMPATIBLE_UPGRADE := by
      simp [CheckLockUpdateRow, hheld, hc]
    simp only [LockRow, hallowed, htable, not_true_eq_false, if_false, hq, Option.getD_some,
      hcheck]
    exact ⟨trivial, setRow_same lm rid queue hq, trivial⟩

/-- C8 (amended) at concrete inputs: transaction 1 (REPEATABLE_READ, GROWING) holds the
granted EXCLUSIVE request of table 7 and asks for SHARED; and it holds table 7 in EXCLUSIVE
mode and the granted EXCLUSIVE request of row 3 of that table and asks for SHARED on the
row. -/
theorem C8_upgrade_lattice_witness :
    ((LockTable exclusiveHeld
        { Transaction.start 1 IsolationLevel.REPEATABLE_READ with x_table_lock_set_ := [7] }
        LockMode.SHARED 7).1 = CallResult.thrown AbortReason.INCOMPATIBLE_UPGRADE ∧
      (LockTable exclusiveHeld
        { Transaction.start 1 IsolationLevel.REPEATABLE_READ with x_table_lock_set_ := [7] }
        LockMode.SHARED 7).2.2.state_ = TransactionState.ABORTED) ∧
    (LockRow
      (exclusiveHeld.setRow 3
        { request_queue_ :=
            [{ txn_id_ := 1, lock_mode_ := LockMode.EXCLUSIVE, oid_ := 7, rid_ := some 3,
               granted_ := true }],
          upgrading_ := INVALID_TXN_ID })
      { Transaction.start 1 IsolationLevel.REPEATABLE_READ with
        x_table_lock_set_ := [7], x_row_lock_set_ := [(7, [3])] }
      LockMode.SHARED 7 3).1 = CallResult.thrown AbortReason.INCOMPATIBLE_UPGRADE := by
  have h := ((C8_upgrade_lattice LockMode.EXCLUSIVE LockMode.SHARED).2 (by decide)
      (by decide)).1 exclusiveHeld
      { Transaction.start 1 IsolationLevel.REPEATABLE_READ with x_table_lock_set_ := [7] } 7
      { request_queue_ := [tableRequest 1 LockMode.EXCLUSIVE 7 true],
        upgrading_ := INVALID_TXN_ID }
      (tableRequest 1 LockMode.EXCLUSIVE 7 true) (by decide) (by decide) rfl (by decide)
  refine ⟨⟨h.1, by rw [h.2.2]⟩, ?_⟩
  exact (((C8_upgrade_lattice LockMode.EXCLUSIVE LockMode.SHARED).2 (by decide)
      (by decide)).2
      (exclusiveHeld.setRow 3
        { request_queue_ :=
            [{ txn_id_ := 1, lock_mode_ := LockMode.EXCLUSIVE, oid_ := 7, rid_ := some 3,
               granted_ := true }],
          upgrading_ := INVALID_TXN_ID })
      { Transaction.start 1 IsolationLevel.REPEATABLE_READ with
        x_table_lock_set_ := [7], x_row_lock_set_ := [(7, [3])] }
      7 3
      { request_queue_ :=
          [{ txn_id_ := 1, lock_mode_ := LockMode.EXCLUSIVE, oid_ := 7, rid_ := some 3,
             granted_ := true }],
        upgrading_ := INVALID_TXN_ID }
      { txn_id_ := 1, lock_mode_ := LockMode.EXCLUSIVE, oid_ := 7, rid_ := some 3,
        granted_ := true }
      (by decide) (by decide) rfl (by decide) (by decide)).1

end LockManager

/-! # Properties of the buffer pool manager -/

namespace BufferPoolManager

theorem mapFind_mapErase {K V : Type} [DecidableEq K] (m : List (K × V)) (k k' : K) :
    mapFind (mapErase m k) k' = if k' = k then none else mapFind m k' := by
  induction m with
  | nil => simp [mapErase, mapFind]
  | cons e rest ih =>
    unfold mapErase at ih ⊢
    by_cases he : e.1 = k
    · simp only [List.filter, he, ne_eq, not_true_eq_false, decide_False]
      rw [ih]
      by_cases hk : k' = k
      · simp [hk]
      · simp [hk, mapFind, he, Ne.symm hk]
    · simp only [List.filter, he, ne_eq, not_false_eq_true, decide_True, mapFind]
      rw [ih]
      by_cases hk : k' = k
      · subst hk
        simp [he]
      · simp [hk]

theorem mapFind_mapSet {K V : Type} [DecidableEq K] (m : List (K × V)) (k k' : K) (v : V) :
    mapFind (mapSet m k v) k' = if k' = k then some v else mapFind m k' := by
  unfold mapSet
  by_cases hk : k' = k
  · subst hk
    simp [mapFind]
  · simp [mapFind, Ne.symm hk, hk, mapFind_mapErase]

theorem mapFind_none_iff {K V : Type} [DecidableEq K] (m : List (K × V)) (k : K) :
    mapFind m k = none ↔ k ∉ m.map Prod.fst := by
  induction m with
  | nil => simp [mapFind]
  | cons e rest ih =>
    by_cases he : e.1 = k
    · simp [mapFind, he]
    · simp only [mapFind, he, if_false, ih, List.map_cons, List.mem_cons, not_or]
      exact ⟨fun h => ⟨Ne.symm he, h⟩, fun h => h.2⟩

theorem mapErase_of_not_found {K V : Type} [DecidableEq K] (m : List (K × V)) (k : K)
    (h : mapFind m k = none) : mapErase m k = m := by
  rw [mapFind_none_iff] at h
  unfold mapErase
  rw [List.filter_eq_self]
  intro e he
  have : e.1 ≠ k := fun hk => h (hk ▸ List.mem_map_of_mem Prod.fst he)
  simpa using this

theorem nodup_keys_mapErase {K V : Type} [DecidableEq K] (m : List (K × V)) (k : K)
    (h : (m.map Prod.fst).Nodup) : ((mapErase m k).map Prod.fst).Nodup := by
  unfold mapErase
  exact List.Nodup.sublist (List.Sublist.map _ (List.filter_sublist m)) h

theorem not_mem_keys_mapErase {K V : Type} [DecidableEq K] (m : List (K × V)) (k : K) :
    k ∉ (mapErase m k).map Prod.fst := by
  rw [← mapFind_none_iff, mapFind_mapErase, if_pos rfl]

theorem nodup_keys_mapSet {K V : Type} [DecidableEq K] (m : List (K × V)) (k : K) (v : V)
    (h : (m.map Prod.fst).Nodup) : ((mapSet m k v).map Prod.fst).Nodup := by
  unfold mapSet
  rw [List.map_cons, List.nodup_cons]
  exact ⟨not_mem_keys_mapErase m k, nodup_keys_mapErase m k h⟩

theorem length_mapErase_of_found {K V : Type} [DecidableEq K] (m : List (K × V)) (k : K) (v : V)
    (hn : (m.map Prod.fst).Nodup) (h : mapFind m k = some v) :
    (mapErase m k).length + 1 = m.length := by
  induction m with
  | nil => simp [mapFind] at h
  | cons e rest ih =>
    rw [List.map_cons, List.nodup_cons] at hn
    by_cases he : e.1 = k
    · have hnone : mapFind rest k = none := by
        rw [mapFind_none_iff, ← he]
        exact hn.1
      have := mapErase_of_not_found rest k hnone
      unfold mapErase at this ⊢
      rw [List.filter_cons_of_neg (by simpa using he), this]
      rfl
    · have h' : mapFind rest k = some v := by
        simpa [mapFind, he] using h
      have := ih hn.2 h'
      unfold mapErase at this ⊢
      rw [List.filter_cons_of_pos (by simpa using he), List.length_cons, List.length_cons]
      omega

theorem length_mapSet_of_not_found {K V : Type} [DecidableEq K] (m : List (K × V)) (k : K)
    (v : V) (h : mapFind m k = none) : (mapSet m k v).length = m.length + 1 := by
  unfold mapSet
  rw [List.length_cons, mapErase_of_not_found m k h]

theorem length_mapSet_of_found {K V : Type} [DecidableEq K] (m : List (K × V)) (k : K)
    (v v' : V) (hn : (m.map Prod.fst).Nodup) (h : mapFind m k = some v') :
    (mapSet m k v).length = m.length := by
  unfold mapSet
  rw [List.length_cons, length_mapErase_of_found m k v' hn h]

theorem frameSetInsert_perm (node : LRUKNode) (l : List LRUKNode) :
    (frameSetInsert node l).Perm (node :: l) := by
  induction l with
  | nil => exact List.Perm.refl _
  | cons e rest ih =>
    unfold frameSetInsert
    split
    · exact List.Perm.refl _
    · exact (List.Perm.cons e ih).trans (List.Perm.swap node e rest)

theorem mem_frameSetInsert (node e : LRUKNode) (l : List LRUKNode) :
    e ∈ frameSetInsert node l ↔ e = node ∨ e ∈ l := by
  rw [(frameSetInsert_perm node l).mem_iff, List.mem_cons]

theorem frameSetFind_iff (node : LRUKNode) (l : List LRUKNode) :
    frameSetFind node l = true ↔ ∃ e ∈ l, e.fid_ = node.fid_ := by
  simp [frameSetFind]

theorem mem_frameSetErase (node e : LRUKNode) (l : List LRUKNode) :
    e ∈ frameSetErase node l ↔ e ∈ l ∧ e.fid_ ≠ node.fid_ := by
  simp [frameSetErase]

theorem nodup_frameSetErase (node : LRUKNode) (l : List LRUKNode)
    (h : (l.map fun e => e.fid_).Nodup) :
    ((frameSetErase node l).map fun e => e.fid_).Nodup := by
  unfold frameSetErase
  exact List.Nodup.sublist (List.Sublist.map _ (List.filter_sublist l)) h

theorem nodup_frameSetInsert (node : LRUKNode) (l : List LRUKNode)
    (h : (l.map fun e => e.fid_).Nodup) (hnew : ∀ e ∈ l, e.fid_ ≠ node.fid_) :
    ((frameSetInsert node l).map fun e => e.fid_).Nodup := by
  rw [((frameSetInsert_perm node l).map _).nodup_iff, List.map_cons, List.nodup_cons]
  refine ⟨?_, h⟩
  intro hmem
  rw [List.mem_map] at hmem
  obtain ⟨e, he, hfid⟩ := hmem
  exact hnew e he hfid

/-- C20: in a pool whose page table maps `page_id` to no frame outside the frame array,
`UnpinPage(page_id, is_dirty)` returns false and leaves the pool as it is when the page is not
resident or its pin count is 0; otherwise it returns true, the pin count of the frame is one
less, its dirty flag is the old flag OR `is_dirty` (so `is_dirty = false` keeps a set flag),
the bytes and the page id of the frame, the other frames, the page table, the free list, the
page id counter and the disk are as before, and the replacer has seen `SetEvictable(frame,
true)` exactly when the pin count has reached 0. -/
theorem C20_unpin_page (bpm : BufferPoolManager) (page_id : Int) (is_dirty : Bool)
    (hframe : ∀ f, mapFind bpm.page_table_ page_id = some f → 0 ≤ f ∧ f < bpm.pool_size_) :
    (mapFind bpm.page_table_ page_id = none →
      bpm.UnpinPage page_id is_dirty = some (bpm, false)) ∧
    (∀ f, mapFind bpm.page_table_ page_id = some f → (bpm.pages_ f).pin_count_ = 0 →
      bpm.UnpinPage page_id is_dirty = some (bpm, false)) ∧
    (∀ f, mapFind bpm.page_table_ page_id = some f → (bpm.pages_ f).pin_count_ ≠ 0 →
      ∃ bpm', bpm.UnpinPage page_id is_dirty = some (bpm', true) ∧
        bpm'.pages_ f =
          { bpm.pages_ f with
            pin_count_ := (bpm.pages_ f).pin_count_ - 1,
            is_dirty_ := (bpm.pages_ f).is_dirty_ || is_dirty } ∧
        (is_dirty = false → (bpm'.pages_ f).is_dirty_ = (bpm.pages_ f).is_dirty_) ∧
        (∀ g, g ≠ f → bpm'.pages_ g = bpm.pages_ g) ∧
        bpm'.page_table_ = bpm.page_table_ ∧ bpm'.free_list_ = bpm.free_list_ ∧
        bpm'.next_page_id_ = bpm.next_page_id_ ∧ bpm'.disk_manager_ = bpm.disk_manager_ ∧
        bpm'.pool_size_ = bpm.pool_size_ ∧
        bpm'.replacer_ =
          if (bpm.pages_ f).pin_count_ - 1 = 0 then bpm.replacer_.SetEvictable f true
          else bpm.replacer_) := by
  refine ⟨fun h => by simp [UnpinPage, h], fun f h hpin => ?_, fun f h hpin => ?_⟩
  · simp [UnpinPage, h, hframe f h, hpin]
  · by_cases hzero : (bpm.pages_ f).pin_count_ - 1 = 0
    · refine ⟨_, by simp only [UnpinPage, h, hframe f h, and_self, if_true, hpin, if_false,
        setPage, hzero]; rfl, ?_⟩
      simp only [if_true, hzero, true_and, and_true]
      exact ⟨fun hd => by simp [hd], fun g hg => by simp [hg]⟩
    · refine ⟨_, by simp only [UnpinPage, h, hframe f h, and_self, if_true, hpin, if_false,
        setPage, hzero]; rfl, ?_⟩
      simp only [if_true, hzero, if_false, true_and, and_true, setPage]
      exact ⟨fun hd => by simp [hd], fun g hg => by simp [hg]⟩

/-- C20 at a concrete input: in the pool of three frames after one `NewPage`, page 0 is
unpinned with `is_dirty = true`. -/
theorem C20_unpin_page_witness :
    ∃ bpm', (poolAfter 3 [Call.NewPage]).UnpinPage 0 true = some (bpm', true) ∧
      (bpm'.pages_ 0).pin_count_ = 0 ∧ (bpm'.pages_ 0).is_dirty_ = true := by
  obtain ⟨bpm', h1, h2, _⟩ :=
    (C20_unpin_page (poolAfter 3 [Call.NewPage]) 0 true
      (fun f hf => by cases hf; decide)).2.2 0 rfl (by decide)
  exact ⟨bpm', h1, by rw [h2]; rfl, by rw [h2]; rfl⟩

theorem mapErase_mapSet {K V : Type} [DecidableEq K] (m : List (K × V)) (k : K) (v : V) :
    mapErase (mapSet m k v) k = mapErase m k := by
  unfold mapSet mapErase
  rw [List.filter_cons_of_neg (by simp), List.filter_filter]
  simp

theorem mapSet_mapSet {K V : Type} [DecidableEq K] (m : List (K × V)) (k : K) (v v' : V) :
    mapSet (mapSet m k v) k v' = mapSet m k v' := by
  show (k, v') :: mapErase (mapSet m k v) k = (k, v') :: mapErase m k
  rw [mapErase_mapSet]

theorem evictable_eq (r : LRUKReplacer) (f : Int) (b : Bool) :
    r.evictable f = b ↔
      (match mapFind r.node_store_ f with
        | some node => node.is_evictable_
        | none => false) = b := by
  rfl

/-- What the two replacer calls after a page was bound or fetched do: the frame has a node
that is not evictable, and no entry of `frame_set_`. -/
theorem recordAccess_spec (bpm : BufferPoolManager) (f : Int)
    (htracked : ∀ node, mapFind bpm.replacer_.node_store_ f = some node →
      node.fid_ = f ∧
      (node.is_evictable_ = true ↔ ∃ e ∈ bpm.replacer_.frame_set_, e.fid_ = f))
    (hset : ∀ e ∈ bpm.replacer_.frame_set_, mapFind bpm.replacer_.node_store_ e.fid_ ≠ none)
    (hroom : mapFind bpm.replacer_.node_store_ f = none →
      bpm.replacer_.node_store_.length ≠ bpm.replacer_.replacer_size_) :
    ∃ replacer node, bpm.recordAccess f = some { bpm with replacer_ := replacer } ∧
      replacer.node_store_ = mapSet bpm.replacer_.node_store_ f node ∧
      node.fid_ = f ∧ node.is_evictable_ = false ∧
      (∀ e, e ∈ replacer.frame_set_ ↔ e ∈ bpm.replacer_.frame_set_ ∧ e.fid_ ≠ f) ∧
      ((bpm.replacer_.frame_set_.map fun e => e.fid_).Nodup →
        (replacer.frame_set_.map fun e => e.fid_).Nodup) ∧
      replacer.replacer_size_ = bpm.replacer_.replacer_size_ := by
  cases hfind : mapFind bpm.replacer_.node_store_ f with
  | none =>
    have hroom' := hroom hfind
    refine ⟨{ bpm.replacer_ with
        current_timestamp_ := bpm.replacer_.current_timestamp_ + 1,
        node_store_ := mapSet bpm.replacer_.node_store_ f
          ((LRUKNode.new f bpm.replacer_.k_).AddHistory (bpm.replacer_.current_timestamp_ + 1)) },
      (LRUKNode.new f bpm.replacer_.k_).AddHistory (bpm.replacer_.current_timestamp_ + 1),
      ?_, ?_, rfl, rfl, ?_, ?_, ?_⟩
    · simp only [recordAccess, LRUKReplacer.RecordAccess, hfind, if_neg hroom',
        LRUKReplacer.SetEvictable, mapFind_mapSet, if_true, Option.getD_some]
      rfl
    · rfl
    · intro e
      constructor
      · intro he
        refine ⟨he, fun hfid => hset e he ?_⟩
        rw [hfid]
        exact hfind
      · intro he
        exact he.1
    · exact fun h => h
    · rfl
  | some node =>
    obtain ⟨hfid, hflag⟩ := htracked node hfind
    cases hev : node.is_evictable_ with
    | false =>
      have hno : ¬ ∃ e ∈ bpm.replacer_.frame_set_, e.fid_ = f := by
        rw [← hflag, hev]
        simp
      refine ⟨{ bpm.replacer_ with
          current_timestamp_ := bpm.replacer_.current_timestamp_ + 1,
          node_store_ := mapSet bpm.replacer_.node_store_ f
            (node.AddHistory (bpm.replacer_.current_timestamp_ + 1)) },
        node.AddHistory (bpm.replacer_.current_timestamp_ + 1), ?_, ?_, hfid, hev,
        ?_, ?_, ?_⟩
      · simp only [recordAccess, LRUKReplacer.RecordAccess, hfind, hev, Bool.false_eq_true,
          if_false, LRUKReplacer.SetEvictable, mapFind_mapSet, if_true, Option.getD_some,
          LRUKNode.AddHistory]
      · rfl
      · intro e
        exact ⟨fun he => ⟨he, fun hf => hno ⟨e, he, hf⟩⟩, fun he => he.1⟩
      · exact fun h => h
      · rfl
    | true =>
      have hin : ∃ e ∈ bpm.replacer_.frame_set_, e.fid_ = f := hflag.mp hev
      have hfound : frameSetFind node bpm.replacer_.frame_set_ = true := by
        rw [frameSetFind_iff, hfid]
        exact hin
      have hfound2 : frameSetFind
          { node.AddHistory (bpm.replacer_.current_timestamp_ + 1) with is_evictable_ := false }
          (frameSetInsert (node.AddHistory (bpm.replacer_.current_timestamp_ + 1))
            (frameSetErase node bpm.replacer_.frame_set_)) = true := by
        rw [frameSetFind_iff]
        exact ⟨_, (mem_frameSetInsert _ _ _).mpr (Or.inl rfl), rfl⟩
      refine ⟨{ bpm.replacer_ with
          current_timestamp_ := bpm.replacer_.current_timestamp_ + 1,
          node_store_ := mapSet bpm.replacer_.node_store_ f
            { node.AddHistory (bpm.replacer_.current_timestamp_ + 1) with
              is_evictable_ := false },
          frame_set_ := frameSetErase
            { node.AddHistory (bpm.replacer_.current_timestamp_ + 1) with
              is_evictable_ := false }
            (frameSetInsert (node.AddHistory (bpm.replacer_.current_timestamp_ + 1))
              (frameSetErase node bpm.replacer_.frame_set_)) },
        { node.AddHistory (bpm.replacer_.current_timestamp_ + 1) with
          is_evictable_ := false }, ?_, ?_, hfid, rfl, ?_, ?_, ?_⟩
      · simp only [recordAccess, LRUKReplacer.RecordAccess, hfind, hev, if_true, hfound,
          LRUKReplacer.SetEvictable, mapFind_mapSet, Option.getD_some]
        have hev2 : (node.AddHistory (bpm.replacer_.current_timestamp_ + 1)).is_evictable_ =
            true := hev
        simp only [hev2, Bool.true_eq_false, if_false, Bool.false_eq_true, hfound2, if_true,
          mapSet_mapSet]
      · rfl
      · intro e
        simp only [mem_frameSetErase, mem_frameSetInsert]
        have hfid2 : (node.AddHistory (bpm.replacer_.current_timestamp_ + 1)).fid_ = f := hfid
        constructor
        · rintro ⟨h1 | ⟨h1, _⟩, h2⟩
          · exact absurd (by rw [h1]) h2
          · exact ⟨h1, by simpa [hfid2] using h2⟩
        · rintro ⟨h1, h2⟩
          exact ⟨Or.inr ⟨h1, by rw [hfid]; exact h2⟩, by simpa [hfid2] using h2⟩
      · intro hn
        apply nodup_frameSetErase
        apply nodup_frameSetInsert
        · exact nodup_frameSetErase _ _ hn
        · intro e he
          rw [mem_frameSetErase] at he
          exact he.2
      · rfl

theorem poolInv_new (pool_size replacer_k : Nat) (disk_manager : DiskManager) :
    PoolInv (new pool_size replacer_k disk_manager) none where
  free_nodup := List.Nodup.map Int.ofNat_injective (List.nodup_range pool_size)
  free_valid := by
    intro f hf
    simp only [new, List.mem_map, List.mem_range] at hf
    obtain ⟨i, hi, rfl⟩ := hf
    simp only [new, Int.ofNat_eq_coe]
    omega
  keys_nodup := List.nodup_nil
  bound := fun p f h => by simp [new, mapFind] at h
  cover := by
    intro f h0 h1 hfree _
    exfalso
    apply hfree
    simp only [new, List.mem_map, List.mem_range, Int.ofNat_eq_coe] at h1 ⊢
    exact ⟨f.toNat, by omega, by omega⟩
  hole_ok := fun f h => by cases h
  count := by simp [new]
  store_nodup := List.nodup_nil
  store_count := rfl
  capacity := rfl
  tracked := fun f node h => by simp [new, LRUKReplacer.new, mapFind] at h
  tracked_all := fun p f h => by simp [new, mapFind] at h
  set_nodup := List.nodup_nil
  set_tracked := fun e he => by simp [new, LRUKReplacer.new] at he

/-- Binding a page to the frame that was just acquired, followed by the two replacer calls,
gives back the invariant without hole. -/
theorem poolInv_bind (A B : BufferPoolManager) (f p : Int) (pg : Page)
    (h : PoolInv A (some f))
    (hsize : B.pool_size_ = A.pool_size_)
    (hpages : B.pages_ = fun g => if g = f then pg else A.pages_ g)
    (hrep : B.replacer_ = A.replacer_)
    (hfree : B.free_list_ = A.free_list_)
    (htable : B.page_table_ = mapSet A.page_table_ p f)
    (hnext : A.next_page_id_ ≤ B.next_page_id_)
    (hp : mapFind A.page_table_ p = none) (hpn : p < B.next_page_id_)
    (hpg : pg.page_id_ = p) (hpin : 0 ≤ pg.pin_count_ ∧ pg.pin_count_ ≠ 0) :
    ∃ C, B.recordAccess f = some C ∧ PoolInv C none ∧ C.pool_size_ = A.pool_size_ ∧
      C.next_page_id_ = B.next_page_id_ ∧
      (∀ g, C.replacer_.evictable g = true → A.replacer_.evictable g = true) := by
  obtain ⟨⟨hf0, hf1⟩, hffree, hfstore⟩ := h.hole_ok f rfl
  have hcount := h.count
  simp only [Option.isSome_some, if_true] at hcount
  obtain ⟨replacer, node, hcall, hstore, hfid, hflag, hmem, hnodup, hcap⟩ :=
    recordAccess_spec B f
      (by rw [hrep]; intro node hnode; rw [hfstore] at hnode; cases hnode)
      (by
        rw [hrep]
        intro e he
        obtain ⟨node, hnode, _⟩ := h.set_tracked e he
        rw [hnode]
        simp)
      (by
        rw [hrep]
        intro _
        have := h.store_count
        have := h.capacity
        omega)
  rw [hrep] at hstore hmem hnodup hcap
  refine ⟨_, hcall, ?_, hsize, rfl, ?_⟩
  · refine
      { free_nodup := by simpa only [hfree] using h.free_nodup
        free_valid := by simpa only [hfree, hsize] using h.free_valid
        keys_nodup := by
          show (B.page_table_.map Prod.fst).Nodup
          rw [htable]
          exact nodup_keys_mapSet _ _ _ h.keys_nodup
        bound := ?_
        cover := ?_
        hole_ok := fun g hg => by cases hg
        count := ?_
        store_nodup := by
          show (replacer.node_store_.map Prod.fst).Nodup
          rw [hstore]
          exact nodup_keys_mapSet _ _ _ h.store_nodup
        store_count := ?_
        capacity := by
          show replacer.replacer_size_ = B.pool_size_
          rw [hcap, hsize]
          exact h.capacity
        tracked := ?_
        tracked_all := ?_
        set_nodup := hnodup h.set_nodup
        set_tracked := ?_ }
    · intro p' g hg
      change mapFind B.page_table_ p' = some g at hg
      show (0 ≤ g ∧ g < B.pool_size_) ∧ g ∉ B.free_list_ ∧ some g ≠ none ∧
        (B.pages_ g).page_id_ = p' ∧ p' < B.next_page_id_ ∧ 0 ≤ (B.pages_ g).pin_count_
      rw [htable, mapFind_mapSet] at hg
      rw [hsize, hfree, hpages]
      by_cases hpp : p' = p
      · rw [if_pos hpp] at hg
        cases hg
        simp only [if_true]
        exact ⟨⟨hf0, hf1⟩, hffree, by simp, by rw [hpg, hpp], by rw [hpp]; exact hpn, hpin.1⟩
      · rw [if_neg hpp] at hg
        obtain ⟨hv, hfr, hne, hid, hlt, hpc⟩ := h.bound p' g hg
        have hgf : g ≠ f := fun hgf => hne (by rw [hgf])
        simp only [if_neg hgf]
        exact ⟨hv, hfr, by simp, hid, by omega, hpc⟩
    · intro g hg0 hg1 hgfree _
      show mapFind B.page_table_ (B.pages_ g).page_id_ = some g
      rw [htable, hpages, mapFind_mapSet]
      rw [hsize] at hg1
      rw [hfree] at hgfree
      by_cases hgf : g = f
      · simp [hgf, hpg]
      · simp only [if_neg hgf]
        have hc := h.cover g hg0 hg1 hgfree (fun hh => hgf (by cases hh; rfl))
        have hne : (A.pages_ g).page_id_ ≠ p := by
          intro heq
          rw [heq, hp] at hc
          cases hc
        rw [if_neg hne]
        exact hc
    · show B.page_table_.length + B.free_list_.length + 0 = B.pool_size_
      rw [htable, hfree, hsize, length_mapSet_of_not_found _ _ _ hp]
      omega
    · show replacer.node_store_.length = B.page_table_.length
      rw [hstore, htable, length_mapSet_of_not_found _ _ _ hp,
        length_mapSet_of_not_found _ _ _ hfstore, h.store_count]
    · intro g node' hnode'
      change mapFind replacer.node_store_ g = some node' at hnode'
      show node'.fid_ = g ∧ (∃ page_id, mapFind B.page_table_ page_id = some g) ∧
        (node'.is_evictable_ = true ↔ (B.pages_ g).pin_count_ = 0) ∧
        (node'.is_evictable_ = true ↔ ∃ e ∈ replacer.frame_set_, e.fid_ = g)
      rw [hstore, mapFind_mapSet] at hnode'
      rw [htable, hpages]
      by_cases hgf : g = f
      · rw [if_pos hgf] at hnode'
        cases hnode'
        subst hgf
        refine ⟨hfid, ⟨p, by simp [mapFind_mapSet]⟩, ?_, ?_⟩
        · simp [hflag, hpin.2]
        · simp only [hflag, Bool.false_eq_true, false_iff, not_exists, not_and]
          intro e he
          exact ((hmem e).mp he).2
      · rw [if_neg hgf] at hnode'
        obtain ⟨h1, ⟨p', hp'⟩, h3, h4⟩ := h.tracked g node' hnode'
        refine ⟨h1, ⟨p', ?_⟩, by simpa only [if_neg hgf] using h3, ?_⟩
        · rw [mapFind_mapSet]
          have : p' ≠ p := by
            intro heq
            rw [heq, hp] at hp'
            cases hp'
          rw [if_neg this]
          exact hp'
        · rw [h4]
          constructor
          · rintro ⟨e, he, hfe⟩
            exact ⟨e, (hmem e).mpr ⟨he, by rw [hfe]; exact hgf⟩, hfe⟩
          · rintro ⟨e, he, hfe⟩
            exact ⟨e, ((hmem e).mp he).1, hfe⟩
    · intro p' g hg
      change mapFind B.page_table_ p' = some g at hg
      show (mapFind replacer.node_store_ g).isSome = true
      rw [htable, mapFind_mapSet] at hg
      rw [hstore, mapFind_mapSet]
      by_cases hgf : g = f
      · simp [hgf]
      · rw [if_neg hgf]
        by_cases hpp : p' = p
        · rw [if_pos hpp] at hg
          cases hg
          exact absurd rfl hgf
        · rw [if_neg hpp] at hg
          exact h.tracked_all p' g hg
    · intro e he
      change e ∈ replacer.frame_set_ at he
      show ∃ node', mapFind replacer.node_store_ e.fid_ = some node' ∧ node'.is_evictable_ = true
      obtain ⟨he1, he2⟩ := (hmem e).mp he
      obtain ⟨node', hn1, hn2⟩ := h.set_tracked e he1
      exact ⟨node', by rw [hstore, mapFind_mapSet, if_neg he2]; exact hn1, hn2⟩
  · intro g hg
    change replacer.evictable g = true at hg
    rw [evictable_eq, hstore, mapFind_mapSet] at hg
    rw [evictable_eq]
    by_cases hgf : g = f
    · rw [if_pos hgf] at hg
      simp only [hflag] at hg
      cases hg
    · rw [if_neg hgf] at hg
      exact hg

theorem evict_nil (r : LRUKReplacer) (h : r.frame_set_ = []) : r.Evict = (r, none) := by
  simp [LRUKReplacer.Evict, h]

theorem evict_cons (r : LRUKReplacer) (e : LRUKNode) (rest : List LRUKNode)
    (h : r.frame_set_ = e :: rest) :
    r.Evict = ({ r with node_store_ := mapErase r.node_store_ e.fid_, frame_set_ := rest },
      some e.fid_) := by
  simp [LRUKReplacer.Evict, h]

/-- The frame acquisition on a pool that satisfies the invariant: either nothing can be
evicted and the pool stays as it is, or a frame is handed out and the invariant holds with
that frame as the hole. -/
theorem acquireFrame_spec (bpm : BufferPoolManager) (h : PoolInv bpm none) :
    bpm.acquireFrame = some (bpm, none) ∨
    ∃ A f, bpm.acquireFrame = some (A, some f) ∧ PoolInv A (some f) ∧
      A.pool_size_ = bpm.pool_size_ ∧ A.next_page_id_ = bpm.next_page_id_ ∧
      (∀ p g, mapFind A.page_table_ p = some g → mapFind bpm.page_table_ p = some g) ∧
      (∀ g, A.replacer_.evictable g = true → bpm.replacer_.evictable g = true) := by
  cases hfl : bpm.free_list_ with
  | cons front rest =>
    right
    have hnd := h.free_nodup
    rw [hfl, List.nodup_cons] at hnd
    have hfront : front ∈ bpm.free_list_ := by rw [hfl]; exact List.mem_cons_self _ _
    refine ⟨{ bpm with free_list_ := rest }, front, by simp [acquireFrame, hfl], ?_, rfl, rfl,
      fun p g hg => hg, fun g hg => hg⟩
    refine
      { free_nodup := hnd.2
        free_valid := fun g hg => h.free_valid g (by rw [hfl]; exact List.mem_cons_of_mem _ hg)
        keys_nodup := h.keys_nodup
        bound := ?_
        cover := ?_
        hole_ok := ?_
        count := ?_
        store_nodup := h.store_nodup
        store_count := h.store_count
        capacity := h.capacity
        tracked := h.tracked
        tracked_all := h.tracked_all
        set_nodup := h.set_nodup
        set_tracked := h.set_tracked }
    · intro p g hg
      obtain ⟨hv, hfr, _, hid, hlt, hpc⟩ := h.bound p g hg
      refine ⟨hv, fun hmem => hfr (by rw [hfl]; exact List.mem_cons_of_mem _ hmem), ?_, hid,
        hlt, hpc⟩
      intro heq
      cases heq
      exact hfr hfront
    · intro g hg0 hg1 hgfree hne
      apply h.cover g hg0 hg1 _ (by simp)
      rw [hfl]
      intro hmem
      rcases List.mem_cons.mp hmem with hh | hh
      · exact hne (by rw [hh])
      · exact hgfree hh
    · intro g hg
      cases hg
      refine ⟨h.free_valid front hfront, hnd.1, ?_⟩
      cases hst : mapFind bpm.replacer_.node_store_ front with
      | none => rfl
      | some node =>
        obtain ⟨_, ⟨p, hp⟩, _⟩ := h.tracked front node hst
        exact absurd hfront (h.bound p front hp).2.1
    · have := h.count
      rw [hfl] at this
      simp only [List.length_cons, Option.isSome_none, Bool.false_eq_true, if_false,
        Option.isSome_some, if_true] at this ⊢
      omega
  | nil =>
    cases hfs : bpm.replacer_.frame_set_ with
    | nil =>
      left
      obtain ⟨a1, a2, a3, a4, a5, a6, a7⟩ := bpm
      simp only at hfl hfs
      subst hfl
      simp [acquireFrame, evict_nil _ hfs]
    | cons e rest =>
      right
      have hemem : e ∈ bpm.replacer_.frame_set_ := by rw [hfs]; exact List.mem_cons_self _ _
      obtain ⟨node, hnode, hev⟩ := h.set_tracked e hemem
      obtain ⟨_, ⟨p, hp⟩, hpin, _⟩ := h.tracked e.fid_ node hnode
      obtain ⟨hv, _, _, hid, _, _⟩ := h.bound p e.fid_ hp
      have hsnd := h.set_nodup
      rw [hfs, List.map_cons, List.nodup_cons] at hsnd
      have hrest : ∀ e' ∈ rest, e'.fid_ ≠ e.fid_ := by
        intro e' he' heq
        apply hsnd.1
        rw [← heq]
        exact List.mem_map_of_mem (fun e => e.fid_) he'
      have hcount := h.count
      rw [hfl] at hcount
      simp only [List.length_nil, Option.isSome_none, Bool.false_eq_true, if_false] at hcount
      refine ⟨{ bpm with
          replacer_ := { bpm.replacer_ with
            node_store_ := mapErase bpm.replacer_.node_store_ e.fid_, frame_set_ := rest },
          disk_manager_ :=
            if (bpm.pages_ e.fid_).is_dirty_ then
              bpm.disk_manager_.WritePage (bpm.pages_ e.fid_).page_id_ (bpm.pages_ e.fid_).data_
            else bpm.disk_manager_,
          page_table_ := mapErase bpm.page_table_ (bpm.pages_ e.fid_).page_id_ },
        e.fid_, by simp [acquireFrame, hfl, evict_cons _ e rest hfs, hv], ?_, rfl, rfl, ?_, ?_⟩
      · refine
          { free_nodup := h.free_nodup
            free_valid := h.free_valid
            keys_nodup := nodup_keys_mapErase _ _ h.keys_nodup
            bound := ?_
            cover := ?_
            hole_ok := ?_
            count := ?_
            store_nodup := nodup_keys_mapErase _ _ h.store_nodup
            store_count := ?_
            capacity := h.capacity
            tracked := ?_
            tracked_all := ?_
            set_nodup := hsnd.2
            set_tracked := ?_ }
        · intro p' g hg
          change mapFind (mapErase bpm.page_table_ (bpm.pages_ e.fid_).page_id_) p' = some g at hg
          rw [mapFind_mapErase, hid] at hg
          by_cases hpp : p' = p
          · rw [if_pos hpp] at hg
            cases hg
          · rw [if_neg hpp] at hg
            obtain ⟨hv', hfr', _, hid', hlt', hpc'⟩ := h.bound p' g hg
            refine ⟨hv', hfr', ?_, hid', hlt', hpc'⟩
            intro heq
            cases heq
            exact hpp (hid'.symm.trans hid)
        · intro g hg0 hg1 hgfree hne
          show mapFind (mapErase bpm.page_table_ (bpm.pages_ e.fid_).page_id_)
            (bpm.pages_ g).page_id_ = some g
          have hc := h.cover g hg0 hg1 hgfree (by simp)
          rw [mapFind_mapErase, hid]
          have : (bpm.pages_ g).page_id_ ≠ p := by
            intro heq
            rw [heq, hp] at hc
            exact hne hc.symm
          rw [if_neg this]
          exact hc
        · intro g hg
          cases hg
          refine ⟨hv, by rw [hfl]; simp, ?_⟩
          show mapFind (mapErase bpm.replacer_.node_store_ e.fid_) e.fid_ = none
          rw [mapFind_mapErase, if_pos rfl]
        · show (mapErase bpm.page_table_ (bpm.pages_ e.fid_).page_id_).length +
            bpm.free_list_.length + (if (some e.fid_).isSome then 1 else 0) = bpm.pool_size_
          have := length_mapErase_of_found _ _ _ h.keys_nodup hp
          rw [hid, hfl]
          simp only [List.length_nil, Option.isSome_some, if_true]
          omega
        · show (mapErase bpm.replacer_.node_store_ e.fid_).length =
            (mapErase bpm.page_table_ (bpm.pages_ e.fid_).page_id_).length
          have h1 := length_mapErase_of_found _ _ _ h.keys_nodup hp
          have h2 := length_mapErase_of_found _ _ _ h.store_nodup hnode
          have h3 := h.store_count
          rw [hid]
          omega
        · intro g node' hnode'
          change mapFind (mapErase bpm.replacer_.node_store_ e.fid_) g = some node' at hnode'
          show node'.fid_ = g ∧
            (∃ page_id, mapFind (mapErase bpm.page_table_ (bpm.pages_ e.fid_).page_id_) page_id =
              some g) ∧
            (node'.is_evictable_ = true ↔ (bpm.pages_ g).pin_count_ = 0) ∧
            (node'.is_evictable_ = true ↔ ∃ e' ∈ rest, e'.fid_ = g)
          rw [mapFind_mapErase] at hnode'
          by_cases hgf : g = e.fid_
          · rw [if_pos hgf] at hnode'
            cases hnode'
          · rw [if_neg hgf] at hnode'
            obtain ⟨h1, ⟨p', hp'⟩, h3, h4⟩ := h.tracked g node' hnode'
            refine ⟨h1, ⟨p', ?_⟩, h3, ?_⟩
            · rw [mapFind_mapErase, hid]
              have : p' ≠ p := by
                intro heq
                rw [heq, hp] at hp'
                cases hp'
                exact hgf rfl
              rw [if_neg this]
              exact hp'
            · rw [h4, hfs]
              constructor
              · rintro ⟨e', he', hfe'⟩
                rcases List.mem_cons.mp he' with hh | hh
                · exact absurd (by rw [← hfe', hh]) hgf
                · exact ⟨e', hh, hfe'⟩
              · rintro ⟨e', he', hfe'⟩
                exact ⟨e', List.mem_cons_of_mem _ he', hfe'⟩
        · intro p' g hg
          change mapFind (mapErase bpm.page_table_ (bpm.pages_ e.fid_).page_id_) p' = some g at hg
          show (mapFind (mapErase bpm.replacer_.node_store_ e.fid_) g).isSome = true
          rw [mapFind_mapErase, hid] at hg
          by_cases hpp : p' = p
          · rw [if_pos hpp] at hg
            cases hg
          · rw [if_neg hpp] at hg
            have hgf : g ≠ e.fid_ := by
              intro heq
              rw [heq] at hg
              exact hpp (((h.bound p' e.fid_ hg).2.2.2.1).symm.trans hid)
            rw [mapFind_mapErase, if_neg hgf]
            exact h.tracked_all p' g hg
        · intro e' he'
          show ∃ node', mapFind (mapErase bpm.replacer_.node_store_ e.fid_) e'.fid_ =
            some node' ∧ node'.is_evictable_ = true
          obtain ⟨node', hn1, hn2⟩ :=
            h.set_tracked e' (by rw [hfs]; exact List.mem_cons_of_mem _ he')
          exact ⟨node', by rw [mapFind_mapErase, if_neg (hrest e' he')]; exact hn1, hn2⟩
      · intro p' g hg
        change mapFind (mapErase bpm.page_table_ (bpm.pages_ e.fid_).page_id_) p' = some g at hg
        rw [mapFind_mapErase] at hg
        split at hg
        · cases hg
        · exact hg
      · intro g hg
        change LRUKReplacer.evictable { bpm.replacer_ with
          node_store_ := mapErase bpm.replacer_.node_store_ e.fid_, frame_set_ := rest } g =
            true at hg
        rw [evictable_eq] at hg ⊢
        simp only [mapFind_mapErase] at hg
        by_cases hgf : g = e.fid_
        · simp [hgf] at hg
        · simpa only [if_neg hgf] using hg

/-- The call `NewPage` on a pool that satisfies the invariant returns and keeps it. -/
theorem newPage_spec (bpm : BufferPoolManager) (h : PoolInv bpm none) :
    ∃ bpm' r, bpm.NewPage = some (bpm', r) ∧ PoolInv bpm' none ∧
      bpm'.pool_size_ = bpm.pool_size_ ∧
      (∀ g, bpm'.replacer_.evictable g = true → bpm.replacer_.evictable g = true) := by
  rcases acquireFrame_spec bpm h with hnone | ⟨A, f, hacq, hA, hsz, hnx, hsub, hev⟩
  · exact ⟨bpm, none, by simp [NewPage, hnone], h, rfl, fun g hg => hg⟩
  · obtain ⟨hvalid, _, _⟩ := hA.hole_ok f rfl
    have hp : mapFind A.page_table_ A.next_page_id_ = none := by
      cases hfind : mapFind A.page_table_ A.next_page_id_ with
      | none => rfl
      | some g =>
        have := (hA.bound _ g hfind).2.2.2.2.1
        omega
    obtain ⟨C, hC, hCinv, hCsz, _, hCev⟩ := poolInv_bind A
      (setPage { A with
          next_page_id_ := A.next_page_id_ + 1,
          page_table_ := mapSet A.page_table_ A.next_page_id_ f } f
        { (A.pages_ f).ResetMemory with
          pin_count_ := 1, is_dirty_ := false, page_id_ := A.next_page_id_ })
      f A.next_page_id_
      { (A.pages_ f).ResetMemory with
          pin_count_ := 1, is_dirty_ := false, page_id_ := A.next_page_id_ }
      hA rfl rfl rfl rfl rfl (by show A.next_page_id_ ≤ A.next_page_id_ + 1; omega) hp
      (by show A.next_page_id_ < A.next_page_id_ + 1; omega) rfl
      ⟨by show (0 : Int) ≤ 1; omega, by show (1 : Int) ≠ 0; omega⟩
    refine ⟨C, some (A.next_page_id_, f), ?_, hCinv, by rw [hCsz, hsz],
      fun g hg => hev g (hCev g hg)⟩
    simp only [NewPage, hacq, hvalid, and_self, if_true]
    exact congrArg (Option.map fun bpm => (bpm, some (A.next_page_id_, f))) hC

/-- A change of the page object of a resident frame (same page id) together with a change of
its node in the replacer keeps the invariant. -/
theorem poolInv_update (bpm B : BufferPoolManager) (f p : Int) (pg : Page) (node : LRUKNode)
    (h : PoolInv bpm none)
    (hp : mapFind bpm.page_table_ p = some f)
    (hsize : B.pool_size_ = bpm.pool_size_)
    (hfree : B.free_list_ = bpm.free_list_)
    (htable : B.page_table_ = bpm.page_table_)
    (hnext : B.next_page_id_ = bpm.next_page_id_)
    (hpages : B.pages_ = fun g => if g = f then pg else bpm.pages_ g)
    (hpg : pg.page_id_ = (bpm.pages_ f).page_id_) (hpin : 0 ≤ pg.pin_count_)
    (hstore : ∀ g, mapFind B.replacer_.node_store_ g =
      if g = f then some node else mapFind bpm.replacer_.node_store_ g)
    (hstore_nodup : (B.replacer_.node_store_.map Prod.fst).Nodup)
    (hstore_len : B.replacer_.node_store_.length = bpm.replacer_.node_store_.length)
    (hcap : B.replacer_.replacer_size_ = bpm.replacer_.replacer_size_)
    (hnode : node.fid_ = f ∧ (node.is_evictable_ = true ↔ pg.pin_count_ = 0) ∧
      (node.is_evictable_ = true ↔ ∃ e ∈ B.replacer_.frame_set_, e.fid_ = f))
    (hfs : ∀ e : LRUKNode, e.fid_ ≠ f →
      (e ∈ B.replacer_.frame_set_ ↔ e ∈ bpm.replacer_.frame_set_))
    (hfs_nodup : (B.replacer_.frame_set_.map fun e => e.fid_).Nodup) :
    PoolInv B none := by
  refine
    { free_nodup := by rw [hfree]; exact h.free_nodup
      free_valid := by rw [hfree, hsize]; exact h.free_valid
      keys_nodup := by rw [htable]; exact h.keys_nodup
      bound := ?_
      cover := ?_
      hole_ok := fun g hg => by cases hg
      count := by rw [htable, hfree, hsize]; exact h.count
      store_nodup := hstore_nodup
      store_count := by rw [hstore_len, htable]; exact h.store_count
      capacity := by rw [hcap, hsize]; exact h.capacity
      tracked := ?_
      tracked_all := ?_
      set_nodup := hfs_nodup
      set_tracked := ?_ }
  · intro p' g hg
    rw [htable] at hg
    obtain ⟨hv, hfr, hne, hid, hlt, hpc⟩ := h.bound p' g hg
    rw [hsize, hfree, hnext, hpages]
    refine ⟨hv, hfr, hne, ?_, hlt, ?_⟩
    · by_cases hgf : g = f
      · simp only [if_pos hgf]
        rw [hpg, ← hgf]
        exact hid
      · simp only [if_neg hgf]
        exact hid
    · by_cases hgf : g = f
      · simp only [if_pos hgf]
        exact hpin
      · simp only [if_neg hgf]
        exact hpc
  · intro g hg0 hg1 hgfree hne
    rw [hsize] at hg1
    rw [hfree] at hgfree
    rw [htable, hpages]
    have := h.cover g hg0 hg1 hgfree hne
    by_cases hgf : g = f
    · simp only [if_pos hgf]
      rw [hpg, ← hgf]
      exact this
    · simp only [if_neg hgf]
      exact this
  · intro g node' hnode'
    rw [hstore] at hnode'
    unfold resident
    rw [htable, hpages]
    by_cases hgf : g = f
    · rw [if_pos hgf] at hnode'
      cases hnode'
      subst hgf
      simp only [if_true]
      exact ⟨hnode.1, ⟨p, hp⟩, hnode.2.1, hnode.2.2⟩
    · rw [if_neg hgf] at hnode'
      obtain ⟨h1, h2, h3, h4⟩ := h.tracked g node' hnode'
      simp only [if_neg hgf]
      refine ⟨h1, h2, h3, ?_⟩
      rw [h4]
      constructor
      · rintro ⟨e, he, hfe⟩
        exact ⟨e, (hfs e (by rw [hfe]; exact hgf)).mpr he, hfe⟩
      · rintro ⟨e, he, hfe⟩
        exact ⟨e, (hfs e (by rw [hfe]; exact hgf)).mp he, hfe⟩
  · intro p' g hg
    rw [htable] at hg
    rw [hstore]
    by_cases hgf : g = f
    · simp [hgf]
    · rw [if_neg hgf]
      exact h.tracked_all p' g hg
  · intro e he
    rw [hstore]
    by_cases hef : e.fid_ = f
    · rw [if_pos hef]
      exact ⟨node, rfl, hnode.2.2.mpr ⟨e, he, hef⟩⟩
    · rw [if_neg hef]
      exact h.set_tracked e ((hfs e hef).mp he)

/-- The call `FetchPage` with the id of a page that `NewPage` has handed out, on a pool
that satisfies the invariant, returns and keeps it. -/
theorem fetchPage_spec (bpm : BufferPoolManager) (page_id : Int) (h : PoolInv bpm none)
    (hid : 0 ≤ page_id ∧ page_id < bpm.next_page_id_) :
    ∃ bpm' r, bpm.FetchPage page_id = some (bpm', r) ∧ PoolInv bpm' none ∧
      bpm'.pool_size_ = bpm.pool_size_ ∧
      (∀ g, bpm'.replacer_.evictable g = true → bpm.replacer_.evictable g = true) := by
  have hne : page_id ≠ -1 := by omega
  cases hfind : mapFind bpm.page_table_ page_id with
  | none =>
    rcases acquireFrame_spec bpm h with hnone | ⟨A, f, hacq, hA, hsz, hnx, hsub, hev⟩
    · exact ⟨bpm, none, by simp [FetchPage, hne, hfind, hnone], h, rfl, fun g hg => hg⟩
    · obtain ⟨hvalid, _, _⟩ := hA.hole_ok f rfl
      have hp : mapFind A.page_table_ page_id = none := by
        cases hfind' : mapFind A.page_table_ page_id with
        | none => rfl
        | some g =>
          rw [hsub _ _ hfind'] at hfind
          cases hfind
      obtain ⟨C, hC, hCinv, hCsz, _, hCev⟩ := poolInv_bind A
        (setPage { A with page_table_ := mapSet A.page_table_ page_id f } f
          { data_ := A.disk_manager_.ReadPage page_id, page_id_ := page_id, pin_count_ := 1,
            is_dirty_ := false })
        f page_id
        { data_ := A.disk_manager_.ReadPage page_id, page_id_ := page_id, pin_count_ := 1,
          is_dirty_ := false }
        hA rfl rfl rfl rfl rfl (le_refl _) hp (by show page_id < A.next_page_id_; omega) rfl
        ⟨by show (0 : Int) ≤ 1; omega, by show (1 : Int) ≠ 0; omega⟩
      refine ⟨C, some f, ?_, hCinv, by rw [hCsz, hsz], fun g hg => hev g (hCev g hg)⟩
      simp only [FetchPage, hne, if_false, hfind, hacq, hvalid, and_self, if_true]
      exact congrArg (Option.map fun bpm => (bpm, some f)) hC
  | some f =>
    obtain ⟨hvalid, _, _, hpid, _, hpc⟩ := h.bound page_id f hfind
    have hsome := h.tracked_all page_id f hfind
    obtain ⟨replacer, node, hcall, hstore, hfid, hflag, hmem, hnodup, hcap⟩ :=
      recordAccess_spec
        (bpm.setPage f
          { bpm.pages_ f with pin_count_ := (bpm.pages_ f).pin_count_ + 1 }) f
        (fun node hnode => by
          obtain ⟨h1, _, _, h4⟩ := h.tracked f node hnode
          exact ⟨h1, h4⟩)
        (fun e he => by
          obtain ⟨node, hnode, _⟩ := h.set_tracked e he
          show mapFind bpm.replacer_.node_store_ e.fid_ ≠ none
          rw [hnode]
          simp)
        (fun hnone => by
          change mapFind bpm.replacer_.node_store_ f = none at hnone
          rw [hnone] at hsome
          cases hsome)
    change replacer.node_store_ = mapSet bpm.replacer_.node_store_ f node at hstore
    change ∀ e, e ∈ replacer.frame_set_ ↔ e ∈ bpm.replacer_.frame_set_ ∧ e.fid_ ≠ f at hmem
    refine ⟨{ bpm.setPage f
        { bpm.pages_ f with pin_count_ := (bpm.pages_ f).pin_count_ + 1 } with
        replacer_ := replacer }, some f, ?_, ?_, rfl, ?_⟩
    · simp only [FetchPage, hne, if_false, hfind, hvalid, and_self, if_true]
      exact congrArg (Option.map fun bpm => (bpm, some f)) hcall
    · obtain ⟨nd, hnd⟩ := Option.isSome_iff_exists.mp hsome
      refine poolInv_update bpm _ f page_id
        { bpm.pages_ f with pin_count_ := (bpm.pages_ f).pin_count_ + 1 } node h hfind
        rfl rfl rfl rfl rfl rfl (by show 0 ≤ (bpm.pages_ f).pin_count_ + 1; omega)
        (fun g => by
          show mapFind replacer.node_store_ g = _
          rw [hstore, mapFind_mapSet])
        (by
          show (replacer.node_store_.map Prod.fst).Nodup
          rw [hstore]
          exact nodup_keys_mapSet _ _ _ h.store_nodup)
        (by
          show replacer.node_store_.length = _
          rw [hstore]
          exact length_mapSet_of_found _ _ _ nd h.store_nodup hnd)
        hcap
        ⟨hfid, ?_, ?_⟩
        (fun e he => by
          show e ∈ replacer.frame_set_ ↔ _
          rw [hmem]
          exact ⟨fun hh => hh.1, fun hh => ⟨hh, he⟩⟩)
        (hnodup h.set_nodup)
      · rw [hflag]
        show false = true ↔ (bpm.pages_ f).pin_count_ + 1 = 0
        constructor
        · intro hh
          cases hh
        · intro hh
          omega
      · rw [hflag]
        show false = true ↔ ∃ e ∈ replacer.frame_set_, e.fid_ = f
        constructor
        · intro hh
          cases hh
        · rintro ⟨e, he, hfe⟩
          exact absurd hfe ((hmem e).mp he).2
    · intro g hg
      change replacer.evictable g = true at hg
      rw [evictable_eq, hstore, mapFind_mapSet] at hg
      rw [evictable_eq]
      by_cases hgf : g = f
      · rw [if_pos hgf] at hg
        simp only [hflag] at hg
        cases hg
      · rw [if_neg hgf] at hg
        exact hg

/-- The call `UnpinPage` on a pool that satisfies the invariant returns and keeps it; a frame
that is evictable after the call and was not before is the frame of the page, and its pin
count went from 1 to 0. -/
theorem unpinPage_spec (bpm : BufferPoolManager) (page_id : Int) (is_dirty : Bool)
    (h : PoolInv bpm none) :
    ∃ bpm' b, bpm.UnpinPage page_id is_dirty = some (bpm', b) ∧ PoolInv bpm' none ∧
      bpm'.pool_size_ = bpm.pool_size_ ∧
      (∀ g, bpm.replacer_.evictable g = false → bpm'.replacer_.evictable g = true →
        mapFind bpm.page_table_ page_id = some g ∧ (bpm.pages_ g).pin_count_ = 1 ∧
        (bpm'.pages_ g).pin_count_ = 0) := by
  cases hfind : mapFind bpm.page_table_ page_id with
  | none => exact ⟨bpm, false, by simp [UnpinPage, hfind], h, rfl,
      fun g h1 h2 => absurd (h1.symm.trans h2) (by decide)⟩
  | some f =>
    obtain ⟨hvalid, _, _, hpid, _, hpc⟩ := h.bound page_id f hfind
    by_cases hpin : (bpm.pages_ f).pin_count_ = 0
    · exact ⟨bpm, false, by simp [UnpinPage, hfind, hvalid, hpin], h, rfl,
      fun g h1 h2 => absurd (h1.symm.trans h2) (by decide)⟩
    · obtain ⟨nd, hnd⟩ := Option.isSome_iff_exists.mp (h.tracked_all page_id f hfind)
      obtain ⟨hfid, _, hflagpin, hflagset⟩ := h.tracked f nd hnd
      have hflag : nd.is_evictable_ = false := by
        cases hb : nd.is_evictable_ with
        | false => rfl
        | true => exact absurd (hflagpin.mp hb) hpin
      have hnoentry : ∀ e ∈ bpm.replacer_.frame_set_, e.fid_ ≠ f := by
        intro e he hfe
        have := hflagset.mpr ⟨e, he, hfe⟩
        rw [hflag] at this
        cases this
      by_cases hzero : (bpm.pages_ f).pin_count_ - 1 = 0
      · have hnotfound : frameSetFind nd bpm.replacer_.frame_set_ = false := by
          cases hb : frameSetFind nd bpm.replacer_.frame_set_ with
          | false => rfl
          | true =>
            obtain ⟨e, he, hfe⟩ := (frameSetFind_iff _ _).mp hb
            exact absurd (hfe.trans hfid) (hnoentry e he)
        have hset : bpm.replacer_.SetEvictable f true =
            { bpm.replacer_ with
              frame_set_ := frameSetInsert nd bpm.replacer_.frame_set_,
              node_store_ := mapSet bpm.replacer_.node_store_ f
                { nd with is_evictable_ := true } } := by
          simp [LRUKReplacer.SetEvictable, hnd, hflag, hnotfound]
        refine ⟨{ bpm.setPage f
            { bpm.pages_ f with
              is_dirty_ := (bpm.pages_ f).is_dirty_ || is_dirty,
              pin_count_ := (bpm.pages_ f).pin_count_ - 1 } with
            replacer_ := bpm.replacer_.SetEvictable f true }, true, ?_, ?_, rfl, ?_⟩
        · simp only [UnpinPage, hfind, hvalid, and_self, if_true, hpin, if_false, setPage,
            hzero]
        · refine poolInv_update bpm _ f page_id
            { bpm.pages_ f with
              is_dirty_ := (bpm.pages_ f).is_dirty_ || is_dirty,
              pin_count_ := (bpm.pages_ f).pin_count_ - 1 }
            { nd with is_evictable_ := true } h hfind rfl rfl rfl rfl rfl rfl
            (by show 0 ≤ (bpm.pages_ f).pin_count_ - 1; omega)
            (fun g => by
              show mapFind (bpm.replacer_.SetEvictable f true).node_store_ g = _
              rw [hset]
              exact mapFind_mapSet _ _ _ _)
            (by
              show ((bpm.replacer_.SetEvictable f true).node_store_.map Prod.fst).Nodup
              rw [hset]
              exact nodup_keys_mapSet _ _ _ h.store_nodup)
            (by
              show (bpm.replacer_.SetEvictable f true).node_store_.length = _
              rw [hset]
              exact length_mapSet_of_found _ _ _ nd h.store_nodup hnd)
            (by
              show (bpm.replacer_.SetEvictable f true).replacer_size_ = _
              rw [hset])
            ⟨hfid, ?_, ?_⟩
            (fun e he => by
              show e ∈ (bpm.replacer_.SetEvictable f true).frame_set_ ↔ _
              rw [hset]
              show e ∈ frameSetInsert nd bpm.replacer_.frame_set_ ↔ _
              rw [mem_frameSetInsert]
              constructor
              · rintro (hh | hh)
                · exact absurd (by rw [hh]; exact hfid) he
                · exact hh
              · exact fun hh => Or.inr hh)
            (by
              show ((bpm.replacer_.SetEvictable f true).frame_set_.map fun e => e.fid_).Nodup
              rw [hset]
              exact nodup_frameSetInsert nd _ h.set_nodup
                (fun e he => by rw [hfid]; exact hnoentry e he))
          · show true = true ↔ (bpm.pages_ f).pin_count_ - 1 = 0
            simp [hzero]
          · show true = true ↔ ∃ e ∈ (bpm.replacer_.SetEvictable f true).frame_set_, e.fid_ = f
            rw [hset]
            simp only [true_iff]
            exact ⟨nd, (mem_frameSetInsert _ _ _).mpr (Or.inl rfl), hfid⟩
        · intro g hg1 hg2
          change (bpm.replacer_.SetEvictable f true).evictable g = true at hg2
          rw [hset, evictable_eq] at hg2
          change (match mapFind (mapSet bpm.replacer_.node_store_ f
            { nd with is_evictable_ := true }) g with
            | some node => node.is_evictable_
            | none => false) = true at hg2
          rw [mapFind_mapSet] at hg2
          by_cases hgf : g = f
          · subst hgf
            refine ⟨rfl, by omega, ?_⟩
            show (if g = g then _ else _ : Page).pin_count_ = 0
            rw [if_pos rfl]
            exact hzero
          · rw [if_neg hgf] at hg2
            rw [evictable_eq, hg2] at hg1
            cases hg1
      · refine ⟨bpm.setPage f
            { bpm.pages_ f with
              is_dirty_ := (bpm.pages_ f).is_dirty_ || is_dirty,
              pin_count_ := (bpm.pages_ f).pin_count_ - 1 }, true, ?_, ?_, rfl, ?_⟩
        · simp only [UnpinPage, hfind, hvalid, and_self, if_true, hpin, if_false, setPage,
            hzero]
        · refine poolInv_update bpm _ f page_id
            { bpm.pages_ f with
              is_dirty_ := (bpm.pages_ f).is_dirty_ || is_dirty,
              pin_count_ := (bpm.pages_ f).pin_count_ - 1 }
            nd h hfind rfl rfl rfl rfl rfl rfl
            (by show 0 ≤ (bpm.pages_ f).pin_count_ - 1; omega)
            (fun g => by
              show mapFind bpm.replacer_.node_store_ g = _
              by_cases hgf : g = f
              · rw [if_pos hgf, hgf]
                exact hnd
              · rw [if_neg hgf])
            h.store_nodup rfl rfl ⟨hfid, ?_, hflagset⟩ (fun e _ => Iff.rfl) h.set_nodup
          rw [hflag]
          show false = true ↔ (bpm.pages_ f).pin_count_ - 1 = 0
          simp [hzero]
        · exact fun g h1 h2 => absurd (h1.symm.trans h2) (by decide)

/-- The call `FlushPage` on a pool that satisfies the invariant returns and keeps it; the
replacer is as before. -/
theorem flushPage_spec (bpm : BufferPoolManager) (page_id : Int) (h : PoolInv bpm none) :
    ∃ bpm' b, bpm.FlushPage page_id = some (bpm', b) ∧ PoolInv bpm' none ∧
      bpm'.pool_size_ = bpm.pool_size_ ∧ bpm'.replacer_ = bpm.replacer_ := by
  cases hfind : mapFind bpm.page_table_ page_id with
  | none => exact ⟨bpm, false, by simp [FlushPage, hfind], h, rfl, rfl⟩
  | some f =>
    obtain ⟨hvalid, _, _, hpid, _, hpc⟩ := h.bound page_id f hfind
    obtain ⟨nd, hnd⟩ := Option.isSome_iff_exists.mp (h.tracked_all page_id f hfind)
    obtain ⟨hfid, _, hflagpin, hflagset⟩ := h.tracked f nd hnd
    refine ⟨setPage { bpm with
        disk_manager_ :=
          bpm.disk_manager_.WritePage (bpm.pages_ f).page_id_ (bpm.pages_ f).data_ } f
        { bpm.pages_ f with is_dirty_ := false }, true, ?_, ?_, rfl, rfl⟩
    · simp only [FlushPage, hfind, hvalid, and_self, if_true]
    · exact poolInv_update bpm _ f page_id { bpm.pages_ f with is_dirty_ := false } nd h hfind
        rfl rfl rfl rfl rfl rfl hpc
        (fun g => by
          show mapFind bpm.replacer_.node_store_ g = _
          by_cases hgf : g = f
          · rw [if_pos hgf, hgf]
            exact hnd
          · rw [if_neg hgf])
        h.store_nodup rfl rfl ⟨hfid, hflagpin, hflagset⟩ (fun e _ => Iff.rfl) h.set_nodup

/-- The call `DeletePage` on a pool that satisfies the invariant returns and keeps it. -/
theorem deletePage_spec (bpm : BufferPoolManager) (page_id : Int) (h : PoolInv bpm none) :
    ∃ bpm' b, bpm.DeletePage page_id = some (bpm', b) ∧ PoolInv bpm' none ∧
      bpm'.pool_size_ = bpm.pool_size_ ∧
      (∀ g, bpm'.replacer_.evictable g = true → bpm.replacer_.evictable g = true) := by
  cases hfind : mapFind bpm.page_table_ page_id with
  | none => exact ⟨bpm, true, by simp [DeletePage, hfind], h, rfl, fun g hg => hg⟩
  | some f =>
    obtain ⟨hvalid, hffree, _, hpid, _, hpc⟩ := h.bound page_id f hfind
    by_cases hpin : (bpm.pages_ f).pin_count_ = 0
    · obtain ⟨nd, hnd⟩ := Option.isSome_iff_exists.mp (h.tracked_all page_id f hfind)
      obtain ⟨hfid, _, hflagpin, hflagset⟩ := h.tracked f nd hnd
      have hflag : nd.is_evictable_ = true := hflagpin.mpr hpin
      have hfound : frameSetFind nd bpm.replacer_.frame_set_ = true := by
        rw [frameSetFind_iff, hfid]
        exact hflagset.mp hflag
      have hremove : bpm.replacer_.Remove f =
          Throws.ok { bpm.replacer_ with
            node_store_ := mapErase bpm.replacer_.node_store_ f,
            frame_set_ := frameSetErase nd bpm.replacer_.frame_set_ } := by
        simp [LRUKReplacer.Remove, hnd, hflag, hfound]
      have hcount := h.count
      simp only [Option.isSome_none, Bool.false_eq_true, if_false] at hcount
      have hlen := length_mapErase_of_found _ _ _ h.keys_nodup hfind
      have hlen2 := length_mapErase_of_found _ _ _ h.store_nodup hnd
      refine ⟨{ setPage { bpm with
            page_table_ := mapErase bpm.page_table_ page_id,
            replacer_ := { bpm.replacer_ with
              node_store_ := mapErase bpm.replacer_.node_store_ f,
              frame_set_ := frameSetErase nd bpm.replacer_.frame_set_ },
            free_list_ := bpm.free_list_ ++ [f] } f
            { (bpm.pages_ f).ResetMemory with
              is_dirty_ := false, pin_count_ := 0, page_id_ := -1 } with
          disk_manager_ := bpm.disk_manager_.DeallocatePage page_id }, true, ?_, ?_, rfl, ?_⟩
      · simp only [DeletePage, hfind, hvalid, and_self, if_true, hpin, ne_eq,
          not_true_eq_false, if_false, hremove]
        rfl
      · have hother : ∀ p' g, mapFind (mapErase bpm.page_table_ page_id) p' = some g →
            p' ≠ page_id ∧ mapFind bpm.page_table_ p' = some g ∧ g ≠ f := by
          intro p' g hg
          rw [mapFind_mapErase] at hg
          by_cases hpp : p' = page_id
          · rw [if_pos hpp] at hg
            cases hg
          · rw [if_neg hpp] at hg
            refine ⟨hpp, hg, fun hgf => hpp ?_⟩
            rw [hgf] at hg
            exact ((h.bound p' f hg).2.2.2.1).symm.trans hpid
        refine
          { free_nodup := ?_
            free_valid := ?_
            keys_nodup := nodup_keys_mapErase _ _ h.keys_nodup
            bound := ?_
            cover := ?_
            hole_ok := fun g hg => by cases hg
            count := ?_
            store_nodup := nodup_keys_mapErase _ _ h.store_nodup
            store_count := ?_
            capacity := h.capacity
            tracked := ?_
            tracked_all := ?_
            set_nodup := nodup_frameSetErase _ _ h.set_nodup
            set_tracked := ?_ }
        · show (bpm.free_list_ ++ [f]).Nodup
          rw [List.nodup_append]
          refine ⟨h.free_nodup, List.nodup_singleton f, ?_⟩
          intro a ha hb
          rw [List.mem_singleton] at hb
          subst hb
          exact hffree ha
        · intro g hg
          change g ∈ bpm.free_list_ ++ [f] at hg
          rw [List.mem_append, List.mem_singleton] at hg
          rcases hg with hg | hg
          · exact h.free_valid g hg
          · rw [hg]
            exact hvalid
        · intro p' g hg
          obtain ⟨hpp, hg', hgf⟩ := hother p' g hg
          obtain ⟨hv, hfr, _, hid', hlt, hpc'⟩ := h.bound p' g hg'
          show (0 ≤ g ∧ g < bpm.pool_size_) ∧ g ∉ bpm.free_list_ ++ [f] ∧ some g ≠ none ∧
            ((if g = f then _ else bpm.pages_ g : Page).page_id_ = p') ∧
            p' < bpm.next_page_id_ ∧ 0 ≤ (if g = f then _ else bpm.pages_ g : Page).pin_count_
          rw [if_neg hgf]
          refine ⟨hv, ?_, by simp, hid', hlt, hpc'⟩
          rw [List.mem_append, List.mem_singleton]
          rintro (hh | hh)
          · exact hfr hh
          · exact hgf hh
        · intro g hg0 hg1 hgfree _
          change g ∉ bpm.free_list_ ++ [f] at hgfree
          rw [List.mem_append, List.mem_singleton, not_or] at hgfree
          show mapFind (mapErase bpm.page_table_ page_id)
            (if g = f then _ else bpm.pages_ g : Page).page_id_ = some g
          rw [if_neg hgfree.2, mapFind_mapErase]
          have hc := h.cover g hg0 hg1 hgfree.1 (by simp)
          have : (bpm.pages_ g).page_id_ ≠ page_id := by
            intro heq
            rw [heq, hfind] at hc
            cases hc
            exact hgfree.2 rfl
          rw [if_neg this]
          exact hc
        · show (mapErase bpm.page_table_ page_id).length + (bpm.free_list_ ++ [f]).length +
            0 = bpm.pool_size_
          rw [List.length_append, List.length_singleton]
          omega
        · show (mapErase bpm.replacer_.node_store_ f).length =
            (mapErase bpm.page_table_ page_id).length
          have := h.store_count
          omega
        · intro g node' hnode'
          change mapFind (mapErase bpm.replacer_.node_store_ f) g = some node' at hnode'
          rw [mapFind_mapErase] at hnode'
          by_cases hgf : g = f
          · rw [if_pos hgf] at hnode'
            cases hnode'
          · rw [if_neg hgf] at hnode'
            obtain ⟨h1, ⟨p', hp'⟩, h3, h4⟩ := h.tracked g node' hnode'
            show node'.fid_ = g ∧
              (∃ page_id', mapFind (mapErase bpm.page_table_ page_id) page_id' = some g) ∧
              (node'.is_evictable_ = true ↔
                (if g = f then _ else bpm.pages_ g : Page).pin_count_ = 0) ∧
              (node'.is_evictable_ = true ↔
                ∃ e ∈ frameSetErase nd bpm.replacer_.frame_set_, e.fid_ = g)
            rw [if_neg hgf]
            refine ⟨h1, ⟨p', ?_⟩, h3, ?_⟩
            · rw [mapFind_mapErase]
              have : p' ≠ page_id := by
                intro heq
                rw [heq, hfind] at hp'
                cases hp'
                exact hgf rfl
              rw [if_neg this]
              exact hp'
            · rw [h4]
              constructor
              · rintro ⟨e, he, hfe⟩
                exact ⟨e, (mem_frameSetErase _ _ _).mpr ⟨he, by rw [hfe, hfid]; exact hgf⟩, hfe⟩
              · rintro ⟨e, he, hfe⟩
                exact ⟨e, ((mem_frameSetErase _ _ _).mp he).1, hfe⟩
        · intro p' g hg
          obtain ⟨hpp, hg', hgf⟩ := hother p' g hg
          show (mapFind (mapErase bpm.replacer_.node_store_ f) g).isSome = true
          rw [mapFind_mapErase, if_neg hgf]
          exact h.tracked_all p' g hg'
        · intro e he
          change e ∈ frameSetErase nd bpm.replacer_.frame_set_ at he
          obtain ⟨he1, he2⟩ := (mem_frameSetErase _ _ _).mp he
          rw [hfid] at he2
          obtain ⟨node', hn1, hn2⟩ := h.set_tracked e he1
          exact ⟨node', by
            show mapFind (mapErase bpm.replacer_.node_store_ f) e.fid_ = some node'
            rw [mapFind_mapErase, if_neg he2]
            exact hn1, hn2⟩
      · intro g hg
        change LRUKReplacer.evictable { bpm.replacer_ with
            node_store_ := mapErase bpm.replacer_.node_store_ f,
            frame_set_ := frameSetErase nd bpm.replacer_.frame_set_ } g = true at hg
        rw [evictable_eq] at hg ⊢
        simp only [mapFind_mapErase] at hg
        by_cases hgf : g = f
        · simp [hgf] at hg
        · simpa only [if_neg hgf] using hg
    · exact ⟨bpm, false, by simp [DeletePage, hfind, hvalid, hpin], h, rfl, fun g hg => hg⟩

/-- Every call (with `FetchPage` only for page ids that `NewPage` has handed out) on a pool
that satisfies the invariant returns and keeps the invariant; a frame that is evictable after
the call and was not before is the frame of a page that `UnpinPage` has unpinned from pin
count 1 to 0. -/
theorem poolInv_step (bpm : BufferPoolManager) (c : Call) (h : PoolInv bpm none)
    (hc : bpm.allocated c) :
    ∃ bpm', bpm.step c = some bpm' ∧ PoolInv bpm' none ∧ bpm'.pool_size_ = bpm.pool_size_ ∧
      (∀ g, bpm.replacer_.evictable g = false → bpm'.replacer_.evictable g = true →
        ∃ page_id is_dirty, c = Call.UnpinPage page_id is_dirty ∧
          mapFind bpm.page_table_ page_id = some g ∧ (bpm.pages_ g).pin_count_ = 1 ∧
          (bpm'.pages_ g).pin_count_ = 0) := by
  have hmono : ∀ (bpm' : BufferPoolManager),
      (∀ g, bpm'.replacer_.evictable g = true → bpm.replacer_.evictable g = true) →
      ∀ g, bpm.replacer_.evictable g = false → bpm'.replacer_.evictable g = true →
        ∃ page_id is_dirty, c = Call.UnpinPage page_id is_dirty ∧
          mapFind bpm.page_table_ page_id = some g ∧ (bpm.pages_ g).pin_count_ = 1 ∧
          (bpm'.pages_ g).pin_count_ = 0 := by
    intro bpm' hm g h1 h2
    rw [hm g h2] at h1
    cases h1
  cases c with
  | NewPage =>
    obtain ⟨bpm', r, hcall, hinv, hsz, hev⟩ := newPage_spec bpm h
    exact ⟨bpm', by simp [step, hcall], hinv, hsz, hmono bpm' hev⟩
  | FetchPage page_id =>
    obtain ⟨bpm', r, hcall, hinv, hsz, hev⟩ := fetchPage_spec bpm page_id h hc
    exact ⟨bpm', by simp [step, hcall], hinv, hsz, hmono bpm' hev⟩
  | UnpinPage page_id is_dirty =>
    obtain ⟨bpm', r, hcall, hinv, hsz, hev⟩ := unpinPage_spec bpm page_id is_dirty h
    exact ⟨bpm', by simp [step, hcall], hinv, hsz,
      fun g h1 h2 => ⟨page_id, is_dirty, rfl, hev g h1 h2⟩⟩
  | FlushPage page_id =>
    obtain ⟨bpm', r, hcall, hinv, hsz, hrep⟩ := flushPage_spec bpm page_id h
    exact ⟨bpm', by simp [step, hcall], hinv, hsz, hmono bpm' (fun g hg => by rw [← hrep]; exact hg)⟩
  | DeletePage page_id =>
    obtain ⟨bpm', r, hcall, hinv, hsz, hev⟩ := deletePage_spec bpm page_id h
    exact ⟨bpm', by simp [step, hcall], hinv, hsz, hmono bpm' hev⟩

theorem poolInv_reachable (bpm : BufferPoolManager) (h : ReachableAllocated bpm) :
    PoolInv bpm none := by
  induction h with
  | init pool_size replacer_k disk_manager => exact poolInv_new _ _ _
  | step bpm bpm' c _ hc hs ih =>
    obtain ⟨bpm'', hcall, hinv, _⟩ := poolInv_step bpm c ih hc
    rw [hs] at hcall
    cases hcall
    exact hinv

theorem reachable_run (bpm bpm' : BufferPoolManager) (calls : List Call) (h : Reachable bpm)
    (hrun : run bpm calls = some bpm') : Reachable bpm' := by
  induction calls generalizing bpm with
  | nil =>
    simp only [run, Option.some.injEq] at hrun
    rw [← hrun]
    exact h
  | cons c rest ih =>
    simp only [run] at hrun
    cases hs : bpm.step c with
    | none => simp [hs] at hrun
    | some bpm1 =>
      rw [hs] at hrun
      exact ih bpm1 (Reachable.step bpm bpm1 c h hs) hrun

theorem reachable_poolAfter (pool_size : Nat) (calls : List Call)
    (h : (run (new pool_size 2 DiskManager.blank) calls).isSome = true) :
    Reachable (poolAfter pool_size calls) := by
  obtain ⟨bpm', hrun⟩ := Option.isSome_iff_exists.mp h
  have : poolAfter pool_size calls = bpm' := by
    unfold poolAfter
    rw [hrun]
    rfl
  rw [this]
  exact reachable_run _ _ calls (Reachable.init _ _ _) hrun

/-- C18 (counterexample): in a pool of two frames, `FetchPage(0)` binds page 0 to frame 0;
`NewPage` then hands out the page id 0 again and binds it to frame 1, which overwrites the
page-table entry of page 0. In this reachable state frame 0 is neither in the free list nor
the image of a page-table entry. -/
theorem C18_frame_lost_after_fetch_of_unallocated_page :
    Reachable (poolAfter 2 [Call.FetchPage 0, Call.NewPage]) ∧
    ¬ FramePartition (poolAfter 2 [Call.FetchPage 0, Call.NewPage]) := by
  refine ⟨reachable_poolAfter _ _ (by rfl), fun h => ?_⟩
  have hfl : (poolAfter 2 [Call.FetchPage 0, Call.NewPage]).free_list_ = [] := by rfl
  have hpt : (poolAfter 2 [Call.FetchPage 0, Call.NewPage]).page_table_ = [(0, 1)] := by rfl
  rcases h 0 (le_refl 0) (by show (0 : Int) < ((2 : Nat) : Int); omega) with ⟨h1, _⟩ | ⟨_, p, h2, _⟩
  · rw [hfl] at h1
    cases h1
  · rw [hpt] at h2
    simp only [mapFind] at h2
    split at h2 <;> cases h2

theorem framePartition_of_inv (bpm : BufferPoolManager) (h : PoolInv bpm none) :
    FramePartition bpm := by
  intro f h0 h1
  by_cases hfree : f ∈ bpm.free_list_
  · left
    refine ⟨hfree, ?_⟩
    rintro ⟨p, hp⟩
    exact (h.bound p f hp).2.1 hfree
  · right
    refine ⟨hfree, (bpm.pages_ f).page_id_, h.cover f h0 h1 hfree (by simp), ?_⟩
    intro p hp
    exact ((h.bound p f hp).2.2.2.1).symm

/-- C18 (amended): in every pool state reachable from construction through `NewPage`,
`FetchPage`, `UnpinPage`, `FlushPage` and `DeletePage`, where `FetchPage` is only called with
page ids that `NewPage` has handed out before, every frame id in `0 .. pool_size_ - 1` is
either in the free list or the image of exactly one page-table entry, never both and never
neither; the page table is injective, it has one entry per resident page id and at most
`pool_size_` entries; and every such call on the state returns. -/
theorem C18_frames_partitioned (bpm : BufferPoolManager) (h : ReachableAllocated bpm) :
    FramePartition bpm ∧
    (∀ p1 p2 f, mapFind bpm.page_table_ p1 = some f → mapFind bpm.page_table_ p2 = some f →
      p1 = p2) ∧
    (bpm.page_table_.map Prod.fst).Nodup ∧
    bpm.page_table_.length ≤ bpm.pool_size_ ∧
    (∀ c, bpm.allocated c → (bpm.step c).isSome = true) := by
  have hinv := poolInv_reachable bpm h
  refine ⟨framePartition_of_inv bpm hinv, ?_, hinv.keys_nodup, ?_, ?_⟩
  · intro p1 p2 f h1 h2
    exact ((hinv.bound p1 f h1).2.2.2.1).symm.trans (hinv.bound p2 f h2).2.2.2.1
  · have := hinv.count
    omega
  · intro c hc
    obtain ⟨bpm', hcall, _⟩ := poolInv_step bpm c hinv hc
    rw [hcall]
    rfl

/-- C18 (amended) at a concrete input: the pool of three frames after one `NewPage`. -/
theorem C18_frames_partitioned_witness :
    FramePartition (poolAfter 3 [Call.NewPage]) ∧
    (poolAfter 3 [Call.NewPage]).page_table_.length ≤ (poolAfter 3 [Call.NewPage]).pool_size_ :=
  ⟨(C18_frames_partitioned (poolAfter 3 [Call.NewPage])
      (ReachableAllocated.step (new 3 2 DiskManager.blank) _ Call.NewPage
        (ReachableAllocated.init 3 2 DiskManager.blank) trivial rfl)).1,
    (C18_frames_partitioned (poolAfter 3 [Call.NewPage])
      (ReachableAllocated.step (new 3 2 DiskManager.blank) _ Call.NewPage
        (ReachableAllocated.init 3 2 DiskManager.blank) trivial rfl)).2.2.2.1⟩

/-- C19 (counterexample): in a pool of two frames, `FetchPage(0)` binds page 0 to frame 0 and
`UnpinPage(0, false)` makes frame 0 evictable; `NewPage` then hands out the page id 0 again
and binds it to frame 1. In this reachable state frame 0 is evictable in the replacer and is
not the image of a page-table entry: it holds no resident page. -/
theorem C19_evictable_frame_without_resident_page :
    Reachable (poolAfter 2 [Call.FetchPage 0, Call.UnpinPage 0 false, Call.NewPage]) ∧
    ¬ EvictableIffUnpinned
      (poolAfter 2 [Call.FetchPage 0, Call.UnpinPage 0 false, Call.NewPage]) := by
  refine ⟨reachable_poolAfter _ _ (by rfl), fun h => ?_⟩
  have hev : (poolAfter 2 [Call.FetchPage 0, Call.UnpinPage 0 false,
      Call.NewPage]).replacer_.evictable 0 = true := by rfl
  have hpt : (poolAfter 2 [Call.FetchPage 0, Call.UnpinPage 0 false,
      Call.NewPage]).page_table_ = [(0, 1)] := by rfl
  obtain ⟨⟨p, hp⟩, _⟩ := (h 0).mp hev
  rw [hpt] at hp
  simp only [mapFind] at hp
  split at hp <;> cases hp

/-- C19 (amended): in every pool state reachable from construction through `NewPage`,
`FetchPage`, `UnpinPage`, `FlushPage` and `DeletePage`, where `FetchPage` is only called with
page ids that `NewPage` has handed out before, a frame is evictable in the replacer (the flag
of its node is set, equivalently it has an entry in `frame_set_`) if and only if it holds a
resident page whose pin count is 0; and a frame that is evictable after such a call and was
not before is the frame of the page that an `UnpinPage` call has unpinned from pin count 1
to 0. -/
theorem C19_evictable_iff_unpinned (bpm : BufferPoolManager) (h : ReachableAllocated bpm) :
    EvictableIffUnpinned bpm ∧
    (∀ f, bpm.replacer_.evictable f = true ↔ ∃ e ∈ bpm.replacer_.frame_set_, e.fid_ = f) ∧
    (∀ c bpm', bpm.allocated c → bpm.step c = some bpm' →
      ∀ f, bpm.replacer_.evictable f = false → bpm'.replacer_.evictable f = true →
        ∃ page_id is_dirty, c = Call.UnpinPage page_id is_dirty ∧
          mapFind bpm.page_table_ page_id = some f ∧ (bpm.pages_ f).pin_count_ = 1 ∧
          (bpm'.pages_ f).pin_count_ = 0) := by
  have hinv := poolInv_reachable bpm h
  refine ⟨?_, ?_, ?_⟩
  · intro f
    rw [evictable_eq]
    constructor
    · intro hev
      cases hst : mapFind bpm.replacer_.node_store_ f with
      | none => simp [hst] at hev
      | some node =>
        simp only [hst] at hev
        obtain ⟨_, hres, hpin, _⟩ := hinv.tracked f node hst
        exact ⟨hres, hpin.mp hev⟩
    · rintro ⟨⟨p, hp⟩, hpin⟩
      obtain ⟨node, hst⟩ := Option.isSome_iff_exists.mp (hinv.tracked_all p f hp)
      simp only [hst]
      exact (hinv.tracked f node hst).2.2.1.mpr hpin
  · intro f
    rw [evictable_eq]
    constructor
    · intro hev
      cases hst : mapFind bpm.replacer_.node_store_ f with
      | none => simp [hst] at hev
      | some node =>
        simp only [hst] at hev
        exact (hinv.tracked f node hst).2.2.2.mp hev
    · rintro ⟨e, he, hfe⟩
      obtain ⟨node, hst, hflag⟩ := hinv.set_tracked e he
      rw [hfe] at hst
      simp only [hst]
      exact hflag
  · intro c bpm' hc hs f h1 h2
    obtain ⟨bpm'', hcall, _, _, hev⟩ := poolInv_step bpm c hinv hc
    rw [hs] at hcall
    cases hcall
    exact hev f h1 h2

/-- C19 (amended) at a concrete input: in the pool of three frames after `NewPage` and
`UnpinPage(0, false)`, frame 0 is evictable and holds the resident page 0 with pin count 0. -/
theorem C19_evictable_iff_unpinned_witness :
    (poolAfter 3 [Call.NewPage, Call.UnpinPage 0 false]).replacer_.evictable 0 = true ∧
    (poolAfter 3 [Call.NewPage, Call.UnpinPage 0 false]).resident 0 ∧
    ((poolAfter 3 [Call.NewPage, Call.UnpinPage 0 false]).pages_ 0).pin_count_ = 0 :=
  ⟨rfl,
    ((C19_evictable_iff_unpinned (poolAfter 3 [Call.NewPage, Call.UnpinPage 0 false])
      (ReachableAllocated.step _ _ (Call.UnpinPage 0 false)
        (ReachableAllocated.step (new 3 2 DiskManager.blank) (poolAfter 3 [Call.NewPage])
          Call.NewPage (ReachableAllocated.init 3 2 DiskManager.blank) trivial rfl)
        trivial rfl)).1 0).mp rfl⟩

/-- The call `UnpinPage` on a resident page with a pin: the pin count drops by one and the
dirty flag is ORed with the argument. -/
theorem unpinPage_pinned (bpm : BufferPoolManager) (p f : Int) (d : Bool)
    (hres : mapFind bpm.page_table_ p = some f) (hvalid : 0 ≤ f ∧ f < bpm.pool_size_)
    (hpin : (bpm.pages_ f).pin_count_ ≠ 0) :
    ∃ bpm', bpm.UnpinPage p d = some (bpm', true) ∧
      (bpm'.pages_ f).pin_count_ = (bpm.pages_ f).pin_count_ - 1 ∧
      (bpm'.pages_ f).is_dirty_ = ((bpm.pages_ f).is_dirty_ || d) := by
  by_cases hzero : (bpm.pages_ f).pin_count_ - 1 = 0
  · exact ⟨_, by simp only [UnpinPage, hres, hvalid, and_self, if_true, hpin, if_false,
      setPage, hzero]; rfl, by simp [hzero], by simp⟩
  · exact ⟨_, by simp only [UnpinPage, hres, hvalid, and_self, if_true, hpin, if_false,
      setPage, hzero]; rfl, by simp [setPage], by simp [setPage]⟩

/-- C29: a `BasicPageGuard`, `ReadPageGuard` or `WritePageGuard` that holds page `p` (both
pointers set, the page object in frame `f` carries `p`, `p` is resident in `f` with a pin) with
the accumulated dirty flag `d`: `Drop` performs exactly one `UnpinPage(p, d)`, which returns
true, lowers the pin count of `p` by one and makes its dirty flag the old flag OR `d` (the
read and write guards release their latch first), and leaves the guard empty. `Drop` or the
destructor on the guard so emptied, and on a guard that a move constructor or a move
assignment has moved from, performs no unpin and leaves the pool as it is. -/
theorem C29_guard_drop_unpins_once (bpm : BufferPoolManager) (g : BasicPageGuard) (p f : Int)
    (hbpm : g.bpm_ = true) (hpage : g.page_ = some f) (hid : (bpm.pages_ f).page_id_ = p)
    (hres : mapFind bpm.page_table_ p = some f) (hvalid : 0 ≤ f ∧ f < bpm.pool_size_)
    (hpin : (bpm.pages_ f).pin_count_ ≠ 0) :
    ∃ bpm', bpm.UnpinPage p g.is_dirty_ = some (bpm', true) ∧
      (bpm'.pages_ f).pin_count_ = (bpm.pages_ f).pin_count_ - 1 ∧
      (bpm'.pages_ f).is_dirty_ = ((bpm.pages_ f).is_dirty_ || g.is_dirty_) ∧
      g.Drop bpm =
        some (BasicPageGuard.empty, bpm', [GuardEvent.UnpinPage p g.is_dirty_]) ∧
      (ReadPageGuard.mk g).Drop bpm =
        some (⟨BasicPageGuard.empty⟩, bpm',
          [GuardEvent.RUnlatch f, GuardEvent.UnpinPage p g.is_dirty_]) ∧
      (WritePageGuard.mk g).Drop bpm =
        some (⟨BasicPageGuard.empty⟩, bpm',
          [GuardEvent.WUnlatch f, GuardEvent.UnpinPage p g.is_dirty_]) ∧
      unpinCount [GuardEvent.UnpinPage p g.is_dirty_] = 1 ∧
      unpinCount [GuardEvent.RUnlatch f, GuardEvent.UnpinPage p g.is_dirty_] = 1 ∧
      unpinCount [GuardEvent.WUnlatch f, GuardEvent.UnpinPage p g.is_dirty_] = 1 ∧
      (∀ b : BufferPoolManager,
        BasicPageGuard.empty.Drop b = some (BasicPageGuard.empty, b, []) ∧
        (ReadPageGuard.mk BasicPageGuard.empty).Drop b = some (⟨BasicPageGuard.empty⟩, b, []) ∧
        (WritePageGuard.mk BasicPageGuard.empty).Drop b =
          some (⟨BasicPageGuard.empty⟩, b, []) ∧
        BasicPageGuard.empty.destroy b = some (b, []) ∧
        (ReadPageGuard.mk BasicPageGuard.empty).destroy b = some (b, []) ∧
        (WritePageGuard.mk BasicPageGuard.empty).destroy b = some (b, [])) ∧
      g.move = (g, BasicPageGuard.empty) ∧
      (∀ b : BufferPoolManager,
        BasicPageGuard.empty.assign g b = some (g, BasicPageGuard.empty, b, []) ∧
        (ReadPageGuard.mk g).move b = some (⟨g⟩, ⟨BasicPageGuard.empty⟩, b, []) ∧
        (WritePageGuard.mk g).move b = some (⟨g⟩, ⟨BasicPageGuard.empty⟩, b, []) ∧
        (ReadPageGuard.mk BasicPageGuard.empty).assign ⟨g⟩ b =
          some (⟨g⟩, ⟨BasicPageGuard.empty⟩, b, []) ∧
        (WritePageGuard.mk BasicPageGuard.empty).assign ⟨g⟩ b =
          some (⟨g⟩, ⟨BasicPageGuard.empty⟩, b, [])) := by
  obtain ⟨bpm', hcall, h1, h2⟩ := unpinPage_pinned bpm p f g.is_dirty_ hres hvalid hpin
  have hunpin : g.unpin bpm = some (bpm', [GuardEvent.UnpinPage p g.is_dirty_]) := by
    simp only [BasicPageGuard.unpin, hbpm, hpage, hid, hcall, Option.map_some']
  have hg : g = { bpm_ := true, page_ := some f, is_dirty_ := g.is_dirty_ } := by
    cases g
    simp_all
  refine ⟨bpm', hcall, h1, h2, ?_, ?_, ?_, rfl, rfl, rfl, ?_, ?_, ?_⟩
  · simp only [BasicPageGuard.Drop, hunpin, Option.map_some']
    rfl
  · simp only [ReadPageGuard.Drop, hunpin, Option.map_some', hpage]
    rfl
  · simp only [WritePageGuard.Drop, hunpin, Option.map_some', hpage]
    rfl
  · intro b
    exact ⟨rfl, rfl, rfl, rfl, rfl, rfl⟩
  · rw [hg]
    rfl
  · intro b
    rw [hg]
    exact ⟨rfl, rfl, rfl, rfl, rfl⟩

/-- C29 at a concrete input: a guard on page 0 of the pool of three frames after one
`NewPage`, with the dirty flag set; `Drop` unpins page 0 once and marks it dirty. -/
theorem C29_guard_drop_unpins_once_witness :
    ∃ bpm', (⟨true, some 0, true⟩ : BasicPageGuard).Drop (poolAfter 3 [Call.NewPage]) =
        some (BasicPageGuard.empty, bpm', [GuardEvent.UnpinPage 0 true]) ∧
      (bpm'.pages_ 0).pin_count_ = 0 ∧ (bpm'.pages_ 0).is_dirty_ = true := by
  obtain ⟨bpm', _, h1, h2, h3, _⟩ :=
    C29_guard_drop_unpins_once (poolAfter 3 [Call.NewPage]) ⟨true, some 0, true⟩ 0 0 rfl rfl
      rfl rfl (by decide) (by decide)
  exact ⟨bpm', h3, by rw [h1]; rfl, by rw [h2]; rfl⟩

/-- The result of `DeletePage` on a resident page with pin count 0 whose frame the replacer
removes. -/
theorem deletePage_unpinned (bpm : BufferPoolManager) (page_id f : Int) (R : LRUKReplacer)
    (h : mapFind bpm.page_table_ page_id = some f) (hvalid : 0 ≤ f ∧ f < bpm.pool_size_)
    (hpin : (bpm.pages_ f).pin_count_ = 0) (hR : bpm.replacer_.Remove f = Throws.ok R) :
    bpm.DeletePage page_id = some (
      { pool_size_ := bpm.pool_size_,
        pages_ := fun g =>
          if g = f then
            { data_ := List.replicate BUSTUB_PAGE_SIZE 0, page_id_ := INVALID_PAGE_ID,
              pin_count_ := 0, is_dirty_ := false }
          else bpm.pages_ g,
        replacer_ := R,
        free_list_ := bpm.free_list_ ++ [f],
        page_table_ := mapErase bpm.page_table_ page_id,
        next_page_id_ := bpm.next_page_id_,
        disk_manager_ := bpm.disk_manager_.DeallocatePage page_id }, true) := by
  simp only [DeletePage, h, hvalid, and_self, if_true, hpin, ne_eq, not_true_eq_false,
    if_false, hR]
  rfl

/-- C21: `DeletePage(page_id)` in a pool whose page table maps `page_id` to no frame outside
the frame array and whose replacer is consistent for the frame of the page (every entry of
`frame_set_` belongs to a tracked frame; the node of the frame of an unpinned resident page,
if there is one, sits under its frame id, is evictable and has its entry in `frame_set_`).
The call returns true and changes nothing when the page is not resident; it returns false and
changes nothing when the page is resident with a pin count above 0; when the page is resident
with pin count 0 it returns true, the page id is gone from the page table, the replacer has
seen `Remove(frame)` and neither tracks the frame nor holds it in `frame_set_`, the frame is
appended to the free list, and the frame is reset to page id INVALID, pin count 0, not dirty,
zeroed bytes; the other frames, the page id counter and the bytes on disk are as before. -/
theorem C21_delete_page (bpm : BufferPoolManager) (page_id : Int)
    (hframe : ∀ f, mapFind bpm.page_table_ page_id = some f → 0 ≤ f ∧ f < bpm.pool_size_)
    (hset : ∀ e ∈ bpm.replacer_.frame_set_, mapFind bpm.replacer_.node_store_ e.fid_ ≠ none)
    (hnode : ∀ f node, mapFind bpm.page_table_ page_id = some f →
      (bpm.pages_ f).pin_count_ = 0 → mapFind bpm.replacer_.node_store_ f = some node →
      node.fid_ = f ∧ node.is_evictable_ = true ∧
      frameSetFind node bpm.replacer_.frame_set_ = true) :
    (mapFind bpm.page_table_ page_id = none → bpm.DeletePage page_id = some (bpm, true)) ∧
    (∀ f, mapFind bpm.page_table_ page_id = some f → 0 < (bpm.pages_ f).pin_count_ →
      bpm.DeletePage page_id = some (bpm, false)) ∧
    (∀ f, mapFind bpm.page_table_ page_id = some f → (bpm.pages_ f).pin_count_ = 0 →
      ∃ bpm', bpm.DeletePage page_id = some (bpm', true) ∧
        bpm'.page_table_ = mapErase bpm.page_table_ page_id ∧
        mapFind bpm'.page_table_ page_id = none ∧
        bpm.replacer_.Remove f = Throws.ok bpm'.replacer_ ∧
        mapFind bpm'.replacer_.node_store_ f = none ∧
        (∀ e ∈ bpm'.replacer_.frame_set_, e.fid_ ≠ f) ∧
        bpm'.free_list_ = bpm.free_list_ ++ [f] ∧
        bpm'.pages_ f =
          { data_ := List.replicate BUSTUB_PAGE_SIZE 0, page_id_ := INVALID_PAGE_ID,
            pin_count_ := 0, is_dirty_ := false } ∧
        (∀ g, g ≠ f → bpm'.pages_ g = bpm.pages_ g) ∧
        bpm'.next_page_id_ = bpm.next_page_id_ ∧ bpm'.pool_size_ = bpm.pool_size_ ∧
        bpm'.disk_manager_.data_ = bpm.disk_manager_.data_ ∧
        bpm'.disk_manager_.writes_ = bpm.disk_manager_.writes_) := by
  refine ⟨fun h => by simp [DeletePage, h], fun f h hpin => ?_, fun f h hpin => ?_⟩
  · have hne : (bpm.pages_ f).pin_count_ ≠ 0 := by omega
    simp [DeletePage, h, hframe f h, hne]
  · have herase : mapFind (mapErase bpm.page_table_ page_id) page_id = none := by
      rw [mapFind_mapErase]
      simp
    cases hst : mapFind bpm.replacer_.node_store_ f with
    | none =>
      have hrem : bpm.replacer_.Remove f = Throws.ok bpm.replacer_ := by
        simp [LRUKReplacer.Remove, hst]
      refine ⟨_, deletePage_unpinned bpm page_id f _ h (hframe f h) hpin hrem, rfl, herase,
        hrem, hst, ?_, rfl, by simp, fun g hg => by simp [hg], rfl, rfl, rfl, rfl⟩
      intro e he hfe
      apply hset e he
      rw [hfe]
      exact hst
    | some node =>
      obtain ⟨hfid, hev, hfound⟩ := hnode f node h hpin hst
      have hrem : bpm.replacer_.Remove f = Throws.ok
          { bpm.replacer_ with
            node_store_ := mapErase bpm.replacer_.node_store_ f,
            frame_set_ := frameSetErase node bpm.replacer_.frame_set_ } := by
        simp [LRUKReplacer.Remove, hst, hev, hfound]
      refine ⟨_, deletePage_unpinned bpm page_id f _ h (hframe f h) hpin hrem, rfl, herase,
        hrem, ?_, ?_, rfl, by simp, fun g hg => by simp [hg], rfl, rfl, rfl, rfl⟩
      · show mapFind (mapErase bpm.replacer_.node_store_ f) f = none
        rw [mapFind_mapErase]
        simp
      · intro e he
        change e ∈ frameSetErase node bpm.replacer_.frame_set_ at he
        rw [mem_frameSetErase] at he
        rw [hfid] at he
        exact he.2

/-- C21 at a concrete input: in the pool of three frames after `NewPage` and
`UnpinPage(0, false)`, `DeletePage(0)` returns true, page 0 is resident no more and frame 0 is
at the end of the free list. -/
theorem C21_delete_page_witness :
    ∃ bpm', (poolAfter 3 [Call.NewPage, Call.UnpinPage 0 false]).DeletePage 0 =
        some (bpm', true) ∧
      mapFind bpm'.page_table_ 0 = none ∧ bpm'.free_list_ = [1, 2, 0] ∧
      (bpm'.pages_ 0).page_id_ = INVALID_PAGE_ID := by
  obtain ⟨bpm', h1, _, h3, _, _, _, h7, h8, _⟩ :=
    (C21_delete_page (poolAfter 3 [Call.NewPage, Call.UnpinPage 0 false]) 0
      (fun f hf => by cases hf; decide)
      (fun e he => by
        have hfs : (poolAfter 3 [Call.NewPage, Call.UnpinPage 0 false]).replacer_.frame_set_ =
            [⟨[1], 2, 0, false⟩] := rfl
        rw [hfs, List.mem_singleton] at he
        subst he
        decide)
      (fun f node hf _ hst => by cases hf; cases hst; decide)).2.2 0 rfl rfl
  exact ⟨bpm', h1, h3, h7, by rw [h8]⟩

/-- A pool that satisfies the invariant meets the hypotheses under which `DeletePage` is
described above. -/
theorem poolInv_deletePage_hyps (bpm : BufferPoolManager) (h : PoolInv bpm none)
    (page_id : Int) :
    (∀ f, mapFind bpm.page_table_ page_id = some f → 0 ≤ f ∧ f < bpm.pool_size_) ∧
    (∀ e ∈ bpm.replacer_.frame_set_, mapFind bpm.replacer_.node_store_ e.fid_ ≠ none) ∧
    (∀ f node, mapFind bpm.page_table_ page_id = some f →
      (bpm.pages_ f).pin_count_ = 0 → mapFind bpm.replacer_.node_store_ f = some node →
      node.fid_ = f ∧ node.is_evictable_ = true ∧
      frameSetFind node bpm.replacer_.frame_set_ = true) := by
  refine ⟨fun f hf => (h.bound page_id f hf).1, fun e he => ?_, fun f node hf hpin hst => ?_⟩
  · obtain ⟨node, hnode, _⟩ := h.set_tracked e he
    rw [hnode]
    simp
  · obtain ⟨h1, _, h3, h4⟩ := h.tracked f node hst
    have hev := h3.mpr hpin
    refine ⟨h1, hev, ?_⟩
    rw [frameSetFind_iff, h1]
    exact h4.mp hev

/-- No frame is evictable in a pool that satisfies the invariant and has every resident page
pinned. -/
theorem frame_set_nil_of_pinned (bpm : BufferPoolManager) (h : PoolInv bpm none)
    (hpinned : ∀ p f, mapFind bpm.page_table_ p = some f → 0 < (bpm.pages_ f).pin_count_) :
    bpm.replacer_.frame_set_ = [] := by
  cases hfs : bpm.replacer_.frame_set_ with
  | nil => rfl
  | cons e rest =>
    exfalso
    have he : e ∈ bpm.replacer_.frame_set_ := by rw [hfs]; exact List.mem_cons_self _ _
    obtain ⟨node, hnode, hev⟩ := h.set_tracked e he
    obtain ⟨_, ⟨p, hp⟩, h3, _⟩ := h.tracked e.fid_ node hnode
    have := hpinned p e.fid_ hp
    have := h3.mp hev
    omega

/-- Without a free frame and without an evictable frame the frame acquisition gives no frame
and leaves the pool as it is. -/
theorem acquireFrame_none (bpm : BufferPoolManager) (hfree : bpm.free_list_ = [])
    (hfs : bpm.replacer_.frame_set_ = []) : bpm.acquireFrame = some (bpm, none) := by
  obtain ⟨ps, pg, rp, fl, pt, nx, dm⟩ := bpm
  simp only at hfree hfs
  subst hfree
  simp [acquireFrame, evict_nil _ hfs]

/-- C24 fails as stated: in the pool of two frames after `FetchPage(0)`, `UnpinPage(0, false)`
and `NewPage` (which hands out page id 0 again, into frame 1) the free list is empty and the
only resident page, page 0 in frame 1, has pin count 1; frame 0 still carries the unpinned
page of the fetch and is evictable, so `NewPage` returns page 1 in frame 0 and `FetchPage(7)`
returns a page as well. -/
theorem C24_page_returned_while_resident_pages_pinned :
    (poolAfter 2 [Call.FetchPage 0, Call.UnpinPage 0 false, Call.NewPage]).free_list_ = [] ∧
    (∀ p f,
      mapFind (poolAfter 2 [Call.FetchPage 0, Call.UnpinPage 0 false, Call.NewPage]).page_table_
        p = some f →
      0 < ((poolAfter 2 [Call.FetchPage 0, Call.UnpinPage 0 false, Call.NewPage]).pages_
        f).pin_count_) ∧
    (poolAfter 2 [Call.FetchPage 0, Call.UnpinPage 0 false, Call.NewPage]).NewPage.map
      Prod.snd = some (some (1, 0)) ∧
    mapFind (poolAfter 2 [Call.FetchPage 0, Call.UnpinPage 0 false, Call.NewPage]).page_table_
      7 = none ∧
    ((poolAfter 2 [Call.FetchPage 0, Call.UnpinPage 0 false, Call.NewPage]).FetchPage 7).map
      Prod.snd = some (some 0) := by
  refine ⟨rfl, fun p f hf => ?_, rfl, rfl, rfl⟩
  have hpt : (poolAfter 2 [Call.FetchPage 0, Call.UnpinPage 0 false, Call.NewPage]).page_table_ =
      [(0, 1)] := rfl
  rw [hpt] at hf
  simp only [mapFind] at hf
  split at hf
  · cases hf
    decide
  · cases hf

/-- C24 (amended): in a pool state reachable from construction through `NewPage`, `FetchPage`,
`UnpinPage`, `FlushPage` and `DeletePage`, where `FetchPage` is only called with page ids that
`NewPage` has handed out before, in which the free list is empty and every resident page has a pin
count above 0, `NewPage` returns null and `FetchPage` of a page id that is not resident
returns null, and the pool after either call is the pool before it: page table, frames (page
id, pin count, dirty flag, bytes), disk and page id counter are unchanged. -/
theorem C24_no_frame_available (bpm : BufferPoolManager) (h : ReachableAllocated bpm)
    (hfree : bpm.free_list_ = [])
    (hpinned : ∀ p f, mapFind bpm.page_table_ p = some f → 0 < (bpm.pages_ f).pin_count_) :
    bpm.NewPage = some (bpm, none) ∧
    (∀ page_id, page_id ≠ INVALID_PAGE_ID → mapFind bpm.page_table_ page_id = none →
      bpm.FetchPage page_id = some (bpm, none)) := by
  have hacq := acquireFrame_none bpm hfree
    (frame_set_nil_of_pinned bpm (poolInv_reachable bpm h) hpinned)
  refine ⟨by simp [NewPage, hacq], fun page_id hne hfind => ?_⟩
  have hne' : page_id ≠ -1 := hne
  simp [FetchPage, hne', hfind, hacq]

/-- C24 (amended) at a concrete input: the pool of one frame after `NewPage` has no free frame and its
page 0 is pinned; `NewPage` and `FetchPage(5)` return null and change nothing. -/
theorem C24_no_frame_available_witness :
    (poolAfter 1 [Call.NewPage]).NewPage = some (poolAfter 1 [Call.NewPage], none) ∧
    (poolAfter 1 [Call.NewPage]).FetchPage 5 = some (poolAfter 1 [Call.NewPage], none) :=
  have h := C24_no_frame_available (poolAfter 1 [Call.NewPage])
    (ReachableAllocated.step (new 1 2 DiskManager.blank) (poolAfter 1 [Call.NewPage])
      Call.NewPage (ReachableAllocated.init 1 2 DiskManager.blank) trivial rfl)
    rfl
    (fun p f hf => by
      have hpt : (poolAfter 1 [Call.NewPage]).page_table_ = [(0, 0)] := rfl
      rw [hpt] at hf
      simp only [mapFind] at hf
      split at hf
      · cases hf
        decide
      · cases hf)
  ⟨h.1, h.2 5 (by decide) rfl⟩

/-- The two replacer calls for a frame without node, when `node_store_` has room: the frame
gets a fresh node with the one access and stays non-evictable. -/
theorem recordAccess_untracked (bpm : BufferPoolManager) (f : Int)
    (hnone : mapFind bpm.replacer_.node_store_ f = none)
    (hroom : bpm.replacer_.node_store_.length ≠ bpm.replacer_.replacer_size_) :
    bpm.recordAccess f = some { bpm with
      replacer_ := { bpm.replacer_ with
        current_timestamp_ := bpm.replacer_.current_timestamp_ + 1,
        node_store_ := mapSet bpm.replacer_.node_store_ f
          ((LRUKNode.new f bpm.replacer_.k_).AddHistory
            (bpm.replacer_.current_timestamp_ + 1)) } } := by
  simp [recordAccess, LRUKReplacer.RecordAccess, hnone, hroom, LRUKReplacer.SetEvictable,
    mapFind_mapSet, LRUKNode.new, LRUKNode.AddHistory]

/-- The two replacer calls for a frame without node touch the replacer only. -/
theorem recordAccess_untracked_fields (bpm : BufferPoolManager) (f : Int)
    (hnone : mapFind bpm.replacer_.node_store_ f = none)
    (hroom : bpm.replacer_.node_store_.length ≠ bpm.replacer_.replacer_size_) :
    ∃ C, bpm.recordAccess f = some C ∧ C.pages_ = bpm.pages_ ∧
      C.page_table_ = bpm.page_table_ ∧ C.disk_manager_ = bpm.disk_manager_ ∧
      C.free_list_ = bpm.free_list_ ∧ C.next_page_id_ = bpm.next_page_id_ ∧
      C.pool_size_ = bpm.pool_size_ :=
  ⟨_, recordAccess_untracked bpm f hnone hroom, rfl, rfl, rfl, rfl, rfl, rfl⟩

/-- What `Evict` returns when it returns a frame. -/
theorem evict_some (r R : LRUKReplacer) (f : Int) (h : r.Evict = (R, some f)) :
    ∃ e rest, r.frame_set_ = e :: rest ∧ e.fid_ = f ∧
      R = { r with node_store_ := mapErase r.node_store_ f, frame_set_ := rest } := by
  cases hfs : r.frame_set_ with
  | nil =>
    rw [evict_nil r hfs] at h
    cases h
  | cons e rest =>
    rw [evict_cons r e rest hfs] at h
    cases h
    exact ⟨e, rest, rfl, rfl, rfl⟩

/-- The frame acquisition by eviction: the victim is written back when dirty and its page id
is erased from the page table; the frame itself is not touched. -/
theorem acquireFrame_evict (bpm : BufferPoolManager) (R : LRUKReplacer) (f : Int)
    (hfree : bpm.free_list_ = []) (hevict : bpm.replacer_.Evict = (R, some f))
    (hvalid : 0 ≤ f ∧ f < bpm.pool_size_) :
    bpm.acquireFrame = some ({ bpm with
      replacer_ := R,
      disk_manager_ :=
        if (bpm.pages_ f).is_dirty_ then
          bpm.disk_manager_.WritePage (bpm.pages_ f).page_id_ (bpm.pages_ f).data_
        else bpm.disk_manager_,
      page_table_ := mapErase bpm.page_table_ (bpm.pages_ f).page_id_ }, some f) := by
  simp only [acquireFrame, hfree, hevict, hvalid, and_self, if_true]

/-- C23: `NewPage` and `FetchPage` (of a page that is not resident) in a pool with an empty
free list whose replacer evicts frame `f`, a frame of the pool, and then has room for a node.
The frame acquisition writes the bytes of the victim to disk under the page id of the victim
exactly once when the victim is dirty and not at all when it is clean (`writes_` is the log of
the `WritePage` calls), and erases the page id of the victim from the page table, all before
the frame is rebound: the frame array after the acquisition is the one before the call. The
call then returns the page in frame `f`; the disk is the one the acquisition has left, and the
page table is the one the acquisition has left with the entry of the new page added, so the
page id of the victim is not resident and the new page is. -/
theorem C23_eviction_writes_back (bpm : BufferPoolManager) (R : LRUKReplacer) (f : Int)
    (hfree : bpm.free_list_ = []) (hevict : bpm.replacer_.Evict = (R, some f))
    (hvalid : 0 ≤ f ∧ f < bpm.pool_size_)
    (hroom : R.node_store_.length ≠ R.replacer_size_) :
    ∃ A, bpm.acquireFrame = some (A, some f) ∧
      A.disk_manager_ =
        (if (bpm.pages_ f).is_dirty_ then
          bpm.disk_manager_.WritePage (bpm.pages_ f).page_id_ (bpm.pages_ f).data_
        else bpm.disk_manager_) ∧
      ((bpm.pages_ f).is_dirty_ = true →
        A.disk_manager_.writes_ = (bpm.pages_ f).page_id_ :: bpm.disk_manager_.writes_ ∧
        A.disk_manager_.data_ (bpm.pages_ f).page_id_ = (bpm.pages_ f).data_) ∧
      ((bpm.pages_ f).is_dirty_ = false → A.disk_manager_ = bpm.disk_manager_) ∧
      A.pages_ = bpm.pages_ ∧
      A.page_table_ = mapErase bpm.page_table_ (bpm.pages_ f).page_id_ ∧
      mapFind A.page_table_ (bpm.pages_ f).page_id_ = none ∧
      (∃ bpm', bpm.NewPage = some (bpm', some (bpm.next_page_id_, f)) ∧
        bpm'.disk_manager_ = A.disk_manager_ ∧
        bpm'.page_table_ = mapSet A.page_table_ bpm.next_page_id_ f ∧
        mapFind bpm'.page_table_ bpm.next_page_id_ = some f ∧
        (bpm'.pages_ f).page_id_ = bpm.next_page_id_ ∧
        ((bpm.pages_ f).page_id_ ≠ bpm.next_page_id_ →
          mapFind bpm'.page_table_ (bpm.pages_ f).page_id_ = none)) ∧
      (∀ page_id, page_id ≠ INVALID_PAGE_ID → mapFind bpm.page_table_ page_id = none →
        ∃ bpm', bpm.FetchPage page_id = some (bpm', some f) ∧
          bpm'.disk_manager_ = A.disk_manager_ ∧
          bpm'.page_table_ = mapSet A.page_table_ page_id f ∧
          mapFind bpm'.page_table_ page_id = some f ∧
          (bpm'.pages_ f).page_id_ = page_id ∧
          (bpm'.pages_ f).data_ = A.disk_manager_.data_ page_id ∧
          ((bpm.pages_ f).page_id_ ≠ page_id →
            mapFind bpm'.page_table_ (bpm.pages_ f).page_id_ = none)) := by
  have hacq := acquireFrame_evict bpm R f hfree hevict hvalid
  obtain ⟨e, rest, hfs, hfid, hR⟩ := evict_some _ _ _ hevict
  have hnone : mapFind R.node_store_ f = none := by
    rw [hR]
    show mapFind (mapErase bpm.replacer_.node_store_ f) f = none
    rw [mapFind_mapErase]
    simp
  have herase : mapFind (mapErase bpm.page_table_ (bpm.pages_ f).page_id_)
      (bpm.pages_ f).page_id_ = none := by
    rw [mapFind_mapErase]
    simp
  refine ⟨_, hacq, rfl, fun hd => ?_, fun hd => ?_, rfl, rfl, herase, ?_, ?_⟩
  · simp [hd, DiskManager.WritePage]
  · simp [hd]
  · obtain ⟨C, hC, hpages, htable, hdisk, _, _, _⟩ := recordAccess_untracked_fields
      (setPage { bpm with
          replacer_ := R,
          disk_manager_ :=
            if (bpm.pages_ f).is_dirty_ then
              bpm.disk_manager_.WritePage (bpm.pages_ f).page_id_ (bpm.pages_ f).data_
            else bpm.disk_manager_,
          next_page_id_ := bpm.next_page_id_ + 1,
          page_table_ := mapSet (mapErase bpm.page_table_ (bpm.pages_ f).page_id_)
            bpm.next_page_id_ f } f
        { (bpm.pages_ f).ResetMemory with
          pin_count_ := 1, is_dirty_ := false, page_id_ := bpm.next_page_id_ }) f hnone hroom
    refine ⟨C, ?_, ?_⟩
    · simp only [NewPage, hacq, hvalid, and_self, if_true]
      exact congrArg (Option.map fun b => (b, some (bpm.next_page_id_, f))) hC
    · rw [hpages, htable, hdisk]
      refine ⟨rfl, rfl, ?_, by simp [setPage], fun hne => ?_⟩
      · show mapFind (mapSet _ bpm.next_page_id_ f) bpm.next_page_id_ = some f
        rw [mapFind_mapSet]
        simp
      · show mapFind (mapSet _ bpm.next_page_id_ f) (bpm.pages_ f).page_id_ = none
        rw [mapFind_mapSet, if_neg hne]
        exact herase
  · intro page_id hne hfind
    have hne' : page_id ≠ -1 := hne
    obtain ⟨C, hC, hpages, htable, hdisk, _, _, _⟩ := recordAccess_untracked_fields
      (setPage { bpm with
          replacer_ := R,
          disk_manager_ :=
            if (bpm.pages_ f).is_dirty_ then
              bpm.disk_manager_.WritePage (bpm.pages_ f).page_id_ (bpm.pages_ f).data_
            else bpm.disk_manager_,
          page_table_ := mapSet (mapErase bpm.page_table_ (bpm.pages_ f).page_id_)
            page_id f } f
        { data_ :=
            (if (bpm.pages_ f).is_dirty_ then
              bpm.disk_manager_.WritePage (bpm.pages_ f).page_id_ (bpm.pages_ f).data_
            else bpm.disk_manager_).ReadPage page_id,
          page_id_ := page_id, pin_count_ := 1, is_dirty_ := false }) f hnone hroom
    refine ⟨C, ?_, ?_⟩
    · simp only [FetchPage, hne', if_false, hfind, hacq, hvalid, and_self, if_true]
      exact congrArg (Option.map fun b => (b, some f)) hC
    · rw [hpages, htable, hdisk]
      refine ⟨rfl, rfl, ?_, by simp [setPage], by simp [setPage, DiskManager.ReadPage],
        fun hne2 => ?_⟩
      · show mapFind (mapSet _ page_id f) page_id = some f
        rw [mapFind_mapSet]
        simp
      · show mapFind (mapSet _ page_id f) (bpm.pages_ f).page_id_ = none
        rw [mapFind_mapSet, if_neg hne2]
        exact herase

/-- C23 at the input of the claim: in the pool of three frames after `NewPage` for p0, p1, p2
and `UnpinPage(p0, true)`, `NewPage` evicts frame 0 and returns p3 there; p3 is resident, p0
is not, and p0 has been written once. -/
theorem C23_eviction_writes_back_witness :
    ∃ bpm',
      (poolAfter 3 [Call.NewPage, Call.NewPage, Call.NewPage, Call.UnpinPage 0 true]).NewPage =
        some (bpm', some (3, 0)) ∧
      mapFind bpm'.page_table_ 3 = some 0 ∧ mapFind bpm'.page_table_ 0 = none ∧
      bpm'.disk_manager_.writes_ = [0] := by
  obtain ⟨A, _, hdisk, _, _, _, _, _, ⟨bpm', h1, h2, _, h4, _, h6⟩, _⟩ :=
    C23_eviction_writes_back
      (poolAfter 3 [Call.NewPage, Call.NewPage, Call.NewPage, Call.UnpinPage 0 true])
      (poolAfter 3 [Call.NewPage, Call.NewPage, Call.NewPage,
        Call.UnpinPage 0 true]).replacer_.Evict.1 0 rfl rfl (by decide) (by decide)
  exact ⟨bpm', h1, h4, h6 (by decide), by rw [h2, hdisk]; rfl⟩

/-- A pool that satisfies the invariant meets the hypotheses under which the eviction is
described above, whenever its replacer evicts a frame; the page id of the victim is resident,
so it is neither the next page id nor a page id that is not resident. -/
theorem poolInv_evict_hyps (bpm : BufferPoolManager) (h : PoolInv bpm none) (R : LRUKReplacer)
    (f : Int) (hevict : bpm.replacer_.Evict = (R, some f)) :
    (0 ≤ f ∧ f < bpm.pool_size_) ∧ R.node_store_.length ≠ R.replacer_size_ ∧
    (bpm.pages_ f).page_id_ ≠ bpm.next_page_id_ ∧
    (∀ q, mapFind bpm.page_table_ q = none → (bpm.pages_ f).page_id_ ≠ q) := by
  obtain ⟨e, rest, hfs, hfid, hR⟩ := evict_some _ _ _ hevict
  have he : e ∈ bpm.replacer_.frame_set_ := by rw [hfs]; exact List.mem_cons_self _ _
  obtain ⟨node, hnode, _⟩ := h.set_tracked e he
  rw [hfid] at hnode
  obtain ⟨_, ⟨p, hp⟩, _, _⟩ := h.tracked f node hnode
  obtain ⟨hv, _, _, hid, hlt, _⟩ := h.bound p f hp
  refine ⟨hv, ?_, by rw [hid]; omega, fun q hq heq => ?_⟩
  · have hlen := length_mapErase_of_found _ f node h.store_nodup hnode
    have hcount := h.count
    have hsc := h.store_count
    have hcap := h.capacity
    rw [hR]
    show (mapErase bpm.replacer_.node_store_ f).length ≠ bpm.replacer_.replacer_size_
    simp only [Option.isSome_none, Bool.false_eq_true, if_false] at hcount
    omega
  · rw [hid] at heq
    rw [heq, hq] at hp
    cases hp

/-- The bytes on disk after `WritePage`. -/
theorem writePage_data (disk : DiskManager) (q : Int) (d : List Nat) (p : Int) :
    (disk.WritePage q d).data_ p = if p = q then d else disk.data_ p := rfl

/-- The two replacer calls touch the replacer only. -/
theorem recordAccess_fields (bpm C : BufferPoolManager) (f : Int)
    (h : bpm.recordAccess f = some C) :
    C.pages_ = bpm.pages_ ∧ C.page_table_ = bpm.page_table_ ∧
    C.disk_manager_ = bpm.disk_manager_ ∧ C.free_list_ = bpm.free_list_ ∧
    C.next_page_id_ = bpm.next_page_id_ ∧ C.pool_size_ = bpm.pool_size_ := by
  unfold recordAccess at h
  split at h
  · cases h
    exact ⟨rfl, rfl, rfl, rfl, rfl, rfl⟩
  · cases h

/-- The predicate `Keeps` looks at the frames, the page table, the free list, the disk, the
page id counter and the pool size only. -/
theorem keeps_congr (A C : BufferPoolManager) (p : Int) (B : List Nat) (hole : Option Int)
    (h : Keeps A p B hole) (hpages : C.pages_ = A.pages_)
    (htable : C.page_table_ = A.page_table_) (hdisk : C.disk_manager_ = A.disk_manager_)
    (hfree : C.free_list_ = A.free_list_) (hnext : C.next_page_id_ = A.next_page_id_)
    (hsize : C.pool_size_ = A.pool_size_) : Keeps C p B hole :=
  ⟨by rw [hnext]; exact h.handed_out,
    by rw [hpages, htable, hdisk, hsize]; exact h.carrier,
    by rw [hpages, htable, hfree, hsize]; exact h.entry,
    by rw [htable, hdisk]; exact h.on_disk⟩

/-- The frame acquisition keeps the bytes: a victim that carries the page is written back when
dirty. -/
theorem keeps_acquire (bpm A : BufferPoolManager) (p : Int) (B : List Nat) (r : Option Int)
    (h : Keeps bpm p B none) (hacq : bpm.acquireFrame = some (A, r)) :
    Keeps A p B r ∧ A.next_page_id_ = bpm.next_page_id_ ∧ A.pool_size_ = bpm.pool_size_ ∧
    (mapFind bpm.page_table_ p = none → mapFind A.page_table_ p = none) := by
  unfold acquireFrame at hacq
  cases hfl : bpm.free_list_ with
  | cons front rest =>
    rw [hfl] at hacq
    simp only [Option.some.injEq, Prod.mk.injEq] at hacq
    obtain ⟨rfl, rfl⟩ := hacq
    refine ⟨⟨h.handed_out, fun g h0 h1 _ hl => h.carrier g h0 h1 (by simp) hl, fun g hg => ?_,
      h.on_disk⟩, rfl, rfl, fun hn => hn⟩
    obtain ⟨hv, hnf, _, hl⟩ := h.entry g hg
    rw [hfl] at hnf
    refine ⟨hv, fun hm => hnf (List.mem_cons_of_mem _ hm), ?_, hl⟩
    intro heq
    cases heq
    exact hnf (List.mem_cons_self _ _)
  | nil =>
    rw [hfl] at hacq
    simp only at hacq
    cases hfs : bpm.replacer_.frame_set_ with
    | nil =>
      rw [evict_nil _ hfs] at hacq
      simp only [Option.some.injEq, Prod.mk.injEq] at hacq
      obtain ⟨rfl, rfl⟩ := hacq
      exact ⟨keeps_congr bpm _ p B none h rfl rfl rfl hfl.symm rfl rfl, rfl, rfl, fun hn => hn⟩
    | cons e rest =>
      rw [evict_cons _ e rest hfs] at hacq
      simp only at hacq
      split at hacq
      · rename_i hv
        simp only [Option.some.injEq, Prod.mk.injEq] at hacq
        obtain ⟨rfl, rfl⟩ := hacq
        have hcf := h.carrier e.fid_ hv.1 hv.2 (by simp)
        have hdisk : (bpm.pages_ e.fid_).page_id_ ≠ p →
            (if (bpm.pages_ e.fid_).is_dirty_ then
              bpm.disk_manager_.WritePage (bpm.pages_ e.fid_).page_id_
                (bpm.pages_ e.fid_).data_
            else bpm.disk_manager_).data_ p = bpm.disk_manager_.data_ p := by
          intro hne
          split
          · rw [writePage_data, if_neg (fun hh => hne hh.symm)]
          · rfl
        refine ⟨⟨h.handed_out, fun g h0 h1 hgf hl => ?_, fun g hg => ?_, fun hn => ?_⟩, rfl, rfl,
          fun hn => ?_⟩
        · have hne : (bpm.pages_ e.fid_).page_id_ ≠ p := by
            intro hlf
            have h1' := (hcf hlf).1
            have h2' := (h.carrier g h0 h1 (by simp) hl).1
            rw [h1'] at h2'
            exact hgf h2'.symm
          obtain ⟨c1, c2, c3⟩ := h.carrier g h0 h1 (by simp) hl
          refine ⟨?_, c2, ?_⟩
          · show mapFind (mapErase bpm.page_table_ (bpm.pages_ e.fid_).page_id_) p = some g
            rw [mapFind_mapErase, if_neg (fun hh => hne hh.symm)]
            exact c1
          · rcases c3 with c3 | c3
            · exact Or.inl c3
            · right
              show (if (bpm.pages_ e.fid_).is_dirty_ then _ else _ : DiskManager).data_ p = B
              rw [hdisk hne]
              exact c3
        · change mapFind (mapErase bpm.page_table_ (bpm.pages_ e.fid_).page_id_) p = some g
            at hg
          rw [mapFind_mapErase] at hg
          split at hg
          · cases hg
          · rename_i hne
            obtain ⟨hv', _, _, hl⟩ := h.entry g hg
            refine ⟨hv', List.not_mem_nil _, ?_, hl⟩
            intro heq
            cases heq
            exact hne hl.symm
        · change mapFind (mapErase bpm.page_table_ (bpm.pages_ e.fid_).page_id_) p = none at hn
          show (if (bpm.pages_ e.fid_).is_dirty_ then _ else _ : DiskManager).data_ p = B
          by_cases hlf : (bpm.pages_ e.fid_).page_id_ = p
          · obtain ⟨_, c2, c3⟩ := hcf hlf
            cases hd : (bpm.pages_ e.fid_).is_dirty_ with
            | true =>
              simp only [if_true]
              rw [writePage_data, if_pos hlf.symm]
              exact c2
            | false =>
              simp only [Bool.false_eq_true, if_false]
              rcases c3 with c3 | c3
              · rw [hd] at c3
                cases c3
              · exact c3
          · rw [hdisk hlf]
            apply h.on_disk
            rw [mapFind_mapErase, if_neg (fun hh => hlf hh.symm)] at hn
            exact hn
        · show mapFind (mapErase bpm.page_table_ (bpm.pages_ e.fid_).page_id_) p = none
          rw [mapFind_mapErase, hn]
          simp
      · cases hacq

/-- Binding the acquired frame to another page keeps the bytes. -/
theorem keeps_bind (A C : BufferPoolManager) (p q f : Int) (B : List Nat) (pg : Page)
    (h : Keeps A p B (some f)) (hq : q ≠ p) (hpg : pg.page_id_ = q)
    (hpages : C.pages_ = fun g => if g = f then pg else A.pages_ g)
    (htable : C.page_table_ = mapSet A.page_table_ q f)
    (hdisk : C.disk_manager_ = A.disk_manager_) (hfree : C.free_list_ = A.free_list_)
    (hnext : A.next_page_id_ ≤ C.next_page_id_) (hsize : C.pool_size_ = A.pool_size_) :
    Keeps C p B none := by
  have hpq : ¬ p = q := fun hh => hq hh.symm
  refine ⟨⟨h.handed_out.1, lt_of_lt_of_le h.handed_out.2 hnext⟩, fun g h0 h1 _ hl => ?_,
    fun g hg => ?_, fun hn => ?_⟩
  · rw [hpages] at hl
    simp only at hl
    by_cases hgf : g = f
    · rw [if_pos hgf, hpg] at hl
      exact absurd hl hq
    · rw [if_neg hgf] at hl
      rw [hsize] at h1
      obtain ⟨c1, c2, c3⟩ := h.carrier g h0 h1 (by simpa using hgf) hl
      rw [htable, hpages, hdisk, mapFind_mapSet, if_neg hpq]
      simp only [if_neg hgf]
      exact ⟨c1, c2, c3⟩
  · rw [htable, mapFind_mapSet, if_neg hpq] at hg
    obtain ⟨hv, hnf, hne, hl⟩ := h.entry g hg
    have hgf : g ≠ f := fun hh => hne (by rw [hh])
    rw [hsize, hfree, hpages]
    simp only [if_neg hgf]
    exact ⟨hv, hnf, by simp, hl⟩
  · rw [htable, mapFind_mapSet, if_neg hpq] at hn
    rw [hdisk]
    exact h.on_disk hn

/-- A change of pin count and a raised dirty flag on one frame keep the bytes. -/
theorem keeps_touch (A C : BufferPoolManager) (p f : Int) (B : List Nat) (pg : Page)
    (h : Keeps A p B none)
    (hpg : pg.page_id_ = (A.pages_ f).page_id_ ∧ pg.data_ = (A.pages_ f).data_ ∧
      ((A.pages_ f).is_dirty_ = true → pg.is_dirty_ = true))
    (hpages : C.pages_ = fun g => if g = f then pg else A.pages_ g)
    (htable : C.page_table_ = A.page_table_)
    (hdisk : C.disk_manager_ = A.disk_manager_) (hfree : C.free_list_ = A.free_list_)
    (hnext : C.next_page_id_ = A.next_page_id_) (hsize : C.pool_size_ = A.pool_size_) :
    Keeps C p B none := by
  refine ⟨by rw [hnext]; exact h.handed_out, fun g h0 h1 hh hl => ?_, fun g hg => ?_,
    fun hn => ?_⟩
  · rw [hsize] at h1
    rw [hpages] at hl
    simp only at hl
    rw [htable, hpages, hdisk]
    by_cases hgf : g = f
    · subst hgf
      rw [if_pos rfl, hpg.1] at hl
      obtain ⟨c1, c2, c3⟩ := h.carrier g h0 h1 hh hl
      simp only [if_true]
      refine ⟨c1, by rw [hpg.2.1]; exact c2, ?_⟩
      rcases c3 with c3 | c3
      · exact Or.inl (hpg.2.2 c3)
      · exact Or.inr c3
    · rw [if_neg hgf] at hl
      simp only [if_neg hgf]
      exact h.carrier g h0 h1 hh hl
  · rw [htable] at hg
    obtain ⟨hv, hnf, hne, hl⟩ := h.entry g hg
    rw [hsize, hfree, hpages]
    refine ⟨hv, hnf, hne, ?_⟩
    by_cases hgf : g = f
    · subst hgf
      simp only [if_true]
      rw [hpg.1]
      exact hl
    · simp only [if_neg hgf]
      exact hl
  · rw [htable] at hn
    rw [hdisk]
    exact h.on_disk hn

/-- The call `NewPage` keeps the bytes of a page handed out before. -/
theorem keeps_newPage (bpm bpm' : BufferPoolManager) (p : Int) (B : List Nat)
    (r : Option (Int × Int)) (h : Keeps bpm p B none) (hcall : bpm.NewPage = some (bpm', r)) :
    Keeps bpm' p B none := by
  unfold NewPage at hcall
  cases hacq : bpm.acquireFrame with
  | none =>
    rw [hacq] at hcall
    cases hcall
  | some res =>
    obtain ⟨A, fr⟩ := res
    obtain ⟨hA, hnx, hsz, _⟩ := keeps_acquire bpm A p B fr h hacq
    rw [hacq] at hcall
    cases fr with
    | none =>
      simp only [Option.some.injEq, Prod.mk.injEq] at hcall
      obtain ⟨rfl, _⟩ := hcall
      exact hA
    | some f =>
      simp only at hcall
      split at hcall
      · rw [Option.map_eq_some'] at hcall
        obtain ⟨C, hC, heq⟩ := hcall
        cases heq
        obtain ⟨f1, f2, f3, f4, f5, f6⟩ := recordAccess_fields _ _ f hC
        refine keeps_congr _ _ p B none ?_ f1 f2 f3 f4 f5 f6
        have hq : A.next_page_id_ ≠ p := by
          have := hA.handed_out.2
          omega
        exact keeps_bind A _ p A.next_page_id_ f B
          { (A.pages_ f).ResetMemory with
            pin_count_ := 1, is_dirty_ := false, page_id_ := A.next_page_id_ }
          hA hq rfl rfl rfl rfl rfl (by show A.next_page_id_ ≤ A.next_page_id_ + 1; omega) rfl
      · cases hcall

/-- The call `FetchPage` of another page keeps the bytes. -/
theorem keeps_fetchPage (bpm bpm' : BufferPoolManager) (p q : Int) (B : List Nat)
    (r : Option Int) (h : Keeps bpm p B none) (hq : q ≠ p)
    (hcall : bpm.FetchPage q = some (bpm', r)) : Keeps bpm' p B none := by
  unfold FetchPage at hcall
  split at hcall
  · cases hcall
  · cases hfind : mapFind bpm.page_table_ q with
    | none =>
      rw [hfind] at hcall
      simp only at hcall
      cases hacq : bpm.acquireFrame with
      | none =>
        rw [hacq] at hcall
        cases hcall
      | some res =>
        obtain ⟨A, fr⟩ := res
        obtain ⟨hA, hnx, hsz, _⟩ := keeps_acquire bpm A p B fr h hacq
        rw [hacq] at hcall
        cases fr with
        | none =>
          simp only [Option.some.injEq, Prod.mk.injEq] at hcall
          obtain ⟨rfl, _⟩ := hcall
          exact hA
        | some f =>
          simp only at hcall
          split at hcall
          · rw [Option.map_eq_some'] at hcall
            obtain ⟨C, hC, heq⟩ := hcall
            cases heq
            obtain ⟨f1, f2, f3, f4, f5, f6⟩ := recordAccess_fields _ _ f hC
            refine keeps_congr _ _ p B none ?_ f1 f2 f3 f4 f5 f6
            exact keeps_bind A _ p q f B
              { data_ := A.disk_manager_.ReadPage q, page_id_ := q, pin_count_ := 1,
                is_dirty_ := false }
              hA hq rfl rfl rfl rfl rfl (le_refl _) rfl
          · cases hcall
    | some f =>
      rw [hfind] at hcall
      simp only at hcall
      split at hcall
      · rw [Option.map_eq_some'] at hcall
        obtain ⟨C, hC, heq⟩ := hcall
        cases heq
        obtain ⟨f1, f2, f3, f4, f5, f6⟩ := recordAccess_fields _ _ f hC
        refine keeps_congr _ _ p B none ?_ f1 f2 f3 f4 f5 f6
        exact keeps_touch bpm _ p f B
          { bpm.pages_ f with pin_count_ := (bpm.pages_ f).pin_count_ + 1 }
          h ⟨rfl, rfl, fun hd => hd⟩ rfl rfl rfl rfl rfl rfl
      · cases hcall

/-- The call `UnpinPage` keeps the bytes: it only lowers a pin count and raises a dirty
flag. -/
theorem keeps_unpinPage (bpm bpm' : BufferPoolManager) (p q : Int) (d : Bool) (B : List Nat)
    (b : Bool) (h : Keeps bpm p B none) (hcall : bpm.UnpinPage q d = some (bpm', b)) :
    Keeps bpm' p B none := by
  unfold UnpinPage at hcall
  cases hfind : mapFind bpm.page_table_ q with
  | none =>
    rw [hfind] at hcall
    simp only [Option.some.injEq, Prod.mk.injEq] at hcall
    obtain ⟨rfl, _⟩ := hcall
    exact h
  | some f =>
    rw [hfind] at hcall
    simp only at hcall
    have htouch : Keeps (bpm.setPage f
        { bpm.pages_ f with
          is_dirty_ := (bpm.pages_ f).is_dirty_ || d,
          pin_count_ := (bpm.pages_ f).pin_count_ - 1 }) p B none :=
      keeps_touch bpm _ p f B
        { bpm.pages_ f with
          is_dirty_ := (bpm.pages_ f).is_dirty_ || d,
          pin_count_ := (bpm.pages_ f).pin_count_ - 1 }
        h ⟨rfl, rfl, fun hd => by simp [hd]⟩ rfl rfl rfl rfl rfl rfl
    split at hcall
    · split at hcall
      · simp only [Option.some.injEq, Prod.mk.injEq] at hcall
        obtain ⟨rfl, _⟩ := hcall
        exact h
      · split at hcall
        · simp only [Option.some.injEq, Prod.mk.injEq] at hcall
          obtain ⟨rfl, _⟩ := hcall
          exact keeps_congr _ _ p B none htouch rfl rfl rfl rfl rfl rfl
        · simp only [Option.some.injEq, Prod.mk.injEq] at hcall
          obtain ⟨rfl, _⟩ := hcall
          exact htouch
    · cases hcall

/-- A call on another page keeps the bytes. -/
theorem keeps_step (bpm bpm' : BufferPoolManager) (p : Int) (B : List Nat) (c : Call)
    (h : Keeps bpm p B none) (hc : foreign p c) (hs : bpm.step c = some bpm') :
    Keeps bpm' p B none := by
  cases c with
  | NewPage =>
    simp only [step, Option.map_eq_some'] at hs
    obtain ⟨⟨s, r⟩, hcall, rfl⟩ := hs
    exact keeps_newPage bpm s p B r h hcall
  | FetchPage q =>
    simp only [step, Option.map_eq_some'] at hs
    obtain ⟨⟨s, r⟩, hcall, rfl⟩ := hs
    exact keeps_fetchPage bpm s p q B r h hc hcall
  | UnpinPage q d =>
    simp only [step, Option.map_eq_some'] at hs
    obtain ⟨⟨s, r⟩, hcall, rfl⟩ := hs
    exact keeps_unpinPage bpm s p q d B r h hcall
  | FlushPage q => exact absurd hc id
  | DeletePage q => exact absurd hc id

/-- A sequence of calls on other pages keeps the bytes. -/
theorem keeps_run (p : Int) (B : List Nat) (calls : List Call) :
    ∀ bpm bpm' : BufferPoolManager, Keeps bpm p B none → (∀ c ∈ calls, foreign p c) →
      run bpm calls = some bpm' → Keeps bpm' p B none := by
  induction calls with
  | nil =>
    intro bpm bpm' h _ hr
    simp only [run, Option.some.injEq] at hr
    subst hr
    exact h
  | cons c rest ih =>
    intro bpm bpm' h hc hr
    simp only [run] at hr
    cases hs : bpm.step c with
    | none =>
      rw [hs] at hr
      cases hr
    | some s =>
      rw [hs] at hr
      exact ih s bpm' (keeps_step bpm s p B c h (hc c (List.mem_cons_self _ _)) hs)
        (fun c' hc' => hc c' (List.mem_cons_of_mem _ hc')) hr

/-- A page whose bytes are kept comes back with them. -/
theorem fetchPage_kept (bpm bpm' : BufferPoolManager) (p g : Int) (B : List Nat)
    (h : Keeps bpm p B none) (hcall : bpm.FetchPage p = some (bpm', some g)) :
    (bpm'.pages_ g).data_ = B ∧ (bpm'.pages_ g).page_id_ = p ∧
    mapFind bpm'.page_table_ p = some g := by
  unfold FetchPage at hcall
  split at hcall
  · cases hcall
  · cases hfind : mapFind bpm.page_table_ p with
    | none =>
      rw [hfind] at hcall
      simp only at hcall
      cases hacq : bpm.acquireFrame with
      | none =>
        rw [hacq] at hcall
        cases hcall
      | some res =>
        obtain ⟨A, fr⟩ := res
        obtain ⟨hA, _, _, hnone⟩ := keeps_acquire bpm A p B fr h hacq
        rw [hacq] at hcall
        cases fr with
        | none =>
          simp only [Option.some.injEq, Prod.mk.injEq] at hcall
          obtain ⟨_, hh⟩ := hcall
          cases hh
        | some f =>
          simp only at hcall
          split at hcall
          · rw [Option.map_eq_some'] at hcall
            obtain ⟨C, hC, heq⟩ := hcall
            cases heq
            obtain ⟨f1, f2, _, _, _, _⟩ := recordAccess_fields _ _ g hC
            rw [f1, f2]
            refine ⟨?_, by simp [setPage], ?_⟩
            · simp only [setPage, if_true, DiskManager.ReadPage]
              exact hA.on_disk (hnone hfind)
            · show mapFind (mapSet A.page_table_ p g) p = some g
              rw [mapFind_mapSet]
              simp
          · cases hcall
    | some f =>
      rw [hfind] at hcall
      simp only at hcall
      split at hcall
      · rw [Option.map_eq_some'] at hcall
        obtain ⟨C, hC, heq⟩ := hcall
        cases heq
        obtain ⟨f1, f2, _, _, _, _⟩ := recordAccess_fields _ _ g hC
        obtain ⟨hv, _, hne, hl⟩ := h.entry g hfind
        obtain ⟨_, c2, _⟩ := h.carrier g hv.1 hv.2 hne hl
        rw [f1, f2]
        exact ⟨by simp [setPage, c2], by simp [setPage, hl], hfind⟩
      · cases hcall

/-- On a pool that satisfies the invariant a sequence of calls whose `FetchPage` calls ask for
handed-out page ids returns, and the invariant holds afterwards. -/
theorem poolInv_run (calls : List Call) :
    ∀ bpm : BufferPoolManager, PoolInv bpm none → allocatedRun bpm calls →
      ∃ s, run bpm calls = some s ∧ PoolInv s none := by
  induction calls with
  | nil => exact fun bpm h _ => ⟨bpm, rfl, h⟩
  | cons c rest ih =>
    intro bpm h hall
    obtain ⟨s1, hs1, hinv1, _⟩ := poolInv_step bpm c h hall.1
    obtain ⟨s, hs, hinv⟩ := ih s1 hinv1 (hall.2 s1 hs1)
    refine ⟨s, ?_, hinv⟩
    simp only [run, hs1]
    exact hs

/-- C22 fails as stated: in the pool of one frame after `NewPage` page 0 is resident and
pinned once; after `UnpinPage(0, true)` the call `NewPage`, a call on another page, evicts
page 0 (written to disk once) and leaves page 1 pinned in the only frame, and `FetchPage(0)`
returns null, not a page. -/
theorem C22_fetch_after_eviction_returns_null :
    mapFind (poolAfter 1 [Call.NewPage]).page_table_ 0 = some 0 ∧
    ((poolAfter 1 [Call.NewPage]).pages_ 0).pin_count_ = 1 ∧
    run (poolAfter 1 [Call.NewPage]) [Call.UnpinPage 0 true, Call.NewPage] =
      some (poolAfter 1 [Call.NewPage, Call.UnpinPage 0 true, Call.NewPage]) ∧
    mapFind (poolAfter 1 [Call.NewPage, Call.UnpinPage 0 true, Call.NewPage]).page_table_ 0 =
      none ∧
    (poolAfter 1 [Call.NewPage, Call.UnpinPage 0 true, Call.NewPage]).disk_manager_.writes_ =
      [0] ∧
    ((poolAfter 1 [Call.NewPage, Call.UnpinPage 0 true, Call.NewPage]).FetchPage 0).map
      Prod.snd = some none :=
  ⟨rfl, rfl, rfl, rfl, rfl, rfl⟩

/-- With a free frame or an evictable frame the frame acquisition does not come back without
a frame. -/
theorem acquireFrame_available (bpm A : BufferPoolManager)
    (havail : bpm.free_list_ ≠ [] ∨ 0 < bpm.replacer_.Size) :
    bpm.acquireFrame ≠ some (A, none) := by
  intro hacq
  unfold acquireFrame at hacq
  cases hfl : bpm.free_list_ with
  | cons front rest =>
    rw [hfl] at hacq
    simp only [Option.some.injEq, Prod.mk.injEq] at hacq
    cases hacq.2
  | nil =>
    rw [hfl] at hacq
    simp only at hacq
    cases hfs : bpm.replacer_.frame_set_ with
    | nil =>
      rcases havail with h | h
      · exact h hfl
      · unfold LRUKReplacer.Size at h
        rw [hfs] at h
        cases h
    | cons e rest =>
      rw [evict_cons _ e rest hfs] at hacq
      simp only at hacq
      split at hacq
      · simp only [Option.some.injEq, Prod.mk.injEq] at hacq
        cases hacq.2
      · cases hacq

/-- A call `FetchPage` that returns, for a page that is resident or in a pool with a free or
an evictable frame, returns a page, not null. -/
theorem fetchPage_returns_page (bpm bpm' : BufferPoolManager) (p : Int) (r : Option Int)
    (hcall : bpm.FetchPage p = some (bpm', r))
    (havail : mapFind bpm.page_table_ p ≠ none ∨ bpm.free_list_ ≠ [] ∨
      0 < bpm.replacer_.Size) : ∃ g, r = some g := by
  unfold FetchPage at hcall
  split at hcall
  · cases hcall
  · cases hfind : mapFind bpm.page_table_ p with
    | none =>
      have havail' : bpm.free_list_ ≠ [] ∨ 0 < bpm.replacer_.Size := by
        rcases havail with h | h
        · exact absurd hfind h
        · exact h
      rw [hfind] at hcall
      simp only at hcall
      cases hacq : bpm.acquireFrame with
      | none =>
        rw [hacq] at hcall
        cases hcall
      | some res =>
        obtain ⟨A, fr⟩ := res
        rw [hacq] at hcall
        cases fr with
        | none => exact absurd hacq (acquireFrame_available bpm A havail')
        | some f =>
          simp only at hcall
          split at hcall
          · rw [Option.map_eq_some'] at hcall
            obtain ⟨C, _, heq⟩ := hcall
            cases heq
            exact ⟨f, rfl⟩
          · cases hcall
    | some f =>
      rw [hfind] at hcall
      simp only at hcall
      split at hcall
      · rw [Option.map_eq_some'] at hcall
        obtain ⟨C, _, heq⟩ := hcall
        cases heq
        exact ⟨f, rfl⟩
      · cases hcall

/-- Bytes written by the caller into a frame leave the invariant of the pool as it is. -/
theorem poolInv_writeData (bpm : BufferPoolManager) (f : Int) (data : List Nat)
    (hole : Option Int) (h : PoolInv bpm hole) : PoolInv (bpm.writeData f data) hole := by
  have hpid : ∀ g, ((bpm.writeData f data).pages_ g).page_id_ = (bpm.pages_ g).page_id_ := by
    intro g
    show (if g = f then _ else bpm.pages_ g : Page).page_id_ = _
    split
    · next hg => rw [hg]
    · rfl
  have hpin : ∀ g, ((bpm.writeData f data).pages_ g).pin_count_ =
      (bpm.pages_ g).pin_count_ := by
    intro g
    show (if g = f then _ else bpm.pages_ g : Page).pin_count_ = _
    split
    · next hg => rw [hg]
    · rfl
  exact
    { free_nodup := h.free_nodup
      free_valid := h.free_valid
      keys_nodup := h.keys_nodup
      bound := fun p g hg => by
        rw [hpid, hpin]
        exact h.bound p g hg
      cover := fun g h0 h1 hf hh => by
        rw [hpid]
        exact h.cover g h0 h1 hf hh
      hole_ok := h.hole_ok
      count := h.count
      store_nodup := h.store_nodup
      store_count := h.store_count
      capacity := h.capacity
      tracked := fun g node hnode => by
        rw [hpin]
        exact h.tracked g node hnode
      tracked_all := h.tracked_all
      set_nodup := h.set_nodup
      set_tracked := h.set_tracked }

/-- C22 (amended): a resident page `p` that `NewPage` has handed out, pinned once in frame `f`
(the only frame that carries `p`, not in the free list) which holds the bytes `B`. After
`UnpinPage(p, true)`, which returns true, and any sequence of `NewPage`, `FetchPage` and
`UnpinPage` calls on other pages, whether it evicts `p` or not: a `FetchPage(p)` that returns
a page returns a page with the page id `p` whose bytes equal `B`; and when the pool satisfies
its invariant and the `FetchPage` calls of the sequence ask for handed-out page ids, the
sequence returns, and after it `FetchPage(p)` does return such a page whenever `p` is still
resident, or a frame is free, or the replacer has an evictable frame, and returns null with
the pool left as it is in the one other case. -/
theorem C22_bytes_survive_eviction (bpm : BufferPoolManager) (p f : Int) (B : List Nat)
    (hres : mapFind bpm.page_table_ p = some f) (hvalid : 0 ≤ f ∧ f < bpm.pool_size_)
    (hfree : f ∉ bpm.free_list_) (hlabel : (bpm.pages_ f).page_id_ = p)
    (hunique : ∀ g : Int, 0 ≤ g → g < bpm.pool_size_ → (bpm.pages_ g).page_id_ = p → g = f)
    (hdata : (bpm.pages_ f).data_ = B) (hpin : (bpm.pages_ f).pin_count_ = 1)
    (halloc : 0 ≤ p ∧ p < bpm.next_page_id_) :
    ∃ s1, bpm.UnpinPage p true = some (s1, true) ∧
      (∀ calls s2, (∀ c ∈ calls, foreign p c) → run s1 calls = some s2 →
        ∀ s3 g, s2.FetchPage p = some (s3, some g) →
          (s3.pages_ g).data_ = B ∧ (s3.pages_ g).page_id_ = p) ∧
      (PoolInv bpm none → ∀ calls, (∀ c ∈ calls, foreign p c) → allocatedRun s1 calls →
        ∃ s2, run s1 calls = some s2 ∧
          ((mapFind s2.page_table_ p ≠ none ∨ s2.free_list_ ≠ [] ∨ 0 < s2.replacer_.Size) →
            ∃ s3 g, s2.FetchPage p = some (s3, some g) ∧
              (s3.pages_ g).data_ = B ∧ (s3.pages_ g).page_id_ = p) ∧
          (mapFind s2.page_table_ p = none → s2.free_list_ = [] → s2.replacer_.Size = 0 →
            s2.FetchPage p = some (s2, none))) := by
  have hne : (bpm.pages_ f).pin_count_ ≠ 0 := by omega
  have hzero : (bpm.pages_ f).pin_count_ - 1 = 0 := by omega
  have hcall : bpm.UnpinPage p true = some (
      { bpm.setPage f
          { bpm.pages_ f with
            is_dirty_ := (bpm.pages_ f).is_dirty_ || true,
            pin_count_ := (bpm.pages_ f).pin_count_ - 1 } with
        replacer_ := bpm.replacer_.SetEvictable f true }, true) := by
    simp only [UnpinPage, hres, hvalid, and_self, if_true, hne, if_false, setPage, hzero]
  have hkeep : Keeps
      { bpm.setPage f
          { bpm.pages_ f with
            is_dirty_ := (bpm.pages_ f).is_dirty_ || true,
            pin_count_ := (bpm.pages_ f).pin_count_ - 1 } with
        replacer_ := bpm.replacer_.SetEvictable f true } p B none := by
    refine ⟨⟨by omega, halloc.2⟩, fun g h0 h1 _ hl => ?_, fun g hg => ?_, fun hn => ?_⟩
    · change (if g = f then _ else bpm.pages_ g : Page).page_id_ = p at hl
      have hgf : g = f := by
        by_cases hgf : g = f
        · exact hgf
        · rw [if_neg hgf] at hl
          exact hunique g h0 h1 hl
      subst hgf
      refine ⟨hres, ?_, Or.inl ?_⟩
      · show (if g = g then _ else bpm.pages_ g : Page).data_ = B
        rw [if_pos rfl]
        exact hdata
      · show (if g = g then _ else bpm.pages_ g : Page).is_dirty_ = true
        rw [if_pos rfl]
        simp
    · change mapFind bpm.page_table_ p = some g at hg
      rw [hres] at hg
      cases hg
      refine ⟨hvalid, hfree, by simp, ?_⟩
      show (if f = f then _ else bpm.pages_ f : Page).page_id_ = p
      rw [if_pos rfl]
      exact hlabel
    · change mapFind bpm.page_table_ p = none at hn
      rw [hres] at hn
      cases hn
  refine ⟨_, hcall, fun calls s2 hc hrun s3 g hfetch => ?_, fun hinv calls hc hall => ?_⟩
  · have hkeep2 := keeps_run p B calls _ s2 hkeep hc hrun
    obtain ⟨h1, h2, _⟩ := fetchPage_kept s2 s3 p g B hkeep2 hfetch
    exact ⟨h1, h2⟩
  · obtain ⟨s1, b, hs1, hinv1, _⟩ := unpinPage_spec bpm p true hinv
    rw [hcall] at hs1
    simp only [Option.some.injEq, Prod.mk.injEq] at hs1
    rw [← hs1.1] at hinv1
    obtain ⟨s2, hrun, hinv2⟩ := poolInv_run calls _ hinv1 hall
    have hkeep2 := keeps_run p B calls _ s2 hkeep hc hrun
    obtain ⟨s3, r, hfetch, _⟩ := fetchPage_spec s2 p hinv2 ⟨halloc.1, hkeep2.handed_out.2⟩
    refine ⟨s2, hrun, fun havail => ?_, fun hfind hfl hsz => ?_⟩
    · obtain ⟨g, rfl⟩ := fetchPage_returns_page s2 s3 p r hfetch havail
      obtain ⟨h1, h2, _⟩ := fetchPage_kept s2 s3 p g B hkeep2 hfetch
      exact ⟨s3, g, hfetch, h1, h2⟩
    · have hfs : s2.replacer_.frame_set_ = [] := by
        unfold LRUKReplacer.Size at hsz
        exact List.length_eq_zero.mp hsz
      have hp1 : p ≠ -1 := by omega
      simp [FetchPage, hp1, hfind, acquireFrame_none s2 hfl hfs]

/-- C22 (amended) at a concrete input: in the pool of one frame after `NewPage` the caller
writes the bytes 1, 2, 3 to page 0; after `UnpinPage(0, true)`, `NewPage` (which evicts page
0) and `UnpinPage(1, false)`, page 0 is not resident, the frame is evictable, and
`FetchPage(0)` returns page 0 in frame 0 with the bytes 1, 2, 3. -/
theorem C22_bytes_survive_eviction_witness :
    PoolInv ((poolAfter 1 [Call.NewPage]).writeData 0 [1, 2, 3]) none ∧
    (∃ s1, ((poolAfter 1 [Call.NewPage]).writeData 0 [1, 2, 3]).UnpinPage 0 true =
        some (s1, true) ∧
      ∃ s2, run s1 [Call.NewPage, Call.UnpinPage 1 false] = some s2 ∧
        ((mapFind s2.page_table_ 0 ≠ none ∨ s2.free_list_ ≠ [] ∨ 0 < s2.replacer_.Size) →
          ∃ s3 g, s2.FetchPage 0 = some (s3, some g) ∧
            (s3.pages_ g).data_ = [1, 2, 3] ∧ (s3.pages_ g).page_id_ = 0)) ∧
    (run ((poolAfter 1 [Call.NewPage]).writeData 0 [1, 2, 3])
        [Call.UnpinPage 0 true, Call.NewPage, Call.UnpinPage 1 false]).map
      (fun s2 => (mapFind s2.page_table_ 0, s2.free_list_, s2.replacer_.Size,
        s2.disk_manager_.writes_,
        (s2.FetchPage 0).map fun r => (r.2, (r.1.pages_ 0).data_))) =
      some (none, [], 1, [0], some (some 0, [1, 2, 3])) := by
  have hinv : PoolInv ((poolAfter 1 [Call.NewPage]).writeData 0 [1, 2, 3]) none :=
    poolInv_writeData _ 0 [1, 2, 3] none
      (poolInv_reachable _
        (ReachableAllocated.step (new 1 2 DiskManager.blank) (poolAfter 1 [Call.NewPage])
          Call.NewPage (ReachableAllocated.init 1 2 DiskManager.blank) trivial rfl))
  obtain ⟨s1, hs1, _, h3⟩ :=
    C22_bytes_survive_eviction ((poolAfter 1 [Call.NewPage]).writeData 0 [1, 2, 3]) 0 0
      [1, 2, 3] rfl (by decide) (by decide) rfl
      (fun g h0 h1 _ => by
        have hsize : (((poolAfter 1 [Call.NewPage]).writeData 0 [1, 2, 3]).pool_size_ : Int) =
            1 := rfl
        omega)
      rfl rfl (by decide)
  obtain ⟨s2, hrun, hyes, _⟩ := h3 hinv [Call.NewPage, Call.UnpinPage 1 false]
    (fun c hc => by
      simp only [List.mem_cons, List.mem_singleton, List.not_mem_nil, or_false] at hc
      rcases hc with rfl | rfl
      · trivial
      · exact (by decide : (1 : Int) ≠ 0))
    ⟨trivial, fun _ _ => ⟨trivial, fun _ _ => trivial⟩⟩
  exact ⟨hinv, ⟨s1, hs1, s2, hrun, hyes⟩, rfl⟩

/-- The condition that `NewPage` has handed out the page id is needed: in the pool of one
frame after `FetchPage(0)`, before any `NewPage`, the caller writes the byte 7 to page 0;
after `UnpinPage(0, true)` the call `NewPage` evicts page 0 and hands out the page id 0
itself, and `FetchPage(0)` returns the zeroed new page. -/
theorem fetchPage_of_reused_page_id :
    mapFind ((poolAfter 1 [Call.FetchPage 0]).writeData 0 [7]).page_table_ 0 = some 0 ∧
    (((poolAfter 1 [Call.FetchPage 0]).writeData 0 [7]).pages_ 0).data_ = [7] ∧
    (((poolAfter 1 [Call.FetchPage 0]).writeData 0 [7]).pages_ 0).pin_count_ = 1 ∧
    (run ((poolAfter 1 [Call.FetchPage 0]).writeData 0 [7])
        [Call.UnpinPage 0 true, Call.NewPage]).map
      (fun s2 => (s2.disk_manager_.writes_,
        (s2.FetchPage 0).map fun r => (r.2, (r.1.pages_ 0).data_))) =
      some ([0], some (some 0, List.replicate BUSTUB_PAGE_SIZE 0)) :=
  ⟨rfl, rfl, rfl, rfl⟩

/-- The call `DeletePage` on a resident page with a pin count other than 0 returns false and
changes nothing. -/
theorem deletePage_pinned (bpm : BufferPoolManager) (page_id frame_id : Int)
    (hfind : mapFind bpm.page_table_ page_id = some frame_id)
    (hrange : 0 ≤ frame_id ∧ frame_id < bpm.pool_size_)
    (hpin : (bpm.pages_ frame_id).pin_count_ ≠ 0) :
    bpm.DeletePage page_id = some (bpm, false) := by
  unfold DeletePage
  rw [hfind]
  simp only
  rw [if_pos hrange, if_pos hpin]

/-- C37 (the code at the failing input): `Remove(5)` on the tree whose root page 1 is a leaf
with the key 5 alone sets the root page id of the header to INVALID_PAGE_ID and calls
`DeletePage(1)` once. In a pool of three frames with the header page 0 and the root page 1
resident, that call comes after the two `FetchPageWrite` calls of the descent, while the write
guard of the root page is still held: the pin count of the page is 1 and `DeletePage(1)`
returns false. After the call and after the guards are dropped the page 1 is still in the page
table (frame 1), the free list holds frame 2 alone, and the disk manager was not told of any
deallocation. -/
theorem C37_delete_page_of_pinned_root :
    (BPlusTree.Remove 2 BPlusTree.singleKeyTree 5).map
        (fun t => (t.root_page_id_, t.deleted)) = some (INVALID_PAGE_ID, [1]) ∧
    ((poolAfter 3 (treePagesCalls ++ (removeLastKeyCalls 0 1).take 2)).pages_ 1).pin_count_ = 1 ∧
    ((poolAfter 3 (treePagesCalls ++ (removeLastKeyCalls 0 1).take 2)).DeletePage 1).map
        (fun r => r.2) = some false ∧
    mapFind (poolAfter 3 (treePagesCalls ++ (removeLastKeyCalls 0 1).take 3)).page_table_ 1 =
      some 1 ∧
    (poolAfter 3 (treePagesCalls ++ (removeLastKeyCalls 0 1).take 3)).free_list_ = [2] ∧
    mapFind (poolAfter 3 (treePagesCalls ++ removeLastKeyCalls 0 1)).page_table_ 1 = some 1 ∧
    (poolAfter 3 (treePagesCalls ++ removeLastKeyCalls 0 1)).free_list_ = [2] ∧
    ((poolAfter 3 (treePagesCalls ++ removeLastKeyCalls 0 1)).pages_ 1).page_id_ = 1 ∧
    ((poolAfter 3 (treePagesCalls ++ removeLastKeyCalls 0 1)).pages_ 1).pin_count_ = 0 ∧
    (poolAfter 3 (treePagesCalls ++ removeLastKeyCalls 0 1)).disk_manager_.deallocated_ = [] := by
  refine ⟨by decide, by decide, by decide, by decide, by decide, by decide, by decide,
    by decide, by decide, by decide⟩


end BufferPoolManager

/-! # Properties of the LRU-K replacer -/

namespace LRUKReplacer

open BufferPoolManager (mapFind_mapErase mapFind_mapSet mapFind_none_iff mapErase_of_not_found
  nodup_keys_mapErase nodup_keys_mapSet length_mapErase_of_found length_mapSet_of_not_found
  length_mapSet_of_found mem_frameSetInsert frameSetFind_iff mem_frameSetErase
  nodup_frameSetErase nodup_frameSetInsert evict_nil evict_cons evict_some)

/-- The eviction order is asymmetric. -/
theorem before_asymm (a b : LRUKNode) (h : a.before b = true) : b.before a = false := by
  unfold LRUKNode.before at h ⊢
  split_ifs at h ⊢ <;> simp_all <;> omega

/-- The eviction order is transitive. -/
theorem before_trans (a b c : LRUKNode) (hab : a.before b = true) (hbc : b.before c = true) :
    a.before c = true := by
  unfold LRUKNode.before at hab hbc ⊢
  split_ifs at hab hbc ⊢ <;> simp_all <;> omega

/-- The ordered insertion keeps the eviction order. -/
theorem sorted_frameSetInsert (node : LRUKNode) (l : List LRUKNode)
    (h : l.Pairwise fun a b => b.before a = false) :
    (frameSetInsert node l).Pairwise fun a b => b.before a = false := by
  induction l with
  | nil => simp [frameSetInsert]
  | cons e rest ih =>
    rw [List.pairwise_cons] at h
    unfold frameSetInsert
    by_cases hb : node.before e = true
    · rw [if_pos hb, List.pairwise_cons]
      refine ⟨fun x hx => ?_, List.pairwise_cons.mpr h⟩
      rcases List.mem_cons.mp hx with hx | hx
      · rw [hx]
        exact before_asymm _ _ hb
      · cases hxn : x.before node with
        | false => rfl
        | true =>
          have := before_trans _ _ _ hxn hb
          rw [h.1 x hx] at this
          cases this
    · rw [if_neg hb, List.pairwise_cons]
      refine ⟨fun x hx => ?_, ih h.2⟩
      rcases (mem_frameSetInsert node x rest).mp hx with hx | hx
      · rw [hx]
        simpa using hb
      · exact h.1 x hx

/-- The erase keeps the eviction order. -/
theorem sorted_frameSetErase (node : LRUKNode) (l : List LRUKNode)
    (h : l.Pairwise fun a b => b.before a = false) :
    (frameSetErase node l).Pairwise fun a b => b.before a = false :=
  List.Pairwise.sublist (List.filter_sublist l) h

/-- The new replacer satisfies the invariant. -/
theorem replacerInv_new (num_frames k : Nat) : Inv (LRUKReplacer.new num_frames k) :=
  ⟨List.nodup_nil, Nat.zero_le _, fun f node h => (by cases h), fun e he => (by cases he),
    List.nodup_nil, List.Pairwise.nil⟩

/-- In a replacer that satisfies the invariant, a frame with an entry in `frame_set_` has an
evictable node. -/
theorem replacerInv_entry_evictable (r : LRUKReplacer) (h : Inv r) (f : Int) (node : LRUKNode)
    (hnode : mapFind r.node_store_ f = some node) (e : LRUKNode) (he : e ∈ r.frame_set_)
    (hfe : e.fid_ = f) :
    node.is_evictable_ = true ∧ e.history_ = node.history_ ∧ e.k_ = node.k_ := by
  obtain ⟨node', h1, h2, h3, h4⟩ := h.set_ok e he
  rw [hfe, hnode] at h1
  cases h1
  exact ⟨h2, h3, h4⟩

/-- In a replacer that satisfies the invariant, the node of a frame is evictable exactly when
`find` locates it in `frame_set_`. -/
theorem replacerInv_find (r : LRUKReplacer) (h : Inv r) (f : Int) (node : LRUKNode)
    (hnode : mapFind r.node_store_ f = some node) :
    frameSetFind node r.frame_set_ = node.is_evictable_ := by
  obtain ⟨hfid, _, hev⟩ := h.node_ok f node hnode
  cases hflag : node.is_evictable_ with
  | true =>
    rw [frameSetFind_iff, hfid]
    exact hev hflag
  | false =>
    cases hfind : frameSetFind node r.frame_set_ with
    | false => rfl
    | true =>
      rw [frameSetFind_iff, hfid] at hfind
      obtain ⟨e, he, hfe⟩ := hfind
      have := (replacerInv_entry_evictable r h f node hnode e he hfe).1
      rw [hflag] at this
      cases this

/-- The invariant looks at `node_store_`, `frame_set_`, the capacity and K only. -/
theorem replacerInv_congr (r s : LRUKReplacer) (h : Inv r) (hstore : s.node_store_ = r.node_store_)
    (hfs : s.frame_set_ = r.frame_set_) (hsize : s.replacer_size_ = r.replacer_size_)
    (hk : s.k_ = r.k_) : Inv s :=
  ⟨by rw [hstore]; exact h.store_nodup, by rw [hstore, hsize]; exact h.capacity,
    by rw [hstore, hfs, hk]; exact h.node_ok, by rw [hstore, hfs]; exact h.set_ok,
    by rw [hfs]; exact h.set_nodup, by rw [hfs]; exact h.sorted⟩

/-- The invariant after the node of frame `f` has been set to `node` and the entries of `f`
in `frame_set_` have been adjusted to it. -/
theorem replacerInv_update (r s : LRUKReplacer) (f : Int) (node : LRUKNode) (h : Inv r)
    (hstore : s.node_store_ = mapSet r.node_store_ f node)
    (hcap : s.node_store_.length ≤ s.replacer_size_) (hk : s.k_ = r.k_)
    (hnode : node.fid_ = f ∧ node.k_ = r.k_)
    (hold : ∀ e : LRUKNode, e.fid_ ≠ f → (e ∈ s.frame_set_ ↔ e ∈ r.frame_set_))
    (hnew : ∀ e ∈ s.frame_set_, e.fid_ = f →
      node.is_evictable_ = true ∧ e.history_ = node.history_ ∧ e.k_ = node.k_)
    (hev : node.is_evictable_ = true → ∃ e ∈ s.frame_set_, e.fid_ = f)
    (hnodup : (s.frame_set_.map fun e => e.fid_).Nodup)
    (hsorted : s.frame_set_.Pairwise fun a b => b.before a = false) : Inv s := by
  refine ⟨by rw [hstore]; exact nodup_keys_mapSet _ _ _ h.store_nodup, hcap, ?_, ?_, hnodup,
    hsorted⟩
  · intro g nd hg
    rw [hstore, mapFind_mapSet] at hg
    by_cases hgf : g = f
    · rw [if_pos hgf] at hg
      cases hg
      rw [hgf, hk]
      exact ⟨hnode.1, hnode.2, hev⟩
    · rw [if_neg hgf] at hg
      obtain ⟨h1, h2, h3⟩ := h.node_ok g nd hg
      refine ⟨h1, by rw [hk]; exact h2, fun hflag => ?_⟩
      obtain ⟨e, he, hfe⟩ := h3 hflag
      exact ⟨e, (hold e (by rw [hfe]; exact hgf)).mpr he, hfe⟩
  · intro e he
    by_cases hef : e.fid_ = f
    · refine ⟨node, ?_, hnew e he hef⟩
      rw [hstore, mapFind_mapSet, if_pos hef]
    · obtain ⟨nd, h1, h2⟩ := h.set_ok e ((hold e hef).mp he)
      refine ⟨nd, ?_, h2⟩
      rw [hstore, mapFind_mapSet, if_neg hef]
      exact h1

/-- The invariant after the node of frame `f` and its entries in `frame_set_` have been
removed. -/
theorem replacerInv_erase (r s : LRUKReplacer) (f : Int) (h : Inv r)
    (hstore : s.node_store_ = mapErase r.node_store_ f)
    (hsize : s.replacer_size_ = r.replacer_size_) (hk : s.k_ = r.k_)
    (hfs : ∀ e : LRUKNode, e ∈ s.frame_set_ ↔ e ∈ r.frame_set_ ∧ e.fid_ ≠ f)
    (hnodup : (s.frame_set_.map fun e => e.fid_).Nodup)
    (hsorted : s.frame_set_.Pairwise fun a b => b.before a = false) : Inv s := by
  refine ⟨by rw [hstore]; exact nodup_keys_mapErase _ _ h.store_nodup, ?_, ?_, ?_, hnodup,
    hsorted⟩
  · rw [hstore, hsize]
    exact le_trans (List.length_filter_le _ _) h.capacity
  · intro g nd hg
    rw [hstore, mapFind_mapErase] at hg
    by_cases hgf : g = f
    · rw [if_pos hgf] at hg
      cases hg
    · rw [if_neg hgf] at hg
      obtain ⟨h1, h2, h3⟩ := h.node_ok g nd hg
      refine ⟨h1, by rw [hk]; exact h2, fun hflag => ?_⟩
      obtain ⟨e, he, hfe⟩ := h3 hflag
      exact ⟨e, (hfs e).mpr ⟨he, by rw [hfe]; exact hgf⟩, hfe⟩
  · intro e he
    obtain ⟨he1, he2⟩ := (hfs e).mp he
    obtain ⟨nd, h1, h2⟩ := h.set_ok e he1
    refine ⟨nd, ?_, h2⟩
    rw [hstore, mapFind_mapErase, if_neg he2]
    exact h1

/-- The call `RecordAccess` on a replacer that satisfies the invariant returns or throws; the
invariant holds afterwards. -/
theorem replacerInv_recordAccess (r : LRUKReplacer) (f : Int) (h : Inv r) :
    (∃ s, r.RecordAccess f = Throws.ok s ∧ Inv s) ∨
    (∃ s, r.RecordAccess f = Throws.exception s ∧ Inv s) := by
  cases hst : mapFind r.node_store_ f with
  | none =>
    by_cases hfull : r.node_store_.length = r.replacer_size_
    · right
      refine ⟨{ r with current_timestamp_ := r.current_timestamp_ + 1 }, ?_,
        replacerInv_congr r _ h rfl rfl rfl rfl⟩
      simp [RecordAccess, hst, hfull]
    · left
      refine ⟨{ r with
          current_timestamp_ := r.current_timestamp_ + 1,
          node_store_ := mapSet r.node_store_ f
            ((LRUKNode.new f r.k_).AddHistory (r.current_timestamp_ + 1)) }, ?_, ?_⟩
      · simp [RecordAccess, hst, hfull]
      · refine replacerInv_update r _ f _ h rfl ?_ rfl ⟨rfl, rfl⟩ (fun e _ => Iff.rfl) ?_ ?_
          h.set_nodup h.sorted
        · show (mapSet r.node_store_ f _).length ≤ r.replacer_size_
          rw [length_mapSet_of_not_found _ _ _ hst]
          have := h.capacity
          omega
        · intro e he hfe
          obtain ⟨nd, h1, _⟩ := h.set_ok e he
          rw [hfe, hst] at h1
          cases h1
        · intro hflag
          cases hflag
  | some node =>
    left
    obtain ⟨hfid, hnk, hev⟩ := h.node_ok f node hst
    have hfind := replacerInv_find r h f node hst
    cases hflag : node.is_evictable_ with
    | false =>
      refine ⟨{ r with
          current_timestamp_ := r.current_timestamp_ + 1,
          node_store_ := mapSet r.node_store_ f
            (node.AddHistory (r.current_timestamp_ + 1)) }, ?_, ?_⟩
      · simp [RecordAccess, hst, hflag]
      · refine replacerInv_update r _ f _ h rfl ?_ rfl ⟨hfid, hnk⟩ (fun e _ => Iff.rfl) ?_ ?_
          h.set_nodup h.sorted
        · show (mapSet r.node_store_ f _).length ≤ r.replacer_size_
          rw [length_mapSet_of_found _ _ _ node h.store_nodup hst]
          exact h.capacity
        · intro e he hfe
          have := (replacerInv_entry_evictable r h f node hst e he hfe).1
          rw [hflag] at this
          cases this
        · intro hflag'
          change node.is_evictable_ = true at hflag'
          rw [hflag] at hflag'
          cases hflag'
    | true =>
      rw [hflag] at hfind
      refine ⟨{ r with
          current_timestamp_ := r.current_timestamp_ + 1,
          node_store_ := mapSet r.node_store_ f
            (node.AddHistory (r.current_timestamp_ + 1)),
          frame_set_ := frameSetInsert (node.AddHistory (r.current_timestamp_ + 1))
            (frameSetErase node r.frame_set_) }, ?_, ?_⟩
      · simp [RecordAccess, hst, hflag, hfind]
      · have hmem : ∀ e, e ∈ frameSetInsert (node.AddHistory (r.current_timestamp_ + 1))
            (frameSetErase node r.frame_set_) ↔
            e = node.AddHistory (r.current_timestamp_ + 1) ∨ (e ∈ r.frame_set_ ∧ e.fid_ ≠ f) := by
          intro e
          rw [mem_frameSetInsert, mem_frameSetErase, hfid]
        refine replacerInv_update r _ f _ h rfl ?_ rfl ⟨hfid, hnk⟩ ?_ ?_ ?_ ?_ ?_
        · show (mapSet r.node_store_ f _).length ≤ r.replacer_size_
          rw [length_mapSet_of_found _ _ _ node h.store_nodup hst]
          exact h.capacity
        · intro e hef
          show e ∈ frameSetInsert _ _ ↔ _
          rw [hmem]
          constructor
          · rintro (he | he)
            · rw [he] at hef
              exact absurd hfid hef
            · exact he.1
          · intro he
            exact Or.inr ⟨he, hef⟩
        · intro e he hef
          change e ∈ frameSetInsert _ _ at he
          rw [hmem] at he
          rcases he with he | he
          · rw [he]
            exact ⟨hflag, rfl, rfl⟩
          · exact absurd hef he.2
        · intro _
          exact ⟨_, (hmem _).mpr (Or.inl rfl), hfid⟩
        · show ((frameSetInsert _ _).map fun e => e.fid_).Nodup
          apply nodup_frameSetInsert _ _ (nodup_frameSetErase _ _ h.set_nodup)
          intro e he
          rw [mem_frameSetErase] at he
          exact he.2
        · exact sorted_frameSetInsert _ _ (sorted_frameSetErase _ _ h.sorted)

/-- The call `SetEvictable` with the flag the node of the frame already has changes
nothing. -/
theorem setEvictable_same (r : LRUKReplacer) (f : Int) (node : LRUKNode) (b : Bool)
    (hst : mapFind r.node_store_ f = some node) (hflag : node.is_evictable_ = b) :
    r.SetEvictable f b = r := by
  simp [SetEvictable, hst, hflag]

/-- The call `SetEvictable(f, true)` on a tracked frame that is not evictable. -/
theorem setEvictable_true (r : LRUKReplacer) (f : Int) (node : LRUKNode)
    (hst : mapFind r.node_store_ f = some node) (hflag : node.is_evictable_ = false) :
    r.SetEvictable f true =
      { r with
        frame_set_ :=
          if frameSetFind node r.frame_set_ then r.frame_set_
          else frameSetInsert node r.frame_set_,
        node_store_ := mapSet r.node_store_ f { node with is_evictable_ := true } } := by
  simp [SetEvictable, hst, hflag]

/-- The call `SetEvictable(f, false)` on a tracked frame that is evictable. -/
theorem setEvictable_false (r : LRUKReplacer) (f : Int) (node : LRUKNode)
    (hst : mapFind r.node_store_ f = some node) (hflag : node.is_evictable_ = true) :
    r.SetEvictable f false =
      { r with
        node_store_ := mapSet r.node_store_ f { node with is_evictable_ := false },
        frame_set_ :=
          if frameSetFind { node with is_evictable_ := false } r.frame_set_ then
            frameSetErase { node with is_evictable_ := false } r.frame_set_
          else r.frame_set_ } := by
  simp [SetEvictable, hst, hflag]

/-- The call `SetEvictable` on a tracked frame keeps the invariant. -/
theorem replacerInv_setEvictable (r : LRUKReplacer) (f : Int) (b : Bool) (h : Inv r)
    (htracked : r.tracked f = true) : Inv (r.SetEvictable f b) := by
  obtain ⟨node, hst⟩ := Option.isSome_iff_exists.mp htracked
  obtain ⟨hfid, hnk, hev⟩ := h.node_ok f node hst
  have hfind := replacerInv_find r h f node hst
  have hlen : (mapSet r.node_store_ f { node with is_evictable_ := b }).length ≤
      r.replacer_size_ := by
    rw [length_mapSet_of_found _ _ _ node h.store_nodup hst]
    exact h.capacity
  by_cases hflag : node.is_evictable_ = b
  · rw [setEvictable_same r f node b hst hflag]
    exact h
  · cases b with
    | true =>
      have hflag' : node.is_evictable_ = false := by
        cases hn : node.is_evictable_ with
        | false => rfl
        | true => exact absurd hn hflag
      rw [setEvictable_true r f node hst hflag']
      rw [hflag'] at hfind
      simp only [hfind, Bool.false_eq_true, if_false]
      have hno : ∀ e ∈ r.frame_set_, e.fid_ ≠ f := by
        intro e he hfe
        have := (replacerInv_entry_evictable r h f node hst e he hfe).1
        rw [hflag'] at this
        cases this
      refine replacerInv_update r _ f _ h rfl hlen rfl ⟨hfid, hnk⟩ ?_ ?_ ?_ ?_ ?_
      · intro e hef
        show e ∈ frameSetInsert node r.frame_set_ ↔ _
        rw [mem_frameSetInsert]
        constructor
        · rintro (he | he)
          · rw [he] at hef
            exact absurd hfid hef
          · exact he
        · exact fun he => Or.inr he
      · intro e he hef
        change e ∈ frameSetInsert node r.frame_set_ at he
        rw [mem_frameSetInsert] at he
        rcases he with he | he
        · rw [he]
          exact ⟨rfl, rfl, rfl⟩
        · exact absurd hef (hno e he)
      · intro _
        exact ⟨node, (mem_frameSetInsert node node r.frame_set_).mpr (Or.inl rfl), hfid⟩
      · show ((frameSetInsert node r.frame_set_).map fun e => e.fid_).Nodup
        apply nodup_frameSetInsert _ _ h.set_nodup
        intro e he
        rw [hfid]
        exact hno e he
      · exact sorted_frameSetInsert _ _ h.sorted
    | false =>
      have hflag' : node.is_evictable_ = true := by
        cases hn : node.is_evictable_ with
        | true => rfl
        | false => exact absurd hn hflag
      rw [setEvictable_false r f node hst hflag']
      have hfind' : frameSetFind { node with is_evictable_ := false } r.frame_set_ = true := by
        rw [hflag'] at hfind
        exact hfind
      simp only [hfind', if_true]
      refine replacerInv_update r _ f _ h rfl hlen rfl ⟨hfid, hnk⟩ ?_ ?_ ?_ ?_ ?_
      · intro e hef
        show e ∈ frameSetErase _ r.frame_set_ ↔ _
        rw [mem_frameSetErase]
        exact ⟨fun he => he.1, fun he => ⟨he, by rw [hfid] at *; exact hef⟩⟩
      · intro e he hef
        change e ∈ frameSetErase _ r.frame_set_ at he
        rw [mem_frameSetErase] at he
        exact absurd (hef.trans hfid.symm) he.2
      · intro hc
        cases hc
      · exact nodup_frameSetErase _ _ h.set_nodup
      · exact sorted_frameSetErase _ _ h.sorted

/-- The call `Evict` keeps the invariant. -/
theorem replacerInv_evict (r : LRUKReplacer) (h : Inv r) : Inv r.Evict.1 := by
  cases hfs : r.frame_set_ with
  | nil =>
    rw [evict_nil r hfs]
    exact h
  | cons e rest =>
    rw [evict_cons r e rest hfs]
    have hnd := h.set_nodup
    have hso := h.sorted
    rw [hfs] at hnd hso
    rw [List.map_cons, List.nodup_cons] at hnd
    rw [List.pairwise_cons] at hso
    refine replacerInv_erase r _ e.fid_ h rfl rfl rfl ?_ hnd.2 hso.2
    intro x
    show x ∈ rest ↔ _
    rw [hfs, List.mem_cons]
    constructor
    · intro hx
      refine ⟨Or.inr hx, fun heq => hnd.1 ?_⟩
      rw [← heq]
      exact List.mem_map_of_mem (fun e => e.fid_) hx
    · rintro ⟨hx | hx, hne⟩
      · rw [hx] at hne
        exact absurd rfl hne
      · exact hx

/-- The call `Remove` on an evictable or untracked frame. -/
theorem remove_ok (r : LRUKReplacer) (f : Int) (h : Inv r) (hev : r.tracked f = true →
    r.evictable f = true) :
    ∃ s, r.Remove f = Throws.ok s ∧ Inv s ∧ s.tracked f = false ∧
      (∀ e ∈ s.frame_set_, e.fid_ ≠ f) := by
  cases hst : mapFind r.node_store_ f with
  | none =>
    refine ⟨r, by simp [Remove, hst], h, by simp [tracked, hst], fun e he hfe => ?_⟩
    obtain ⟨nd, h1, _⟩ := h.set_ok e he
    rw [hfe, hst] at h1
    cases h1
  | some node =>
    have hflag : node.is_evictable_ = true := by
      have := hev (by simp [tracked, hst])
      simpa [evictable, hst] using this
    obtain ⟨hfid, _, _⟩ := h.node_ok f node hst
    have hfind := replacerInv_find r h f node hst
    rw [hflag] at hfind
    refine ⟨{ r with
        node_store_ := mapErase r.node_store_ f,
        frame_set_ := frameSetErase node r.frame_set_ }, by simp [Remove, hst, hflag, hfind],
      ?_, ?_, ?_⟩
    · refine replacerInv_erase r _ f h rfl rfl rfl ?_ (nodup_frameSetErase _ _ h.set_nodup)
        (sorted_frameSetErase _ _ h.sorted)
      intro e
      show e ∈ frameSetErase node r.frame_set_ ↔ _
      rw [mem_frameSetErase, hfid]
    · show (mapFind (mapErase r.node_store_ f) f).isSome = false
      rw [mapFind_mapErase]
      simp
    · intro e he
      change e ∈ frameSetErase node r.frame_set_ at he
      rw [mem_frameSetErase, hfid] at he
      exact he.2

/-- A call that returns or throws keeps the invariant. -/
theorem replacerInv_step (r s : LRUKReplacer) (c : Op) (h : Inv r) (hc : r.onTracked c)
    (hs : r.step c = some s) : Inv s := by
  cases c with
  | RecordAccess f =>
    simp only [step] at hs
    rcases replacerInv_recordAccess r f h with ⟨s', hcall, hinv⟩ | ⟨s', hcall, hinv⟩
    · rw [hcall] at hs
      cases hs
      exact hinv
    · rw [hcall] at hs
      cases hs
      exact hinv
  | SetEvictable f b =>
    simp only [step, Option.some.injEq] at hs
    rw [← hs]
    exact replacerInv_setEvictable r f b h hc
  | Evict =>
    simp only [step, Option.some.injEq] at hs
    rw [← hs]
    exact replacerInv_evict r h
  | Remove f =>
    simp only [step] at hs
    cases hst : mapFind r.node_store_ f with
    | none =>
      obtain ⟨s', hcall, hinv, _⟩ := remove_ok r f h (fun ht => by simp [tracked, hst] at ht)
      rw [hcall] at hs
      cases hs
      exact hinv
    | some node =>
      cases hflag : node.is_evictable_ with
      | false =>
        have : r.Remove f = Throws.undefined := by simp [Remove, hst, hflag]
        rw [this] at hs
        cases hs
      | true =>
        obtain ⟨s', hcall, hinv, _⟩ := remove_ok r f h
          (fun _ => by simp [evictable, hst, hflag])
        rw [hcall] at hs
        cases hs
        exact hinv

/-- Every reachable replacer state satisfies the invariant. -/
theorem replacerInv_reachable (r : LRUKReplacer) (h : Reachable r) : Inv r := by
  induction h with
  | init num_frames k => exact replacerInv_new num_frames k
  | step r s c _ hc hs ih => exact replacerInv_step r s c ih hc hs

/-- C28: in every replacer state in which the number of tracked frames equals
`replacer_size_`, `RecordAccess(f)` on an untracked frame throws and leaves the tracked
frames, their histories and the evictable set as they are (only the timestamp has moved on).
`RecordAccess` on a tracked frame throws in no state, and in every reachable state it
returns. -/
theorem C28_record_access_at_capacity (r : LRUKReplacer) (f : Int) :
    (r.tracked f = false → r.node_store_.length = r.replacer_size_ →
      ∃ s, r.RecordAccess f = Throws.exception s ∧ s.node_store_ = r.node_store_ ∧
        s.frame_set_ = r.frame_set_ ∧ s.replacer_size_ = r.replacer_size_ ∧ s.k_ = r.k_ ∧
        (∀ g, s.tracked g = r.tracked g) ∧ (∀ g, s.evictable g = r.evictable g) ∧
        s.Size = r.Size) ∧
    (r.tracked f = true → ∀ s, r.RecordAccess f ≠ Throws.exception s) ∧
    (Reachable r → r.tracked f = true → ∃ s, r.RecordAccess f = Throws.ok s) := by
  have hnot : r.tracked f = true → ∀ s, r.RecordAccess f ≠ Throws.exception s := by
    intro ht s
    obtain ⟨node, hst⟩ := Option.isSome_iff_exists.mp ht
    unfold RecordAccess
    simp only [hst]
    split_ifs <;> simp
  refine ⟨fun hun hfull => ?_, hnot, fun hr ht => ?_⟩
  · have hst : mapFind r.node_store_ f = none := by
      cases hm : mapFind r.node_store_ f with
      | none => rfl
      | some node => simp [tracked, hm] at hun
    exact ⟨{ r with current_timestamp_ := r.current_timestamp_ + 1 },
      by simp [RecordAccess, hst, hfull], rfl, rfl, rfl, rfl, fun g => rfl, fun g => rfl, rfl⟩
  · rcases replacerInv_recordAccess r f (replacerInv_reachable r hr) with ⟨s, hs, _⟩ | ⟨s, hs, _⟩
    · exact ⟨s, hs⟩
    · exact absurd hs (hnot ht s)

/-- C28 at a concrete input: the replacer of one frame after `RecordAccess(0)` is at
capacity; `RecordAccess(1)` throws and `RecordAccess(0)` returns. -/
theorem C28_record_access_at_capacity_witness :
    (∃ s, (after 1 2 [Op.RecordAccess 0]).RecordAccess 1 = Throws.exception s ∧
      s.node_store_ = (after 1 2 [Op.RecordAccess 0]).node_store_ ∧
      s.frame_set_ = (after 1 2 [Op.RecordAccess 0]).frame_set_) ∧
    (∃ s, (after 1 2 [Op.RecordAccess 0]).RecordAccess 0 = Throws.ok s) := by
  have hreach : Reachable (after 1 2 [Op.RecordAccess 0]) :=
    Reachable.step (LRUKReplacer.new 1 2) _ (Op.RecordAccess 0) (Reachable.init 1 2) trivial rfl
  obtain ⟨s, h1, h2, h3, _⟩ :=
    (C28_record_access_at_capacity (after 1 2 [Op.RecordAccess 0]) 1).1 rfl rfl
  exact ⟨⟨s, h1, h2, h3⟩,
    (C28_record_access_at_capacity (after 1 2 [Op.RecordAccess 0]) 0).2.2 hreach rfl⟩

/-- C39 (the code at the failing input): on the replacer `LRUKReplacer(1, 2)` the calls
`RecordAccess(0)` and `SetEvictable(5, false)` leave two tracked frames, 0 and 5, in a
replacer of size 1: `node_store_[frame_id]` in `SetEvictable` enters a node for the frame 5
without the test of the capacity that `RecordAccess` makes. `RecordAccess(5)` in place of the
second call throws and leaves one tracked frame. -/
theorem C39_set_evictable_exceeds_capacity :
    (after 1 2 [Op.RecordAccess 0, Op.SetEvictable 5 false]).replacer_size_ = 1 ∧
    (after 1 2 [Op.RecordAccess 0, Op.SetEvictable 5 false]).node_store_.length = 2 ∧
    (after 1 2 [Op.RecordAccess 0, Op.SetEvictable 5 false]).tracked 0 = true ∧
    (after 1 2 [Op.RecordAccess 0, Op.SetEvictable 5 false]).tracked 5 = true ∧
    (after 1 2 [Op.RecordAccess 0, Op.SetEvictable 5 false]).Size = 0 ∧
    (∃ s, (after 1 2 [Op.RecordAccess 0]).RecordAccess 5 = Throws.exception s ∧
      s.node_store_.length = 1) := by
  refine ⟨by decide, by decide, by decide, by decide, by decide, _, rfl, by decide⟩


end LRUKReplacer

/-! # Properties of the copy-on-write trie -/

namespace Trie
open BufferPoolManager (mapFind_mapSet mapFind_mapErase)
theorem mem_mapSet {K V : Type} [DecidableEq K] (m : List (K × V)) (k : K) (v : V)
    (e : K × V) (he : e ∈ mapSet m k v) : e = (k, v) ∨ e ∈ m := by
  unfold mapSet mapErase at he
  rcases List.mem_cons.mp he with h | h
  · exact Or.inl h
  · exact Or.inr (List.mem_of_mem_filter h)

theorem heapGet_of_prefix (H0 H : Heap) (hpre : H0 <+: H) (a : Nat) (ha : a < H0.length) :
    H.get? a = H0.get? a := by
  obtain ⟨extra, rfl⟩ := hpre
  simp only [List.get?_eq_getElem?]
  exact List.getElem?_append_left ha

theorem length_le_of_prefix (H0 H : Heap) (hpre : H0 <+: H) : H0.length ≤ H.length :=
  hpre.length_le

theorem prefix_set (H0 H : Heap) (hpre : H0 <+: H) (i : Nat) (x : TrieNode)
    (hi : H0.length ≤ i) : H0 <+: H.set i x := by
  obtain ⟨extra, rfl⟩ := hpre
  refine ⟨extra.set (i - H0.length) x, ?_⟩
  rw [List.set_append]
  simp [Nat.not_lt.mpr hi]

theorem prefix_alloc (H0 H : Heap) (hpre : H0 <+: H) (node : TrieNode) :
    H0 <+: (alloc H node).1 := by
  obtain ⟨extra, rfl⟩ := hpre
  exact ⟨extra ++ [node], by simp [alloc]⟩

theorem heapGet_alloc_lt (H : Heap) (node : TrieNode) (a : Nat) (ha : a < H.length) :
    (alloc H node).1.get? a = H.get? a := by
  simp only [alloc, List.get?_eq_getElem?]
  exact List.getElem?_append_left ha

theorem heapGet_alloc_new (H : Heap) (node : TrieNode) :
    (alloc H node).1.get? H.length = some node := by
  simp [alloc, List.get?_eq_getElem?]

theorem heapGet_set_ne (H : Heap) (i a : Nat) (x : TrieNode) (h : a ≠ i) :
    (H.set i x).get? a = H.get? a := by
  simp only [List.get?_eq_getElem?]
  exact List.getElem?_set_ne (Ne.symm h)

theorem heapGet_set_eq (H : Heap) (i : Nat) (x : TrieNode) (h : i < H.length) :
    (H.set i x).get? i = some x := by
  simp only [List.get?_eq_getElem?]
  simp [h]

theorem heapOK_get (H : Heap) (hok : HeapOK H) (a : Nat) (node : TrieNode)
    (h : H.get? a = some node) :
    (∀ e ∈ node.children_, e.2 < H.length) ∧ node.is_value_node_ = node.value_.isSome :=
  hok node (List.get?_mem h)

theorem heapOK_alloc (H : Heap) (hok : HeapOK H) (node : TrieNode)
    (hc : ∀ e ∈ node.children_, e.2 < H.length)
    (hv : node.is_value_node_ = node.value_.isSome) : HeapOK (alloc H node).1 := by
  intro x hx
  simp only [alloc, List.mem_append, List.mem_singleton, List.length_append,
    List.length_singleton] at hx ⊢
  rcases hx with hx | hx
  · exact ⟨fun e he => Nat.lt_succ_of_lt ((hok x hx).1 e he), (hok x hx).2⟩
  · subst hx
    exact ⟨fun e he => Nat.lt_succ_of_lt (hc e he), hv⟩

theorem heapOK_set (H : Heap) (hok : HeapOK H) (i : Nat) (node : TrieNode)
    (hc : ∀ e ∈ node.children_, e.2 < H.length)
    (hv : node.is_value_node_ = node.value_.isSome) : HeapOK (H.set i node) := by
  intro x hx
  rw [List.length_set]
  rcases List.mem_or_eq_of_mem_set hx with h | h
  · exact hok x h
  · subst h
    exact ⟨hc, hv⟩

theorem setChild_eq (H : Heap) (ptr : Nat) (c : Char) (child : Nat) (node : TrieNode)
    (h : H.get? ptr = some node) :
    setChild H ptr c child =
      some (H.set ptr { node with children_ := mapSet node.children_ c child }) := by
  unfold setChild
  rw [h]

theorem getFrom_eq (H : Heap) (ptr : Nat) (key : List Char) (type : Nat) :
    getFrom H ptr key type = (H.get? ptr).bind fun node => getVia H node key type := by
  cases key with
  | nil =>
    simp only [getFrom, walk, getVia]
    cases H.get? ptr <;> rfl
  | cons c rest =>
    simp only [getFrom, walk, getVia]
    cases H.get? ptr with
    | none => rfl
    | some node =>
      simp only [Option.some_bind]
      cases mapFind node.children_ c <;> rfl

theorem valueOf_Clone (node : TrieNode) (type : Nat)
    (hv : node.is_value_node_ = node.value_.isSome) :
    valueOf node.Clone type = valueOf node type := by
  unfold TrieNode.Clone valueOf
  cases hval : node.value_ with
  | none => simp [hv, hval]
  | some tv => simp [hv, hval, TrieNode.withValue]

theorem children_Clone (node : TrieNode) : node.Clone.children_ = node.children_ := by
  unfold TrieNode.Clone
  cases node.value_ <;> rfl

theorem flag_Clone (node : TrieNode) :
    node.Clone.is_value_node_ = node.Clone.value_.isSome := by
  unfold TrieNode.Clone
  cases node.value_ <;> rfl

theorem mem_of_mapFind {K V : Type} [DecidableEq K] (m : List (K × V)) (k : K) (v : V)
    (h : mapFind m k = some v) : (k, v) ∈ m := by
  induction m with
  | nil => simp [mapFind] at h
  | cons e l ih =>
    simp only [mapFind] at h
    split at h
    · rename_i he
      cases h
      rw [← he]
      exact List.mem_cons_self _ _
    · exact List.mem_cons_of_mem _ (ih h)

/-- A walk that starts at a node of the former heap stays in the former heap, which later
allocations and assignments to new nodes leave as it was: `Get` gives what it gave. -/
theorem getFrom_old (H0 H : Heap) (hok : HeapOK H0) (hpre : H0 <+: H) (type : Nat) :
    ∀ (key : List Char) (a : Nat), a < H0.length →
      getFrom H a key type = getFrom H0 a key type := by
  intro key
  induction key with
  | nil =>
    intro a ha
    rw [getFrom_eq, getFrom_eq, heapGet_of_prefix H0 H hpre a ha]
    cases H0.get? a <;> rfl
  | cons c rest ih =>
    intro a ha
    rw [getFrom_eq, getFrom_eq, heapGet_of_prefix H0 H hpre a ha]
    cases hget : H0.get? a with
    | none => rfl
    | some node =>
      simp only [Option.some_bind, getVia]
      cases hfind : mapFind node.children_ c with
      | none => rfl
      | some temp =>
        simp only
        apply ih
        have hmem : (c, temp) ∈ node.children_ := mem_of_mapFind _ _ _ hfind
        exact (heapOK_get H0 hok a node hget).1 _ hmem

/-- `Get` from a node given by its content, whose children are nodes of the former heap. -/
theorem getVia_old (H0 H : Heap) (hok : HeapOK H0) (hpre : H0 <+: H) (node : TrieNode)
    (hc : ∀ e ∈ node.children_, e.2 < H0.length) (key : List Char) (type : Nat) :
    getVia H node key type = getVia H0 node key type := by
  cases key with
  | nil => rfl
  | cons c rest =>
    simp only [getVia]
    cases hfind : mapFind node.children_ c with
    | none => rfl
    | some temp =>
      exact getFrom_old H0 H hok hpre type rest temp (hc _ (mem_of_mapFind _ _ _ hfind))


/-- The allocation of a child node and its assignment to `ptr->children_[c]`, for a node
`ptr` that was allocated after the former heap `H0`: the former heap and the other nodes stay
as they were. -/
theorem attach_spec (H0 H : Heap) (hpre : H0 <+: H) (hok : HeapOK H) (ptr : Nat)
    (node : TrieNode) (hget : H.get? ptr = some node) (hptr : H0.length ≤ ptr) (c : Char)
    (cn : TrieNode) (hcn : ∀ e ∈ cn.children_, e.2 < H0.length)
    (hflag : cn.is_value_node_ = cn.value_.isSome) :
    ∃ H2, setChild (alloc H cn).1 ptr c H.length = some H2 ∧ H0 <+: H2 ∧ HeapOK H2 ∧
      H2.length = H.length + 1 ∧ (∀ a, a < H.length → a ≠ ptr → H2.get? a = H.get? a) ∧
      H2.get? ptr = some { node with children_ := mapSet node.children_ c H.length } ∧
      H2.get? H.length = some cn := by
  have hn := length_le_of_prefix H0 H hpre
  have hlt : ptr < H.length := by
    by_contra hge
    rw [List.get?_eq_none.mpr (Nat.not_lt.mp hge)] at hget
    cases hget
  have hget1 : (alloc H cn).1.get? ptr = some node := by
    rw [heapGet_alloc_lt H cn ptr hlt]; exact hget
  have hlen1 : (alloc H cn).1.length = H.length + 1 := by simp [alloc]
  have hok1 : HeapOK (alloc H cn).1 :=
    heapOK_alloc H hok cn (fun e he => Nat.lt_of_lt_of_le (hcn e he) hn) hflag
  refine ⟨_, setChild_eq _ ptr c H.length node hget1, prefix_set H0 _ (prefix_alloc H0 H hpre cn)
    ptr _ hptr, ?_, ?_, ?_, ?_, ?_⟩
  · apply heapOK_set _ hok1
    · intro e he
      rw [hlen1]
      rcases mem_mapSet _ _ _ _ he with h | h
      · rw [h]; exact Nat.lt_succ_self _
      · exact Nat.lt_succ_of_lt ((heapOK_get H hok ptr node hget).1 e h)
    · exact (heapOK_get H hok ptr node hget).2
  · rw [List.length_set, hlen1]
  · intro a ha hne
    rw [heapGet_set_ne _ _ _ _ hne, heapGet_alloc_lt H cn a ha]
  · exact heapGet_set_eq _ _ _ (by rw [hlen1]; exact Nat.lt_succ_of_lt hlt)
  · rw [heapGet_set_ne _ _ _ _ (Nat.ne_of_gt hlt)]
    exact heapGet_alloc_new H cn

/-- The loop of `Put` below a node `ptr` that was allocated after the former heap `H0` and
whose children are nodes of the former heap: it returns, and leaves the former heap and every
other node as they were; the node `ptr` gets a new child `b` for the character `c`, from
which `Get` finds the value under the rest of the key, and under every other key what it
found from the former child. -/
theorem putLoop_spec (H0 : Heap) (hok0 : HeapOK H0) (type value : Nat) :
    ∀ (rest : List Char) (H : Heap) (ptr : Nat) (c : Char) (node : TrieNode),
      H0 <+: H → HeapOK H → H.get? ptr = some node → H0.length ≤ ptr →
      (∀ e ∈ node.children_, e.2 < H0.length) →
      ∃ H' b, putLoop type value H ptr c rest = some H' ∧ H0 <+: H' ∧ HeapOK H' ∧
        H.length ≤ H'.length ∧ (∀ a, a < H.length → a ≠ ptr → H'.get? a = H.get? a) ∧
        H'.get? ptr = some { node with children_ := mapSet node.children_ c b } ∧
        b < H'.length ∧ getFrom H' b rest type = some (some value) ∧
        ∀ (r' : List Char) (type' : Nat), r' ≠ rest →
          getFrom H' b r' type' = getVia H0 node (c :: r') type' := by
  intro rest
  induction rest with
  | nil =>
    intro H ptr c node hpre hok hget hptr hnode
    have hn := length_le_of_prefix H0 H hpre
    cases hfind : mapFind node.children_ c with
    | none =>
      obtain ⟨H2, hset, hpre2, hok2, hlen2, hframe, hptr2, hb2⟩ :=
        attach_spec H0 H hpre hok ptr node hget hptr c (TrieNode.withValue [] type value)
          (fun e he => by cases he) rfl
      refine ⟨H2, H.length, ?_, hpre2, hok2, by omega, hframe, hptr2, by omega, ?_, ?_⟩
      · simp only [putLoop, hget, hfind]
        exact hset
      · rw [getFrom_eq, hb2]
        simp [getVia, valueOf, TrieNode.withValue]
      · intro r' type' hr'
        rw [getFrom_eq, hb2]
        cases r' with
        | nil => exact absurd rfl hr'
        | cons c2 r2 => simp [getVia, hfind, TrieNode.withValue, mapFind]
    | some old =>
      have hold : old < H0.length := hnode _ (mem_of_mapFind _ _ _ hfind)
      have hgo : H.get? old = H0.get? old := heapGet_of_prefix H0 H hpre old hold
      obtain ⟨old_node, hgo0⟩ : ∃ old_node, H0.get? old = some old_node := by
        cases h : H0.get? old with
        | none => rw [List.get?_eq_none] at h; omega
        | some x => exact ⟨x, rfl⟩
      have hchild := (heapOK_get H0 hok0 old old_node hgo0).1
      obtain ⟨H2, hset, hpre2, hok2, hlen2, hframe, hptr2, hb2⟩ :=
        attach_spec H0 H hpre hok ptr node hget hptr c
          (TrieNode.withValue old_node.children_ type value) hchild rfl
      refine ⟨H2, H.length, ?_, hpre2, hok2, by omega, hframe, hptr2, by omega, ?_, ?_⟩
      · simp only [putLoop, hget, hfind, hgo, hgo0]
        exact hset
      · rw [getFrom_eq, hb2]
        simp [getVia, valueOf, TrieNode.withValue]
      · intro r' type' hr'
        rw [getFrom_eq, hb2]
        simp only [Option.some_bind]
        rw [getVia_old H0 H2 hok0 hpre2 (TrieNode.withValue old_node.children_ type value) hchild]
        cases r' with
        | nil => exact absurd rfl hr'
        | cons c2 r2 =>
          simp only [getVia, hfind, TrieNode.withValue]
          rw [getFrom_eq, hgo0]
          rfl
  | cons c' rest' ih =>
    intro H ptr c node hpre hok hget hptr hnode
    have hn := length_le_of_prefix H0 H hpre
    have hlt : ptr < H.length := by
      by_contra hge
      rw [List.get?_eq_none.mpr (Nat.not_lt.mp hge)] at hget
      cases hget
    -- the node that is hung under `c`, and what `Get` found from the child that was there
    obtain ⟨cn, hcn, hflag, hput, hview⟩ : ∃ cn : TrieNode,
        (∀ e ∈ cn.children_, e.2 < H0.length) ∧ cn.is_value_node_ = cn.value_.isSome ∧
        (putLoop type value H ptr c (c' :: rest') =
          (setChild (alloc H cn).1 ptr c H.length).bind fun heap =>
            putLoop type value heap H.length c' rest') ∧
        ∀ (r' : List Char) (type' : Nat),
          getVia H0 cn r' type' = getVia H0 node (c :: r') type' := by
      cases hfind : mapFind node.children_ c with
      | none =>
        refine ⟨TrieNode.empty, (fun e he => by cases he), rfl, ?_, ?_⟩
        · simp only [putLoop, hget, hfind]
          rfl
        · intro r' type'
          cases r' with
          | nil => simp [getVia, hfind, valueOf, TrieNode.empty]
          | cons c2 r2 => simp [getVia, hfind, TrieNode.empty, mapFind]
      | some old =>
        have hold : old < H0.length := hnode _ (mem_of_mapFind _ _ _ hfind)
        have hgo : H.get? old = H0.get? old := heapGet_of_prefix H0 H hpre old hold
        obtain ⟨old_node, hgo0⟩ : ∃ old_node, H0.get? old = some old_node := by
          cases h : H0.get? old with
          | none => rw [List.get?_eq_none] at h; omega
          | some x => exact ⟨x, rfl⟩
        have hold_ok := heapOK_get H0 hok0 old old_node hgo0
        refine ⟨old_node.Clone, ?_, flag_Clone old_node, ?_, ?_⟩
        · rw [children_Clone]; exact hold_ok.1
        · simp only [putLoop, hget, hfind, hgo, hgo0]
          rfl
        · intro r' type'
          simp only [getVia, hfind]
          rw [getFrom_eq, hgo0]
          simp only [Option.some_bind]
          cases r' with
          | nil => simp only [getVia, valueOf_Clone old_node type' hold_ok.2]
          | cons c2 r2 => simp only [getVia, children_Clone]
    obtain ⟨H2, hset, hpre2, hok2, hlen2, hframe, hptr2, hb2⟩ :=
      attach_spec H0 H hpre hok ptr node hget hptr c cn hcn hflag
    obtain ⟨H', b2, hloop, hpre', hok', hlen', hframe', hb', hb2lt, hg1, hg2⟩ :=
      ih H2 H.length c' cn hpre2 hok2 hb2 hn hcn
    refine ⟨H', H.length, ?_, hpre', hok', by omega, ?_, ?_, by omega, ?_, ?_⟩
    · rw [hput, hset]
      exact hloop
    · intro a ha hne
      rw [hframe' a (by omega) (by omega), hframe a ha hne]
    · rw [hframe' ptr (by omega) (by omega)]
      exact hptr2
    · rw [getFrom_eq, hb']
      simp only [Option.some_bind, getVia, mapFind_mapSet, if_true]
      exact hg1
    · intro r' type' hr'
      rw [← hview r' type', getFrom_eq, hb']
      simp only [Option.some_bind]
      cases r' with
      | nil => rfl
      | cons c2 r2 =>
        by_cases hc2 : c2 = c'
        · subst hc2
          have hr2 : r2 ≠ rest' := fun h => hr' (by rw [h])
          simp only [getVia, mapFind_mapSet, if_true]
          rw [hg2 r2 type' hr2]
          rfl
        · have hsame : getVia H' { cn with children_ := mapSet cn.children_ c' b2 }
              (c2 :: r2) type' = getVia H' cn (c2 :: r2) type' := by
            simp only [getVia, mapFind_mapSet, if_neg hc2]
          rw [hsame]
          exact getVia_old H0 H' hok0 hpre' cn hcn _ _


theorem getVia_Clone (H : Heap) (node : TrieNode) (key : List Char) (type : Nat)
    (hv : node.is_value_node_ = node.value_.isSome) :
    getVia H node.Clone key type = getVia H node key type := by
  cases key with
  | nil => simp only [getVia, valueOf_Clone node type hv]
  | cons c rest => simp only [getVia, children_Clone]

/-- The function `Put` on a trie with a root in a well-formed heap: it returns a trie from
which `Get` finds the value under the key and, under every other key, what `Get` found from
the former root; the former heap is left as it was. -/
theorem putRooted_spec (H0 : Heap) (hok0 : HeapOK H0) (root : Nat) (hroot : root < H0.length)
    (key : List Char) (type value : Nat) :
    ∃ H' t', putRooted H0 root key type value = some (H', t') ∧ H0 <+: H' ∧ HeapOK H' ∧
      t'.inHeap H' ∧ Get H' t' key type = some (some value) ∧
      ∀ (key' : List Char) (type' : Nat), key' ≠ key →
        Get H' t' key' type' = getFrom H0 root key' type' := by
  obtain ⟨root_node, hgr⟩ : ∃ root_node, H0.get? root = some root_node := by
    cases h : H0.get? root with
    | none => rw [List.get?_eq_none] at h; omega
    | some x => exact ⟨x, rfl⟩
  have hrn := heapOK_get H0 hok0 root root_node hgr
  have hcc : ∀ e ∈ root_node.Clone.children_, e.2 < H0.length := by
    rw [children_Clone]; exact hrn.1
  have hpre1 : H0 <+: (alloc H0 root_node.Clone).1 := prefix_alloc H0 H0 (List.prefix_refl _) _
  have hok1 : HeapOK (alloc H0 root_node.Clone).1 :=
    heapOK_alloc H0 hok0 _ hcc (flag_Clone root_node)
  have hlen1 : (alloc H0 root_node.Clone).1.length = H0.length + 1 := by simp [alloc]
  have hold : ∀ (key' : List Char) (type' : Nat),
      getVia H0 root_node.Clone key' type' = getFrom H0 root key' type' := by
    intro key' type'
    rw [getVia_Clone H0 root_node key' type' hrn.2, getFrom_eq, hgr]
    rfl
  cases key with
  | nil =>
    have hpre2 : H0 <+: (alloc (alloc H0 root_node.Clone).1
        (TrieNode.withValue root_node.Clone.children_ type value)).1 :=
      prefix_alloc H0 _ hpre1 _
    have hget2 : (alloc (alloc H0 root_node.Clone).1
        (TrieNode.withValue root_node.Clone.children_ type value)).1.get?
          (alloc H0 root_node.Clone).1.length =
        some (TrieNode.withValue root_node.Clone.children_ type value) := heapGet_alloc_new _ _
    refine ⟨_, { root_ := some (alloc H0 root_node.Clone).1.length }, ?_, hpre2, ?_, ?_, ?_, ?_⟩
    · simp only [putRooted, hgr]
      rfl
    · exact heapOK_alloc _ hok1 _
        (fun e he => by rw [hlen1]; exact Nat.lt_succ_of_lt (hcc e he)) rfl
    · intro r hr
      cases hr
      simp [alloc]
    · simp only [Get]
      rw [getFrom_eq, hget2]
      simp [getVia, valueOf, TrieNode.withValue]
    · intro key' type' hne
      simp only [Get]
      rw [getFrom_eq, hget2]
      simp only [Option.some_bind]
      rw [getVia_old H0 _ hok0 hpre2 (TrieNode.withValue root_node.Clone.children_ type value)
        hcc, ← hold key' type']
      cases key' with
      | nil => exact absurd rfl hne
      | cons c2 r2 => rfl
  | cons c rest =>
    obtain ⟨H', b, hloop, hpre', hok', hlen', _, hptr', hb, hg1, hg2⟩ :=
      putLoop_spec H0 hok0 type value rest (alloc H0 root_node.Clone).1 H0.length c
        root_node.Clone hpre1 hok1 (heapGet_alloc_new _ _) (Nat.le_refl _) hcc
    refine ⟨H', { root_ := some H0.length }, ?_, hpre', hok', ?_, ?_, ?_⟩
    · simp only [putRooted, hgr]
      show (putLoop type value (alloc H0 root_node.Clone).1 H0.length c rest).map _ = _
      rw [hloop]
      rfl
    · intro r hr
      cases hr
      omega
    · simp only [Get]
      rw [getFrom_eq, hptr']
      simp only [Option.some_bind, getVia, mapFind_mapSet, if_true]
      exact hg1
    · intro key' type' hne
      simp only [Get]
      rw [getFrom_eq, hptr', ← hold key' type']
      simp only [Option.some_bind]
      cases key' with
      | nil => rfl
      | cons c2 r2 =>
        by_cases hc2 : c2 = c
        · subst hc2
          have hr2 : r2 ≠ rest := fun h => hne (by rw [h])
          simp only [getVia, mapFind_mapSet, if_true]
          rw [hg2 r2 type' hr2]
          rfl
        · have hsame : getVia H'
              { root_node.Clone with children_ := mapSet root_node.Clone.children_ c b }
              (c2 :: r2) type' = getVia H' root_node.Clone (c2 :: r2) type' := by
            simp only [getVia, mapFind_mapSet, if_neg hc2]
          rw [hsame]
          exact getVia_old H0 H' hok0 hpre' _ hcc _ _

/-- C33: for every trie `t` in a well-formed heap, every key (the empty key included) and
every value, `t.Put(key, value)` returns a trie `t'` with `t'.Get(key) = value`, and with
`t'.Get(key') = t.Get(key')` for every other key `key'` (for every type asked for). The trie
`t` is not modified: the nodes of the former heap are all left as they were (the former heap
is a prefix of the new one), and `Get` on `t` gives afterwards what it gave before. The new
heap is well formed and holds `t'`. -/
theorem C33_trie_put_get (heap : Heap) (t : Trie) (key : List Char) (type value : Nat)
    (hok : HeapOK heap) (ht : t.inHeap heap) :
    ∃ heap' t', Put heap t key type value = some (heap', t') ∧
      Get heap' t' key type = some (some value) ∧
      (∀ (key' : List Char) (type' : Nat), key' ≠ key →
        Get heap' t' key' type' = Get heap t key' type') ∧
      heap <+: heap' ∧
      (∀ (key' : List Char) (type' : Nat), Get heap' t key' type' = Get heap t key' type') ∧
      HeapOK heap' ∧ t'.inHeap heap' := by
  cases hr : t.root_ with
  | none =>
    have hok1 : HeapOK (alloc heap TrieNode.empty).1 :=
      heapOK_alloc heap hok _ (fun e he => by cases he) rfl
    have hpre1 : heap <+: (alloc heap TrieNode.empty).1 :=
      prefix_alloc heap heap (List.prefix_refl _) _
    obtain ⟨H', t', hput, hpre', hok', hin', hg1, hg2⟩ :=
      putRooted_spec (alloc heap TrieNode.empty).1 hok1 heap.length (by simp [alloc]) key type
        value
    have hempty : ∀ (key' : List Char) (type' : Nat),
        getFrom (alloc heap TrieNode.empty).1 heap.length key' type' = some none := by
      intro key' type'
      rw [getFrom_eq, heapGet_alloc_new]
      cases key' with
      | nil => simp [getVia, valueOf, TrieNode.empty]
      | cons c2 r2 => simp [getVia, TrieNode.empty, mapFind]
    refine ⟨H', t', ?_, hg1, ?_, hpre1.trans hpre', ?_, hok', hin'⟩
    · simp only [Put, hr]
      exact hput
    · intro key' type' hne
      rw [hg2 key' type' hne, hempty]
      simp [Get, hr]
    · intro key' type'
      simp [Get, hr]
  | some root =>
    have hroot : root < heap.length := ht root hr
    obtain ⟨H', t', hput, hpre', hok', hin', hg1, hg2⟩ :=
      putRooted_spec heap hok root hroot key type value
    refine ⟨H', t', ?_, hg1, ?_, hpre', ?_, hok', hin'⟩
    · simp only [Put, hr]
      exact hput
    · intro key' type' hne
      rw [hg2 key' type' hne]
      simp [Get, hr]
    · intro key' type'
      simp only [Get, hr]
      exact getFrom_old heap H' hok hpre' type' key' root hroot

/-- C33 at a concrete input: on the trie without root in the empty heap, `Put("ab", 7)`
returns a trie from which `Get("ab")` finds 7. -/
theorem C33_trie_put_get_witness :
    ∃ heap' t', Put [] { root_ := none } ['a', 'b'] 0 7 = some (heap', t') ∧
      Get heap' t' ['a', 'b'] 0 = some (some 7) := by
  obtain ⟨heap', t', h1, h2, _⟩ := C33_trie_put_get [] { root_ := none } ['a', 'b'] 0 7
    (fun node hnode => by cases hnode) (fun root hroot => by cases hroot)
  exact ⟨heap', t', h1, h2⟩


end Trie

end bustub
